import Mathlib

/-!
# avlhist-go: a streaming histogram over a sliding window

A shallow embedding of `histogram-item.go`, `histogram-buckets.go` and
`histogram.go`.

* A Go pointer `*HistogramItem` is an address `Option Nat` (`none` is `nil`) into a
  `Heap`, the list of all allocated cells.
* `float64` is read as exact rational arithmetic (`ℚ`); `int64` as `Int`, which is
  the arithmetic of `int64` as long as the counts stay in its range.  The conversion
  `int64(x)` of a float (`goTrunc`) has the range of `int64`.
* A division by zero, which `float64` answers with an infinity or `NaN`, is `0` in `ℚ`.
  The total count a cursor divides by is zero only after a call with a batch count, and
  the theorems about cursors are stated for calls with single samples.
* A Go loop or recursion is a function with a step budget.  A program that would
  dereference `nil` or index a slice out of range yields `Fault.nilDeref` or
  `Fault.outOfRange`; a walk longer than the number of allocated cells (a pointer
  cycle, on which the Go loop would not end) yields `Fault.fuel`.
* Log output (`DEBUG`, `log.Printf`) and the mutex are left out.
-/

namespace Hist

/-- The ways a run can fail to return. -/
inductive Fault where
  | nilDeref
  | outOfRange
  | fuel
  deriving DecidableEq, Repr

abbrev Ptr := Option Nat

/-- The Go struct `HistogramItem`. -/
structure HistogramItem where
  Value : ℚ
  Left : Ptr
  Right : Ptr
  Parent : Ptr
  Smaller : Ptr
  Larger : Ptr
  Height : Int
  Count : Int
  Duplications : Int
  deriving Repr

/-- The Go constructor `NewHistogramItem`. -/
def NewHistogramItem (v : ℚ) : HistogramItem :=
  { Value := v, Left := none, Right := none, Parent := none, Smaller := none,
    Larger := none, Height := 1, Count := 1, Duplications := 1 }

/-- The store of all `HistogramItem` cells: a cell's address is its position. -/
structure Heap where
  cells : List HistogramItem

namespace Heap

def empty : Heap := { cells := [] }

/-- The number of allocated cells, which is the next fresh address. -/
def size (h : Heap) : Nat := h.cells.length

def get (h : Heap) (i : Nat) : HistogramItem := h.cells.getD i (NewHistogramItem 0)

def set (h : Heap) (i : Nat) (x : HistogramItem) : Heap :=
  { cells := h.cells.set i x }

def modify (h : Heap) (i : Nat) (f : HistogramItem → HistogramItem) : Heap :=
  h.set i (f (h.get i))

/-- Allocation `&HistogramItem{...}`: the new address and the grown store. -/
def alloc (h : Heap) (x : HistogramItem) : Nat × Heap :=
  (h.size, { cells := h.cells ++ [x] })

/-- A budget no walk over distinct cells can exhaust. -/
def budget (h : Heap) : Nat := h.size + 1

end Heap

/-- Dereference of a pointer that Go does not test for `nil`. -/
def deref (p : Ptr) : Except Fault Nat :=
  match p with
  | some i => .ok i
  | none => .error .nilDeref

/-- `t.Find(v)` for a non-nil receiver `t`. -/
def Find (h : Heap) : Nat → Nat → ℚ → Except Fault Ptr
  | 0, _, _ => .error .fuel
  | k + 1, t, v =>
    if (h.get t).Value = v then .ok (some t)
    else if v < (h.get t).Value ∧ (h.get t).Left ≠ none then
      match (h.get t).Left with
      | some l => Find h k l v
      | none => .ok none
    else if v > (h.get t).Value ∧ (h.get t).Right ≠ none then
      match (h.get t).Right with
      | some r => Find h k r v
      | none => .ok none
    else .ok none

/-- The loop `for ; c.Left != nil; c = c.Left {}`. -/
def leftmost (h : Heap) : Nat → Nat → Except Fault Nat
  | 0, _ => .error .fuel
  | k + 1, c =>
    match (h.get c).Left with
    | some l => leftmost h k l
    | none => .ok c

/-- The loop `for ; c.Right != nil; c = c.Right {}`. -/
def rightmost (h : Heap) : Nat → Nat → Except Fault Nat
  | 0, _ => .error .fuel
  | k + 1, c =>
    match (h.get c).Right with
    | some r => rightmost h k r
    | none => .ok c

/-- `t.FindSmallestInRight()`. -/
def FindSmallestInRight (h : Heap) (t : Nat) : Except Fault Ptr :=
  match (h.get t).Right with
  | none => .ok none
  | some c => do
    let m ← leftmost h h.budget c
    pure (some m)

/-- `t.FindLargestInLeft()`. -/
def FindLargestInLeft (h : Heap) (t : Nat) : Except Fault Ptr :=
  match (h.get t).Left with
  | none => .ok none
  | some c => do
    let m ← rightmost h h.budget c
    pure (some m)

/-- The loop `for ; p.Right != nil && p.Value <= v; p = p.Right {}` of `FindNoLargerThan`. -/
def walkRightWhileLE (h : Heap) (v : ℚ) : Nat → Nat → Except Fault Nat
  | 0, _ => .error .fuel
  | k + 1, p =>
    match (h.get p).Right with
    | some r => if (h.get p).Value ≤ v then walkRightWhileLE h v k r else .ok p
    | none => .ok p

/-- The loop `for ; p.Left != nil && p.Value > v; p = p.Left {}` of `FindNoLargerThan`. -/
def walkLeftWhileGT (h : Heap) (v : ℚ) : Nat → Nat → Except Fault Nat
  | 0, _ => .error .fuel
  | k + 1, p =>
    match (h.get p).Left with
    | some l => if (h.get p).Value > v then walkLeftWhileGT h v k l else .ok p
    | none => .ok p

/-- `t.FindNoLargerThan(v)`; the receiver may be `nil`. -/
def FindNoLargerThan (h : Heap) : Nat → Ptr → ℚ → Except Fault Ptr
  | 0, _, _ => .error .fuel
  | _ + 1, none, _ => .ok none
  | k + 1, some t, v =>
    if (h.get t).Value ≤ v then do
      let p ← walkRightWhileLE h v h.budget t
      if (h.get p).Value ≤ v then pure (some p)
      else
        match (h.get p).Left with
        | some l => do
          let candidate ← FindNoLargerThan h k (some l) v
          match candidate with
          | none => pure (h.get p).Parent
          | some c => pure (some c)
        | none => pure (h.get p).Parent
    else do
      let p ← walkLeftWhileGT h v h.budget t
      if (h.get p).Value > v then pure none
      else
        match (h.get p).Right with
        | some r => do
          let candidate ← FindNoLargerThan h k (some r) v
          match candidate with
          | none => pure (some p)
          | some c => pure (some c)
        | none => pure (some p)

/-- The count of the left child, `0` when there is none. -/
def leftCount (h : Heap) (n : HistogramItem) : Int :=
  match n.Left with
  | some l => (h.get l).Count
  | none => 0

/-- The loop `for pre, cur := t, t.Parent; cur != nil; pre, cur = cur, cur.Parent` of
`CumulativeCount`. -/
def cumulativeUp (h : Heap) : Nat → Nat → Ptr → Int → Except Fault Int
  | _, _, none, acc => .ok acc
  | 0, _, some _, _ => .error .fuel
  | k + 1, pre, some cur, acc =>
    if (h.get cur).Left ≠ some pre then
      cumulativeUp h k cur (h.get cur).Parent
        (acc + (h.get cur).Duplications + leftCount h (h.get cur))
    else cumulativeUp h k cur (h.get cur).Parent acc

/-- `t.CumulativeCount()`; the receiver may be `nil`. -/
def CumulativeCount (h : Heap) (t : Ptr) : Except Fault Int :=
  match t with
  | none => .ok 0
  | some t =>
    let c := (h.get t).Duplications + leftCount h (h.get t)
    match (h.get t).Parent with
    | none => .ok c
    | some par => cumulativeUp h h.budget t (some par) c

/-- The loop `for c := p; c != nil; c = c.Parent { c.Count += d }`. -/
def addCountUp (d : Int) : Nat → Heap → Ptr → Except Fault Heap
  | _, h, none => .ok h
  | 0, _, some _ => .error .fuel
  | k + 1, h, some c =>
    addCountUp d k (h.modify c fun n => { n with Count := n.Count + d }) (h.get c).Parent

/-- `t.CalcHeight()`: stores the height of `t` and returns it with both child heights. -/
def CalcHeight (h : Heap) (t : Nat) : Heap × Int × Int × Int :=
  let leftHeight : Int := match (h.get t).Left with
    | some l => (h.get l).Height
    | none => 0
  let rightHeight : Int := match (h.get t).Right with
    | some r => (h.get r).Height
    | none => 0
  let height := if rightHeight > leftHeight then rightHeight + 1 else leftHeight + 1
  (h.modify t fun n => { n with Height := height }, height, leftHeight, rightHeight)

/-- The re-parenting shared by both rotations: `p.Parent = t.Parent`, and the parent's
edge to `t` is turned to `p`. -/
def relinkParent (h : Heap) (t p : Nat) : Heap :=
  let h1 := h.modify p fun n => { n with Parent := (h.get t).Parent }
  match (h1.get t).Parent with
  | some g =>
    if (h1.get g).Left = some t then h1.modify g fun n => { n with Left := some p }
    else if (h1.get g).Right = some t then h1.modify g fun n => { n with Right := some p }
    else h1
  | none => h1

/-- `t.LeftRotate()`: returns the new top of the rotated pair. -/
def LeftRotate (h : Heap) (t : Nat) : Nat × Heap :=
  match (h.get t).Right with
  | none => (t, h)
  | some p =>
    let h1 := h.modify t fun n => { n with Count := n.Count - (h.get p).Count }
    let h2 := h1.modify p fun n => { n with Count := n.Count + (h1.get t).Count }
    let h3 := h2.modify t fun n => { n with Right := (h2.get p).Left }
    let h4 := match (h3.get p).Left with
      | some pl =>
        (h3.modify t fun n => { n with Count := n.Count + (h3.get pl).Count }).modify pl
          fun n => { n with Parent := some t }
      | none => h3
    let h5 := relinkParent h4 t p
    let h6 := h5.modify t fun n => { n with Parent := some p }
    let h7 := h6.modify p fun n => { n with Left := some t }
    let h8 := (CalcHeight h7 t).1
    let h9 := (CalcHeight h8 p).1
    (p, h9)

/-- `t.RightRotate()`: returns the new top of the rotated pair. -/
def RightRotate (h : Heap) (t : Nat) : Nat × Heap :=
  match (h.get t).Left with
  | none => (t, h)
  | some p =>
    let h1 := h.modify t fun n => { n with Count := n.Count - (h.get p).Count }
    let h2 := h1.modify p fun n => { n with Count := n.Count + (h1.get t).Count }
    let h3 := h2.modify t fun n => { n with Left := (h2.get p).Right }
    let h4 := match (h3.get p).Right with
      | some pr =>
        (h3.modify t fun n => { n with Count := n.Count + (h3.get pr).Count }).modify pr
          fun n => { n with Parent := some t }
      | none => h3
    let h5 := relinkParent h4 t p
    let h6 := h5.modify t fun n => { n with Parent := some p }
    let h7 := h6.modify p fun n => { n with Right := some t }
    let h8 := (CalcHeight h7 t).1
    let h9 := (CalcHeight h8 p).1
    (p, h9)

/-- One pass of the body of the loop of `UpdateHeight` at node `c`: recompute the height,
rotate when the children differ by more than one; returns the node the walk continues
from. -/
def rebalanceStep (isInserting : Bool) (h : Heap) (c : Nat) : Except Fault (Nat × Heap) :=
  let (h1, _, leftHeight, rightHeight) := CalcHeight h c
  if leftHeight - rightHeight > 1 then do
    let l ← deref (h1.get c).Left
    let h2 := if isInserting ∧ (h1.get l).Right ≠ none then (LeftRotate h1 l).2 else h1
    pure (RightRotate h2 c)
  else if rightHeight - leftHeight > 1 then do
    let r ← deref (h1.get c).Right
    let h2 := if isInserting ∧ (h1.get r).Left ≠ none then (RightRotate h1 r).2 else h1
    pure (LeftRotate h2 c)
  else pure (c, h1)

/-- The loop `for c := t; c != nil; c = c.Parent` of `UpdateHeight`; `root` is the last
node visited. -/
def updateHeightLoop (isInserting : Bool) : Nat → Heap → Ptr → Ptr → Except Fault (Ptr × Heap)
  | _, h, none, root => .ok (root, h)
  | 0, _, some _, _ => .error .fuel
  | k + 1, h, some c, _ => do
    let (c1, h1) ← rebalanceStep isInserting h c
    updateHeightLoop isInserting k h1 (h1.get c1).Parent (some c1)

/-- `t.UpdateHeight(isInserting)`; a nil receiver skips the loop and is returned. -/
def UpdateHeight (h : Heap) (t : Ptr) (isInserting : Bool) : Except Fault (Ptr × Heap) :=
  updateHeightLoop isInserting h.budget h t t

/-- The branch `v > t.Value` of `Insert`: hang the new node on the right of `t` and put
it into the chain right after `t`. -/
def attachRight (h : Heap) (t newItem : Nat) : Heap :=
  let a := h.modify t fun n => { n with Right := some newItem }
  let b := a.modify newItem fun n => { n with Larger := (a.get t).Larger, Smaller := some t }
  let c := b.modify t fun n => { n with Larger := some newItem }
  match (c.get newItem).Larger with
  | some l => c.modify l fun n => { n with Smaller := some newItem }
  | none => c

/-- The other branch of `Insert`: hang the new node on the left of `t` and put it into
the chain right before `t`. -/
def attachLeft (h : Heap) (t newItem : Nat) : Heap :=
  let a := h.modify t fun n => { n with Left := some newItem }
  let b := a.modify newItem fun n => { n with Smaller := (a.get t).Smaller, Larger := some t }
  let c := b.modify t fun n => { n with Smaller := some newItem }
  match (c.get newItem).Smaller with
  | some s => c.modify s fun n => { n with Larger := some newItem }
  | none => c

/-- `t.Insert(v, count, recursion_level)`: the inserted node, the new root when the
heights were walked (else `nil`), and the store.  The recursion level only feeds log
lines and is left out. -/
def Insert : Nat → Heap → Nat → ℚ → Int → Except Fault (Nat × Ptr × Heap)
  | 0, _, _, _, _ => .error .fuel
  | k + 1, h, t, v, count =>
    if v = (h.get t).Value then do
      let h1 := h.modify t fun n =>
        { n with Duplications := n.Duplications + count, Count := n.Count + count }
      let h2 ← addCountUp count h1.budget h1 (h1.get t).Parent
      pure (t, none, h2)
    else if ((h.get t).Left = none ∧ v < (h.get t).Value)
        ∨ ((h.get t).Right = none ∧ v > (h.get t).Value) then do
      let (newItem, h1) := h.alloc
        { NewHistogramItem v with Duplications := count, Parent := some t }
      let h2 := if v > (h1.get t).Value then attachRight h1 t newItem else attachLeft h1 t newItem
      let h3 ← addCountUp count h2.budget h2 (some t)
      if ((h3.get t).Left = none ∧ v > (h3.get t).Value)
          ∨ ((h3.get t).Right = none ∧ v < (h3.get t).Value) then do
        let h4 := h3.modify t fun n => { n with Height := n.Height + 1 }
        let (root, h5) ← UpdateHeight h4 (some t) true
        pure (newItem, root, h5)
      else pure (newItem, none, h3)
    else if v < (h.get t).Value then do
      let l ← deref (h.get t).Left
      if l = t ∨ (h.get l).Value = (h.get t).Value then
        Insert k (h.modify t fun n => { n with Left := none }) t v count
      else Insert k h l v count
    else do
      let r ← deref (h.get t).Right
      if r = t ∨ (h.get r).Value = (h.get t).Value then
        Insert k (h.modify t fun n => { n with Right := none }) t v count
      else Insert k h r v count

/-- The loop `for c := p; c != nil && c != t; c = c.Parent { c.Count -= d }` of `Delete`. -/
def subCountUpTo (d : Int) (t : Nat) : Nat → Heap → Ptr → Except Fault Heap
  | _, h, none => .ok h
  | 0, _, some _ => .error .fuel
  | k + 1, h, some c =>
    if c = t then .ok h
    else subCountUpTo d t k (h.modify c fun n => { n with Count := n.Count - d }) (h.get c).Parent

/-- The first block of the leaf branch of `Delete`: the edge of the parent to `t` is
cleared. -/
def dropFromParent (h : Heap) (t : Nat) : Heap :=
  match (h.get t).Parent with
  | some g =>
    if (h.get g).Left = some t then h.modify g fun n => { n with Left := none }
    else if (h.get g).Right = some t then h.modify g fun n => { n with Right := none }
    else h
  | none => h

/-- `if t.Smaller != nil { t.Smaller.Larger = t.Larger }`. -/
def bridgeSmaller (h : Heap) (t : Nat) : Heap :=
  match (h.get t).Smaller with
  | some s => h.modify s fun n => { n with Larger := (h.get t).Larger }
  | none => h

/-- `if t.Larger != nil { t.Larger.Smaller = t.Smaller }`. -/
def bridgeLarger (h : Heap) (t : Nat) : Heap :=
  match (h.get t).Larger with
  | some l => h.modify l fun n => { n with Smaller := (h.get t).Smaller }
  | none => h

/-- The leaf branch of `Delete`: unhook `t` from its parent and from the chain. -/
def detachLeaf (h : Heap) (t : Nat) : Heap :=
  bridgeLarger (bridgeSmaller (dropFromParent h t) t) t

/-- The donor `r` from the left subtree is unhooked from its parent `rp`, which takes the
left child of `r` (or `nil`) as its right child. -/
def spliceDonorRight (h : Heap) (r rp : Nat) : Heap :=
  match (h.get r).Left with
  | some rl =>
    let h1 := h.modify rl fun n => { n with Parent := (h.get r).Parent }
    h1.modify rp fun n => { n with Right := (h1.get r).Left }
  | none => h.modify rp fun n => { n with Right := none }

/-- The donor `r` from the right subtree is unhooked from its parent `rp`, which takes
the right child of `r` (or `nil`) as its left child. -/
def spliceDonorLeft (h : Heap) (r rp : Nat) : Heap :=
  match (h.get r).Right with
  | some rr =>
    let h1 := h.modify rr fun n => { n with Parent := (h.get r).Parent }
    h1.modify rp fun n => { n with Left := (h1.get r).Right }
  | none => h.modify rp fun n => { n with Left := none }

/-- The donor search of `Delete`: the largest node of the left subtree when there is a
left child, else the smallest of the right subtree, unhooked from its own parent when
that parent is not `t`. -/
def unhookDonor (h : Heap) (t : Nat) : Except Fault (Ptr × Heap) :=
  if (h.get t).Left ≠ none then do
    let rb ← FindLargestInLeft h t
    let r ← deref rb
    if (h.get r).Parent ≠ some t then do
      let rp ← deref (h.get r).Parent
      pure (rb, spliceDonorRight h r rp)
    else pure (rb, h)
  else if (h.get t).Right ≠ none then do
    let rb ← FindSmallestInRight h t
    let r ← deref rb
    if (h.get r).Parent ≠ some t then do
      let rp ← deref (h.get r).Parent
      pure (rb, spliceDonorLeft h r rp)
    else pure (rb, h)
  else pure (none, h)

/-- `replaced_by.Count = t.Count - t.Duplications; replaced_by.Height = t.Height`. -/
def takeStats (h : Heap) (t r : Nat) : Heap :=
  let h1 := h.modify r fun n => { n with Count := (h.get t).Count - (h.get t).Duplications }
  h1.modify r fun n => { n with Height := (h1.get t).Height }

/-- The block `// left` of `Delete`: `replaced_by` takes the left subtree of `t`. -/
def takeLeft (h : Heap) (t r : Nat) : Heap :=
  if some r ≠ (h.get t).Left then
    let a := h.modify r fun n => { n with Left := (h.get t).Left }
    match (a.get t).Left with
    | some l => a.modify l fun n => { n with Parent := some r }
    | none => a
  else h

/-- The block `// right` of `Delete`: `replaced_by` takes the right subtree of `t`. -/
def takeRight (h : Heap) (t r : Nat) : Heap :=
  if some r ≠ (h.get t).Right then
    let a := h.modify r fun n => { n with Right := (h.get t).Right }
    match (a.get t).Right with
    | some l => a.modify l fun n => { n with Parent := some r }
    | none => a
  else h

/-- The block `// smaller` of `Delete`: `replaced_by` takes the place of `t` in the chain
towards the smaller values. -/
def takeSmaller (h : Heap) (t r : Nat) : Heap :=
  let h1 :=
    if some r ≠ (h.get t).Smaller then h.modify r fun n => { n with Smaller := (h.get t).Smaller }
    else h
  match (h1.get t).Smaller with
  | some s => if s ≠ r then h1.modify s fun n => { n with Larger := some r } else h1
  | none => h1

/-- The block `// larger` of `Delete`: `replaced_by` takes the place of `t` in the chain
towards the larger values. -/
def takeLarger (h : Heap) (t r : Nat) : Heap :=
  let h1 :=
    if some r ≠ (h.get t).Larger then h.modify r fun n => { n with Larger := (h.get t).Larger }
    else h
  match (h1.get t).Larger with
  | some l => if l ≠ r then h1.modify l fun n => { n with Smaller := some r } else h1
  | none => h1

/-- The transplant of `Delete`: the donor `r` takes the counts, height and links of `t`;
the parent block is the re-parenting the rotations use too. -/
def transplant (h : Heap) (t r : Nat) : Heap :=
  takeLarger (takeSmaller (takeRight (takeLeft (relinkParent (takeStats h t r) t r) t r) t r) t r) t r

/-- The last writes of `Delete` to the removed cell: all its pointers become `nil`. -/
def clearLinks (n : HistogramItem) : HistogramItem :=
  { n with Right := none, Left := none, Smaller := none, Larger := none, Parent := none }

/-- `t.Delete()`: the replacing node, the new root (or `nil`), and the store. -/
def Delete (h : Heap) (t : Nat) : Except Fault (Ptr × Ptr × Heap) :=
  if (h.get t).Duplications > 1 then do
    let h1 := h.modify t fun n => { n with Count := n.Count - 1, Duplications := n.Duplications - 1 }
    let h2 ← addCountUp (-1) h1.budget h1 (h1.get t).Parent
    pure (some t, none, h2)
  else if (h.get t).Parent = none ∧ (h.get t).Left = none ∧ (h.get t).Right = none then
    pure (none, none, h)
  else do
    let affectedNode_count := (h.get t).Parent
    let (replaced_by, affectedNode_height, h1) ←
      if (h.get t).Left = none ∧ (h.get t).Right = none then
        (pure (none, (h.get t).Parent, detachLeaf h t) : Except Fault (Ptr × Ptr × Heap))
      else do
        let (rb, ha) ← unhookDonor h t
        match rb with
        | none => pure (none, (h.get t).Parent, ha)
        | some r => do
          let hb ←
            if (ha.get r).Parent ≠ some t then
              subCountUpTo (ha.get r).Duplications t ha.budget ha (ha.get r).Parent
            else pure ha
          let aff := if (hb.get r).Parent = some t then some r else (hb.get r).Parent
          pure (some r, aff, transplant hb t r)
    let h2 := h1.modify t clearLinks
    let h3 ← addCountUp (-(h2.get t).Duplications) h2.budget h2 affectedNode_count
    let (root, h4) ← UpdateHeight h3 affectedNode_height false
    pure (replaced_by, root, h4)

/-- Go's `math.Round`: to the nearest integer, halves away from zero. -/
def goRound (x : ℚ) : ℚ :=
  if x < 0 then -((⌊-x + 1 / 2⌋ : Int) : ℚ) else ((⌊x + 1 / 2⌋ : Int) : ℚ)

/-- Go's conversion `int64(x)` of a float: truncation toward zero.  For a value outside
the range of `int64` the language leaves the result to the implementation; it is the
smallest `int64` here, which is what the conversion instruction of amd64 gives. -/
def goTrunc (x : ℚ) : Int :=
  let t : Int := if x < 0 then -⌊-x⌋ else ⌊x⌋
  if -(2 : Int) ^ 63 ≤ t ∧ t < (2 : Int) ^ 63 then t else -(2 : Int) ^ 63

/-- The Go struct `SubBucketHistogram`. -/
structure SubBucketHistogram where
  BucketList : List Ptr
  BucketSize : ℚ
  LowerBoundary : ℚ
  UpperBoundary : ℚ

/-- The Go constructor `NewSubBucketHistogram`. -/
def NewSubBucketHistogram (unit lower upper : ℚ) : SubBucketHistogram :=
  { BucketList := [], BucketSize := unit, LowerBoundary := lower, UpperBoundary := upper }

/-- `sb.CalcPosition(v)`. -/
def SubBucketHistogram.CalcPosition (sb : SubBucketHistogram) (v : ℚ) : Int :=
  if sb.BucketSize = 0 then -1
  else
    let idx_value := (v - sb.LowerBoundary) / sb.BucketSize
    goTrunc (if |sb.BucketSize| < 1 then goRound idx_value else idx_value)

/-- The loop `for i := 0; i < idx - cur_len + 1; i++ { l = append(l, nil) }`. -/
def growTo {α : Type} (l : List α) (idx : Int) (fill : α) : List α :=
  l ++ List.replicate (idx - l.length + 1).toNat fill

/-- `sb.Insert(n)` for a non-nil `n`. -/
def SubBucketHistogram.Insert (sb : SubBucketHistogram) (h : Heap) (n : Nat) :
    Except Fault SubBucketHistogram :=
  let idx := sb.CalcPosition (h.get n).Value
  let l := growTo sb.BucketList idx none
  if idx < 0 ∨ (l.length : Int) ≤ idx then .error .outOfRange
  else .ok { sb with BucketList := l.set idx.toNat (some n) }

/-- `sb.Delete(n)` for a non-nil `n`. -/
def SubBucketHistogram.Delete (sb : SubBucketHistogram) (h : Heap) (n : Nat) :
    Except Fault SubBucketHistogram :=
  let idx := sb.CalcPosition (h.get n).Value
  if idx < (sb.BucketList.length : Int) then
    if idx < 0 then .error .outOfRange
    else .ok { sb with BucketList := sb.BucketList.set idx.toNat none }
  else .ok sb

/-- The Go struct `BucketHistogram`. -/
structure BucketHistogram where
  SubBucketHistograms : List (Option SubBucketHistogram)
  SubBucketHistogramSize : ℚ
  BucketSize : ℚ

/-- The Go constructor `NewBucketHistogram`. -/
def NewBucketHistogram (subhistogramSize bucketSize : ℚ) : BucketHistogram :=
  { SubBucketHistograms := [], SubBucketHistogramSize := subhistogramSize,
    BucketSize := bucketSize }

/-- `b.GetLowerAndUpperBoundaries(idx)`. -/
def BucketHistogram.GetLowerAndUpperBoundaries (b : BucketHistogram) (idx : Int) : ℚ × ℚ :=
  ((idx : ℚ) * b.SubBucketHistogramSize, ((idx + 1 : Int) : ℚ) * b.SubBucketHistogramSize)

/-- `b.CalcPosition(v)`. -/
def BucketHistogram.CalcPosition (b : BucketHistogram) (v : ℚ) : Int × ℚ × ℚ :=
  if b.SubBucketHistogramSize = 0 then (-1, -1, -1)
  else
    let idx_value := v / b.SubBucketHistogramSize
    let idx := goTrunc (if |b.SubBucketHistogramSize| < 1 then goRound idx_value else idx_value)
    (idx, b.GetLowerAndUpperBoundaries idx)

/-- `b.Insert(n)` for a non-nil `n`. -/
def BucketHistogram.Insert (b : BucketHistogram) (h : Heap) (n : Nat) :
    Except Fault BucketHistogram :=
  let (idx, lower, upper) := b.CalcPosition (h.get n).Value
  let l := growTo b.SubBucketHistograms idx none
  if idx < 0 ∨ (l.length : Int) ≤ idx then .error .outOfRange
  else do
    let sb := match l.getD idx.toNat none with
      | some sb => sb
      | none => NewSubBucketHistogram b.BucketSize lower upper
    let sb1 ← sb.Insert h n
    pure { b with SubBucketHistograms := l.set idx.toNat (some sb1) }

/-- `b.Delete(n)` for a non-nil `n`. -/
def BucketHistogram.Delete (b : BucketHistogram) (h : Heap) (n : Nat) :
    Except Fault BucketHistogram :=
  let idx := (b.CalcPosition (h.get n).Value).1
  if idx < (b.SubBucketHistograms.length : Int) then
    if idx < 0 then .error .outOfRange
    else
      match b.SubBucketHistograms.getD idx.toNat none with
      | some sb => do
        let sb1 ← sb.Delete h n
        pure { b with SubBucketHistograms := b.SubBucketHistograms.set idx.toNat (some sb1) }
      | none => pure b
  else pure b

/-- The Go struct `PercentileItem`.  The map key `PercentileKey(p)` is the shortest text
that reads back as `p`, so it is `Percentile` itself. -/
structure PercentileItem where
  Percentile : ℚ
  Item : Ptr
  Count : Int
  RealPercentage : ℚ

/-- The Go constructor `NewPercentileItem`. -/
def NewPercentileItem (p : ℚ) : PercentileItem :=
  { Percentile := p, Item := none, Count := 0, RealPercentage := 0 }

/-- The Go struct `Histogram`, with the store its pointers live in.  The map
`Percentiles` is a list with one entry per key. -/
structure Histogram where
  heap : Heap
  Queue : List Nat
  RootItem : Ptr
  QueueSize : Int
  Count : Int
  BucketHistogram : BucketHistogram
  Accuracy : ℚ
  MinItem : Ptr
  MaxItem : Ptr
  Percentiles : List PercentileItem
  Mean : ℚ
  Variance : ℚ

/-- The Go constructor `NewHistogram`. -/
def NewHistogram (size : Int) (subBucketHistogramSize : ℚ) (accuracy : Int) : Histogram :=
  let accuracy_factor : ℚ := (10 : ℚ) ^ accuracy
  let bs : ℚ := if accuracy ≠ 0 then 1 / accuracy_factor else 1
  let sbs : ℚ := if subBucketHistogramSize = 0 then 10 else subBucketHistogramSize
  { heap := Heap.empty, Queue := [], RootItem := none, QueueSize := size, Count := 0,
    BucketHistogram := NewBucketHistogram sbs bs, Accuracy := accuracy_factor,
    MinItem := none, MaxItem := none, Percentiles := [], Mean := 0, Variance := 0 }

/-- `h.GetWaterMark()`. -/
def Histogram.GetWaterMark (hs : Histogram) : ℚ :=
  if hs.QueueSize ≤ 0 then 0 else (hs.Count : ℚ) / (hs.QueueSize : ℚ)

/-- `h.UnifiedValue(value)`. -/
def Histogram.UnifiedValue (hs : Histogram) (value : ℚ) : ℚ :=
  goRound (value * hs.Accuracy) / hs.Accuracy

/-- `h.AddPercentilePoint(p)`: a fresh cursor takes the place of one with the same key. -/
def Histogram.AddPercentilePoint (hs : Histogram) (p : ℚ) : Histogram :=
  { hs with Percentiles :=
      if hs.Percentiles.any (fun q => q.Percentile = p) then
        hs.Percentiles.map fun q => if q.Percentile = p then NewPercentileItem p else q
      else hs.Percentiles ++ [NewPercentileItem p] }

/-- `h.GetPercentileItem(p)`. -/
def Histogram.GetPercentileItem (hs : Histogram) (p : ℚ) : Option PercentileItem :=
  hs.Percentiles.find? fun q => q.Percentile = p

/-- The backward walk of a cursor in `Enqueue`:
`for x := p.Item.Smaller; x != nil && percentValue > p.Percentile; x = x.Smaller`. -/
def retreatEnqueue (h : Heap) (total : ℚ) :
    Nat → PercentileItem → Ptr → ℚ → Except Fault PercentileItem
  | _, p, none, _ => .ok p
  | fuel, p, some x, percentValue =>
    if percentValue > p.Percentile then
      match fuel with
      | 0 => .error .fuel
      | k + 1 => do
        let xl ← deref (h.get x).Larger
        let count := p.Count - (h.get xl).Duplications
        retreatEnqueue h total k
          { p with Item := some x, Count := count, RealPercentage := (count : ℚ) / total }
          (h.get x).Smaller (((count - (h.get x).Duplications : Int) : ℚ) / total)
    else .ok p

/-- The backward walk of a cursor in `Dequeue`; it differs from the one of `Enqueue` in
the value stored in `RealPercentage`. -/
def retreatDequeue (h : Heap) (total : ℚ) :
    Nat → PercentileItem → Ptr → ℚ → Except Fault PercentileItem
  | _, p, none, _ => .ok p
  | fuel, p, some x, percentile =>
    if percentile > p.Percentile then
      match fuel with
      | 0 => .error .fuel
      | k + 1 => do
        let xl ← deref (h.get x).Larger
        let count := p.Count - (h.get xl).Duplications
        retreatDequeue h total k
          { p with Item := some x, Count := count, RealPercentage := percentile }
          (h.get x).Smaller (((count - (h.get x).Duplications : Int) : ℚ) / total)
    else .ok p

/-- The forward walk of a cursor, the same in `Enqueue` and `Dequeue`:
`for x := p.Item.Larger; x != nil && percentValue < p.Percentile; x = x.Larger`. -/
def advance (h : Heap) (total : ℚ) :
    Nat → PercentileItem → Ptr → ℚ → Except Fault PercentileItem
  | _, p, none, _ => .ok p
  | fuel, p, some x, percentValue =>
    if percentValue < p.Percentile then
      match fuel with
      | 0 => .error .fuel
      | k + 1 =>
        let pv : ℚ := ((p.Count + (h.get x).Duplications : Int) : ℚ) / total
        if pv ≤ p.Percentile then
          advance h total k
            { p with Item := some x, Count := p.Count + (h.get x).Duplications,
                     RealPercentage := pv }
            (h.get x).Larger pv
        else advance h total k p (h.get x).Larger pv
    else .ok p

/-- The body of `for _, p := range h.Percentiles` in `Enqueue`, for one cursor. -/
def cursorAfterInsert (h : Heap) (total : ℚ) (v : ℚ) (p : PercentileItem) :
    Except Fault PercentileItem := do
  let it ← deref p.Item
  if v ≤ (h.get it).Value then
    let p1 := { p with Count := p.Count + 1 }
    let percentValue : ℚ := (p1.Count : ℚ) / total
    retreatEnqueue h total h.budget { p1 with RealPercentage := percentValue }
      (h.get it).Smaller percentValue
  else
    let percentValue : ℚ := (p.Count : ℚ) / total
    advance h total h.budget { p with RealPercentage := percentValue }
      (h.get it).Larger percentValue

/-- The body of `for _, p := range h.Percentiles` in `Dequeue`, for one cursor. -/
def cursorAfterDelete (h : Heap) (total : ℚ) (item : Nat) (is_node_removed : Bool)
    (smaller larger : Ptr) (p : PercentileItem) : Except Fault PercentileItem := do
  let deletedValue := (h.get item).Value
  let isItem : Bool := decide (some item = p.Item)
  let below ← if isItem then pure true else do
    let it ← deref p.Item
    pure (decide (deletedValue ≤ (h.get it).Value))
  if below then do
    let p1 := { p with Count := p.Count - 1 }
    let same ← if isItem then pure true else do
      let it ← deref p1.Item
      pure (decide (deletedValue = (h.get it).Value))
    let p2 :=
      if same ∧ is_node_removed then
        match larger, smaller with
        | some l, _ => { p1 with Item := some l, Count := p1.Count + (h.get l).Duplications }
        | none, some s => { p1 with Item := some s }
        | none, none => { p1 with Item := none }
      else p1
    let percentile : ℚ := (p2.Count : ℚ) / total
    let p3 := { p2 with RealPercentage := percentile }
    match p3.Item with
    | some it => advance h total h.budget p3 (h.get it).Larger percentile
    | none => pure p3
  else do
    let it ← deref p.Item
    if deletedValue > (h.get it).Value then
      let percentile : ℚ := (p.Count : ℚ) / total
      retreatDequeue h total h.budget { p with RealPercentage := percentile }
        (h.get it).Smaller percentile
    else pure p

/-- `h.Dequeue()`: the evicted node (or `nil`) and the new state. -/
def Histogram.Dequeue (hs : Histogram) : Except Fault (Ptr × Histogram) :=
  match hs.Queue with
  | [] => .ok (none, hs)
  | item :: rest => do
    let count := hs.Count - 1
    let smaller := (hs.heap.get item).Smaller
    let larger := (hs.heap.get item).Larger
    let (replacedItem, newRoot, heap) ← Delete hs.heap item
    let is_node_removed : Bool := decide (newRoot ≠ none ∨ (newRoot = none ∧ replacedItem = none))
    let hs1 : Histogram := { hs with heap := heap, Queue := rest, Count := count }
    let hs2 ←
      if is_node_removed then do
        let b ← hs1.BucketHistogram.Delete heap item
        pure { hs1 with
          RootItem := newRoot
          MaxItem := if some item = hs1.MaxItem then smaller else hs1.MaxItem
          MinItem := if some item = hs1.MinItem then larger else hs1.MinItem
          BucketHistogram := b }
      else pure hs1
    let total_count : ℚ := match hs2.RootItem with
      | some r => ((heap.get r).Count : ℚ)
      | none => 0
    let ps ←
      if total_count > 0 then
        hs2.Percentiles.mapM (cursorAfterDelete heap total_count item is_node_removed smaller larger)
      else pure hs2.Percentiles
    let hs3 := { hs2 with Percentiles := ps }
    let value := (heap.get item).Value
    let hs4 :=
      if hs3.Count > 0 then
        let meanPre := hs3.Mean
        let mean := (hs3.Mean * ((hs3.Count + 1 : Int) : ℚ) - value) / (hs3.Count : ℚ)
        let a := ((hs3.Count + 1 : Int) : ℚ) / (hs3.Count : ℚ) * hs3.Variance
        let b := (meanPre - mean) ^ 2
        let c := 1 / (hs3.Count : ℚ) * (value - meanPre) ^ 2
        { hs3 with Mean := mean, Variance := a - b - c }
      else if hs3.Count = 0 then { hs3 with Mean := 0, Variance := 0 }
      else hs3
    pure (some item, hs4)

/-- The loop `for h.QueueSize > 0 && h.Count > h.QueueSize { result = h.Dequeue() }`. -/
def evictLoop : Nat → Histogram → Ptr → Except Fault (Ptr × Histogram)
  | fuel, hs, result =>
    if hs.QueueSize > 0 ∧ hs.Count > hs.QueueSize then
      match fuel with
      | 0 => .error .fuel
      | k + 1 => do
        let (r, hs1) ← hs.Dequeue
        evictLoop k hs1 r
    else .ok (result, hs)

/-- `h.Enqueue(incomingValue, count)`: the last evicted node (or `nil`) and the new
state. -/
def Histogram.Enqueue (hs : Histogram) (incomingValue : ℚ) (count : Int) :
    Except Fault (Ptr × Histogram) := do
  let v := hs.UnifiedValue incomingValue
  let (item, hs1) ←
    match hs.RootItem with
    | some root => do
      let (item, newRoot, heap) ← Insert hs.heap.budget hs.heap root v count
      let rootItem := match newRoot with
        | some r => r
        | none => root
      let mn ← deref hs.MinItem
      let minItem := match (heap.get mn).Smaller with
        | some s => s
        | none => mn
      let mx ← deref hs.MaxItem
      let maxItem := match (heap.get mx).Larger with
        | some l => l
        | none => mx
      let total_count : ℚ := ((heap.get rootItem).Count : ℚ)
      let ps ← hs.Percentiles.mapM (cursorAfterInsert heap total_count v)
      (pure (item, { hs with
        heap := heap, RootItem := some rootItem, MinItem := some minItem,
        MaxItem := some maxItem, Percentiles := ps }) : Except Fault (Nat × Histogram))
    | none =>
      let (item, heap) := hs.heap.alloc { NewHistogramItem v with Duplications := count }
      pure (item, { hs with
        heap := heap, RootItem := some item, MinItem := some item, MaxItem := some item,
        Percentiles := hs.Percentiles.map fun p =>
          { p with Item := some item, Count := count, RealPercentage := 1 } })
  let hs2 ←
    if (hs1.heap.get item).Duplications = count then do
      let b ← hs1.BucketHistogram.Insert hs1.heap item
      pure { hs1 with BucketHistogram := b }
    else pure hs1
  let hs3 := { hs2 with Queue := hs2.Queue ++ List.replicate count.toNat item }
  let countPre := hs3.Count
  let newCount := hs3.Count + count
  let meanPre := hs3.Mean
  let mean := (hs3.Mean * (countPre : ℚ) + v * (count : ℚ)) / (newCount : ℚ)
  let a := (countPre : ℚ) / (newCount : ℚ) * hs3.Variance
  let b := (countPre : ℚ) / (newCount : ℚ) * (mean - meanPre) ^ 2
  let c := (count : ℚ) / (newCount : ℚ) * (v - mean) ^ 2
  let hs4 := { hs3 with Count := newCount, Mean := mean, Variance := a + b + c }
  evictLoop (hs4.Count - hs4.QueueSize).toNat hs4 none

/-- `h.GetIndexOfSubHistogram(v)`. -/
def Histogram.GetIndexOfSubHistogram (hs : Histogram) (v : ℚ) : Int :=
  (hs.BucketHistogram.CalcPosition v).1

/-- `h.GetLengthOfSubHistograms()`. -/
def Histogram.GetLengthOfSubHistograms (hs : Histogram) : Int :=
  hs.BucketHistogram.SubBucketHistograms.length

/-- `h.GetMaximumSizeOfSubHistograms()`. -/
def Histogram.GetMaximumSizeOfSubHistograms (hs : Histogram) : Int :=
  goTrunc (goRound (hs.BucketHistogram.SubBucketHistogramSize * hs.Accuracy))

/-- `h.GetValueOfBucket(subhistogramIndex, bucketIndex)`. -/
def Histogram.GetValueOfBucket (hs : Histogram) (subhistogramIndex bucketIndex : Int) : ℚ :=
  (hs.BucketHistogram.GetLowerAndUpperBoundaries subhistogramIndex).1
    + (bucketIndex : ℚ) * hs.Accuracy

/-- `h.GetPercentileForValue(v)`: `item.Count` is read without a test for `nil`. -/
def Histogram.GetPercentileForValue (hs : Histogram) (v : ℚ) : Except Fault ℚ := do
  let item ← FindNoLargerThan hs.heap hs.heap.budget hs.RootItem v
  let it ← deref item
  if (hs.heap.get it).Count = 0 then pure 0
  else do
    let count ← CumulativeCount hs.heap item
    let root ← deref hs.RootItem
    pure ((count : ℚ) / ((hs.heap.get root).Count : ℚ))

/-- The closure `multiply_histograms` of `SearchPercentileByMultiply`: the product of the
ranks of `criteria` over the histograms the mask leaves in, and the indices of those
whose floor node is their `MaxItem`. -/
def multiplyHistograms (histogram_list : List Histogram) (opt_out_mask : List Bool)
    (criteria : ℚ) : Except Fault (ℚ × List Nat) :=
  (List.range histogram_list.length).foldlM
    (fun (acc : ℚ × List Nat) i =>
      if opt_out_mask.getD i false then pure acc
      else
        match histogram_list.get? i with
        | none => .error .outOfRange
        | some hs => do
          let node ← FindNoLargerThan hs.heap hs.heap.budget hs.RootItem criteria
          if node = hs.MaxItem then pure (acc.1, acc.2 ++ [i])
          else do
            let cc ← CumulativeCount hs.heap node
            pure (acc.1 * ((cc : ℚ) / (hs.Count : ℚ)), acc.2))
    (1, [])

/-- The loop `for _, i := range burnt_out_indices { if len(opt_out_mask) > i
{ opt_out_mask[i] = true } }`. -/
def burnOut (opt_out_mask : List Bool) (burnt_out_indices : List Nat) : List Bool :=
  burnt_out_indices.foldl (fun m i => m.set i true) opt_out_mask

/-- `SearchPercentileByMultiply`, without the log lines.  The result comes with the
number of evaluations of the function body the call made, itself included.  The slice
`opt_out_mask` is written only before tail calls, so it is passed on by value.  Every
recursive call raises `iteration_count`, which stops the search beyond 30, or starts
a search inside one slab with `iteration_count = 1` again, which happens at most twice
on one path, so the budget `fuel` of the top call is never exhausted from 92 on. -/
def SearchPercentileByMultiply (p : ℚ) : Nat → ℚ → List Histogram → List Bool → Int → Int →
    Bool → Int → ℚ → ℚ → Int → Except Fault (ℚ × Nat)
  | 0, _, _, _, _, _, _, _, _, _, _ => .error .fuel
  | fuel + 1, start_value, histogram_list, opt_out_mask, lower_search_index,
      upper_search_index, is_going_up, subhistogram_index, last_prod, last_criteria,
      iteration_count =>
    if lower_search_index > upper_search_index ∨ iteration_count > 30 then
      pure (last_criteria, 1)
    else do
      let mid := Int.tdiv (lower_search_index + upper_search_index) 2
      let first ← if start_value < 0 then
          match histogram_list.head? with
          | some hs => pure (some hs)
          | none => .error .outOfRange
        else pure none
      let (lower_boundary, upper_boundary) : ℚ × ℚ :=
        match first with
        | some hs =>
          if subhistogram_index < 0 then hs.BucketHistogram.GetLowerAndUpperBoundaries mid
          else (0, 0)
        | none => (0, 0)
      let criteria_value : ℚ :=
        match first with
        | some hs =>
          if subhistogram_index < 0 then (if is_going_up then upper_boundary else lower_boundary)
          else hs.GetValueOfBucket subhistogram_index mid
        | none => start_value
      let (prod0, burnt0) ← multiplyHistograms histogram_list opt_out_mask criteria_value
      let finish (prod : ℚ) (mask : List Bool) (lower upper : Int) (go_up : Bool) :
          Except Fault (ℚ × Nat) :=
        if lower ≥ upper then
          if last_criteria ≥ 0 ∧ last_prod ≥ 0 ∧ |p - last_prod| < |p - prod| then
            pure (last_criteria, 1)
          else pure (criteria_value, 1)
        else do
          let (r, n) ← SearchPercentileByMultiply p fuel (-1) histogram_list mask lower upper
            go_up subhistogram_index prod criteria_value (iteration_count + 1)
          pure (r, n + 1)
      if prod0 = p then pure (criteria_value, 1)
      else do
        let hs0 ← match histogram_list.head? with
          | some hs => pure hs
          | none => .error .outOfRange
        let sizeOfSubhistogram := hs0.GetMaximumSizeOfSubHistograms
        let outer : Bool := decide (subhistogram_index < 0 ∧ start_value < 0)
        let inner (prod : ℚ) (mask : List Bool) : Except Fault (ℚ × Nat) := do
          let (r, n) ← SearchPercentileByMultiply p fuel (-1) histogram_list mask 0
            (sizeOfSubhistogram - 1) true mid prod criteria_value 1
          pure (r, n + 1)
        if prod0 < p then
          let mask1 := burnOut opt_out_mask burnt0
          if outer ∧ ¬ is_going_up then do
            let (prod1, burnt1) ← multiplyHistograms histogram_list mask1 upper_boundary
            if prod1 < p then
              finish prod1 (burnOut mask1 burnt1) (mid + 1) upper_search_index true
            else if prod1 > p then inner prod1 mask1
            else finish prod1 mask1 lower_search_index upper_search_index true
          else finish prod0 mask1 (mid + 1) upper_search_index true
        else
          if outer ∧ is_going_up then do
            let (prod1, burnt1) ← multiplyHistograms histogram_list opt_out_mask lower_boundary
            if prod1 < p then inner prod1 (burnOut opt_out_mask burnt1)
            else if prod1 > p then
              finish prod1 opt_out_mask lower_search_index (mid - 1) false
            else finish prod1 opt_out_mask lower_search_index upper_search_index true
          else finish prod0 opt_out_mask lower_search_index (mid - 1) false

/-- The loop of `CalcPercentileOfProduct` that looks for the start of the search among
the cursors of the histograms. -/
def startOfSearch (percentile : ℚ) (good : List Histogram) : ℚ × Int :=
  good.foldl
    (fun (acc : ℚ × Int) hs =>
      let v : ℚ := match hs.GetPercentileItem percentile with
        | some r =>
          match r.Item with
          | some it => (hs.heap.get it).Value
          | none => acc.1
        | none => acc.1
      if v > acc.1 then (v, hs.GetIndexOfSubHistogram v) else acc)
    (-1, 0)

/-- `CalcPercentileOfProduct(percentile, histogram_list, verbose)` with the number of
evaluations of `SearchPercentileByMultiply` it made; a `nil` entry of the list is
`none`. -/
def CalcPercentileOfProductCounted (percentile : ℚ) (histogram_list : List (Option Histogram)) :
    Except Fault (ℚ × Nat) :=
  let single : Option ℚ :=
    match histogram_list with
    | [none] => some 0
    | [some hs] =>
      match hs.GetPercentileItem percentile with
      | some r =>
        match r.Item with
        | some it => some (hs.heap.get it).Value
        | none => none
      | none => none
    | _ => none
  if histogram_list.length = 0 then pure (0, 0)
  else
    match single with
    | some v => pure (v, 0)
    | none =>
      let good : List Histogram := histogram_list.filterMap id
      let tracked : Bool := good.all fun hs => (hs.GetPercentileItem percentile).isSome
      let max_subhistogram_length : Int :=
        good.foldl (fun m hs => if hs.GetLengthOfSubHistograms > m
          then hs.GetLengthOfSubHistograms else m) 0
      let opt_out_mask : List Bool := List.replicate good.length false
      let (start_point, start_index) : ℚ × Int :=
        if tracked then startOfSearch percentile good else (-1, 0)
      SearchPercentileByMultiply percentile 92 start_point good opt_out_mask start_index
        (max_subhistogram_length - 1) true (-1) 0 0 1

/-- `CalcPercentileOfProduct(percentile, histogram_list, verbose)`. -/
def CalcPercentileOfProduct (percentile : ℚ) (histogram_list : List (Option Histogram)) :
    Except Fault ℚ := do
  let (v, _) ← CalcPercentileOfProductCounted percentile histogram_list
  pure v

/-- `h.GetValueAtPercentile(p)`. -/
def Histogram.GetValueAtPercentile (hs : Histogram) (p : ℚ) : Except Fault ℚ :=
  match hs.GetPercentileItem p with
  | some r =>
    match r.Item with
    | some it => pure (hs.heap.get it).Value
    | none => CalcPercentileOfProduct p [some hs]
  | none => CalcPercentileOfProduct p [some hs]

/-! ## The tree as a term, and the properties the claims speak of -/

/-- The shape of a tree of cells: the address of a node between its two subtrees. -/
inductive Shape where
  | nil
  | node (l : Shape) (i : Nat) (r : Shape)
  deriving DecidableEq, Repr

namespace Shape

/-- The pointer to the top node. -/
def root : Shape → Ptr
  | nil => none
  | node _ i _ => some i

/-- The addresses in order: left subtree, node, right subtree. -/
def ids : Shape → List Nat
  | nil => []
  | node l i r => l.ids ++ i :: r.ids

/-- The true height: `0` for a missing child. -/
def height : Shape → Nat
  | nil => 0
  | node l _ r => max l.height r.height + 1

/-- The balance condition `|height(Left) - height(Right)| ≤ 1` at every node. -/
def Balanced : Shape → Prop
  | nil => True
  | node l _ r => (l.height ≤ r.height + 1 ∧ r.height ≤ l.height + 1) ∧ Balanced l ∧ Balanced r

instance decBalanced : (t : Shape) → Decidable (Balanced t)
  | nil => isTrue trivial
  | node l _ r =>
    @instDecidableAnd _ _ inferInstance (@instDecidableAnd _ _ (decBalanced l) (decBalanced r))

end Shape

/-- The tree reached from a pointer through `Left` and `Right`, read off the store. -/
def extract (h : Heap) : Nat → Ptr → Shape
  | 0, _ => .nil
  | _ + 1, none => .nil
  | k + 1, some t => .node (extract h k (h.get t).Left) t (extract h k (h.get t).Right)

/-- The tree below `root`. -/
def Heap.shape (h : Heap) (root : Ptr) : Shape := extract h h.budget root

/-- The values of a list of cells. -/
def Heap.values (h : Heap) (ids : List Nat) : List ℚ := ids.map fun i => (h.get i).Value

/-- A store with the root of the tree it holds, as the test helpers keep them. -/
structure TreeState where
  heap : Heap
  root : Ptr

/-- The steps of the test helpers `create_tree` and `randomlyInsertAndDelete`. -/
inductive TreeOp where
  | insert (v : ℚ) (count : Int)
  | delete (v : ℚ)

/-- One step of the test helpers: an insert makes the first node with
`NewHistogramItem` (with `Duplications = count`, as `Enqueue` does) or calls
`root.Insert(v, count, 0)` and adopts a non-nil returned root; a delete calls `Delete`
on the node `root.Find(v)` returns, if any, and adopts the returned root (the tree is
empty when both results are `nil`). -/
def TreeState.step (s : TreeState) : TreeOp → Except Fault TreeState
  | .insert v count =>
    match s.root with
    | none =>
      let (i, h) := s.heap.alloc { NewHistogramItem v with Duplications := count }
      pure { heap := h, root := some i }
    | some r => do
      let (_, newRoot, h) ← Insert s.heap.budget s.heap r v count
      pure { heap := h, root := match newRoot with
        | some x => some x
        | none => some r }
  | .delete v =>
    match s.root with
    | none => pure s
    | some r => do
      let n ← Find s.heap s.heap.budget r v
      match n with
      | none => pure s
      | some n => do
        let (replaced, newRoot, h) ← Delete s.heap n
        if replaced = none ∧ newRoot = none then pure { heap := h, root := none }
        else pure { heap := h, root := match newRoot with
          | some x => some x
          | none => some r }

/-- A run of steps from a state. -/
def TreeState.run (s : TreeState) : List TreeOp → Except Fault TreeState
  | [] => pure s
  | op :: ops => do
    let s1 ← s.step op
    s1.run ops

/-- The empty store. -/
def TreeState.init : TreeState := { heap := Heap.empty, root := none }

/-- The test helper `create_tree`: insert the values one by one, once each. -/
def create_tree (list : List ℚ) : Except Fault TreeState :=
  TreeState.init.run (list.map fun v => TreeOp.insert v 1)

/-- The shape of the tree of a state. -/
def TreeState.shape (s : TreeState) : Shape := s.heap.shape s.root

end Hist

namespace Hist

/-- The cells of a shape point at each other as the shape says: each node's `Left` and
`Right` are the tops of its subtrees and each `Parent` is the node above (`par` at the
top). -/
def Linked (h : Heap) : Ptr → Shape → Prop
  | _, .nil => True
  | par, .node l i r =>
    i < h.size ∧ (h.get i).Parent = par ∧ (h.get i).Left = l.root ∧ (h.get i).Right = r.root
      ∧ Linked h (some i) l ∧ Linked h (some i) r

/-- One level of the path from a subtree up to the root: the node above, on which side
the subtree hangs, and the subtree on the other side. -/
structure Frame where
  isLeft : Bool
  id : Nat
  sib : Shape

/-- The node of a frame over a subtree. -/
def Frame.wrap (f : Frame) (t : Shape) : Shape :=
  if f.isLeft then .node t f.id f.sib else .node f.sib f.id t

/-- The whole tree: a subtree put back under its path, nearest frame first. -/
def plug : List Frame → Shape → Shape
  | [], t => t
  | f :: fs, t => plug fs (f.wrap t)

/-- The parent pointer a path gives to the subtree below it. -/
def ctxParent : List Frame → Ptr
  | [] => none
  | f :: _ => some f.id

/-- The addresses, in order, before the subtree of a path. -/
def ctxBefore : List Frame → List Nat
  | [] => []
  | f :: fs => ctxBefore fs ++ (if f.isLeft then [] else f.sib.ids ++ [f.id])

/-- The addresses, in order, after the subtree of a path. -/
def ctxAfter : List Frame → List Nat
  | [] => []
  | f :: fs => (if f.isLeft then f.id :: f.sib.ids else []) ++ ctxAfter fs

/-- The cells of a path are linked, the nearest frame pointing at `child`. -/
def LinkedCtx (h : Heap) : List Frame → Ptr → Prop
  | [], _ => True
  | f :: fs, child =>
    f.id < h.size ∧ (h.get f.id).Parent = ctxParent fs
      ∧ (h.get f.id).Left = (if f.isLeft then child else f.sib.root)
      ∧ (h.get f.id).Right = (if f.isLeft then f.sib.root else child)
      ∧ Linked h (some f.id) f.sib ∧ LinkedCtx h fs (some f.id)

/-- The ordered chain: `Smaller` and `Larger` of each cell of the list are its
neighbours in the list. -/
def Chain (h : Heap) : Ptr → List Nat → Prop
  | _, [] => True
  | prev, i :: rest =>
    (h.get i).Smaller = prev ∧ (h.get i).Larger = rest.head? ∧ Chain h (some i) rest

/-- The count of a child, `0` when there is none. -/
def cnt (h : Heap) : Ptr → Int
  | some j => (h.get j).Count
  | none => 0

/-- The count equation at a node. -/
def LocalCount (h : Heap) (i : Nat) : Prop :=
  (h.get i).Count = (h.get i).Duplications + cnt h (h.get i).Left + cnt h (h.get i).Right

/-- The store holds the tree `T`: links, strictly ascending values in order, the chain,
positive heights and multiplicities. -/
structure TreeInv (h : Heap) (T : Shape) : Prop where
  linked : Linked h none T
  sorted : (h.values T.ids).Pairwise (· < ·)
  chain : Chain h none T.ids
  height : ∀ i ∈ T.ids, 1 ≤ (h.get i).Height
  dups : ∀ i ∈ T.ids, 1 ≤ (h.get i).Duplications

/-- Two stores agree on the fields no rotation and no count or height walk writes. -/
def SameData (h h' : Heap) : Prop :=
  h'.size = h.size ∧ ∀ i, (h'.get i).Value = (h.get i).Value
    ∧ (h'.get i).Duplications = (h.get i).Duplications
    ∧ (h'.get i).Smaller = (h.get i).Smaller ∧ (h'.get i).Larger = (h.get i).Larger

end Hist

namespace Hist

/-- The height `CalcHeight` stores, from the heights of the two children. -/
def hcalc (l r : Int) : Int := if r > l then r + 1 else l + 1

/-- The stored height of a child, `0` when there is none. -/
def hgt (h : Heap) : Ptr → Int
  | some j => (h.get j).Height
  | none => 0

/-- The parent's cell after its edge to `t` has been turned to `p`. -/
def relinked (t p : Nat) (n : HistogramItem) : HistogramItem :=
  if n.Left = some t then { n with Left := some p }
  else if n.Right = some t then { n with Right := some p }
  else n

end Hist

namespace Hist

/-- What a rotation leaves as it was: everything but counts and heights of the rotated
pair, and the links. -/
structure RotFrame (h h' : Heap) (t p : Nat) : Prop where
  same : SameData h h'
  count : ∀ i, i ≠ t → i ≠ p → (h'.get i).Count = (h.get i).Count
  height : ∀ i, i ≠ t → i ≠ p → (h'.get i).Height = (h.get i).Height

/-- The heights stored in a list of cells are positive. -/
def HPos (h : Heap) (ids : List Nat) : Prop := ∀ i ∈ ids, 1 ≤ (h.get i).Height

/-- The sum of the multiplicities of a list of cells. -/
def dupSum (h : Heap) (ids : List Nat) : Int := (ids.map fun i => (h.get i).Duplications).sum

/-- Every node's `Count` is the sum of the multiplicities in its subtree. -/
def Counted (h : Heap) : Shape → Prop
  | .nil => True
  | .node l i r => (h.get i).Count = dupSum h (l.ids ++ i :: r.ids) ∧ Counted h l ∧ Counted h r

/-- A step that rebuilds the subtree `S` under the path `ctx` into `S'`: the tree stays
linked, holds the same cells in the same order, and nothing but links changes outside
the subtree. -/
structure StepOK (h h' : Heap) (ctx : List Frame) (S S' : Shape) : Prop where
  linked : Linked h' none (plug ctx S')
  ids : S'.ids = S.ids
  same : SameData h h'
  outside : ∀ i, i ∉ S.ids →
    (h'.get i).Count = (h.get i).Count ∧ (h'.get i).Height = (h.get i).Height
  hpos : HPos h S.ids → HPos h' S'.ids
  counted : Counted h S → Counted h' S' ∧ cnt h' S'.root = cnt h S.root

end Hist

namespace Hist

/-- The counts along a path are the sums of the multiplicities below them, the subtree
of the path holding `s`. -/
def CountedCtx (h : Heap) : List Frame → Int → Prop
  | [], _ => True
  | f :: fs, s =>
    (h.get f.id).Count = s + (h.get f.id).Duplications + dupSum h f.sib.ids
      ∧ Counted h f.sib
      ∧ CountedCtx h fs (s + (h.get f.id).Duplications + dupSum h f.sib.ids)

/-- The addresses of the frames of a path, nearest first. -/
def pathIds (ctx : List Frame) : List Nat := ctx.map fun f => f.id

end Hist

namespace Hist

/-- What `Insert` achieves on a store holding the tree `T`. -/
structure InsertPost (h h' : Heap) (T T' : Shape) (v : ℚ) (c : Int) (item : Nat)
    (newRoot : Ptr) : Prop where
  inv : TreeInv h' T'
  root : T'.root = (match newRoot with
    | some x => some x
    | none => T.root)
  size_le : h.size ≤ h'.size
  value : (h'.get item).Value = v
  old : ∀ i ∈ T.ids, (h'.get i).Value = (h.get i).Value
    ∧ (i ≠ item → (h'.get i).Duplications = (h.get i).Duplications)
  ids : (item ∈ T.ids ∧ T'.ids = T.ids
        ∧ (h'.get item).Duplications = (h.get item).Duplications + c)
      ∨ (item ∉ T.ids ∧ (∀ i ∈ T.ids, (h.get i).Value ≠ v) ∧ (h'.get item).Duplications = c
        ∧ ∃ A B, T.ids = A ++ B ∧ T'.ids = A ++ item :: B)
  counted : Counted h T → (item ∈ T.ids ∨ c = 1) → Counted h' T'

end Hist

namespace Hist

/-- The addresses of the frames of a path and of their other subtrees. -/
def ctxIds (ctx : List Frame) : List Nat := ctxBefore ctx ++ ctxAfter ctx

end Hist

namespace Hist

/-- Every node's stored `Height` is the true height of its subtree. -/
def Tall (h : Heap) : Shape → Prop
  | .nil => True
  | .node l i r => (h.get i).Height = ((Shape.node l i r).height : Int) ∧ Tall h l ∧ Tall h r

/-- The stored heights below the top of a subtree are true heights. -/
def TallBelow (h : Heap) : Shape → Prop
  | .nil => True
  | .node l _ r => Tall h l ∧ Tall h r

/-- The stored heights along a path are true heights, the subtree of the path having
the height `n`. -/
def TallCtx (h : Heap) : List Frame → Nat → Prop
  | [], _ => True
  | f :: fs, n =>
    (h.get f.id).Height = ((max n f.sib.height + 1 : Nat) : Int) ∧ Tall h f.sib
      ∧ TallCtx h fs (max n f.sib.height + 1)

end Hist

namespace Hist

/-- What `Delete` achieves when it takes the node `t` out of the tree `T`. -/
structure Removed (h h' : Heap) (T T' : Shape) (t : Nat) : Prop where
  inv : TreeInv h' T'
  size : h'.size = h.size
  ids : ∃ A B, T.ids = A ++ t :: B ∧ T'.ids = A ++ B
  same : ∀ i, (h'.get i).Value = (h.get i).Value
    ∧ (h'.get i).Duplications = (h.get i).Duplications
  counted : Counted h T → Counted h' T'

end Hist

namespace Hist

/-- What `Delete` returns on a node `t` of the tree `T`: a node that holds more than one
sample loses one; the only node of a tree stays as it is and both results are `nil`;
any other node is taken out and the new root is returned. -/
def DeletePost (h h' : Heap) (T : Shape) (t : Nat) (replaced newRoot : Ptr) : Prop :=
  (1 < (h.get t).Duplications ∧ replaced = some t ∧ newRoot = none ∧ TreeInv h' T
      ∧ h'.size = h.size
      ∧ (∀ i ∈ T.ids, (h'.get i).Value = (h.get i).Value
          ∧ (h'.get i).Duplications = (h.get i).Duplications - (if i = t then 1 else 0))
      ∧ (Counted h T → Counted h' T))
    ∨ ((h.get t).Duplications = 1 ∧ T = .node .nil t .nil ∧ replaced = none ∧ newRoot = none
      ∧ h' = h)
    ∨ ((h.get t).Duplications = 1 ∧ ∃ T', Removed h h' T T' t ∧ newRoot = T'.root
      ∧ T'.root ≠ none ∧ (replaced = none ↔ (h.get t).Left = none ∧ (h.get t).Right = none))

end Hist

namespace Hist

/-- The multiplicity of the value `v` among the cells `ids`: the sum of their
`Duplications` where the value is `v`. -/
def mult (h : Heap) (ids : List Nat) (v : ℚ) : Int :=
  ((ids.filter fun i => (h.get i).Value = v).map fun i => (h.get i).Duplications).sum

/-- The steps the claims allow: an insert carries a count of at least one. -/
def TreeOp.valid : TreeOp → Prop
  | .insert _ count => 1 ≤ count
  | .delete _ => True

instance TreeOp.decValid : DecidablePred TreeOp.valid
  | .insert _ count => inferInstanceAs (Decidable (1 ≤ count))
  | .delete _ => isTrue trivial

/-- The steps of `create_tree` and `randomlyInsertAndDelete`: every insert has count one. -/
def TreeOp.unit : TreeOp → Prop
  | .insert _ count => count = 1
  | .delete _ => True

instance TreeOp.decUnit : DecidablePred TreeOp.unit
  | .insert _ count => inferInstanceAs (Decidable (count = 1))
  | .delete _ => isTrue trivial

/-- The change a step makes to the multiplicity of the value `w`, in a tree where `v`
has multiplicity `m`. -/
def TreeOp.delta (op : TreeOp) (m : ℚ → Int) (w : ℚ) : Int :=
  match op with
  | .insert v count => if w = v then count else 0
  | .delete v => if w = v ∧ 0 < m v then -1 else 0

/-- The state holds a tree that satisfies the invariant. -/
def TreeState.Good (s : TreeState) (T : Shape) : Prop :=
  TreeInv s.heap T ∧ T.root = s.root

end Hist

namespace Hist

/-! ## Runs of the histogram, as the tests make them -/

/-- A run returns and its result has the property `P`. -/
def Returns {α : Type} (x : Except Fault α) (P : α → Prop) : Prop :=
  match x with
  | .ok a => P a
  | .error _ => False

instance Returns.dec {α : Type} (x : Except Fault α) (P : α → Prop) [DecidablePred P] :
    Decidable (Returns x P) :=
  match x with
  | .ok a => inferInstanceAs (Decidable (P a))
  | .error _ => isFalse id

/-- A run fails with the fault `f`. -/
def Fails {α : Type} (x : Except Fault α) (f : Fault) : Prop :=
  match x with
  | .ok _ => False
  | .error e => e = f

instance Fails.dec {α : Type} (x : Except Fault α) (f : Fault) : Decidable (Fails x f) :=
  match x with
  | .ok _ => isFalse id
  | .error e => inferInstanceAs (Decidable (e = f))

/-- The calls of the tests on a histogram. -/
inductive HistOp where
  | enqueue (v : ℚ) (count : Int)
  | dequeue

/-- One call. -/
def Histogram.step (hs : Histogram) : HistOp → Except Fault Histogram
  | .enqueue v count => do
    let (_, hs1) ← hs.Enqueue v count
    pure hs1
  | .dequeue => do
    let (_, hs1) ← hs.Dequeue
    pure hs1

/-- A sequence of calls. -/
def Histogram.run (hs : Histogram) : List HistOp → Except Fault Histogram
  | [] => pure hs
  | op :: ops => do
    let hs1 ← hs.step op
    hs1.run ops

/-- The calls `Enqueue(v, 1)` for the values of a list, in order. -/
def enqueues (vs : List ℚ) : List HistOp := vs.map fun v => HistOp.enqueue v 1

/-- A fresh histogram with cursors registered before the first call. -/
def newWithCursors (size : Int) (slab : ℚ) (accuracy : Int) (ps : List ℚ) : Histogram :=
  ps.foldl (fun hs p => hs.AddPercentilePoint p) (NewHistogram size slab accuracy)

/-- The stored value behind a pointer. -/
def Histogram.valueAt (hs : Histogram) (p : Ptr) : Option ℚ :=
  p.map fun i => (hs.heap.get i).Value

/-- The values the cursors stand on, in the order of their registration. -/
def Histogram.cursorValues (hs : Histogram) : List (Option ℚ) :=
  hs.Percentiles.map fun p => hs.valueAt p.Item

/-- The cells reached from a pointer through `Larger`. -/
def chainFrom (h : Heap) : Nat → Ptr → List Nat
  | 0, _ => []
  | _ + 1, none => []
  | k + 1, some i => i :: chainFrom h k (h.get i).Larger

/-- The cells reached from a pointer through `Smaller`. -/
def chainBack (h : Heap) : Nat → Ptr → List Nat
  | 0, _ => []
  | _ + 1, none => []
  | k + 1, some i => i :: chainBack h k (h.get i).Smaller

/-- The live nodes of a histogram in ascending order: the chain from `MinItem`. -/
def Histogram.nodes (hs : Histogram) : List Nat := chainFrom hs.heap hs.heap.budget hs.MinItem

/-- The number of live samples with a value of at most `x`. -/
def Histogram.rank (hs : Histogram) (x : ℚ) : Int :=
  dupSum hs.heap (hs.nodes.filter fun i => (hs.heap.get i).Value ≤ x)

/-- The nearest-rank node for `p`: the last node, in ascending order, whose rank is at
most `p` times the number of live samples; the smallest node when there is none. -/
def Histogram.nearestRankNode (hs : Histogram) (p : ℚ) : Ptr :=
  match (hs.nodes.filter fun i =>
      (hs.rank (hs.heap.get i).Value : ℚ) ≤ p * (dupSum hs.heap hs.nodes : ℚ)).getLast? with
  | some i => some i
  | none => hs.nodes.head?

/-- The fixed list of the tests. -/
def SAMPLE_LIST : List ℚ :=
  [134, 3693, 1612, 2033, 1762, 669, 296, 567, 547, 935,
   2842, 3135, 645, 4265, 2267, 1170, 399, 635, 2153, 1836,
   348, 2672, 5318, 1662, 6104, 1057, 2900, 2777, 3715, 9208,
   2231, 387, 1181, 1063, 3092, 478, 2039, 781, 11764, 591,
   271, 1061, 3182, 1470, 4686, 1077, 1997, 2430, 18210, 2618]

instance LocalCount.dec (h : Heap) (i : Nat) : Decidable (LocalCount h i) :=
  inferInstanceAs (Decidable
    ((h.get i).Count = (h.get i).Duplications + cnt h (h.get i).Left + cnt h (h.get i).Right))

end Hist

namespace Hist

/-- The search-tree order at every node: the values of the left subtree are smaller
than the value of the node, those of the right subtree larger. -/
def Ordered (h : Heap) : Shape → Prop
  | .nil => True
  | .node l i r =>
    (∀ j ∈ l.ids, (h.get j).Value < (h.get i).Value)
      ∧ (∀ j ∈ r.ids, (h.get i).Value < (h.get j).Value)
      ∧ Ordered h l ∧ Ordered h r

/-- The change a step makes to the number of nodes, in a tree where `v` has
multiplicity `m v`: an insert makes a node when the value is absent, a delete takes
the node out when it holds one sample. -/
def TreeOp.nodes (op : TreeOp) (m : ℚ → Int) : Int :=
  match op with
  | .insert v _ => if m v = 0 then 1 else 0
  | .delete v => if m v = 1 then -1 else 0

/-- The value a step is about. -/
def TreeOp.value : TreeOp → ℚ
  | .insert v _ => v
  | .delete v => v

/-- The samples after a step, as the specification reads it: an insert adds `count`
copies of the value, a delete takes one copy out when there is one. -/
def TreeOp.apply (l : List ℚ) : TreeOp → List ℚ
  | .insert v count => l ++ List.replicate count.toNat v
  | .delete v => l.erase v

/-- The samples a run of steps from the empty tree leaves, as the specification reads
it. -/
def liveAfter (ops : List TreeOp) : List ℚ := ops.foldl TreeOp.apply []

/-- The nodes above a node, nearest first: the walk along `Parent` that the count loops
of `Insert` and `Delete` make. -/
def ancestors (h : Heap) : Nat → Ptr → List Nat
  | 0, _ => []
  | _ + 1, none => []
  | k + 1, some c => c :: ancestors h k (h.get c).Parent

/-- The neighbour in order that takes the place of a node: the last node of the left
subtree when there is a left child, else the first node of the right subtree, else
`nil`. -/
def inorderDonor (h : Heap) (t : Nat) : Ptr :=
  match (h.get t).Left, (h.get t).Right with
  | some l, _ => (h.shape (some l)).ids.getLast?
  | none, some r => (h.shape (some r)).ids.head?
  | none, none => none

/-- What a rotation at `t` with the child `p` achieves: `p` is the top of the subtree
under the former parent of `t`, the order of the subtree and the values,
multiplicities and chain links of all cells are as before, `p` has the former count of
`t`, and counts and heights of `t` and `p` fit their new children. -/
structure Rotated (h h' : Heap) (t p : Nat) : Prop where
  size : h'.size = h.size
  parent : (h'.get p).Parent = (h.get t).Parent
  edge : ∀ g, (h.get t).Parent = some g →
    ((h.get g).Left = some t → (h'.get g).Left = some p)
      ∧ ((h.get g).Right = some t → (h'.get g).Right = some p)
  below : (h'.get t).Parent = some p
  order : (h'.shape (some p)).ids = (h.shape (some t)).ids
  data : ∀ i, (h'.get i).Value = (h.get i).Value
    ∧ (h'.get i).Duplications = (h.get i).Duplications
    ∧ (h'.get i).Smaller = (h.get i).Smaller ∧ (h'.get i).Larger = (h.get i).Larger
  top : (h'.get p).Count = (h.get t).Count
  counts : LocalCount h t → LocalCount h p → LocalCount h' t ∧ LocalCount h' p
  heights : (h'.get t).Height = hcalc (hgt h' (h'.get t).Left) (hgt h' (h'.get t).Right)
    ∧ (h'.get p).Height = hcalc (hgt h' (h'.get p).Left) (hgt h' (h'.get p).Right)
  others : ∀ i, i ≠ t → i ≠ p →
    (h'.get i).Count = (h.get i).Count ∧ (h'.get i).Height = (h.get i).Height

/-- The last node, in order, of a list of nodes whose value is at most `v`. -/
def floorIn (h : Heap) (ids : List Nat) (v : ℚ) : Ptr :=
  (ids.filter fun i => (h.get i).Value ≤ v).getLast?

/-- The multiplicities of the state. -/
def TreeState.multiplicity (s : TreeState) (w : ℚ) : Int := mult s.heap s.shape.ids w

/-- The number of samples the inserts of a sequence bring: the sum of their counts.
While it stays below `2^63` no count of the tree leaves the range of `int64`, and the
sums of the embedding are the sums of the program. -/
def inserted : List TreeOp → Int
  | [] => 0
  | .insert _ count :: ops => count + inserted ops
  | .delete _ :: ops => inserted ops

end Hist

namespace Hist

/-! ## The histogram: what the claims speak of -/

/-- The live samples in the order of their arrival: the values of the nodes in the
FIFO. -/
def Histogram.samples (hs : Histogram) : List ℚ := hs.Queue.map fun i => (hs.heap.get i).Value

/-- The histogram holds the tree `T`: the store holds it, `RootItem` is its top,
`MinItem` and `MaxItem` are its first and last node in order, the FIFO holds every node
as often as its multiplicity and no other cell, and `Count` is the length of the
FIFO. -/
structure HistInv (hs : Histogram) (T : Shape) : Prop where
  inv : TreeInv hs.heap T
  root : hs.RootItem = T.root
  min : hs.MinItem = T.ids.head?
  max : hs.MaxItem = T.ids.getLast?
  queue : ∀ i, (hs.Queue.count i : Int)
    = if i ∈ T.ids then (hs.heap.get i).Duplications else 0
  count : hs.Count = hs.Queue.length

/-- The update of the running moments at the end of `Dequeue`, for the value taken
out. -/
def Histogram.momentsAfterDequeue (hs : Histogram) (value : ℚ) : Histogram :=
  if hs.Count > 0 then
    let meanPre := hs.Mean
    let mean := (hs.Mean * ((hs.Count + 1 : Int) : ℚ) - value) / (hs.Count : ℚ)
    let a := ((hs.Count + 1 : Int) : ℚ) / (hs.Count : ℚ) * hs.Variance
    let b := (meanPre - mean) ^ 2
    let c := 1 / (hs.Count : ℚ) * (value - meanPre) ^ 2
    { hs with Mean := mean, Variance := a - b - c }
  else if hs.Count = 0 then { hs with Mean := 0, Variance := 0 }
  else hs

/-- The writes of `Dequeue` to the tree, the FIFO, the count and the ends of the chain,
from the results of `Delete` on the head `item` of the FIFO. -/
def dequeueTree (hs : Histogram) (item : Nat) (rest : List Nat) (replacedItem newRoot : Ptr)
    (heap : Heap) : Histogram :=
  if newRoot ≠ none ∨ (newRoot = none ∧ replacedItem = none) then
    { hs with
      heap := heap, Queue := rest, Count := hs.Count - 1
      RootItem := newRoot
      MaxItem := if some item = hs.MaxItem then (hs.heap.get item).Smaller else hs.MaxItem
      MinItem := if some item = hs.MinItem then (hs.heap.get item).Larger else hs.MinItem }
  else { hs with heap := heap, Queue := rest, Count := hs.Count - 1 }

/-- The state after the part of `Dequeue` that does not touch the cursors and the
bucket index. -/
def dequeueCore (hs : Histogram) (item : Nat) (rest : List Nat) (replacedItem newRoot : Ptr)
    (heap : Heap) : Histogram :=
  (dequeueTree hs item rest replacedItem newRoot heap).momentsAfterDequeue (heap.get item).Value

/-- The update of the count and the running moments in `Enqueue`, for `count` samples
of the value `v`. -/
def Histogram.momentsAfterEnqueue (hs : Histogram) (v : ℚ) (count : Int) : Histogram :=
  let countPre := hs.Count
  let newCount := hs.Count + count
  let meanPre := hs.Mean
  let mean := (hs.Mean * (countPre : ℚ) + v * (count : ℚ)) / (newCount : ℚ)
  let a := (countPre : ℚ) / (newCount : ℚ) * hs.Variance
  let b := (countPre : ℚ) / (newCount : ℚ) * (mean - meanPre) ^ 2
  let c := (count : ℚ) / (newCount : ℚ) * (v - mean) ^ 2
  { hs with Count := newCount, Mean := mean, Variance := a + b + c }

/-- The writes of `Enqueue` to the tree, the ends of the chain and the FIFO, before the
count and the moments are updated and the window is cut. -/
def enqueueTree (hs : Histogram) (item : Nat) (rootItem minItem maxItem : Nat) (heap : Heap)
    (count : Int) : Histogram :=
  { hs with heap := heap, RootItem := some rootItem, MinItem := some minItem,
            MaxItem := some maxItem, Queue := hs.Queue ++ List.replicate count.toNat item }

/-- The root `Enqueue` adopts after `Insert`. -/
def adoptRoot (newRoot : Ptr) (root : Nat) : Nat :=
  match newRoot with
  | some r => r
  | none => root

/-- The end of the chain `Enqueue` adopts after `Insert`: the neighbour of the old end on
the outer side, if there is one. -/
def adoptEnd (outer : Ptr) (old : Nat) : Nat :=
  match outer with
  | some s => s
  | none => old

/-- The sum of the squares of a list of samples. -/
def sumSq (l : List ℚ) : ℚ := (l.map fun x => x ^ 2).sum

/-- The running moments agree with the live samples: `Mean` times the count is their
sum, `Variance + Mean²` times the count is the sum of their squares, and both are 0
when there is no sample. -/
def Histogram.MomentsOK (hs : Histogram) : Prop :=
  hs.Mean * (hs.Count : ℚ) = hs.samples.sum
    ∧ (hs.Variance + hs.Mean ^ 2) * (hs.Count : ℚ) = sumSq hs.samples
    ∧ (hs.Count = 0 → hs.Mean = 0 ∧ hs.Variance = 0)

/-- The arithmetic mean of a list of samples. -/
def meanOf (l : List ℚ) : ℚ := l.sum / (l.length : ℚ)

/-- The population variance of a list of samples: the mean squared deviation. -/
def varianceOf (l : List ℚ) : ℚ := (l.map fun x => (x - meanOf l) ^ 2).sum / (l.length : ℚ)

/-- The sliding window as the specification reads it: the last `w` samples when `w` is
positive, all samples else. -/
def window (w : Int) (l : List ℚ) : List ℚ :=
  if 0 < w then l.drop (l.length - w.toNat) else l

/-- The calls the claims allow: an `Enqueue` carries a count of at least one. -/
def HistOp.valid : HistOp → Prop
  | .enqueue _ count => 1 ≤ count
  | .dequeue => True

instance HistOp.decValid : DecidablePred HistOp.valid
  | .enqueue _ count => inferInstanceAs (Decidable (1 ≤ count))
  | .dequeue => isTrue trivial

/-- The calls `Enqueue(v, 1)` and `Dequeue()`. -/
def HistOp.unit : HistOp → Prop
  | .enqueue _ count => count = 1
  | .dequeue => True

instance HistOp.decUnit : DecidablePred HistOp.unit
  | .enqueue _ count => inferInstanceAs (Decidable (count = 1))
  | .dequeue => isTrue trivial

/-- The live samples after a call, as the specification reads it: `Enqueue(x, count)`
appends `count` copies of the quantised `x` and cuts the window, `Dequeue()` drops the
oldest sample. -/
def HistOp.apply (w : Int) (accuracy : ℚ) (l : List ℚ) : HistOp → List ℚ
  | .enqueue x count =>
    window w (l ++ List.replicate count.toNat (goRound (x * accuracy) / accuracy))
  | .dequeue => l.tail

/-- The live samples after a sequence of calls on a fresh histogram, as the
specification reads it. -/
def samplesAfter (w : Int) (accuracy : ℚ) (ops : List HistOp) : List ℚ :=
  ops.foldl (HistOp.apply w accuracy) []

/-- Two states that differ in the cursors and the bucket index only. -/
def Histogram.Alike (a b : Histogram) : Prop :=
  a.heap = b.heap ∧ a.Queue = b.Queue ∧ a.RootItem = b.RootItem ∧ a.QueueSize = b.QueueSize
    ∧ a.Count = b.Count ∧ a.Accuracy = b.Accuracy ∧ a.MinItem = b.MinItem
    ∧ a.MaxItem = b.MaxItem ∧ a.Mean = b.Mean ∧ a.Variance = b.Variance

end Hist

namespace Hist

/-! ## The bucket index -/

/-- The slot `[k][j]` of the bucket index, `nil` where the index has no slot. -/
def BucketHistogram.slot (b : BucketHistogram) (k j : Nat) : Ptr :=
  match b.SubBucketHistograms.getD k none with
  | some sb => sb.BucketList.getD j none
  | none => none

/-- The position of a value in the bucket index: the slab that `CalcPosition` of the
index gives, and the position that `CalcPosition` of that slab gives. -/
def BucketHistogram.position (b : BucketHistogram) (v : ℚ) : Int × Int :=
  ((b.CalcPosition v).1,
    (NewSubBucketHistogram b.BucketSize (b.CalcPosition v).2.1
      (b.CalcPosition v).2.2).CalcPosition v)

/-- The bucket index is well formed: the slab size is at least one, the bucket size is
positive, and every slab it holds has the bucket size of the index and starts at its
index times the slab size. -/
structure BucketOK (b : BucketHistogram) : Prop where
  slab : 1 ≤ b.SubBucketHistogramSize
  unit : 0 < b.BucketSize
  slabs : ∀ k sb, b.SubBucketHistograms.getD k none = some sb →
    sb.BucketSize = b.BucketSize ∧ sb.LowerBoundary = (k : ℚ) * b.SubBucketHistogramSize

/-- The bucket index of a histogram without cursors maps the position of the value of
each node of the tree `T` to that node, and holds nothing else. -/
structure BucketInv (hs : Histogram) (T : Shape) : Prop where
  ok : BucketOK hs.BucketHistogram
  cursors : hs.Percentiles = []
  accuracy : 0 < hs.Accuracy
  unit : hs.BucketHistogram.BucketSize = 1 / hs.Accuracy
  slots : ∀ k j n, hs.BucketHistogram.slot k j = some n ↔
    n ∈ T.ids ∧ hs.BucketHistogram.position (hs.heap.get n).Value = ((k : Int), (j : Int))

/-- The values of the nodes of `T` are not negative and lie on the grid of the
accuracy. -/
def OnGrid (hs : Histogram) (T : Shape) : Prop :=
  ∀ i ∈ T.ids, 0 ≤ (hs.heap.get i).Value
    ∧ ∃ k : Int, (hs.heap.get i).Value = (k : ℚ) / hs.Accuracy

/-- The indices the bucket index computes are `int64` numbers: with the slab size
`slab` and the accuracy factor `acc` of the histogram a slab has fewer than `2^63`
buckets, and the value of every node of `T` lies in one of the first `2^63` slabs. -/
structure InRange (slab acc : ℚ) (hs : Histogram) (T : Shape) : Prop where
  slab_eq : hs.BucketHistogram.SubBucketHistogramSize = slab
  acc_eq : hs.Accuracy = acc
  room : slab * acc + 1 ≤ 2 ^ 63
  reach : ∀ i ∈ T.ids, (hs.heap.get i).Value / slab < 2 ^ 63

/-- The value of a call, quantised with the accuracy factor `acc`, lies in one of the
first `2^63` slabs of the size `slab`, so that its slab index is an `int64`. -/
def HistOp.fits (slab acc : ℚ) : HistOp → Prop
  | .enqueue v _ => goRound (v * acc) / acc / slab < 2 ^ 63
  | .dequeue => True

instance HistOp.decFits (slab acc : ℚ) : DecidablePred (HistOp.fits slab acc)
  | .enqueue v _ => inferInstanceAs (Decidable (goRound (v * acc) / acc / slab < 2 ^ 63))
  | .dequeue => isTrue trivial

/-- The values of a call are not negative. -/
def HistOp.nonneg : HistOp → Prop
  | .enqueue v _ => 0 ≤ v
  | .dequeue => True

instance HistOp.decNonneg : DecidablePred HistOp.nonneg
  | .enqueue v _ => inferInstanceAs (Decidable (0 ≤ v))
  | .dequeue => isTrue trivial

/-- What a run on a fresh histogram asks of its inputs to return: the slab size is at
least one, a slab has fewer than `2^63` buckets, and the value of every call is not
negative and lies, once quantised, in one of the first `2^63` slabs. -/
def Feasible (slab : ℚ) (accuracy : Int) (ops : List HistOp) : Prop :=
  1 ≤ slab ∧ slab * (10 : ℚ) ^ accuracy + 1 ≤ 2 ^ 63
    ∧ ∀ op ∈ ops, op.nonneg ∧ op.fits slab ((10 : ℚ) ^ accuracy)

instance Feasible.dec (slab : ℚ) (accuracy : Int) (ops : List HistOp) :
    Decidable (Feasible slab accuracy ops) :=
  inferInstanceAs (Decidable (1 ≤ slab ∧ slab * (10 : ℚ) ^ accuracy + 1 ≤ 2 ^ 63
    ∧ ∀ op ∈ ops, op.nonneg ∧ op.fits slab ((10 : ℚ) ^ accuracy)))

end Hist

namespace Hist

/-- The live samples as the chain holds them: the value of each node of the chain from
`MinItem`, repeated `Duplications` times. -/
def Histogram.live (hs : Histogram) : List ℚ :=
  hs.nodes.flatMap fun i => List.replicate (hs.heap.get i).Duplications.toNat (hs.heap.get i).Value

/-- The nodes of the tree of a histogram, in order: those reached from `RootItem`. -/
def Histogram.treeNodes (hs : Histogram) : List Nat := (hs.heap.shape hs.RootItem).ids

/-- The number of samples the calls `Enqueue` of a sequence bring. -/
def enqueued : List HistOp → Int
  | [] => 0
  | .enqueue _ count :: ops => count + enqueued ops
  | .dequeue :: ops => enqueued ops

/-- The call is an `Enqueue`. -/
def HistOp.isEnqueue : HistOp → Prop
  | .enqueue _ _ => True
  | .dequeue => False

/-- The length of the slab `k` of the bucket index, 0 when there is no such slab. -/
def BucketHistogram.rowLength (b : BucketHistogram) (k : Nat) : Nat :=
  match b.SubBucketHistograms.getD k none with
  | some sb => sb.BucketList.length
  | none => 0

/-- The nodes in the slots of the bucket index that are not `nil`, slab by slab. -/
def BucketHistogram.entries (b : BucketHistogram) : List Nat :=
  (List.range b.SubBucketHistograms.length).flatMap fun k =>
    (List.range (b.rowLength k)).filterMap fun j => b.slot k j

/-- The true height of the subtree a pointer leads to: 0 for `nil`, else one more than the
larger of the true heights under `Left` and `Right`. -/
def Heap.heightAt (h : Heap) (p : Ptr) : Nat := (h.shape p).height

end Hist

namespace Hist

/-! ## Cursors on the ordered chain -/

/-- The cursor `p` stands on the node `i`, the nodes `A` are the ones before `i` in the
chain, and the count of the cursor is the number of samples up to `i`. -/
def CurAt (h : Heap) (p : PercentileItem) (A : List Nat) (i : Nat) : Prop :=
  p.Item = some i ∧ p.Count = dupSum h A + (h.get i).Duplications

/-- Where the forward walk of a cursor with the percentile `P` leaves it: the walk starts
on `i` in the chain `A ++ i :: B` when the share of `i` is below `P`, goes on over the
nodes whose share is at most `P`, and stops before the first node whose share is more. -/
structure Advanced (h : Heap) (total P : ℚ) (A : List Nat) (i : Nat) (B : List Nat)
    (A' : List Nat) (i' : Nat) (B' : List Nat) : Prop where
  whole : A' ++ i' :: B' = A ++ i :: B
  fwd : A.length ≤ A'.length
  moved : A.length < A'.length →
    ((dupSum h A' + (h.get i').Duplications : Int) : ℚ) / total ≤ P
  stay : ¬ (((dupSum h A + (h.get i).Duplications : Int) : ℚ) / total < P) →
    A'.length = A.length
  stop : ∀ x ∈ B'.head?,
    P < ((dupSum h A' + (h.get i').Duplications + (h.get x).Duplications : Int) : ℚ) / total

/-- Where the backward walk of a cursor with the percentile `P` leaves it: the walk
starts on `i` in the chain `A ++ i :: B` with the share `pv`, steps back once when `pv`
is more than `P` and there is a node before, and goes on while the share of the node
before is more than `P`: it leaves every node `j` it steps back from, after the first,
because the share of the nodes `C` before `j` is more than `P`. -/
structure Retreated (h : Heap) (total P pv : ℚ) (A : List Nat) (i : Nat) (B : List Nat)
    (A' : List Nat) (i' : Nat) (B' : List Nat) : Prop where
  whole : A' ++ i' :: B' = A ++ i :: B
  back : A'.length ≤ A.length
  stay : A = [] ∨ ¬ (P < pv) → A'.length = A.length
  go : A ≠ [] → P < pv → A'.length < A.length
  pass : ∀ C j D, C ++ j :: D = A ++ i :: B → A'.length < C.length → C.length < A.length →
    P < ((dupSum h C : Int) : ℚ) / total
  stop : A'.length < A.length → A' ≠ [] → ¬ (P < ((dupSum h A' : Int) : ℚ) / total)

/-- How the place of the node `i` in the chain changes when one sample of the value `v`
comes in: the chain `A ++ i :: B` before, `A1 ++ i :: B1` after. -/
structure Shifted (h h' : Heap) (v : ℚ) (A : List Nat) (i : Nat) (B A1 B1 : List Nat) :
    Prop where
  value : (h'.get i).Value = (h.get i).Value
  below : v < (h.get i).Value → dupSum h' A1 = dupSum h A + 1 ∧ A1 ≠ []
    ∧ (h'.get i).Duplications = (h.get i).Duplications ∧ B1 = B
    ∧ ∀ x ∈ B, (h'.get x).Duplications = (h.get x).Duplications
  same : v = (h.get i).Value → A1 = A ∧ dupSum h' A1 = dupSum h A
    ∧ (h'.get i).Duplications = (h.get i).Duplications + 1 ∧ B1 = B
    ∧ ∀ x ∈ B, (h'.get x).Duplications = (h.get x).Duplications
  above : (h.get i).Value < v → A1 = A ∧ dupSum h' A1 = dupSum h A
    ∧ (h'.get i).Duplications = (h.get i).Duplications
    ∧ dupSum h' B1 = dupSum h B + 1

/-- Where a cursor that stood on `i` in the chain `A ++ i :: B` stands after one sample
of the node `item` is taken out (`rem` tells whether the node left the tree), and which
walk it made from there: forward when the sample was not above the cursor, from the
next node when the node of the cursor left the tree; backward when the sample was
above. -/
inductive Dropped (h h' : Heap) (total P : ℚ) (item : Nat) (rem : Bool) (A : List Nat)
    (i : Nat) (B A' : List Nat) (i' : Nat) (B' : List Nat) : Prop where
  | below (A1 : List Nat) : item ∈ A → dupSum h' A1 = dupSum h A - 1 →
      A1.length + (if rem then 1 else 0) = A.length →
      (h'.get i).Duplications = (h.get i).Duplications →
      (∀ x ∈ B, (h'.get x).Duplications = (h.get x).Duplications) →
      Advanced h' total P A1 i B A' i' B' → Dropped h h' total P item rem A i B A' i' B'
  | above (B1 : List Nat) : item ∈ B → dupSum h' A = dupSum h A →
      (h'.get i).Duplications = (h.get i).Duplications →
      (∀ x ∈ B1.head?, ∃ y ∈ B.head?, (h.get y).Duplications ≤ (h'.get x).Duplications + 1) →
      Retreated h' total P (((dupSum h' A + (h'.get i).Duplications : Int) : ℚ) / total)
        A i B1 A' i' B' → Dropped h h' total P item rem A i B A' i' B'
  | kept : item = i → rem = false → dupSum h' A = dupSum h A →
      (h'.get i).Duplications = (h.get i).Duplications - 1 →
      (∀ x ∈ B, (h'.get x).Duplications = (h.get x).Duplications) →
      Advanced h' total P A i B A' i' B' → Dropped h h' total P item rem A i B A' i' B'
  | next (l : Nat) (B2 : List Nat) : item = i → rem = true → (h.get i).Duplications = 1 →
      B = l :: B2 → dupSum h' A = dupSum h A →
      (∀ x ∈ B, (h'.get x).Duplications = (h.get x).Duplications) →
      Advanced h' total P A l B2 A' i' B' → Dropped h h' total P item rem A i B A' i' B'
  | last : item = i → rem = true → (h.get i).Duplications = 1 → B = [] → A = A' ++ [i'] →
      B' = [] → dupSum h' A = dupSum h A → Dropped h h' total P item rem A i B A' i' B'

/-- One cursor before and after `Dequeue` took a sample of the node `item` out of the
chain `l` and left the chain `l'`. -/
def DequeueStep (h h' : Heap) (l l' : List Nat) (total : ℚ) (item : Nat) (rem : Bool)
    (p p' : PercentileItem) : Prop :=
  p'.Percentile = p.Percentile ∧ ∃ A i B A' i' B', l = A ++ i :: B ∧ CurAt h p A i
    ∧ l' = A' ++ i' :: B' ∧ CurAt h' p' A' i'
    ∧ Dropped h h' total p.Percentile item rem A i B A' i' B'

/-- One cursor before and after the cursor loop of `Enqueue`, for one new sample of the
value `v`: the chain `l` before `Insert`, the chain `l'` after. -/
def EnqueueStep (h h' : Heap) (l l' : List Nat) (total v : ℚ) (p p' : PercentileItem) : Prop :=
  p'.Percentile = p.Percentile ∧ ∃ A i B A1 B1 A' i' B', l = A ++ i :: B ∧ CurAt h p A i
    ∧ l' = A1 ++ i :: B1 ∧ Shifted h h' v A i B A1 B1 ∧ CurAt h' p' A' i'
    ∧ (v ≤ (h.get i).Value → Retreated h' total p.Percentile
        (((dupSum h' A1 + (h'.get i).Duplications : Int) : ℚ) / total) A1 i B1 A' i' B')
    ∧ ((h.get i).Value < v → Advanced h' total p.Percentile A1 i B1 A' i' B')

/-- Every cursor of the histogram stands on a node of the chain `l`, with the number of
samples up to that node as its count. -/
def CursorsOK (hs : Histogram) (l : List Nat) : Prop :=
  ∀ p ∈ hs.Percentiles, ∃ A i B, l = A ++ i :: B ∧ CurAt hs.heap p A i

/-- The histogram without its cursors. -/
def Histogram.strip (hs : Histogram) : Histogram := { hs with Percentiles := [] }

end Hist

namespace Hist

/-! ## The budget of the product search -/

/-- A bound on the evaluations of `SearchPercentileByMultiply` one evaluation with the
slab index `si`, the lower search index `lo` and the iteration count `k` starts, itself
included: the count goes up by one with every step of a search and no step is made
beyond 30; a search inside a slab (`si ≥ 0`) starts no other search; a search over the
slabs (`si < 0`) starts at most one search with the count 1 again, in a slab when its
indices are not negative. -/
def searchBound (si lo k : Int) : Nat :=
  if 30 < k then 1
  else ((if 0 ≤ si then (32 : Int) else if 0 ≤ lo then 62 else 92) - k).toNat

end Hist

namespace Hist

/-! ## Cursors on the nearest-rank node -/

/-- The node `i` of the chain `A ++ i :: B` is the nearest-rank node for `P`: the share
of the samples up to `i` is at most `P` unless `i` is the first node, and the share of
the samples up to the node after `i` is more than `P`. -/
def NearAt (h : Heap) (total P : ℚ) (A : List Nat) (i : Nat) (B : List Nat) : Prop :=
  (A ≠ [] → ((dupSum h A + (h.get i).Duplications : Int) : ℚ) / total ≤ P)
    ∧ ∀ x ∈ B.head?,
      P < ((dupSum h A + (h.get i).Duplications + (h.get x).Duplications : Int) : ℚ) / total

/-- Every cursor of the histogram stands on the nearest-rank node of the chain `l` for
its percentile, with the number of samples up to that node as its count. -/
def CursorsNear (hs : Histogram) (l : List Nat) : Prop :=
  ∀ p ∈ hs.Percentiles, ∃ A i B, l = A ++ i :: B ∧ CurAt hs.heap p A i
    ∧ NearAt hs.heap ((dupSum hs.heap l : Int) : ℚ) p.Percentile A i B

/-- The share of the samples of at most `x` among all samples. -/
def shareOf (samples : List ℚ) (x : ℚ) : ℚ :=
  ((samples.countP fun y => decide (y ≤ x) : Nat) : ℚ) / (samples.length : ℚ)

/-- The nearest-rank value of a list of samples for `p`: `x` is the largest sample whose
share is at most `p`, or the smallest sample when no sample has a share of at most
`p`. -/
def IsNearestRank (samples : List ℚ) (p x : ℚ) : Prop :=
  x ∈ samples ∧
    if ∃ y ∈ samples, shareOf samples y ≤ p then
      shareOf samples x ≤ p ∧ ∀ y ∈ samples, shareOf samples y ≤ p → y ≤ x
    else ∀ y ∈ samples, x ≤ y

instance IsNearestRank.dec (samples : List ℚ) (p x : ℚ) : Decidable (IsNearestRank samples p x) := by
  unfold IsNearestRank
  infer_instance

end Hist

namespace Hist

/-! ## Cursors near the nearest-rank node, and their order -/

end Hist

/-! ## Lemmas -/

namespace Hist

/-! ## The store -/

@[simp] theorem Heap.size_set (h : Heap) (i : Nat) (x : HistogramItem) :
    (h.set i x).size = h.size := by
  simp [Heap.set, Heap.size]

@[simp] theorem Heap.size_modify (h : Heap) (i : Nat) (f : HistogramItem → HistogramItem) :
    (h.modify i f).size = h.size := by
  simp [Heap.modify]

@[simp] theorem Heap.budget_modify (h : Heap) (i : Nat) (f : HistogramItem → HistogramItem) :
    (h.modify i f).budget = h.budget := by
  simp [Heap.budget]

theorem Heap.get_set (h : Heap) (i j : Nat) (x : HistogramItem) :
    (h.set i x).get j = if j = i ∧ i < h.size then x else h.get j := by
  unfold Heap.set Heap.get Heap.size
  simp only [List.getD_eq_getElem?_getD, List.getElem?_set]
  by_cases hji : j = i
  · subst hji
    by_cases hlt : j < h.cells.length
    · simp [hlt]
    · have h2 : h.cells[j]? = none := by
        apply List.getElem?_eq_none
        omega
      simp [hlt, h2]
  · have : ¬ i = j := fun e => hji e.symm
    simp [hji, this]

theorem Heap.get_modify (h : Heap) (i j : Nat) (f : HistogramItem → HistogramItem) :
    (h.modify i f).get j = if j = i ∧ i < h.size then f (h.get i) else h.get j := by
  simp [Heap.modify, Heap.get_set]

theorem Heap.get_modify_self (h : Heap) (i : Nat) (f : HistogramItem → HistogramItem)
    (hi : i < h.size) : (h.modify i f).get i = f (h.get i) := by
  simp [Heap.get_modify, hi]

theorem Heap.get_modify_ne (h : Heap) (i j : Nat) (f : HistogramItem → HistogramItem)
    (hji : j ≠ i) : (h.modify i f).get j = h.get j := by
  simp [Heap.get_modify, hji]

@[simp] theorem Heap.alloc_fst (h : Heap) (x : HistogramItem) : (h.alloc x).1 = h.size := rfl

@[simp] theorem Heap.size_alloc (h : Heap) (x : HistogramItem) :
    (h.alloc x).2.size = h.size + 1 := by
  simp [Heap.alloc, Heap.size]

theorem Heap.get_alloc (h : Heap) (x : HistogramItem) (j : Nat) :
    (h.alloc x).2.get j = if j = h.size then x else h.get j := by
  unfold Heap.alloc Heap.get Heap.size
  simp only [List.getD_eq_getElem?_getD]
  by_cases hj : j < h.cells.length
  · have : j ≠ h.cells.length := Nat.ne_of_lt hj
    simp [List.getElem?_append_left hj, this]
  · by_cases hje : j = h.cells.length
    · subst hje
      simp
    · have hlt : h.cells.length < j := by omega
      have h1 : (h.cells ++ [x])[j]? = none := by
        apply List.getElem?_eq_none
        simp
        omega
      have h2 : h.cells[j]? = none := by
        apply List.getElem?_eq_none
        omega
      simp [h1, h2, hje]

end Hist

namespace Hist

/-! ## Shapes and paths -/

@[simp] theorem Shape.ids_nil : Shape.nil.ids = [] := rfl
@[simp] theorem Shape.ids_node (l : Shape) (i : Nat) (r : Shape) :
    (Shape.node l i r).ids = l.ids ++ i :: r.ids := rfl
@[simp] theorem Shape.root_nil : Shape.nil.root = none := rfl
@[simp] theorem Shape.root_node (l : Shape) (i : Nat) (r : Shape) :
    (Shape.node l i r).root = some i := rfl

theorem Shape.root_mem_ids {T : Shape} {j : Nat} (hj : T.root = some j) : j ∈ T.ids := by
  cases T with
  | nil => simp at hj
  | node l i r =>
    simp at hj
    simp [hj]

theorem Shape.root_eq_none {T : Shape} : T.root = none ↔ T = .nil := by
  cases T <;> simp

theorem ids_wrap (f : Frame) (t : Shape) :
    (f.wrap t).ids = (if f.isLeft then [] else f.sib.ids ++ [f.id]) ++ t.ids
      ++ (if f.isLeft then f.id :: f.sib.ids else []) := by
  unfold Frame.wrap
  cases f.isLeft <;> simp

@[simp] theorem root_wrap (f : Frame) (t : Shape) : (f.wrap t).root = some f.id := by
  unfold Frame.wrap
  cases f.isLeft <;> simp

theorem ids_plug (ctx : List Frame) (t : Shape) :
    (plug ctx t).ids = ctxBefore ctx ++ t.ids ++ ctxAfter ctx := by
  induction ctx generalizing t with
  | nil => simp [plug, ctxBefore, ctxAfter]
  | cons f fs ih =>
    simp only [plug, ih, ids_wrap, ctxBefore, ctxAfter]
    simp [List.append_assoc]

theorem root_plug_cons (f : Frame) (fs : List Frame) (t : Shape) :
    ∃ j, (plug (f :: fs) t).root = some j := by
  induction fs generalizing f t with
  | nil => exact ⟨f.id, by simp [plug]⟩
  | cons g gs ih =>
    obtain ⟨j, hj⟩ := ih g (f.wrap t)
    exact ⟨j, by simpa [plug] using hj⟩

theorem plug_append (c1 c2 : List Frame) (t : Shape) :
    plug (c1 ++ c2) t = plug c2 (plug c1 t) := by
  induction c1 generalizing t with
  | nil => rfl
  | cons f fs ih => simp [plug, ih]

/-! ## Links -/

theorem Linked.congr_links {h h' : Heap} (hs : h.size ≤ h'.size) :
    ∀ {T : Shape} {par : Ptr},
      (∀ i ∈ T.ids, (h'.get i).Left = (h.get i).Left ∧ (h'.get i).Right = (h.get i).Right
        ∧ (h'.get i).Parent = (h.get i).Parent) →
      Linked h par T → Linked h' par T
  | .nil, _, _, _ => trivial
  | .node l i r, par, hc, hl => by
    obtain ⟨h1, h2, h3, h4, h5, h6⟩ := hl
    obtain ⟨c1, c2, c3⟩ := hc i (by simp)
    refine ⟨by omega, by rw [c3, h2], by rw [c1, h3], by rw [c2, h4], ?_, ?_⟩
    · exact Linked.congr_links hs (fun j hj => hc j (by simp [hj])) h5
    · exact Linked.congr_links hs (fun j hj => hc j (by simp [hj])) h6

/-- The same subtree under another parent: only the top cell's `Parent` differs. -/
theorem Linked.reparent {h h' : Heap} (hs : h.size ≤ h'.size) {T : Shape} {par par' : Ptr}
    (hnd : T.ids.Nodup)
    (hc : ∀ i ∈ T.ids, (h'.get i).Left = (h.get i).Left ∧ (h'.get i).Right = (h.get i).Right
        ∧ (some i ≠ T.root → (h'.get i).Parent = (h.get i).Parent))
    (hroot : ∀ j, T.root = some j → (h'.get j).Parent = par')
    (hl : Linked h par T) : Linked h' par' T := by
  cases T with
  | nil => trivial
  | node l i r =>
    obtain ⟨h1, _, h3, h4, h5, h6⟩ := hl
    obtain ⟨c1, c2, _⟩ := hc i (by simp)
    simp only [Shape.ids_node] at hnd
    have hnd' := List.nodup_append.mp hnd
    have hil : i ∉ l.ids := fun hm => hnd'.2.2 hm (by simp)
    have hir : i ∉ r.ids := (List.nodup_cons.mp hnd'.2.1).1
    refine ⟨by omega, hroot i rfl, by rw [c1, h3], by rw [c2, h4], ?_, ?_⟩
    · refine Linked.congr_links hs (fun j hj => ?_) h5
      obtain ⟨d1, d2, d3⟩ := hc j (by simp [hj])
      refine ⟨d1, d2, d3 ?_⟩
      simp only [Shape.root_node, ne_eq, Option.some.injEq]
      rintro rfl
      exact hil hj
    · refine Linked.congr_links hs (fun j hj => ?_) h6
      obtain ⟨d1, d2, d3⟩ := hc j (by simp [hj])
      refine ⟨d1, d2, d3 ?_⟩
      simp only [Shape.root_node, ne_eq, Option.some.injEq]
      rintro rfl
      exact hir hj

theorem Linked.ids_lt {h : Heap} : ∀ {T : Shape} {par : Ptr}, Linked h par T →
    ∀ i ∈ T.ids, i < h.size
  | .nil, _, _, i, hi => by simp at hi
  | .node l j r, _, hl, i, hi => by
    obtain ⟨h1, _, _, _, h5, h6⟩ := hl
    simp only [Shape.ids_node, List.mem_append, List.mem_cons] at hi
    rcases hi with hi | rfl | hi
    · exact Linked.ids_lt h5 i hi
    · exact h1
    · exact Linked.ids_lt h6 i hi

theorem Linked.root_parent {h : Heap} {T : Shape} {par : Ptr} (hl : Linked h par T)
    {j : Nat} (hj : T.root = some j) : (h.get j).Parent = par := by
  cases T with
  | nil => simp at hj
  | node l i r =>
    simp at hj
    subst hj
    exact hl.2.1

theorem linked_plug {h : Heap} : ∀ (ctx : List Frame) (t : Shape),
    Linked h none (plug ctx t) ↔ Linked h (ctxParent ctx) t ∧ LinkedCtx h ctx t.root
  | [], t => by simp [plug, ctxParent, LinkedCtx]
  | f :: fs, t => by
    rw [plug, linked_plug fs (f.wrap t)]
    unfold Frame.wrap
    cases hf : f.isLeft
    · simp only [Bool.false_eq_true, ↓reduceIte, Linked, Shape.root_node, ctxParent, LinkedCtx, hf]
      constructor
      · rintro ⟨⟨a1, a2, a3, a4, a5, a6⟩, a7⟩
        exact ⟨a6, a1, a2, a3, a4, a5, a7⟩
      · rintro ⟨a6, a1, a2, a3, a4, a5, a7⟩
        exact ⟨⟨a1, a2, a3, a4, a5, a6⟩, a7⟩
    · simp only [↓reduceIte, Linked, Shape.root_node, ctxParent, LinkedCtx, hf]
      constructor
      · rintro ⟨⟨a1, a2, a3, a4, a5, a6⟩, a7⟩
        exact ⟨a5, a1, a2, a3, a4, a6, a7⟩
      · rintro ⟨a5, a1, a2, a3, a4, a6, a7⟩
        exact ⟨⟨a1, a2, a3, a4, a5, a6⟩, a7⟩

theorem mem_ctxIds_cons {f : Frame} {fs : List Frame} {i : Nat} :
    i ∈ ctxIds (f :: fs) ↔ i = f.id ∨ i ∈ f.sib.ids ∨ i ∈ ctxIds fs := by
  unfold ctxIds
  simp only [ctxBefore, ctxAfter]
  cases f.isLeft <;> simp <;> tauto

theorem ctxIds_cons_perm (f : Frame) (fs : List Frame) :
    (ctxIds (f :: fs)).Perm (f.id :: (f.sib.ids ++ ctxIds fs)) := by
  unfold ctxIds
  simp only [ctxBefore, ctxAfter]
  cases f.isLeft
  · simp only [Bool.false_eq_true, ↓reduceIte, List.nil_append]
    have h1 : (ctxBefore fs ++ (f.sib.ids ++ [f.id]) ++ ctxAfter fs).Perm
        ((f.sib.ids ++ [f.id]) ++ (ctxBefore fs ++ ctxAfter fs)) := by
      rw [List.append_assoc]
      refine (List.perm_append_comm_assoc _ _ _).trans ?_
      simp
    refine h1.trans ?_
    rw [List.append_assoc]
    refine (List.perm_append_comm_assoc _ _ _).trans ?_
    simp
  · simp only [↓reduceIte, List.append_nil]
    have h1 : (ctxBefore fs ++ (f.id :: f.sib.ids ++ ctxAfter fs)).Perm
        ((f.id :: f.sib.ids) ++ (ctxBefore fs ++ ctxAfter fs)) := by
      refine (List.perm_append_comm_assoc _ _ _).trans ?_
      simp
    simpa using h1

theorem LinkedCtx.congr_ctx {h h' : Heap} (hs : h.size ≤ h'.size) :
    ∀ {ctx : List Frame} {child : Ptr},
      (∀ i ∈ ctxIds ctx, (h'.get i).Left = (h.get i).Left ∧ (h'.get i).Right = (h.get i).Right
        ∧ (h'.get i).Parent = (h.get i).Parent) →
      LinkedCtx h ctx child → LinkedCtx h' ctx child
  | [], _, _, _ => trivial
  | f :: fs, child, hc, hl => by
    obtain ⟨h1, h2, h3, h4, h5, h6⟩ := hl
    obtain ⟨c1, c2, c3⟩ := hc f.id (mem_ctxIds_cons.mpr (Or.inl rfl))
    refine ⟨by omega, by rw [c3, h2], by rw [c1, h3], by rw [c2, h4], ?_, ?_⟩
    · exact Linked.congr_links hs (fun j hj => hc j (mem_ctxIds_cons.mpr (Or.inr (Or.inl hj)))) h5
    · exact LinkedCtx.congr_ctx hs (fun j hj => hc j (mem_ctxIds_cons.mpr (Or.inr (Or.inr hj)))) h6

/-- The same path over another child: only the nearest frame's pointer to the child
differs. -/
theorem LinkedCtx.rechild {h h' : Heap} (hs : h.size ≤ h'.size) {ctx : List Frame}
    {child child' : Ptr} (hnd : (ctxIds ctx).Nodup)
    (hc : ∀ i ∈ ctxIds ctx, (h'.get i).Parent = (h.get i).Parent
        ∧ (some i ≠ ctxParent ctx → (h'.get i).Left = (h.get i).Left
            ∧ (h'.get i).Right = (h.get i).Right))
    (htop : ∀ f fs, ctx = f :: fs →
        (h'.get f.id).Left = (if f.isLeft then child' else f.sib.root)
        ∧ (h'.get f.id).Right = (if f.isLeft then f.sib.root else child'))
    (hl : LinkedCtx h ctx child) : LinkedCtx h' ctx child' := by
  cases ctx with
  | nil => trivial
  | cons f fs =>
    obtain ⟨h1, h2, _, _, h5, h6⟩ := hl
    obtain ⟨t1, t2⟩ := htop f fs rfl
    have hmem : ∀ i, i ∈ f.sib.ids ∨ i ∈ ctxIds fs → i ≠ f.id := by
      intro i hi heq
      subst heq
      have hp := (ctxIds_cons_perm f fs).nodup_iff.mp hnd
      have := (List.nodup_cons.mp hp).1
      exact this (List.mem_append.mpr hi)
    refine ⟨by omega, ?_, t1, t2, ?_, ?_⟩
    · rw [(hc f.id (mem_ctxIds_cons.mpr (Or.inl rfl))).1, h2]
    · refine Linked.congr_links hs (fun j hj => ?_) h5
      obtain ⟨d1, d2⟩ := hc j (mem_ctxIds_cons.mpr (Or.inr (Or.inl hj)))
      have := d2 (by
        simp only [ctxParent, ne_eq, Option.some.injEq]
        exact hmem j (Or.inl hj))
      exact ⟨this.1, this.2, d1⟩
    · refine LinkedCtx.congr_ctx hs (fun j hj => ?_) h6
      obtain ⟨d1, d2⟩ := hc j (mem_ctxIds_cons.mpr (Or.inr (Or.inr hj)))
      have := d2 (by
        simp only [ctxParent, ne_eq, Option.some.injEq]
        exact hmem j (Or.inr hj))
      exact ⟨this.1, this.2, d1⟩

theorem LinkedCtx.ctx_lt {h : Heap} : ∀ {ctx : List Frame} {child : Ptr},
    LinkedCtx h ctx child → ∀ i ∈ ctxIds ctx, i < h.size
  | [], _, _, i, hi => by simp [ctxIds, ctxBefore, ctxAfter] at hi
  | f :: fs, _, hl, i, hi => by
    obtain ⟨h1, _, _, _, h5, h6⟩ := hl
    rcases mem_ctxIds_cons.mp hi with rfl | hi | hi
    · exact h1
    · exact Linked.ids_lt h5 i hi
    · exact LinkedCtx.ctx_lt h6 i hi

theorem nodup_plug {ctx : List Frame} {t : Shape} (hnd : (plug ctx t).ids.Nodup) :
    t.ids.Nodup ∧ (ctxIds ctx).Nodup ∧ ∀ i ∈ t.ids, i ∉ ctxIds ctx := by
  rw [ids_plug] at hnd
  have h1 := List.nodup_append.mp hnd
  have h2 := List.nodup_append.mp h1.1
  refine ⟨h2.2.1, ?_, ?_⟩
  · unfold ctxIds
    refine List.nodup_append.mpr ⟨h2.1, h1.2.1, ?_⟩
    intro a ha hb
    exact h1.2.2 (List.mem_append.mpr (Or.inl ha)) hb
  · intro i hi hm
    unfold ctxIds at hm
    rcases List.mem_append.mp hm with hm | hm
    · exact h2.2.2 hm hi
    · exact h1.2.2 (List.mem_append.mpr (Or.inr hi)) hm

end Hist

namespace Hist

/-! ## Heights and rotations, cell by cell -/

theorem CalcHeight_get (h : Heap) (t : Nat) (i : Nat) :
    (CalcHeight h t).1.get i = if i = t ∧ t < h.size then
      { h.get t with Height := hcalc (hgt h (h.get t).Left) (hgt h (h.get t).Right) }
      else h.get i := by
  unfold CalcHeight
  simp only [Heap.get_modify]
  cases hl : (h.get t).Left <;> cases hr : (h.get t).Right <;> simp [hcalc, hgt]

@[simp] theorem CalcHeight_size (h : Heap) (t : Nat) : (CalcHeight h t).1.size = h.size := by
  simp [CalcHeight]

theorem CalcHeight_snd (h : Heap) (t : Nat) :
    (CalcHeight h t).2 = (hcalc (hgt h (h.get t).Left) (hgt h (h.get t).Right),
      hgt h (h.get t).Left, hgt h (h.get t).Right) := by
  unfold CalcHeight
  cases hl : (h.get t).Left <;> cases hr : (h.get t).Right <;> simp [hcalc, hgt]

theorem hgt_modify (h : Heap) (i : Nat) (f : HistogramItem → HistogramItem) (x : Ptr)
    (hf : ∀ n, (f n).Height = n.Height) : hgt (h.modify i f) x = hgt h x := by
  cases x with
  | none => rfl
  | some j =>
    simp only [hgt, Heap.get_modify]
    split
    · rename_i hc
      rw [hf, hc.1]
    · rfl

theorem hgt_relinkParent (h : Heap) (t p : Nat) (x : Ptr) :
    hgt (relinkParent h t p) x = hgt h x := by
  unfold relinkParent
  simp only
  split
  · split
    · simp [hgt_modify]
    · split <;> simp [hgt_modify]
  · simp [hgt_modify]

theorem hgt_CalcHeight (h : Heap) (t : Nat) (x : Ptr) :
    hgt (CalcHeight h t).1 x = if x = some t ∧ t < h.size then
      hcalc (hgt h (h.get t).Left) (hgt h (h.get t).Right) else hgt h x := by
  cases x with
  | none => simp [hgt]
  | some j =>
    simp only [hgt, CalcHeight_get, Option.some.injEq]
    split <;> rfl

theorem relinkParent_get (h : Heap) (t p : Nat) (i : Nat) (hp : p < h.size)
    (hg : ∀ j, (h.get t).Parent = some j → j < h.size ∧ j ≠ p) (htp : t ≠ p) :
    (relinkParent h t p).get i =
      if i = p then { h.get p with Parent := (h.get t).Parent }
      else if (h.get t).Parent = some i then relinked t p (h.get i)
      else h.get i := by
  unfold relinkParent
  cases hpar : (h.get t).Parent with
  | none => simp [Heap.get_modify, hp, htp, hpar]
  | some g =>
    obtain ⟨hgs, hgp⟩ := hg g hpar
    by_cases hip : i = p
    · subst hip
      by_cases h1 : (h.get g).Left = some t <;> by_cases h2 : (h.get g).Right = some t <;>
        simp [Heap.get_modify, hp, htp, hpar, hgs, hgp, hgp.symm, h1, h2]
    · by_cases hig : i = g
      · subst hig
        by_cases h1 : (h.get i).Left = some t <;> by_cases h2 : (h.get i).Right = some t <;>
          simp [Heap.get_modify, hp, htp, hpar, hgs, hgp, hgp.symm, h1, h2, relinked, hip]
      · have hgi : g ≠ i := fun e => hig e.symm
        by_cases h1 : (h.get g).Left = some t <;> by_cases h2 : (h.get g).Right = some t <;>
          simp [Heap.get_modify, hp, htp, hpar, hgs, hgp, hgp.symm, h1, h2, hip, hig, hgi]

@[simp] theorem relinkParent_size (h : Heap) (t p : Nat) : (relinkParent h t p).size = h.size := by
  unfold relinkParent
  simp only
  split
  · split
    · simp
    · split <;> simp
  · simp

/-- The cells after `t.LeftRotate()` with right child `p`. -/
theorem LeftRotate_get (h : Heap) (t p : Nat) (ht : t < h.size) (hp : p < h.size)
    (htp : t ≠ p) (hr : (h.get t).Right = some p) (hpr : (h.get p).Right ≠ some t)
    (hb : ∀ j, (h.get p).Left = some j → j < h.size ∧ j ≠ t ∧ j ≠ p)
    (hg : ∀ j, (h.get t).Parent = some j →
      j < h.size ∧ j ≠ t ∧ j ≠ p ∧ (h.get p).Left ≠ some j) (i : Nat) :
    (LeftRotate h t).2.get i =
      if i = t then
        { h.get t with
          Count := (h.get t).Count - (h.get p).Count + cnt h (h.get p).Left
          Right := (h.get p).Left
          Parent := some p
          Height := hcalc (hgt h (h.get t).Left) (hgt h (h.get p).Left) }
      else if i = p then
        { h.get p with
          Count := (h.get p).Count + ((h.get t).Count - (h.get p).Count)
          Parent := (h.get t).Parent
          Left := some t
          Height := hcalc (hcalc (hgt h (h.get t).Left) (hgt h (h.get p).Left))
            (hgt h (h.get p).Right) }
      else if (h.get p).Left = some i then { h.get i with Parent := some t }
      else if (h.get t).Parent = some i then relinked t p (h.get i)
      else h.get i := by
  have hpt : p ≠ t := fun e => htp e.symm
  cases hpl : (h.get p).Left with
  | none =>
    cases hpar : (h.get t).Parent with
    | none =>
      by_cases hit : i = t
      · subst hit
        simp [LeftRotate, hr, hpr, CalcHeight_get, hgt_CalcHeight, hgt_relinkParent, hgt_modify, relinkParent,
          Heap.get_modify, ht, hp, htp, hpt, hpl, hpar, cnt]
      · by_cases hip : i = p
        · subst hip
          simp [LeftRotate, hr, hpr, CalcHeight_get, hgt_CalcHeight, hgt_relinkParent, hgt_modify, relinkParent,
          Heap.get_modify, ht, hp, htp, hpt, hpl, hpar, cnt]
        · simp [LeftRotate, hr, hpr, CalcHeight_get, hgt_CalcHeight, hgt_relinkParent, hgt_modify, relinkParent,
          Heap.get_modify, ht, hp, htp, hpt, hpl, hpar, cnt, hit, hip]
    | some g =>
      obtain ⟨hgs, hgt', hgp, -⟩ := hg g hpar
      have htg : t ≠ g := fun e => hgt' e.symm
      have hpg : p ≠ g := fun e => hgp e.symm
      by_cases hit : i = t
      · subst hit
        by_cases h1 : (h.get g).Left = some i <;> by_cases h2 : (h.get g).Right = some i <;>
        simp [LeftRotate, hr, hpr, CalcHeight_get, hgt_CalcHeight, hgt_relinkParent, hgt_modify, relinkParent,
          Heap.get_modify, ht, hp, htp, hpt, hpl, hpar, cnt, hgs, hgt', hgp, htg, hpg, h1, h2]
      · by_cases hip : i = p
        · subst hip
          by_cases h1 : (h.get g).Left = some t <;> by_cases h2 : (h.get g).Right = some t <;>
          simp [LeftRotate, hr, hpr, CalcHeight_get, hgt_CalcHeight, hgt_relinkParent, hgt_modify, relinkParent,
          Heap.get_modify, ht, hp, htp, hpt, hpl, hpar, cnt, hgs, hgt', hgp, htg, hpg, h1, h2]
        · by_cases hig : i = g
          · subst hig
            by_cases h1 : (h.get i).Left = some t <;> by_cases h2 : (h.get i).Right = some t <;>
            simp [LeftRotate, hr, hpr, CalcHeight_get, hgt_CalcHeight, hgt_relinkParent, hgt_modify, relinkParent,
          Heap.get_modify, ht, hp, htp, hpt, hpl, hpar, cnt, hgs, hgt', hgp, htg, hpg, h1, h2, relinked]
          · have hgi : g ≠ i := fun e => hig e.symm
            by_cases h1 : (h.get g).Left = some t <;> by_cases h2 : (h.get g).Right = some t <;>
            simp [LeftRotate, hr, hpr, CalcHeight_get, hgt_CalcHeight, hgt_relinkParent, hgt_modify, relinkParent,
          Heap.get_modify, ht, hp, htp, hpt, hpl, hpar, cnt, hgs, hgt', hgp, htg, hpg, h1, h2, hit, hip, hig, hgi]
  | some b =>
    obtain ⟨hbs, hbt, hbp⟩ := hb b hpl
    have htb : t ≠ b := fun e => hbt e.symm
    have hpb : p ≠ b := fun e => hbp e.symm
    cases hpar : (h.get t).Parent with
    | none =>
      by_cases hit : i = t
      · subst hit
        simp [LeftRotate, hr, hpr, CalcHeight_get, hgt_CalcHeight, hgt_relinkParent, hgt_modify, relinkParent,
          Heap.get_modify, ht, hp, htp, hpt, hpl, hpar, cnt, hbs, hbt, hbp, htb, hpb]
      · by_cases hip : i = p
        · subst hip
          simp [LeftRotate, hr, hpr, CalcHeight_get, hgt_CalcHeight, hgt_relinkParent, hgt_modify, relinkParent,
          Heap.get_modify, ht, hp, htp, hpt, hpl, hpar, cnt, hbs, hbt, hbp, htb, hpb]
        · by_cases hib : i = b
          · subst hib
            simp [LeftRotate, hr, hpr, CalcHeight_get, hgt_CalcHeight, hgt_relinkParent, hgt_modify, relinkParent,
          Heap.get_modify, ht, hp, htp, hpt, hpl, hpar, cnt, hbs, hbt, hbp, htb, hpb]
          · have hbi : b ≠ i := fun e => hib e.symm
            simp [LeftRotate, hr, hpr, CalcHeight_get, hgt_CalcHeight, hgt_relinkParent, hgt_modify, relinkParent,
          Heap.get_modify, ht, hp, htp, hpt, hpl, hpar, cnt, hbs, hbt, hbp, htb, hpb, hit, hip, hib, hbi]
    | some g =>
      obtain ⟨hgs, hgt', hgp, hgb0⟩ := hg g hpar
      have hbg : b ≠ g := fun e => hgb0 (by rw [hpl, e])
      have hgb : g ≠ b := fun e => hbg e.symm
      have htg : t ≠ g := fun e => hgt' e.symm
      have hpg : p ≠ g := fun e => hgp e.symm
      by_cases hit : i = t
      · subst hit
        by_cases h1 : (h.get g).Left = some i <;> by_cases h2 : (h.get g).Right = some i <;>
        simp [LeftRotate, hr, hpr, CalcHeight_get, hgt_CalcHeight, hgt_relinkParent, hgt_modify, relinkParent,
          Heap.get_modify, ht, hp, htp, hpt, hpl, hpar, cnt, hbs, hbt, hbp, htb, hpb, hgs, hgt', hgp, htg, hpg, hbg, hgb, h1, h2]
      · by_cases hip : i = p
        · subst hip
          by_cases h1 : (h.get g).Left = some t <;> by_cases h2 : (h.get g).Right = some t <;>
          simp [LeftRotate, hr, hpr, CalcHeight_get, hgt_CalcHeight, hgt_relinkParent, hgt_modify, relinkParent,
          Heap.get_modify, ht, hp, htp, hpt, hpl, hpar, cnt, hbs, hbt, hbp, htb, hpb, hgs, hgt', hgp, htg, hpg, hbg, hgb, h1, h2]
        · by_cases hib : i = b
          · subst hib
            by_cases h1 : (h.get g).Left = some t <;> by_cases h2 : (h.get g).Right = some t <;>
            simp [LeftRotate, hr, hpr, CalcHeight_get, hgt_CalcHeight, hgt_relinkParent, hgt_modify, relinkParent,
          Heap.get_modify, ht, hp, htp, hpt, hpl, hpar, cnt, hbs, hbt, hbp, htb, hpb, hgs, hgt', hgp, htg, hpg, hbg, hgb, h1, h2]
          · have hbi : b ≠ i := fun e => hib e.symm
            by_cases hig : i = g
            · subst hig
              by_cases h1 : (h.get i).Left = some t <;> by_cases h2 : (h.get i).Right = some t <;>
              simp [LeftRotate, hr, hpr, CalcHeight_get, hgt_CalcHeight, hgt_relinkParent, hgt_modify, relinkParent,
          Heap.get_modify, ht, hp, htp, hpt, hpl, hpar, cnt, hbs, hbt, hbp, htb, hpb, hgs, hgt', hgp, htg, hpg, hbg, hgb, h1, h2,
                hib, hbi, relinked]
            · have hgi : g ≠ i := fun e => hig e.symm
              by_cases h1 : (h.get g).Left = some t <;> by_cases h2 : (h.get g).Right = some t <;>
              simp [LeftRotate, hr, hpr, CalcHeight_get, hgt_CalcHeight, hgt_relinkParent, hgt_modify, relinkParent,
          Heap.get_modify, ht, hp, htp, hpt, hpl, hpar, cnt, hbs, hbt, hbp, htb, hpb, hgs, hgt', hgp, htg, hpg, hbg, hgb, h1, h2,
                hit, hip, hib, hbi, hig, hgi]

/-- The cells after `t.RightRotate()` with left child `p`. -/
theorem RightRotate_get (h : Heap) (t p : Nat) (ht : t < h.size) (hp : p < h.size)
    (htp : t ≠ p) (hr : (h.get t).Left = some p) (hpr : (h.get p).Left ≠ some t)
    (hb : ∀ j, (h.get p).Right = some j → j < h.size ∧ j ≠ t ∧ j ≠ p)
    (hg : ∀ j, (h.get t).Parent = some j →
      j < h.size ∧ j ≠ t ∧ j ≠ p ∧ (h.get p).Right ≠ some j) (i : Nat) :
    (RightRotate h t).2.get i =
      if i = t then
        { h.get t with
          Count := (h.get t).Count - (h.get p).Count + cnt h (h.get p).Right
          Left := (h.get p).Right
          Parent := some p
          Height := hcalc (hgt h (h.get p).Right) (hgt h (h.get t).Right) }
      else if i = p then
        { h.get p with
          Count := (h.get p).Count + ((h.get t).Count - (h.get p).Count)
          Parent := (h.get t).Parent
          Right := some t
          Height := hcalc (hgt h (h.get p).Left)
            (hcalc (hgt h (h.get p).Right) (hgt h (h.get t).Right)) }
      else if (h.get p).Right = some i then { h.get i with Parent := some t }
      else if (h.get t).Parent = some i then relinked t p (h.get i)
      else h.get i := by
  have hpt : p ≠ t := fun e => htp e.symm
  cases hpl : (h.get p).Right with
  | none =>
    cases hpar : (h.get t).Parent with
    | none =>
      by_cases hit : i = t
      · subst hit
        simp [RightRotate, hr, hpr, CalcHeight_get, hgt_CalcHeight, hgt_relinkParent, hgt_modify, relinkParent,
          Heap.get_modify, ht, hp, htp, hpt, hpl, hpar, cnt]
      · by_cases hip : i = p
        · subst hip
          simp [RightRotate, hr, hpr, CalcHeight_get, hgt_CalcHeight, hgt_relinkParent, hgt_modify, relinkParent,
          Heap.get_modify, ht, hp, htp, hpt, hpl, hpar, cnt]
        · simp [RightRotate, hr, hpr, CalcHeight_get, hgt_CalcHeight, hgt_relinkParent, hgt_modify, relinkParent,
          Heap.get_modify, ht, hp, htp, hpt, hpl, hpar, cnt, hit, hip]
    | some g =>
      obtain ⟨hgs, hgt', hgp, -⟩ := hg g hpar
      have htg : t ≠ g := fun e => hgt' e.symm
      have hpg : p ≠ g := fun e => hgp e.symm
      by_cases hit : i = t
      · subst hit
        by_cases h1 : (h.get g).Right = some i <;> by_cases h2 : (h.get g).Left = some i <;>
        simp [RightRotate, hr, hpr, CalcHeight_get, hgt_CalcHeight, hgt_relinkParent, hgt_modify, relinkParent,
          Heap.get_modify, ht, hp, htp, hpt, hpl, hpar, cnt, hgs, hgt', hgp, htg, hpg, h1, h2]
      · by_cases hip : i = p
        · subst hip
          by_cases h1 : (h.get g).Right = some t <;> by_cases h2 : (h.get g).Left = some t <;>
          simp [RightRotate, hr, hpr, CalcHeight_get, hgt_CalcHeight, hgt_relinkParent, hgt_modify, relinkParent,
          Heap.get_modify, ht, hp, htp, hpt, hpl, hpar, cnt, hgs, hgt', hgp, htg, hpg, h1, h2]
        · by_cases hig : i = g
          · subst hig
            by_cases h1 : (h.get i).Right = some t <;> by_cases h2 : (h.get i).Left = some t <;>
            simp [RightRotate, hr, hpr, CalcHeight_get, hgt_CalcHeight, hgt_relinkParent, hgt_modify, relinkParent,
          Heap.get_modify, ht, hp, htp, hpt, hpl, hpar, cnt, hgs, hgt', hgp, htg, hpg, h1, h2, relinked]
          · have hgi : g ≠ i := fun e => hig e.symm
            by_cases h1 : (h.get g).Right = some t <;> by_cases h2 : (h.get g).Left = some t <;>
            simp [RightRotate, hr, hpr, CalcHeight_get, hgt_CalcHeight, hgt_relinkParent, hgt_modify, relinkParent,
          Heap.get_modify, ht, hp, htp, hpt, hpl, hpar, cnt, hgs, hgt', hgp, htg, hpg, h1, h2, hit, hip, hig, hgi]
  | some b =>
    obtain ⟨hbs, hbt, hbp⟩ := hb b hpl
    have htb : t ≠ b := fun e => hbt e.symm
    have hpb : p ≠ b := fun e => hbp e.symm
    cases hpar : (h.get t).Parent with
    | none =>
      by_cases hit : i = t
      · subst hit
        simp [RightRotate, hr, hpr, CalcHeight_get, hgt_CalcHeight, hgt_relinkParent, hgt_modify, relinkParent,
          Heap.get_modify, ht, hp, htp, hpt, hpl, hpar, cnt, hbs, hbt, hbp, htb, hpb]
      · by_cases hip : i = p
        · subst hip
          simp [RightRotate, hr, hpr, CalcHeight_get, hgt_CalcHeight, hgt_relinkParent, hgt_modify, relinkParent,
          Heap.get_modify, ht, hp, htp, hpt, hpl, hpar, cnt, hbs, hbt, hbp, htb, hpb]
        · by_cases hib : i = b
          · subst hib
            simp [RightRotate, hr, hpr, CalcHeight_get, hgt_CalcHeight, hgt_relinkParent, hgt_modify, relinkParent,
          Heap.get_modify, ht, hp, htp, hpt, hpl, hpar, cnt, hbs, hbt, hbp, htb, hpb]
          · have hbi : b ≠ i := fun e => hib e.symm
            simp [RightRotate, hr, hpr, CalcHeight_get, hgt_CalcHeight, hgt_relinkParent, hgt_modify, relinkParent,
          Heap.get_modify, ht, hp, htp, hpt, hpl, hpar, cnt, hbs, hbt, hbp, htb, hpb, hit, hip, hib, hbi]
    | some g =>
      obtain ⟨hgs, hgt', hgp, hgb0⟩ := hg g hpar
      have hbg : b ≠ g := fun e => hgb0 (by rw [hpl, e])
      have hgb : g ≠ b := fun e => hbg e.symm
      have htg : t ≠ g := fun e => hgt' e.symm
      have hpg : p ≠ g := fun e => hgp e.symm
      by_cases hit : i = t
      · subst hit
        by_cases h1 : (h.get g).Right = some i <;> by_cases h2 : (h.get g).Left = some i <;>
        simp [RightRotate, hr, hpr, CalcHeight_get, hgt_CalcHeight, hgt_relinkParent, hgt_modify, relinkParent,
          Heap.get_modify, ht, hp, htp, hpt, hpl, hpar, cnt, hbs, hbt, hbp, htb, hpb, hgs, hgt', hgp, htg, hpg, hbg, hgb, h1, h2]
      · by_cases hip : i = p
        · subst hip
          by_cases h1 : (h.get g).Right = some t <;> by_cases h2 : (h.get g).Left = some t <;>
          simp [RightRotate, hr, hpr, CalcHeight_get, hgt_CalcHeight, hgt_relinkParent, hgt_modify, relinkParent,
          Heap.get_modify, ht, hp, htp, hpt, hpl, hpar, cnt, hbs, hbt, hbp, htb, hpb, hgs, hgt', hgp, htg, hpg, hbg, hgb, h1, h2]
        · by_cases hib : i = b
          · subst hib
            by_cases h1 : (h.get g).Right = some t <;> by_cases h2 : (h.get g).Left = some t <;>
            simp [RightRotate, hr, hpr, CalcHeight_get, hgt_CalcHeight, hgt_relinkParent, hgt_modify, relinkParent,
          Heap.get_modify, ht, hp, htp, hpt, hpl, hpar, cnt, hbs, hbt, hbp, htb, hpb, hgs, hgt', hgp, htg, hpg, hbg, hgb, h1, h2]
          · have hbi : b ≠ i := fun e => hib e.symm
            by_cases hig : i = g
            · subst hig
              by_cases h1 : (h.get i).Right = some t <;> by_cases h2 : (h.get i).Left = some t <;>
              simp [RightRotate, hr, hpr, CalcHeight_get, hgt_CalcHeight, hgt_relinkParent, hgt_modify, relinkParent,
          Heap.get_modify, ht, hp, htp, hpt, hpl, hpar, cnt, hbs, hbt, hbp, htb, hpb, hgs, hgt', hgp, htg, hpg, hbg, hgb, h1, h2,
                hib, hbi, relinked]
            · have hgi : g ≠ i := fun e => hig e.symm
              by_cases h1 : (h.get g).Right = some t <;> by_cases h2 : (h.get g).Left = some t <;>
              simp [RightRotate, hr, hpr, CalcHeight_get, hgt_CalcHeight, hgt_relinkParent, hgt_modify, relinkParent,
          Heap.get_modify, ht, hp, htp, hpt, hpl, hpar, cnt, hbs, hbt, hbp, htb, hpb, hgs, hgt', hgp, htg, hpg, hbg, hgb, h1, h2,
                hit, hip, hib, hbi, hig, hgi]

end Hist

namespace Hist

theorem ctxParent_mem {ctx : List Frame} {g : Nat} (hg : ctxParent ctx = some g) :
    g ∈ ctxIds ctx := by
  cases ctx with
  | nil => simp [ctxParent] at hg
  | cons f fs =>
    simp only [ctxParent, Option.some.injEq] at hg
    exact mem_ctxIds_cons.mpr (Or.inl hg.symm)

theorem LeftRotate_fst (h : Heap) (t p : Nat) (hr : (h.get t).Right = some p) :
    (LeftRotate h t).1 = p := by
  simp [LeftRotate, hr]

theorem RightRotate_fst (h : Heap) (t p : Nat) (hr : (h.get t).Left = some p) :
    (RightRotate h t).1 = p := by
  simp [RightRotate, hr]

@[simp] theorem LeftRotate_size (h : Heap) (t : Nat) : (LeftRotate h t).2.size = h.size := by
  unfold LeftRotate
  split
  · rfl
  · simp only [CalcHeight_size, Heap.size_modify, relinkParent_size]
    split <;> simp

@[simp] theorem RightRotate_size (h : Heap) (t : Nat) : (RightRotate h t).2.size = h.size := by
  unfold RightRotate
  split
  · rfl
  · simp only [CalcHeight_size, Heap.size_modify, relinkParent_size]
    split <;> simp

theorem relinked_fields (t p : Nat) (n : HistogramItem) :
    (relinked t p n).Value = n.Value ∧ (relinked t p n).Duplications = n.Duplications
    ∧ (relinked t p n).Smaller = n.Smaller ∧ (relinked t p n).Larger = n.Larger
    ∧ (relinked t p n).Count = n.Count ∧ (relinked t p n).Height = n.Height
    ∧ (relinked t p n).Parent = n.Parent := by
  unfold relinked
  split
  · simp
  · split <;> simp

theorem nodup_rot {A B C : List Nat} {t p : Nat} (h : (A ++ t :: (B ++ p :: C)).Nodup) :
    t ≠ p ∧ t ∉ A ∧ t ∉ B ∧ t ∉ C ∧ p ∉ A ∧ p ∉ B ∧ p ∉ C
      ∧ (∀ x ∈ A, x ∉ B ∧ x ∉ C) ∧ (∀ x ∈ B, x ∉ C)
      ∧ A.Nodup ∧ B.Nodup ∧ C.Nodup := by
  simp only [List.nodup_append, List.nodup_cons, List.mem_append, List.mem_cons, not_or,
    List.disjoint_left, List.disjoint_cons_right, List.disjoint_append_right] at h
  obtain ⟨hA, ⟨⟨h1, h2, h3⟩, hB, ⟨h4, hC⟩, h5⟩, h6⟩ := h
  refine ⟨h2, ?_, h1, h3, ?_, ?_, h4, ?_, ?_, hA, hB, hC⟩
  · intro hm; exact (h6 hm).1 rfl
  · intro hm; exact (h6 hm).2.2.1 rfl
  · intro hm; exact (h5 hm).1 rfl
  · intro x hx; exact ⟨(h6 hx).2.1, (h6 hx).2.2.2⟩
  · intro x hx; exact (h5 hx).2

theorem LeftRotate_plug (h : Heap) (ctx : List Frame) (a b c : Shape) (t p : Nat)
    (hl : Linked h none (plug ctx (.node a t (.node b p c))))
    (hnd : (plug ctx (.node a t (.node b p c))).ids.Nodup) :
    ∃ h', LeftRotate h t = (p, h')
      ∧ Linked h' none (plug ctx (.node (.node a t b) p c))
      ∧ RotFrame h h' t p
      ∧ (h'.get t).Count = (h.get t).Count - (h.get p).Count + cnt h b.root
      ∧ (h'.get p).Count = (h.get t).Count
      ∧ (h'.get t).Height = hcalc (hgt h a.root) (hgt h b.root)
      ∧ (h'.get p).Height = hcalc (hcalc (hgt h a.root) (hgt h b.root)) (hgt h c.root) := by
  obtain ⟨hsub, hctx⟩ := (linked_plug ctx _).mp hl
  obtain ⟨ht, htpar, htl, htr, hla, hlp⟩ := hsub
  obtain ⟨hp, hppar, hpl, hpr, hlb, hlc⟩ := hlp
  obtain ⟨hnd1, hnd2, hnd3⟩ := nodup_plug hnd
  simp only [Shape.ids_node, Shape.root_node] at *
  obtain ⟨htp, htA, htB, htC, hpA, hpB, hpC, hAB, hBC, hA, hB, hC⟩ := nodup_rot hnd1
  have htctx : t ∉ ctxIds ctx := hnd3 t (by simp)
  have hpctx : p ∉ ctxIds ctx := hnd3 p (by simp)
  have hbprops : ∀ j, (h.get p).Left = some j → j < h.size ∧ j ≠ t ∧ j ≠ p := by
    intro j hj
    rw [hpl] at hj
    have hm := Shape.root_mem_ids hj
    exact ⟨Linked.ids_lt hlb j hm, fun e => htB (e ▸ hm), fun e => hpB (e ▸ hm)⟩
  have hgprops : ∀ j, (h.get t).Parent = some j →
      j < h.size ∧ j ≠ t ∧ j ≠ p ∧ (h.get p).Left ≠ some j := by
    intro j hj
    rw [htpar] at hj
    have hm := ctxParent_mem hj
    refine ⟨LinkedCtx.ctx_lt hctx j hm, fun e => htctx (e ▸ hm), fun e => hpctx (e ▸ hm), ?_⟩
    rw [hpl]
    intro hb
    exact hnd3 j (by simp [Shape.root_mem_ids hb]) hm
  have hpr' : (h.get p).Right ≠ some t := by
    rw [hpr]
    intro e
    exact htC (Shape.root_mem_ids e)
  have hget := LeftRotate_get h t p ht hp htp htr hpr' hbprops hgprops
  have hpt : p ≠ t := fun e => htp e.symm
  have hother : ∀ i, i ≠ t → i ≠ p → b.root ≠ some i → ctxParent ctx ≠ some i →
      (LeftRotate h t).2.get i = h.get i := by
    intro i h1 h2 h3 h4
    rw [hget i]
    simp [h1, h2, hpl, htpar, h3, h4]
  have hsz : h.size ≤ (LeftRotate h t).2.size := by simp
  refine ⟨(LeftRotate h t).2, Prod.ext (LeftRotate_fst h t p htr) rfl, ?_, ?_, ?_, ?_, ?_, ?_⟩
  · refine (linked_plug ctx _).mpr ⟨⟨by simpa using hp, ?_, ?_, ?_, ⟨by simpa using ht, ?_, ?_, ?_, ?_, ?_⟩, ?_⟩, ?_⟩
    · rw [hget p]; simp [hpt, htpar]
    · rw [hget p]; simp [hpt]
    · rw [hget p]; simp [hpt, hpr]
    · rw [hget t]; simp
    · rw [hget t]; simp [htl]
    · rw [hget t]; simp [hpl]
    · refine Linked.congr_links hsz (fun i hi => ?_) hla
      rw [hother i (fun e => htA (e ▸ hi)) (fun e => hpA (e ▸ hi))
        (fun e => (hAB i hi).1 (Shape.root_mem_ids e))
        (fun e => hnd3 i (by simp [hi]) (ctxParent_mem e))]
      exact ⟨rfl, rfl, rfl⟩
    · refine Linked.reparent hsz hB (fun i hi => ?_) (fun j hj => ?_) hlb
      · have hit : i ≠ t := fun e => htB (e ▸ hi)
        have hip : i ≠ p := fun e => hpB (e ▸ hi)
        by_cases hir : b.root = some i
        · rw [hget i]
          simp [hit, hip, hpl, hir]
        · rw [hother i hit hip hir (fun e => hnd3 i (by simp [hi]) (ctxParent_mem e))]
          exact ⟨rfl, rfl, fun _ => rfl⟩
      · have hm := Shape.root_mem_ids hj
        have hit : j ≠ t := fun e => htB (e ▸ hm)
        have hip : j ≠ p := fun e => hpB (e ▸ hm)
        rw [hget j]
        simp [hit, hip, hpl, hj]
    · refine Linked.congr_links hsz (fun i hi => ?_) hlc
      rw [hother i (fun e => htC (e ▸ hi)) (fun e => hpC (e ▸ hi))
        (fun e => hBC i (Shape.root_mem_ids e) hi)
        (fun e => hnd3 i (by simp [hi]) (ctxParent_mem e))]
      exact ⟨rfl, rfl, rfl⟩
    · refine LinkedCtx.rechild hsz hnd2 (fun i hi => ?_) (fun f fs hf => ?_) hctx
      · have hit : i ≠ t := fun e => htctx (e ▸ hi)
        have hip : i ≠ p := fun e => hpctx (e ▸ hi)
        have hib : b.root ≠ some i := fun e => hnd3 i (by simp [Shape.root_mem_ids e]) hi
        by_cases hig : ctxParent ctx = some i
        · rw [hget i]
          simp only [hit, hip, hpl, hib, htpar, hig, ↓reduceIte]
          exact ⟨(relinked_fields t p _).2.2.2.2.2.2, fun hne => absurd rfl hne⟩
        · rw [hother i hit hip hib hig]
          exact ⟨rfl, fun _ => ⟨rfl, rfl⟩⟩
      · subst hf
        obtain ⟨_, _, hfl, hfr, _, _⟩ := hctx
        have hm : f.id ∈ ctxIds (f :: fs) := mem_ctxIds_cons.mpr (Or.inl rfl)
        have hit : f.id ≠ t := fun e => htctx (e ▸ hm)
        have hip : f.id ≠ p := fun e => hpctx (e ▸ hm)
        have hib : b.root ≠ some f.id := fun e => hnd3 f.id (by simp [Shape.root_mem_ids e]) hm
        have hsibt : f.sib.root ≠ some t := fun e =>
          htctx (mem_ctxIds_cons.mpr (Or.inr (Or.inl (Shape.root_mem_ids e))))
        rw [hget f.id]
        simp only [hit, hip, hpl, hib, htpar, ctxParent, ↓reduceIte]
        unfold relinked
        cases hfi : f.isLeft
        · simp only [hfi, Bool.false_eq_true, ↓reduceIte] at hfl hfr
          simp [hfl, hfr, hsibt]
        · simp only [hfi, ↓reduceIte] at hfl hfr
          simp [hfl, hfr, hsibt]
  · refine ⟨⟨by simp, fun i => ?_⟩, fun i h1 h2 => ?_, fun i h1 h2 => ?_⟩
    · rw [hget i]
      split_ifs <;> simp_all [relinked_fields]
    · rw [hget i]
      split_ifs <;> simp_all [relinked_fields]
    · rw [hget i]
      split_ifs <;> simp_all [relinked_fields]
  · rw [hget t]; simp [hpl]
  · rw [hget p]; simp [hpt]
  · rw [hget t]; simp [htl, hpl]
  · rw [hget p]; simp [hpt, htl, hpl, hpr]

theorem RightRotate_plug (h : Heap) (ctx : List Frame) (a b c : Shape) (t p : Nat)
    (hl : Linked h none (plug ctx (.node (.node a p b) t c)))
    (hnd : (plug ctx (.node (.node a p b) t c)).ids.Nodup) :
    ∃ h', RightRotate h t = (p, h')
      ∧ Linked h' none (plug ctx (.node a p (.node b t c)))
      ∧ RotFrame h h' t p
      ∧ (h'.get t).Count = (h.get t).Count - (h.get p).Count + cnt h b.root
      ∧ (h'.get p).Count = (h.get t).Count
      ∧ (h'.get t).Height = hcalc (hgt h b.root) (hgt h c.root)
      ∧ (h'.get p).Height = hcalc (hgt h a.root) (hcalc (hgt h b.root) (hgt h c.root)) := by
  obtain ⟨hsub, hctx⟩ := (linked_plug ctx _).mp hl
  obtain ⟨ht, htpar, htl, htr, hlp, hlc⟩ := hsub
  obtain ⟨hp, hppar, hpl, hpr, hla, hlb⟩ := hlp
  obtain ⟨hnd1, hnd2, hnd3⟩ := nodup_plug hnd
  simp only [Shape.ids_node, Shape.root_node] at *
  rw [List.append_assoc, List.cons_append] at hnd1 hnd3
  obtain ⟨hpt0, hpA, hpB, hpC, htA, htB, htC, hAB, hBC, hA, hB, hC⟩ := nodup_rot hnd1
  have htp : t ≠ p := fun e => hpt0 e.symm
  have htctx : t ∉ ctxIds ctx := hnd3 t (by simp)
  have hpctx : p ∉ ctxIds ctx := hnd3 p (by simp)
  have hbprops : ∀ j, (h.get p).Right = some j → j < h.size ∧ j ≠ t ∧ j ≠ p := by
    intro j hj
    rw [hpr] at hj
    have hm := Shape.root_mem_ids hj
    exact ⟨Linked.ids_lt hlb j hm, fun e => htB (e ▸ hm), fun e => hpB (e ▸ hm)⟩
  have hgprops : ∀ j, (h.get t).Parent = some j →
      j < h.size ∧ j ≠ t ∧ j ≠ p ∧ (h.get p).Right ≠ some j := by
    intro j hj
    rw [htpar] at hj
    have hm := ctxParent_mem hj
    refine ⟨LinkedCtx.ctx_lt hctx j hm, fun e => htctx (e ▸ hm), fun e => hpctx (e ▸ hm), ?_⟩
    rw [hpr]
    intro hb
    exact hnd3 j (by simp [Shape.root_mem_ids hb]) hm
  have hpr' : (h.get p).Left ≠ some t := by
    rw [hpl]
    intro e
    exact htA (Shape.root_mem_ids e)
  have hget := RightRotate_get h t p ht hp htp htl hpr' hbprops hgprops
  have hpt : p ≠ t := fun e => htp e.symm
  have hother : ∀ i, i ≠ t → i ≠ p → b.root ≠ some i → ctxParent ctx ≠ some i →
      (RightRotate h t).2.get i = h.get i := by
    intro i h1 h2 h3 h4
    rw [hget i]
    simp [h1, h2, hpr, htpar, h3, h4]
  have hsz : h.size ≤ (RightRotate h t).2.size := by simp
  refine ⟨(RightRotate h t).2, Prod.ext (RightRotate_fst h t p htl) rfl, ?_, ?_, ?_, ?_, ?_, ?_⟩
  · refine (linked_plug ctx _).mpr ⟨⟨by simpa using hp, ?_, ?_, ?_, ?_, ⟨by simpa using ht, ?_, ?_, ?_, ?_, ?_⟩⟩, ?_⟩
    · rw [hget p]; simp [hpt, htpar]
    · rw [hget p]; simp [hpt, hpl]
    · rw [hget p]; simp [hpt]
    · refine Linked.congr_links hsz (fun i hi => ?_) hla
      rw [hother i (fun e => htA (e ▸ hi)) (fun e => hpA (e ▸ hi))
        (fun e => (hAB i hi).1 (Shape.root_mem_ids e))
        (fun e => hnd3 i (by simp [hi]) (ctxParent_mem e))]
      exact ⟨rfl, rfl, rfl⟩
    · rw [hget t]; simp
    · rw [hget t]; simp [hpr]
    · rw [hget t]; simp [htr]
    · refine Linked.reparent hsz hB (fun i hi => ?_) (fun j hj => ?_) hlb
      · have hit : i ≠ t := fun e => htB (e ▸ hi)
        have hip : i ≠ p := fun e => hpB (e ▸ hi)
        by_cases hir : b.root = some i
        · rw [hget i]
          simp [hit, hip, hpr, hir]
        · rw [hother i hit hip hir (fun e => hnd3 i (by simp [hi]) (ctxParent_mem e))]
          exact ⟨rfl, rfl, fun _ => rfl⟩
      · have hm := Shape.root_mem_ids hj
        have hit : j ≠ t := fun e => htB (e ▸ hm)
        have hip : j ≠ p := fun e => hpB (e ▸ hm)
        rw [hget j]
        simp [hit, hip, hpr, hj]
    · refine Linked.congr_links hsz (fun i hi => ?_) hlc
      rw [hother i (fun e => htC (e ▸ hi)) (fun e => hpC (e ▸ hi))
        (fun e => hBC i (Shape.root_mem_ids e) hi)
        (fun e => hnd3 i (by simp [hi]) (ctxParent_mem e))]
      exact ⟨rfl, rfl, rfl⟩
    · refine LinkedCtx.rechild hsz hnd2 (fun i hi => ?_) (fun f fs hf => ?_) hctx
      · have hit : i ≠ t := fun e => htctx (e ▸ hi)
        have hip : i ≠ p := fun e => hpctx (e ▸ hi)
        have hib : b.root ≠ some i := fun e => hnd3 i (by simp [Shape.root_mem_ids e]) hi
        by_cases hig : ctxParent ctx = some i
        · rw [hget i]
          simp only [hit, hip, hpr, hib, htpar, hig, ↓reduceIte]
          exact ⟨(relinked_fields t p _).2.2.2.2.2.2, fun hne => absurd rfl hne⟩
        · rw [hother i hit hip hib hig]
          exact ⟨rfl, fun _ => ⟨rfl, rfl⟩⟩
      · subst hf
        obtain ⟨_, _, hfl, hfr, _, _⟩ := hctx
        have hm : f.id ∈ ctxIds (f :: fs) := mem_ctxIds_cons.mpr (Or.inl rfl)
        have hit : f.id ≠ t := fun e => htctx (e ▸ hm)
        have hip : f.id ≠ p := fun e => hpctx (e ▸ hm)
        have hib : b.root ≠ some f.id := fun e => hnd3 f.id (by simp [Shape.root_mem_ids e]) hm
        have hsibt : f.sib.root ≠ some t := fun e =>
          htctx (mem_ctxIds_cons.mpr (Or.inr (Or.inl (Shape.root_mem_ids e))))
        rw [hget f.id]
        simp only [hit, hip, hpr, hib, htpar, ctxParent, ↓reduceIte]
        unfold relinked
        cases hfi : f.isLeft
        · simp only [hfi, Bool.false_eq_true, ↓reduceIte] at hfl hfr
          simp [hfl, hfr, hsibt]
        · simp only [hfi, ↓reduceIte] at hfl hfr
          simp [hfl, hfr, hsibt]
  · refine ⟨⟨by simp, fun i => ?_⟩, fun i h1 h2 => ?_, fun i h1 h2 => ?_⟩
    · rw [hget i]
      split_ifs <;> simp_all [relinked_fields]
    · rw [hget i]
      split_ifs <;> simp_all [relinked_fields]
    · rw [hget i]
      split_ifs <;> simp_all [relinked_fields]
  · rw [hget t]; simp [hpr]
  · rw [hget p]; simp [hpt]
  · rw [hget t]; simp [htr, hpr]
  · rw [hget p]; simp [hpt, htr, hpl, hpr]

end Hist

namespace Hist

/-! ## Counts and steps -/

theorem SameData.refl (h : Heap) : SameData h h := ⟨rfl, fun _ => ⟨rfl, rfl, rfl, rfl⟩⟩

theorem SameData.trans_same {h1 h2 h3 : Heap} (a : SameData h1 h2) (b : SameData h2 h3) :
    SameData h1 h3 :=
  ⟨b.1.trans a.1, fun i =>
    ⟨((b.2 i).1).trans (a.2 i).1, ((b.2 i).2.1).trans (a.2 i).2.1,
      ((b.2 i).2.2.1).trans (a.2 i).2.2.1, ((b.2 i).2.2.2).trans (a.2 i).2.2.2⟩⟩

theorem dupSum_congr {h h' : Heap} {ids : List Nat}
    (hc : ∀ i ∈ ids, (h'.get i).Duplications = (h.get i).Duplications) :
    dupSum h' ids = dupSum h ids := by
  unfold dupSum
  congr 1
  exact List.map_congr_left hc

theorem dupSum_same {h h' : Heap} (hs : SameData h h') (ids : List Nat) :
    dupSum h' ids = dupSum h ids :=
  dupSum_congr fun i _ => (hs.2 i).2.1

@[simp] theorem dupSum_nil (h : Heap) : dupSum h [] = 0 := rfl

@[simp] theorem dupSum_cons (h : Heap) (i : Nat) (l : List Nat) :
    dupSum h (i :: l) = (h.get i).Duplications + dupSum h l := by
  simp [dupSum]

@[simp] theorem dupSum_append (h : Heap) (l1 l2 : List Nat) :
    dupSum h (l1 ++ l2) = dupSum h l1 + dupSum h l2 := by
  simp [dupSum]

theorem Counted.congr_counts {h h' : Heap} : ∀ {S : Shape},
    (∀ i ∈ S.ids, (h'.get i).Count = (h.get i).Count
      ∧ (h'.get i).Duplications = (h.get i).Duplications) →
    Counted h S → Counted h' S
  | .nil, _, _ => trivial
  | .node l i r, hc, hS => by
    obtain ⟨h1, h2, h3⟩ := hS
    refine ⟨?_, Counted.congr_counts (fun j hj => hc j (by simp [hj])) h2,
      Counted.congr_counts (fun j hj => hc j (by simp [hj])) h3⟩
    rw [(hc i (by simp)).1, h1]
    exact (dupSum_congr fun j hj => (hc j hj).2).symm

theorem Counted.cnt_root {h : Heap} {S : Shape} (hS : Counted h S) :
    cnt h S.root = dupSum h S.ids := by
  cases S with
  | nil => rfl
  | node l i r => exact hS.1

theorem hcalc_pos {l r : Int} (hl : 0 ≤ l) (hr : 0 ≤ r) : 1 ≤ hcalc l r := by
  unfold hcalc
  split <;> omega

theorem hgt_nonneg {h : Heap} {S : Shape} (hp : HPos h S.ids) : 0 ≤ hgt h S.root := by
  cases S with
  | nil => simp [hgt]
  | node l i r =>
    have := hp i (by simp)
    simp only [Shape.root_node, hgt]
    omega

theorem StepOK.trans_step {h1 h2 h3 : Heap} {ctx : List Frame} {S1 S2 S3 : Shape}
    (a : StepOK h1 h2 ctx S1 S2) (b : StepOK h2 h3 ctx S2 S3) : StepOK h1 h3 ctx S1 S3 where
  linked := b.linked
  ids := b.ids.trans a.ids
  same := a.same.trans_same b.same
  outside := fun i hi => by
    have h1 := a.outside i hi
    have h2 := b.outside i (by rw [a.ids]; exact hi)
    exact ⟨h2.1.trans h1.1, h2.2.trans h1.2⟩
  hpos := fun hp => b.hpos (a.hpos hp)
  counted := fun hc => by
    have h1 := a.counted hc
    have h2 := b.counted h1.1
    exact ⟨h2.1, h2.2.trans h1.2⟩

/-- A step inside a subtree is a step of the tree one level up. -/
theorem StepOK.lift {h h' : Heap} {f : Frame} {ctx : List Frame} {S S' : Shape}
    (a : StepOK h h' (f :: ctx) S S') (hnd : (f.wrap S).ids.Nodup) :
    StepOK h h' ctx (f.wrap S) (f.wrap S') := by
  have hids : (f.wrap S').ids = (f.wrap S).ids := by
    rw [ids_wrap, ids_wrap, a.ids]
  have hfid : f.id ∉ S.ids ∧ ∀ i ∈ f.sib.ids, i ∉ S.ids := by
    rw [ids_wrap] at hnd
    cases hf : f.isLeft
    · simp only [hf, Bool.false_eq_true, ↓reduceIte, List.append_nil, List.append_assoc,
        List.singleton_append] at hnd
      have h1 := List.nodup_append.mp hnd
      have h2 := List.nodup_cons.mp h1.2.1
      exact ⟨h2.1, fun i hi hm => h1.2.2 hi (List.mem_cons_of_mem _ hm)⟩
    · simp only [hf, ↓reduceIte, List.nil_append] at hnd
      have h1 := List.nodup_append.mp hnd
      exact ⟨fun hm => h1.2.2 hm (List.mem_cons_self _ _),
        fun i hi hm => h1.2.2 hm (List.mem_cons_of_mem _ hi)⟩
  have hmem : ∀ i, i ∈ (f.wrap S).ids ↔ i = f.id ∨ i ∈ f.sib.ids ∨ i ∈ S.ids := by
    intro i
    rw [ids_wrap]
    cases f.isLeft <;> simp <;> tauto
  refine ⟨a.linked, hids, a.same, fun i hi => a.outside i fun hm => hi ((hmem i).mpr (Or.inr (Or.inr hm))), ?_, ?_⟩
  · intro hp i hi
    rw [hids] at hi
    rcases (hmem i).mp hi with rfl | hi' | hi'
    · rw [(a.outside _ hfid.1).2]
      exact hp _ hi
    · rw [(a.outside _ (hfid.2 i hi')).2]
      exact hp _ hi
    · exact a.hpos (fun j hj => hp j ((hmem j).mpr (Or.inr (Or.inr hj)))) i (by rw [a.ids]; exact hi')
  · intro hc
    have hsum : dupSum h' (f.wrap S').ids = dupSum h (f.wrap S).ids := by
      rw [hids]
      exact dupSum_same a.same _
    have hsib : Counted h f.sib → Counted h' f.sib := Counted.congr_counts fun i hi =>
      ⟨(a.outside i (hfid.2 i hi)).1, (a.same.2 i).2.1⟩
    unfold Frame.wrap at hc hsum ⊢
    cases hf : f.isLeft
    · simp only [hf, Bool.false_eq_true, ↓reduceIte, Counted, Shape.root_node, cnt,
        Shape.ids_node] at hc hsum ⊢
      refine ⟨⟨?_, hsib hc.2.1, (a.counted hc.2.2).1⟩, (a.outside _ hfid.1).1⟩
      rw [(a.outside _ hfid.1).1, hc.1, hsum]
    · simp only [hf, ↓reduceIte, Counted, Shape.root_node, cnt, Shape.ids_node] at hc hsum ⊢
      refine ⟨⟨?_, (a.counted hc.2.1).1, hsib hc.2.2⟩, (a.outside _ hfid.1).1⟩
      rw [(a.outside _ hfid.1).1, hc.1, hsum]

theorem nodup_wrap_of_plug {f : Frame} {ctx : List Frame} {S : Shape}
    (hnd : (plug (f :: ctx) S).ids.Nodup) : (f.wrap S).ids.Nodup :=
  (@nodup_plug ctx (f.wrap S) hnd).1

/-- A step inside a subtree is a step of the whole tree. -/
theorem StepOK.lift_plug {h h' : Heap} : ∀ {ctx : List Frame} {S S' : Shape},
    StepOK h h' ctx S S' → (plug ctx S).ids.Nodup → StepOK h h' [] (plug ctx S) (plug ctx S')
  | [], _, _, a, _ => a
  | f :: fs, S, S', a, hnd => by
    have := StepOK.lift a (nodup_wrap_of_plug hnd)
    exact @StepOK.lift_plug _ _ fs _ _ this hnd

/-! ## True heights -/

theorem hcalc_height (a b : Shape) (i : Nat) :
    hcalc (a.height : Int) (b.height : Int) = ((Shape.node a i b).height : Int) := by
  show hcalc (a.height : Int) (b.height : Int) = ((max a.height b.height + 1 : Nat) : Int)
  unfold hcalc
  split <;> omega

theorem Tall.hgt_eq {h : Heap} {S : Shape} (hS : Tall h S) : hgt h S.root = (S.height : Int) := by
  cases S with
  | nil => rfl
  | node l i r => exact hS.1

theorem Tall.congr_heights {h h' : Heap} : ∀ {S : Shape},
    (∀ i ∈ S.ids, (h'.get i).Height = (h.get i).Height) → Tall h S → Tall h' S
  | .nil, _, _ => trivial
  | .node l i r, hc, hS =>
    ⟨by rw [hc i (by simp)]; exact hS.1,
      Tall.congr_heights (fun j hj => hc j (by simp [hj])) hS.2.1,
      Tall.congr_heights (fun j hj => hc j (by simp [hj])) hS.2.2⟩

theorem Tall.node_of {h : Heap} {l r : Shape} {i : Nat} (hl : Tall h l) (hr : Tall h r)
    (hi : (h.get i).Height = hcalc (hgt h l.root) (hgt h r.root)) : Tall h (.node l i r) := by
  refine ⟨?_, hl, hr⟩
  rw [hi, hl.hgt_eq, hr.hgt_eq]
  exact hcalc_height l r i

theorem Tall.below {h : Heap} {S : Shape} (hS : Tall h S) : TallBelow h S := by
  cases S with
  | nil => trivial
  | node l i r => exact ⟨hS.2.1, hS.2.2⟩

theorem tallBelow_wrap {h : Heap} {f : Frame} {S : Shape} :
    TallBelow h (f.wrap S) ↔ Tall h S ∧ Tall h f.sib := by
  unfold Frame.wrap
  split
  · exact Iff.rfl
  · exact ⟨fun hh => ⟨hh.2, hh.1⟩, fun hh => ⟨hh.2, hh.1⟩⟩

theorem tall_plug {h : Heap} : ∀ {ctx : List Frame} {S : Shape}, Tall h (plug ctx S) →
    Tall h S ∧ ∀ f ∈ ctx, Tall h f.sib
  | [], _, hT => ⟨hT, fun f hf => by simp at hf⟩
  | f :: fs, S, hT => by
    obtain ⟨h1, h2⟩ := @tall_plug h fs (f.wrap S) hT
    obtain ⟨h3, h4⟩ := tallBelow_wrap.mp h1.below
    refine ⟨h3, fun g hg => ?_⟩
    rcases List.mem_cons.mp hg with e | e
    · rw [e]
      exact h4
    · exact h2 g e

theorem linked_unique {h : Heap} : ∀ {S S' : Shape} {par par' : Ptr}, Linked h par S →
    Linked h par' S' → S.root = S'.root → S = S'
  | .nil, .nil, _, _, _, _, _ => rfl
  | .nil, .node _ _ _, _, _, _, _, e => by simp at e
  | .node _ _ _, .nil, _, _, _, _, e => by simp at e
  | .node l i r, .node l' i' r', _, _, h1, h2, e => by
    simp only [Shape.root_node, Option.some.injEq] at e
    subst e
    obtain ⟨-, -, a3, a4, a5, a6⟩ := h1
    obtain ⟨-, -, b3, b4, b5, b6⟩ := h2
    rw [linked_unique a5 b5 (a3.symm.trans b3), linked_unique a6 b6 (a4.symm.trans b4)]

theorem height_wrap (f : Frame) (S : Shape) :
    (f.wrap S).height = max S.height f.sib.height + 1 := by
  unfold Frame.wrap
  split
  · rfl
  · show max f.sib.height S.height + 1 = _
    rw [max_comm]

theorem tall_wrap {h : Heap} {f : Frame} {S : Shape} :
    Tall h (f.wrap S) ↔ (h.get f.id).Height = ((max S.height f.sib.height + 1 : Nat) : Int)
      ∧ Tall h S ∧ Tall h f.sib := by
  have hh := height_wrap f S
  unfold Frame.wrap at hh ⊢
  split
  · rename_i e
    rw [if_pos e] at hh
    show ((h.get f.id).Height = _ ∧ _ ∧ _) ↔ _
    rw [hh]
  · rename_i e
    rw [if_neg e] at hh
    show ((h.get f.id).Height = _ ∧ _ ∧ _) ↔ _
    rw [hh]
    tauto

/-- True heights in a tree: in the subtree and along the path above it. -/
theorem tall_plug_iff {h : Heap} : ∀ {ctx : List Frame} {S : Shape},
    Tall h (plug ctx S) ↔ Tall h S ∧ TallCtx h ctx S.height
  | [], S => by simp [plug, TallCtx]
  | f :: fs, S => by
    show Tall h (plug fs (f.wrap S)) ↔ _
    rw [tall_plug_iff, tall_wrap, height_wrap]
    simp only [TallCtx]
    tauto

theorem TallCtx.same_heights {h h' : Heap} : ∀ {ctx : List Frame} {n : Nat},
    (∀ i ∈ ctxIds ctx, (h'.get i).Height = (h.get i).Height) → TallCtx h ctx n → TallCtx h' ctx n
  | [], _, _, _ => trivial
  | f :: fs, n, hc, ht => by
    obtain ⟨h1, h2, h3⟩ := ht
    refine ⟨?_, Tall.congr_heights (fun i hi => hc i (mem_ctxIds_cons.mpr (Or.inr (Or.inl hi)))) h2,
      TallCtx.same_heights (fun i hi => hc i (mem_ctxIds_cons.mpr (Or.inr (Or.inr hi)))) h3⟩
    rw [hc f.id (mem_ctxIds_cons.mpr (Or.inl rfl))]
    exact h1

theorem TallCtx.siblings {h : Heap} : ∀ {ctx : List Frame} {n : Nat}, TallCtx h ctx n →
    ∀ f ∈ ctx, Tall h f.sib
  | [], _, _ => fun f hf => by simp at hf
  | g :: gs, n, ht => fun f hf => by
    rcases List.mem_cons.mp hf with e | e
    · rw [e]
      exact ht.2.1
    · exact TallCtx.siblings ht.2.2 f e

theorem height_pos_of_ne_nil {S : Shape} (hS : S ≠ .nil) : 1 ≤ S.height := by
  cases S with
  | nil => exact absurd rfl hS
  | node l i r =>
    show 1 ≤ max l.height r.height + 1
    omega

theorem addCountUp_Height (d : Int) : ∀ (fuel : Nat) (h : Heap) (p : Ptr) (h' : Heap),
    addCountUp d fuel h p = .ok h' → ∀ i, (h'.get i).Height = (h.get i).Height
  | 0, h, none, h', he => by
    simp only [addCountUp] at he
    injection he with he
    subst he
    exact fun _ => rfl
  | _ + 1, h, none, h', he => by
    simp only [addCountUp] at he
    injection he with he
    subst he
    exact fun _ => rfl
  | 0, h, some c, h', he => by
    unfold addCountUp at he
    cases he
  | k + 1, h, some c, h', he => by
    unfold addCountUp at he
    intro i
    rw [addCountUp_Height d k _ _ h' he i, Heap.get_modify]
    split
    · rename_i hc
      rw [hc.1]
    · rfl

theorem Heap.height_modify (h : Heap) (j i : Nat) (f : HistogramItem → HistogramItem)
    (hf : ∀ n, (f n).Height = n.Height) : ((h.modify j f).get i).Height = (h.get i).Height := by
  rw [Heap.get_modify]
  split
  · rename_i hc
    rw [hf, hc.1]
  · rfl

theorem attachRight_Height (h : Heap) (t n i : Nat) :
    ((attachRight h t n).get i).Height = (h.get i).Height := by
  unfold attachRight
  simp only
  split
  · refine (Heap.height_modify _ _ _ _ ?_).trans ((Heap.height_modify _ _ _ _ ?_).trans
      ((Heap.height_modify _ _ _ _ ?_).trans (Heap.height_modify _ _ _ _ ?_))) <;>
      exact fun _ => rfl
  · refine (Heap.height_modify _ _ _ _ ?_).trans ((Heap.height_modify _ _ _ _ ?_).trans
      (Heap.height_modify _ _ _ _ ?_)) <;> exact fun _ => rfl

theorem attachLeft_Height (h : Heap) (t n i : Nat) :
    ((attachLeft h t n).get i).Height = (h.get i).Height := by
  unfold attachLeft
  simp only
  split
  · refine (Heap.height_modify _ _ _ _ ?_).trans ((Heap.height_modify _ _ _ _ ?_).trans
      ((Heap.height_modify _ _ _ _ ?_).trans (Heap.height_modify _ _ _ _ ?_))) <;>
      exact fun _ => rfl
  · refine (Heap.height_modify _ _ _ _ ?_).trans ((Heap.height_modify _ _ _ _ ?_).trans
      (Heap.height_modify _ _ _ _ ?_)) <;> exact fun _ => rfl

end Hist

namespace Hist

/-! ## Rotations and the height walk as steps -/

theorem HPos.mono {h : Heap} {l1 l2 : List Nat} (hp : HPos h l2) (hs : ∀ i ∈ l1, i ∈ l2) :
    HPos h l1 := fun i hi => hp i (hs i hi)

theorem LeftRotate_step (h : Heap) (ctx : List Frame) (a b c : Shape) (t p : Nat)
    (hl : Linked h none (plug ctx (.node a t (.node b p c))))
    (hnd : (plug ctx (.node a t (.node b p c))).ids.Nodup) :
    ∃ h', LeftRotate h t = (p, h')
      ∧ StepOK h h' ctx (.node a t (.node b p c)) (.node (.node a t b) p c) := by
  obtain ⟨h', he, hlk, hrf, hct, hcp, hht, hhp⟩ := LeftRotate_plug h ctx a b c t p hl hnd
  obtain ⟨hnd1, -, -⟩ := nodup_plug hnd
  simp only [Shape.ids_node] at hnd1
  obtain ⟨htp, htA, htB, htC, hpA, hpB, hpC, hAB, hBC, hA, hB, hC⟩ := nodup_rot hnd1
  refine ⟨h', he, hlk, by simp, hrf.same, fun i hi => ?_, fun hp i hi => ?_, fun hc => ?_⟩
  · simp only [Shape.ids_node, List.mem_append, List.mem_cons, not_or] at hi
    exact ⟨hrf.count i hi.2.1 hi.2.2.2.1, hrf.height i hi.2.1 hi.2.2.2.1⟩
  · have ha : 0 ≤ hgt h a.root := hgt_nonneg (hp.mono (by simp; tauto))
    have hb : 0 ≤ hgt h b.root := hgt_nonneg (hp.mono (by simp; tauto))
    have hc : 0 ≤ hgt h c.root := hgt_nonneg (hp.mono (by simp; tauto))
    by_cases hit : i = t
    · subst hit
      rw [hht]
      exact hcalc_pos ha hb
    · by_cases hip : i = p
      · subst hip
        rw [hhp]
        exact hcalc_pos (by have := hcalc_pos ha hb; omega) hc
      · rw [hrf.height i hit hip]
        exact hp i (by simp at hi ⊢; tauto)
  · obtain ⟨hct0, hca, hcp0, hcb, hcc⟩ := hc
    have hcong : ∀ S : Shape, t ∉ S.ids → p ∉ S.ids → Counted h S → Counted h' S :=
      fun S h1 h2 => Counted.congr_counts fun i hi =>
        ⟨hrf.count i (fun e => h1 (e ▸ hi)) (fun e => h2 (e ▸ hi)), (hrf.same.2 i).2.1⟩
    refine ⟨⟨?_, ⟨?_, hcong a htA hpA hca, hcong b htB hpB hcb⟩, hcong c htC hpC hcc⟩, ?_⟩
    · rw [hcp, hct0, dupSum_same hrf.same]
      simp [add_assoc]
    · rw [hct, hct0, hcp0, Counted.cnt_root hcb, dupSum_same hrf.same]
      simp only [dupSum_append, dupSum_cons, Shape.ids_node]
      ring
    · simp only [Shape.root_node, cnt]
      exact hcp

theorem RightRotate_step (h : Heap) (ctx : List Frame) (a b c : Shape) (t p : Nat)
    (hl : Linked h none (plug ctx (.node (.node a p b) t c)))
    (hnd : (plug ctx (.node (.node a p b) t c)).ids.Nodup) :
    ∃ h', RightRotate h t = (p, h')
      ∧ StepOK h h' ctx (.node (.node a p b) t c) (.node a p (.node b t c)) := by
  obtain ⟨h', he, hlk, hrf, hct, hcp, hht, hhp⟩ := RightRotate_plug h ctx a b c t p hl hnd
  obtain ⟨hnd1, -, -⟩ := nodup_plug hnd
  simp only [Shape.ids_node] at hnd1
  rw [List.append_assoc, List.cons_append] at hnd1
  obtain ⟨hpt0, hpA, hpB, hpC, htA, htB, htC, hAB, hBC, hA, hB, hC⟩ := nodup_rot hnd1
  refine ⟨h', he, hlk, by simp, hrf.same, fun i hi => ?_, fun hp i hi => ?_, fun hc => ?_⟩
  · simp only [Shape.ids_node, List.mem_append, List.mem_cons, not_or] at hi
    exact ⟨hrf.count i hi.2.1 hi.1.2.1, hrf.height i hi.2.1 hi.1.2.1⟩
  · have ha : 0 ≤ hgt h a.root := hgt_nonneg (hp.mono (by simp; tauto))
    have hb : 0 ≤ hgt h b.root := hgt_nonneg (hp.mono (by simp; tauto))
    have hc : 0 ≤ hgt h c.root := hgt_nonneg (hp.mono (by simp; tauto))
    by_cases hit : i = t
    · subst hit
      rw [hht]
      exact hcalc_pos hb hc
    · by_cases hip : i = p
      · subst hip
        rw [hhp]
        exact hcalc_pos ha (by have := hcalc_pos hb hc; omega)
      · rw [hrf.height i hit hip]
        exact hp i (by simp at hi ⊢; tauto)
  · obtain ⟨hct0, ⟨hcp0, hca, hcb⟩, hcc⟩ := hc
    have hcong : ∀ S : Shape, t ∉ S.ids → p ∉ S.ids → Counted h S → Counted h' S :=
      fun S h1 h2 => Counted.congr_counts fun i hi =>
        ⟨hrf.count i (fun e => h1 (e ▸ hi)) (fun e => h2 (e ▸ hi)), (hrf.same.2 i).2.1⟩
    refine ⟨⟨?_, hcong a htA hpA hca, ⟨?_, hcong b htB hpB hcb, hcong c htC hpC hcc⟩⟩, ?_⟩
    · rw [hcp, hct0, dupSum_same hrf.same]
      simp [add_assoc]
    · rw [hct, hct0, hcp0, Counted.cnt_root hcb, dupSum_same hrf.same]
      simp only [dupSum_append, dupSum_cons, Shape.ids_node]
      ring
    · simp only [Shape.root_node, cnt]
      exact hcp

/-- A left rotation leaves true heights when the three subtrees hold true heights. -/
theorem LeftRotate_tall (h : Heap) (ctx : List Frame) (a b c : Shape) (t p : Nat)
    (hl : Linked h none (plug ctx (.node a t (.node b p c))))
    (hnd : (plug ctx (.node a t (.node b p c))).ids.Nodup) {h' : Heap}
    (he : LeftRotate h t = (p, h')) (ta : Tall h a) (tb : Tall h b) (tc : Tall h c) :
    Tall h' (.node (.node a t b) p c) := by
  obtain ⟨h'', he', -, hrf, -, -, hht, hhp⟩ := LeftRotate_plug h ctx a b c t p hl hnd
  rw [he'] at he
  injection he with _ e
  subst e
  obtain ⟨hnd1, -, -⟩ := nodup_plug hnd
  simp only [Shape.ids_node] at hnd1
  obtain ⟨htp, htA, htB, htC, hpA, hpB, hpC, -, -, -, -, -⟩ := nodup_rot hnd1
  have hcong : ∀ S : Shape, t ∉ S.ids → p ∉ S.ids → Tall h S → Tall h'' S :=
    fun S h1 h2 => Tall.congr_heights fun i hi =>
      hrf.height i (fun e => h1 (e ▸ hi)) (fun e => h2 (e ▸ hi))
  have hin : Tall h'' (.node a t b) :=
    ⟨by rw [hht, ta.hgt_eq, tb.hgt_eq]; exact hcalc_height a b t, hcong a htA hpA ta,
      hcong b htB hpB tb⟩
  refine ⟨?_, hin, hcong c htC hpC tc⟩
  rw [hhp, ta.hgt_eq, tb.hgt_eq, tc.hgt_eq, hcalc_height a b t]
  exact hcalc_height (.node a t b) c p

/-- A right rotation leaves true heights when the three subtrees hold true heights. -/
theorem RightRotate_tall (h : Heap) (ctx : List Frame) (a b c : Shape) (t p : Nat)
    (hl : Linked h none (plug ctx (.node (.node a p b) t c)))
    (hnd : (plug ctx (.node (.node a p b) t c)).ids.Nodup) {h' : Heap}
    (he : RightRotate h t = (p, h')) (ta : Tall h a) (tb : Tall h b) (tc : Tall h c) :
    Tall h' (.node a p (.node b t c)) := by
  obtain ⟨h'', he', -, hrf, -, -, hht, hhp⟩ := RightRotate_plug h ctx a b c t p hl hnd
  rw [he'] at he
  injection he with _ e
  subst e
  obtain ⟨hnd1, -, -⟩ := nodup_plug hnd
  simp only [Shape.ids_node] at hnd1
  rw [List.append_assoc, List.cons_append] at hnd1
  obtain ⟨hpt0, hpA, hpB, hpC, htA, htB, htC, -, -, -, -, -⟩ := nodup_rot hnd1
  have hcong : ∀ S : Shape, t ∉ S.ids → p ∉ S.ids → Tall h S → Tall h'' S :=
    fun S h1 h2 => Tall.congr_heights fun i hi =>
      hrf.height i (fun e => h1 (e ▸ hi)) (fun e => h2 (e ▸ hi))
  have hin : Tall h'' (.node b t c) :=
    ⟨by rw [hht, tb.hgt_eq, tc.hgt_eq]; exact hcalc_height b c t, hcong b htB hpB tb,
      hcong c htC hpC tc⟩
  refine ⟨?_, hcong a htA hpA ta, hin⟩
  rw [hhp, ta.hgt_eq, tb.hgt_eq, tc.hgt_eq, hcalc_height b c t]
  exact hcalc_height a (.node b t c) p

end Hist

namespace Hist

theorem CalcHeight_step (h : Heap) (ctx : List Frame) (A B : Shape) (c : Nat)
    (hl : Linked h none (plug ctx (.node A c B))) :
    StepOK h (CalcHeight h c).1 ctx (.node A c B) (.node A c B) := by
  have hfields : ∀ i, ((CalcHeight h c).1.get i).Left = (h.get i).Left
      ∧ ((CalcHeight h c).1.get i).Right = (h.get i).Right
      ∧ ((CalcHeight h c).1.get i).Parent = (h.get i).Parent
      ∧ ((CalcHeight h c).1.get i).Count = (h.get i).Count
      ∧ ((CalcHeight h c).1.get i).Value = (h.get i).Value
      ∧ ((CalcHeight h c).1.get i).Duplications = (h.get i).Duplications
      ∧ ((CalcHeight h c).1.get i).Smaller = (h.get i).Smaller
      ∧ ((CalcHeight h c).1.get i).Larger = (h.get i).Larger := by
    intro i
    rw [CalcHeight_get]
    split
    · rename_i hc
      rw [hc.1]
      simp
    · simp
  have hc : c < h.size := ((linked_plug ctx _).mp hl).1.1
  refine ⟨Linked.congr_links (by simp) (fun i _ => ⟨(hfields i).1, (hfields i).2.1, (hfields i).2.2.1⟩) hl,
    rfl, ⟨by simp, fun i => ⟨(hfields i).2.2.2.2.1, (hfields i).2.2.2.2.2.1,
      (hfields i).2.2.2.2.2.2.1, (hfields i).2.2.2.2.2.2.2⟩⟩, fun i hi => ?_, fun hp i hi => ?_,
    fun hcn => ⟨Counted.congr_counts (fun i _ => ⟨(hfields i).2.2.2.1, (hfields i).2.2.2.2.2.1⟩) hcn, ?_⟩⟩
  · refine ⟨(hfields i).2.2.2.1, ?_⟩
    have : i ≠ c := fun e => hi (by simp [e])
    rw [CalcHeight_get]
    simp [this]
  · obtain ⟨_, _, hlA, hlB, _, _⟩ := ((linked_plug ctx _).mp hl).1
    rw [CalcHeight_get]
    by_cases hic : i = c
    · subst hic
      simp only [hc, and_self, ↓reduceIte, hlA, hlB]
      exact hcalc_pos (hgt_nonneg (hp.mono (by simp; tauto))) (hgt_nonneg (hp.mono (by simp; tauto)))
    · simp only [hic, false_and, ↓reduceIte]
      exact hp i hi
  · simp only [Shape.root_node, cnt]
    exact (hfields c).2.2.2.1

theorem CalcHeight_eq (h : Heap) (ctx : List Frame) (A B : Shape) (c : Nat)
    (hl : Linked h none (plug ctx (.node A c B))) :
    CalcHeight h c = ((CalcHeight h c).1,
      hcalc (hgt h A.root) (hgt h B.root), hgt h A.root, hgt h B.root) := by
  obtain ⟨_, _, hlA, hlB, _, _⟩ := ((linked_plug ctx _).mp hl).1
  refine Prod.ext rfl ?_
  rw [CalcHeight_snd, hlA, hlB]

theorem hgt_pos_ne_nil {h : Heap} {S : Shape} (hp : 0 < hgt h S.root) :
    ∃ a i b, S = .node a i b := by
  cases S with
  | nil => simp [hgt] at hp
  | node a i b => exact ⟨a, i, b, rfl⟩

theorem hgt_same {h h' : Heap} {S : Shape}
    (hs : ∀ i ∈ S.ids, (h'.get i).Height = (h.get i).Height) : hgt h' S.root = hgt h S.root := by
  cases S with
  | nil => rfl
  | node a i b => exact hs i (by simp)

/-- `CalcHeight` at the top of a subtree whose subtrees hold true heights. -/
theorem CalcHeight_tall (h : Heap) (ctx : List Frame) (A B : Shape) (c : Nat)
    (hl : Linked h none (plug ctx (.node A c B)))
    (hnd : (plug ctx (.node A c B)).ids.Nodup) (tA : Tall h A) (tB : Tall h B) :
    Tall (CalcHeight h c).1 A ∧ Tall (CalcHeight h c).1 B
      ∧ Tall (CalcHeight h c).1 (.node A c B) := by
  obtain ⟨hc, -, hlA, hlB, -, -⟩ := ((linked_plug ctx _).mp hl).1
  obtain ⟨hnd1, -, -⟩ := nodup_plug hnd
  simp only [Shape.ids_node] at hnd1
  have hcA : c ∉ A.ids := fun hm => by
    have := List.disjoint_of_nodup_append hnd1 hm
    simp at this
  have hcB : c ∉ B.ids := fun hm => by
    have := (List.nodup_cons.mp (List.nodup_append.mp hnd1).2.1).1
    exact this hm
  have hcong : ∀ S : Shape, c ∉ S.ids → Tall h S → Tall (CalcHeight h c).1 S :=
    fun S h1 => Tall.congr_heights fun i hi => by
      rw [CalcHeight_get]
      have : i ≠ c := fun e => h1 (e ▸ hi)
      simp [this]
  have tA' := hcong A hcA tA
  have tB' := hcong B hcB tB
  refine ⟨tA', tB', ?_, tA', tB'⟩
  rw [CalcHeight_get]
  simp only [hc, and_self, ↓reduceIte, hlA, hlB]
  rw [tA.hgt_eq, tB.hgt_eq]
  exact hcalc_height A B c

/-- One pass of the height walk at the top `c` of a subtree rebuilds that subtree. -/
theorem rebalanceStep_spec (ins : Bool) (h : Heap) (ctx : List Frame) (A B : Shape) (c : Nat)
    (hl : Linked h none (plug ctx (.node A c B)))
    (hnd : (plug ctx (.node A c B)).ids.Nodup)
    (hp : HPos h (Shape.node A c B).ids) :
    ∃ c1 h1 S1, rebalanceStep ins h c = .ok (c1, h1) ∧ S1.root = some c1
      ∧ StepOK h h1 ctx (.node A c B) S1 ∧ (Tall h A → Tall h B → Tall h1 S1) := by
  have hs0 := CalcHeight_step h ctx A B c hl
  have ht0 := CalcHeight_tall h ctx A B c hl hnd
  have hpA : 0 ≤ hgt h A.root := hgt_nonneg (hp.mono (by simp; tauto))
  have hpB : 0 ≤ hgt h B.root := hgt_nonneg (hp.mono (by simp; tauto))
  unfold rebalanceStep
  rw [CalcHeight_eq h ctx A B c hl]
  simp only
  obtain ⟨hc1, -, hcl, hcr, hlA, hlB⟩ := ((linked_plug ctx _).mp hs0.linked).1
  by_cases hL : hgt h A.root - hgt h B.root > 1
  · simp only [hL, ↓reduceIte]
    obtain ⟨a, l, b, rfl⟩ := hgt_pos_ne_nil (h := h) (S := A) (by omega)
    simp only [hcl, Shape.root_node, deref, bind, Except.bind]
    by_cases hin : ins = true ∧ ((CalcHeight h c).1.get l).Right ≠ none
    · simp only [hin, ne_eq, not_false_eq_true, and_self, ↓reduceIte]
      have hlr : ((CalcHeight h c).1.get l).Right = b.root := hlA.2.2.2.1
      obtain ⟨b1, q, b2, rfl⟩ : ∃ b1 q b2, b = .node b1 q b2 := by
        cases b with
        | nil => exact absurd hlr hin.2
        | node b1 q b2 => exact ⟨b1, q, b2, rfl⟩
      obtain ⟨h2, he2, hs2⟩ := LeftRotate_step (CalcHeight h c).1 (⟨true, c, B⟩ :: ctx) a b1 b2 l q
        (by simpa [plug, Frame.wrap] using hs0.linked) (by simpa [plug, Frame.wrap] using hnd)
      have hs2' := StepOK.lift hs2 (by
        have := (nodup_plug hnd).1
        simpa [Frame.wrap] using this)
      simp only [Frame.wrap, ↓reduceIte] at hs2'
      obtain ⟨h3, he3, hs3⟩ := RightRotate_step h2 ctx (.node a l b1) b2 B c q hs2'.linked (by
        rw [ids_plug, hs2'.ids, ← ids_plug]
        exact hnd)
      refine ⟨q, h3, _, ?_, ?_, hs0.trans_step (hs2'.trans_step hs3), fun tA tB => ?_⟩
      · rw [he2]
        simp only [he3]
        rfl
      · rfl
      · obtain ⟨tA0, tB0, -⟩ := ht0 tA tB
        have t2 := LeftRotate_tall (CalcHeight h c).1 (⟨true, c, B⟩ :: ctx) a b1 b2 l q
          (by simpa [plug, Frame.wrap] using hs0.linked) (by simpa [plug, Frame.wrap] using hnd)
          he2 tA0.2.1 tA0.2.2.2.1 tA0.2.2.2.2
        have tB2 : Tall h2 B := Tall.congr_heights (fun i hi => (hs2.outside i (by
          have := (nodup_plug hnd).1
          simp only [Shape.ids_node] at this ⊢
          intro hm
          have hd := List.disjoint_of_nodup_append this hm
          exact hd (List.mem_cons_of_mem _ hi))).2) tB0
        exact RightRotate_tall h2 ctx (.node a l b1) b2 B c q hs2'.linked (by
          rw [ids_plug, hs2'.ids, ← ids_plug]
          exact hnd) he3 t2.2.1 t2.2.2 tB2
    · have hh2 : (if ins = true ∧ ((CalcHeight h c).1.get l).Right ≠ none
          then (LeftRotate (CalcHeight h c).1 l).2 else (CalcHeight h c).1) = (CalcHeight h c).1 := by
        rw [if_neg hin]
      rw [hh2]
      obtain ⟨h3, he3, hs3⟩ := RightRotate_step (CalcHeight h c).1 ctx a b B c l hs0.linked hnd
      refine ⟨l, h3, _, ?_, ?_, hs0.trans_step hs3, fun tA tB => ?_⟩
      · simp only [he3]
        rfl
      · rfl
      · obtain ⟨tA0, tB0, -⟩ := ht0 tA tB
        exact RightRotate_tall (CalcHeight h c).1 ctx a b B c l hs0.linked hnd he3 tA0.2.1
          tA0.2.2 tB0
  · simp only [hL, ↓reduceIte]
    by_cases hR : hgt h B.root - hgt h A.root > 1
    · simp only [hR, ↓reduceIte]
      obtain ⟨a, r, b, rfl⟩ := hgt_pos_ne_nil (h := h) (S := B) (by omega)
      simp only [hcr, Shape.root_node, deref, bind, Except.bind]
      by_cases hin : ins = true ∧ ((CalcHeight h c).1.get r).Left ≠ none
      · simp only [hin, ne_eq, not_false_eq_true, and_self, ↓reduceIte]
        have hrl : ((CalcHeight h c).1.get r).Left = a.root := hlB.2.2.1
        obtain ⟨a1, q, a2, rfl⟩ : ∃ a1 q a2, a = .node a1 q a2 := by
          cases a with
          | nil => exact absurd hrl hin.2
          | node a1 q a2 => exact ⟨a1, q, a2, rfl⟩
        obtain ⟨h2, he2, hs2⟩ := RightRotate_step (CalcHeight h c).1 (⟨false, c, A⟩ :: ctx) a1 a2 b r q
          (by simpa [plug, Frame.wrap] using hs0.linked) (by simpa [plug, Frame.wrap] using hnd)
        have hs2' := StepOK.lift hs2 (by
          have := (nodup_plug hnd).1
          simpa [Frame.wrap] using this)
        simp only [Frame.wrap, Bool.false_eq_true, ↓reduceIte] at hs2'
        obtain ⟨h3, he3, hs3⟩ := LeftRotate_step h2 ctx A a1 (.node a2 r b) c q hs2'.linked (by
          rw [ids_plug, hs2'.ids, ← ids_plug]
          exact hnd)
        refine ⟨q, h3, _, ?_, ?_, hs0.trans_step (hs2'.trans_step hs3), fun tA tB => ?_⟩
        · rw [he2]
          simp only [he3]
          rfl
        · rfl
        · obtain ⟨tA0, tB0, -⟩ := ht0 tA tB
          have t2 := RightRotate_tall (CalcHeight h c).1 (⟨false, c, A⟩ :: ctx) a1 a2 b r q
            (by simpa [plug, Frame.wrap] using hs0.linked)
            (by simpa [plug, Frame.wrap] using hnd) he2 tB0.2.1.2.1 tB0.2.1.2.2 tB0.2.2
          have tA2 : Tall h2 A := Tall.congr_heights (fun i hi => (hs2.outside i (by
            have := (nodup_plug hnd).1
            simp only [Shape.ids_node] at this ⊢
            intro hm
            have hd := List.disjoint_of_nodup_append this hi
            exact hd (List.mem_cons_of_mem _ hm))).2) tA0
          exact LeftRotate_tall h2 ctx A a1 (.node a2 r b) c q hs2'.linked (by
            rw [ids_plug, hs2'.ids, ← ids_plug]
            exact hnd) he3 tA2 t2.2.1 t2.2.2
      · have hh2 : (if ins = true ∧ ((CalcHeight h c).1.get r).Left ≠ none
            then (RightRotate (CalcHeight h c).1 r).2 else (CalcHeight h c).1) = (CalcHeight h c).1 := by
          rw [if_neg hin]
        rw [hh2]
        obtain ⟨h3, he3, hs3⟩ := LeftRotate_step (CalcHeight h c).1 ctx A a b c r hs0.linked hnd
        refine ⟨r, h3, _, ?_, ?_, hs0.trans_step hs3, fun tA tB => ?_⟩
        · simp only [he3]
          rfl
        · rfl
        · obtain ⟨tA0, tB0, -⟩ := ht0 tA tB
          exact LeftRotate_tall (CalcHeight h c).1 ctx A a b c r hs0.linked hnd he3 tA0
            tB0.2.1 tB0.2.2
    · simp only [hR, ↓reduceIte]
      exact ⟨c, _, Shape.node A c B, rfl, rfl, hs0, fun tA tB => (ht0 tA tB).2.2⟩

end Hist

namespace Hist

theorem root_some_eq_node {S : Shape} {c : Nat} (hc : S.root = some c) :
    ∃ A B, S = .node A c B := by
  cases S with
  | nil => simp at hc
  | node A i B =>
    simp at hc
    subst hc
    exact ⟨A, B, rfl⟩

theorem sib_mem_ctxIds : ∀ {ctx : List Frame} {f : Frame} {i : Nat}, f ∈ ctx → i ∈ f.sib.ids →
    i ∈ ctxIds ctx
  | g :: gs, f, i, hf, hi => by
    rw [mem_ctxIds_cons]
    rcases List.mem_cons.mp hf with e | e
    · subst e
      exact Or.inr (Or.inl hi)
    · exact Or.inr (Or.inr (sib_mem_ctxIds e hi))

/-- The height walk from the top `c` of a subtree up to the root rebuilds the tree and
returns its new root. -/
theorem updateHeightLoop_spec (ins : Bool) : ∀ (ctx : List Frame) (S : Shape) (c : Nat)
    (h : Heap) (r0 : Ptr) (fuel : Nat), ctx.length < fuel → S.root = some c →
    Linked h none (plug ctx S) → (plug ctx S).ids.Nodup → HPos h (plug ctx S).ids →
    ∃ h' T', updateHeightLoop ins fuel h (some c) r0 = .ok (T'.root, h')
      ∧ StepOK h h' [] (plug ctx S) T' ∧ T'.root ≠ none
      ∧ (TallBelow h S → (∀ f ∈ ctx, Tall h f.sib) → Tall h' T')
  | ctx, S, c, h, r0, 0, hf, _, _, _, _ => by omega
  | ctx, S, c, h, r0, k + 1, hf, hc, hl, hnd, hp => by
    obtain ⟨A, B, rfl⟩ := root_some_eq_node hc
    have hpS : HPos h (Shape.node A c B).ids := hp.mono (by
      intro i hi
      rw [ids_plug]
      simp only [List.mem_append]
      exact Or.inl (Or.inr hi))
    obtain ⟨c1, h1, S1, he, hr1, hs1, ht1⟩ := rebalanceStep_spec ins h ctx A B c hl hnd hpS
    have hsib : ∀ g ∈ ctx, Tall h g.sib → Tall h1 g.sib := fun g hg =>
      Tall.congr_heights fun i hi => (hs1.outside i (fun hm =>
        (nodup_plug hnd).2.2 i hm (sib_mem_ctxIds hg hi))).2
    have hs1' := StepOK.lift_plug hs1 hnd
    have hpar : (h1.get c1).Parent = ctxParent ctx :=
      Linked.root_parent ((linked_plug ctx S1).mp hs1.linked).1 hr1
    have hnd1 : (plug ctx S1).ids.Nodup := by
      rw [hs1'.ids]
      exact hnd
    have hp1 : HPos h1 (plug ctx S1).ids := hs1'.hpos hp
    unfold updateHeightLoop
    simp only [he, bind, Except.bind, hpar]
    cases ctx with
    | nil =>
      refine ⟨h1, S1, ?_, hs1', by simp [hr1], fun tb _ => ht1 tb.1 tb.2⟩
      simp [ctxParent, updateHeightLoop, hr1]
    | cons f fs =>
      obtain ⟨h', T', he', hs', hne, ht'⟩ := updateHeightLoop_spec ins fs (f.wrap S1) f.id h1
        (some c1) k (by simp at hf; omega) (root_wrap f S1) hs1.linked hnd1 hp1
      refine ⟨h', T', ?_, hs1'.trans_step hs', hne, fun tb hs => ht'
        (tallBelow_wrap.mpr ⟨ht1 tb.1 tb.2, hsib f (by simp) (hs f (by simp))⟩)
        (fun g hg => hsib g (List.mem_cons_of_mem _ hg) (hs g (List.mem_cons_of_mem _ hg)))⟩
      simp only [ctxParent]
      exact he'

end Hist

namespace Hist

/-! ## Count walks -/

theorem pathIds_subset (ctx : List Frame) : ∀ i ∈ pathIds ctx, i ∈ ctxIds ctx := by
  induction ctx with
  | nil => simp [pathIds]
  | cons f fs ih =>
    intro i hi
    simp only [pathIds, List.map_cons, List.mem_cons] at hi
    rcases hi with rfl | hi
    · exact mem_ctxIds_cons.mpr (Or.inl rfl)
    · exact mem_ctxIds_cons.mpr (Or.inr (Or.inr (ih i hi)))

theorem nodup_pathIds {ctx : List Frame} (hnd : (ctxIds ctx).Nodup) : (pathIds ctx).Nodup := by
  induction ctx with
  | nil => simp [pathIds]
  | cons f fs ih =>
    have hp := (ctxIds_cons_perm f fs).nodup_iff.mp hnd
    have h1 := List.nodup_cons.mp hp
    have h2 := List.nodup_append.mp h1.2
    simp only [pathIds, List.map_cons, List.nodup_cons]
    refine ⟨fun hm => h1.1 (List.mem_append.mpr (Or.inr (pathIds_subset fs _ hm))), ih h2.2.1⟩

theorem linkedCtx_of_plug {h : Heap} {ctx : List Frame} {S : Shape}
    (hl : Linked h none (plug ctx S)) : LinkedCtx h ctx S.root :=
  ((linked_plug ctx S).mp hl).2

/-- The count walk from the parent of a subtree adds `d` on every frame of the path. -/
theorem addCountUp_ctx (d : Int) : ∀ (ctx : List Frame) (child : Ptr) (h : Heap) (fuel : Nat),
    ctx.length < fuel → LinkedCtx h ctx child → (pathIds ctx).Nodup →
    ∃ h', addCountUp d fuel h (ctxParent ctx) = .ok h' ∧ h'.size = h.size
      ∧ ∀ i, h'.get i = if i ∈ pathIds ctx then
          { h.get i with Count := (h.get i).Count + d } else h.get i
  | [], _, h, fuel, _, _, _ => by
    refine ⟨h, ?_, rfl, fun i => by simp [pathIds]⟩
    cases fuel <;> simp [ctxParent, addCountUp]
  | f :: fs, _, h, 0, hf, _, _ => by simp at hf
  | f :: fs, child, h, k + 1, hf, hl, hnd => by
    obtain ⟨h1, h2, h3, h4, h5, h6⟩ := hl
    simp only [pathIds, List.map_cons, List.nodup_cons] at hnd
    have hl' : LinkedCtx (h.modify f.id fun n => { n with Count := n.Count + d }) fs (some f.id) :=
      LinkedCtx.congr_ctx (by simp) (fun i _ => by
        rw [Heap.get_modify]
        split
        · rename_i hc
          rw [hc.1]
          exact ⟨rfl, rfl, rfl⟩
        · exact ⟨rfl, rfl, rfl⟩) h6
    obtain ⟨h', he, hs, hg⟩ := addCountUp_ctx d fs (some f.id) _ k (by simp at hf; omega) hl' hnd.2
    refine ⟨h', ?_, by simpa using hs, fun i => ?_⟩
    · simp only [ctxParent, addCountUp, h2]
      exact he
    · rw [hg i]
      simp only [pathIds, List.map_cons, List.mem_cons]
      by_cases hif : i = f.id
      · subst hif
        have : f.id ∉ List.map (fun f => f.id) fs := hnd.1
        simp [pathIds, this, Heap.get_modify, h1]
      · by_cases him : i ∈ pathIds fs
        · simp [him, hif, Heap.get_modify]
        · have him' : i ∉ List.map (fun f => f.id) fs := him
          simp [him, him', hif, Heap.get_modify]

/-! ## The invariant through a step -/

theorem Chain.congr_chain {h h' : Heap} : ∀ {ids : List Nat} {prev : Ptr},
    (∀ i ∈ ids, (h'.get i).Smaller = (h.get i).Smaller ∧ (h'.get i).Larger = (h.get i).Larger) →
    Chain h prev ids → Chain h' prev ids
  | [], _, _, _ => trivial
  | i :: rest, prev, hc, hch => by
    obtain ⟨h1, h2, h3⟩ := hch
    obtain ⟨c1, c2⟩ := hc i (by simp)
    exact ⟨by rw [c1, h1], by rw [c2, h2],
      Chain.congr_chain (fun j hj => hc j (List.mem_cons_of_mem _ hj)) h3⟩

theorem values_same {h h' : Heap} (hs : SameData h h') (ids : List Nat) :
    h'.values ids = h.values ids := by
  unfold Heap.values
  exact List.map_congr_left fun i _ => (hs.2 i).1

theorem TreeInv.of_step {h h' : Heap} {T T' : Shape} (hinv : TreeInv h T)
    (hs : StepOK h h' [] T T') : TreeInv h' T' where
  linked := hs.linked
  sorted := by
    rw [hs.ids, values_same hs.same]
    exact hinv.sorted
  chain := by
    rw [hs.ids]
    exact Chain.congr_chain (fun i _ => ⟨(hs.same.2 i).2.2.1, (hs.same.2 i).2.2.2⟩) hinv.chain
  height := hs.hpos hinv.height
  dups := fun i hi => by
    rw [(hs.same.2 i).2.1]
    exact hinv.dups i (by rw [← hs.ids]; exact hi)

theorem TreeInv.nodup {h : Heap} {T : Shape} (hinv : TreeInv h T) : T.ids.Nodup := by
  have := hinv.sorted
  unfold Heap.values at this
  have h2 : (List.map (fun i => (h.get i).Value) T.ids).Nodup :=
    this.imp (fun hab => ne_of_lt hab)
  exact List.Nodup.of_map _ h2

theorem counted_plug {h : Heap} : ∀ (ctx : List Frame) (S : Shape),
    Counted h (plug ctx S) ↔ Counted h S ∧ CountedCtx h ctx (dupSum h S.ids)
  | [], S => by simp [plug, CountedCtx]
  | f :: fs, S => by
    rw [plug, counted_plug fs (f.wrap S)]
    unfold Frame.wrap
    cases hf : f.isLeft
    · simp only [Bool.false_eq_true, ↓reduceIte, Counted, CountedCtx, Shape.ids_node,
        dupSum_append, dupSum_cons]
      constructor
      · rintro ⟨⟨a1, a2, a3⟩, a4⟩
        refine ⟨a3, ?_, a2, ?_⟩
        · rw [a1]; ring
        · exact Eq.mp (congrArg (CountedCtx h fs) (by ring)) a4
      · rintro ⟨a3, a1, a2, a4⟩
        refine ⟨⟨?_, a2, a3⟩, ?_⟩
        · rw [a1]; ring
        · exact Eq.mp (congrArg (CountedCtx h fs) (by ring)) a4
    · simp only [↓reduceIte, Counted, CountedCtx, Shape.ids_node, dupSum_append, dupSum_cons]
      constructor
      · rintro ⟨⟨a1, a2, a3⟩, a4⟩
        refine ⟨a2, ?_, a3, ?_⟩
        · rw [a1]; ring
        · exact Eq.mp (congrArg (CountedCtx h fs) (by ring)) a4
      · rintro ⟨a2, a1, a3, a4⟩
        refine ⟨⟨?_, a2, a3⟩, ?_⟩
        · rw [a1]; ring
        · exact Eq.mp (congrArg (CountedCtx h fs) (by ring)) a4

/-- A path whose frames all gain `d` counts a subtree that gained `d`. -/
theorem CountedCtx.shift {h h' : Heap} (d : Int) : ∀ {ctx : List Frame} {s : Int},
    (ctxIds ctx).Nodup →
    (∀ i ∈ ctxIds ctx, (h'.get i).Duplications = (h.get i).Duplications
      ∧ (h'.get i).Count = (h.get i).Count + (if i ∈ pathIds ctx then d else 0)) →
    CountedCtx h ctx s → CountedCtx h' ctx (s + d)
  | [], _, _, _, _ => trivial
  | f :: fs, s, hnd, hc, hcc => by
    obtain ⟨h1, h2, h3⟩ := hcc
    have hp := (ctxIds_cons_perm f fs).nodup_iff.mp hnd
    have hp1 := List.nodup_cons.mp hp
    have hp2 := List.nodup_append.mp hp1.2
    have hsum : dupSum h' f.sib.ids = dupSum h f.sib.ids :=
      dupSum_congr fun i hi => (hc i (mem_ctxIds_cons.mpr (Or.inr (Or.inl hi)))).1
    obtain ⟨c1, c2⟩ := hc f.id (mem_ctxIds_cons.mpr (Or.inl rfl))
    have hsibpath : ∀ i ∈ f.sib.ids, i ∉ pathIds (f :: fs) := by
      intro i hi hm
      simp only [pathIds, List.map_cons, List.mem_cons] at hm
      rcases hm with rfl | hm
      · exact hp1.1 (List.mem_append.mpr (Or.inl hi))
      · exact hp2.2.2 hi (pathIds_subset fs i hm)
    refine ⟨?_, ?_, ?_⟩
    · rw [c2, c1, hsum, h1]
      simp [pathIds]
      ring
    · refine Counted.congr_counts (fun i hi => ?_) h2
      obtain ⟨d1, d2⟩ := hc i (mem_ctxIds_cons.mpr (Or.inr (Or.inl hi)))
      rw [if_neg (hsibpath i hi)] at d2
      exact ⟨by rw [d2]; ring, d1⟩
    · rw [c1, hsum]
      have := @CountedCtx.shift h h' d fs
        (s + (h.get f.id).Duplications + dupSum h f.sib.ids) hp2.2.1 (fun i hi => by
          obtain ⟨d1, d2⟩ := hc i (mem_ctxIds_cons.mpr (Or.inr (Or.inr hi)))
          refine ⟨d1, ?_⟩
          rw [d2]
          have hne : i ≠ f.id := fun e => hp1.1 (e ▸ List.mem_append.mpr (Or.inr hi))
          simp [pathIds, hne]) h3
      exact Eq.mp (congrArg (CountedCtx h' fs) (by ring)) this

end Hist

namespace Hist

/-! ## Hanging a new node under a leaf position -/

@[simp] theorem attachRight_size (h : Heap) (t n : Nat) : (attachRight h t n).size = h.size := by
  unfold attachRight
  simp only
  split <;> simp

@[simp] theorem attachLeft_size (h : Heap) (t n : Nat) : (attachLeft h t n).size = h.size := by
  unfold attachLeft
  simp only
  split <;> simp

theorem attachRight_get (h : Heap) (t n : Nat) (ht : t < h.size) (hn : n < h.size)
    (htn : t ≠ n)
    (hl : ∀ l, (h.get t).Larger = some l → l < h.size ∧ l ≠ t ∧ l ≠ n) (i : Nat) :
    (attachRight h t n).get i =
      if i = t then { h.get t with Right := some n, Larger := some n }
      else if i = n then { h.get n with Larger := (h.get t).Larger, Smaller := some t }
      else if (h.get t).Larger = some i then { h.get i with Smaller := some n }
      else h.get i := by
  have hnt : n ≠ t := fun e => htn e.symm
  cases hlg : (h.get t).Larger with
  | none =>
    by_cases hit : i = t
    · subst hit
      simp [attachRight, Heap.get_modify, ht, hn, htn, hnt, hlg]
    · by_cases hin : i = n
      · subst hin
        simp [attachRight, Heap.get_modify, ht, hn, htn, hnt, hlg]
      · simp [attachRight, Heap.get_modify, ht, hn, htn, hnt, hlg, hit, hin]
  | some l =>
    obtain ⟨hls, hlt, hln⟩ := hl l hlg
    have htl : t ≠ l := fun e => hlt e.symm
    have hnl : n ≠ l := fun e => hln e.symm
    by_cases hit : i = t
    · subst hit
      simp [attachRight, Heap.get_modify, ht, hn, htn, hnt, hlg, hls, hlt, hln, htl, hnl]
    · by_cases hin : i = n
      · subst hin
        simp [attachRight, Heap.get_modify, ht, hn, htn, hnt, hlg, hls, hlt, hln, htl, hnl]
      · by_cases hil : i = l
        · subst hil
          simp [attachRight, Heap.get_modify, ht, hn, htn, hnt, hlg, hls, hlt, hln, htl, hnl]
        · have hli : l ≠ i := fun e => hil e.symm
          simp [attachRight, Heap.get_modify, ht, hn, htn, hnt, hlg, hls, hlt, hln, htl, hnl,
            hit, hin, hil, hli]

theorem attachLeft_get (h : Heap) (t n : Nat) (ht : t < h.size) (hn : n < h.size)
    (htn : t ≠ n)
    (hl : ∀ l, (h.get t).Smaller = some l → l < h.size ∧ l ≠ t ∧ l ≠ n) (i : Nat) :
    (attachLeft h t n).get i =
      if i = t then { h.get t with Left := some n, Smaller := some n }
      else if i = n then { h.get n with Smaller := (h.get t).Smaller, Larger := some t }
      else if (h.get t).Smaller = some i then { h.get i with Larger := some n }
      else h.get i := by
  have hnt : n ≠ t := fun e => htn e.symm
  cases hlg : (h.get t).Smaller with
  | none =>
    by_cases hit : i = t
    · subst hit
      simp [attachLeft, Heap.get_modify, ht, hn, htn, hnt, hlg]
    · by_cases hin : i = n
      · subst hin
        simp [attachLeft, Heap.get_modify, ht, hn, htn, hnt, hlg]
      · simp [attachLeft, Heap.get_modify, ht, hn, htn, hnt, hlg, hit, hin]
  | some l =>
    obtain ⟨hls, hlt, hln⟩ := hl l hlg
    have htl : t ≠ l := fun e => hlt e.symm
    have hnl : n ≠ l := fun e => hln e.symm
    by_cases hit : i = t
    · subst hit
      simp [attachLeft, Heap.get_modify, ht, hn, htn, hnt, hlg, hls, hlt, hln, htl, hnl]
    · by_cases hin : i = n
      · subst hin
        simp [attachLeft, Heap.get_modify, ht, hn, htn, hnt, hlg, hls, hlt, hln, htl, hnl]
      · by_cases hil : i = l
        · subst hil
          simp [attachLeft, Heap.get_modify, ht, hn, htn, hnt, hlg, hls, hlt, hln, htl, hnl]
        · have hli : l ≠ i := fun e => hil e.symm
          simp [attachLeft, Heap.get_modify, ht, hn, htn, hnt, hlg, hls, hlt, hln, htl, hnl,
            hit, hin, hil, hli]

/-! ## The chain under insertion and removal of one cell -/

/-- The same chain after another predecessor: only the first cell's `Smaller` differs. -/
theorem Chain.rehead {h h' : Heap} {B : List Nat} {p p' : Ptr} (hc : Chain h p B)
    (hhead : ∀ b, B.head? = some b →
      (h'.get b).Smaller = p' ∧ (h'.get b).Larger = (h.get b).Larger)
    (hrest : ∀ i ∈ B.tail,
      (h'.get i).Smaller = (h.get i).Smaller ∧ (h'.get i).Larger = (h.get i).Larger) :
    Chain h' p' B := by
  cases B with
  | nil => trivial
  | cons b B' =>
    obtain ⟨_, h2, h3⟩ := hc
    obtain ⟨c1, c2⟩ := hhead b rfl
    exact ⟨c1, by rw [c2, h2], Chain.congr_chain hrest h3⟩

theorem chain_insert_after {h h' : Heap} {t n : Nat} {B : List Nat} :
    ∀ {A : List Nat} {prev : Ptr}, Chain h prev (A ++ t :: B) →
    (∀ i ∈ A, (h'.get i).Smaller = (h.get i).Smaller ∧ (h'.get i).Larger = (h.get i).Larger) →
    (h'.get t).Smaller = (h.get t).Smaller → (h'.get t).Larger = some n →
    (h'.get n).Smaller = some t → (h'.get n).Larger = B.head? →
    (∀ b, B.head? = some b → (h'.get b).Smaller = some n ∧ (h'.get b).Larger = (h.get b).Larger) →
    (∀ i ∈ B.tail,
      (h'.get i).Smaller = (h.get i).Smaller ∧ (h'.get i).Larger = (h.get i).Larger) →
    Chain h' prev (A ++ t :: n :: B)
  | [], prev, hc, _, ht1, ht2, hn1, hn2, hb, hB => by
    obtain ⟨h1, _, h3⟩ := hc
    exact ⟨by rw [ht1, h1], by simp [ht2], hn1, hn2, Chain.rehead h3 hb hB⟩
  | a :: A, prev, hc, hA, ht1, ht2, hn1, hn2, hb, hB => by
    obtain ⟨h1, h2, h3⟩ := hc
    obtain ⟨c1, c2⟩ := hA a (by simp)
    refine ⟨by rw [c1, h1], ?_, chain_insert_after h3
      (fun i hi => hA i (List.mem_cons_of_mem _ hi)) ht1 ht2 hn1 hn2 hb hB⟩
    rw [c2, h2]
    cases A <;> rfl

theorem chain_insert_before {h h' : Heap} {t n : Nat} {B : List Nat} :
    ∀ {A : List Nat} {prev : Ptr}, Chain h prev (A ++ t :: B) →
    (∀ i ∈ A, (h'.get i).Smaller = (h.get i).Smaller
      ∧ (h'.get i).Larger = if A.getLast? = some i then some n else (h.get i).Larger) →
    (A ++ t :: B).Nodup →
    (h'.get n).Smaller = (h.get t).Smaller → (h'.get n).Larger = some t →
    (h'.get t).Smaller = some n → (h'.get t).Larger = (h.get t).Larger →
    (∀ i ∈ B,
      (h'.get i).Smaller = (h.get i).Smaller ∧ (h'.get i).Larger = (h.get i).Larger) →
    Chain h' prev (A ++ n :: t :: B)
  | [], prev, hc, _, _, hn1, hn2, ht1, ht2, hB => by
    obtain ⟨h1, h2, h3⟩ := hc
    exact ⟨by rw [hn1, h1], by simp [hn2], ht1, by rw [ht2, h2], Chain.congr_chain hB h3⟩
  | [a], prev, hc, hA, _, hn1, hn2, ht1, ht2, hB => by
    obtain ⟨h1, h2, k1, k2, k3⟩ := hc
    obtain ⟨c1, c2⟩ := hA a (by simp)
    simp only [List.getLast?_singleton, ↓reduceIte] at c2
    exact ⟨by rw [c1, h1], by simp [c2], by rw [hn1, k1], by simp [hn2], ht1, by rw [ht2, k2],
      Chain.congr_chain hB k3⟩
  | a :: a' :: A, prev, hc, hA, hnd, hn1, hn2, ht1, ht2, hB => by
    obtain ⟨h1, h2, h3⟩ := hc
    obtain ⟨c1, c2⟩ := hA a (by simp)
    have hlast : (a :: a' :: A).getLast? ≠ some a := by
      intro e
      rw [List.getLast?_cons_cons] at e
      have hm : a ∈ a' :: A := List.mem_of_getLast?_eq_some e
      simp only [List.cons_append, List.nodup_cons, List.mem_cons, List.mem_append] at hnd
      have := hnd.1
      simp only [List.mem_cons] at hm
      tauto
    rw [if_neg hlast] at c2
    refine ⟨by rw [c1, h1], by rw [c2, h2]; rfl, ?_⟩
    refine chain_insert_before (A := a' :: A) h3 (fun i hi => ?_)
      (List.nodup_cons.mp hnd).2 hn1 hn2 ht1 ht2 hB
    have := hA i (List.mem_cons_of_mem _ hi)
    rw [List.getLast?_cons_cons] at this
    exact this

theorem chain_remove {h h' : Heap} {t : Nat} {B : List Nat} :
    ∀ {A : List Nat} {prev : Ptr}, Chain h prev (A ++ t :: B) →
    (∀ i ∈ A, (h'.get i).Smaller = (h.get i).Smaller
      ∧ (h'.get i).Larger = if A.getLast? = some i then B.head? else (h.get i).Larger) →
    (A ++ t :: B).Nodup →
    (∀ b, B.head? = some b →
      (h'.get b).Smaller = (h.get t).Smaller ∧ (h'.get b).Larger = (h.get b).Larger) →
    (∀ i ∈ B.tail,
      (h'.get i).Smaller = (h.get i).Smaller ∧ (h'.get i).Larger = (h.get i).Larger) →
    Chain h' prev (A ++ B)
  | [], prev, hc, _, _, hb, hB => by
    obtain ⟨h1, _, h3⟩ := hc
    exact Chain.rehead h3 (fun b hbh => by rw [← h1]; exact hb b hbh) hB
  | [a], prev, hc, hA, _, hb, hB => by
    obtain ⟨h1, _, k1, _, k3⟩ := hc
    obtain ⟨c1, c2⟩ := hA a (by simp)
    simp only [List.getLast?_singleton, ↓reduceIte] at c2
    exact ⟨by rw [c1, h1], c2, Chain.rehead k3 (fun b hbh => by rw [← k1]; exact hb b hbh) hB⟩
  | a :: a' :: A, prev, hc, hA, hnd, hb, hB => by
    obtain ⟨h1, h2, h3⟩ := hc
    obtain ⟨c1, c2⟩ := hA a (by simp)
    have hlast : (a :: a' :: A).getLast? ≠ some a := by
      intro e
      rw [List.getLast?_cons_cons] at e
      have hm : a ∈ a' :: A := List.mem_of_getLast?_eq_some e
      simp only [List.cons_append, List.nodup_cons, List.mem_cons, List.mem_append] at hnd
      have := hnd.1
      simp only [List.mem_cons] at hm
      tauto
    rw [if_neg hlast] at c2
    refine ⟨by rw [c1, h1], by rw [c2, h2]; rfl, ?_⟩
    refine chain_remove (A := a' :: A) h3 (fun i hi => ?_) (List.nodup_cons.mp hnd).2 hb hB
    have := hA i (List.mem_cons_of_mem _ hi)
    rw [List.getLast?_cons_cons] at this
    exact this

/-- In a chain, the `Smaller` of the cell after a prefix is the last cell of the prefix. -/
theorem chain_smaller_at {h : Heap} {t : Nat} {B : List Nat} :
    ∀ {A : List Nat} {prev : Ptr}, Chain h prev (A ++ t :: B) →
    (h.get t).Smaller = (match A.getLast? with | some a => some a | none => prev)
      ∧ (h.get t).Larger = B.head?
  | [], _, hc => ⟨hc.1, hc.2.1⟩
  | [a], _, hc => ⟨hc.2.2.1, hc.2.2.2.1⟩
  | a :: a' :: A, _, hc => by
    have := chain_smaller_at (A := a' :: A) hc.2.2
    rw [List.getLast?_cons_cons]
    cases hl : (a' :: A).getLast? with
    | none => simp at hl
    | some x => simpa [hl] using this

end Hist

namespace Hist

/-! ## Insert: the new node -/

theorem ids_lt_size {h : Heap} {T : Shape} (hl : Linked h none T) : ∀ i ∈ T.ids, i < h.size :=
  Linked.ids_lt hl

theorem ids_plug_node (ctx : List Frame) (L R : Shape) (t : Nat) :
    (plug ctx (.node L t R)).ids = (ctxBefore ctx ++ L.ids) ++ t :: (R.ids ++ ctxAfter ctx) := by
  rw [ids_plug]
  simp

/-- The store after hanging a fresh node `n` holding `v` on the right of `t`. -/
theorem attach_right_inv (h : Heap) (ctx : List Frame) (L : Shape) (t : Nat) (v : ℚ) (c : Int)
    (hinv : TreeInv h (plug ctx (.node L t .nil)))
    (hv : (h.get t).Value < v) (hafter : ∀ i ∈ ctxAfter ctx, v < (h.get i).Value)
    (hc : 1 ≤ c) :
    let h2 := attachRight
      (h.alloc { NewHistogramItem v with Duplications := c, Parent := some t }).2 t h.size
    TreeInv h2 (plug ctx (.node L t (.node .nil h.size .nil)))
      ∧ h2.size = h.size + 1
      ∧ (∀ i, i ≠ h.size → (h2.get i).Value = (h.get i).Value
          ∧ (h2.get i).Duplications = (h.get i).Duplications
          ∧ (h2.get i).Count = (h.get i).Count ∧ (h2.get i).Height = (h.get i).Height
          ∧ (h2.get i).Left = (h.get i).Left
          ∧ (h2.get i).Right = (if i = t then some h.size else (h.get i).Right))
      ∧ (h2.get h.size).Value = v ∧ (h2.get h.size).Duplications = c
      ∧ (h2.get h.size).Count = 1 := by
  intro h2
  have hnd := hinv.nodup
  have hlt := ids_lt_size hinv.linked
  rw [ids_plug_node] at hnd hlt
  simp only [Shape.ids_nil, List.nil_append] at hnd hlt
  have ht : t < h.size := hlt t (by simp)
  have htn : t ≠ h.size := Nat.ne_of_lt ht
  have hch := hinv.chain
  rw [ids_plug_node] at hch
  simp only [Shape.ids_nil, List.nil_append] at hch
  obtain ⟨hts, htl⟩ := chain_smaller_at hch
  set h1 := (h.alloc { NewHistogramItem v with Duplications := c, Parent := some t }).2 with hh1
  have h1get : ∀ i, h1.get i = if i = h.size then
      { NewHistogramItem v with Duplications := c, Parent := some t } else h.get i :=
    fun i => Heap.get_alloc h _ i
  have h1size : h1.size = h.size + 1 := Heap.size_alloc h _
  have h1t : h1.get t = h.get t := by rw [h1get]; simp [htn]
  have hlarger : ∀ l, (h1.get t).Larger = some l → l < h1.size ∧ l ≠ t ∧ l ≠ h.size := by
    intro l hl
    rw [h1t, htl] at hl
    have hm : l ∈ ctxAfter ctx := List.mem_of_mem_head? hl
    have hls : l < h.size := hlt l (by simp [hm])
    refine ⟨by omega, ?_, Nat.ne_of_lt hls⟩
    rintro rfl
    have := List.nodup_append.mp hnd
    exact (List.nodup_cons.mp this.2.1).1 hm
  have hget := attachRight_get h1 t h.size (by omega) (by omega) htn hlarger
  have hcell : ∀ i, i ≠ t → i ≠ h.size → h2.get i = { h.get i with
      Smaller := if (h.get t).Larger = some i then some h.size else (h.get i).Smaller } := by
    intro i h1' h2'
    show (attachRight h1 t h.size).get i = _
    rw [hget i, h1t]
    simp only [h1', h2', ↓reduceIte, h1get]
    split <;> rfl
  have hcellt : h2.get t = { h.get t with Right := some h.size, Larger := some h.size } := by
    show (attachRight h1 t h.size).get t = _
    rw [hget t, h1t]
    simp
  have hcelln : h2.get h.size = { NewHistogramItem v with
      Duplications := c, Parent := some t, Larger := (h.get t).Larger, Smaller := some t } := by
    show (attachRight h1 t h.size).get h.size = _
    rw [hget h.size, h1t, h1get]
    simp [htn.symm]
  have hsize : h2.size = h.size + 1 := by
    show (attachRight h1 t h.size).size = _
    simp [h1size]
  obtain ⟨hsub, hctx⟩ := (linked_plug ctx _).mp hinv.linked
  obtain ⟨-, htpar, htleft, -, hlL, -⟩ := hsub
  have hptr : ∀ i, i ≠ t → i ≠ h.size → (h2.get i).Left = (h.get i).Left
      ∧ (h2.get i).Right = (h.get i).Right ∧ (h2.get i).Parent = (h.get i).Parent := by
    intro i h1' h2'
    rw [hcell i h1' h2']
    exact ⟨rfl, rfl, rfl⟩
  have hAt : ∀ i ∈ ctxBefore ctx ++ L.ids, i ≠ t := by
    rintro i hi rfl
    exact (List.nodup_append.mp hnd).2.2 hi (by simp)
  have hBt : ∀ i ∈ ctxAfter ctx, i ≠ t := by
    rintro i hi rfl
    exact (List.nodup_cons.mp (List.nodup_append.mp hnd).2.1).1 hi
  have hAB : ∀ i ∈ ctxBefore ctx ++ L.ids, i ∉ ctxAfter ctx := by
    intro i hi hm
    exact (List.nodup_append.mp hnd).2.2 hi (List.mem_cons_of_mem _ hm)
  have hne : ∀ i, i ∈ (ctxBefore ctx ++ L.ids) ++ t :: ctxAfter ctx → i ≠ h.size :=
    fun i hi => Nat.ne_of_lt (hlt i hi)
  refine ⟨⟨?_, ?_, ?_, ?_, ?_⟩, hsize, ?_, by rw [hcelln]; rfl, by rw [hcelln], by rw [hcelln]; rfl⟩
  · -- links
    refine (linked_plug ctx _).mpr ⟨⟨by omega, ?_, ?_, ?_, ?_, ⟨by omega, ?_, ?_, ?_, trivial, trivial⟩⟩, ?_⟩
    · rw [hcellt]; exact htpar
    · rw [hcellt]; exact htleft
    · rw [hcellt]; rfl
    · refine Linked.congr_links (by omega) (fun i hi => ?_) hlL
      exact hptr i (hAt i (by simp [hi])) (hne i (by simp [hi]))
    · rw [hcelln]
    · rw [hcelln]; rfl
    · rw [hcelln]; rfl
    · refine LinkedCtx.congr_ctx (by omega) (fun i hi => ?_) hctx
      have hm : i ∈ (ctxBefore ctx ++ L.ids) ++ t :: ctxAfter ctx := by
        unfold ctxIds at hi
        simp only [List.mem_append, List.mem_cons] at hi ⊢
        tauto
      refine hptr i ?_ (hne i hm)
      rintro rfl
      unfold ctxIds at hi
      rcases List.mem_append.mp hi with hi | hi
      · exact hAt i (by simp [hi]) rfl
      · exact hBt i hi rfl
  · -- values in order
    rw [ids_plug_node]
    have hs := hinv.sorted
    rw [ids_plug_node] at hs
    simp only [Shape.ids_nil, List.nil_append, Shape.ids_node, List.cons_append] at hs ⊢
    have hval : ∀ i, i ≠ h.size → (h2.get i).Value = (h.get i).Value := by
      intro i hi
      by_cases hit : i = t
      · subst hit; rw [hcellt]
      · rw [hcell i hit hi]
    unfold Heap.values at hs ⊢
    simp only [List.map_append, List.map_cons] at hs ⊢
    have hmapA : List.map (fun i => (h2.get i).Value) (ctxBefore ctx ++ L.ids)
        = List.map (fun i => (h.get i).Value) (ctxBefore ctx ++ L.ids) :=
      List.map_congr_left fun i hi => hval i (hne i (by simp at hi ⊢; tauto))
    have hmapB : List.map (fun i => (h2.get i).Value) (ctxAfter ctx)
        = List.map (fun i => (h.get i).Value) (ctxAfter ctx) :=
      List.map_congr_left fun i hi => hval i (hne i (by simp [hi]))
    simp only [List.map_append] at hmapA
    rw [hmapA, hmapB, hval t htn, hcelln]
    simp only [NewHistogramItem]
    rw [List.pairwise_append] at hs ⊢
    obtain ⟨s1, s2, s3⟩ := hs
    rw [List.pairwise_cons] at s2
    refine ⟨s1, ?_, ?_⟩
    · rw [List.pairwise_cons, List.pairwise_cons]
      refine ⟨?_, ⟨?_, s2.2⟩⟩
      · intro x hx
        rcases List.mem_cons.mp hx with rfl | hx
        · exact hv
        · exact s2.1 x hx
      · intro x hx
        obtain ⟨j, hj, rfl⟩ := List.mem_map.mp hx
        exact hafter j hj
    · intro a ha b hb
      rcases List.mem_cons.mp hb with rfl | hb
      · exact s3 a ha _ (List.mem_cons_self _ _)
      · rcases List.mem_cons.mp hb with rfl | hb
        · exact lt_trans (s3 a ha _ (List.mem_cons_self _ _)) hv
        · exact s3 a ha b (List.mem_cons_of_mem _ hb)
  · -- chain
    rw [ids_plug_node]
    simp only [Shape.ids_node, Shape.ids_nil, List.nil_append, List.cons_append]
    refine chain_insert_after hch (fun i hi => ?_) (by rw [hcellt]) (by rw [hcellt])
      (by rw [hcelln]) (by rw [hcelln]; exact htl) (fun b hb => ?_) (fun i hi => ?_)
    · rw [hcell i (hAt i hi) (hne i (by simp at hi ⊢; tauto))]
      have : (h.get t).Larger ≠ some i := by
        rw [htl]
        intro e
        exact hAB i hi (List.mem_of_mem_head? e)
      simp [this]
    · have hm : b ∈ ctxAfter ctx := List.mem_of_mem_head? hb
      rw [hcell b (hBt b hm) (hne b (by simp [hm]))]
      simp [htl, hb]
    · have hm : i ∈ ctxAfter ctx := List.mem_of_mem_tail hi
      rw [hcell i (hBt i hm) (hne i (by simp [hm]))]
      have : (h.get t).Larger ≠ some i := by
        rw [htl]
        intro e
        have hnB : (ctxAfter ctx).Nodup := (List.nodup_cons.mp (List.nodup_append.mp hnd).2.1).2
        cases hB : ctxAfter ctx with
        | nil => simp [hB] at hi
        | cons b B' =>
          rw [hB] at e hi hnB
          simp only [List.head?_cons, Option.some.injEq] at e
          subst e
          exact (List.nodup_cons.mp hnB).1 hi
      simp [this]
  · -- heights
    intro i hi
    rw [ids_plug_node] at hi
    simp only [Shape.ids_node, Shape.ids_nil, List.nil_append, List.cons_append,
      List.mem_append, List.mem_cons] at hi
    have hold : ∀ j, j ∈ (plug ctx (Shape.node L t .nil)).ids → j ≠ t →
        1 ≤ (h2.get j).Height := by
      intro j hj hjt
      rw [hcell j hjt (Nat.ne_of_lt (ids_lt_size hinv.linked j hj))]
      exact hinv.height j hj
    rcases hi with hi | rfl | rfl | hi
    · exact hold i (by rw [ids_plug_node]; simp; tauto) (hAt i (by simp; tauto))
    · rw [hcellt]
      exact hinv.height i (by rw [ids_plug_node]; simp)
    · rw [hcelln]
      simp [NewHistogramItem]
    · exact hold i (by rw [ids_plug_node]; simp; tauto) (hBt i hi)
  · -- multiplicities
    intro i hi
    rw [ids_plug_node] at hi
    simp only [Shape.ids_node, Shape.ids_nil, List.nil_append, List.cons_append,
      List.mem_append, List.mem_cons] at hi
    have hold : ∀ j, j ∈ (plug ctx (Shape.node L t .nil)).ids → j ≠ t →
        1 ≤ (h2.get j).Duplications := by
      intro j hj hjt
      rw [hcell j hjt (Nat.ne_of_lt (ids_lt_size hinv.linked j hj))]
      exact hinv.dups j hj
    rcases hi with hi | rfl | rfl | hi
    · exact hold i (by rw [ids_plug_node]; simp; tauto) (hAt i (by simp; tauto))
    · rw [hcellt]
      exact hinv.dups i (by rw [ids_plug_node]; simp)
    · rw [hcelln]
      exact hc
    · exact hold i (by rw [ids_plug_node]; simp; tauto) (hBt i hi)
  · intro i hi
    by_cases hit : i = t
    · subst hit
      rw [hcellt]
      simp
    · rw [hcell i hit hi]
      simp [hit]

/-- The store after hanging a fresh node `n` holding `v` on the left of `t`. -/
theorem attach_left_inv (h : Heap) (ctx : List Frame) (R : Shape) (t : Nat) (v : ℚ) (c : Int)
    (hinv : TreeInv h (plug ctx (.node .nil t R)))
    (hv : v < (h.get t).Value) (hbefore : ∀ i ∈ ctxBefore ctx, (h.get i).Value < v)
    (hc : 1 ≤ c) :
    let h2 := attachLeft
      (h.alloc { NewHistogramItem v with Duplications := c, Parent := some t }).2 t h.size
    TreeInv h2 (plug ctx (.node (.node .nil h.size .nil) t R))
      ∧ h2.size = h.size + 1
      ∧ (∀ i, i ≠ h.size → (h2.get i).Value = (h.get i).Value
          ∧ (h2.get i).Duplications = (h.get i).Duplications
          ∧ (h2.get i).Count = (h.get i).Count ∧ (h2.get i).Height = (h.get i).Height
          ∧ (h2.get i).Left = (if i = t then some h.size else (h.get i).Left)
          ∧ (h2.get i).Right = (h.get i).Right)
      ∧ (h2.get h.size).Value = v ∧ (h2.get h.size).Duplications = c
      ∧ (h2.get h.size).Count = 1 := by
  intro h2
  have hnd := hinv.nodup
  have hlt := ids_lt_size hinv.linked
  rw [ids_plug_node] at hnd hlt
  simp only [Shape.ids_nil, List.append_nil] at hnd hlt
  have ht : t < h.size := hlt t (by simp)
  have htn : t ≠ h.size := Nat.ne_of_lt ht
  have hch := hinv.chain
  rw [ids_plug_node] at hch
  simp only [Shape.ids_nil, List.append_nil] at hch
  obtain ⟨hts, htl⟩ := chain_smaller_at hch
  set h1 := (h.alloc { NewHistogramItem v with Duplications := c, Parent := some t }).2 with hh1
  have h1get : ∀ i, h1.get i = if i = h.size then
      { NewHistogramItem v with Duplications := c, Parent := some t } else h.get i :=
    fun i => Heap.get_alloc h _ i
  have h1size : h1.size = h.size + 1 := Heap.size_alloc h _
  have h1t : h1.get t = h.get t := by rw [h1get]; simp [htn]
  have hlastmem : ∀ l, (h.get t).Smaller = some l → l ∈ ctxBefore ctx := by
    intro l hl
    rw [hts] at hl
    cases hg : (ctxBefore ctx).getLast? with
    | none => simp [hg] at hl
    | some a =>
      simp only [hg, Option.some.injEq] at hl
      subst hl
      exact List.mem_of_getLast?_eq_some hg
  have hAt : ∀ i ∈ ctxBefore ctx, i ≠ t := by
    rintro i hi rfl
    exact (List.nodup_append.mp hnd).2.2 hi (by simp)
  have hBt : ∀ i ∈ R.ids ++ ctxAfter ctx, i ≠ t := by
    rintro i hi rfl
    exact (List.nodup_cons.mp (List.nodup_append.mp hnd).2.1).1 hi
  have hAB : ∀ i ∈ ctxBefore ctx, i ∉ R.ids ++ ctxAfter ctx := by
    intro i hi hm
    exact (List.nodup_append.mp hnd).2.2 hi (List.mem_cons_of_mem _ hm)
  have hsmaller : ∀ l, (h1.get t).Smaller = some l → l < h1.size ∧ l ≠ t ∧ l ≠ h.size := by
    intro l hl
    rw [h1t] at hl
    have hm := hlastmem l hl
    have hls : l < h.size := hlt l (by simp [hm])
    exact ⟨by omega, hAt l hm, Nat.ne_of_lt hls⟩
  have hget := attachLeft_get h1 t h.size (by omega) (by omega) htn hsmaller
  have hcell : ∀ i, i ≠ t → i ≠ h.size → h2.get i = { h.get i with
      Larger := if (h.get t).Smaller = some i then some h.size else (h.get i).Larger } := by
    intro i h1' h2'
    show (attachLeft h1 t h.size).get i = _
    rw [hget i, h1t]
    simp only [h1', h2', ↓reduceIte, h1get]
    split <;> rfl
  have hcellt : h2.get t = { h.get t with Left := some h.size, Smaller := some h.size } := by
    show (attachLeft h1 t h.size).get t = _
    rw [hget t, h1t]
    simp
  have hcelln : h2.get h.size = { NewHistogramItem v with
      Duplications := c, Parent := some t, Smaller := (h.get t).Smaller, Larger := some t } := by
    show (attachLeft h1 t h.size).get h.size = _
    rw [hget h.size, h1t, h1get]
    simp [htn.symm]
  have hsize : h2.size = h.size + 1 := by
    show (attachLeft h1 t h.size).size = _
    simp [h1size]
  obtain ⟨hsub, hctx⟩ := (linked_plug ctx _).mp hinv.linked
  obtain ⟨-, htpar, -, htright, -, hlR⟩ := hsub
  have hptr : ∀ i, i ≠ t → i ≠ h.size → (h2.get i).Left = (h.get i).Left
      ∧ (h2.get i).Right = (h.get i).Right ∧ (h2.get i).Parent = (h.get i).Parent := by
    intro i h1' h2'
    rw [hcell i h1' h2']
    exact ⟨rfl, rfl, rfl⟩
  have hne : ∀ i, i ∈ ctxBefore ctx ++ t :: (R.ids ++ ctxAfter ctx) → i ≠ h.size :=
    fun i hi => Nat.ne_of_lt (hlt i hi)
  have hids : (plug ctx (Shape.node (Shape.node .nil h.size .nil) t R)).ids
      = ctxBefore ctx ++ h.size :: t :: (R.ids ++ ctxAfter ctx) := by
    rw [ids_plug_node]
    simp
  refine ⟨⟨?_, ?_, ?_, ?_, ?_⟩, hsize, ?_, by rw [hcelln]; rfl, by rw [hcelln], by rw [hcelln]; rfl⟩
  · -- links
    refine (linked_plug ctx _).mpr ⟨⟨by omega, ?_, ?_, ?_, ⟨by omega, ?_, ?_, ?_, trivial, trivial⟩, ?_⟩, ?_⟩
    · rw [hcellt]; exact htpar
    · rw [hcellt]; rfl
    · rw [hcellt]; exact htright
    · rw [hcelln]
    · rw [hcelln]; rfl
    · rw [hcelln]; rfl
    · refine Linked.congr_links (by omega) (fun i hi => ?_) hlR
      exact hptr i (hBt i (by simp [hi])) (hne i (by simp [hi]))
    · refine LinkedCtx.congr_ctx (by omega) (fun i hi => ?_) hctx
      have hm : i ∈ ctxBefore ctx ++ t :: (R.ids ++ ctxAfter ctx) := by
        unfold ctxIds at hi
        simp only [List.mem_append, List.mem_cons] at hi ⊢
        tauto
      refine hptr i ?_ (hne i hm)
      rintro rfl
      unfold ctxIds at hi
      rcases List.mem_append.mp hi with hi | hi
      · exact hAt i hi rfl
      · exact hBt i (by simp [hi]) rfl
  · -- values in order
    rw [ids_plug_node]
    have hs := hinv.sorted
    rw [ids_plug_node] at hs
    simp only [Shape.ids_nil, List.append_nil, List.nil_append, Shape.ids_node,
      List.cons_append, List.append_assoc] at hs ⊢
    have hval : ∀ i, i ≠ h.size → (h2.get i).Value = (h.get i).Value := by
      intro i hi
      by_cases hit : i = t
      · subst hit; rw [hcellt]
      · rw [hcell i hit hi]
    unfold Heap.values at hs ⊢
    simp only [List.map_append, List.map_cons] at hs ⊢
    have hmapA : List.map (fun i => (h2.get i).Value) (ctxBefore ctx)
        = List.map (fun i => (h.get i).Value) (ctxBefore ctx) :=
      List.map_congr_left fun i hi => hval i (hne i (by simp [hi]))
    have hmapB : List.map (fun i => (h2.get i).Value) R.ids
        = List.map (fun i => (h.get i).Value) R.ids :=
      List.map_congr_left fun i hi => hval i (hne i (by simp [hi]))
    have hmapC : List.map (fun i => (h2.get i).Value) (ctxAfter ctx)
        = List.map (fun i => (h.get i).Value) (ctxAfter ctx) :=
      List.map_congr_left fun i hi => hval i (hne i (by simp [hi]))
    rw [hmapA, hmapB, hmapC, hval t htn, hcelln]
    simp only [NewHistogramItem]
    rw [List.pairwise_append] at hs ⊢
    obtain ⟨s1, s2, s3⟩ := hs
    refine ⟨s1, ?_, ?_⟩
    · rw [List.pairwise_cons]
      refine ⟨?_, s2⟩
      intro x hx
      rcases List.mem_cons.mp hx with rfl | hx
      · exact hv
      · exact lt_trans hv ((List.pairwise_cons.mp s2).1 x hx)
    · intro a ha b hb
      rcases List.mem_cons.mp hb with rfl | hb
      · obtain ⟨j, hj, rfl⟩ := List.mem_map.mp ha
        exact hbefore j hj
      · exact s3 a ha b hb
  · -- chain
    rw [hids]
    refine chain_insert_before hch (fun i hi => ?_) hnd (by rw [hcelln]) (by rw [hcelln])
      (by rw [hcellt]) (by rw [hcellt]) (fun i hi => ?_)
    · rw [hcell i (hAt i hi) (hne i (by simp [hi]))]
      refine ⟨rfl, ?_⟩
      simp only
      by_cases hl : (ctxBefore ctx).getLast? = some i
      · rw [if_pos hl, hts, hl]
        simp
      · rw [if_neg hl]
        have : (h.get t).Smaller ≠ some i := by
          rw [hts]
          cases hg : (ctxBefore ctx).getLast? with
          | none => simp
          | some a =>
            simp only [ne_eq, Option.some.injEq]
            rintro rfl
            exact hl hg
        rw [if_neg this]
    · rw [hcell i (hBt i hi) (hne i (by simp at hi ⊢; tauto))]
      have : (h.get t).Smaller ≠ some i := fun e => hAB i (hlastmem i e) hi
      simp [this]
  · -- heights
    intro i hi
    rw [hids] at hi
    simp only [List.mem_append, List.mem_cons] at hi
    have hold : ∀ j, j ∈ (plug ctx (Shape.node .nil t R)).ids → j ≠ t →
        1 ≤ (h2.get j).Height := by
      intro j hj hjt
      rw [hcell j hjt (Nat.ne_of_lt (ids_lt_size hinv.linked j hj))]
      exact hinv.height j hj
    rcases hi with hi | rfl | rfl | hi
    · exact hold i (by rw [ids_plug_node]; simp; tauto) (hAt i hi)
    · rw [hcelln]
      simp [NewHistogramItem]
    · rw [hcellt]
      exact hinv.height i (by rw [ids_plug_node]; simp)
    · exact hold i (by rw [ids_plug_node]; simp; tauto) (hBt i (by simp; tauto))
  · -- multiplicities
    intro i hi
    rw [hids] at hi
    simp only [List.mem_append, List.mem_cons] at hi
    have hold : ∀ j, j ∈ (plug ctx (Shape.node .nil t R)).ids → j ≠ t →
        1 ≤ (h2.get j).Duplications := by
      intro j hj hjt
      rw [hcell j hjt (Nat.ne_of_lt (ids_lt_size hinv.linked j hj))]
      exact hinv.dups j hj
    rcases hi with hi | rfl | rfl | hi
    · exact hold i (by rw [ids_plug_node]; simp; tauto) (hAt i hi)
    · rw [hcelln]
      exact hc
    · rw [hcellt]
      exact hinv.dups i (by rw [ids_plug_node]; simp)
    · exact hold i (by rw [ids_plug_node]; simp; tauto) (hBt i (by simp; tauto))
  · intro i hi
    by_cases hit : i = t
    · subst hit
      rw [hcellt]
      simp
    · rw [hcell i hit hi]
      simp [hit]

end Hist

namespace Hist

/-! ## Insert: counts and heights after the new node -/

theorem nodup_lt_length {l : List Nat} {n : Nat} (hnd : l.Nodup) (hlt : ∀ i ∈ l, i < n) :
    l.length ≤ n := by
  have hsub : l ⊆ List.range n := fun i hi => List.mem_range.mpr (hlt i hi)
  have := (List.subperm_of_subset hnd hsub).length_le
  simpa using this

theorem TreeInv.length_le {h : Heap} {T : Shape} (hinv : TreeInv h T) :
    T.ids.length ≤ h.size :=
  nodup_lt_length hinv.nodup (ids_lt_size hinv.linked)

theorem ctx_length_le (ctx : List Frame) (S : Shape) :
    ctx.length ≤ (plug ctx S).ids.length := by
  induction ctx generalizing S with
  | nil => simp
  | cons f fs ih =>
    have := ih (f.wrap S)
    simp only [plug, List.length_cons]
    have h2 : (plug fs (f.wrap S)).ids.length = (plug fs S).ids.length + 1 + f.sib.ids.length := by
      rw [ids_plug, ids_plug, ids_wrap]
      cases f.isLeft <;> simp <;> omega
    have h3 := ih S
    omega

theorem TreeInv.ctx_lt_budget {h : Heap} {ctx : List Frame} {S : Shape}
    (hinv : TreeInv h (plug ctx S)) : ctx.length < h.budget := by
  have := hinv.length_le
  have := ctx_length_le ctx S
  unfold Heap.budget
  omega

/-- The invariant does not look at counts. -/
theorem TreeInv.congr_count {h h' : Heap} {T : Shape} (hs : h'.size = h.size)
    (hc : ∀ i, (h'.get i).Value = (h.get i).Value ∧ (h'.get i).Left = (h.get i).Left
      ∧ (h'.get i).Right = (h.get i).Right ∧ (h'.get i).Parent = (h.get i).Parent
      ∧ (h'.get i).Smaller = (h.get i).Smaller ∧ (h'.get i).Larger = (h.get i).Larger)
    (hh : ∀ i ∈ T.ids, 1 ≤ (h.get i).Height → 1 ≤ (h'.get i).Height)
    (hd : ∀ i ∈ T.ids, 1 ≤ (h.get i).Duplications → 1 ≤ (h'.get i).Duplications)
    (hinv : TreeInv h T) : TreeInv h' T where
  linked := Linked.congr_links (by omega) (fun i _ => ⟨(hc i).2.1, (hc i).2.2.1, (hc i).2.2.2.1⟩)
    hinv.linked
  sorted := by
    have : h'.values T.ids = h.values T.ids :=
      List.map_congr_left fun i _ => (hc i).1
    rw [this]
    exact hinv.sorted
  chain := Chain.congr_chain (fun i _ => ⟨(hc i).2.2.2.2.1, (hc i).2.2.2.2.2⟩) hinv.chain
  height := fun i hi => hh i hi (hinv.height i hi)
  dups := fun i hi => hd i hi (hinv.dups i hi)

theorem nodup_path_of_inv {h : Heap} {ctx : List Frame} {S : Shape}
    (hinv : TreeInv h (plug ctx S)) : (pathIds ctx).Nodup :=
  nodup_pathIds (nodup_plug hinv.nodup).2.1

/-- The count walk of `Insert` after the new node `n` hangs under the frame `f`. -/
theorem insert_counts (h2 : Heap) (f : Frame) (ctx : List Frame) (n : Nat) (c : Int)
    (hinv : TreeInv h2 (plug (f :: ctx) (.node .nil n .nil))) :
    ∃ h3, addCountUp c h2.budget h2 (some f.id) = .ok h3
      ∧ TreeInv h3 (plug (f :: ctx) (.node .nil n .nil)) ∧ h3.size = h2.size
      ∧ (∀ i, h3.get i = if i ∈ pathIds (f :: ctx) then
          { h2.get i with Count := (h2.get i).Count + c } else h2.get i) := by
  obtain ⟨h3, he, hs, hg⟩ := addCountUp_ctx c (f :: ctx) (some n) h2 h2.budget
    hinv.ctx_lt_budget (linkedCtx_of_plug hinv.linked) (nodup_path_of_inv hinv)
  refine ⟨h3, he, ?_, hs, hg⟩
  refine TreeInv.congr_count hs (fun i => ?_) (fun i _ hi => ?_) (fun i _ hi => ?_) hinv
  · rw [hg i]
    split <;> simp
  · rw [hg i]
    split <;> simpa using hi
  · rw [hg i]
    split <;> simpa using hi

theorem frame_id_fresh {f : Frame} {ctx : List Frame} {S : Shape}
    (hnd : (plug (f :: ctx) S).ids.Nodup) :
    f.id ∉ S.ids ∧ f.id ∉ f.sib.ids ∧ f.id ∉ ctxIds ctx := by
  obtain ⟨-, h2, h3⟩ := nodup_plug hnd
  have h4 := (ctxIds_cons_perm f ctx).nodup_iff.mp h2
  rw [List.nodup_cons] at h4
  refine ⟨fun hm => h3 _ hm (mem_ctxIds_cons.mpr (Or.inl rfl)), fun hm => h4.1 ?_,
    fun hm => h4.1 ?_⟩
  · exact List.mem_append_left _ hm
  · exact List.mem_append_right _ hm

/-- The height walk of `Insert` from the parent `f.id` of the new node. -/
theorem insert_rebalance (h3 : Heap) (f : Frame) (ctx : List Frame) (S : Shape)
    (hinv : TreeInv h3 (plug (f :: ctx) S)) :
    ∃ h5 T', UpdateHeight (h3.modify f.id fun n => { n with Height := n.Height + 1 })
        (some f.id) true = .ok (T'.root, h5)
      ∧ StepOK h3 h5 [] (plug (f :: ctx) S) T' ∧ T'.root ≠ none
      ∧ (TallBelow h3 (f.wrap S) → (∀ g ∈ ctx, Tall h3 g.sib) → Tall h5 T') := by
  set h4 := h3.modify f.id fun n => { n with Height := n.Height + 1 } with hh4
  have hg : ∀ i, h4.get i = if i = f.id ∧ f.id < h3.size then
      { h3.get i with Height := (h3.get i).Height + 1 } else h3.get i := by
    intro i
    rw [hh4, Heap.get_modify]
    split
    · rename_i hc
      rw [hc.1]
    · rfl
  have hinv4 : TreeInv h4 (plug (f :: ctx) S) := by
    refine TreeInv.congr_count (by simp [hh4]) (fun i => ?_) (fun i _ hi => ?_)
      (fun i _ hi => ?_) hinv
    · rw [hg i]
      split <;> simp
    · rw [hg i]
      split
      · simp only
        omega
      · exact hi
    · rw [hg i]
      split <;> simpa using hi
  have hstep0 : StepOK h3 h4 [] (plug (f :: ctx) S) (plug (f :: ctx) S) := by
    refine ⟨hinv4.linked, rfl, ⟨by simp [hh4], fun i => ?_⟩, fun i hi => ?_, fun _ => hinv4.height,
      fun hc => ⟨Counted.congr_counts (fun i _ => ?_) hc, ?_⟩⟩
    · rw [hg i]
      split <;> simp
    · have hif : i ≠ f.id := by
        rintro rfl
        apply hi
        rw [ids_plug]
        simp only [List.mem_append]
        have := @mem_ctxIds_cons f ctx f.id
        have hm : f.id ∈ ctxIds (f :: ctx) := this.mpr (Or.inl rfl)
        unfold ctxIds at hm
        rcases List.mem_append.mp hm with hm | hm
        · exact Or.inl (Or.inl hm)
        · exact Or.inr hm
      rw [hg i]
      simp [hif]
    · rw [hg i]
      split <;> simp
    · have : ∀ p : Ptr, cnt h4 p = cnt h3 p := by
        intro p
        cases p with
        | none => rfl
        | some j =>
          simp only [cnt]
          rw [hg j]
          split <;> simp
      exact this _
  obtain ⟨h5, T', he, hs, hne, ht⟩ := updateHeightLoop_spec true ctx (f.wrap S) f.id h4
    (some f.id) h4.budget (by
      have := hinv4.ctx_lt_budget
      simp at this
      omega) (root_wrap f S) hinv4.linked hinv4.nodup hinv4.height
  refine ⟨h5, T', he, hstep0.trans_step hs, hne, fun tb hsib => ?_⟩
  obtain ⟨f1, f2, f3⟩ := frame_id_fresh hinv.nodup
  have hcong : ∀ X : Shape, f.id ∉ X.ids → Tall h3 X → Tall h4 X :=
    fun X hX => Tall.congr_heights fun i hi => by
      rw [hg i]
      have : i ≠ f.id := fun e => hX (e ▸ hi)
      simp [this]
  obtain ⟨tS, tsib⟩ := tallBelow_wrap.mp tb
  exact ht (tallBelow_wrap.mpr ⟨hcong S f1 tS, hcong f.sib f2 tsib⟩)
    (fun g hg => hcong g.sib (fun hm => f3 (sib_mem_ctxIds hg hm)) (hsib g hg))

end Hist

namespace Hist

/-! ## Insert -/

theorem sorted_node {h : Heap} {ctx : List Frame} {L R : Shape} {t : Nat}
    (hinv : TreeInv h (plug ctx (.node L t R))) :
    (∀ i ∈ ctxBefore ctx ++ L.ids, (h.get i).Value < (h.get t).Value)
      ∧ (∀ i ∈ R.ids ++ ctxAfter ctx, (h.get t).Value < (h.get i).Value) := by
  have hs := hinv.sorted
  rw [ids_plug_node] at hs
  unfold Heap.values at hs
  rw [List.map_append, List.map_cons, List.pairwise_append, List.pairwise_cons] at hs
  obtain ⟨-, ⟨s2, -⟩, s3⟩ := hs
  exact ⟨fun i hi => s3 _ (List.mem_map.mpr ⟨i, hi, rfl⟩) _ (List.mem_cons_self _ _),
    fun i hi => s2 _ (List.mem_map.mpr ⟨i, hi, rfl⟩)⟩

theorem root_plug_congr {ctx : List Frame} {S S' : Shape} (hr : S.root = S'.root) :
    (plug ctx S).root = (plug ctx S').root := by
  induction ctx generalizing S S' with
  | nil => exact hr
  | cons f fs ih =>
    simp only [plug]
    exact ih (by simp)

theorem mem_ids_plug_node {ctx : List Frame} {L R : Shape} {t i : Nat} :
    i ∈ (plug ctx (.node L t R)).ids ↔
      i ∈ ctxBefore ctx ∨ i ∈ L.ids ∨ i = t ∨ i ∈ R.ids ∨ i ∈ ctxAfter ctx := by
  rw [ids_plug_node]
  simp only [List.mem_append, List.mem_cons]
  tauto

theorem dupSum_update {h h' : Heap} {A B : List Nat} {t : Nat} {d : Int}
    (hnd : (A ++ t :: B).Nodup)
    (ht : (h'.get t).Duplications = (h.get t).Duplications + d)
    (ho : ∀ i ∈ A ++ B, (h'.get i).Duplications = (h.get i).Duplications) :
    dupSum h' (A ++ t :: B) = dupSum h (A ++ t :: B) + d := by
  simp only [dupSum_append, dupSum_cons, ht]
  rw [@dupSum_congr h h' A (fun i hi => ho i (by simp [hi])),
    @dupSum_congr h h' B (fun i hi => ho i (by simp [hi]))]
  ring

/-- `Insert` at a node that holds the value already. -/
theorem Insert_existing (h : Heap) (ctx : List Frame) (L R : Shape) (t : Nat) (c : Int)
    (hc : 1 ≤ (h.get t).Duplications + c) (hinv : TreeInv h (plug ctx (.node L t R))) :
    ∃ h2, addCountUp c h.budget
        (h.modify t fun n =>
          { n with Duplications := n.Duplications + c, Count := n.Count + c })
        (ctxParent ctx) = .ok h2
      ∧ InsertPost h h2 (plug ctx (.node L t R)) (plug ctx (.node L t R))
          (h.get t).Value c t none := by
  set h1 := h.modify t fun n =>
    { n with Duplications := n.Duplications + c, Count := n.Count + c } with hh1
  have hnd := hinv.nodup
  have hlt := ids_lt_size hinv.linked
  have ht : t < h.size := hlt t (mem_ids_plug_node.mpr (by simp))
  have hg1 : ∀ i, h1.get i = if i = t then
      { h.get t with Duplications := (h.get t).Duplications + c, Count := (h.get t).Count + c }
      else h.get i := by
    intro i
    rw [hh1, Heap.get_modify]
    simp [ht]
  have hs1 : h1.size = h.size := by simp [hh1]
  have hctx : LinkedCtx h ctx (some t) := linkedCtx_of_plug hinv.linked
  have hctx1 : LinkedCtx h1 ctx (some t) := LinkedCtx.congr_ctx (by omega) (fun i _ => by
    rw [hg1 i]
    split
    · rename_i hc'
      rw [hc']
      exact ⟨rfl, rfl, rfl⟩
    · exact ⟨rfl, rfl, rfl⟩) hctx
  obtain ⟨h2, he, hs2, hg2⟩ := addCountUp_ctx c ctx (some t) h1 h.budget
    hinv.ctx_lt_budget hctx1 (nodup_path_of_inv hinv)
  obtain ⟨hndS, hndC, hdisj⟩ := nodup_plug hnd
  have htpath : t ∉ pathIds ctx := fun hm =>
    hdisj t (by simp) (pathIds_subset ctx t hm)
  have hcell : ∀ i, h2.get i =
      if i = t then
        { h.get t with Duplications := (h.get t).Duplications + c, Count := (h.get t).Count + c }
      else if i ∈ pathIds ctx then { h.get i with Count := (h.get i).Count + c }
      else h.get i := by
    intro i
    rw [hg2 i]
    by_cases hit : i = t
    · subst hit
      simp [htpath, hg1]
    · simp [hit, hg1]
  refine ⟨h2, he, ⟨?_, rfl, by omega, ?_, fun i _ => ?_, Or.inl ⟨mem_ids_plug_node.mpr (by simp),
    rfl, ?_⟩, fun hcn _ => ?_⟩⟩
  · refine TreeInv.congr_count (by omega) (fun i => ?_) (fun i _ hi => ?_) (fun i _ hi => ?_) hinv
    · rw [hcell i]
      split
      · rename_i e
        subst e
        simp
      · split <;> simp
    · rw [hcell i]
      split
      · rename_i e
        subst e
        simpa using hi
      · split <;> simpa using hi
    · rw [hcell i]
      split
      · rename_i e
        subst e
        simp only
        omega
      · split <;> simpa using hi
  · rw [hcell t]
    simp
  · rw [hcell i]
    split
    · rename_i e
      subst e
      simp
    · split <;> simp
  · rw [hcell t]
    simp
  · -- counts
    obtain ⟨hcS, hcC⟩ := (counted_plug ctx _).mp hcn
    obtain ⟨hct, hcL, hcR⟩ := hcS
    simp only [Shape.ids_node] at hndS hdisj
    have htL : t ∉ L.ids := fun hm => (List.nodup_append.mp hndS).2.2 hm (by simp)
    have htR : t ∉ R.ids := (List.nodup_cons.mp (List.nodup_append.mp hndS).2.1).1
    have hsame : ∀ i, i ≠ t → i ∉ pathIds ctx → h2.get i = h.get i := by
      intro i h1' h2'
      rw [hcell i]
      simp [h1', h2']
    have hsub : ∀ X : Shape, (∀ i ∈ X.ids, i ∈ L.ids ++ t :: R.ids) → t ∉ X.ids →
        Counted h X → Counted h2 X := by
      intro X hX htX
      refine Counted.congr_counts fun i hi => ?_
      rw [hsame i (fun e => htX (e ▸ hi)) (fun hm => hdisj i (hX i hi) (pathIds_subset ctx i hm))]
      exact ⟨rfl, rfl⟩
    have hsum : dupSum h2 (L.ids ++ t :: R.ids) = dupSum h (L.ids ++ t :: R.ids) + c := by
      refine dupSum_update hndS (by rw [hcell t]; simp) (fun i hi => ?_)
      have hit : i ≠ t := by
        rintro rfl
        rcases List.mem_append.mp hi with hi | hi
        · exact htL hi
        · exact htR hi
      rw [hcell i]
      simp only [hit, ↓reduceIte]
      split <;> rfl
    refine (counted_plug ctx _).mpr ⟨⟨?_, hsub L (by simp; tauto) htL hcL,
      hsub R (by simp; tauto) htR hcR⟩, ?_⟩
    · rw [hsum, ← hct, hcell t]
      simp
    · simp only [Shape.ids_node]
      rw [hsum]
      refine CountedCtx.shift c hndC (fun i hi => ?_) hcC
      have hit : i ≠ t := by
        rintro rfl
        exact hdisj i (by simp) hi
      rw [hcell i]
      simp only [hit, ↓reduceIte]
      split <;> simp

end Hist

namespace Hist

/-- What `Insert` achieved stays true through a height walk. -/
theorem InsertPost.step {h h3 h5 : Heap} {T T1 T' : Shape} {v : ℚ} {c : Int} {n : Nat}
    {nr : Ptr} (hp : InsertPost h h3 T T1 v c n nr) (hs : StepOK h3 h5 [] T1 T')
    (hne : T'.root ≠ none) : InsertPost h h5 T T' v c n T'.root where
  inv := hp.inv.of_step hs
  root := by
    cases hr : T'.root with
    | none => exact absurd hr hne
    | some r => rfl
  size_le := by
    have := hs.same.1
    have := hp.size_le
    omega
  value := by rw [(hs.same.2 n).1, hp.value]
  old := fun i hi => by
    rw [(hs.same.2 i).1, (hs.same.2 i).2.1]
    exact hp.old i hi
  ids := by
    rw [hs.ids, (hs.same.2 n).2.1]
    exact hp.ids
  counted := fun hc hcase => (hs.counted (hp.counted hc hcase)).1

theorem Insert_attach_right (h : Heap) (ctx : List Frame) (L : Shape) (t : Nat) (v : ℚ)
    (c : Int) (hc : 1 ≤ c) (hinv : TreeInv h (plug ctx (.node L t .nil)))
    (hv : (h.get t).Value < v) (hafter : ∀ i ∈ ctxAfter ctx, v < (h.get i).Value) :
    ∃ h3, addCountUp c
        (attachRight (h.alloc { NewHistogramItem v with Duplications := c, Parent := some t }).2
          t h.size).budget
        (attachRight (h.alloc { NewHistogramItem v with Duplications := c, Parent := some t }).2
          t h.size) (some t) = .ok h3
      ∧ InsertPost h h3 (plug ctx (.node L t .nil))
          (plug ctx (.node L t (.node .nil h.size .nil))) v c h.size none
      ∧ (h3.get t).Left = L.root ∧ (h3.get t).Right = some h.size
      ∧ (h3.get t).Value = (h.get t).Value := by
  obtain ⟨hinv2, hsize2, hold2, hval2, hdup2, hcnt2⟩ := attach_right_inv h ctx L t v c hinv hv hafter hc
  set h2 := attachRight
    (h.alloc { NewHistogramItem v with Duplications := c, Parent := some t }).2 t h.size
  have hinv2' : TreeInv h2 (plug (⟨false, t, L⟩ :: ctx) (.node .nil h.size .nil)) := by
    simpa [plug, Frame.wrap] using hinv2
  obtain ⟨h3, he, hinv3, hsize3, hg3⟩ := insert_counts h2 ⟨false, t, L⟩ ctx h.size c hinv2'
  have hlt := ids_lt_size hinv.linked
  have hnT : h.size ∉ (plug ctx (Shape.node L t .nil)).ids := fun hm =>
    absurd (hlt _ hm) (lt_irrefl _)
  have hnpath : h.size ∉ pathIds (⟨false, t, L⟩ :: ctx) := by
    intro hm
    have h1 := pathIds_subset _ _ hm
    apply hnT
    rw [ids_plug]
    unfold ctxIds at h1
    simp only [ctxBefore, ctxAfter, Bool.false_eq_true, ↓reduceIte, List.nil_append,
      List.mem_append, List.mem_singleton] at h1
    simp only [Shape.ids_node, Shape.ids_nil, List.append_nil, List.mem_append, List.mem_cons,
      List.nil_append]
    tauto
  obtain ⟨hsn, hsbig⟩ := sorted_node hinv
  have ht : t < h.size := hlt t (mem_ids_plug_node.mpr (by simp))
  have htn : t ≠ h.size := Nat.ne_of_lt ht
  have hfield : ∀ i, (h3.get i).Value = (h2.get i).Value
      ∧ (h3.get i).Duplications = (h2.get i).Duplications
      ∧ (h3.get i).Left = (h2.get i).Left ∧ (h3.get i).Right = (h2.get i).Right := by
    intro i
    rw [hg3 i]
    split <;> simp
  refine ⟨h3, he, ⟨by simpa [plug, Frame.wrap] using hinv3, root_plug_congr rfl, by omega, ?_,
    fun i hi => ?_, Or.inr ⟨hnT, fun i hi => ?_, ?_, ctxBefore ctx ++ L.ids ++ [t], ctxAfter ctx,
      ?_, ?_⟩, fun hcn hcase => ?_⟩, ?_, ?_, ?_⟩
  · rw [(hfield _).1, hval2]
  · have hi' : i ≠ h.size := fun e => hnT (e ▸ hi)
    rw [(hfield i).1, (hfield i).2.1, (hold2 i hi').1, (hold2 i hi').2.1]
    exact ⟨rfl, fun _ => rfl⟩
  · rcases mem_ids_plug_node.mp hi with hi | hi | rfl | hi | hi
    · exact ne_of_lt (lt_trans (hsn i (by simp [hi])) hv)
    · exact ne_of_lt (lt_trans (hsn i (by simp [hi])) hv)
    · exact ne_of_lt hv
    · simp at hi
    · exact ne_of_gt (hafter i hi)
  · rw [(hfield _).2.1, hdup2]
  · rw [ids_plug_node]
    simp
  · rw [ids_plug_node]
    simp
  · -- counts
    have hc1 : c = 1 := by
      rcases hcase with hm | hc1
      · exact absurd hm hnT
      · exact hc1
    have hcn' : Counted h (plug (⟨false, t, L⟩ :: ctx) .nil) := by
      simpa [plug, Frame.wrap] using hcn
    obtain ⟨-, hcC⟩ := (counted_plug _ _).mp hcn'
    have hndC := (nodup_plug hinv2'.nodup).2.1
    have hdisj := (nodup_plug hinv2'.nodup).2.2
    have goal : Counted h3 (plug (⟨false, t, L⟩ :: ctx) (.node .nil h.size .nil)) := by
      refine (counted_plug _ _).mpr ⟨⟨?_, trivial, trivial⟩, ?_⟩
      · simp only [Shape.ids_nil, List.nil_append, dupSum_cons, dupSum_nil, add_zero]
        rw [(hfield _).2.1, hdup2, hg3 h.size]
        simp only [hnpath, ↓reduceIte, hcnt2, hc1]
      · have hs : dupSum h3 (Shape.node .nil h.size .nil).ids = 0 + c := by
          simp only [Shape.ids_node, Shape.ids_nil, List.nil_append, dupSum_cons, dupSum_nil,
            add_zero, zero_add]
          rw [(hfield _).2.1, hdup2]
        rw [hs]
        refine CountedCtx.shift c hndC (fun i hi => ?_) (by simpa using hcC)
        have hi' : i ≠ h.size := by
          rintro rfl
          exact hdisj _ (by simp) hi
        rw [hg3 i]
        split
        · simp [(hold2 i hi').2.1, (hold2 i hi').2.2.1]
        · simp [(hold2 i hi').2.1, (hold2 i hi').2.2.1]
    simpa [plug, Frame.wrap] using goal
  · rw [(hfield t).2.2.1, (hold2 t htn).2.2.2.2.1]
    exact ((linked_plug ctx _).mp hinv.linked).1.2.2.1
  · rw [(hfield t).2.2.2, (hold2 t htn).2.2.2.2.2]
    simp
  · rw [(hfield t).1, (hold2 t htn).1]

theorem Insert_attach_left (h : Heap) (ctx : List Frame) (R : Shape) (t : Nat) (v : ℚ)
    (c : Int) (hc : 1 ≤ c) (hinv : TreeInv h (plug ctx (.node .nil t R)))
    (hv : v < (h.get t).Value) (hbefore : ∀ i ∈ ctxBefore ctx, (h.get i).Value < v) :
    ∃ h3, addCountUp c
        (attachLeft (h.alloc { NewHistogramItem v with Duplications := c, Parent := some t }).2
          t h.size).budget
        (attachLeft (h.alloc { NewHistogramItem v with Duplications := c, Parent := some t }).2
          t h.size) (some t) = .ok h3
      ∧ InsertPost h h3 (plug ctx (.node .nil t R))
          (plug ctx (.node (.node .nil h.size .nil) t R)) v c h.size none
      ∧ (h3.get t).Left = some h.size ∧ (h3.get t).Right = R.root
      ∧ (h3.get t).Value = (h.get t).Value := by
  obtain ⟨hinv2, hsize2, hold2, hval2, hdup2, hcnt2⟩ := attach_left_inv h ctx R t v c hinv hv hbefore hc
  set h2 := attachLeft
    (h.alloc { NewHistogramItem v with Duplications := c, Parent := some t }).2 t h.size
  have hinv2' : TreeInv h2 (plug (⟨true, t, R⟩ :: ctx) (.node .nil h.size .nil)) := by
    simpa [plug, Frame.wrap] using hinv2
  obtain ⟨h3, he, hinv3, hsize3, hg3⟩ := insert_counts h2 ⟨true, t, R⟩ ctx h.size c hinv2'
  have hlt := ids_lt_size hinv.linked
  have hnT : h.size ∉ (plug ctx (Shape.node .nil t R)).ids := fun hm =>
    absurd (hlt _ hm) (lt_irrefl _)
  have hnpath : h.size ∉ pathIds (⟨true, t, R⟩ :: ctx) := by
    intro hm
    have h1 := pathIds_subset _ _ hm
    apply hnT
    rw [ids_plug]
    unfold ctxIds at h1
    simp only [ctxBefore, ctxAfter, ↓reduceIte, List.append_nil,
      List.mem_append, List.mem_cons] at h1
    simp only [Shape.ids_node, Shape.ids_nil, List.append_nil, List.mem_append, List.mem_cons,
      List.nil_append]
    tauto
  obtain ⟨hsn, hsbig⟩ := sorted_node hinv
  have ht : t < h.size := hlt t (mem_ids_plug_node.mpr (by simp))
  have htn : t ≠ h.size := Nat.ne_of_lt ht
  have hfield : ∀ i, (h3.get i).Value = (h2.get i).Value
      ∧ (h3.get i).Duplications = (h2.get i).Duplications
      ∧ (h3.get i).Left = (h2.get i).Left ∧ (h3.get i).Right = (h2.get i).Right := by
    intro i
    rw [hg3 i]
    split <;> simp
  refine ⟨h3, he, ⟨by simpa [plug, Frame.wrap] using hinv3, root_plug_congr rfl, by omega, ?_,
    fun i hi => ?_, Or.inr ⟨hnT, fun i hi => ?_, ?_, ctxBefore ctx, t :: (R.ids ++ ctxAfter ctx),
      ?_, ?_⟩, fun hcn hcase => ?_⟩, ?_, ?_, ?_⟩
  · rw [(hfield _).1, hval2]
  · have hi' : i ≠ h.size := fun e => hnT (e ▸ hi)
    rw [(hfield i).1, (hfield i).2.1, (hold2 i hi').1, (hold2 i hi').2.1]
    exact ⟨rfl, fun _ => rfl⟩
  · rcases mem_ids_plug_node.mp hi with hi | hi | rfl | hi | hi
    · exact ne_of_lt (hbefore i hi)
    · simp at hi
    · exact ne_of_gt hv
    · exact ne_of_gt (lt_trans hv (hsbig i (by simp [hi])))
    · exact ne_of_gt (lt_trans hv (hsbig i (by simp [hi])))
  · rw [(hfield _).2.1, hdup2]
  · rw [ids_plug_node]
    simp
  · rw [ids_plug_node]
    simp
  · -- counts
    have hc1 : c = 1 := by
      rcases hcase with hm | hc1
      · exact absurd hm hnT
      · exact hc1
    have hcn' : Counted h (plug (⟨true, t, R⟩ :: ctx) .nil) := by
      simpa [plug, Frame.wrap] using hcn
    obtain ⟨-, hcC⟩ := (counted_plug _ _).mp hcn'
    have hndC := (nodup_plug hinv2'.nodup).2.1
    have hdisj := (nodup_plug hinv2'.nodup).2.2
    have goal : Counted h3 (plug (⟨true, t, R⟩ :: ctx) (.node .nil h.size .nil)) := by
      refine (counted_plug _ _).mpr ⟨⟨?_, trivial, trivial⟩, ?_⟩
      · simp only [Shape.ids_nil, List.nil_append, dupSum_cons, dupSum_nil, add_zero]
        rw [(hfield _).2.1, hdup2, hg3 h.size]
        simp only [hnpath, ↓reduceIte, hcnt2, hc1]
      · have hs : dupSum h3 (Shape.node .nil h.size .nil).ids = 0 + c := by
          simp only [Shape.ids_node, Shape.ids_nil, List.nil_append, dupSum_cons, dupSum_nil,
            add_zero, zero_add]
          rw [(hfield _).2.1, hdup2]
        rw [hs]
        refine CountedCtx.shift c hndC (fun i hi => ?_) (by simpa using hcC)
        have hi' : i ≠ h.size := by
          rintro rfl
          exact hdisj _ (by simp) hi
        rw [hg3 i]
        split
        · simp [(hold2 i hi').2.1, (hold2 i hi').2.2.1]
        · simp [(hold2 i hi').2.1, (hold2 i hi').2.2.1]
    simpa [plug, Frame.wrap] using goal
  · rw [(hfield t).2.2.1, (hold2 t htn).2.2.2.2.1]
    simp
  · rw [(hfield t).2.2.2, (hold2 t htn).2.2.2.2.2]
    exact ((linked_plug ctx _).mp hinv.linked).1.2.2.2.1
  · rw [(hfield t).1, (hold2 t htn).1]

end Hist

namespace Hist

theorem Heap.alloc_eq (h : Heap) (x : HistogramItem) :
    h.alloc x = (h.size, (h.alloc x).2) := rfl

theorem Heap.get_alloc_lt (h : Heap) (x : HistogramItem) {t : Nat} (ht : t < h.size) :
    (h.alloc x).2.get t = h.get t := by
  rw [Heap.get_alloc]
  simp [Nat.ne_of_lt ht]

theorem Insert_aux (v : ℚ) (c : Int) (hc : 1 ≤ c) : ∀ (fuel : Nat) (h : Heap)
    (ctx : List Frame) (S : Shape) (t : Nat),
    S.root = some t → S.ids.length < fuel → TreeInv h (plug ctx S) →
    (∀ i ∈ ctxBefore ctx, (h.get i).Value < v) → (∀ i ∈ ctxAfter ctx, v < (h.get i).Value) →
    ∃ item newRoot h' T', Insert fuel h t v c = .ok (item, newRoot, h')
      ∧ InsertPost h h' (plug ctx S) T' v c item newRoot
      ∧ (Tall h (plug ctx S) → Tall h' T')
  | 0, _, _, _, _, _, hf, _, _, _ => by omega
  | k + 1, h, ctx, S, t, hr, hf, hinv, hb, ha => by
    obtain ⟨L, R, rfl⟩ := root_some_eq_node hr
    obtain ⟨hsub, hctx⟩ := (linked_plug ctx _).mp hinv.linked
    obtain ⟨ht, htpar, htl, htr, hlL, hlR⟩ := hsub
    obtain ⟨hsn, hsbig⟩ := sorted_node hinv
    have hlt := ids_lt_size hinv.linked
    have hctxlt : ∀ i ∈ ctxIds ctx, i < h.size := fun i hi => hlt i (by
      rw [ids_plug]
      unfold ctxIds at hi
      simp only [List.mem_append] at hi ⊢
      tauto)
    have hsublt : ∀ (X : Shape), (∀ i ∈ X.ids, i ∈ (Shape.node L t R).ids) →
        ∀ i ∈ X.ids, i < h.size := fun X hX i hi => hlt i (by
      rw [ids_plug]
      simp only [List.mem_append]
      exact Or.inl (Or.inr (hX i hi)))
    unfold Insert
    by_cases hveq : v = (h.get t).Value
    · rw [if_pos hveq]
      obtain ⟨h2, he, hpost⟩ := Insert_existing h ctx L R t c
        (by have := hinv.dups t (mem_ids_plug_node.mpr (by simp)); omega) hinv
      refine ⟨t, none, h2, _, ?_, hveq ▸ hpost,
        fun tT => Tall.congr_heights (fun i _ => ?_) tT⟩
      · have hpar : ((h.modify t fun n =>
            { n with Duplications := n.Duplications + c, Count := n.Count + c }).get t).Parent
            = ctxParent ctx := by
          rw [Heap.get_modify_self _ _ _ ht]
          exact htpar
        simp only [Heap.budget_modify, hpar, he, bind, Except.bind, pure, Except.pure]
      · rw [addCountUp_Height c _ _ _ _ he i]
        exact Heap.height_modify _ _ _ _ (fun _ => rfl)
    · rw [if_neg hveq]
      by_cases hlt' : v < (h.get t).Value
      · have hngt : ¬ v > (h.get t).Value := not_lt.mpr (le_of_lt hlt')
        by_cases hL : L = .nil
        · subst hL
          have hcond : ((h.get t).Left = none ∧ v < (h.get t).Value)
              ∨ ((h.get t).Right = none ∧ v > (h.get t).Value) := Or.inl ⟨htl, hlt'⟩
          rw [if_pos hcond]
          obtain ⟨h3, he, hpost, hl3, hr3, hv3⟩ :=
            Insert_attach_left h ctx R t v c hc hinv hlt' hb
          have hH3 : ∀ i, (h3.get i).Height
              = ((h.alloc { NewHistogramItem v with Duplications := c, Parent := some t }).2.get
                  i).Height :=
            fun i => (addCountUp_Height c _ _ _ _ he i).trans (attachLeft_Height _ _ _ i)
          have hHold : ∀ i, i < h.size → (h3.get i).Height = (h.get i).Height := fun i hi => by
            rw [hH3 i, Heap.get_alloc_lt h _ hi]
          have hHnew : (h3.get h.size).Height = 1 := by
            rw [hH3, Heap.get_alloc, if_pos rfl]
            rfl
          have hcongT : ∀ X : Shape, (∀ i ∈ X.ids, i < h.size) → Tall h X → Tall h3 X :=
            fun X hX => Tall.congr_heights fun i hi => hHold i (hX i hi)
          have hleaf : Tall h3 (.node .nil h.size .nil) := ⟨hHnew, trivial, trivial⟩
          rw [Heap.alloc_eq]
          simp only [Heap.get_alloc_lt h _ ht, hngt, ↓reduceIte, he, bind, Except.bind,
            hl3, hr3, hv3, reduceCtorEq, false_and, false_or, hlt', and_true]
          by_cases hR : R = .nil
          · subst hR
            simp only [Shape.root_nil, ↓reduceIte]
            obtain ⟨h5, T', he5, hs5, hne5, ht5⟩ := insert_rebalance h3 ⟨true, t, .nil⟩ ctx
              (.node .nil h.size .nil) (by simpa [plug, Frame.wrap] using hpost.inv)
            simp only [he5]
            exact ⟨h.size, T'.root, h5, T', rfl,
              hpost.step (by simpa [plug, Frame.wrap] using hs5) hne5,
              fun tT => ht5 (tallBelow_wrap.mpr ⟨hleaf, trivial⟩) (fun g hg =>
                hcongT g.sib (fun i hi => hctxlt i (sib_mem_ctxIds hg hi))
                  ((tall_plug tT).2 g hg))⟩
          · have hRr : R.root ≠ none := fun e => hR (Shape.root_eq_none.mp e)
            simp only [hRr, ↓reduceIte]
            refine ⟨h.size, none, h3, _, rfl, hpost, fun tT => ?_⟩
            obtain ⟨t1, t2⟩ := tall_plug_iff.mp tT
            have hR1 := height_pos_of_ne_nil hR
            have hhe : (Shape.node (.node .nil h.size .nil) t R).height
                = (Shape.node .nil t R).height := by
              show max (max 0 0 + 1) R.height + 1 = max 0 R.height + 1
              omega
            refine tall_plug_iff.mpr ⟨⟨?_, hleaf, hcongT R (hsublt R (fun i hi => by simp [hi]))
              t1.2.2⟩, ?_⟩
            · rw [hHold t ht, hhe]
              exact t1.1
            · rw [hhe]
              exact TallCtx.same_heights (fun i hi => hHold i (hctxlt i hi)) t2
        · obtain ⟨LL, l, LR, rfl⟩ : ∃ LL l LR, L = .node LL l LR := by
            cases L with
            | nil => exact absurd rfl hL
            | node a b c => exact ⟨a, b, c, rfl⟩
          simp only [Shape.root_node] at htl
          have hcond : ¬ (((h.get t).Left = none ∧ v < (h.get t).Value)
              ∨ ((h.get t).Right = none ∧ v > (h.get t).Value)) := by
            rw [htl]
            simp [hngt]
          rw [if_neg hcond, if_pos hlt']
          have hlval : (h.get l).Value < (h.get t).Value := hsn l (by simp)
          have hlt2 : l ≠ t := by
            rintro rfl
            exact lt_irrefl _ hlval
          have hguard : ¬ (l = t ∨ (h.get l).Value = (h.get t).Value) := by
            simp [hlt2, ne_of_lt hlval]
          simp only [htl, deref, bind, Except.bind, hguard, ↓reduceIte]
          have hinv' : TreeInv h (plug (⟨true, t, R⟩ :: ctx) (.node LL l LR)) := by
            simpa [plug, Frame.wrap] using hinv
          obtain ⟨item, nr, h', T', he, hpost, htall⟩ := Insert_aux v c hc k h (⟨true, t, R⟩ :: ctx)
            (.node LL l LR) l rfl (by simp at hf ⊢; omega) hinv'
            (by simpa [ctxBefore] using hb)
            (by
              intro i hi
              simp only [ctxAfter, ↓reduceIte, List.cons_append, List.mem_cons,
                List.mem_append] at hi
              rcases hi with rfl | hi | hi
              · exact hlt'
              · exact lt_trans hlt' (hsbig i (by simp [hi]))
              · exact ha i hi)
          exact ⟨item, nr, h', T', he, by simpa [plug, Frame.wrap] using hpost,
            fun tT => htall (by simpa [plug, Frame.wrap] using tT)⟩
      · have hgt : v > (h.get t).Value := lt_of_le_of_ne (not_lt.mp hlt') (Ne.symm hveq)
        by_cases hR : R = .nil
        · subst hR
          have hcond : ((h.get t).Left = none ∧ v < (h.get t).Value)
              ∨ ((h.get t).Right = none ∧ v > (h.get t).Value) := Or.inr ⟨htr, hgt⟩
          rw [if_pos hcond]
          obtain ⟨h3, he, hpost, hl3, hr3, hv3⟩ :=
            Insert_attach_right h ctx L t v c hc hinv hgt ha
          have hH3 : ∀ i, (h3.get i).Height
              = ((h.alloc { NewHistogramItem v with Duplications := c, Parent := some t }).2.get
                  i).Height :=
            fun i => (addCountUp_Height c _ _ _ _ he i).trans (attachRight_Height _ _ _ i)
          have hHold : ∀ i, i < h.size → (h3.get i).Height = (h.get i).Height := fun i hi => by
            rw [hH3 i, Heap.get_alloc_lt h _ hi]
          have hHnew : (h3.get h.size).Height = 1 := by
            rw [hH3, Heap.get_alloc, if_pos rfl]
            rfl
          have hcongT : ∀ X : Shape, (∀ i ∈ X.ids, i < h.size) → Tall h X → Tall h3 X :=
            fun X hX => Tall.congr_heights fun i hi => hHold i (hX i hi)
          have hleaf : Tall h3 (.node .nil h.size .nil) := ⟨hHnew, trivial, trivial⟩
          rw [Heap.alloc_eq]
          simp only [Heap.get_alloc_lt h _ ht, hgt, ↓reduceIte, he, bind, Except.bind,
            hl3, hr3, hv3, reduceCtorEq, false_and, or_false, hlt', and_true]
          by_cases hL : L = .nil
          · subst hL
            simp only [Shape.root_nil, ↓reduceIte]
            obtain ⟨h5, T', he5, hs5, hne5, ht5⟩ := insert_rebalance h3 ⟨false, t, .nil⟩ ctx
              (.node .nil h.size .nil) (by simpa [plug, Frame.wrap] using hpost.inv)
            simp only [he5]
            exact ⟨h.size, T'.root, h5, T', rfl,
              hpost.step (by simpa [plug, Frame.wrap] using hs5) hne5,
              fun tT => ht5 (tallBelow_wrap.mpr ⟨hleaf, trivial⟩) (fun g hg =>
                hcongT g.sib (fun i hi => hctxlt i (sib_mem_ctxIds hg hi))
                  ((tall_plug tT).2 g hg))⟩
          · have hLr : L.root ≠ none := fun e => hL (Shape.root_eq_none.mp e)
            simp only [hLr, ↓reduceIte]
            refine ⟨h.size, none, h3, _, rfl, hpost, fun tT => ?_⟩
            obtain ⟨t1, t2⟩ := tall_plug_iff.mp tT
            have hL1 := height_pos_of_ne_nil hL
            have hhe : (Shape.node L t (.node .nil h.size .nil)).height
                = (Shape.node L t .nil).height := by
              show max L.height (max 0 0 + 1) + 1 = max L.height 0 + 1
              omega
            refine tall_plug_iff.mpr ⟨⟨?_, hcongT L (hsublt L (fun i hi => by simp [hi]))
              t1.2.1, hleaf⟩, ?_⟩
            · rw [hHold t ht, hhe]
              exact t1.1
            · rw [hhe]
              exact TallCtx.same_heights (fun i hi => hHold i (hctxlt i hi)) t2
        · obtain ⟨RL, r, RR, rfl⟩ : ∃ RL r RR, R = .node RL r RR := by
            cases R with
            | nil => exact absurd rfl hR
            | node a b c => exact ⟨a, b, c, rfl⟩
          simp only [Shape.root_node] at htr
          have hcond : ¬ (((h.get t).Left = none ∧ v < (h.get t).Value)
              ∨ ((h.get t).Right = none ∧ v > (h.get t).Value)) := by
            rw [htr]
            simp [hlt']
          rw [if_neg hcond, if_neg hlt']
          have hrval : (h.get t).Value < (h.get r).Value := hsbig r (by simp)
          have hrt : r ≠ t := by
            rintro rfl
            exact lt_irrefl _ hrval
          have hguard : ¬ (r = t ∨ (h.get r).Value = (h.get t).Value) := by
            simp [hrt, ne_of_gt hrval]
          simp only [htr, deref, bind, Except.bind, hguard, ↓reduceIte]
          have hinv' : TreeInv h (plug (⟨false, t, L⟩ :: ctx) (.node RL r RR)) := by
            simpa [plug, Frame.wrap] using hinv
          obtain ⟨item, nr, h', T', he, hpost, htall⟩ := Insert_aux v c hc k h (⟨false, t, L⟩ :: ctx)
            (.node RL r RR) r rfl (by simp at hf ⊢; omega) hinv'
            (by
              intro i hi
              simp only [ctxBefore, Bool.false_eq_true, ↓reduceIte, List.mem_append,
                List.mem_singleton] at hi
              rcases hi with hi | hi | rfl
              · exact hb i hi
              · exact lt_trans (hsn i (by simp [hi])) hgt
              · exact hgt)
            (by simpa [ctxAfter] using ha)
          exact ⟨item, nr, h', T', he, by simpa [plug, Frame.wrap] using hpost,
            fun tT => htall (by simpa [plug, Frame.wrap] using tT)⟩

/-- `Insert` from the root of a store that holds a tree, with the stored heights. -/
theorem Insert_tall (h : Heap) (T : Shape) (r : Nat) (v : ℚ) (c : Int) (hc : 1 ≤ c)
    (hinv : TreeInv h T) (hr : T.root = some r) :
    ∃ item newRoot h' T', Insert h.budget h r v c = .ok (item, newRoot, h')
      ∧ InsertPost h h' T T' v c item newRoot ∧ (Tall h T → Tall h' T') :=
  Insert_aux v c hc h.budget h [] T r hr (by
    have := hinv.length_le
    unfold Heap.budget
    omega) hinv (by simp [ctxBefore]) (by simp [ctxAfter])

/-- `Insert` from the root of a store that holds a tree. -/
theorem Insert_spec (h : Heap) (T : Shape) (r : Nat) (v : ℚ) (c : Int) (hc : 1 ≤ c)
    (hinv : TreeInv h T) (hr : T.root = some r) :
    ∃ item newRoot h' T', Insert h.budget h r v c = .ok (item, newRoot, h')
      ∧ InsertPost h h' T T' v c item newRoot := by
  obtain ⟨item, nr, h', T', h1, h2, -⟩ := Insert_tall h T r v c hc hinv hr
  exact ⟨item, nr, h', T', h1, h2⟩

end Hist

namespace Hist

/-! ## A write to one field leaves the others -/

theorem Heap.get_modify_Value (h : Heap) (j i : Nat) (f : HistogramItem → HistogramItem)
    (hf : ∀ n, (f n).Value = n.Value) : ((h.modify j f).get i).Value = (h.get i).Value := by
  rw [Heap.get_modify]
  split
  · rename_i hc
    rw [hf, hc.1]
  · rfl

theorem Heap.get_modify_Left (h : Heap) (j i : Nat) (f : HistogramItem → HistogramItem)
    (hf : ∀ n, (f n).Left = n.Left) : ((h.modify j f).get i).Left = (h.get i).Left := by
  rw [Heap.get_modify]
  split
  · rename_i hc
    rw [hf, hc.1]
  · rfl

theorem Heap.get_modify_Right (h : Heap) (j i : Nat) (f : HistogramItem → HistogramItem)
    (hf : ∀ n, (f n).Right = n.Right) : ((h.modify j f).get i).Right = (h.get i).Right := by
  rw [Heap.get_modify]
  split
  · rename_i hc
    rw [hf, hc.1]
  · rfl

theorem Heap.get_modify_Parent (h : Heap) (j i : Nat) (f : HistogramItem → HistogramItem)
    (hf : ∀ n, (f n).Parent = n.Parent) : ((h.modify j f).get i).Parent = (h.get i).Parent := by
  rw [Heap.get_modify]
  split
  · rename_i hc
    rw [hf, hc.1]
  · rfl

theorem Heap.get_modify_Smaller (h : Heap) (j i : Nat) (f : HistogramItem → HistogramItem)
    (hf : ∀ n, (f n).Smaller = n.Smaller) : ((h.modify j f).get i).Smaller = (h.get i).Smaller := by
  rw [Heap.get_modify]
  split
  · rename_i hc
    rw [hf, hc.1]
  · rfl

theorem Heap.get_modify_Larger (h : Heap) (j i : Nat) (f : HistogramItem → HistogramItem)
    (hf : ∀ n, (f n).Larger = n.Larger) : ((h.modify j f).get i).Larger = (h.get i).Larger := by
  rw [Heap.get_modify]
  split
  · rename_i hc
    rw [hf, hc.1]
  · rfl

theorem Heap.get_modify_Height (h : Heap) (j i : Nat) (f : HistogramItem → HistogramItem)
    (hf : ∀ n, (f n).Height = n.Height) : ((h.modify j f).get i).Height = (h.get i).Height := by
  rw [Heap.get_modify]
  split
  · rename_i hc
    rw [hf, hc.1]
  · rfl

theorem Heap.get_modify_Count (h : Heap) (j i : Nat) (f : HistogramItem → HistogramItem)
    (hf : ∀ n, (f n).Count = n.Count) : ((h.modify j f).get i).Count = (h.get i).Count := by
  rw [Heap.get_modify]
  split
  · rename_i hc
    rw [hf, hc.1]
  · rfl

theorem Heap.get_modify_Duplications (h : Heap) (j i : Nat) (f : HistogramItem → HistogramItem)
    (hf : ∀ n, (f n).Duplications = n.Duplications) : ((h.modify j f).get i).Duplications = (h.get i).Duplications := by
  rw [Heap.get_modify]
  split
  · rename_i hc
    rw [hf, hc.1]
  · rfl

/-! ## The blocks of `Delete` leave the fields they do not write -/

@[simp] theorem takeStats_size (h : Heap) (t r : Nat) : (takeStats h t r).size = h.size := by
  unfold takeStats
  simp only
  all_goals simp

@[simp] theorem takeStats_Value (h : Heap) (t r i : Nat) :
    ((takeStats h t r).get i).Value = (h.get i).Value := by
  unfold takeStats
  simp only
  all_goals simp [Heap.get_modify_Value]

@[simp] theorem takeStats_Left (h : Heap) (t r i : Nat) :
    ((takeStats h t r).get i).Left = (h.get i).Left := by
  unfold takeStats
  simp only
  all_goals simp [Heap.get_modify_Left]

@[simp] theorem takeStats_Right (h : Heap) (t r i : Nat) :
    ((takeStats h t r).get i).Right = (h.get i).Right := by
  unfold takeStats
  simp only
  all_goals simp [Heap.get_modify_Right]

@[simp] theorem takeStats_Parent (h : Heap) (t r i : Nat) :
    ((takeStats h t r).get i).Parent = (h.get i).Parent := by
  unfold takeStats
  simp only
  all_goals simp [Heap.get_modify_Parent]

@[simp] theorem takeStats_Smaller (h : Heap) (t r i : Nat) :
    ((takeStats h t r).get i).Smaller = (h.get i).Smaller := by
  unfold takeStats
  simp only
  all_goals simp [Heap.get_modify_Smaller]

@[simp] theorem takeStats_Larger (h : Heap) (t r i : Nat) :
    ((takeStats h t r).get i).Larger = (h.get i).Larger := by
  unfold takeStats
  simp only
  all_goals simp [Heap.get_modify_Larger]

@[simp] theorem takeStats_Duplications (h : Heap) (t r i : Nat) :
    ((takeStats h t r).get i).Duplications = (h.get i).Duplications := by
  unfold takeStats
  simp only
  all_goals simp [Heap.get_modify_Duplications]

@[simp] theorem relinkParent_Value (h : Heap) (t r i : Nat) :
    ((relinkParent h t r).get i).Value = (h.get i).Value := by
  unfold relinkParent
  simp only
  repeat' split
  all_goals simp [Heap.get_modify_Value]

@[simp] theorem relinkParent_Smaller (h : Heap) (t r i : Nat) :
    ((relinkParent h t r).get i).Smaller = (h.get i).Smaller := by
  unfold relinkParent
  simp only
  repeat' split
  all_goals simp [Heap.get_modify_Smaller]

@[simp] theorem relinkParent_Larger (h : Heap) (t r i : Nat) :
    ((relinkParent h t r).get i).Larger = (h.get i).Larger := by
  unfold relinkParent
  simp only
  repeat' split
  all_goals simp [Heap.get_modify_Larger]

@[simp] theorem relinkParent_Height (h : Heap) (t r i : Nat) :
    ((relinkParent h t r).get i).Height = (h.get i).Height := by
  unfold relinkParent
  simp only
  repeat' split
  all_goals simp [Heap.get_modify_Height]

@[simp] theorem relinkParent_Count (h : Heap) (t r i : Nat) :
    ((relinkParent h t r).get i).Count = (h.get i).Count := by
  unfold relinkParent
  simp only
  repeat' split
  all_goals simp [Heap.get_modify_Count]

@[simp] theorem relinkParent_Duplications (h : Heap) (t r i : Nat) :
    ((relinkParent h t r).get i).Duplications = (h.get i).Duplications := by
  unfold relinkParent
  simp only
  repeat' split
  all_goals simp [Heap.get_modify_Duplications]

@[simp] theorem takeLeft_size (h : Heap) (t r : Nat) : (takeLeft h t r).size = h.size := by
  unfold takeLeft
  simp only
  repeat' split
  all_goals simp

@[simp] theorem takeLeft_Value (h : Heap) (t r i : Nat) :
    ((takeLeft h t r).get i).Value = (h.get i).Value := by
  unfold takeLeft
  simp only
  repeat' split
  all_goals simp [Heap.get_modify_Value]

@[simp] theorem takeLeft_Right (h : Heap) (t r i : Nat) :
    ((takeLeft h t r).get i).Right = (h.get i).Right := by
  unfold takeLeft
  simp only
  repeat' split
  all_goals simp [Heap.get_modify_Right]

@[simp] theorem takeLeft_Smaller (h : Heap) (t r i : Nat) :
    ((takeLeft h t r).get i).Smaller = (h.get i).Smaller := by
  unfold takeLeft
  simp only
  repeat' split
  all_goals simp [Heap.get_modify_Smaller]

@[simp] theorem takeLeft_Larger (h : Heap) (t r i : Nat) :
    ((takeLeft h t r).get i).Larger = (h.get i).Larger := by
  unfold takeLeft
  simp only
  repeat' split
  all_goals simp [Heap.get_modify_Larger]

@[simp] theorem takeLeft_Height (h : Heap) (t r i : Nat) :
    ((takeLeft h t r).get i).Height = (h.get i).Height := by
  unfold takeLeft
  simp only
  repeat' split
  all_goals simp [Heap.get_modify_Height]

@[simp] theorem takeLeft_Count (h : Heap) (t r i : Nat) :
    ((takeLeft h t r).get i).Count = (h.get i).Count := by
  unfold takeLeft
  simp only
  repeat' split
  all_goals simp [Heap.get_modify_Count]

@[simp] theorem takeLeft_Duplications (h : Heap) (t r i : Nat) :
    ((takeLeft h t r).get i).Duplications = (h.get i).Duplications := by
  unfold takeLeft
  simp only
  repeat' split
  all_goals simp [Heap.get_modify_Duplications]

@[simp] theorem takeRight_size (h : Heap) (t r : Nat) : (takeRight h t r).size = h.size := by
  unfold takeRight
  simp only
  repeat' split
  all_goals simp

@[simp] theorem takeRight_Value (h : Heap) (t r i : Nat) :
    ((takeRight h t r).get i).Value = (h.get i).Value := by
  unfold takeRight
  simp only
  repeat' split
  all_goals simp [Heap.get_modify_Value]

@[simp] theorem takeRight_Left (h : Heap) (t r i : Nat) :
    ((takeRight h t r).get i).Left = (h.get i).Left := by
  unfold takeRight
  simp only
  repeat' split
  all_goals simp [Heap.get_modify_Left]

@[simp] theorem takeRight_Smaller (h : Heap) (t r i : Nat) :
    ((takeRight h t r).get i).Smaller = (h.get i).Smaller := by
  unfold takeRight
  simp only
  repeat' split
  all_goals simp [Heap.get_modify_Smaller]

@[simp] theorem takeRight_Larger (h : Heap) (t r i : Nat) :
    ((takeRight h t r).get i).Larger = (h.get i).Larger := by
  unfold takeRight
  simp only
  repeat' split
  all_goals simp [Heap.get_modify_Larger]

@[simp] theorem takeRight_Height (h : Heap) (t r i : Nat) :
    ((takeRight h t r).get i).Height = (h.get i).Height := by
  unfold takeRight
  simp only
  repeat' split
  all_goals simp [Heap.get_modify_Height]

@[simp] theorem takeRight_Count (h : Heap) (t r i : Nat) :
    ((takeRight h t r).get i).Count = (h.get i).Count := by
  unfold takeRight
  simp only
  repeat' split
  all_goals simp [Heap.get_modify_Count]

@[simp] theorem takeRight_Duplications (h : Heap) (t r i : Nat) :
    ((takeRight h t r).get i).Duplications = (h.get i).Duplications := by
  unfold takeRight
  simp only
  repeat' split
  all_goals simp [Heap.get_modify_Duplications]

@[simp] theorem takeSmaller_size (h : Heap) (t r : Nat) : (takeSmaller h t r).size = h.size := by
  unfold takeSmaller
  simp only
  repeat' split
  all_goals simp

@[simp] theorem takeSmaller_Value (h : Heap) (t r i : Nat) :
    ((takeSmaller h t r).get i).Value = (h.get i).Value := by
  unfold takeSmaller
  simp only
  repeat' split
  all_goals simp [Heap.get_modify_Value]

@[simp] theorem takeSmaller_Left (h : Heap) (t r i : Nat) :
    ((takeSmaller h t r).get i).Left = (h.get i).Left := by
  unfold takeSmaller
  simp only
  repeat' split
  all_goals simp [Heap.get_modify_Left]

@[simp] theorem takeSmaller_Right (h : Heap) (t r i : Nat) :
    ((takeSmaller h t r).get i).Right = (h.get i).Right := by
  unfold takeSmaller
  simp only
  repeat' split
  all_goals simp [Heap.get_modify_Right]

@[simp] theorem takeSmaller_Parent (h : Heap) (t r i : Nat) :
    ((takeSmaller h t r).get i).Parent = (h.get i).Parent := by
  unfold takeSmaller
  simp only
  repeat' split
  all_goals simp [Heap.get_modify_Parent]

@[simp] theorem takeSmaller_Height (h : Heap) (t r i : Nat) :
    ((takeSmaller h t r).get i).Height = (h.get i).Height := by
  unfold takeSmaller
  simp only
  repeat' split
  all_goals simp [Heap.get_modify_Height]

@[simp] theorem takeSmaller_Count (h : Heap) (t r i : Nat) :
    ((takeSmaller h t r).get i).Count = (h.get i).Count := by
  unfold takeSmaller
  simp only
  repeat' split
  all_goals simp [Heap.get_modify_Count]

@[simp] theorem takeSmaller_Duplications (h : Heap) (t r i : Nat) :
    ((takeSmaller h t r).get i).Duplications = (h.get i).Duplications := by
  unfold takeSmaller
  simp only
  repeat' split
  all_goals simp [Heap.get_modify_Duplications]

@[simp] theorem takeLarger_size (h : Heap) (t r : Nat) : (takeLarger h t r).size = h.size := by
  unfold takeLarger
  simp only
  repeat' split
  all_goals simp

@[simp] theorem takeLarger_Value (h : Heap) (t r i : Nat) :
    ((takeLarger h t r).get i).Value = (h.get i).Value := by
  unfold takeLarger
  simp only
  repeat' split
  all_goals simp [Heap.get_modify_Value]

@[simp] theorem takeLarger_Left (h : Heap) (t r i : Nat) :
    ((takeLarger h t r).get i).Left = (h.get i).Left := by
  unfold takeLarger
  simp only
  repeat' split
  all_goals simp [Heap.get_modify_Left]

@[simp] theorem takeLarger_Right (h : Heap) (t r i : Nat) :
    ((takeLarger h t r).get i).Right = (h.get i).Right := by
  unfold takeLarger
  simp only
  repeat' split
  all_goals simp [Heap.get_modify_Right]

@[simp] theorem takeLarger_Parent (h : Heap) (t r i : Nat) :
    ((takeLarger h t r).get i).Parent = (h.get i).Parent := by
  unfold takeLarger
  simp only
  repeat' split
  all_goals simp [Heap.get_modify_Parent]

@[simp] theorem takeLarger_Height (h : Heap) (t r i : Nat) :
    ((takeLarger h t r).get i).Height = (h.get i).Height := by
  unfold takeLarger
  simp only
  repeat' split
  all_goals simp [Heap.get_modify_Height]

@[simp] theorem takeLarger_Count (h : Heap) (t r i : Nat) :
    ((takeLarger h t r).get i).Count = (h.get i).Count := by
  unfold takeLarger
  simp only
  repeat' split
  all_goals simp [Heap.get_modify_Count]

@[simp] theorem takeLarger_Duplications (h : Heap) (t r i : Nat) :
    ((takeLarger h t r).get i).Duplications = (h.get i).Duplications := by
  unfold takeLarger
  simp only
  repeat' split
  all_goals simp [Heap.get_modify_Duplications]

@[simp] theorem dropFromParent_size (h : Heap) (t : Nat) : (dropFromParent h t).size = h.size := by
  unfold dropFromParent
  repeat' split
  all_goals simp

@[simp] theorem dropFromParent_Value (h : Heap) (t i : Nat) :
    ((dropFromParent h t).get i).Value = (h.get i).Value := by
  unfold dropFromParent
  repeat' split
  all_goals simp [Heap.get_modify_Value]

@[simp] theorem dropFromParent_Parent (h : Heap) (t i : Nat) :
    ((dropFromParent h t).get i).Parent = (h.get i).Parent := by
  unfold dropFromParent
  repeat' split
  all_goals simp [Heap.get_modify_Parent]

@[simp] theorem dropFromParent_Smaller (h : Heap) (t i : Nat) :
    ((dropFromParent h t).get i).Smaller = (h.get i).Smaller := by
  unfold dropFromParent
  repeat' split
  all_goals simp [Heap.get_modify_Smaller]

@[simp] theorem dropFromParent_Larger (h : Heap) (t i : Nat) :
    ((dropFromParent h t).get i).Larger = (h.get i).Larger := by
  unfold dropFromParent
  repeat' split
  all_goals simp [Heap.get_modify_Larger]

@[simp] theorem dropFromParent_Height (h : Heap) (t i : Nat) :
    ((dropFromParent h t).get i).Height = (h.get i).Height := by
  unfold dropFromParent
  repeat' split
  all_goals simp [Heap.get_modify_Height]

@[simp] theorem dropFromParent_Count (h : Heap) (t i : Nat) :
    ((dropFromParent h t).get i).Count = (h.get i).Count := by
  unfold dropFromParent
  repeat' split
  all_goals simp [Heap.get_modify_Count]

@[simp] theorem dropFromParent_Duplications (h : Heap) (t i : Nat) :
    ((dropFromParent h t).get i).Duplications = (h.get i).Duplications := by
  unfold dropFromParent
  repeat' split
  all_goals simp [Heap.get_modify_Duplications]

@[simp] theorem bridgeSmaller_size (h : Heap) (t : Nat) : (bridgeSmaller h t).size = h.size := by
  unfold bridgeSmaller
  repeat' split
  all_goals simp

@[simp] theorem bridgeSmaller_Value (h : Heap) (t i : Nat) :
    ((bridgeSmaller h t).get i).Value = (h.get i).Value := by
  unfold bridgeSmaller
  repeat' split
  all_goals simp [Heap.get_modify_Value]

@[simp] theorem bridgeSmaller_Left (h : Heap) (t i : Nat) :
    ((bridgeSmaller h t).get i).Left = (h.get i).Left := by
  unfold bridgeSmaller
  repeat' split
  all_goals simp [Heap.get_modify_Left]

@[simp] theorem bridgeSmaller_Right (h : Heap) (t i : Nat) :
    ((bridgeSmaller h t).get i).Right = (h.get i).Right := by
  unfold bridgeSmaller
  repeat' split
  all_goals simp [Heap.get_modify_Right]

@[simp] theorem bridgeSmaller_Parent (h : Heap) (t i : Nat) :
    ((bridgeSmaller h t).get i).Parent = (h.get i).Parent := by
  unfold bridgeSmaller
  repeat' split
  all_goals simp [Heap.get_modify_Parent]

@[simp] theorem bridgeSmaller_Smaller (h : Heap) (t i : Nat) :
    ((bridgeSmaller h t).get i).Smaller = (h.get i).Smaller := by
  unfold bridgeSmaller
  repeat' split
  all_goals simp [Heap.get_modify_Smaller]

@[simp] theorem bridgeSmaller_Height (h : Heap) (t i : Nat) :
    ((bridgeSmaller h t).get i).Height = (h.get i).Height := by
  unfold bridgeSmaller
  repeat' split
  all_goals simp [Heap.get_modify_Height]

@[simp] theorem bridgeSmaller_Count (h : Heap) (t i : Nat) :
    ((bridgeSmaller h t).get i).Count = (h.get i).Count := by
  unfold bridgeSmaller
  repeat' split
  all_goals simp [Heap.get_modify_Count]

@[simp] theorem bridgeSmaller_Duplications (h : Heap) (t i : Nat) :
    ((bridgeSmaller h t).get i).Duplications = (h.get i).Duplications := by
  unfold bridgeSmaller
  repeat' split
  all_goals simp [Heap.get_modify_Duplications]

@[simp] theorem bridgeLarger_size (h : Heap) (t : Nat) : (bridgeLarger h t).size = h.size := by
  unfold bridgeLarger
  repeat' split
  all_goals simp

@[simp] theorem bridgeLarger_Value (h : Heap) (t i : Nat) :
    ((bridgeLarger h t).get i).Value = (h.get i).Value := by
  unfold bridgeLarger
  repeat' split
  all_goals simp [Heap.get_modify_Value]

@[simp] theorem bridgeLarger_Left (h : Heap) (t i : Nat) :
    ((bridgeLarger h t).get i).Left = (h.get i).Left := by
  unfold bridgeLarger
  repeat' split
  all_goals simp [Heap.get_modify_Left]

@[simp] theorem bridgeLarger_Right (h : Heap) (t i : Nat) :
    ((bridgeLarger h t).get i).Right = (h.get i).Right := by
  unfold bridgeLarger
  repeat' split
  all_goals simp [Heap.get_modify_Right]

@[simp] theorem bridgeLarger_Parent (h : Heap) (t i : Nat) :
    ((bridgeLarger h t).get i).Parent = (h.get i).Parent := by
  unfold bridgeLarger
  repeat' split
  all_goals simp [Heap.get_modify_Parent]

@[simp] theorem bridgeLarger_Larger (h : Heap) (t i : Nat) :
    ((bridgeLarger h t).get i).Larger = (h.get i).Larger := by
  unfold bridgeLarger
  repeat' split
  all_goals simp [Heap.get_modify_Larger]

@[simp] theorem bridgeLarger_Height (h : Heap) (t i : Nat) :
    ((bridgeLarger h t).get i).Height = (h.get i).Height := by
  unfold bridgeLarger
  repeat' split
  all_goals simp [Heap.get_modify_Height]

@[simp] theorem bridgeLarger_Count (h : Heap) (t i : Nat) :
    ((bridgeLarger h t).get i).Count = (h.get i).Count := by
  unfold bridgeLarger
  repeat' split
  all_goals simp [Heap.get_modify_Count]

@[simp] theorem bridgeLarger_Duplications (h : Heap) (t i : Nat) :
    ((bridgeLarger h t).get i).Duplications = (h.get i).Duplications := by
  unfold bridgeLarger
  repeat' split
  all_goals simp [Heap.get_modify_Duplications]

@[simp] theorem spliceDonorRight_size (h : Heap) (r rp : Nat) : (spliceDonorRight h r rp).size = h.size := by
  unfold spliceDonorRight
  repeat' split
  all_goals simp

@[simp] theorem spliceDonorRight_Value (h : Heap) (r rp i : Nat) :
    ((spliceDonorRight h r rp).get i).Value = (h.get i).Value := by
  unfold spliceDonorRight
  repeat' split
  all_goals simp [Heap.get_modify_Value]

@[simp] theorem spliceDonorRight_Left (h : Heap) (r rp i : Nat) :
    ((spliceDonorRight h r rp).get i).Left = (h.get i).Left := by
  unfold spliceDonorRight
  repeat' split
  all_goals simp [Heap.get_modify_Left]

@[simp] theorem spliceDonorRight_Smaller (h : Heap) (r rp i : Nat) :
    ((spliceDonorRight h r rp).get i).Smaller = (h.get i).Smaller := by
  unfold spliceDonorRight
  repeat' split
  all_goals simp [Heap.get_modify_Smaller]

@[simp] theorem spliceDonorRight_Larger (h : Heap) (r rp i : Nat) :
    ((spliceDonorRight h r rp).get i).Larger = (h.get i).Larger := by
  unfold spliceDonorRight
  repeat' split
  all_goals simp [Heap.get_modify_Larger]

@[simp] theorem spliceDonorRight_Height (h : Heap) (r rp i : Nat) :
    ((spliceDonorRight h r rp).get i).Height = (h.get i).Height := by
  unfold spliceDonorRight
  repeat' split
  all_goals simp [Heap.get_modify_Height]

@[simp] theorem spliceDonorRight_Count (h : Heap) (r rp i : Nat) :
    ((spliceDonorRight h r rp).get i).Count = (h.get i).Count := by
  unfold spliceDonorRight
  repeat' split
  all_goals simp [Heap.get_modify_Count]

@[simp] theorem spliceDonorRight_Duplications (h : Heap) (r rp i : Nat) :
    ((spliceDonorRight h r rp).get i).Duplications = (h.get i).Duplications := by
  unfold spliceDonorRight
  repeat' split
  all_goals simp [Heap.get_modify_Duplications]

@[simp] theorem spliceDonorLeft_size (h : Heap) (r rp : Nat) : (spliceDonorLeft h r rp).size = h.size := by
  unfold spliceDonorLeft
  repeat' split
  all_goals simp

@[simp] theorem spliceDonorLeft_Value (h : Heap) (r rp i : Nat) :
    ((spliceDonorLeft h r rp).get i).Value = (h.get i).Value := by
  unfold spliceDonorLeft
  repeat' split
  all_goals simp [Heap.get_modify_Value]

@[simp] theorem spliceDonorLeft_Right (h : Heap) (r rp i : Nat) :
    ((spliceDonorLeft h r rp).get i).Right = (h.get i).Right := by
  unfold spliceDonorLeft
  repeat' split
  all_goals simp [Heap.get_modify_Right]

@[simp] theorem spliceDonorLeft_Smaller (h : Heap) (r rp i : Nat) :
    ((spliceDonorLeft h r rp).get i).Smaller = (h.get i).Smaller := by
  unfold spliceDonorLeft
  repeat' split
  all_goals simp [Heap.get_modify_Smaller]

@[simp] theorem spliceDonorLeft_Larger (h : Heap) (r rp i : Nat) :
    ((spliceDonorLeft h r rp).get i).Larger = (h.get i).Larger := by
  unfold spliceDonorLeft
  repeat' split
  all_goals simp [Heap.get_modify_Larger]

@[simp] theorem spliceDonorLeft_Height (h : Heap) (r rp i : Nat) :
    ((spliceDonorLeft h r rp).get i).Height = (h.get i).Height := by
  unfold spliceDonorLeft
  repeat' split
  all_goals simp [Heap.get_modify_Height]

@[simp] theorem spliceDonorLeft_Count (h : Heap) (r rp i : Nat) :
    ((spliceDonorLeft h r rp).get i).Count = (h.get i).Count := by
  unfold spliceDonorLeft
  repeat' split
  all_goals simp [Heap.get_modify_Count]

@[simp] theorem spliceDonorLeft_Duplications (h : Heap) (r rp i : Nat) :
    ((spliceDonorLeft h r rp).get i).Duplications = (h.get i).Duplications := by
  unfold spliceDonorLeft
  repeat' split
  all_goals simp [Heap.get_modify_Duplications]

@[simp] theorem detachLeaf_size (h : Heap) (t : Nat) : (detachLeaf h t).size = h.size := by
  simp [detachLeaf]

@[simp] theorem detachLeaf_Value (h : Heap) (t i : Nat) :
    ((detachLeaf h t).get i).Value = (h.get i).Value := by
  simp [detachLeaf]

@[simp] theorem detachLeaf_Parent (h : Heap) (t i : Nat) :
    ((detachLeaf h t).get i).Parent = (h.get i).Parent := by
  simp [detachLeaf]

@[simp] theorem detachLeaf_Height (h : Heap) (t i : Nat) :
    ((detachLeaf h t).get i).Height = (h.get i).Height := by
  simp [detachLeaf]

@[simp] theorem detachLeaf_Count (h : Heap) (t i : Nat) :
    ((detachLeaf h t).get i).Count = (h.get i).Count := by
  simp [detachLeaf]

@[simp] theorem detachLeaf_Duplications (h : Heap) (t i : Nat) :
    ((detachLeaf h t).get i).Duplications = (h.get i).Duplications := by
  simp [detachLeaf]

end Hist

namespace Hist

/-! ## The fields the blocks of `Delete` write -/

theorem takeStats_Count (h : Heap) (t r i : Nat) (hr : r < h.size) :
    ((takeStats h t r).get i).Count =
      if i = r then (h.get t).Count - (h.get t).Duplications else (h.get i).Count := by
  unfold takeStats
  by_cases hi : i = r <;> simp [Heap.get_modify, hi, hr]

theorem takeStats_Height (h : Heap) (t r i : Nat) (hr : r < h.size) :
    ((takeStats h t r).get i).Height =
      if i = r then (h.get t).Height else (h.get i).Height := by
  unfold takeStats
  by_cases hi : i = r
  · by_cases htr : t = r <;> simp [Heap.get_modify, hi, hr, htr]
  · simp [Heap.get_modify, hi, hr]

theorem relinkParent_Parent (h : Heap) (t p i : Nat) (hp : p < h.size) :
    ((relinkParent h t p).get i).Parent =
      if i = p then (h.get t).Parent else (h.get i).Parent := by
  by_cases hi : i = p
  · subst hi
    rw [if_pos rfl]
    unfold relinkParent
    simp only
    repeat' split
    all_goals simp [Heap.get_modify_Parent, Heap.get_modify_self, hp]
  · rw [if_neg hi]
    unfold relinkParent
    simp only
    repeat' split
    all_goals simp [Heap.get_modify_Parent, Heap.get_modify_ne, hi]

theorem relinkParent_Left (h : Heap) (t p i : Nat)
    (hg : ∀ g, (h.get t).Parent = some g → g < h.size) :
    ((relinkParent h t p).get i).Left =
      if (h.get t).Parent = some i ∧ (h.get i).Left = some t then some p
      else (h.get i).Left := by
  have hpar : ((h.modify p fun n => { n with Parent := (h.get t).Parent }).get t).Parent
      = (h.get t).Parent := by
    rw [Heap.get_modify]
    split
    · rfl
    · rfl
  have hL : ∀ (X : Ptr) (j : Nat), ((h.modify p fun n => { n with Parent := X }).get j).Left
      = (h.get j).Left := fun _ j => Heap.get_modify_Left _ _ _ _ (fun _ => rfl)
  have hR : ∀ (X : Ptr) (j : Nat), ((h.modify p fun n => { n with Parent := X }).get j).Right
      = (h.get j).Right := fun _ j => Heap.get_modify_Right _ _ _ _ (fun _ => rfl)
  unfold relinkParent
  simp only [hpar, hL, hR]
  cases hgp : (h.get t).Parent with
  | none => simp [hL]
  | some g =>
    have hgs := hg g hgp
    simp only [Option.some.injEq]
    by_cases h1 : (h.get g).Left = some t
    · rw [if_pos h1, Heap.get_modify]
      by_cases hig : i = g
      · subst hig
        simp [hgs, h1]
      · have hgi : g ≠ i := fun e => hig e.symm
        simp [hig, hgi, hL]
    · rw [if_neg h1]
      have hne : ¬ (g = i ∧ (h.get i).Left = some t) := by
        rintro ⟨rfl, e⟩
        exact h1 e
      rw [if_neg hne]
      by_cases h2 : (h.get g).Right = some t
      · rw [if_pos h2]
        simp [Heap.get_modify_Left]
      · rw [if_neg h2, hL]

theorem relinkParent_Right (h : Heap) (t p i : Nat)
    (hg : ∀ g, (h.get t).Parent = some g → g < h.size) :
    ((relinkParent h t p).get i).Right =
      if (h.get t).Parent = some i ∧ (h.get i).Left ≠ some t ∧ (h.get i).Right = some t
      then some p else (h.get i).Right := by
  have hpar : ((h.modify p fun n => { n with Parent := (h.get t).Parent }).get t).Parent
      = (h.get t).Parent := by
    rw [Heap.get_modify]
    split
    · rfl
    · rfl
  have hL : ∀ (X : Ptr) (j : Nat), ((h.modify p fun n => { n with Parent := X }).get j).Left
      = (h.get j).Left := fun _ j => Heap.get_modify_Left _ _ _ _ (fun _ => rfl)
  have hR : ∀ (X : Ptr) (j : Nat), ((h.modify p fun n => { n with Parent := X }).get j).Right
      = (h.get j).Right := fun _ j => Heap.get_modify_Right _ _ _ _ (fun _ => rfl)
  unfold relinkParent
  simp only [hpar, hL, hR]
  cases hgp : (h.get t).Parent with
  | none => simp [hR]
  | some g =>
    have hgs := hg g hgp
    simp only [Option.some.injEq]
    by_cases h1 : (h.get g).Left = some t
    · rw [if_pos h1]
      have hne : ¬ (g = i ∧ (h.get i).Left ≠ some t ∧ (h.get i).Right = some t) := by
        rintro ⟨rfl, e, _⟩
        exact e h1
      rw [if_neg hne]
      simp [Heap.get_modify_Right]
    · rw [if_neg h1]
      by_cases h2 : (h.get g).Right = some t
      · rw [if_pos h2, Heap.get_modify]
        by_cases hig : i = g
        · subst hig
          simp [hgs, h1, h2]
        · have hgi : g ≠ i := fun e => hig e.symm
          simp [hig, hgi, hR]
      · rw [if_neg h2, hR]
        have hne : ¬ (g = i ∧ (h.get i).Left ≠ some t ∧ (h.get i).Right = some t) := by
          rintro ⟨rfl, _, e⟩
          exact h2 e
        rw [if_neg hne]

end Hist

namespace Hist

theorem modify_Left_get (h : Heap) (r i : Nat) (X : Ptr) (hr : r < h.size) :
    ((h.modify r fun n => { n with Left := X }).get i).Left =
      if i = r then X else (h.get i).Left := by
  rw [Heap.get_modify]
  by_cases hi : i = r <;> simp [hi, hr]

theorem modify_Right_get (h : Heap) (r i : Nat) (X : Ptr) (hr : r < h.size) :
    ((h.modify r fun n => { n with Right := X }).get i).Right =
      if i = r then X else (h.get i).Right := by
  rw [Heap.get_modify]
  by_cases hi : i = r <;> simp [hi, hr]

theorem modify_Parent_get (h : Heap) (r i : Nat) (X : Ptr) (hr : r < h.size) :
    ((h.modify r fun n => { n with Parent := X }).get i).Parent =
      if i = r then X else (h.get i).Parent := by
  rw [Heap.get_modify]
  by_cases hi : i = r <;> simp [hi, hr]

theorem modify_Smaller_get (h : Heap) (r i : Nat) (X : Ptr) (hr : r < h.size) :
    ((h.modify r fun n => { n with Smaller := X }).get i).Smaller =
      if i = r then X else (h.get i).Smaller := by
  rw [Heap.get_modify]
  by_cases hi : i = r <;> simp [hi, hr]

theorem modify_Larger_get (h : Heap) (r i : Nat) (X : Ptr) (hr : r < h.size) :
    ((h.modify r fun n => { n with Larger := X }).get i).Larger =
      if i = r then X else (h.get i).Larger := by
  rw [Heap.get_modify]
  by_cases hi : i = r <;> simp [hi, hr]

theorem takeLeft_Left (h : Heap) (t r i : Nat) (hr : r < h.size) :
    ((takeLeft h t r).get i).Left =
      if i = r ∧ some r ≠ (h.get t).Left then (h.get t).Left else (h.get i).Left := by
  unfold takeLeft
  by_cases hc : some r = (h.get t).Left
  · simp [hc]
  · rw [if_pos hc]
    simp only
    split
    · simp [Heap.get_modify_Left, modify_Left_get, hr, hc]
    · simp [modify_Left_get, hr, hc]

theorem takeLeft_Parent (h : Heap) (t r i : Nat)
    (hl : ∀ l, (h.get t).Left = some l → l < h.size) :
    ((takeLeft h t r).get i).Parent =
      if some r ≠ (h.get t).Left ∧ (h.get t).Left = some i then some r
      else (h.get i).Parent := by
  have hat : ((h.modify r fun n => { n with Left := (h.get t).Left }).get t).Left
      = (h.get t).Left := by
    rw [Heap.get_modify]
    split <;> rfl
  unfold takeLeft
  by_cases hc : some r = (h.get t).Left
  · simp [hc]
  · rw [if_pos hc]
    simp only [hat]
    cases hlt : (h.get t).Left with
    | none => simp [Heap.get_modify_Parent]
    | some l =>
      have hls := hl l hlt
      simp only
      rw [modify_Parent_get _ _ _ _ (by simpa using hls)]
      by_cases hi : i = l
      · subst hi
        simp [hlt ▸ hc]
      · have hli : l ≠ i := fun e => hi e.symm
        simp [hi, hli, Heap.get_modify_Parent]

theorem takeRight_Right (h : Heap) (t r i : Nat) (hr : r < h.size) :
    ((takeRight h t r).get i).Right =
      if i = r ∧ some r ≠ (h.get t).Right then (h.get t).Right else (h.get i).Right := by
  unfold takeRight
  by_cases hc : some r = (h.get t).Right
  · simp [hc]
  · rw [if_pos hc]
    simp only
    split
    · simp [Heap.get_modify_Right, modify_Right_get, hr, hc]
    · simp [modify_Right_get, hr, hc]

theorem takeRight_Parent (h : Heap) (t r i : Nat)
    (hl : ∀ l, (h.get t).Right = some l → l < h.size) :
    ((takeRight h t r).get i).Parent =
      if some r ≠ (h.get t).Right ∧ (h.get t).Right = some i then some r
      else (h.get i).Parent := by
  have hat : ((h.modify r fun n => { n with Right := (h.get t).Right }).get t).Right
      = (h.get t).Right := by
    rw [Heap.get_modify]
    split <;> rfl
  unfold takeRight
  by_cases hc : some r = (h.get t).Right
  · simp [hc]
  · rw [if_pos hc]
    simp only [hat]
    cases hlt : (h.get t).Right with
    | none => simp [Heap.get_modify_Parent]
    | some l =>
      have hls := hl l hlt
      simp only
      rw [modify_Parent_get _ _ _ _ (by simpa using hls)]
      by_cases hi : i = l
      · subst hi
        simp [hlt ▸ hc]
      · have hli : l ≠ i := fun e => hi e.symm
        simp [hi, hli, Heap.get_modify_Parent]

theorem takeSmaller_Smaller (h : Heap) (t r i : Nat) (hr : r < h.size) :
    ((takeSmaller h t r).get i).Smaller =
      if i = r ∧ some r ≠ (h.get t).Smaller then (h.get t).Smaller else (h.get i).Smaller := by
  by_cases hc : some r = (h.get t).Smaller
  · have hrhs : ¬ (i = r ∧ some r ≠ (h.get t).Smaller) := fun e => e.2 hc
    rw [if_neg hrhs]
    unfold takeSmaller
    simp only [hc, ne_eq, not_true_eq_false, if_false]
    repeat' split
    all_goals simp [Heap.get_modify_Smaller]
  · by_cases hi : i = r
    · subst hi
      rw [if_pos ⟨rfl, hc⟩]
      unfold takeSmaller
      simp only [if_pos hc]
      repeat' split
      all_goals simp [Heap.get_modify_Smaller, modify_Smaller_get, hr]
    · rw [if_neg (fun e => hi e.1)]
      unfold takeSmaller
      simp only [if_pos hc]
      repeat' split
      all_goals simp [Heap.get_modify_Smaller, modify_Smaller_get, hr, hi]

theorem takeSmaller_Larger (h : Heap) (t r i : Nat)
    (hs : ∀ s, (h.get t).Smaller = some s → s < h.size) :
    ((takeSmaller h t r).get i).Larger =
      if (h.get t).Smaller = some i ∧ i ≠ r then some r else (h.get i).Larger := by
  have hat : ((h.modify r fun n => { n with Smaller := (h.get t).Smaller }).get t).Smaller
      = (h.get t).Smaller := by
    rw [Heap.get_modify]
    split <;> rfl
  unfold takeSmaller
  by_cases hc : some r = (h.get t).Smaller
  · have hc' : (h.get t).Smaller = some r := hc.symm
    simp only [hc', ne_eq, not_true_eq_false, if_false]
    by_cases hi : i = r
    · simp [hi]
    · have hri : r ≠ i := fun e => hi e.symm
      simp [hi, hri]
  · simp only [if_pos hc, hat]
    cases hlt : (h.get t).Smaller with
    | none => simp [Heap.get_modify_Larger]
    | some l =>
      have hls := hs l hlt
      have hlr : l ≠ r := fun e => hc (by rw [hlt, e])
      simp only [hlr, ne_eq, not_false_eq_true, if_true]
      rw [modify_Larger_get _ _ _ _ (by simpa using hls)]
      by_cases hi : i = l
      · subst hi
        simp [hlr]
      · have hli : l ≠ i := fun e => hi e.symm
        simp [hi, hli, Heap.get_modify_Larger]

theorem takeLarger_Larger (h : Heap) (t r i : Nat) (hr : r < h.size) :
    ((takeLarger h t r).get i).Larger =
      if i = r ∧ some r ≠ (h.get t).Larger then (h.get t).Larger else (h.get i).Larger := by
  by_cases hc : some r = (h.get t).Larger
  · have hrhs : ¬ (i = r ∧ some r ≠ (h.get t).Larger) := fun e => e.2 hc
    rw [if_neg hrhs]
    unfold takeLarger
    simp only [hc, ne_eq, not_true_eq_false, if_false]
    repeat' split
    all_goals simp [Heap.get_modify_Larger]
  · by_cases hi : i = r
    · subst hi
      rw [if_pos ⟨rfl, hc⟩]
      unfold takeLarger
      simp only [if_pos hc]
      repeat' split
      all_goals simp [Heap.get_modify_Larger, modify_Larger_get, hr]
    · rw [if_neg (fun e => hi e.1)]
      unfold takeLarger
      simp only [if_pos hc]
      repeat' split
      all_goals simp [Heap.get_modify_Larger, modify_Larger_get, hr, hi]

theorem takeLarger_Smaller (h : Heap) (t r i : Nat)
    (hs : ∀ s, (h.get t).Larger = some s → s < h.size) :
    ((takeLarger h t r).get i).Smaller =
      if (h.get t).Larger = some i ∧ i ≠ r then some r else (h.get i).Smaller := by
  have hat : ((h.modify r fun n => { n with Larger := (h.get t).Larger }).get t).Larger
      = (h.get t).Larger := by
    rw [Heap.get_modify]
    split <;> rfl
  unfold takeLarger
  by_cases hc : some r = (h.get t).Larger
  · have hc' : (h.get t).Larger = some r := hc.symm
    simp only [hc', ne_eq, not_true_eq_false, if_false]
    by_cases hi : i = r
    · simp [hi]
    · have hri : r ≠ i := fun e => hi e.symm
      simp [hi, hri]
  · simp only [if_pos hc, hat]
    cases hlt : (h.get t).Larger with
    | none => simp [Heap.get_modify_Smaller]
    | some l =>
      have hls := hs l hlt
      have hlr : l ≠ r := fun e => hc (by rw [hlt, e])
      simp only [hlr, ne_eq, not_false_eq_true, if_true]
      rw [modify_Smaller_get _ _ _ _ (by simpa using hls)]
      by_cases hi : i = l
      · subst hi
        simp [hlr]
      · have hli : l ≠ i := fun e => hi e.symm
        simp [hi, hli, Heap.get_modify_Smaller]

end Hist

namespace Hist

/-! ## The transplant, field by field -/

@[simp] theorem transplant_size (h : Heap) (t r : Nat) : (transplant h t r).size = h.size := by
  simp [transplant, relinkParent_size]

@[simp] theorem transplant_Value (h : Heap) (t r i : Nat) :
    ((transplant h t r).get i).Value = (h.get i).Value := by
  simp [transplant]

@[simp] theorem transplant_Duplications (h : Heap) (t r i : Nat) :
    ((transplant h t r).get i).Duplications = (h.get i).Duplications := by
  simp [transplant]

theorem transplant_Count (h : Heap) (t r i : Nat) (hr : r < h.size) :
    ((transplant h t r).get i).Count =
      if i = r then (h.get t).Count - (h.get t).Duplications else (h.get i).Count := by
  simp [transplant, takeStats_Count, hr]

theorem transplant_Height (h : Heap) (t r i : Nat) (hr : r < h.size) :
    ((transplant h t r).get i).Height =
      if i = r then (h.get t).Height else (h.get i).Height := by
  simp [transplant, takeStats_Height, hr]

theorem transplant_Smaller (h : Heap) (t r i : Nat) (hr : r < h.size)
    (hs : ∀ s, (h.get t).Smaller = some s → s < h.size ∧ s ≠ t)
    (hl : ∀ l, (h.get t).Larger = some l → l < h.size) :
    ((transplant h t r).get i).Smaller =
      if (h.get t).Larger = some i ∧ i ≠ r then some r
      else if i = r ∧ some r ≠ (h.get t).Smaller then (h.get t).Smaller
      else (h.get i).Smaller := by
  unfold transplant
  set h4 := takeRight (takeLeft (relinkParent (takeStats h t r) t r) t r) t r with hh4
  have e4 : ∀ j, (h4.get j).Smaller = (h.get j).Smaller ∧ (h4.get j).Larger = (h.get j).Larger := by
    intro j
    simp [hh4]
  have s4 : h4.size = h.size := by simp [hh4, relinkParent_size]
  have hs4 : ∀ s, (h4.get t).Smaller = some s → s < h4.size := by
    intro s e
    rw [(e4 t).1] at e
    rw [s4]
    exact (hs s e).1
  have e5 : ((takeSmaller h4 t r).get t).Larger = (h.get t).Larger := by
    rw [takeSmaller_Larger _ _ _ _ hs4, (e4 t).1, (e4 t).2]
    have : ¬ ((h.get t).Smaller = some t ∧ t ≠ r) := fun e => (hs t e.1).2 rfl
    rw [if_neg this]
  rw [takeLarger_Smaller _ _ _ _ (by
    intro l e
    rw [e5] at e
    simpa [s4] using hl l e), e5, takeSmaller_Smaller _ _ _ _ (by rw [s4]; exact hr),
    (e4 t).1, (e4 i).1]

theorem transplant_Larger (h : Heap) (t r i : Nat) (hr : r < h.size)
    (hs : ∀ s, (h.get t).Smaller = some s → s < h.size ∧ s ≠ t) :
    ((transplant h t r).get i).Larger =
      if i = r ∧ some r ≠ (h.get t).Larger then (h.get t).Larger
      else if (h.get t).Smaller = some i ∧ i ≠ r then some r
      else (h.get i).Larger := by
  unfold transplant
  set h4 := takeRight (takeLeft (relinkParent (takeStats h t r) t r) t r) t r with hh4
  have e4 : ∀ j, (h4.get j).Smaller = (h.get j).Smaller ∧ (h4.get j).Larger = (h.get j).Larger := by
    intro j
    simp [hh4]
  have s4 : h4.size = h.size := by simp [hh4, relinkParent_size]
  have hs4 : ∀ s, (h4.get t).Smaller = some s → s < h4.size := by
    intro s e
    rw [(e4 t).1] at e
    rw [s4]
    exact (hs s e).1
  have e5 : ((takeSmaller h4 t r).get t).Larger = (h.get t).Larger := by
    rw [takeSmaller_Larger _ _ _ _ hs4, (e4 t).1, (e4 t).2]
    have : ¬ ((h.get t).Smaller = some t ∧ t ≠ r) := fun e => (hs t e.1).2 rfl
    rw [if_neg this]
  rw [takeLarger_Larger _ _ _ _ (by simpa [s4] using hr), e5,
    takeSmaller_Larger _ _ _ _ hs4, (e4 t).1, (e4 i).2]

theorem transplant_reads (h : Heap) (t r : Nat)
    (hg : ∀ g, (h.get t).Parent = some g → g < h.size ∧ g ≠ t) :
    ((relinkParent (takeStats h t r) t r).get t).Left = (h.get t).Left
      ∧ ((relinkParent (takeStats h t r) t r).get t).Right = (h.get t).Right := by
  have hg1 : ∀ g, ((takeStats h t r).get t).Parent = some g → g < (takeStats h t r).size := by
    intro g e
    simp only [takeStats_Parent, takeStats_size] at e ⊢
    exact (hg g e).1
  constructor
  · rw [relinkParent_Left _ _ _ _ hg1]
    simp only [takeStats_Parent, takeStats_Left]
    have : ¬ ((h.get t).Parent = some t ∧ (h.get t).Left = some t) := fun e => (hg t e.1).2 rfl
    rw [if_neg this]
  · rw [relinkParent_Right _ _ _ _ hg1]
    simp only [takeStats_Parent, takeStats_Left, takeStats_Right]
    have : ¬ ((h.get t).Parent = some t ∧ (h.get t).Left ≠ some t ∧ (h.get t).Right = some t) :=
      fun e => (hg t e.1).2 rfl
    rw [if_neg this]

theorem transplant_Left (h : Heap) (t r i : Nat) (hr : r < h.size)
    (hg : ∀ g, (h.get t).Parent = some g → g < h.size ∧ g ≠ t) :
    ((transplant h t r).get i).Left =
      if i = r ∧ some r ≠ (h.get t).Left then (h.get t).Left
      else if (h.get t).Parent = some i ∧ (h.get i).Left = some t then some r
      else (h.get i).Left := by
  obtain ⟨eL, -⟩ := transplant_reads h t r hg
  have hg1 : ∀ g, ((takeStats h t r).get t).Parent = some g → g < (takeStats h t r).size := by
    intro g e
    simp only [takeStats_Parent, takeStats_size] at e ⊢
    exact (hg g e).1
  unfold transplant
  simp only [takeLarger_Left, takeSmaller_Left, takeRight_Left]
  rw [takeLeft_Left _ _ _ _ (by simpa [relinkParent_size] using hr), eL,
    relinkParent_Left _ _ _ _ hg1]
  simp only [takeStats_Parent, takeStats_Left]

theorem transplant_Right (h : Heap) (t r i : Nat) (hr : r < h.size)
    (hg : ∀ g, (h.get t).Parent = some g → g < h.size ∧ g ≠ t) :
    ((transplant h t r).get i).Right =
      if i = r ∧ some r ≠ (h.get t).Right then (h.get t).Right
      else if (h.get t).Parent = some i ∧ (h.get i).Left ≠ some t ∧ (h.get i).Right = some t
        then some r
      else (h.get i).Right := by
  obtain ⟨-, eR⟩ := transplant_reads h t r hg
  have hg1 : ∀ g, ((takeStats h t r).get t).Parent = some g → g < (takeStats h t r).size := by
    intro g e
    simp only [takeStats_Parent, takeStats_size] at e ⊢
    exact (hg g e).1
  unfold transplant
  simp only [takeLarger_Right, takeSmaller_Right]
  rw [takeRight_Right _ _ _ _ (by simpa [relinkParent_size] using hr), takeLeft_Right, eR,
    takeLeft_Right, relinkParent_Right _ _ _ _ hg1]
  simp only [takeStats_Parent, takeStats_Left, takeStats_Right]

theorem transplant_Parent (h : Heap) (t r i : Nat) (hr : r < h.size)
    (hg : ∀ g, (h.get t).Parent = some g → g < h.size ∧ g ≠ t)
    (hL : ∀ l, (h.get t).Left = some l → l < h.size)
    (hR : ∀ l, (h.get t).Right = some l → l < h.size) :
    ((transplant h t r).get i).Parent =
      if some r ≠ (h.get t).Right ∧ (h.get t).Right = some i then some r
      else if some r ≠ (h.get t).Left ∧ (h.get t).Left = some i then some r
      else if i = r then (h.get t).Parent
      else (h.get i).Parent := by
  obtain ⟨eL, eR⟩ := transplant_reads h t r hg
  unfold transplant
  simp only [takeLarger_Parent, takeSmaller_Parent]
  rw [takeRight_Parent _ _ _ _ (by
      intro l e
      rw [takeLeft_Right, eR] at e
      simpa [relinkParent_size] using hR l e),
    takeLeft_Right, eR,
    takeLeft_Parent _ _ _ _ (by
      intro l e
      rw [eL] at e
      simpa [relinkParent_size] using hL l e),
    eL, relinkParent_Parent _ _ _ _ (by simpa using hr)]
  simp only [takeStats_Parent]

end Hist

namespace Hist

/-! ## The leaf branch of `Delete`, field by field -/

theorem dropFromParent_Left (h : Heap) (t i : Nat)
    (hg : ∀ g, (h.get t).Parent = some g → g < h.size) :
    ((dropFromParent h t).get i).Left =
      if (h.get t).Parent = some i ∧ (h.get i).Left = some t then none
      else (h.get i).Left := by
  unfold dropFromParent
  cases hgp : (h.get t).Parent with
  | none => simp
  | some g =>
    have hgs := hg g hgp
    simp only [Option.some.injEq]
    by_cases h1 : (h.get g).Left = some t
    · rw [if_pos h1, modify_Left_get _ _ _ _ hgs]
      by_cases hig : i = g
      · subst hig
        simp [h1]
      · have hgi : g ≠ i := fun e => hig e.symm
        simp [hig, hgi]
    · rw [if_neg h1]
      have hne : ¬ (g = i ∧ (h.get i).Left = some t) := by
        rintro ⟨rfl, e⟩
        exact h1 e
      rw [if_neg hne]
      by_cases h2 : (h.get g).Right = some t
      · rw [if_pos h2]
        simp [Heap.get_modify_Left]
      · rw [if_neg h2]

theorem dropFromParent_Right (h : Heap) (t i : Nat)
    (hg : ∀ g, (h.get t).Parent = some g → g < h.size) :
    ((dropFromParent h t).get i).Right =
      if (h.get t).Parent = some i ∧ (h.get i).Left ≠ some t ∧ (h.get i).Right = some t
      then none else (h.get i).Right := by
  unfold dropFromParent
  cases hgp : (h.get t).Parent with
  | none => simp
  | some g =>
    have hgs := hg g hgp
    simp only [Option.some.injEq]
    by_cases h1 : (h.get g).Left = some t
    · rw [if_pos h1]
      have hne : ¬ (g = i ∧ (h.get i).Left ≠ some t ∧ (h.get i).Right = some t) := by
        rintro ⟨rfl, e, _⟩
        exact e h1
      rw [if_neg hne]
      simp [Heap.get_modify_Right]
    · rw [if_neg h1]
      by_cases h2 : (h.get g).Right = some t
      · rw [if_pos h2, modify_Right_get _ _ _ _ hgs]
        by_cases hig : i = g
        · subst hig
          simp [h1, h2]
        · have hgi : g ≠ i := fun e => hig e.symm
          simp [hig, hgi]
      · rw [if_neg h2]
        have hne : ¬ (g = i ∧ (h.get i).Left ≠ some t ∧ (h.get i).Right = some t) := by
          rintro ⟨rfl, _, e⟩
          exact h2 e
        rw [if_neg hne]

theorem bridgeSmaller_Larger (h : Heap) (t i : Nat)
    (hs : ∀ s, (h.get t).Smaller = some s → s < h.size) :
    ((bridgeSmaller h t).get i).Larger =
      if (h.get t).Smaller = some i then (h.get t).Larger else (h.get i).Larger := by
  unfold bridgeSmaller
  cases hst : (h.get t).Smaller with
  | none => simp
  | some s =>
    simp only [Option.some.injEq]
    rw [modify_Larger_get _ _ _ _ (hs s hst)]
    by_cases hi : i = s
    · simp [hi]
    · have hsi : s ≠ i := fun e => hi e.symm
      simp [hi, hsi]

theorem bridgeLarger_Smaller (h : Heap) (t i : Nat)
    (hl : ∀ l, (h.get t).Larger = some l → l < h.size) :
    ((bridgeLarger h t).get i).Smaller =
      if (h.get t).Larger = some i then (h.get t).Smaller else (h.get i).Smaller := by
  unfold bridgeLarger
  cases hst : (h.get t).Larger with
  | none => simp
  | some s =>
    simp only [Option.some.injEq]
    rw [modify_Smaller_get _ _ _ _ (hl s hst)]
    by_cases hi : i = s
    · simp [hi]
    · have hsi : s ≠ i := fun e => hi e.symm
      simp [hi, hsi]

theorem detachLeaf_Left (h : Heap) (t i : Nat)
    (hg : ∀ g, (h.get t).Parent = some g → g < h.size) :
    ((detachLeaf h t).get i).Left =
      if (h.get t).Parent = some i ∧ (h.get i).Left = some t then none
      else (h.get i).Left := by
  simp [detachLeaf, dropFromParent_Left _ _ _ hg]

theorem detachLeaf_Right (h : Heap) (t i : Nat)
    (hg : ∀ g, (h.get t).Parent = some g → g < h.size) :
    ((detachLeaf h t).get i).Right =
      if (h.get t).Parent = some i ∧ (h.get i).Left ≠ some t ∧ (h.get i).Right = some t
      then none else (h.get i).Right := by
  simp [detachLeaf, dropFromParent_Right _ _ _ hg]

theorem detachLeaf_Larger (h : Heap) (t i : Nat)
    (hs : ∀ s, (h.get t).Smaller = some s → s < h.size) :
    ((detachLeaf h t).get i).Larger =
      if (h.get t).Smaller = some i then (h.get t).Larger else (h.get i).Larger := by
  unfold detachLeaf
  rw [bridgeLarger_Larger, bridgeSmaller_Larger _ _ _ (by simpa using hs)]
  simp

theorem detachLeaf_Smaller (h : Heap) (t i : Nat)
    (hl : ∀ l, (h.get t).Larger = some l → l < h.size)
    (hs : ∀ s, (h.get t).Smaller = some s → s < h.size)
    (hst : (h.get t).Smaller ≠ some t) :
    ((detachLeaf h t).get i).Smaller =
      if (h.get t).Larger = some i then (h.get t).Smaller else (h.get i).Smaller := by
  have e3 : ((bridgeSmaller (dropFromParent h t) t).get t).Larger = (h.get t).Larger := by
    rw [bridgeSmaller_Larger _ _ _ (by
      intro s e
      simp only [dropFromParent_Smaller, dropFromParent_size] at e ⊢
      exact hs s e)]
    simp [hst]
  unfold detachLeaf
  rw [bridgeLarger_Smaller _ _ _ (by
    intro l e
    rw [e3] at e
    simpa using hl l e), e3]
  simp

end Hist

namespace Hist

/-! ## Finding a node and the donor in the shape -/

theorem exists_plug_of_mem : ∀ {T : Shape} {t : Nat}, t ∈ T.ids →
    ∃ ctx L R, T = plug ctx (.node L t R)
  | .nil, _, ht => by simp at ht
  | .node l i r, t, ht => by
    simp only [Shape.ids_node, List.mem_append, List.mem_cons] at ht
    rcases ht with ht | rfl | ht
    · obtain ⟨ctx, L, R, e⟩ := exists_plug_of_mem ht
      refine ⟨ctx ++ [⟨true, i, r⟩], L, R, ?_⟩
      rw [plug_append, ← e]
      simp [plug, Frame.wrap]
    · exact ⟨[], l, r, rfl⟩
    · obtain ⟨ctx, L, R, e⟩ := exists_plug_of_mem ht
      refine ⟨ctx ++ [⟨false, i, l⟩], L, R, ?_⟩
      rw [plug_append, ← e]
      simp [plug, Frame.wrap]

theorem ctxAfter_of_right : ∀ {spine : List Frame}, (∀ f ∈ spine, f.isLeft = false) →
    ctxAfter spine = []
  | [], _ => rfl
  | f :: fs, hf => by
    simp only [ctxAfter, hf f (by simp), Bool.false_eq_true, if_false, List.nil_append]
    exact ctxAfter_of_right fun g hg => hf g (List.mem_cons_of_mem _ hg)

theorem ctxBefore_of_left : ∀ {spine : List Frame}, (∀ f ∈ spine, f.isLeft = true) →
    ctxBefore spine = []
  | [], _ => rfl
  | f :: fs, hf => by
    simp only [ctxBefore, hf f (by simp), if_true, List.append_nil]
    exact ctxBefore_of_left fun g hg => hf g (List.mem_cons_of_mem _ hg)

/-- The walk `rightmost` from the top of a linked subtree ends at the node that has no
right child; the path down to it goes right at every step. -/
theorem rightmost_spec {h : Heap} : ∀ (S : Shape) (c : Nat) (par : Ptr) (fuel : Nat),
    Linked h par S → S.root = some c → S.ids.length ≤ fuel →
    ∃ spine RL r, rightmost h fuel c = .ok r ∧ S = plug spine (.node RL r .nil)
      ∧ ∀ f ∈ spine, f.isLeft = false
  | .nil, _, _, _, _, hr, _ => by simp at hr
  | .node A c' B, c, par, 0, _, _, hf => by simp at hf
  | .node A c' B, c, par, k + 1, hl, hr, hf => by
    simp only [Shape.root_node, Option.some.injEq] at hr
    subst hr
    obtain ⟨-, -, -, h4, -, h6⟩ := hl
    cases B with
    | nil =>
      refine ⟨[], A, c', ?_, rfl, by simp⟩
      simp only [Shape.root_nil] at h4
      simp [rightmost, h4]
    | node B1 b B2 =>
      simp only [Shape.root_node] at h4
      obtain ⟨spine, RL, r, he, hS, hsp⟩ := rightmost_spec (.node B1 b B2) b (some c') k h6 rfl
        (by simp only [Shape.ids_node, List.length_append, List.length_cons] at hf ⊢; omega)
      refine ⟨spine ++ [⟨false, c', A⟩], RL, r, ?_, ?_, ?_⟩
      · simp only [rightmost, h4]
        exact he
      · rw [plug_append, ← hS]
        simp [plug, Frame.wrap]
      · intro f hf'
        rcases List.mem_append.mp hf' with hf' | hf'
        · exact hsp f hf'
        · simp only [List.mem_singleton] at hf'
          subst hf'
          rfl

/-- The walk `leftmost` from the top of a linked subtree ends at the node that has no
left child; the path down to it goes left at every step. -/
theorem leftmost_spec {h : Heap} : ∀ (S : Shape) (c : Nat) (par : Ptr) (fuel : Nat),
    Linked h par S → S.root = some c → S.ids.length ≤ fuel →
    ∃ spine RR r, leftmost h fuel c = .ok r ∧ S = plug spine (.node .nil r RR)
      ∧ ∀ f ∈ spine, f.isLeft = true
  | .nil, _, _, _, _, hr, _ => by simp at hr
  | .node A c' B, c, par, 0, _, _, hf => by simp at hf
  | .node A c' B, c, par, k + 1, hl, hr, hf => by
    simp only [Shape.root_node, Option.some.injEq] at hr
    subst hr
    obtain ⟨-, -, h3, -, h5, -⟩ := hl
    cases A with
    | nil =>
      refine ⟨[], B, c', ?_, rfl, by simp⟩
      simp only [Shape.root_nil] at h3
      simp [leftmost, h3]
    | node A1 a A2 =>
      simp only [Shape.root_node] at h3
      obtain ⟨spine, RR, r, he, hS, hsp⟩ := leftmost_spec (.node A1 a A2) a (some c') k h5 rfl
        (by simp only [Shape.ids_node, List.length_append, List.length_cons] at hf ⊢; omega)
      refine ⟨spine ++ [⟨true, c', B⟩], RR, r, ?_, ?_, ?_⟩
      · simp only [leftmost, h3]
        exact he
      · rw [plug_append, ← hS]
        simp [plug, Frame.wrap]
      · intro f hf'
        rcases List.mem_append.mp hf' with hf' | hf'
        · exact hsp f hf'
        · simp only [List.mem_singleton] at hf'
          subst hf'
          rfl

/-! ## Taking a cell out of the chain -/

theorem chain_unlink {h h' : Heap} {t : Nat} {A B : List Nat}
    (hc : Chain h none (A ++ t :: B)) (hnd : (A ++ t :: B).Nodup)
    (hS : ∀ i ∈ A ++ B, (h'.get i).Smaller =
      if (h.get t).Larger = some i then (h.get t).Smaller else (h.get i).Smaller)
    (hL : ∀ i ∈ A ++ B, (h'.get i).Larger =
      if (h.get t).Smaller = some i then (h.get t).Larger else (h.get i).Larger) :
    Chain h' none (A ++ B) := by
  obtain ⟨e1, e2⟩ := chain_smaller_at hc
  have e1' : (h.get t).Smaller = A.getLast? := by
    rw [e1]
    cases A.getLast? <;> rfl
  rw [e1'] at hL hS
  rw [e2] at hL hS
  have hnd' := List.nodup_append.mp hnd
  have hB := List.nodup_cons.mp hnd'.2.1
  have hAB : ∀ i ∈ A, i ∉ B := fun i hi hb => hnd'.2.2 hi (List.mem_cons_of_mem _ hb)
  refine chain_remove hc (fun i hi => ?_) hnd (fun b hb => ?_) (fun i hi => ?_)
  · rw [hS i (List.mem_append.mpr (Or.inl hi)), hL i (List.mem_append.mpr (Or.inl hi))]
    have : B.head? ≠ some i := fun e => hAB i hi (List.mem_of_mem_head? e)
    rw [if_neg this]
    exact ⟨rfl, rfl⟩
  · have hbB : b ∈ B := List.mem_of_mem_head? hb
    rw [hS b (List.mem_append.mpr (Or.inr hbB)), hL b (List.mem_append.mpr (Or.inr hbB)),
      if_pos hb]
    have : A.getLast? ≠ some b := fun e => hAB b (List.mem_of_getLast?_eq_some e) hbB
    rw [if_neg this]
    exact ⟨e1'.symm, rfl⟩
  · have hiB : i ∈ B := List.mem_of_mem_tail hi
    rw [hS i (List.mem_append.mpr (Or.inr hiB)), hL i (List.mem_append.mpr (Or.inr hiB))]
    have h1 : A.getLast? ≠ some i := fun e => hAB i (List.mem_of_getLast?_eq_some e) hiB
    have h2 : B.head? ≠ some i := by
      intro e
      cases B with
      | nil => simp at hi
      | cons b B' =>
        simp only [List.head?_cons, Option.some.injEq] at e
        subst e
        simp only [List.tail_cons] at hi
        exact (List.nodup_cons.mp hB.2).1 hi
    rw [if_neg h1, if_neg h2]
    exact ⟨rfl, rfl⟩

end Hist

namespace Hist

/-! ## What the invariant says at a node -/

theorem TreeInv.congr_on {h h' : Heap} {T : Shape} (hs : h.size ≤ h'.size)
    (hc : ∀ i ∈ T.ids, (h'.get i).Value = (h.get i).Value ∧ (h'.get i).Left = (h.get i).Left
      ∧ (h'.get i).Right = (h.get i).Right ∧ (h'.get i).Parent = (h.get i).Parent
      ∧ (h'.get i).Smaller = (h.get i).Smaller ∧ (h'.get i).Larger = (h.get i).Larger)
    (hh : ∀ i ∈ T.ids, 1 ≤ (h.get i).Height → 1 ≤ (h'.get i).Height)
    (hd : ∀ i ∈ T.ids, 1 ≤ (h.get i).Duplications → 1 ≤ (h'.get i).Duplications)
    (hinv : TreeInv h T) : TreeInv h' T where
  linked := Linked.congr_links hs
    (fun i hi => ⟨(hc i hi).2.1, (hc i hi).2.2.1, (hc i hi).2.2.2.1⟩) hinv.linked
  sorted := by
    have : h'.values T.ids = h.values T.ids :=
      List.map_congr_left fun i hi => (hc i hi).1
    rw [this]
    exact hinv.sorted
  chain := Chain.congr_chain (fun i hi => ⟨(hc i hi).2.2.2.2.1, (hc i hi).2.2.2.2.2⟩) hinv.chain
  height := fun i hi => hh i hi (hinv.height i hi)
  dups := fun i hi => hd i hi (hinv.dups i hi)

theorem mem_ctxIds_iff {ctx : List Frame} {i : Nat} :
    i ∈ ctxIds ctx ↔ i ∈ ctxBefore ctx ∨ i ∈ ctxAfter ctx := by
  simp [ctxIds]

theorem node_facts {h : Heap} {ctx : List Frame} {L R : Shape} {t : Nat}
    (hinv : TreeInv h (plug ctx (.node L t R))) :
    t < h.size ∧ (h.get t).Parent = ctxParent ctx ∧ (h.get t).Left = L.root
      ∧ (h.get t).Right = R.root
      ∧ (∀ g, (h.get t).Parent = some g → g < h.size ∧ g ≠ t ∧ g ∈ ctxIds ctx)
      ∧ (h.get t).Smaller = (ctxBefore ctx ++ L.ids).getLast?
      ∧ (h.get t).Larger = (R.ids ++ ctxAfter ctx).head?
      ∧ (∀ s, (h.get t).Smaller = some s → s < h.size ∧ s ≠ t ∧ s ∈ ctxBefore ctx ++ L.ids)
      ∧ (∀ l, (h.get t).Larger = some l → l < h.size ∧ l ≠ t ∧ l ∈ R.ids ++ ctxAfter ctx) := by
  obtain ⟨⟨a1, a2, a3, a4, -, -⟩, -⟩ := (linked_plug ctx _).mp hinv.linked
  have hlt := ids_lt_size hinv.linked
  have hnd := hinv.nodup
  obtain ⟨-, -, hdisj⟩ := nodup_plug hnd
  have hch := hinv.chain
  rw [ids_plug_node] at hch hnd
  obtain ⟨e1, e2⟩ := chain_smaller_at hch
  have e1' : (h.get t).Smaller = (ctxBefore ctx ++ L.ids).getLast? := by
    rw [e1]
    cases (ctxBefore ctx ++ L.ids).getLast? <;> rfl
  have hnd' := List.nodup_append.mp hnd
  have hB := List.nodup_cons.mp hnd'.2.1
  refine ⟨a1, a2, a3, a4, fun g hg => ?_, e1', e2, fun s hs => ?_, fun l hl => ?_⟩
  · rw [a2] at hg
    have hm := ctxParent_mem hg
    refine ⟨hlt g ?_, ?_, hm⟩
    · rw [ids_plug]
      rcases mem_ctxIds_iff.mp hm with hm | hm <;> simp [hm]
    · rintro rfl
      exact hdisj g (by simp) hm
  · rw [e1'] at hs
    have hm := List.mem_of_getLast?_eq_some hs
    refine ⟨hlt s ?_, ?_, hm⟩
    · rw [ids_plug_node]
      exact List.mem_append.mpr (Or.inl hm)
    · rintro rfl
      exact hnd'.2.2 hm (List.mem_cons_self _ _)
  · rw [e2] at hl
    have hm := List.mem_of_mem_head? hl
    refine ⟨hlt l ?_, ?_, hm⟩
    · rw [ids_plug_node]
      exact List.mem_append.mpr (Or.inr (List.mem_cons_of_mem _ hm))
    · rintro rfl
      exact hB.1 hm

theorem sorted_remove {h h' : Heap} {A B : List Nat} {t : Nat}
    (hs : (h.values (A ++ t :: B)).Pairwise (· < ·))
    (hv : ∀ i ∈ A ++ B, (h'.get i).Value = (h.get i).Value) :
    (h'.values (A ++ B)).Pairwise (· < ·) := by
  have e : h'.values (A ++ B) = h.values (A ++ B) := List.map_congr_left hv
  rw [e]
  unfold Heap.values at hs ⊢
  refine List.Pairwise.sublist ?_ hs
  exact List.Sublist.map _ (List.Sublist.append (List.Sublist.refl A) (List.sublist_cons_self t B))

end Hist

namespace Hist

/-! ## The end of `Delete`: the count walk and the height walk -/

theorem clearLinks_get (hs : Heap) (t i : Nat) :
    ((hs.modify t clearLinks).get i).Value = (hs.get i).Value
      ∧ ((hs.modify t clearLinks).get i).Duplications = (hs.get i).Duplications
      ∧ ((hs.modify t clearLinks).get i).Count = (hs.get i).Count
      ∧ ((hs.modify t clearLinks).get i).Height = (hs.get i).Height := by
  refine ⟨Heap.get_modify_Value _ _ _ _ (fun _ => rfl),
    Heap.get_modify_Duplications _ _ _ _ (fun _ => rfl),
    Heap.get_modify_Count _ _ _ _ (fun _ => rfl), Heap.get_modify_Height _ _ _ _ (fun _ => rfl)⟩

theorem removed_of_surgery {h hs : Heap} {T : Shape} {ctx : List Frame} {S1 : Shape} {t : Nat}
    {A B : List Nat} (hinv : TreeInv h T) (hT : T.ids = A ++ t :: B)
    (hT1 : (plug ctx S1).ids = A ++ B) (hsize : hs.size = h.size)
    (hl : Linked hs none (plug ctx S1))
    (hval : ∀ i, (hs.get i).Value = (h.get i).Value
      ∧ (hs.get i).Duplications = (h.get i).Duplications)
    (hS : ∀ i ∈ A ++ B, (hs.get i).Smaller =
      if (h.get t).Larger = some i then (h.get t).Smaller else (h.get i).Smaller)
    (hL : ∀ i ∈ A ++ B, (hs.get i).Larger =
      if (h.get t).Smaller = some i then (h.get t).Larger else (h.get i).Larger)
    (hh : ∀ i ∈ A ++ B, 1 ≤ (hs.get i).Height)
    (hcnt : Counted h T → Counted hs S1
      ∧ CountedCtx hs ctx (dupSum hs S1.ids + (h.get t).Duplications)) :
    ∃ h3, addCountUp (-((hs.modify t clearLinks).get t).Duplications)
        (hs.modify t clearLinks).budget (hs.modify t clearLinks) (ctxParent ctx) = .ok h3
      ∧ Removed h h3 T (plug ctx S1) t := by
  have hndT : (A ++ t :: B).Nodup := hT ▸ hinv.nodup
  have hnd1 : (plug ctx S1).ids.Nodup := by
    rw [hT1]
    exact List.Nodup.sublist
      (List.Sublist.append (List.Sublist.refl A) (List.sublist_cons_self t B)) hndT
  have htn : t ∉ A ++ B := by
    have h1 := List.nodup_append.mp hndT
    have h2 := List.nodup_cons.mp h1.2.1
    intro hm
    rcases List.mem_append.mp hm with hm | hm
    · exact h1.2.2 hm (List.mem_cons_self _ _)
    · exact h2.1 hm
  have hinvS : TreeInv hs (plug ctx S1) := by
    refine ⟨hl, ?_, ?_, ?_, ?_⟩
    · rw [hT1]
      exact sorted_remove (hT ▸ hinv.sorted) (fun i _ => (hval i).1)
    · rw [hT1]
      exact chain_unlink (hT ▸ hinv.chain) hndT hS hL
    · rw [hT1]
      exact hh
    · rw [hT1]
      intro i hi
      rw [(hval i).2]
      apply hinv.dups
      rw [hT]
      rcases List.mem_append.mp hi with hi | hi
      · exact List.mem_append.mpr (Or.inl hi)
      · exact List.mem_append.mpr (Or.inr (List.mem_cons_of_mem _ hi))
  set h2 := hs.modify t clearLinks with hh2
  have hg2 : ∀ i, i ≠ t → h2.get i = hs.get i := fun i hi => Heap.get_modify_ne _ _ _ _ hi
  have hs2 : h2.size = hs.size := by simp [hh2]
  have hne : ∀ i ∈ (plug ctx S1).ids, i ≠ t := by
    intro i hi e
    rw [hT1] at hi
    exact htn (e ▸ hi)
  have hinv2 : TreeInv h2 (plug ctx S1) := by
    refine TreeInv.congr_on (by omega) (fun i hi => ?_) (fun i hi hx => ?_) (fun i hi hx => ?_)
      hinvS
    · rw [hg2 i (hne i hi)]
      exact ⟨rfl, rfl, rfl, rfl, rfl, rfl⟩
    · rw [hg2 i (hne i hi)]
      exact hx
    · rw [hg2 i (hne i hi)]
      exact hx
  obtain ⟨h3, he, hs3, hg3⟩ := addCountUp_ctx (-(h2.get t).Duplications) ctx S1.root h2 h2.budget
    hinv2.ctx_lt_budget (linkedCtx_of_plug hinv2.linked) (nodup_path_of_inv hinv2)
  have hd2 : (h2.get t).Duplications = (h.get t).Duplications := by
    rw [(clearLinks_get hs t t).2.1, (hval t).2]
  refine ⟨h3, he, ⟨?_, by omega, ⟨A, B, hT, hT1⟩, fun i => ?_, fun hc => ?_⟩⟩
  · refine TreeInv.congr_count hs3 (fun i => ?_) (fun i _ hi => ?_) (fun i _ hi => ?_) hinv2
    · rw [hg3 i]
      split <;> simp
    · rw [hg3 i]
      split <;> simpa using hi
    · rw [hg3 i]
      split <;> simpa using hi
  · have e1 : (h3.get i).Value = (h2.get i).Value
        ∧ (h3.get i).Duplications = (h2.get i).Duplications := by
      rw [hg3 i]
      split <;> simp
    rw [e1.1, e1.2, (clearLinks_get hs t i).1, (clearLinks_get hs t i).2.1]
    exact hval i
  · obtain ⟨c1, c2⟩ := hcnt hc
    obtain ⟨hndS, hndC, hdisj⟩ := nodup_plug hnd1
    have hSsame : ∀ i ∈ S1.ids, h3.get i = hs.get i := by
      intro i hi
      have hit : i ≠ t := hne i (by rw [ids_plug]; simp [hi])
      rw [hg3 i, if_neg (fun hm => hdisj i hi (pathIds_subset ctx i hm)), hg2 i hit]
    have hsum : dupSum h3 S1.ids = dupSum hs S1.ids :=
      dupSum_congr fun i hi => by rw [hSsame i hi]
    refine (counted_plug ctx S1).mpr ⟨Counted.congr_counts (fun i hi => ?_) c1, ?_⟩
    · rw [hSsame i hi]
      exact ⟨rfl, rfl⟩
    · have := @CountedCtx.shift hs h3 (-(h2.get t).Duplications) ctx _ hndC (fun i hi => ?_) c2
      · rw [hsum]
        refine Eq.mp (congrArg (CountedCtx h3 ctx) ?_) this
        rw [hd2]
        ring
      · have hit : i ≠ t := hne i (by
          rw [ids_plug]
          rcases mem_ctxIds_iff.mp hi with hi | hi <;> simp [hi])
        rw [hg3 i, hg2 i hit]
        split <;> simp

theorem delete_rebalance {h3 : Heap} {ctx : List Frame} {S : Shape} {c : Nat}
    (hinv : TreeInv h3 (plug ctx S)) (hc : S.root = some c) :
    ∃ h4 T', UpdateHeight h3 (some c) false = .ok (T'.root, h4)
      ∧ StepOK h3 h4 [] (plug ctx S) T' ∧ T'.root ≠ none
      ∧ (TallBelow h3 S → (∀ f ∈ ctx, Tall h3 f.sib) → Tall h4 T') :=
  updateHeightLoop_spec false ctx S c h3 (some c) h3.budget hinv.ctx_lt_budget hc hinv.linked
    hinv.nodup hinv.height

/-- The count walk after the surgery of `Delete` leaves the stored heights. -/
theorem surgery_heights {hs h3 : Heap} {t : Nat} {d : Int} {fuel : Nat} {p : Ptr}
    (he : addCountUp d fuel (hs.modify t clearLinks) p = .ok h3) (i : Nat) :
    (h3.get i).Height = (hs.get i).Height := by
  rw [addCountUp_Height d _ _ _ _ he i]
  exact (clearLinks_get hs t i).2.2.2

theorem Removed.after_step {h h3 h4 : Heap} {T T1 T' : Shape} {t : Nat} (hr : Removed h h3 T T1 t)
    (hs : StepOK h3 h4 [] T1 T') : Removed h h4 T T' t where
  inv := hr.inv.of_step hs
  size := by rw [hs.same.1, hr.size]
  ids := by
    obtain ⟨A, B, e1, e2⟩ := hr.ids
    exact ⟨A, B, e1, by rw [hs.ids, e2]⟩
  same := fun i => by
    rw [(hs.same.2 i).1, (hs.same.2 i).2.1]
    exact hr.same i
  counted := fun hc => (hs.counted (hr.counted hc)).1

end Hist

namespace Hist

/-! ## `Delete` of a leaf -/

theorem CountedCtx.congr_cctx {h h' : Heap} {ctx : List Frame} {s : Int}
    (hnd : (ctxIds ctx).Nodup)
    (hc : ∀ i ∈ ctxIds ctx, (h'.get i).Duplications = (h.get i).Duplications
      ∧ (h'.get i).Count = (h.get i).Count)
    (hcc : CountedCtx h ctx s) : CountedCtx h' ctx s := by
  have := @CountedCtx.shift h h' 0 ctx s hnd (fun i hi => by
    obtain ⟨a, b⟩ := hc i hi
    exact ⟨a, by simp [b]⟩) hcc
  simpa using this

theorem detach_linked {h : Heap} {f : Frame} {fs : List Frame} {t : Nat}
    (hinv : TreeInv h (plug (f :: fs) (.node .nil t .nil))) :
    Linked (detachLeaf h t) none (plug (f :: fs) .nil) := by
  obtain ⟨ht, hpar, -, -, hg, -, -, -, -⟩ := node_facts hinv
  have hg' : ∀ g, (h.get t).Parent = some g → g < h.size := fun g e => (hg g e).1
  obtain ⟨hndS, hndC, hdisj⟩ := nodup_plug hinv.nodup
  have hctx := linkedCtx_of_plug hinv.linked
  refine (linked_plug (f :: fs) .nil).mpr ⟨trivial, ?_⟩
  simp only [ctxParent] at hpar
  refine LinkedCtx.rechild (by simp) hndC (fun i hi => ⟨by simp, fun hne => ?_⟩)
    (fun f' fs' e => ?_) hctx
  · have hif : ¬ ((h.get t).Parent = some i ∧ (h.get i).Left = some t) := by
      rintro ⟨e, -⟩
      rw [hpar] at e
      exact hne (by simp [ctxParent, e])
    have hif' : ¬ ((h.get t).Parent = some i ∧ (h.get i).Left ≠ some t
        ∧ (h.get i).Right = some t) := by
      rintro ⟨e, -⟩
      rw [hpar] at e
      exact hne (by simp [ctxParent, e])
    rw [detachLeaf_Left _ _ _ hg', detachLeaf_Right _ _ _ hg', if_neg hif, if_neg hif']
    exact ⟨rfl, rfl⟩
  · simp only [List.cons.injEq] at e
    obtain ⟨rfl, rfl⟩ := e
    obtain ⟨-, -, b3, b4, -, -⟩ := hctx
    have hsib : f.sib.root ≠ some t := by
      intro e
      have := Shape.root_mem_ids e
      exact hdisj t (by simp) (mem_ctxIds_cons.mpr (Or.inr (Or.inl this)))
    rw [detachLeaf_Left _ _ _ hg', detachLeaf_Right _ _ _ hg', hpar, b3, b4]
    cases hf : f.isLeft
    · simp [hsib]
    · simp [hsib]

theorem Delete_eq_leaf (h : Heap) (t : Nat) (hd1 : ¬ (h.get t).Duplications > 1)
    (hd2 : ¬ ((h.get t).Parent = none ∧ (h.get t).Left = none ∧ (h.get t).Right = none))
    (hl : (h.get t).Left = none ∧ (h.get t).Right = none) :
    Delete h t =
      (addCountUp (-(((detachLeaf h t).modify t clearLinks).get t).Duplications)
        ((detachLeaf h t).modify t clearLinks).budget ((detachLeaf h t).modify t clearLinks)
        (h.get t).Parent).bind fun h3 =>
      (UpdateHeight h3 (h.get t).Parent false).bind fun x => .ok (none, x.1, x.2) := by
  unfold Delete
  rw [if_neg hd1, if_neg hd2, if_pos hl]
  rfl

theorem Delete_eq_donor (h : Heap) (t r : Nat) (ha : Heap) (hd1 : ¬ (h.get t).Duplications > 1)
    (hd2 : ¬ ((h.get t).Parent = none ∧ (h.get t).Left = none ∧ (h.get t).Right = none))
    (hl : ¬ ((h.get t).Left = none ∧ (h.get t).Right = none))
    (hu : unhookDonor h t = .ok (some r, ha)) :
    Delete h t =
      (if (ha.get r).Parent ≠ some t then
          subCountUpTo (ha.get r).Duplications t ha.budget ha (ha.get r).Parent
        else .ok ha).bind fun hb =>
      (addCountUp (-(((transplant hb t r).modify t clearLinks).get t).Duplications)
        ((transplant hb t r).modify t clearLinks).budget ((transplant hb t r).modify t clearLinks)
        (h.get t).Parent).bind fun h3 =>
      (UpdateHeight h3 (if (hb.get r).Parent = some t then some r else (hb.get r).Parent)
        false).bind fun x => .ok (some r, x.1, x.2) := by
  unfold Delete
  rw [if_neg hd1, if_neg hd2, if_neg hl]
  simp only [hu, bind, Except.bind, pure, Except.pure]
  split <;> rfl
theorem Delete_leaf (h : Heap) (f : Frame) (fs : List Frame) (t : Nat)
    (hinv : TreeInv h (plug (f :: fs) (.node .nil t .nil)))
    (hd : (h.get t).Duplications = 1) :
    ∃ h4 T', Delete h t = .ok (none, T'.root, h4)
      ∧ Removed h h4 (plug (f :: fs) (.node .nil t .nil)) T' t ∧ T'.root ≠ none
      ∧ (Tall h (plug (f :: fs) (.node .nil t .nil)) → Tall h4 T') := by
  obtain ⟨ht, hpar, hleft, hright, hg, -, -, hsm, hlg⟩ := node_facts hinv
  simp only [Shape.root_nil] at hleft hright
  simp only [ctxParent] at hpar
  have hlk := detach_linked hinv
  have hT := ids_plug_node (f :: fs) .nil .nil t
  simp only [Shape.ids_nil, List.append_nil, List.nil_append] at hT
  have hT1 : (plug (f :: fs) .nil).ids = ctxBefore (f :: fs) ++ ctxAfter (f :: fs) := by
    rw [ids_plug]
    simp
  have hst : (h.get t).Smaller ≠ some t := fun e => (hsm t e).2.1 rfl
  obtain ⟨h3, he3, hrem⟩ := removed_of_surgery hinv hT hT1 (detachLeaf_size h t) hlk
    (fun i => ⟨by simp, by simp⟩)
    (fun i _ => detachLeaf_Smaller h t i (fun l e => (hlg l e).1) (fun l e => (hsm l e).1) hst)
    (fun i _ => detachLeaf_Larger h t i (fun l e => (hsm l e).1))
    (fun i hi => by
      rw [detachLeaf_Height]
      apply hinv.height
      rw [hT]
      rcases List.mem_append.mp hi with hi | hi
      · exact List.mem_append.mpr (Or.inl hi)
      · exact List.mem_append.mpr (Or.inr (List.mem_cons_of_mem _ hi)))
    (fun hc => by
      obtain ⟨-, c2⟩ := (counted_plug (f :: fs) _).mp hc
      refine ⟨trivial, ?_⟩
      simp only [Shape.ids_nil, dupSum_nil, zero_add]
      simp only [Shape.ids_node, Shape.ids_nil, List.nil_append, dupSum_cons, dupSum_nil,
        add_zero] at c2
      exact CountedCtx.congr_cctx (nodup_plug hinv.nodup).2.1 (fun i _ => ⟨by simp, by simp⟩) c2)
  obtain ⟨h4, T', he4, hstep, hne, ht4⟩ :=
    @delete_rebalance h3 fs (f.wrap .nil) f.id hrem.inv (by simp)
  have hcong : ∀ X : Shape, Tall h X → Tall h3 X := fun X =>
    Tall.congr_heights fun i _ => by
      rw [surgery_heights he3 i, detachLeaf_Height]
  refine ⟨h4, T', ?_, hrem.after_step hstep, hne, fun tT =>
    ht4 (tallBelow_wrap.mpr ⟨trivial, hcong f.sib ((tall_plug tT).2 f (by simp))⟩)
      (fun g hg => hcong g.sib ((tall_plug tT).2 g (List.mem_cons_of_mem _ hg)))⟩
  have hd1 : ¬ (h.get t).Duplications > 1 := by omega
  have hd2 : ¬ ((h.get t).Parent = none ∧ (h.get t).Left = none ∧ (h.get t).Right = none) := by
    rw [hpar]
    simp
  rw [Delete_eq_leaf h t hd1 hd2 ⟨hleft, hright⟩, hpar]
  simp only [ctxParent] at he3
  rw [he3]
  simp only [Except.bind]
  rw [he4]

end Hist

namespace Hist

/-! ## The transplant keeps the tree linked -/

/-- The donor `r`, a cell outside the tree, takes the place of the node `t`. -/
theorem relabel_linked {hb : Heap} {ctx : List Frame} {L R : Shape} {t r : Nat}
    (hl : Linked hb none (plug ctx (.node L t R)))
    (hnd : (plug ctx (.node L t R)).ids.Nodup) (hr : r < hb.size)
    (hrn : r ∉ (plug ctx (.node L t R)).ids) :
    Linked (transplant hb t r) none (plug ctx (.node L r R)) := by
  obtain ⟨⟨a1, a2, a3, a4, a5, a6⟩, hctx⟩ := (linked_plug ctx _).mp hl
  obtain ⟨hndS, hndC, hdisj⟩ := nodup_plug hnd
  have hlt := ids_lt_size hl
  simp only [Shape.ids_node] at hndS hdisj
  have hndS' := List.nodup_append.mp hndS
  have hndR := List.nodup_cons.mp hndS'.2.1
  have hmem : ∀ i, i ∈ L.ids ∨ i = t ∨ i ∈ R.ids ∨ i ∈ ctxIds ctx →
      i ∈ (plug ctx (.node L t R)).ids := by
    intro i hi
    rw [mem_ids_plug_node]
    rcases hi with hi | hi | hi | hi
    · exact Or.inr (Or.inl hi)
    · exact Or.inr (Or.inr (Or.inl hi))
    · exact Or.inr (Or.inr (Or.inr (Or.inl hi)))
    · rcases mem_ctxIds_iff.mp hi with hi | hi
      · exact Or.inl hi
      · exact Or.inr (Or.inr (Or.inr (Or.inr hi)))
  have hrne : ∀ i, i ∈ L.ids ∨ i = t ∨ i ∈ R.ids ∨ i ∈ ctxIds ctx → i ≠ r := by
    intro i hi e
    exact hrn (e ▸ hmem i hi)
  have hg : ∀ g, (hb.get t).Parent = some g → g < hb.size ∧ g ≠ t := by
    intro g e
    rw [a2] at e
    have hm := ctxParent_mem e
    refine ⟨hlt g (hmem g (Or.inr (Or.inr (Or.inr hm)))), ?_⟩
    rintro rfl
    exact hdisj g (by simp) hm
  have hLb : ∀ l, (hb.get t).Left = some l → l < hb.size := fun l e =>
    hlt l (hmem l (Or.inl (Shape.root_mem_ids (a3 ▸ e))))
  have hRb : ∀ l, (hb.get t).Right = some l → l < hb.size := fun l e =>
    hlt l (hmem l (Or.inr (Or.inr (Or.inl (Shape.root_mem_ids (a4 ▸ e))))))
  have FL := fun i => transplant_Left hb t r i hr hg
  have FR := fun i => transplant_Right hb t r i hr hg
  have FP := fun i => transplant_Parent hb t r i hr hg hLb hRb
  simp only [a2, a3, a4] at FL FR FP
  have hrL : some r ≠ L.root := fun e => hrne r (Or.inl (Shape.root_mem_ids e.symm)) rfl
  have hrR : some r ≠ R.root := fun e =>
    hrne r (Or.inr (Or.inr (Or.inl (Shape.root_mem_ids e.symm)))) rfl
  have hLR : ∀ i ∈ L.ids, R.root ≠ some i := fun i hi e =>
    hndS'.2.2 hi (List.mem_cons_of_mem _ (Shape.root_mem_ids e))
  have hRL : ∀ i ∈ R.ids, L.root ≠ some i := fun i hi e =>
    hndS'.2.2 (Shape.root_mem_ids e) (List.mem_cons_of_mem _ hi)
  have hparS : ∀ i, i ∈ L.ids ∨ i ∈ R.ids → ctxParent ctx ≠ some i := by
    intro i hi e
    refine hdisj i ?_ (ctxParent_mem e)
    rcases hi with hi | hi
    · exact List.mem_append.mpr (Or.inl hi)
    · exact List.mem_append.mpr (Or.inr (List.mem_cons_of_mem _ hi))
  refine (linked_plug ctx _).mpr ⟨⟨by simpa using hr, ?_, ?_, ?_, ?_, ?_⟩, ?_⟩
  · rw [FP r]
    have h1 : ¬ (some r ≠ R.root ∧ R.root = some r) := fun e => e.1 e.2.symm
    have h2 : ¬ (some r ≠ L.root ∧ L.root = some r) := fun e => e.1 e.2.symm
    rw [if_neg h1, if_neg h2, if_pos rfl]
  · rw [FL r, if_pos ⟨rfl, hrL⟩]
  · rw [FR r, if_pos ⟨rfl, hrR⟩]
  · refine Linked.reparent (by simp) hndS'.1 (fun i hi => ?_) (fun j hj => ?_) a5
    · have hir : i ≠ r := hrne i (Or.inl hi)
      have hp := hparS i (Or.inl hi)
      rw [FL i, FR i, FP i]
      refine ⟨?_, ?_, fun hroot => ?_⟩
      · rw [if_neg (fun e => hir e.1), if_neg (fun e => hp e.1)]
      · rw [if_neg (fun e => hir e.1), if_neg (fun e => hp e.1)]
      · rw [if_neg (fun e => hLR i hi e.2), if_neg (fun e => hroot e.2.symm), if_neg hir]
    · have hjL : j ∈ L.ids := Shape.root_mem_ids hj
      rw [FP j, if_neg (fun e => hLR j hjL e.2), if_pos ⟨hrL, hj⟩]
  · refine Linked.reparent (by simp) hndR.2 (fun i hi => ?_) (fun j hj => ?_) a6
    · have hir : i ≠ r := hrne i (Or.inr (Or.inr (Or.inl hi)))
      have hp := hparS i (Or.inr hi)
      rw [FL i, FR i, FP i]
      refine ⟨?_, ?_, fun hroot => ?_⟩
      · rw [if_neg (fun e => hir e.1), if_neg (fun e => hp e.1)]
      · rw [if_neg (fun e => hir e.1), if_neg (fun e => hp e.1)]
      · rw [if_neg (fun e => hroot e.2.symm), if_neg (fun e => hRL i hi e.2), if_neg hir]
    · rw [FP j, if_pos ⟨hrR, hj⟩]
  · have hcS : ∀ i ∈ ctxIds ctx, R.root ≠ some i ∧ L.root ≠ some i ∧ i ≠ r := by
      intro i hi
      refine ⟨fun e => hdisj i ?_ hi, fun e => hdisj i ?_ hi, hrne i (Or.inr (Or.inr (Or.inr hi)))⟩
      · exact List.mem_append.mpr (Or.inr (List.mem_cons_of_mem _ (Shape.root_mem_ids e)))
      · exact List.mem_append.mpr (Or.inl (Shape.root_mem_ids e))
    refine LinkedCtx.rechild (by simp) hndC (fun i hi => ⟨?_, fun hne => ?_⟩)
      (fun f fs e => ?_) hctx
    · obtain ⟨c1, c2, c3⟩ := hcS i hi
      rw [FP i, if_neg (fun e => c1 e.2), if_neg (fun e => c2 e.2), if_neg c3]
    · obtain ⟨-, -, c3⟩ := hcS i hi
      rw [FL i, FR i]
      refine ⟨?_, ?_⟩
      · rw [if_neg (fun e => c3 e.1), if_neg (fun e => hne e.1.symm)]
      · rw [if_neg (fun e => c3 e.1), if_neg (fun e => hne e.1.symm)]
    · subst e
      obtain ⟨-, -, b3, b4, -, -⟩ := hctx
      have hfm : f.id ∈ ctxIds (f :: fs) := mem_ctxIds_cons.mpr (Or.inl rfl)
      obtain ⟨-, -, c3⟩ := hcS f.id hfm
      have hsib : f.sib.root ≠ some t := by
        intro e
        have := Shape.root_mem_ids e
        exact hdisj t (by simp) (mem_ctxIds_cons.mpr (Or.inr (Or.inl this)))
      rw [FL f.id, FR f.id]
      refine ⟨?_, ?_⟩
      · rw [if_neg (fun e => c3 e.1), b3]
        cases hf : f.isLeft
        · simp [ctxParent, hsib]
        · simp [ctxParent, hsib]
      · rw [if_neg (fun e => c3 e.1), b3, b4]
        cases hf : f.isLeft
        · simp [ctxParent, hsib]
        · simp [ctxParent, hsib]

end Hist

namespace Hist

/-- The donor is the left child of `t` and has no right child. -/
theorem direct_linked_left {h : Heap} {ctx : List Frame} {RL R : Shape} {t r : Nat}
    (hl : Linked h none (plug ctx (.node (.node RL r .nil) t R)))
    (hnd : (plug ctx (.node (.node RL r .nil) t R)).ids.Nodup) :
    Linked (transplant h t r) none (plug ctx (.node RL r R)) := by
  obtain ⟨⟨a1, a2, a3, a4, a5, a6⟩, hctx⟩ := (linked_plug ctx _).mp hl
  obtain ⟨r1, r2, r3, r4, r5, -⟩ := a5
  obtain ⟨hndS, hndC, hdisj⟩ := nodup_plug hnd
  have hlt := ids_lt_size hl
  simp only [Shape.ids_node, Shape.ids_nil, List.append_nil, Shape.root_node] at hndS hdisj a3
  have hndS' := List.nodup_append.mp hndS
  have hndL := List.nodup_append.mp hndS'.1
  have hndR := List.nodup_cons.mp hndS'.2.1
  have hmem : ∀ i, i ∈ RL.ids ∨ i = r ∨ i = t ∨ i ∈ R.ids ∨ i ∈ ctxIds ctx →
      i ∈ (plug ctx (.node (.node RL r .nil) t R)).ids := by
    intro i hi
    rw [mem_ids_plug_node]
    simp only [Shape.ids_node, Shape.ids_nil, List.append_nil, List.mem_append, List.mem_cons,
      List.mem_singleton, List.not_mem_nil, or_false]
    rcases hi with hi | hi | hi | hi | hi
    · exact Or.inr (Or.inl (Or.inl hi))
    · exact Or.inr (Or.inl (Or.inr hi))
    · exact Or.inr (Or.inr (Or.inl hi))
    · exact Or.inr (Or.inr (Or.inr (Or.inl hi)))
    · rcases mem_ctxIds_iff.mp hi with hi | hi
      · exact Or.inl hi
      · exact Or.inr (Or.inr (Or.inr (Or.inr hi)))
  have hg : ∀ g, (h.get t).Parent = some g → g < h.size ∧ g ≠ t := by
    intro g e
    rw [a2] at e
    have hm := ctxParent_mem e
    refine ⟨hlt g (hmem g (Or.inr (Or.inr (Or.inr (Or.inr hm))))), ?_⟩
    rintro rfl
    exact hdisj g (by simp) hm
  have hLb : ∀ l, (h.get t).Left = some l → l < h.size := fun l e => by
    rw [a3] at e
    simp only [Option.some.injEq] at e
    exact e ▸ r1
  have hRb : ∀ l, (h.get t).Right = some l → l < h.size := fun l e =>
    hlt l (hmem l (Or.inr (Or.inr (Or.inr (Or.inl (Shape.root_mem_ids (a4 ▸ e)))))))
  have FL := fun i => transplant_Left h t r i r1 hg
  have FR := fun i => transplant_Right h t r i r1 hg
  have FP := fun i => transplant_Parent h t r i r1 hg hLb hRb
  simp only [a2, a3, a4, ne_eq, not_true_eq_false, and_false, false_and, if_false] at FL FR FP
  have hrt : r ≠ t := by
    rintro rfl
    exact hndS'.2.2 (List.mem_append.mpr (Or.inr (List.mem_singleton.mpr rfl)))
      (List.mem_cons_self _ _)
  have hrR : ¬ some r = R.root := fun e =>
    hndS'.2.2 (List.mem_append.mpr (Or.inr (List.mem_singleton.mpr rfl)))
      (List.mem_cons_of_mem _ (Shape.root_mem_ids e.symm))
  have hparS : ∀ i, i ∈ RL.ids ∨ i = r ∨ i ∈ R.ids → ctxParent ctx ≠ some i := by
    intro i hi e
    refine hdisj i ?_ (ctxParent_mem e)
    simp only [List.mem_append, List.mem_cons, List.mem_singleton]
    tauto
  have hRroot : ∀ i, i ∈ RL.ids ∨ i = r ∨ i ∈ ctxIds ctx → R.root ≠ some i := by
    intro i hi e
    have hm := Shape.root_mem_ids e
    rcases hi with hi | hi | hi
    · exact hndS'.2.2 (List.mem_append.mpr (Or.inl hi)) (List.mem_cons_of_mem _ hm)
    · exact hndS'.2.2 (List.mem_append.mpr (Or.inr (List.mem_singleton.mpr hi)))
        (List.mem_cons_of_mem _ hm)
    · exact hdisj i (List.mem_append.mpr (Or.inr (List.mem_cons_of_mem _ hm))) hi
  have hrRL : r ∉ RL.ids := fun hm => hndL.2.2 hm (List.mem_singleton.mpr rfl)
  have hrRR : r ∉ R.ids := fun hm =>
    hndS'.2.2 (List.mem_append.mpr (Or.inr (List.mem_singleton.mpr rfl)))
      (List.mem_cons_of_mem _ hm)
  have hrC : r ∉ ctxIds ctx := fun hm =>
    hdisj r (List.mem_append.mpr (Or.inl (List.mem_append.mpr (Or.inr
      (List.mem_singleton.mpr rfl))))) hm
  refine (linked_plug ctx _).mpr ⟨⟨by simpa using r1, ?_, ?_, ?_, ?_, ?_⟩, ?_⟩
  · rw [FP r, if_neg (fun e => hrR e.2.symm), if_pos rfl]
  · rw [FL r, if_neg (fun e => hparS r (Or.inr (Or.inl rfl)) e.1), r3]
  · rw [FR r, if_pos ⟨rfl, hrR⟩]
  · refine Linked.congr_links (by simp) (fun i hi => ?_) r5
    have hir : i ≠ r := fun e => hrRL (e ▸ hi)
    have hp := hparS i (Or.inl hi)
    rw [FL i, FR i, FP i]
    refine ⟨?_, ?_, ?_⟩
    · rw [if_neg (fun e => hp e.1)]
    · rw [if_neg (fun e => hir e.1), if_neg (fun e => hp e.1)]
    · rw [if_neg (fun e => hRroot i (Or.inl hi) e.2), if_neg hir]
  · refine Linked.reparent (by simp) hndR.2 (fun i hi => ?_) (fun j hj => ?_) a6
    · have hir : i ≠ r := fun e => hrRR (e ▸ hi)
      have hp := hparS i (Or.inr (Or.inr hi))
      rw [FL i, FR i, FP i]
      refine ⟨?_, ?_, fun hroot => ?_⟩
      · rw [if_neg (fun e => hp e.1)]
      · rw [if_neg (fun e => hir e.1), if_neg (fun e => hp e.1)]
      · rw [if_neg (fun e => hroot e.2.symm), if_neg hir]
    · rw [FP j, if_pos ⟨hrR, hj⟩]
  · refine LinkedCtx.rechild (by simp) hndC (fun i hi => ⟨?_, fun hne => ?_⟩)
      (fun f fs e => ?_) hctx
    · have hir : i ≠ r := fun e => hrC (e ▸ hi)
      rw [FP i, if_neg (fun e => hRroot i (Or.inr (Or.inr hi)) e.2), if_neg hir]
    · have hir : i ≠ r := fun e => hrC (e ▸ hi)
      rw [FL i, FR i]
      refine ⟨?_, ?_⟩
      · rw [if_neg (fun e => hne e.1.symm)]
      · rw [if_neg (fun e => hir e.1), if_neg (fun e => hne e.1.symm)]
    · subst e
      obtain ⟨-, -, b3, b4, -, -⟩ := hctx
      have hfm : f.id ∈ ctxIds (f :: fs) := mem_ctxIds_cons.mpr (Or.inl rfl)
      have hir : f.id ≠ r := fun e => hrC (e ▸ hfm)
      have hsib : f.sib.root ≠ some t := by
        intro e
        have := Shape.root_mem_ids e
        exact hdisj t (by simp) (mem_ctxIds_cons.mpr (Or.inr (Or.inl this)))
      rw [FL f.id, FR f.id]
      simp only [Shape.root_node] at b3 b4
      refine ⟨?_, ?_⟩
      · rw [b3]
        cases hf : f.isLeft
        · simp [ctxParent, hsib]
        · simp [ctxParent, hsib]
      · rw [if_neg (fun e => hir e.1), b3, b4]
        cases hf : f.isLeft
        · simp [ctxParent, hsib]
        · simp [ctxParent, hsib]

/-- The donor is the right child of `t`, which has no left child; the donor has no left
child either. -/
theorem direct_linked_right {h : Heap} {ctx : List Frame} {RR : Shape} {t r : Nat}
    (hl : Linked h none (plug ctx (.node .nil t (.node .nil r RR))))
    (hnd : (plug ctx (.node .nil t (.node .nil r RR))).ids.Nodup) :
    Linked (transplant h t r) none (plug ctx (.node .nil r RR)) := by
  obtain ⟨⟨a1, a2, a3, a4, -, a6⟩, hctx⟩ := (linked_plug ctx _).mp hl
  obtain ⟨r1, r2, r3, r4, -, r6⟩ := a6
  obtain ⟨hndS, hndC, hdisj⟩ := nodup_plug hnd
  have hlt := ids_lt_size hl
  simp only [Shape.ids_node, Shape.ids_nil, List.nil_append, Shape.root_node,
    Shape.root_nil] at hndS hdisj a3 a4 r3
  have hnd1 := List.nodup_cons.mp hndS
  have hnd2 := List.nodup_cons.mp hnd1.2
  have hg : ∀ g, (h.get t).Parent = some g → g < h.size ∧ g ≠ t := by
    intro g e
    rw [a2] at e
    have hm := ctxParent_mem e
    refine ⟨hlt g ?_, ?_⟩
    · rw [ids_plug]
      rcases mem_ctxIds_iff.mp hm with hm | hm <;> simp [hm]
    · rintro rfl
      exact hdisj g (by simp) hm
  have hLb : ∀ l, (h.get t).Left = some l → l < h.size := fun l e => by
    rw [a3] at e
    simp at e
  have hRb : ∀ l, (h.get t).Right = some l → l < h.size := fun l e => by
    rw [a4] at e
    simp only [Option.some.injEq] at e
    exact e ▸ r1
  have FL := fun i => transplant_Left h t r i r1 hg
  have FR := fun i => transplant_Right h t r i r1 hg
  have FP := fun i => transplant_Parent h t r i r1 hg hLb hRb
  simp only [a2, a3, a4, ne_eq, not_true_eq_false, and_false, false_and, if_false,
    not_false_eq_true, and_true, reduceCtorEq] at FL FR FP
  have hparS : ∀ i, i = r ∨ i ∈ RR.ids → ctxParent ctx ≠ some i := by
    intro i hi e
    refine hdisj i ?_ (ctxParent_mem e)
    simp only [List.mem_cons]
    tauto
  have hrRR : r ∉ RR.ids := hnd2.1
  have hrC : r ∉ ctxIds ctx := fun hm => hdisj r (by simp) hm
  refine (linked_plug ctx _).mpr ⟨⟨by simpa using r1, ?_, ?_, ?_, trivial, ?_⟩, ?_⟩
  · rw [FP r, if_pos rfl]
  · rw [FL r, if_pos rfl]
    rfl
  · rw [FR r, if_neg (fun e => hparS r (Or.inl rfl) e.1), r4]
  · refine Linked.congr_links (by simp) (fun i hi => ?_) r6
    have hir : i ≠ r := fun e => hrRR (e ▸ hi)
    have hp := hparS i (Or.inr hi)
    rw [FL i, FR i, FP i]
    refine ⟨?_, ?_, ?_⟩
    · rw [if_neg hir, if_neg (fun e => hp e.1)]
    · rw [if_neg (fun e => hp e.1)]
    · rw [if_neg hir]
  · refine LinkedCtx.rechild (by simp) hndC (fun i hi => ⟨?_, fun hne => ?_⟩)
      (fun f fs e => ?_) hctx
    · have hir : i ≠ r := fun e => hrC (e ▸ hi)
      rw [FP i, if_neg hir]
    · have hir : i ≠ r := fun e => hrC (e ▸ hi)
      rw [FL i, FR i]
      refine ⟨?_, ?_⟩
      · rw [if_neg hir, if_neg (fun e => hne e.1.symm)]
      · rw [if_neg (fun e => hne e.1.symm)]
    · subst e
      obtain ⟨-, -, b3, b4, -, -⟩ := hctx
      have hfm : f.id ∈ ctxIds (f :: fs) := mem_ctxIds_cons.mpr (Or.inl rfl)
      have hir : f.id ≠ r := fun e => hrC (e ▸ hfm)
      have hsib : f.sib.root ≠ some t := by
        intro e
        have := Shape.root_mem_ids e
        exact hdisj t (by simp) (mem_ctxIds_cons.mpr (Or.inr (Or.inl this)))
      rw [FL f.id, FR f.id]
      simp only [Shape.root_node] at b3 b4
      refine ⟨?_, ?_⟩
      · rw [if_neg hir, b3]
        cases hf : f.isLeft
        · simp [ctxParent, hsib]
        · simp [ctxParent, hsib]
      · rw [b3, b4]
        cases hf : f.isLeft
        · simp [ctxParent, hsib]
        · simp [ctxParent, hsib]

end Hist

namespace Hist

/-! ## The transplant takes `t` out of the chain -/

theorem transplant_unlinks (hb : Heap) (t r : Nat) (hr : r < hb.size)
    (hs : ∀ s, (hb.get t).Smaller = some s → s < hb.size ∧ s ≠ t)
    (hl : ∀ l, (hb.get t).Larger = some l → l < hb.size)
    (hdon : ((hb.get t).Smaller = some r ∧ (hb.get t).Larger ≠ some r)
      ∨ ((hb.get t).Larger = some r ∧ (hb.get t).Smaller ≠ some r)) (i : Nat) :
    ((transplant hb t r).get i).Smaller =
        (if (hb.get t).Larger = some i then (hb.get t).Smaller else (hb.get i).Smaller)
      ∧ ((transplant hb t r).get i).Larger =
        (if (hb.get t).Smaller = some i then (hb.get t).Larger else (hb.get i).Larger) := by
  rw [transplant_Smaller hb t r i hr hs hl, transplant_Larger hb t r i hr hs]
  rcases hdon with ⟨e1, e2⟩ | ⟨e1, e2⟩
  · by_cases hir : i = r
    · subst hir
      have e2' : ¬ some i = (hb.get t).Larger := fun e => e2 e.symm
      simp [e1, e2, e2']
    · have hri : ¬ r = i := fun e => hir e.symm
      simp only [e1, hir, ne_eq, not_false_eq_true, and_true, false_and, if_false,
        Option.some.injEq, hri]
  · by_cases hir : i = r
    · subst hir
      have e2' : ¬ some i = (hb.get t).Smaller := fun e => e2 e.symm
      simp [e1, e2, e2']
    · have hri : ¬ r = i := fun e => hir e.symm
      simp only [e1, hir, ne_eq, not_false_eq_true, and_true, false_and, if_false,
        Option.some.injEq, hri]

end Hist

namespace Hist

/-! ## `Delete` when the donor is a child of the node -/

theorem rightmost_leaf (h : Heap) (r : Nat) (hr : (h.get r).Right = none) :
    rightmost h h.budget r = .ok r := by
  simp [Heap.budget, rightmost, hr]

theorem leftmost_leaf (h : Heap) (r : Nat) (hr : (h.get r).Left = none) :
    leftmost h h.budget r = .ok r := by
  simp [Heap.budget, leftmost, hr]

theorem Delete_direct_left (h : Heap) (ctx : List Frame) (RL R : Shape) (t r : Nat)
    (hinv : TreeInv h (plug ctx (.node (.node RL r .nil) t R)))
    (hd : (h.get t).Duplications = 1) :
    ∃ h4 T', Delete h t = .ok (some r, T'.root, h4)
      ∧ Removed h h4 (plug ctx (.node (.node RL r .nil) t R)) T' t ∧ T'.root ≠ none
      ∧ (Tall h (plug ctx (.node (.node RL r .nil) t R)) → Tall h4 T') := by
  obtain ⟨ht, hpar, hleft, hright, hg, hsmE, hlgE, hsm, hlg⟩ := node_facts hinv
  obtain ⟨⟨-, -, -, -, a5, -⟩, -⟩ := (linked_plug ctx _).mp hinv.linked
  obtain ⟨r1, r2, r3, r4, -, -⟩ := a5
  simp only [Shape.root_node, Shape.root_nil] at hleft r4
  simp only [Shape.ids_node, Shape.ids_nil] at hsmE hsm
  have hnd := hinv.nodup
  have hT := ids_plug_node ctx (.node RL r .nil) R t
  simp only [Shape.ids_node, Shape.ids_nil] at hT
  have hT1 : (plug ctx (.node RL r R)).ids
      = (ctxBefore ctx ++ (RL.ids ++ [r])) ++ (R.ids ++ ctxAfter ctx) := by
    rw [ids_plug_node]
    simp
  have hsr : (h.get t).Smaller = some r := by
    rw [hsmE]
    simp [← List.append_assoc]
  have hndT : ((ctxBefore ctx ++ (RL.ids ++ [r])) ++ t :: (R.ids ++ ctxAfter ctx)).Nodup :=
    hT ▸ hnd
  have hlr : (h.get t).Larger ≠ some r := by
    intro e
    obtain ⟨-, -, hm⟩ := hlg r e
    exact (List.nodup_append.mp hndT).2.2 (by simp) (List.mem_cons_of_mem _ hm)
  have hrt : r ≠ t := fun e => (hsm r hsr).2.1 e
  have hU := fun i => transplant_unlinks h t r r1 (fun s e => ⟨(hsm s e).1, (hsm s e).2.1⟩)
    (fun l e => (hlg l e).1) (Or.inl ⟨hsr, hlr⟩) i
  obtain ⟨hndS, hndC, hdisj⟩ := nodup_plug hnd
  simp only [Shape.ids_node, Shape.ids_nil, List.append_nil] at hndS hdisj
  have hndS' := List.nodup_append.mp hndS
  have hndL := List.nodup_append.mp hndS'.1
  have hrRL : r ∉ RL.ids := fun hm => hndL.2.2 hm (List.mem_singleton.mpr rfl)
  have hrR : r ∉ R.ids := fun hm =>
    hndS'.2.2 (List.mem_append.mpr (Or.inr (List.mem_singleton.mpr rfl)))
      (List.mem_cons_of_mem _ hm)
  have hrC : r ∉ ctxIds ctx := fun hm =>
    hdisj r (List.mem_append.mpr (Or.inl (List.mem_append.mpr (Or.inr
      (List.mem_singleton.mpr rfl))))) hm
  have hCount := fun i => transplant_Count h t r i r1
  obtain ⟨h3, he3, hrem⟩ := removed_of_surgery hinv hT hT1 (transplant_size h t r)
    (direct_linked_left hinv.linked hnd) (fun i => ⟨by simp, by simp⟩)
    (fun i _ => (hU i).1) (fun i _ => (hU i).2)
    (fun i hi => by
      rw [transplant_Height h t r i r1]
      split
      · exact hinv.height t (by rw [hT]; simp)
      · apply hinv.height
        rw [hT]
        rcases List.mem_append.mp hi with hi | hi
        · exact List.mem_append.mpr (Or.inl hi)
        · exact List.mem_append.mpr (Or.inr (List.mem_cons_of_mem _ hi)))
    (fun hc => by
      obtain ⟨⟨c1, ⟨-, c3, -⟩, c4⟩, c2⟩ := (counted_plug ctx _).mp hc
      simp only [Shape.ids_node, Shape.ids_nil] at c1 c2
      have hsum : ∀ l, dupSum (transplant h t r) l = dupSum h l := fun l =>
        dupSum_congr fun i _ => by simp
      refine ⟨⟨?_, Counted.congr_counts (fun i hi => ?_) c3,
        Counted.congr_counts (fun i hi => ?_) c4⟩, ?_⟩
      · rw [hCount r, if_pos rfl, c1, hsum]
        simp only [dupSum_append, dupSum_cons, dupSum_nil]
        ring
      · have hir : i ≠ r := fun e => hrRL (e ▸ hi)
        rw [hCount i, if_neg hir]
        exact ⟨rfl, by simp⟩
      · have hir : i ≠ r := fun e => hrR (e ▸ hi)
        rw [hCount i, if_neg hir]
        exact ⟨rfl, by simp⟩
      · simp only [Shape.ids_node]
        rw [hsum]
        have := @CountedCtx.congr_cctx h (transplant h t r) ctx _ hndC (fun i hi => by
          have hir : i ≠ r := fun e => hrC (e ▸ hi)
          rw [hCount i, if_neg hir]
          exact ⟨by simp, rfl⟩) c2
        refine Eq.mp (congrArg (CountedCtx _ ctx) ?_) this
        simp only [dupSum_append, dupSum_cons, dupSum_nil]
        ring)
  obtain ⟨h4, T', he4, hstep, hne, ht4⟩ :=
    @delete_rebalance h3 ctx (.node RL r R) r hrem.inv rfl
  have hcong : ∀ X : Shape, r ∉ X.ids → Tall h X → Tall h3 X := fun X hX =>
    Tall.congr_heights fun i hi => by
      have hir : i ≠ r := fun e => hX (e ▸ hi)
      rw [surgery_heights he3 i, transplant_Height h t r i r1, if_neg hir]
  refine ⟨h4, T', ?_, hrem.after_step hstep, hne, fun tT =>
    ht4 ⟨hcong RL hrRL (tall_plug tT).1.2.1.2.1, hcong R hrR (tall_plug tT).1.2.2⟩
      (fun g hg => hcong g.sib (fun hm => hrC (sib_mem_ctxIds hg hm)) ((tall_plug tT).2 g hg))⟩
  have hd1 : ¬ (h.get t).Duplications > 1 := by omega
  have hd2 : ¬ ((h.get t).Parent = none ∧ (h.get t).Left = none ∧ (h.get t).Right = none) := by
    rw [hleft]
    simp
  have hnl : ¬ ((h.get t).Left = none ∧ (h.get t).Right = none) := by
    rw [hleft]
    simp
  have hu : unhookDonor h t = .ok (some r, h) := by
    unfold unhookDonor
    simp [hleft, FindLargestInLeft, rightmost_leaf h r r4, deref, r2, bind, Except.bind, pure,
      Except.pure]
  rw [Delete_eq_donor h t r h hd1 hd2 hnl hu]
  simp only [r2, ne_eq, not_true_eq_false, if_false, Except.bind, if_true]
  rw [hpar, he3]
  simp only
  rw [he4]

theorem Delete_direct_right (h : Heap) (ctx : List Frame) (RR : Shape) (t r : Nat)
    (hinv : TreeInv h (plug ctx (.node .nil t (.node .nil r RR))))
    (hd : (h.get t).Duplications = 1) :
    ∃ h4 T', Delete h t = .ok (some r, T'.root, h4)
      ∧ Removed h h4 (plug ctx (.node .nil t (.node .nil r RR))) T' t ∧ T'.root ≠ none
      ∧ (Tall h (plug ctx (.node .nil t (.node .nil r RR))) → Tall h4 T') := by
  obtain ⟨ht, hpar, hleft, hright, hg, hsmE, hlgE, hsm, hlg⟩ := node_facts hinv
  obtain ⟨⟨-, -, -, -, -, a6⟩, -⟩ := (linked_plug ctx _).mp hinv.linked
  obtain ⟨r1, r2, r3, r4, -, -⟩ := a6
  simp only [Shape.root_node, Shape.root_nil] at hleft hright r3
  simp only [Shape.ids_node, Shape.ids_nil, List.nil_append, List.append_nil] at hsmE hsm hlgE hlg
  have hnd := hinv.nodup
  have hT := ids_plug_node ctx .nil (.node .nil r RR) t
  simp only [Shape.ids_node, Shape.ids_nil, List.nil_append, List.append_nil] at hT
  have hT1 : (plug ctx (.node .nil r RR)).ids
      = ctxBefore ctx ++ (r :: RR.ids ++ ctxAfter ctx) := by
    rw [ids_plug_node]
    simp
  have hlr : (h.get t).Larger = some r := by
    rw [hlgE]
    simp
  have hndT : (ctxBefore ctx ++ t :: (r :: RR.ids ++ ctxAfter ctx)).Nodup := hT ▸ hnd
  have hsr : (h.get t).Smaller ≠ some r := by
    intro e
    obtain ⟨-, -, hm⟩ := hsm r e
    exact (List.nodup_append.mp hndT).2.2 hm (by simp)
  have hU := fun i => transplant_unlinks h t r r1 (fun s e => ⟨(hsm s e).1, (hsm s e).2.1⟩)
    (fun l e => (hlg l e).1) (Or.inr ⟨hlr, hsr⟩) i
  obtain ⟨hndS, hndC, hdisj⟩ := nodup_plug hnd
  simp only [Shape.ids_node, Shape.ids_nil, List.nil_append] at hndS hdisj
  have hnd1 := List.nodup_cons.mp hndS
  have hnd2 := List.nodup_cons.mp hnd1.2
  have hrRR : r ∉ RR.ids := hnd2.1
  have hrC : r ∉ ctxIds ctx := fun hm => hdisj r (by simp) hm
  have hCount := fun i => transplant_Count h t r i r1
  obtain ⟨h3, he3, hrem⟩ := removed_of_surgery hinv hT hT1 (transplant_size h t r)
    (direct_linked_right hinv.linked hnd) (fun i => ⟨by simp, by simp⟩)
    (fun i _ => (hU i).1) (fun i _ => (hU i).2)
    (fun i hi => by
      rw [transplant_Height h t r i r1]
      split
      · exact hinv.height t (by rw [hT]; simp)
      · apply hinv.height
        rw [hT]
        rcases List.mem_append.mp hi with hi | hi
        · exact List.mem_append.mpr (Or.inl hi)
        · exact List.mem_append.mpr (Or.inr (List.mem_cons_of_mem _ hi)))
    (fun hc => by
      obtain ⟨⟨c1, -, ⟨-, -, c4⟩⟩, c2⟩ := (counted_plug ctx _).mp hc
      simp only [Shape.ids_node, Shape.ids_nil, List.nil_append] at c1 c2
      have hsum : ∀ l, dupSum (transplant h t r) l = dupSum h l := fun l =>
        dupSum_congr fun i _ => by simp
      refine ⟨⟨?_, trivial, Counted.congr_counts (fun i hi => ?_) c4⟩, ?_⟩
      · rw [hCount r, if_pos rfl, c1, hsum]
        simp only [Shape.ids_nil, List.nil_append, dupSum_cons]
        ring
      · have hir : i ≠ r := fun e => hrRR (e ▸ hi)
        rw [hCount i, if_neg hir]
        exact ⟨rfl, by simp⟩
      · simp only [Shape.ids_node, Shape.ids_nil, List.nil_append]
        rw [hsum]
        have := @CountedCtx.congr_cctx h (transplant h t r) ctx _ hndC (fun i hi => by
          have hir : i ≠ r := fun e => hrC (e ▸ hi)
          rw [hCount i, if_neg hir]
          exact ⟨by simp, rfl⟩) c2
        refine Eq.mp (congrArg (CountedCtx _ ctx) ?_) this
        simp only [dupSum_cons]
        ring)
  obtain ⟨h4, T', he4, hstep, hne, ht4⟩ :=
    @delete_rebalance h3 ctx (.node .nil r RR) r hrem.inv rfl
  have hcong : ∀ X : Shape, r ∉ X.ids → Tall h X → Tall h3 X := fun X hX =>
    Tall.congr_heights fun i hi => by
      have hir : i ≠ r := fun e => hX (e ▸ hi)
      rw [surgery_heights he3 i, transplant_Height h t r i r1, if_neg hir]
  refine ⟨h4, T', ?_, hrem.after_step hstep, hne, fun tT =>
    ht4 ⟨trivial, hcong RR hrRR (tall_plug tT).1.2.2.2.2⟩
      (fun g hg => hcong g.sib (fun hm => hrC (sib_mem_ctxIds hg hm)) ((tall_plug tT).2 g hg))⟩
  have hd1 : ¬ (h.get t).Duplications > 1 := by omega
  have hd2 : ¬ ((h.get t).Parent = none ∧ (h.get t).Left = none ∧ (h.get t).Right = none) := by
    rw [hright]
    simp
  have hnl : ¬ ((h.get t).Left = none ∧ (h.get t).Right = none) := by
    rw [hright]
    simp
  have hu : unhookDonor h t = .ok (some r, h) := by
    unfold unhookDonor
    simp [hleft, hright, FindSmallestInRight, leftmost_leaf h r r3, deref, r2, bind, Except.bind,
      pure, Except.pure]
  rw [Delete_eq_donor h t r h hd1 hd2 hnl hu]
  simp only [r2, ne_eq, not_true_eq_false, if_false, Except.bind, if_true]
  rw [hpar, he3]
  simp only
  rw [he4]

end Hist

namespace Hist

/-! ## Unhooking a donor that is deeper in the subtree -/

theorem spliceDonorRight_Parent (h : Heap) (r rp i : Nat)
    (hrl : ∀ rl, (h.get r).Left = some rl → rl < h.size) :
    ((spliceDonorRight h r rp).get i).Parent =
      if (h.get r).Left = some i then (h.get r).Parent else (h.get i).Parent := by
  unfold spliceDonorRight
  cases hl : (h.get r).Left with
  | none => simp [Heap.get_modify_Parent]
  | some rl =>
    simp only [Option.some.injEq]
    rw [Heap.get_modify_Parent _ _ _ _ (by intro n; rfl), modify_Parent_get _ _ _ _ (hrl rl hl)]
    by_cases hi : i = rl
    · simp [hi]
    · have : rl ≠ i := fun e => hi e.symm
      simp [hi, this]

theorem spliceDonorRight_Right (h : Heap) (r rp i : Nat) (hrp : rp < h.size) :
    ((spliceDonorRight h r rp).get i).Right =
      if i = rp then (h.get r).Left else (h.get i).Right := by
  unfold spliceDonorRight
  cases hl : (h.get r).Left with
  | none => simp [modify_Right_get, hrp]
  | some rl =>
    simp only
    rw [modify_Right_get _ _ _ _ (by simpa using hrp)]
    simp [Heap.get_modify_Left, Heap.get_modify_Right, hl]

theorem spliceDonorLeft_Parent (h : Heap) (r rp i : Nat)
    (hrl : ∀ rl, (h.get r).Right = some rl → rl < h.size) :
    ((spliceDonorLeft h r rp).get i).Parent =
      if (h.get r).Right = some i then (h.get r).Parent else (h.get i).Parent := by
  unfold spliceDonorLeft
  cases hl : (h.get r).Right with
  | none => simp [Heap.get_modify_Parent]
  | some rl =>
    simp only [Option.some.injEq]
    rw [Heap.get_modify_Parent _ _ _ _ (by intro n; rfl), modify_Parent_get _ _ _ _ (hrl rl hl)]
    by_cases hi : i = rl
    · simp [hi]
    · have : rl ≠ i := fun e => hi e.symm
      simp [hi, this]

theorem spliceDonorLeft_Left (h : Heap) (r rp i : Nat) (hrp : rp < h.size) :
    ((spliceDonorLeft h r rp).get i).Left =
      if i = rp then (h.get r).Right else (h.get i).Left := by
  unfold spliceDonorLeft
  cases hl : (h.get r).Right with
  | none => simp [modify_Left_get, hrp]
  | some rl =>
    simp only
    rw [modify_Left_get _ _ _ _ (by simpa using hrp)]
    simp [Heap.get_modify_Left, Heap.get_modify_Right, hl]

/-- The count walk from the old parent of the donor up to `t`, not including it. -/
theorem subCountUpTo_ctx (d : Int) (t : Nat) (ft : Frame) (rest : List Frame)
    (hft : ft.id = t) : ∀ (spine : List Frame) (child : Ptr) (h : Heap) (fuel : Nat),
    spine.length < fuel → LinkedCtx h (spine ++ ft :: rest) child →
    (pathIds spine).Nodup → (∀ i ∈ pathIds spine, i ≠ t) →
    ∃ h', subCountUpTo d t fuel h (ctxParent (spine ++ ft :: rest)) = .ok h'
      ∧ h'.size = h.size
      ∧ ∀ i, h'.get i = if i ∈ pathIds spine then
          { h.get i with Count := (h.get i).Count - d } else h.get i
  | [], _, h, fuel, hf, _, _, _ => by
    refine ⟨h, ?_, rfl, fun i => by simp [pathIds]⟩
    cases fuel with
    | zero => simp at hf
    | succ k => simp [ctxParent, subCountUpTo, hft]
  | f :: fs, _, h, 0, hf, _, _, _ => by simp at hf
  | f :: fs, child, h, k + 1, hf, hl, hnd, hne => by
    obtain ⟨h1, h2, h3, h4, h5, h6⟩ := hl
    simp only [pathIds, List.map_cons, List.nodup_cons] at hnd
    have hft' : f.id ≠ t := hne f.id (by simp [pathIds])
    have hl' : LinkedCtx (h.modify f.id fun n => { n with Count := n.Count - d })
        (fs ++ ft :: rest) (some f.id) :=
      LinkedCtx.congr_ctx (by simp) (fun i _ => by
        rw [Heap.get_modify]
        split
        · rename_i hc
          rw [hc.1]
          exact ⟨rfl, rfl, rfl⟩
        · exact ⟨rfl, rfl, rfl⟩) h6
    obtain ⟨h', he, hs, hg⟩ := subCountUpTo_ctx d t ft rest hft fs (some f.id) _ k
      (by simp at hf; omega) hl' hnd.2
      (fun i hi => hne i (by simp only [pathIds, List.map_cons, List.mem_cons]; exact Or.inr hi))
    refine ⟨h', ?_, by simpa using hs, fun i => ?_⟩
    · simp only [List.cons_append, ctxParent, subCountUpTo, if_neg hft', h2]
      exact he
    · rw [hg i]
      simp only [pathIds, List.map_cons, List.mem_cons]
      by_cases hif : i = f.id
      · subst hif
        have : f.id ∉ List.map (fun f => f.id) fs := hnd.1
        simp [pathIds, this, Heap.get_modify, h1]
      · by_cases him : i ∈ pathIds fs
        · simp [him, hif, Heap.get_modify]
        · have him' : i ∉ List.map (fun f => f.id) fs := him
          simp [him, him', hif, Heap.get_modify]

end Hist

namespace Hist

theorem splice_right_linked {h : Heap} {s : Frame} {cs : List Frame} {RL : Shape} {r : Nat}
    (hs : s.isLeft = false)
    (hl : Linked h none (plug (s :: cs) (.node RL r .nil)))
    (hnd : (plug (s :: cs) (.node RL r .nil)).ids.Nodup) :
    Linked (spliceDonorRight h r s.id) none (plug (s :: cs) RL) := by
  obtain ⟨⟨a1, a2, a3, a4, a5, -⟩, hctx⟩ := (linked_plug (s :: cs) _).mp hl
  obtain ⟨hndS, hndC, hdisj⟩ := nodup_plug hnd
  have hlt := ids_lt_size hl
  simp only [Shape.ids_node, Shape.ids_nil, List.append_nil] at hndS hdisj
  have hndS' := List.nodup_append.mp hndS
  have hsid : s.id < h.size := hctx.1
  have hRLlt : ∀ rl, (h.get r).Left = some rl → rl < h.size := by
    intro rl e
    rw [a3] at e
    apply hlt
    rw [ids_plug]
    simp [Shape.root_mem_ids e]
  have FP := fun i => spliceDonorRight_Parent h r s.id i hRLlt
  have FR := fun i => spliceDonorRight_Right h r s.id i hsid
  simp only [a2, a3, ctxParent] at FP FR
  have hsm : s.id ∈ ctxIds (s :: cs) := mem_ctxIds_cons.mpr (Or.inl rfl)
  refine (linked_plug (s :: cs) RL).mpr ⟨?_, ?_⟩
  · refine Linked.reparent (by simp) hndS'.1 (fun i hi => ⟨by simp, ?_, fun hroot => ?_⟩)
      (fun j hj => ?_) a5
    · have his : i ≠ s.id := fun e =>
        hdisj i (List.mem_append.mpr (Or.inl hi)) (e ▸ hsm)
      rw [FR i, if_neg his]
    · rw [FP i, if_neg (fun e => hroot e.symm)]
    · rw [FP j, if_pos hj]
      rfl
  · refine LinkedCtx.rechild (by simp) hndC (fun i hi => ⟨?_, fun hne => ⟨by simp, ?_⟩⟩)
      (fun f fs e => ?_) hctx
    · have : RL.root ≠ some i := fun e =>
        hdisj i (List.mem_append.mpr (Or.inl (Shape.root_mem_ids e))) hi
      rw [FP i, if_neg this]
    · have his : i ≠ s.id := fun e => hne (by simp [ctxParent, e])
      rw [FR i, if_neg his]
    · simp only [List.cons.injEq] at e
      obtain ⟨rfl, rfl⟩ := e
      obtain ⟨-, -, b3, b4, -, -⟩ := hctx
      rw [FR s.id, if_pos rfl, spliceDonorRight_Left, b3]
      simp [hs]

theorem splice_left_linked {h : Heap} {s : Frame} {cs : List Frame} {RR : Shape} {r : Nat}
    (hs : s.isLeft = true)
    (hl : Linked h none (plug (s :: cs) (.node .nil r RR)))
    (hnd : (plug (s :: cs) (.node .nil r RR)).ids.Nodup) :
    Linked (spliceDonorLeft h r s.id) none (plug (s :: cs) RR) := by
  obtain ⟨⟨a1, a2, a3, a4, -, a6⟩, hctx⟩ := (linked_plug (s :: cs) _).mp hl
  obtain ⟨hndS, hndC, hdisj⟩ := nodup_plug hnd
  have hlt := ids_lt_size hl
  simp only [Shape.ids_node, Shape.ids_nil, List.nil_append] at hndS hdisj
  have hndS' := List.nodup_cons.mp hndS
  have hsid : s.id < h.size := hctx.1
  have hRLlt : ∀ rl, (h.get r).Right = some rl → rl < h.size := by
    intro rl e
    rw [a4] at e
    apply hlt
    rw [ids_plug]
    simp [Shape.root_mem_ids e]
  have FP := fun i => spliceDonorLeft_Parent h r s.id i hRLlt
  have FL := fun i => spliceDonorLeft_Left h r s.id i hsid
  simp only [a2, a4, ctxParent] at FP FL
  have hsm : s.id ∈ ctxIds (s :: cs) := mem_ctxIds_cons.mpr (Or.inl rfl)
  refine (linked_plug (s :: cs) RR).mpr ⟨?_, ?_⟩
  · refine Linked.reparent (by simp) hndS'.2 (fun i hi => ⟨?_, by simp, fun hroot => ?_⟩)
      (fun j hj => ?_) a6
    · have his : i ≠ s.id := fun e =>
        hdisj i (List.mem_cons_of_mem _ hi) (e ▸ hsm)
      rw [FL i, if_neg his]
    · rw [FP i, if_neg (fun e => hroot e.symm)]
    · rw [FP j, if_pos hj]
      rfl
  · refine LinkedCtx.rechild (by simp) hndC (fun i hi => ⟨?_, fun hne => ⟨?_, by simp⟩⟩)
      (fun f fs e => ?_) hctx
    · have : RR.root ≠ some i := fun e =>
        hdisj i (List.mem_cons_of_mem _ (Shape.root_mem_ids e)) hi
      rw [FP i, if_neg this]
    · have his : i ≠ s.id := fun e => hne (by simp [ctxParent, e])
      rw [FL i, if_neg his]
    · simp only [List.cons.injEq] at e
      obtain ⟨rfl, rfl⟩ := e
      obtain ⟨-, -, b3, b4, -, -⟩ := hctx
      rw [FL s.id, if_pos rfl, spliceDonorLeft_Right, b4]
      simp [hs]

end Hist

namespace Hist

/-! ## `Delete` when the donor is deeper in the left subtree -/

theorem plug_spine_left (ctx spine : List Frame) (t : Nat) (R X : Shape) :
    plug ctx (.node (plug spine X) t R) = plug (spine ++ ⟨true, t, R⟩ :: ctx) X := by
  rw [plug_append]
  simp [plug, Frame.wrap]

theorem plug_spine_right (ctx spine : List Frame) (t : Nat) (L X : Shape) :
    plug ctx (.node L t (plug spine X)) = plug (spine ++ ⟨false, t, L⟩ :: ctx) X := by
  rw [plug_append]
  simp [plug, Frame.wrap]

theorem pathIds_append (a b : List Frame) : pathIds (a ++ b) = pathIds a ++ pathIds b := by
  simp [pathIds]

/-- The store after the donor `r` is unhooked from the spine and the counts of the spine
are lowered. -/
theorem deep_left_prep (h : Heap) (ctx : List Frame) (s : Frame) (cs : List Frame)
    (RL R : Shape) (t r : Nat) (hsp : s.isLeft = false)
    (hinv : TreeInv h (plug ctx (.node (plug (s :: cs) (.node RL r .nil)) t R))) :
    ∃ hb, subCountUpTo ((spliceDonorRight h r s.id).get r).Duplications t
        (spliceDonorRight h r s.id).budget (spliceDonorRight h r s.id)
        ((spliceDonorRight h r s.id).get r).Parent = .ok hb
      ∧ hb.size = h.size
      ∧ Linked hb none (plug ctx (.node (plug (s :: cs) RL) t R))
      ∧ (∀ i, (hb.get i).Value = (h.get i).Value
          ∧ (hb.get i).Duplications = (h.get i).Duplications
          ∧ (hb.get i).Smaller = (h.get i).Smaller ∧ (hb.get i).Larger = (h.get i).Larger
          ∧ (hb.get i).Height = (h.get i).Height
          ∧ (hb.get i).Count = (h.get i).Count
              - (if i ∈ pathIds (s :: cs) then (h.get r).Duplications else 0))
      ∧ (hb.get r).Parent = some s.id
      ∧ ((spliceDonorRight h r s.id).get r).Parent = some s.id := by
  have hinv' := hinv
  rw [plug_spine_left] at hinv'
  obtain ⟨hr, hrpar, hrleft, hrright, hrg, -, -, -, -⟩ := node_facts hinv'
  have hnd := hinv'.nodup
  have hla := splice_right_linked hsp hinv'.linked hnd
  set ha := spliceDonorRight h r s.id with hha
  obtain ⟨hndS, hndC, hdisj⟩ := nodup_plug hnd
  have hpnd : (pathIds ((s :: cs) ++ ⟨true, t, R⟩ :: ctx)).Nodup := nodup_pathIds hndC
  rw [pathIds_append] at hpnd
  have hpnd' := List.nodup_append.mp hpnd
  have hpt : ∀ i ∈ pathIds (s :: cs), i ≠ t := by
    intro i hi e
    exact hpnd'.2.2 hi (by simp [pathIds, e])
  have hrpa : (ha.get r).Parent = some s.id := by
    rw [hha, spliceDonorRight_Parent _ _ _ _ (by
      intro rl e
      rw [hrleft] at e
      apply ids_lt_size hinv'.linked
      rw [ids_plug]
      simp [Shape.root_mem_ids e]), hrleft, hrpar]
    have : RL.root ≠ some r := fun e => by
      simp only [Shape.ids_node, Shape.ids_nil, List.append_nil] at hndS
      exact (List.nodup_append.mp hndS).2.2 (Shape.root_mem_ids e) (List.mem_singleton.mpr rfl)
    rw [if_neg this]
    rfl
  have hfuel : (s :: cs).length < ha.budget := by
    have := hinv'.ctx_lt_budget
    simp only [Heap.budget, List.length_append, List.length_cons, hha,
      spliceDonorRight_size] at this ⊢
    omega
  obtain ⟨hb, he, hsb, hgb⟩ := subCountUpTo_ctx (ha.get r).Duplications t ⟨true, t, R⟩ ctx rfl
    (s :: cs) RL.root ha ha.budget hfuel (linkedCtx_of_plug hla) hpnd'.1 hpt
  have hctxP : ctxParent ((s :: cs) ++ ⟨true, t, R⟩ :: ctx) = some s.id := rfl
  rw [hctxP, ← hrpa] at he
  have hrp : r ∉ pathIds (s :: cs) := by
    intro hm
    exact hdisj r (by simp) (pathIds_subset _ r (by rw [pathIds_append]; simp [hm]))
  refine ⟨hb, he, by simpa [hha] using hsb, ?_, fun i => ?_, ?_, hrpa⟩
  · rw [plug_spine_left]
    refine Linked.congr_links (by omega) (fun i _ => ?_) hla
    rw [hgb i]
    split <;> exact ⟨rfl, rfl, rfl⟩
  · rw [hgb i]
    split
    · simp [hha]
    · simp [hha]
  · rw [hgb r, if_neg hrp, hrpa]

theorem Delete_deep_left (h : Heap) (ctx : List Frame) (s : Frame) (cs : List Frame)
    (RL R : Shape) (t r c : Nat) (hsp : ∀ f ∈ s :: cs, f.isLeft = false)
    (hinv : TreeInv h (plug ctx (.node (plug (s :: cs) (.node RL r .nil)) t R)))
    (hd : (h.get t).Duplications = 1)
    (hc : (plug (s :: cs) (.node RL r .nil)).root = some c)
    (hrm : rightmost h h.budget c = .ok r) :
    ∃ h4 T', Delete h t = .ok (some r, T'.root, h4)
      ∧ Removed h h4 (plug ctx (.node (plug (s :: cs) (.node RL r .nil)) t R)) T' t
      ∧ T'.root ≠ none
      ∧ (Tall h (plug ctx (.node (plug (s :: cs) (.node RL r .nil)) t R)) → Tall h4 T') := by
  have hs0 : s.isLeft = false := hsp s (by simp)
  obtain ⟨hb, heb, hsb, hlb, hFb, hrpb, hrpa⟩ := deep_left_prep h ctx s cs RL R t r hs0 hinv
  obtain ⟨ht, hpar, hleft, hright, hg, hsmE, hlgE, hsm, hlg⟩ := node_facts hinv
  have hinv' := hinv
  rw [plug_spine_left] at hinv'
  obtain ⟨hr, hrpar, hrleft, hrright, -, -, -, -, -⟩ := node_facts hinv'
  have hnd := hinv.nodup
  have hafter := ctxAfter_of_right hsp
  have hLids : (plug (s :: cs) (.node RL r .nil)).ids = (plug (s :: cs) RL).ids ++ [r] := by
    rw [ids_plug, ids_plug, hafter]
    simp
  have hT := ids_plug_node ctx (plug (s :: cs) (.node RL r .nil)) R t
  have hT1 : (plug ctx (.node (plug (s :: cs) RL) r R)).ids
      = (ctxBefore ctx ++ (plug (s :: cs) (.node RL r .nil)).ids) ++ (R.ids ++ ctxAfter ctx) := by
    rw [ids_plug_node, hLids]
    simp
  have hndT := hT ▸ hnd
  have hsr : (h.get t).Smaller = some r := by
    rw [hsmE, hLids]
    simp [← List.append_assoc]
  have hlr : (h.get t).Larger ≠ some r := by
    intro e
    obtain ⟨-, -, hm⟩ := hlg r e
    refine (List.nodup_append.mp hndT).2.2 ?_ (List.mem_cons_of_mem _ hm)
    rw [hLids]
    simp
  have hrt : r ≠ t := fun e => (hsm r hsr).2.1 e
  -- the tree without the donor
  have hmid : (plug ctx (.node (plug (s :: cs) RL) t R)).ids
      = (ctxBefore ctx ++ (plug (s :: cs) RL).ids) ++ t :: (R.ids ++ ctxAfter ctx) :=
    ids_plug_node _ _ _ _
  have hsub : ((ctxBefore ctx ++ (plug (s :: cs) RL).ids) ++ t :: (R.ids ++ ctxAfter ctx)).Sublist
      ((ctxBefore ctx ++ (plug (s :: cs) (.node RL r .nil)).ids)
        ++ t :: (R.ids ++ ctxAfter ctx)) := by
    rw [hLids]
    refine List.Sublist.append (List.Sublist.append (List.Sublist.refl _) ?_)
      (List.Sublist.refl _)
    exact List.sublist_append_left _ _
  have hndmid : (plug ctx (.node (plug (s :: cs) RL) t R)).ids.Nodup := by
    rw [hmid]
    exact List.Nodup.sublist hsub hndT
  have hrmid : r ∉ (plug ctx (.node (plug (s :: cs) RL) t R)).ids := by
    rw [hmid]
    have h1 := List.nodup_append.mp hndT
    rw [hLids, ← List.append_assoc] at h1
    have h2 := List.nodup_append.mp h1.1
    intro hm
    rcases List.mem_append.mp hm with hm | hm
    · exact h2.2.2 hm (List.mem_singleton.mpr rfl)
    · rcases List.mem_cons.mp hm with hm | hm
      · exact hrt hm
      · exact h1.2.2 (List.mem_append.mpr (Or.inr (List.mem_singleton.mpr rfl)))
          (List.mem_cons_of_mem _ hm)
  have hrb : r < hb.size := by omega
  have hlink := relabel_linked hlb hndmid hrb hrmid
  have hU := fun i => transplant_unlinks hb t r hrb
    (fun s' e => by
      rw [(hFb t).2.2.1] at e
      rw [hsb]
      exact ⟨(hsm s' e).1, (hsm s' e).2.1⟩)
    (fun l e => by
      rw [(hFb t).2.2.2.1] at e
      rw [hsb]
      exact (hlg l e).1)
    (Or.inl ⟨by rw [(hFb t).2.2.1]; exact hsr, by rw [(hFb t).2.2.2.1]; exact hlr⟩) i
  have hCount := fun i => transplant_Count hb t r i hrb
  obtain ⟨hndS, hndC, hdisj⟩ := nodup_plug hnd
  have hpathL : ∀ i ∈ pathIds (s :: cs), i ∈ (plug (s :: cs) RL).ids := by
    intro i hi
    rw [ids_plug]
    rcases mem_ctxIds_iff.mp (pathIds_subset _ i hi) with hm | hm
    · simp [hm]
    · simp [hm]
  have htp : t ∉ pathIds (s :: cs) := by
    intro hm
    have := hpathL t hm
    have h1 := List.nodup_append.mp hndT
    exact h1.2.2 (List.mem_append.mpr (Or.inr (by rw [hLids]; simp [this])))
      (List.mem_cons_self _ _)
  obtain ⟨h3, he3, hrem⟩ := removed_of_surgery hinv hT hT1 (by simpa using hsb) hlink
    (fun i => ⟨by simp [(hFb i).1], by simp [(hFb i).2.1]⟩)
    (fun i _ => by
      rw [(hU i).1, (hFb t).2.2.1, (hFb t).2.2.2.1, (hFb i).2.2.1])
    (fun i _ => by
      rw [(hU i).2, (hFb t).2.2.1, (hFb t).2.2.2.1, (hFb i).2.2.2.1])
    (fun i hi => by
      rw [transplant_Height hb t r i hrb]
      split
      · rw [(hFb t).2.2.2.2.1]
        exact hinv.height t (by rw [hT]; simp)
      · rw [(hFb i).2.2.2.2.1]
        apply hinv.height
        rw [hT]
        rcases List.mem_append.mp hi with hi | hi
        · exact List.mem_append.mpr (Or.inl hi)
        · exact List.mem_append.mpr (Or.inr (List.mem_cons_of_mem _ hi)))
    (fun hcn => by
      obtain ⟨⟨c1, cL, cR⟩, c2⟩ := (counted_plug ctx _).mp hcn
      obtain ⟨⟨cr, cRL, -⟩, cS⟩ := (counted_plug (s :: cs) _).mp cL
      simp only [Shape.ids_node, Shape.ids_nil] at c1 c2 cr cS
      have hsum : ∀ l, dupSum (transplant hb t r) l = dupSum h l := fun l =>
        dupSum_congr fun i _ => by simp [(hFb i).2.1]
      have hndL : (plug (s :: cs) (.node RL r .nil)).ids.Nodup := by
        simp only [Shape.ids_node] at hndS
        exact (List.nodup_append.mp hndS).1
      obtain ⟨hndRL, hndSp, hdisjSp⟩ := nodup_plug hndL
      simp only [Shape.ids_node, Shape.ids_nil, List.append_nil] at hdisjSp
      have hcellS : ∀ i, i ≠ r → ((transplant hb t r).get i).Count = (h.get i).Count
          - (if i ∈ pathIds (s :: cs) then (h.get r).Duplications else 0) := by
        intro i hir
        rw [hCount i, if_neg hir, (hFb i).2.2.2.2.2]
      have hRLin : ∀ i ∈ RL.ids, i ≠ r ∧ i ∉ pathIds (s :: cs) := by
        intro i hi
        refine ⟨fun e => ?_, fun hm => ?_⟩
        · simp only [Shape.ids_node, Shape.ids_nil, List.append_nil] at hndRL
          exact (List.nodup_append.mp hndRL).2.2 hi (List.mem_singleton.mpr e)
        · exact hdisjSp i (List.mem_append.mpr (Or.inl hi)) (pathIds_subset _ i hm)
      have hRin : ∀ i ∈ R.ids, i ≠ r ∧ i ∉ pathIds (s :: cs) := by
        intro i hi
        have h1 := List.nodup_append.mp hndT
        refine ⟨fun e => ?_, fun hm => ?_⟩
        · exact h1.2.2 (List.mem_append.mpr (Or.inr (by rw [hLids]; simp [e])))
            (List.mem_cons_of_mem _ (List.mem_append.mpr (Or.inl hi)))
        · exact h1.2.2 (List.mem_append.mpr (Or.inr (by rw [hLids]; simp [hpathL i hm])))
            (List.mem_cons_of_mem _ (List.mem_append.mpr (Or.inl hi)))
      have hCin : ∀ i ∈ ctxIds ctx, i ≠ r ∧ i ∉ pathIds (s :: cs) := by
        intro i hi
        refine ⟨fun e => ?_, fun hm => ?_⟩
        · refine hdisj i ?_ hi
          simp only [Shape.ids_node, List.mem_append]
          exact Or.inl (by rw [hLids]; simp [e])
        · refine hdisj i ?_ hi
          simp only [Shape.ids_node, List.mem_append]
          exact Or.inl (by rw [hLids]; simp [hpathL i hm])
      have hkeep : ∀ i, i ≠ r → i ∉ pathIds (s :: cs) →
          ((transplant hb t r).get i).Count = (h.get i).Count
            ∧ ((transplant hb t r).get i).Duplications = (h.get i).Duplications := by
        intro i h1 h2
        rw [hcellS i h1, if_neg h2]
        exact ⟨by simp, by simp [(hFb i).2.1]⟩
      have cRL' : Counted (transplant hb t r) RL :=
        Counted.congr_counts (fun i hi => hkeep i (hRLin i hi).1 (hRLin i hi).2) cRL
      have cR' : Counted (transplant hb t r) R :=
        Counted.congr_counts (fun i hi => hkeep i (hRin i hi).1 (hRin i hi).2) cR
      have cS' : CountedCtx (transplant hb t r) (s :: cs) (dupSum (transplant hb t r) RL.ids) := by
        have := @CountedCtx.shift h (transplant hb t r) (-(h.get r).Duplications) (s :: cs) _
          hndSp (fun i hi => by
            have hir : i ≠ r := fun e => hdisjSp i (by simp [e]) hi
            rw [hcellS i hir]
            refine ⟨by simp [(hFb i).2.1], ?_⟩
            split <;> ring) cS
        rw [hsum]
        refine Eq.mp (congrArg (CountedCtx _ (s :: cs)) ?_) this
        simp only [dupSum_append, dupSum_cons, dupSum_nil]
        ring
      have hsumL : dupSum h (plug (s :: cs) (.node RL r .nil)).ids
          = dupSum h (plug (s :: cs) RL).ids + (h.get r).Duplications := by
        rw [hLids]
        simp only [dupSum_append, dupSum_cons, dupSum_nil]
        ring
      refine ⟨⟨?_, (counted_plug (s :: cs) RL).mpr ⟨cRL', cS'⟩, cR'⟩, ?_⟩
      · rw [hCount r, if_pos rfl, (hFb t).2.2.2.2.2, if_neg htp, (hFb t).2.1, c1, hsum]
        simp only [dupSum_append, dupSum_cons, hsumL]
        ring
      · simp only [Shape.ids_node]
        rw [hsum]
        have := @CountedCtx.congr_cctx h (transplant hb t r) ctx _ hndC
          (fun i hi => ⟨(hkeep i (hCin i hi).1 (hCin i hi).2).2,
            (hkeep i (hCin i hi).1 (hCin i hi).2).1⟩) c2
        refine Eq.mp (congrArg (CountedCtx _ ctx) ?_) this
        simp only [dupSum_append, dupSum_cons, hsumL]
        ring)
  have hrinv := hrem.inv
  rw [plug_spine_left] at hrinv
  obtain ⟨h4, T', he4, hstep, hne, ht4⟩ := @delete_rebalance h3 (cs ++ ⟨true, r, R⟩ :: ctx)
    (s.wrap RL) s.id hrinv (by simp)
  have hstep' : StepOK h3 h4 [] (plug ctx (.node (plug (s :: cs) RL) r R)) T' := by
    rw [plug_spine_left]
    exact hstep
  have hcong : ∀ X : Shape,
      (∀ i ∈ X.ids, i ∈ (plug ctx (.node (plug (s :: cs) RL) t R)).ids) →
      Tall h X → Tall h3 X := fun X hX =>
    Tall.congr_heights fun i hi => by
      have hir : i ≠ r := fun e => hrmid (e ▸ hX i hi)
      rw [surgery_heights he3 i, transplant_Height hb t r i hrb, if_neg hir,
        (hFb i).2.2.2.2.1]
  have hinL : ∀ i, i ∈ (plug (s :: cs) RL).ids →
      i ∈ (plug ctx (.node (plug (s :: cs) RL) t R)).ids := fun i hi =>
    mem_ids_plug_node.mpr (Or.inr (Or.inl hi))
  have hinSp : ∀ f ∈ s :: cs, ∀ i ∈ f.sib.ids, i ∈ (plug (s :: cs) RL).ids := by
    intro f hf i hi
    rw [ids_plug]
    rcases mem_ctxIds_iff.mp (sib_mem_ctxIds hf hi) with hm | hm
    · simp [hm]
    · simp [hm]
  refine ⟨h4, T', ?_, hrem.after_step hstep', hne, fun tT => ?_⟩
  swap
  · obtain ⟨t1, t2⟩ := tall_plug tT
    obtain ⟨t3, t4⟩ := tall_plug t1.2.1
    refine ht4 (tallBelow_wrap.mpr ⟨hcong RL (fun i hi => hinL i (by
        rw [ids_plug]
        simp [hi])) t3.2.1,
      hcong s.sib (fun i hi => hinL i (hinSp s (by simp) i hi)) (t4 s (by simp))⟩)
      (fun f hf => ?_)
    rcases List.mem_append.mp hf with hf | hf
    · exact hcong f.sib (fun i hi => hinL i (hinSp f (List.mem_cons_of_mem _ hf) i hi))
        (t4 f (List.mem_cons_of_mem _ hf))
    · rcases List.mem_cons.mp hf with e | hf
      · subst e
        exact hcong R (fun i hi => mem_ids_plug_node.mpr (by simp [hi])) t1.2.2
      · refine hcong f.sib (fun i hi => ?_) (t2 f hf)
        rcases mem_ctxIds_iff.mp (sib_mem_ctxIds hf hi) with hm | hm
        · exact mem_ids_plug_node.mpr (Or.inl hm)
        · exact mem_ids_plug_node.mpr (by simp [hm])
  have hd1 : ¬ (h.get t).Duplications > 1 := by omega
  have hd2 : ¬ ((h.get t).Parent = none ∧ (h.get t).Left = none ∧ (h.get t).Right = none) := by
    rw [hleft, hc]
    simp
  have hnl : ¬ ((h.get t).Left = none ∧ (h.get t).Right = none) := by
    rw [hleft, hc]
    simp
  have hst : s.id ≠ t := fun e => htp (by simp [pathIds, e])
  have hrpar' : (h.get r).Parent = some s.id := by
    rw [hrpar]
    rfl
  have hu : unhookDonor h t = .ok (some r, spliceDonorRight h r s.id) := by
    unfold unhookDonor
    simp [hleft, hc, FindLargestInLeft, hrm, deref, hrpar', hst, bind, Except.bind, pure,
      Except.pure]
  have hpa : ((spliceDonorRight h r s.id).get r).Parent ≠ some t := by
    rw [hrpa]
    intro e
    exact hst (Option.some.inj e)
  rw [Delete_eq_donor h t r _ hd1 hd2 hnl hu, if_pos hpa, heb]
  simp only [Except.bind]
  rw [hpar, he3]
  simp only [hrpb, Option.some.injEq, hst, if_false]
  rw [he4]

end Hist

namespace Hist

/-! ## `Delete` when the donor is deeper in the right subtree -/

theorem deep_right_prep (h : Heap) (ctx : List Frame) (s : Frame) (cs : List Frame)
    (RR L : Shape) (t r : Nat) (hsp : s.isLeft = true)
    (hinv : TreeInv h (plug ctx (.node L t (plug (s :: cs) (.node .nil r RR))))) :
    ∃ hb, subCountUpTo ((spliceDonorLeft h r s.id).get r).Duplications t
        (spliceDonorLeft h r s.id).budget (spliceDonorLeft h r s.id)
        ((spliceDonorLeft h r s.id).get r).Parent = .ok hb
      ∧ hb.size = h.size
      ∧ Linked hb none (plug ctx (.node L t (plug (s :: cs) RR)))
      ∧ (∀ i, (hb.get i).Value = (h.get i).Value
          ∧ (hb.get i).Duplications = (h.get i).Duplications
          ∧ (hb.get i).Smaller = (h.get i).Smaller ∧ (hb.get i).Larger = (h.get i).Larger
          ∧ (hb.get i).Height = (h.get i).Height
          ∧ (hb.get i).Count = (h.get i).Count
              - (if i ∈ pathIds (s :: cs) then (h.get r).Duplications else 0))
      ∧ (hb.get r).Parent = some s.id
      ∧ ((spliceDonorLeft h r s.id).get r).Parent = some s.id := by
  have hinv' := hinv
  rw [plug_spine_right] at hinv'
  obtain ⟨hr, hrpar, hrleft, hrright, hrg, -, -, -, -⟩ := node_facts hinv'
  have hnd := hinv'.nodup
  have hla := splice_left_linked hsp hinv'.linked hnd
  set ha := spliceDonorLeft h r s.id with hha
  obtain ⟨hndS, hndC, hdisj⟩ := nodup_plug hnd
  have hpnd : (pathIds ((s :: cs) ++ ⟨false, t, L⟩ :: ctx)).Nodup := nodup_pathIds hndC
  rw [pathIds_append] at hpnd
  have hpnd' := List.nodup_append.mp hpnd
  have hpt : ∀ i ∈ pathIds (s :: cs), i ≠ t := by
    intro i hi e
    exact hpnd'.2.2 hi (by simp [pathIds, e])
  have hrpa : (ha.get r).Parent = some s.id := by
    rw [hha, spliceDonorLeft_Parent _ _ _ _ (by
      intro rl e
      rw [hrright] at e
      apply ids_lt_size hinv'.linked
      rw [ids_plug]
      simp [Shape.root_mem_ids e]), hrright, hrpar]
    have : RR.root ≠ some r := fun e => by
      simp only [Shape.ids_node, Shape.ids_nil, List.nil_append] at hndS
      exact (List.nodup_cons.mp hndS).1 (Shape.root_mem_ids e)
    rw [if_neg this]
    rfl
  have hfuel : (s :: cs).length < ha.budget := by
    have := hinv'.ctx_lt_budget
    simp only [Heap.budget, List.length_append, List.length_cons, hha,
      spliceDonorLeft_size] at this ⊢
    omega
  obtain ⟨hb, he, hsb, hgb⟩ := subCountUpTo_ctx (ha.get r).Duplications t ⟨false, t, L⟩ ctx rfl
    (s :: cs) RR.root ha ha.budget hfuel (linkedCtx_of_plug hla) hpnd'.1 hpt
  have hctxP : ctxParent ((s :: cs) ++ ⟨false, t, L⟩ :: ctx) = some s.id := rfl
  rw [hctxP, ← hrpa] at he
  have hrp : r ∉ pathIds (s :: cs) := by
    intro hm
    exact hdisj r (by simp) (pathIds_subset _ r (by rw [pathIds_append]; simp [hm]))
  refine ⟨hb, he, by simpa [hha] using hsb, ?_, fun i => ?_, ?_, hrpa⟩
  · rw [plug_spine_right]
    refine Linked.congr_links (by omega) (fun i _ => ?_) hla
    rw [hgb i]
    split <;> exact ⟨rfl, rfl, rfl⟩
  · rw [hgb i]
    split
    · simp [hha]
    · simp [hha]
  · rw [hgb r, if_neg hrp, hrpa]

theorem Delete_deep_right (h : Heap) (ctx : List Frame) (s : Frame) (cs : List Frame)
    (RR : Shape) (t r c : Nat) (hsp : ∀ f ∈ s :: cs, f.isLeft = true)
    (hinv : TreeInv h (plug ctx (.node .nil t (plug (s :: cs) (.node .nil r RR)))))
    (hd : (h.get t).Duplications = 1)
    (hc : (plug (s :: cs) (.node .nil r RR)).root = some c)
    (hrm : leftmost h h.budget c = .ok r) :
    ∃ h4 T', Delete h t = .ok (some r, T'.root, h4)
      ∧ Removed h h4 (plug ctx (.node .nil t (plug (s :: cs) (.node .nil r RR)))) T' t
      ∧ T'.root ≠ none
      ∧ (Tall h (plug ctx (.node .nil t (plug (s :: cs) (.node .nil r RR)))) → Tall h4 T') := by
  have hs0 : s.isLeft = true := hsp s (by simp)
  obtain ⟨hb, heb, hsb, hlb, hFb, hrpb, hrpa⟩ := deep_right_prep h ctx s cs RR .nil t r hs0 hinv
  obtain ⟨ht, hpar, hleft, hright, hg, hsmE, hlgE, hsm, hlg⟩ := node_facts hinv
  simp only [Shape.root_nil] at hleft
  simp only [Shape.ids_nil, List.append_nil] at hsmE hsm
  have hinv' := hinv
  rw [plug_spine_right] at hinv'
  obtain ⟨hr, hrpar, hrleft, hrright, -, -, -, -, -⟩ := node_facts hinv'
  have hnd := hinv.nodup
  have hbefore := ctxBefore_of_left hsp
  have hRids : (plug (s :: cs) (.node .nil r RR)).ids = r :: (plug (s :: cs) RR).ids := by
    rw [ids_plug, ids_plug, hbefore]
    simp
  have hT := ids_plug_node ctx .nil (plug (s :: cs) (.node .nil r RR)) t
  simp only [Shape.ids_nil, List.append_nil] at hT
  have hT1 : (plug ctx (.node .nil r (plug (s :: cs) RR))).ids
      = ctxBefore ctx ++ ((plug (s :: cs) (.node .nil r RR)).ids ++ ctxAfter ctx) := by
    rw [ids_plug_node, hRids]
    simp
  have hndT := hT ▸ hnd
  have hlr : (h.get t).Larger = some r := by
    rw [hlgE, hRids]
    simp
  have hsr : (h.get t).Smaller ≠ some r := by
    intro e
    obtain ⟨-, -, hm⟩ := hsm r e
    refine (List.nodup_append.mp hndT).2.2 hm (List.mem_cons_of_mem _ ?_)
    rw [hRids]
    simp
  have hrt : r ≠ t := fun e => (hlg r hlr).2.1 e
  -- the tree without the donor
  have hmid : (plug ctx (.node .nil t (plug (s :: cs) RR))).ids
      = ctxBefore ctx ++ t :: ((plug (s :: cs) RR).ids ++ ctxAfter ctx) := by
    rw [ids_plug_node]
    simp
  have hsub : (ctxBefore ctx ++ t :: ((plug (s :: cs) RR).ids ++ ctxAfter ctx)).Sublist
      (ctxBefore ctx ++ t :: ((plug (s :: cs) (.node .nil r RR)).ids ++ ctxAfter ctx)) := by
    rw [hRids]
    refine List.Sublist.append (List.Sublist.refl _) (List.Sublist.cons₂ _ ?_)
    exact List.sublist_cons_self _ _
  have hndmid : (plug ctx (.node .nil t (plug (s :: cs) RR))).ids.Nodup := by
    rw [hmid]
    exact List.Nodup.sublist hsub hndT
  have hrmid : r ∉ (plug ctx (.node .nil t (plug (s :: cs) RR))).ids := by
    rw [hmid]
    have h1 := List.nodup_append.mp hndT
    have h2 := List.nodup_cons.mp h1.2.1
    rw [hRids] at h1 h2
    have h3 := List.nodup_cons.mp h2.2
    intro hm
    rcases List.mem_append.mp hm with hm | hm
    · exact h1.2.2 hm (by simp)
    · rcases List.mem_cons.mp hm with hm | hm
      · exact hrt hm
      · exact h3.1 hm
  have hrb : r < hb.size := by omega
  have hlink := relabel_linked hlb hndmid hrb hrmid
  have hU := fun i => transplant_unlinks hb t r hrb
    (fun s' e => by
      rw [(hFb t).2.2.1] at e
      rw [hsb]
      exact ⟨(hsm s' e).1, (hsm s' e).2.1⟩)
    (fun l e => by
      rw [(hFb t).2.2.2.1] at e
      rw [hsb]
      exact (hlg l e).1)
    (Or.inr ⟨by rw [(hFb t).2.2.2.1]; exact hlr, by rw [(hFb t).2.2.1]; exact hsr⟩) i
  have hCount := fun i => transplant_Count hb t r i hrb
  obtain ⟨hndS, hndC, hdisj⟩ := nodup_plug hnd
  simp only [Shape.ids_node, Shape.ids_nil, List.nil_append] at hndS hdisj
  have hpathL : ∀ i ∈ pathIds (s :: cs), i ∈ (plug (s :: cs) RR).ids := by
    intro i hi
    rw [ids_plug]
    rcases mem_ctxIds_iff.mp (pathIds_subset _ i hi) with hm | hm
    · simp [hm]
    · simp [hm]
  have htp : t ∉ pathIds (s :: cs) := by
    intro hm
    have := hpathL t hm
    exact (List.nodup_cons.mp hndS).1 (by rw [hRids]; simp [this])
  obtain ⟨h3, he3, hrem⟩ := removed_of_surgery hinv hT hT1 (by simpa using hsb) hlink
    (fun i => ⟨by simp [(hFb i).1], by simp [(hFb i).2.1]⟩)
    (fun i _ => by
      rw [(hU i).1, (hFb t).2.2.1, (hFb t).2.2.2.1, (hFb i).2.2.1])
    (fun i _ => by
      rw [(hU i).2, (hFb t).2.2.1, (hFb t).2.2.2.1, (hFb i).2.2.2.1])
    (fun i hi => by
      rw [transplant_Height hb t r i hrb]
      split
      · rw [(hFb t).2.2.2.2.1]
        exact hinv.height t (by rw [hT]; simp)
      · rw [(hFb i).2.2.2.2.1]
        apply hinv.height
        rw [hT]
        rcases List.mem_append.mp hi with hi | hi
        · exact List.mem_append.mpr (Or.inl hi)
        · exact List.mem_append.mpr (Or.inr (List.mem_cons_of_mem _ hi)))
    (fun hcn => by
      obtain ⟨⟨c1, -, cR⟩, c2⟩ := (counted_plug ctx _).mp hcn
      obtain ⟨⟨cr, -, cRR⟩, cS⟩ := (counted_plug (s :: cs) _).mp cR
      simp only [Shape.ids_node, Shape.ids_nil, List.nil_append] at c1 c2 cr cS
      have hsum : ∀ l, dupSum (transplant hb t r) l = dupSum h l := fun l =>
        dupSum_congr fun i _ => by simp [(hFb i).2.1]
      have hndR : (plug (s :: cs) (.node .nil r RR)).ids.Nodup :=
        (List.nodup_cons.mp hndS).2
      obtain ⟨hndRR, hndSp, hdisjSp⟩ := nodup_plug hndR
      simp only [Shape.ids_node, Shape.ids_nil, List.nil_append] at hdisjSp hndRR
      have hcellS : ∀ i, i ≠ r → ((transplant hb t r).get i).Count = (h.get i).Count
          - (if i ∈ pathIds (s :: cs) then (h.get r).Duplications else 0) := by
        intro i hir
        rw [hCount i, if_neg hir, (hFb i).2.2.2.2.2]
      have hRRin : ∀ i ∈ RR.ids, i ≠ r ∧ i ∉ pathIds (s :: cs) := by
        intro i hi
        refine ⟨fun e => ?_, fun hm => ?_⟩
        · exact (List.nodup_cons.mp hndRR).1 (e ▸ hi)
        · exact hdisjSp i (List.mem_cons_of_mem _ hi) (pathIds_subset _ i hm)
      have hCin : ∀ i ∈ ctxIds ctx, i ≠ r ∧ i ∉ pathIds (s :: cs) := by
        intro i hi
        refine ⟨fun e => ?_, fun hm => ?_⟩
        · refine hdisj i ?_ hi
          exact List.mem_cons_of_mem _ (by rw [hRids]; simp [e])
        · refine hdisj i ?_ hi
          exact List.mem_cons_of_mem _ (by rw [hRids]; simp [hpathL i hm])
      have hkeep : ∀ i, i ≠ r → i ∉ pathIds (s :: cs) →
          ((transplant hb t r).get i).Count = (h.get i).Count
            ∧ ((transplant hb t r).get i).Duplications = (h.get i).Duplications := by
        intro i h1 h2
        rw [hcellS i h1, if_neg h2]
        exact ⟨by simp, by simp [(hFb i).2.1]⟩
      have cRR' : Counted (transplant hb t r) RR :=
        Counted.congr_counts (fun i hi => hkeep i (hRRin i hi).1 (hRRin i hi).2) cRR
      have cS' : CountedCtx (transplant hb t r) (s :: cs) (dupSum (transplant hb t r) RR.ids) := by
        have := @CountedCtx.shift h (transplant hb t r) (-(h.get r).Duplications) (s :: cs) _
          hndSp (fun i hi => by
            have hir : i ≠ r := fun e => hdisjSp i (by simp [e]) hi
            rw [hcellS i hir]
            refine ⟨by simp [(hFb i).2.1], ?_⟩
            split <;> ring) cS
        rw [hsum]
        refine Eq.mp (congrArg (CountedCtx _ (s :: cs)) ?_) this
        simp only [dupSum_cons]
        ring
      have hsumR : dupSum h (plug (s :: cs) (.node .nil r RR)).ids
          = dupSum h (plug (s :: cs) RR).ids + (h.get r).Duplications := by
        rw [hRids]
        simp only [dupSum_cons]
        ring
      refine ⟨⟨?_, trivial, (counted_plug (s :: cs) RR).mpr ⟨cRR', cS'⟩⟩, ?_⟩
      · rw [hCount r, if_pos rfl, (hFb t).2.2.2.2.2, if_neg htp, (hFb t).2.1, c1, hsum]
        simp only [Shape.ids_nil, List.nil_append, dupSum_cons, hsumR]
        ring
      · simp only [Shape.ids_node, Shape.ids_nil, List.nil_append]
        rw [hsum]
        have := @CountedCtx.congr_cctx h (transplant hb t r) ctx _ hndC
          (fun i hi => ⟨(hkeep i (hCin i hi).1 (hCin i hi).2).2,
            (hkeep i (hCin i hi).1 (hCin i hi).2).1⟩) c2
        refine Eq.mp (congrArg (CountedCtx _ ctx) ?_) this
        simp only [dupSum_cons, hsumR]
        ring)
  have hrinv := hrem.inv
  rw [plug_spine_right] at hrinv
  obtain ⟨h4, T', he4, hstep, hne, ht4⟩ := @delete_rebalance h3 (cs ++ ⟨false, r, .nil⟩ :: ctx)
    (s.wrap RR) s.id hrinv (by simp)
  have hstep' : StepOK h3 h4 [] (plug ctx (.node .nil r (plug (s :: cs) RR))) T' := by
    rw [plug_spine_right]
    exact hstep
  have hcong : ∀ X : Shape,
      (∀ i ∈ X.ids, i ∈ (plug ctx (.node .nil t (plug (s :: cs) RR))).ids) →
      Tall h X → Tall h3 X := fun X hX =>
    Tall.congr_heights fun i hi => by
      have hir : i ≠ r := fun e => hrmid (e ▸ hX i hi)
      rw [surgery_heights he3 i, transplant_Height hb t r i hrb, if_neg hir,
        (hFb i).2.2.2.2.1]
  have hinL : ∀ i, i ∈ (plug (s :: cs) RR).ids →
      i ∈ (plug ctx (.node .nil t (plug (s :: cs) RR))).ids := fun i hi =>
    mem_ids_plug_node.mpr (Or.inr (Or.inr (Or.inr (Or.inl hi))))
  have hinSp : ∀ f ∈ s :: cs, ∀ i ∈ f.sib.ids, i ∈ (plug (s :: cs) RR).ids := by
    intro f hf i hi
    rw [ids_plug]
    rcases mem_ctxIds_iff.mp (sib_mem_ctxIds hf hi) with hm | hm
    · simp [hm]
    · simp [hm]
  refine ⟨h4, T', ?_, hrem.after_step hstep', hne, fun tT => ?_⟩
  swap
  · obtain ⟨t1, t2⟩ := tall_plug tT
    obtain ⟨t3, t4⟩ := tall_plug t1.2.2
    refine ht4 (tallBelow_wrap.mpr ⟨hcong RR (fun i hi => hinL i (by
        rw [ids_plug]
        simp [hi])) t3.2.2,
      hcong s.sib (fun i hi => hinL i (hinSp s (by simp) i hi)) (t4 s (by simp))⟩)
      (fun f hf => ?_)
    rcases List.mem_append.mp hf with hf | hf
    · exact hcong f.sib (fun i hi => hinL i (hinSp f (List.mem_cons_of_mem _ hf) i hi))
        (t4 f (List.mem_cons_of_mem _ hf))
    · rcases List.mem_cons.mp hf with e | hf
      · subst e
        trivial
      · refine hcong f.sib (fun i hi => ?_) (t2 f hf)
        rcases mem_ctxIds_iff.mp (sib_mem_ctxIds hf hi) with hm | hm
        · exact mem_ids_plug_node.mpr (Or.inl hm)
        · exact mem_ids_plug_node.mpr (by simp [hm])
  have hd1 : ¬ (h.get t).Duplications > 1 := by omega
  have hd2 : ¬ ((h.get t).Parent = none ∧ (h.get t).Left = none ∧ (h.get t).Right = none) := by
    rw [hright, hc]
    simp
  have hnl : ¬ ((h.get t).Left = none ∧ (h.get t).Right = none) := by
    rw [hright, hc]
    simp
  have hst : s.id ≠ t := fun e => htp (by simp [pathIds, e])
  have hrpar' : (h.get r).Parent = some s.id := by
    rw [hrpar]
    rfl
  have hu : unhookDonor h t = .ok (some r, spliceDonorLeft h r s.id) := by
    unfold unhookDonor
    simp [hleft, hright, hc, FindSmallestInRight, hrm, deref, hrpar', hst, bind, Except.bind,
      pure, Except.pure]
  have hpa : ((spliceDonorLeft h r s.id).get r).Parent ≠ some t := by
    rw [hrpa]
    intro e
    exact hst (Option.some.inj e)
  rw [Delete_eq_donor h t r _ hd1 hd2 hnl hu, if_pos hpa, heb]
  simp only [Except.bind]
  rw [hpar, he3]
  simp only [hrpb, Option.some.injEq, hst, if_false]
  rw [he4]

end Hist

namespace Hist

/-! ## `Delete` -/

theorem Delete_dup (h : Heap) (ctx : List Frame) (L R : Shape) (t : Nat)
    (hinv : TreeInv h (plug ctx (.node L t R))) (hd : 1 < (h.get t).Duplications) :
    ∃ h2, Delete h t = .ok (some t, none, h2)
      ∧ DeletePost h h2 (plug ctx (.node L t R)) t (some t) none
      ∧ TreeInv h2 (plug ctx (.node L t R))
      ∧ (Tall h (plug ctx (.node L t R)) → Tall h2 (plug ctx (.node L t R))) := by
  obtain ⟨h2, he, hpost⟩ := Insert_existing h ctx L R t (-1) (by omega) hinv
  obtain ⟨ht, hpar, -⟩ := node_facts hinv
  have hf : (fun n : HistogramItem =>
      { n with Count := n.Count - 1, Duplications := n.Duplications - 1 })
      = fun n => { n with Duplications := n.Duplications + -1, Count := n.Count + -1 } := by
    funext n
    rfl
  have hpar1 : ((h.modify t fun n =>
      { n with Duplications := n.Duplications + -1, Count := n.Count + -1 }).get t).Parent
      = ctxParent ctx := by
    rw [Heap.get_modify_Parent _ _ _ _ (by intro n; rfl), hpar]
  have hsz : h2.size = h.size := by
    obtain ⟨h2', he', hs', -⟩ := addCountUp_ctx (-1) ctx (some t)
      (h.modify t fun n => { n with Duplications := n.Duplications + -1, Count := n.Count + -1 })
      h.budget hinv.ctx_lt_budget
      (LinkedCtx.congr_ctx (by simp) (fun i _ => by
        refine ⟨Heap.get_modify_Left _ _ _ _ (by intro n; rfl),
          Heap.get_modify_Right _ _ _ _ (by intro n; rfl),
          Heap.get_modify_Parent _ _ _ _ (by intro n; rfl)⟩) (linkedCtx_of_plug hinv.linked))
      (nodup_path_of_inv hinv)
    rw [he] at he'
    cases he'
    simpa using hs'
  refine ⟨h2, ?_, Or.inl ⟨hd, rfl, rfl, hpost.inv, hsz, fun i hi => ?_, fun hc => ?_⟩, hpost.inv,
    fun hT => Tall.congr_heights (fun i _ => ?_) hT⟩
  · unfold Delete
    rw [if_pos hd]
    simp only [hf, Heap.budget_modify, hpar1, he, bind, Except.bind, pure, Except.pure]
  · obtain ⟨o1, o2⟩ := hpost.old i hi
    refine ⟨o1, ?_⟩
    by_cases hit : i = t
    · subst hit
      rcases hpost.ids with ⟨-, -, e⟩ | ⟨hn, -⟩
      · rw [e]
        simp
        ring
      · exact absurd hi hn
    · rw [o2 hit]
      simp [hit]
  · exact hpost.counted hc (Or.inl (mem_ids_plug_node.mpr (by simp)))
  · refine (addCountUp_Height _ _ _ _ _ he i).trans (Heap.height_modify _ _ _ _ ?_)
    exact fun _ => rfl

theorem sublist_length_budget {h : Heap} {T : Shape} (hinv : TreeInv h T) {l : List Nat}
    (hl : l.Sublist T.ids) : l.length ≤ h.budget := by
  have := hinv.length_le
  have := hl.length_le
  simp only [Heap.budget]
  omega

theorem TreeInv.nil (h : Heap) : TreeInv h .nil :=
  ⟨trivial, by simp [Shape.ids, Heap.values], trivial, by simp [Shape.ids], by simp [Shape.ids]⟩

theorem root_pick {replaced : Ptr} {r0 : Ptr} (p : Ptr) (hne : p ≠ none) :
    (if replaced = none ∧ p = none then none
      else match p with
        | some x => some x
        | none => r0) = p := by
  cases p with
  | none => exact absurd rfl hne
  | some x => simp

/-- The tree a caller holds after `Delete`: the returned root when there is one, the old root
when only a count changed, nothing when the last node went. -/
theorem Delete_tall (h : Heap) (T : Shape) (t : Nat) (hinv : TreeInv h T) (ht : t ∈ T.ids) :
    ∃ replaced newRoot h' T', Delete h t = .ok (replaced, newRoot, h')
      ∧ DeletePost h h' T t replaced newRoot
      ∧ TreeInv h' T'
      ∧ T'.root = (if replaced = none ∧ newRoot = none then none
          else match newRoot with
            | some x => some x
            | none => T.root)
      ∧ (Tall h T → Tall h' T') := by
  obtain ⟨ctx, L, R, rfl⟩ := exists_plug_of_mem ht
  by_cases hd : 1 < (h.get t).Duplications
  · obtain ⟨h2, he, hp, hi2, ht2⟩ := Delete_dup h ctx L R t hinv hd
    exact ⟨some t, none, h2, _, he, hp, hi2, by simp, ht2⟩
  have hd1 : (h.get t).Duplications = 1 := by
    have := hinv.dups t ht
    omega
  obtain ⟨htlt, hpar, hleft, hright, -⟩ := node_facts hinv
  obtain ⟨⟨-, -, -, -, a5, a6⟩, -⟩ := (linked_plug ctx _).mp hinv.linked
  have hidsT := ids_plug_node ctx L R t
  cases L with
  | node A c B =>
    have hlen : (Shape.node A c B).ids.length ≤ h.budget := by
      refine sublist_length_budget hinv ?_
      rw [hidsT]
      exact (List.sublist_append_right _ _).trans (List.sublist_append_left _ _)
    obtain ⟨spine, RL, r, hrm, hS, hsp⟩ := rightmost_spec (.node A c B) c (some t) h.budget a5
      rfl hlen
    rw [hS] at hinv hleft ⊢
    cases spine with
    | nil =>
      obtain ⟨h4, T', he, hrem, hne, htl⟩ := Delete_direct_left h ctx RL R t r hinv hd1
      refine ⟨some r, T'.root, h4, T', he, Or.inr (Or.inr ⟨hd1, T', hrem, rfl, hne, ?_⟩), hrem.inv,
        (root_pick _ hne).symm, htl⟩
      simp only [plug, Shape.root_node] at hleft
      simp [hleft]
    | cons s cs =>
      have hc : (plug (s :: cs) (.node RL r .nil)).root = some c := by
        rw [← hS]
        rfl
      obtain ⟨h4, T', he, hrem, hne, htl⟩ :=
        Delete_deep_left h ctx s cs RL R t r c hsp hinv hd1 hc hrm
      refine ⟨some r, T'.root, h4, T', he, Or.inr (Or.inr ⟨hd1, T', hrem, rfl, hne, ?_⟩), hrem.inv,
        (root_pick _ hne).symm, htl⟩
      rw [hleft, hc]
      simp
  | nil =>
    cases R with
    | node A c B =>
      have hlen : (Shape.node A c B).ids.length ≤ h.budget := by
        refine sublist_length_budget hinv ?_
        rw [hidsT]
        exact ((List.sublist_append_left _ _).trans (List.sublist_cons_self _ _)).trans
          (List.sublist_append_right _ _)
      obtain ⟨spine, RR, r, hrm, hS, hsp⟩ := leftmost_spec (.node A c B) c (some t) h.budget a6
        rfl hlen
      rw [hS] at hinv hright ⊢
      cases spine with
      | nil =>
        obtain ⟨h4, T', he, hrem, hne, htl⟩ := Delete_direct_right h ctx RR t r hinv hd1
        refine ⟨some r, T'.root, h4, T', he, Or.inr (Or.inr ⟨hd1, T', hrem, rfl, hne, ?_⟩), hrem.inv,
        (root_pick _ hne).symm, htl⟩
        simp only [plug, Shape.root_node] at hright
        simp [hright]
      | cons s cs =>
        have hc : (plug (s :: cs) (.node .nil r RR)).root = some c := by
          rw [← hS]
          rfl
        obtain ⟨h4, T', he, hrem, hne, htl⟩ :=
          Delete_deep_right h ctx s cs RR t r c hsp hinv hd1 hc hrm
        refine ⟨some r, T'.root, h4, T', he, Or.inr (Or.inr ⟨hd1, T', hrem, rfl, hne, ?_⟩), hrem.inv,
        (root_pick _ hne).symm, htl⟩
        rw [hright, hc]
        simp
    | nil =>
      simp only [Shape.root_nil] at hleft hright
      cases ctx with
      | nil =>
        refine ⟨none, none, h, .nil, ?_, Or.inr (Or.inl ⟨hd1, rfl, rfl, rfl, rfl⟩), TreeInv.nil h,
          by simp, fun _ => trivial⟩
        simp only [ctxParent] at hpar
        unfold Delete
        rw [if_neg hd, if_pos ⟨hpar, hleft, hright⟩]
        rfl
      | cons f fs =>
        obtain ⟨h4, T', he, hrem, hne, htl⟩ := Delete_leaf h f fs t hinv hd1
        refine ⟨none, T'.root, h4, T', he, Or.inr (Or.inr ⟨hd1, T', hrem, rfl, hne, ?_⟩), hrem.inv,
        (root_pick _ hne).symm, htl⟩
        simp [hleft, hright]

theorem Delete_spec (h : Heap) (T : Shape) (t : Nat) (hinv : TreeInv h T) (ht : t ∈ T.ids) :
    ∃ replaced newRoot h', Delete h t = .ok (replaced, newRoot, h')
      ∧ DeletePost h h' T t replaced newRoot := by
  obtain ⟨replaced, newRoot, h', -, he, hp, -⟩ := Delete_tall h T t hinv ht
  exact ⟨replaced, newRoot, h', he, hp⟩

end Hist

namespace Hist

/-! ## `Find` -/

theorem plug_left_frame (ctx : List Frame) (L R : Shape) (t : Nat) :
    plug ctx (.node L t R) = plug (⟨true, t, R⟩ :: ctx) L := by
  simp [plug, Frame.wrap]

theorem plug_right_frame (ctx : List Frame) (L R : Shape) (t : Nat) :
    plug ctx (.node L t R) = plug (⟨false, t, L⟩ :: ctx) R := by
  simp [plug, Frame.wrap]

theorem Find_aux (v : ℚ) : ∀ (fuel : Nat) (h : Heap) (ctx : List Frame) (S : Shape) (t : Nat),
    S.root = some t → S.ids.length ≤ fuel → TreeInv h (plug ctx S) →
    (∃ n, Find h fuel t v = .ok (some n) ∧ n ∈ S.ids ∧ (h.get n).Value = v)
      ∨ (Find h fuel t v = .ok none ∧ ∀ i ∈ S.ids, (h.get i).Value ≠ v)
  | 0, _, _, S, t, hr, hf, _ => by
    obtain ⟨L, R, rfl⟩ := root_some_eq_node hr
    simp at hf
  | k + 1, h, ctx, S, t, hr, hf, hinv => by
    obtain ⟨L, R, rfl⟩ := root_some_eq_node hr
    obtain ⟨ht, -, hleft, hright, -⟩ := node_facts hinv
    obtain ⟨hsn, hsbig⟩ := sorted_node hinv
    simp only [Shape.ids_node, List.length_append, List.length_cons] at hf
    unfold Find
    by_cases hveq : (h.get t).Value = v
    · rw [if_pos hveq]
      exact Or.inl ⟨t, rfl, by simp, hveq⟩
    rw [if_neg hveq]
    have hLlt : ∀ i ∈ L.ids, (h.get i).Value < (h.get t).Value := fun i hi =>
      hsn i (List.mem_append.mpr (Or.inr hi))
    have hRgt : ∀ i ∈ R.ids, (h.get t).Value < (h.get i).Value := fun i hi =>
      hsbig i (List.mem_append.mpr (Or.inl hi))
    by_cases hlt : v < (h.get t).Value
    · have hRne : ∀ i ∈ R.ids, (h.get i).Value ≠ v := fun i hi e => by
        have := hRgt i hi
        rw [e] at this
        exact absurd hlt (not_lt.mpr this.le)
      cases L with
      | nil =>
        simp only [Shape.root_nil] at hleft
        have h2 : ¬ (v > (h.get t).Value ∧ (h.get t).Right ≠ none) := fun e =>
          absurd hlt (not_lt.mpr e.1.le)
        simp only [hleft, ne_eq, not_true_eq_false, and_false, if_false, h2, true_and]
        refine Or.inr fun i hi => ?_
        simp only [Shape.ids_node, Shape.ids_nil, List.nil_append, List.mem_cons] at hi
        rcases hi with rfl | hi
        · exact hveq
        · exact hRne i hi
      | node A l B =>
        simp only [Shape.root_node] at hleft
        have hc : v < (h.get t).Value ∧ (h.get t).Left ≠ none := ⟨hlt, by simp [hleft]⟩
        rw [if_pos hc]
        simp only [hleft]
        have hinv' := hinv
        rw [plug_left_frame] at hinv'
        rcases Find_aux v k h _ (.node A l B) l rfl (by omega) hinv' with
          ⟨n, e, hn, hv⟩ | ⟨e, hne⟩
        · exact Or.inl ⟨n, e, List.mem_append.mpr (Or.inl hn), hv⟩
        · refine Or.inr ⟨e, fun i hi => ?_⟩
          rcases List.mem_append.mp hi with hi | hi
          · exact hne i hi
          · rcases List.mem_cons.mp hi with rfl | hi
            · exact hveq
            · exact hRne i hi
    · have hgt : v > (h.get t).Value := lt_of_le_of_ne (not_lt.mp hlt) hveq
      have h1 : ¬ (v < (h.get t).Value ∧ (h.get t).Left ≠ none) := fun e => hlt e.1
      rw [if_neg h1]
      have hLne : ∀ i ∈ L.ids, (h.get i).Value ≠ v := fun i hi e => by
        have := hLlt i hi
        rw [e] at this
        exact absurd hgt (not_lt.mpr this.le)
      cases R with
      | nil =>
        simp only [Shape.root_nil] at hright
        simp only [hright, ne_eq, not_true_eq_false, and_false, if_false, true_and]
        refine Or.inr fun i hi => ?_
        simp only [Shape.ids_node, Shape.ids_nil, List.mem_append, List.mem_cons,
          List.not_mem_nil, or_false] at hi
        rcases hi with hi | rfl
        · exact hLne i hi
        · exact hveq
      | node A r B =>
        simp only [Shape.root_node] at hright
        have hc : v > (h.get t).Value ∧ (h.get t).Right ≠ none := ⟨hgt, by simp [hright]⟩
        rw [if_pos hc]
        simp only [hright]
        have hinv' := hinv
        rw [plug_right_frame] at hinv'
        rcases Find_aux v k h _ (.node A r B) r rfl (by omega) hinv' with
          ⟨n, e, hn, hv⟩ | ⟨e, hne⟩
        · exact Or.inl ⟨n, e, List.mem_append.mpr (Or.inr (List.mem_cons_of_mem _ hn)), hv⟩
        · refine Or.inr ⟨e, fun i hi => ?_⟩
          rcases List.mem_append.mp hi with hi | hi
          · exact hLne i hi
          · rcases List.mem_cons.mp hi with rfl | hi
            · exact hveq
            · exact hne i hi

/-- `Find` from the root returns the node that holds `v`, or `nil` when no node does. -/
theorem Find_spec (h : Heap) (T : Shape) (r : Nat) (v : ℚ) (hinv : TreeInv h T)
    (hr : T.root = some r) :
    (∃ n, Find h h.budget r v = .ok (some n) ∧ n ∈ T.ids ∧ (h.get n).Value = v)
      ∨ (Find h h.budget r v = .ok none ∧ ∀ i ∈ T.ids, (h.get i).Value ≠ v) :=
  Find_aux v h.budget h [] T r hr (sublist_length_budget hinv (List.Sublist.refl _)) hinv

end Hist

namespace Hist

/-! ## The tree read off the store -/

theorem Shape.height_le_length : ∀ (T : Shape), T.height ≤ T.ids.length
  | .nil => by simp [Shape.height, Shape.ids]
  | .node l i r => by
    have := Shape.height_le_length l
    have := Shape.height_le_length r
    simp only [Shape.height, Shape.ids, List.length_append, List.length_cons]
    omega

theorem extract_linked {h : Heap} : ∀ (T : Shape) (par : Ptr) (fuel : Nat),
    Linked h par T → T.height < fuel → extract h fuel T.root = T
  | .nil, _, fuel, _, _ => by
    cases fuel <;> simp [extract, Shape.root]
  | .node l i r, _, 0, _, hf => by omega
  | .node l i r, _, k + 1, hl, hf => by
    obtain ⟨-, -, hL, hR, hl1, hl2⟩ := hl
    simp only [Shape.height] at hf
    have e1 := extract_linked l (some i) k hl1 (by omega)
    have e2 := extract_linked r (some i) k hl2 (by omega)
    show extract h (k + 1) (some i) = _
    rw [extract, hL, hR, e1, e2]

theorem TreeInv.shape_eq {h : Heap} {T : Shape} (hinv : TreeInv h T) : h.shape T.root = T := by
  refine extract_linked T none _ hinv.linked ?_
  have := hinv.length_le
  have := T.height_le_length
  unfold Heap.budget
  omega

theorem TreeState.Good.shape_is {s : TreeState} {T : Shape} (hg : s.Good T) : s.shape = T := by
  unfold TreeState.shape
  rw [← hg.2]
  exact hg.1.shape_eq

end Hist

namespace Hist

/-! ## Multiplicities -/

theorem mult_nil (h : Heap) (v : ℚ) : mult h [] v = 0 := by
  simp [mult]

theorem mult_append (h : Heap) (A B : List Nat) (v : ℚ) :
    mult h (A ++ B) v = mult h A v + mult h B v := by
  simp [mult, List.filter_append]

theorem mult_cons (h : Heap) (i : Nat) (A : List Nat) (v : ℚ) :
    mult h (i :: A) v
      = (if (h.get i).Value = v then (h.get i).Duplications else 0) + mult h A v := by
  unfold mult
  by_cases e : (h.get i).Value = v
  · simp [List.filter_cons, e]
  · simp [List.filter_cons, e]

theorem mult_congr {h h' : Heap} {ids : List Nat} (v : ℚ)
    (hc : ∀ i ∈ ids, (h'.get i).Value = (h.get i).Value
      ∧ (h'.get i).Duplications = (h.get i).Duplications) :
    mult h' ids v = mult h ids v := by
  induction ids with
  | nil => simp [mult_nil]
  | cons i A ih =>
    rw [mult_cons, mult_cons, ih (fun j hj => hc j (by simp [hj])), (hc i (by simp)).1,
      (hc i (by simp)).2]

theorem mult_eq_zero {h : Heap} {ids : List Nat} {v : ℚ}
    (hn : ∀ i ∈ ids, (h.get i).Value ≠ v) : mult h ids v = 0 := by
  induction ids with
  | nil => simp [mult_nil]
  | cons i A ih =>
    rw [mult_cons, ih (fun j hj => hn j (by simp [hj])), if_neg (hn i (by simp))]
    simp

theorem mult_nonneg {h : Heap} {ids : List Nat} (v : ℚ)
    (hd : ∀ i ∈ ids, 1 ≤ (h.get i).Duplications) : 0 ≤ mult h ids v := by
  induction ids with
  | nil => simp [mult_nil]
  | cons i A ih =>
    rw [mult_cons]
    have := ih (fun j hj => hd j (by simp [hj]))
    have := hd i (by simp)
    split <;> omega

theorem mult_pos_of_mem {h : Heap} {ids : List Nat} {v : ℚ} {t : Nat}
    (hd : ∀ i ∈ ids, 1 ≤ (h.get i).Duplications) (ht : t ∈ ids) (hv : (h.get t).Value = v) :
    0 < mult h ids v := by
  induction ids with
  | nil => simp at ht
  | cons i A ih =>
    rw [mult_cons]
    have hA := @mult_nonneg h A v (fun j hj => hd j (by simp [hj]))
    have hi := hd i (by simp)
    rcases List.mem_cons.mp ht with e | e
    · subst e
      rw [if_pos hv]
      omega
    · have := ih (fun j hj => hd j (by simp [hj])) e
      split <;> omega

theorem values_nodup_of_sorted {l : List ℚ} (hs : l.Pairwise (· < ·)) : l.Nodup :=
  hs.imp (fun h => ne_of_lt h)

/-- In a tree every value sits in one node. -/
theorem TreeInv.value_inj {h : Heap} {T : Shape} (hinv : TreeInv h T) {i j : Nat}
    (hi : i ∈ T.ids) (hj : j ∈ T.ids) (e : (h.get i).Value = (h.get j).Value) : i = j := by
  have hnd : (T.ids.map fun i => (h.get i).Value).Nodup := values_nodup_of_sorted hinv.sorted
  exact List.inj_on_of_nodup_map hnd hi hj e

theorem mult_split {h : Heap} {A B : List Nat} {t : Nat} (v : ℚ)
    (hn : ∀ i ∈ A ++ B, (h.get i).Value ≠ (h.get t).Value) :
    mult h (A ++ t :: B) v
      = if v = (h.get t).Value then (h.get t).Duplications else mult h (A ++ B) v := by
  rw [mult_append, mult_cons, mult_append]
  by_cases e : v = (h.get t).Value
  · subst e
    rw [if_pos rfl, if_pos rfl, mult_eq_zero (fun i hi => hn i (by simp [hi])),
      mult_eq_zero (fun i hi => hn i (by simp [hi]))]
    simp
  · rw [if_neg (fun e' => e e'.symm), if_neg e]
    simp

/-- The values of the nodes beside `t` differ from the value of `t`. -/
theorem TreeInv.others_ne {h : Heap} {T : Shape} (hinv : TreeInv h T) {A B : List Nat} {t : Nat}
    (e : T.ids = A ++ t :: B) : ∀ i ∈ A ++ B, (h.get i).Value ≠ (h.get t).Value := by
  intro i hi hv
  have hnd := hinv.nodup
  rw [e] at hnd
  have hit : i = t := hinv.value_inj (by rw [e]; simp at hi ⊢; tauto) (by rw [e]; simp) hv
  subst hit
  have := List.nodup_middle.mp hnd
  simp at this hi
  tauto

theorem TreeInv.mult_of_mem {h : Heap} {T : Shape} (hinv : TreeInv h T) {t : Nat}
    (ht : t ∈ T.ids) : mult h T.ids (h.get t).Value = (h.get t).Duplications := by
  obtain ⟨A, B, e⟩ := List.append_of_mem ht
  rw [e, mult_split _ (hinv.others_ne e), if_pos rfl]

end Hist

namespace Hist

/-! ## The steps of the test helpers keep the invariant -/

theorem Heap.get_alloc_self (h : Heap) (x : HistogramItem) : (h.alloc x).2.get h.size = x := by
  rw [Heap.get_alloc, if_pos rfl]

theorem TreeInv.single_of (h : Heap) (x : HistogramItem) (hp : x.Parent = none)
    (hl : x.Left = none) (hr : x.Right = none) (hs : x.Smaller = none) (hg : x.Larger = none)
    (hh : 1 ≤ x.Height) (hd : 1 ≤ x.Duplications) :
    TreeInv (h.alloc x).2 (.node .nil h.size .nil) := by
  have hget := Heap.get_alloc_self h x
  refine ⟨?_, ?_, ?_, ?_, ?_⟩
  · exact ⟨by simp, by rw [hget, hp], by rw [hget, hl]; rfl, by rw [hget, hr]; rfl, trivial,
      trivial⟩
  · simp [Shape.ids, Heap.values]
  · simp [Shape.ids, Chain, hget, hs, hg]
  · simpa [Shape.ids, hget] using hh
  · simpa [Shape.ids, hget] using hd

theorem TreeInv.single (h : Heap) (v : ℚ) (c : Int) (hc : 1 ≤ c) :
    TreeInv (h.alloc { NewHistogramItem v with Duplications := c }).2
      (.node .nil h.size .nil) :=
  TreeInv.single_of h _ rfl rfl rfl rfl rfl (by simp [NewHistogramItem]) hc

theorem step_insert_none (s : TreeState) (v : ℚ) (c : Int) (hr : s.root = none) :
    s.step (.insert v c)
      = .ok { heap := (s.heap.alloc { NewHistogramItem v with Duplications := c }).2,
              root := some s.heap.size } := by
  unfold TreeState.step
  simp only [hr]
  rfl

theorem step_insert_some (s : TreeState) (v : ℚ) (c : Int) (r item : Nat) (newRoot : Ptr)
    (h' : Heap) (hr : s.root = some r)
    (he : Insert s.heap.budget s.heap r v c = .ok (item, newRoot, h')) :
    s.step (.insert v c)
      = .ok { heap := h', root := if newRoot = none then some r else newRoot } := by
  unfold TreeState.step
  simp only [hr, he, bind, Except.bind, pure, Except.pure]
  cases newRoot <;> rfl

theorem step_delete_none (s : TreeState) (v : ℚ) (hr : s.root = none) :
    s.step (.delete v) = .ok s := by
  unfold TreeState.step
  simp only [hr]
  rfl

theorem step_delete_absent (s : TreeState) (v : ℚ) (r : Nat) (hr : s.root = some r)
    (hf : Find s.heap s.heap.budget r v = .ok none) :
    s.step (.delete v) = .ok s := by
  unfold TreeState.step
  simp only [hr, hf, bind, Except.bind, pure, Except.pure]

theorem step_delete_found (s : TreeState) (v : ℚ) (r n : Nat) (replaced newRoot : Ptr)
    (h' : Heap) (hr : s.root = some r)
    (hf : Find s.heap s.heap.budget r v = .ok (some n))
    (he : Delete s.heap n = .ok (replaced, newRoot, h')) :
    s.step (.delete v) = .ok
      (if replaced = none ∧ newRoot = none then { heap := h', root := none }
       else { heap := h', root := if newRoot = none then some r else newRoot }) := by
  unfold TreeState.step
  simp only [hr, hf, he, bind, Except.bind, pure, Except.pure]
  split
  · rfl
  · cases newRoot <;> rfl

/-- What one step of the test helpers achieves on a state that holds the tree `T`. -/
theorem step_spec {s : TreeState} {T : Shape} (hg : s.Good T) (op : TreeOp)
    (hv : op.valid) :
    ∃ s' T', s.step op = .ok s' ∧ s'.Good T'
      ∧ (∀ w, mult s'.heap T'.ids w
          = mult s.heap T.ids w + op.delta (mult s.heap T.ids) w)
      ∧ ((T'.ids.length : Int) = T.ids.length + op.nodes (mult s.heap T.ids))
      ∧ (op.unit → Counted s.heap T → Counted s'.heap T')
      ∧ s.heap.size ≤ s'.heap.size
      ∧ dupSum s'.heap T'.ids
          = dupSum s.heap T.ids + op.delta (mult s.heap T.ids) op.value := by
  obtain ⟨hinv, hroot⟩ := hg
  cases op with
  | insert v c =>
    have hc : 1 ≤ c := hv
    cases hr : s.root with
    | none =>
      have hT : T = .nil := Shape.root_eq_none.mp (hroot.trans hr)
      subst hT
      have hget := Heap.get_alloc_self s.heap { NewHistogramItem v with Duplications := c }
      have hV : ((s.heap.alloc { NewHistogramItem v with Duplications := c }).2.get
          s.heap.size).Value = v := by rw [hget]; rfl
      have hD : ((s.heap.alloc { NewHistogramItem v with Duplications := c }).2.get
          s.heap.size).Duplications = c := by rw [hget]
      have hC : ((s.heap.alloc { NewHistogramItem v with Duplications := c }).2.get
          s.heap.size).Count = 1 := by rw [hget]; rfl
      refine ⟨_, .node .nil s.heap.size .nil, step_insert_none s v c hr,
        ⟨TreeInv.single s.heap v c hc, rfl⟩, fun w => ?_, ?_, fun hu _ => ?_, ?_, ?_⟩
      · simp only [Shape.ids, List.nil_append, mult_cons, mult_nil, hV, hD, TreeOp.delta]
        by_cases e : v = w
        · subst e
          simp
        · rw [if_neg e, if_neg (fun e' : w = v => e e'.symm)]
      · simp [Shape.ids, TreeOp.nodes, mult_nil]
      · have hc1 : c = 1 := hu
        subst hc1
        refine ⟨?_, trivial, trivial⟩
        simp [Shape.ids, dupSum, hD, hC]
      · simp [Heap.alloc, Heap.size]
      · simp [Shape.ids, hD, TreeOp.delta, TreeOp.value]
    | some r =>
      obtain ⟨item, newRoot, h', T', he, hpost⟩ :=
        Insert_spec s.heap T r v c hc hinv (hroot.trans hr)
      refine ⟨_, T', step_insert_some s v c r item newRoot h' hr he, ⟨hpost.inv, ?_⟩,
        fun w => ?_, ?_, fun hu hcn => ?_, hpost.size_le, ?_⟩
      · rw [hpost.root, hroot, hr]
        cases newRoot <;> simp
      · rcases hpost.ids with ⟨hm, hids, hd⟩ | ⟨hm, hno, hd, A, B, eA, eB⟩
        · obtain ⟨A, B, e⟩ := List.append_of_mem hm
          have hval : (s.heap.get item).Value = v := by
            rw [← (hpost.old item hm).1, hpost.value]
          have e' : T'.ids = A ++ item :: B := hids.trans e
          have hnd := hinv.nodup
          rw [e] at hnd
          have hne : ∀ i ∈ A ++ B, i ≠ item := by
            intro i hi hit
            subst hit
            have := List.nodup_middle.mp hnd
            simp at this hi
            tauto
          rw [e', e, mult_split w (hpost.inv.others_ne e'), mult_split w (hinv.others_ne e),
            hpost.value, hval, hd]
          simp only [TreeOp.delta]
          by_cases ew : w = v
          · simp [ew]
          · rw [if_neg ew, if_neg ew, if_neg ew]
            rw [mult_congr w (fun i hi => ⟨(hpost.old i (by rw [e]; simp at hi ⊢; tauto)).1,
              (hpost.old i (by rw [e]; simp at hi ⊢; tauto)).2 (hne i hi)⟩)]
            simp
        · have hne : ∀ i ∈ A ++ B, i ≠ item := by
            intro i hi hit
            subst hit
            exact hm (by rw [eA]; exact hi)
          rw [eB, eA, mult_split w (hpost.inv.others_ne eB), hpost.value, hd]
          simp only [TreeOp.delta]
          have hc' : mult h' (A ++ B) w = mult s.heap (A ++ B) w :=
            mult_congr w (fun i hi => ⟨(hpost.old i (by rw [eA]; exact hi)).1,
              (hpost.old i (by rw [eA]; exact hi)).2 (hne i hi)⟩)
          by_cases ew : w = v
          · subst ew
            rw [if_pos rfl, if_pos rfl, mult_eq_zero (fun i hi => hno i (by rw [eA]; exact hi))]
            simp
          · rw [if_neg ew, if_neg ew, hc']
            simp
      · rcases hpost.ids with ⟨hm, hids, hd⟩ | ⟨hm, hno, hd, A, B, eA, eB⟩
        · have hval : (s.heap.get item).Value = v := by
            rw [← (hpost.old item hm).1, hpost.value]
          have hmv := hinv.mult_of_mem hm
          rw [hval] at hmv
          have := hinv.dups item hm
          simp only [TreeOp.nodes]
          rw [if_neg (by omega), hids]
          simp
        · simp only [TreeOp.nodes]
          rw [if_pos (mult_eq_zero hno), eA, eB]
          simp
          omega
      · exact hpost.counted hcn (Or.inr hu)
      · simp only [TreeOp.delta, TreeOp.value, if_true]
        rcases hpost.ids with ⟨hm, hids, hd⟩ | ⟨hm, hno, hd, A, B, eA, eB⟩
        · obtain ⟨A, B, e⟩ := List.append_of_mem hm
          have hnd := hinv.nodup
          rw [e] at hnd
          rw [hids, e]
          refine dupSum_update hnd hd (fun i hi => (hpost.old i (by rw [e]; simp at hi ⊢; tauto)).2 ?_)
          intro hit
          subst hit
          have := List.nodup_middle.mp hnd
          simp at this hi
          tauto
        · rw [eA, eB]
          simp only [dupSum_append, dupSum_cons, hd]
          rw [@dupSum_congr s.heap h' A (fun i hi => (hpost.old i (by rw [eA]; simp [hi])).2
              (fun hit => hm (by rw [eA, ← hit]; simp [hi]))),
            @dupSum_congr s.heap h' B (fun i hi => (hpost.old i (by rw [eA]; simp [hi])).2
              (fun hit => hm (by rw [eA, ← hit]; simp [hi])))]
          ring
  | delete v =>
    cases hr : s.root with
    | none =>
      have hT : T = .nil := Shape.root_eq_none.mp (hroot.trans hr)
      subst hT
      refine ⟨s, .nil, step_delete_none s v hr, ⟨hinv, hroot⟩, fun w => ?_, ?_, fun _ hcn => hcn,
        le_refl _, ?_⟩
      · simp [Shape.ids, mult_nil, TreeOp.delta]
      · simp [Shape.ids, mult_nil, TreeOp.nodes]
      · simp [Shape.ids, mult_nil, TreeOp.delta]
    | some r =>
      rcases Find_spec s.heap T r v hinv (hroot.trans hr) with ⟨n, hf, hn, hval⟩ | ⟨hf, hno⟩
      · obtain ⟨replaced, newRoot, h', he, hpost⟩ := Delete_spec s.heap T n hinv hn
        have hstep := step_delete_found s v r n replaced newRoot h' hr hf he
        have hmv := hinv.mult_of_mem hn
        rw [hval] at hmv
        obtain ⟨A, B, e⟩ := List.append_of_mem hn
        have hnd := hinv.nodup
        rw [e] at hnd
        have hne : ∀ i ∈ A ++ B, i ≠ n := by
          intro i hi hit
          subst hit
          have := List.nodup_middle.mp hnd
          simp at this hi
          tauto
        have hpos : 0 < mult s.heap T.ids v := by
          have := hinv.dups n hn
          omega
        have hdel : ∀ w, TreeOp.delta (.delete v) (mult s.heap T.ids) w
            = if w = v then -1 else 0 := by
          intro w
          simp only [TreeOp.delta]
          by_cases ew : w = v
          · rw [if_pos ⟨ew, hpos⟩, if_pos ew]
          · rw [if_neg (fun hh => ew hh.1), if_neg ew]
        rcases hpost with ⟨hd, e1, e2, hinv', hsz, hsame, hcn'⟩ | ⟨hd, hT, e1, e2, eh⟩
            | ⟨hd, T', hrem, e2, hne', hiff⟩
        · subst e1 e2
          rw [if_neg (by simp)] at hstep
          refine ⟨_, T, hstep, ⟨hinv', by simp [hroot, hr]⟩, fun w => ?_, ?_,
            fun _ hcn => hcn' hcn, le_of_eq hsz.symm, ?_⟩
          · have hval' : (h'.get n).Value = v := by rw [(hsame n hn).1, hval]
            have hrest : mult h' (A ++ B) w = mult s.heap (A ++ B) w :=
              mult_congr w (fun i hi => by
                have him : i ∈ T.ids := by rw [e]; simp at hi ⊢; tauto
                refine ⟨(hsame i him).1, ?_⟩
                rw [(hsame i him).2, if_neg (hne i hi)]
                simp)
            rw [hdel, e, mult_split w (hinv'.others_ne e), mult_split w (hinv.others_ne e), hval',
              hval, (hsame n hn).2, if_pos rfl, hrest]
            by_cases ew : w = v
            · rw [if_pos ew, if_pos ew, if_pos ew]
              ring
            · rw [if_neg ew, if_neg ew, if_neg ew]
              ring
          · simp only [TreeOp.nodes]
            rw [hmv, if_neg (by omega)]
            simp
          · rw [hdel, TreeOp.value, if_pos rfl, e]
            refine dupSum_update hnd (by rw [(hsame n hn).2]; simp; ring) (fun i hi => ?_)
            rw [(hsame i (by rw [e]; simp at hi ⊢; tauto)).2, if_neg (hne i hi)]
            simp
        · subst e1 e2 eh hT
          rw [if_pos ⟨rfl, rfl⟩] at hstep
          refine ⟨_, .nil, hstep, ⟨TreeInv.nil _, rfl⟩, fun w => ?_, ?_, fun _ _ => trivial,
            le_refl _, ?_⟩
          · rw [hdel]
            simp only [Shape.ids, List.nil_append, mult_cons, mult_nil, hval, hd]
            by_cases ew : w = v
            · rw [if_pos ew, if_pos ew.symm]
              ring
            · rw [if_neg ew, if_neg (fun e' : v = w => ew e'.symm)]
              ring
          · simp only [TreeOp.nodes]
            rw [hmv, hd]
            simp [Shape.ids]
          · rw [hdel, TreeOp.value, if_pos rfl]
            simp [Shape.ids, hd]
        · obtain ⟨x, hx⟩ := Option.ne_none_iff_exists'.mp hne'
          rw [hx] at e2
          subst e2
          rw [if_neg (by simp)] at hstep
          obtain ⟨A', B', eA, eB⟩ := hrem.ids
          refine ⟨_, T', hstep, ⟨hrem.inv, by simp [hx]⟩, fun w => ?_, ?_,
            fun _ hcn => hrem.counted hcn, le_of_eq hrem.size.symm, ?_⟩
          · have hz : mult s.heap (A' ++ B') v = 0 :=
              mult_eq_zero (by
                have := hinv.others_ne eA
                rw [hval] at this
                exact this)
            rw [hdel, eB, eA, mult_split w (hinv.others_ne eA), hval,
              mult_congr w (fun i _ => hrem.same i)]
            by_cases ew : w = v
            · rw [if_pos ew, if_pos ew, ew, hz, hd]
              ring
            · rw [if_neg ew, if_neg ew]
              ring
          · simp only [TreeOp.nodes]
            rw [hmv, if_pos hd, eA, eB]
            simp
            omega
          · rw [hdel, TreeOp.value, if_pos rfl, eA, eB]
            simp only [dupSum_append, dupSum_cons, hd]
            rw [@dupSum_congr s.heap h' A' (fun i _ => (hrem.same i).2),
              @dupSum_congr s.heap h' B' (fun i _ => (hrem.same i).2)]
            ring
      · have hstep := step_delete_absent s v r hr hf
        have hz : mult s.heap T.ids v = 0 := mult_eq_zero hno
        refine ⟨s, T, hstep, ⟨hinv, hroot⟩, fun w => ?_, ?_, fun _ hcn => hcn, le_refl _, ?_⟩
        · simp only [TreeOp.delta, hz]
          simp
        · simp only [TreeOp.nodes, hz]
          simp
        · simp only [TreeOp.delta, TreeOp.value, hz]
          simp

end Hist

namespace Hist

/-! ## Runs of the test helpers -/

theorem TreeOp.valid_of_unit {op : TreeOp} (hu : op.unit) : op.valid := by
  cases op with
  | insert v c =>
    have : c = 1 := hu
    subst this
    exact le_refl _
  | delete v => trivial

theorem count_apply (l : List ℚ) (op : TreeOp) (hv : op.valid) (w : ℚ) :
    (((TreeOp.apply l op).count w : Nat) : Int)
      = (l.count w : Int) + op.delta (fun x => (l.count x : Int)) w := by
  cases op with
  | insert v c =>
    have hc : 1 ≤ c := hv
    simp only [TreeOp.apply, TreeOp.delta, List.count_append, List.count_replicate]
    by_cases e : w = v
    · subst e
      simp
      omega
    · have : ¬ (v = w) := fun e' => e e'.symm
      simp [e, this]
  | delete v =>
    simp only [TreeOp.apply, TreeOp.delta]
    by_cases hm : v ∈ l
    · have hp : 0 < l.count v := List.count_pos_iff.mpr hm
      rw [List.count_erase]
      by_cases e : w = v
      · subst e
        simp [hp]
        omega
      · have : ¬ (v = w) := fun e' => e e'.symm
        simp [e, this]
    · rw [List.erase_of_not_mem hm]
      have : l.count v = 0 := List.count_eq_zero.mpr hm
      simp [this]

theorem length_apply (l : List ℚ) (op : TreeOp) (hv : op.valid) :
    (((TreeOp.apply l op).length : Nat) : Int)
      = (l.length : Int) + op.delta (fun x => (l.count x : Int)) op.value := by
  cases op with
  | insert v c =>
    have hc : 1 ≤ c := hv
    simp only [TreeOp.apply, TreeOp.delta, TreeOp.value, List.length_append,
      List.length_replicate]
    simp
    omega
  | delete v =>
    simp only [TreeOp.apply, TreeOp.delta, TreeOp.value]
    by_cases hm : v ∈ l
    · have hp : 0 < l.count v := List.count_pos_iff.mpr hm
      have hl : 0 < l.length := List.length_pos_of_mem hm
      rw [List.length_erase_of_mem hm]
      simp [hp]
      omega
    · rw [List.erase_of_not_mem hm]
      have : l.count v = 0 := List.count_eq_zero.mpr hm
      simp [this]

theorem TreeState.Good.init : TreeState.init.Good .nil := ⟨TreeInv.nil _, rfl⟩

/-- A run of valid steps from a state that holds a tree returns a state that holds a
tree, with the samples the specification reads off the steps. -/
theorem run_spec : ∀ (ops : List TreeOp) (s : TreeState) (T : Shape) (l : List ℚ), s.Good T →
    (∀ op ∈ ops, op.valid) → (∀ w, mult s.heap T.ids w = l.count w) →
    dupSum s.heap T.ids = l.length →
    ∃ s' T', s.run ops = .ok s' ∧ s'.Good T'
      ∧ (∀ w, mult s'.heap T'.ids w = (ops.foldl TreeOp.apply l).count w)
      ∧ dupSum s'.heap T'.ids = (ops.foldl TreeOp.apply l).length
      ∧ ((∀ op ∈ ops, op.unit) → Counted s.heap T → Counted s'.heap T')
  | [], s, T, l, hg, _, hm, hd => ⟨s, T, rfl, hg, hm, hd, fun _ hc => hc⟩
  | op :: ops, s, T, l, hg, hv, hm, hd => by
    obtain ⟨s1, T1, he, hg1, hm1, -, hc1, -, hd1⟩ := step_spec hg op (hv op (by simp))
    have hfun : mult s.heap T.ids = fun x => (l.count x : Int) := funext hm
    obtain ⟨s', T', he', hg', hm', hd', hc'⟩ := run_spec ops s1 T1 (TreeOp.apply l op) hg1
      (fun o ho => hv o (by simp [ho]))
      (fun w => by rw [hm1, hm w, hfun, count_apply l op (hv op (by simp))])
      (by rw [hd1, hd, hfun, length_apply l op (hv op (by simp))])
    refine ⟨s', T', ?_, hg', hm', hd', fun hu hc => hc' (fun o ho => hu o (by simp [ho]))
      (hc1 (hu op (by simp)) hc)⟩
    simp only [TreeState.run, he, bind, Except.bind]
    exact he'

/-- A run from the empty store. -/
theorem run_init (ops : List TreeOp) (hv : ∀ op ∈ ops, op.valid) :
    ∃ s T, TreeState.init.run ops = .ok s ∧ s.Good T
      ∧ (∀ w, mult s.heap T.ids w = (liveAfter ops).count w)
      ∧ dupSum s.heap T.ids = (liveAfter ops).length
      ∧ ((∀ op ∈ ops, op.unit) → Counted s.heap T) := by
  obtain ⟨s, T, he, hg, hm, hd, hc⟩ := run_spec ops TreeState.init .nil [] TreeState.Good.init hv
    (fun w => by simp [Shape.ids, mult_nil]) (by simp [Shape.ids])
  exact ⟨s, T, he, hg, hm, hd, fun hu => hc hu trivial⟩

end Hist

namespace Hist

/-! ## Order and chain of a tree that satisfies the invariant -/

theorem ordered_of_sorted {h : Heap} : ∀ (T : Shape), (h.values T.ids).Pairwise (· < ·) →
    Ordered h T
  | .nil, _ => trivial
  | .node l i r, hs => by
    simp only [Shape.ids, Heap.values, List.map_append, List.map_cons] at hs
    rw [List.pairwise_append] at hs
    obtain ⟨hl, hr, hlr⟩ := hs
    rw [List.pairwise_cons] at hr
    refine ⟨fun j hj => hlr _ (List.mem_map_of_mem _ hj) _ (by simp),
      fun j hj => hr.1 _ (List.mem_map_of_mem _ hj), ordered_of_sorted l hl,
      ordered_of_sorted r hr.2⟩

theorem chainFrom_chain {h : Heap} : ∀ (B : List Nat) (t : Nat) (prev : Ptr) (fuel : Nat),
    Chain h prev (t :: B) → (t :: B).length ≤ fuel → chainFrom h fuel (some t) = t :: B
  | B, t, prev, 0, _, hf => by simp at hf
  | [], t, prev, k + 1, hc, _ => by
    have hL : (h.get t).Larger = none := hc.2.1
    rw [chainFrom, hL]
    cases k <;> rfl
  | b :: B, t, prev, k + 1, hc, hf => by
    have hL : (h.get t).Larger = some b := hc.2.1
    rw [chainFrom, hL, chainFrom_chain B b (some t) k hc.2.2 (by simpa using hf)]

theorem chainBack_chain {h : Heap} {B : List Nat} : ∀ (n : Nat) (A : List Nat) (t : Nat)
    (fuel : Nat), A.length = n → Chain h none (A ++ t :: B) → A.length + 1 ≤ fuel →
    chainBack h fuel (some t) = t :: A.reverse
  | _, _, _, 0, _, _, hf => by omega
  | 0, A, t, k + 1, hn, hc, _ => by
    have hA : A = [] := List.length_eq_zero.mp hn
    subst hA
    have hS : (h.get t).Smaller = none := (chain_smaller_at hc).1
    rw [chainBack, hS]
    cases k <;> rfl
  | n + 1, A, t, k + 1, hn, hc, hf => by
    obtain ⟨A', a, rfl⟩ : ∃ A' a, A = A' ++ [a] := by
      refine ⟨A.dropLast, A.getLast (by intro e; simp [e] at hn), ?_⟩
      rw [List.dropLast_append_getLast]
    have hS : (h.get t).Smaller = some a := by
      have := (chain_smaller_at hc).1
      simpa using this
    have hc' : Chain h none (A' ++ a :: (t :: B)) := by simpa using hc
    rw [chainBack, hS, chainBack_chain n A' a k (by simpa using hn) hc' (by simpa using hf)]
    simp

theorem TreeInv.chain_from {h : Heap} {T : Shape} (hinv : TreeInv h T) {i : Nat}
    (hi : i ∈ T.ids) (hs : (h.get i).Smaller = none) :
    chainFrom h h.budget (some i) = T.ids := by
  obtain ⟨A, B, e⟩ := List.append_of_mem hi
  have hc := hinv.chain
  rw [e] at hc
  have hA : A = [] := by
    have := (chain_smaller_at hc).1
    rw [hs] at this
    cases hl : A.getLast? with
    | none => exact List.getLast?_eq_none_iff.mp hl
    | some x => simp [hl] at this
  subst hA
  rw [e]
  refine chainFrom_chain B i none _ hc ?_
  have := hinv.length_le
  rw [e] at this
  simp only [Heap.budget]
  simp at this ⊢
  omega

theorem TreeInv.chain_back {h : Heap} {T : Shape} (hinv : TreeInv h T) {i : Nat}
    (hi : i ∈ T.ids) (hs : (h.get i).Larger = none) :
    chainBack h h.budget (some i) = T.ids.reverse := by
  obtain ⟨A, B, e⟩ := List.append_of_mem hi
  have hc := hinv.chain
  rw [e] at hc
  have hB : B = [] := by
    have := (chain_smaller_at hc).2
    rw [hs] at this
    cases B with
    | nil => rfl
    | cons b B => simp at this
  subst hB
  rw [e, chainBack_chain A.length A i _ rfl hc ?_]
  · simp
  · have := hinv.length_le
    rw [e] at this
    simp only [Heap.budget]
    simp at this ⊢
    omega

/-- The ends of the chain of a tree with a node. -/
theorem TreeInv.chain_ends {h : Heap} {T : Shape} (hinv : TreeInv h T) (hne : T.ids ≠ []) :
    (∃ i, T.ids.head? = some i ∧ (h.get i).Smaller = none)
      ∧ (∃ i, T.ids.getLast? = some i ∧ (h.get i).Larger = none) := by
  have hc := hinv.chain
  constructor
  · cases e : T.ids with
    | nil => exact absurd e hne
    | cons i B =>
      rw [e] at hc
      exact ⟨i, rfl, hc.1⟩
  · obtain ⟨A, i, e⟩ : ∃ A i, T.ids = A ++ [i] :=
      ⟨T.ids.dropLast, T.ids.getLast hne, (List.dropLast_append_getLast hne).symm⟩
    rw [e] at hc
    refine ⟨i, by simp [e], ?_⟩
    have := (chain_smaller_at hc).2
    simpa using this

/-- The values of the nodes are the distinct samples in ascending order. -/
theorem values_eq_sort {h : Heap} {T : Shape} (hinv : TreeInv h T) (l : List ℚ)
    (hm : ∀ w, mult h T.ids w = l.count w) :
    h.values T.ids = l.dedup.insertionSort (· ≤ ·) := by
  have hmem : ∀ w, w ∈ h.values T.ids ↔ w ∈ l := by
    intro w
    constructor
    · intro hw
      obtain ⟨i, hi, e⟩ := List.mem_map.mp hw
      have := mult_pos_of_mem hinv.dups hi e
      rw [hm w] at this
      exact List.count_pos_iff.mp (by exact_mod_cast this)
    · intro hw
      by_contra hn
      have hz : mult h T.ids w = 0 := mult_eq_zero (fun i hi e => hn (List.mem_map.mpr ⟨i, hi, e⟩))
      rw [hm w] at hz
      have := List.count_pos_iff.mpr hw
      omega
  have hperm : (h.values T.ids).Perm (l.dedup.insertionSort (· ≤ ·)) := by
    refine (List.perm_ext_iff_of_nodup (values_nodup_of_sorted hinv.sorted) ?_).mpr ?_
    · exact ((List.perm_insertionSort _ _).nodup_iff).mpr (List.nodup_dedup l)
    · intro w
      rw [hmem w, (List.perm_insertionSort _ _).mem_iff, List.mem_dedup]
  refine List.eq_of_perm_of_sorted hperm ?_ (List.sorted_insertionSort _ _)
  exact hinv.sorted.imp (fun hab => le_of_lt hab)

end Hist

namespace Hist

/-! ## The cells after a change of a multiplicity -/

theorem ancestors_ctx {h : Heap} : ∀ (ctx : List Frame) (child : Ptr) (fuel : Nat),
    LinkedCtx h ctx child → ctx.length ≤ fuel → ancestors h fuel (ctxParent ctx) = pathIds ctx
  | [], _, fuel, _, _ => by
    cases fuel <;> simp [ancestors, ctxParent, pathIds]
  | f :: fs, _, 0, _, hf => by simp at hf
  | f :: fs, _, k + 1, hl, hf => by
    obtain ⟨-, h2, -, -, -, h6⟩ := hl
    have ih := ancestors_ctx fs (some f.id) k h6 (by simpa using hf)
    show ancestors h (k + 1) (some f.id) = f.id :: pathIds fs
    rw [ancestors, h2, ih]

/-- The count walk after a change of the multiplicity of `t` by `c`: the cell of `t` and
the counts of the nodes above it change, no other cell does. -/
theorem existing_cells (h : Heap) (ctx : List Frame) (L R : Shape) (t : Nat) (c : Int)
    (hinv : TreeInv h (plug ctx (.node L t R))) :
    ∃ h2, addCountUp c h.budget
        (h.modify t fun n =>
          { n with Duplications := n.Duplications + c, Count := n.Count + c })
        (ctxParent ctx) = .ok h2
      ∧ h2.size = h.size
      ∧ ∀ i, h2.get i =
          if i = t then
            { h.get t with Duplications := (h.get t).Duplications + c,
                           Count := (h.get t).Count + c }
          else if i ∈ ancestors h h.budget (h.get t).Parent then
            { h.get i with Count := (h.get i).Count + c }
          else h.get i := by
  set h1 := h.modify t fun n =>
    { n with Duplications := n.Duplications + c, Count := n.Count + c } with hh1
  have hnd := hinv.nodup
  have hlt := ids_lt_size hinv.linked
  have ht : t < h.size := hlt t (mem_ids_plug_node.mpr (by simp))
  have hg1 : ∀ i, h1.get i = if i = t then
      { h.get t with Duplications := (h.get t).Duplications + c, Count := (h.get t).Count + c }
      else h.get i := by
    intro i
    rw [hh1, Heap.get_modify]
    simp [ht]
  have hs1 : h1.size = h.size := by simp [hh1]
  have hctx : LinkedCtx h ctx (some t) := linkedCtx_of_plug hinv.linked
  have hctx1 : LinkedCtx h1 ctx (some t) := LinkedCtx.congr_ctx (by omega) (fun i _ => by
    rw [hg1 i]
    split
    · rename_i hc'
      rw [hc']
      exact ⟨rfl, rfl, rfl⟩
    · exact ⟨rfl, rfl, rfl⟩) hctx
  obtain ⟨h2, he, hs2, hg2⟩ := addCountUp_ctx c ctx (some t) h1 h.budget
    hinv.ctx_lt_budget hctx1 (nodup_path_of_inv hinv)
  obtain ⟨hndS, hndC, hdisj⟩ := nodup_plug hnd
  have htpath : t ∉ pathIds ctx := fun hm =>
    hdisj t (by simp) (pathIds_subset ctx t hm)
  have hanc : ancestors h h.budget (h.get t).Parent = pathIds ctx := by
    rw [(node_facts hinv).2.1]
    exact ancestors_ctx ctx (some t) _ hctx (le_of_lt hinv.ctx_lt_budget)
  refine ⟨h2, he, by omega, fun i => ?_⟩
  rw [hg2 i, hanc]
  by_cases hit : i = t
  · subst hit
    simp [htpath, hg1]
  · simp [hit, hg1]

/-- `Insert` of a value the tree holds goes down to the node of the value. -/
theorem Insert_reach (v : ℚ) (c : Int) : ∀ (fuel : Nat) (h : Heap) (ctx : List Frame)
    (S : Shape) (t x : Nat), S.root = some t → S.ids.length < fuel → TreeInv h (plug ctx S) →
    x ∈ S.ids → (h.get x).Value = v →
    Insert fuel h t v c
      = (addCountUp c h.budget
          (h.modify x fun n =>
            { n with Duplications := n.Duplications + c, Count := n.Count + c })
          (h.get x).Parent).bind fun h2 => .ok (x, none, h2)
  | 0, _, _, _, _, _, _, hf, _, _, _ => by omega
  | k + 1, h, ctx, S, t, x, hr, hf, hinv, hx, hxv => by
    obtain ⟨L, R, rfl⟩ := root_some_eq_node hr
    obtain ⟨hsub, hctx⟩ := (linked_plug ctx _).mp hinv.linked
    obtain ⟨ht, htpar, htl, htr, hlL, hlR⟩ := hsub
    obtain ⟨hsn, hsbig⟩ := sorted_node hinv
    have hxT : x ∈ (plug ctx (.node L t R)).ids := mem_ids_plug_node.mpr (by
      simp only [Shape.ids_node, List.mem_append, List.mem_cons] at hx
      tauto)
    have htT : t ∈ (plug ctx (.node L t R)).ids := mem_ids_plug_node.mpr (by simp)
    unfold Insert
    by_cases hveq : v = (h.get t).Value
    · have hxt : x = t := hinv.value_inj hxT htT (by rw [hxv, hveq])
      subst hxt
      rw [if_pos hveq]
      have hpar : ((h.modify x fun n =>
          { n with Duplications := n.Duplications + c, Count := n.Count + c }).get x).Parent
          = (h.get x).Parent := by
        rw [Heap.get_modify_self _ _ _ ht]
      show (addCountUp c (h.modify x _).budget (h.modify x _) ((h.modify x _).get x).Parent).bind _
        = _
      rw [Heap.budget_modify, hpar]
      rfl
    · rw [if_neg hveq]
      have hxt : x ≠ t := by
        rintro rfl
        exact hveq hxv.symm
      simp only [Shape.ids_node, List.mem_append, List.mem_cons] at hx
      by_cases hlt' : v < (h.get t).Value
      · have hngt : ¬ v > (h.get t).Value := not_lt.mpr (le_of_lt hlt')
        have hxL : x ∈ L.ids := by
          rcases hx with hx | hx | hx
          · exact hx
          · exact absurd hx hxt
          · have := hsbig x (by simp [hx])
            rw [hxv] at this
            exact absurd this hngt
        obtain ⟨LL, l, LR, rfl⟩ : ∃ LL l LR, L = .node LL l LR := by
          cases L with
          | nil => simp at hxL
          | node a b c => exact ⟨a, b, c, rfl⟩
        simp only [Shape.root_node] at htl
        have hcond : ¬ (((h.get t).Left = none ∧ v < (h.get t).Value)
            ∨ ((h.get t).Right = none ∧ v > (h.get t).Value)) := by
          rw [htl]
          simp [hngt]
        rw [if_neg hcond, if_pos hlt']
        have hlval : (h.get l).Value < (h.get t).Value := hsn l (by simp)
        have hlt2 : l ≠ t := by
          rintro rfl
          exact lt_irrefl _ hlval
        have hguard : ¬ (l = t ∨ (h.get l).Value = (h.get t).Value) := by
          simp [hlt2, ne_of_lt hlval]
        simp only [htl, deref, bind, Except.bind, hguard, ↓reduceIte]
        have hinv' : TreeInv h (plug (⟨true, t, R⟩ :: ctx) (.node LL l LR)) := by
          simpa [plug, Frame.wrap] using hinv
        exact Insert_reach v c k h (⟨true, t, R⟩ :: ctx) (.node LL l LR) l x rfl
          (by simp at hf ⊢; omega) hinv' hxL hxv
      · have hgt : v > (h.get t).Value := lt_of_le_of_ne (not_lt.mp hlt') (Ne.symm hveq)
        have hxR : x ∈ R.ids := by
          rcases hx with hx | hx | hx
          · have := hsn x (by simp [hx])
            rw [hxv] at this
            exact absurd this hlt'
          · exact absurd hx hxt
          · exact hx
        obtain ⟨RL, r, RR, rfl⟩ : ∃ RL r RR, R = .node RL r RR := by
          cases R with
          | nil => simp at hxR
          | node a b c => exact ⟨a, b, c, rfl⟩
        simp only [Shape.root_node] at htr
        have hcond : ¬ (((h.get t).Left = none ∧ v < (h.get t).Value)
            ∨ ((h.get t).Right = none ∧ v > (h.get t).Value)) := by
          rw [htr]
          simp [hlt']
        rw [if_neg hcond, if_neg hlt']
        have hrval : (h.get t).Value < (h.get r).Value := hsbig r (by simp)
        have hrt : r ≠ t := by
          rintro rfl
          exact lt_irrefl _ hrval
        have hguard : ¬ (r = t ∨ (h.get r).Value = (h.get t).Value) := by
          simp [hrt, ne_of_gt hrval]
        simp only [htr, deref, bind, Except.bind, hguard, ↓reduceIte]
        have hinv' : TreeInv h (plug (⟨false, t, L⟩ :: ctx) (.node RL r RR)) := by
          simpa [plug, Frame.wrap] using hinv
        exact Insert_reach v c k h (⟨false, t, L⟩ :: ctx) (.node RL r RR) r x rfl
          (by simp at hf ⊢; omega) hinv' hxR hxv

/-- `Insert` of the value of a node `x` of the tree: the results and every cell. -/
theorem Insert_frame (h : Heap) (T : Shape) (r x : Nat) (c : Int) (hinv : TreeInv h T)
    (hr : T.root = some r) (hx : x ∈ T.ids) :
    ∃ h2, Insert h.budget h r (h.get x).Value c = .ok (x, none, h2) ∧ h2.size = h.size
      ∧ ∀ i, h2.get i =
          if i = x then
            { h.get x with Duplications := (h.get x).Duplications + c,
                           Count := (h.get x).Count + c }
          else if i ∈ ancestors h h.budget (h.get x).Parent then
            { h.get i with Count := (h.get i).Count + c }
          else h.get i := by
  obtain ⟨ctx, L, R, rfl⟩ := exists_plug_of_mem hx
  obtain ⟨h2, he, hs, hcell⟩ := existing_cells h ctx L R x c hinv
  refine ⟨h2, ?_, hs, hcell⟩
  rw [Insert_reach (h.get x).Value c h.budget h [] _ r x hr (by
    have := hinv.length_le
    unfold Heap.budget
    omega) hinv hx rfl, (node_facts hinv).2.1, he]
  rfl

/-- `Delete` on a node that holds more than one sample: the results and every cell. -/
theorem Delete_frame (h : Heap) (T : Shape) (t : Nat) (hinv : TreeInv h T) (ht : t ∈ T.ids)
    (hd : 1 < (h.get t).Duplications) :
    ∃ h2, Delete h t = .ok (some t, none, h2) ∧ h2.size = h.size
      ∧ ∀ i, h2.get i =
          if i = t then
            { h.get t with Duplications := (h.get t).Duplications - 1,
                           Count := (h.get t).Count - 1 }
          else if i ∈ ancestors h h.budget (h.get t).Parent then
            { h.get i with Count := (h.get i).Count - 1 }
          else h.get i := by
  obtain ⟨ctx, L, R, rfl⟩ := exists_plug_of_mem ht
  obtain ⟨h2, he, hs, hcell⟩ := existing_cells h ctx L R t (-1) hinv
  obtain ⟨htl, hpar, -⟩ := node_facts hinv
  have hf : (fun n : HistogramItem =>
      { n with Count := n.Count - 1, Duplications := n.Duplications - 1 })
      = fun n => { n with Duplications := n.Duplications + -1, Count := n.Count + -1 } := by
    funext n
    rfl
  have hpar1 : ((h.modify t fun n =>
      { n with Duplications := n.Duplications + -1, Count := n.Count + -1 }).get t).Parent
      = ctxParent ctx := by
    rw [Heap.get_modify_Parent _ _ _ _ (by intro n; rfl), hpar]
  refine ⟨h2, ?_, hs, fun i => ?_⟩
  · unfold Delete
    rw [if_pos hd]
    simp only [hf, Heap.budget_modify, hpar1, he, bind, Except.bind, pure, Except.pure]
  · rw [hcell i]
    rfl

end Hist

namespace Hist

/-! ## The first result of a structural `Delete` -/

theorem shape_sub {h : Heap} {T : Shape} (hinv : TreeInv h T) {S : Shape} {par : Ptr}
    (hl : Linked h par S) (hsub : S.ids.Sublist T.ids) : h.shape S.root = S := by
  refine extract_linked S par _ hl ?_
  have := hinv.length_le
  have := hsub.length_le
  have := S.height_le_length
  unfold Heap.budget
  omega

theorem ids_spine_right {spine : List Frame} (hsp : ∀ f ∈ spine, f.isLeft = false)
    (RL : Shape) (r : Nat) :
    (plug spine (.node RL r .nil)).ids.getLast? = some r := by
  rw [ids_plug, ctxAfter_of_right hsp]
  simp [Shape.ids]

theorem ids_spine_left {spine : List Frame} (hsp : ∀ f ∈ spine, f.isLeft = true)
    (RR : Shape) (r : Nat) :
    (plug spine (.node .nil r RR)).ids.head? = some r := by
  rw [ids_plug, ctxBefore_of_left hsp]
  simp [Shape.ids]

/-- The first result of `Delete` on a node that holds one sample is its neighbour in
order from the subtree below it. -/
theorem Delete_replaced (h : Heap) (T : Shape) (t : Nat) (hinv : TreeInv h T) (ht : t ∈ T.ids)
    (hd1 : (h.get t).Duplications = 1) :
    ∃ newRoot h', Delete h t = .ok (inorderDonor h t, newRoot, h') := by
  obtain ⟨ctx, L, R, rfl⟩ := exists_plug_of_mem ht
  have hd : ¬ 1 < (h.get t).Duplications := by omega
  obtain ⟨htlt, hpar, hleft, hright, -⟩ := node_facts hinv
  obtain ⟨⟨-, -, -, -, a5, a6⟩, -⟩ := (linked_plug ctx _).mp hinv.linked
  have hidsT := ids_plug_node ctx L R t
  have hsubL : L.ids.Sublist (plug ctx (.node L t R)).ids := by
    rw [hidsT]
    exact (List.sublist_append_right _ _).trans (List.sublist_append_left _ _)
  have hsubR : R.ids.Sublist (plug ctx (.node L t R)).ids := by
    rw [hidsT]
    exact ((List.sublist_append_left _ _).trans (List.sublist_cons_self _ _)).trans
      (List.sublist_append_right _ _)
  have hshL := shape_sub hinv a5 hsubL
  have hshR := shape_sub hinv a6 hsubR
  cases L with
  | node A c B =>
    have hlen : (Shape.node A c B).ids.length ≤ h.budget := sublist_length_budget hinv hsubL
    obtain ⟨spine, RL, r, hrm, hS, hsp⟩ := rightmost_spec (.node A c B) c (some t) h.budget a5
      rfl hlen
    have hdon : inorderDonor h t = some r := by
      unfold inorderDonor
      rw [hleft]
      simp only [Shape.root_node]
      rw [show (some c : Ptr) = (Shape.node A c B).root from rfl, hshL, hS]
      exact ids_spine_right hsp RL r
    rw [hdon]
    rw [hS] at hinv
    cases spine with
    | nil =>
      obtain ⟨h4, T', he, -⟩ := Delete_direct_left h ctx RL R t r hinv hd1
      exact ⟨_, _, he⟩
    | cons s cs =>
      have hc : (plug (s :: cs) (.node RL r .nil)).root = some c := by
        rw [← hS]
        rfl
      obtain ⟨h4, T', he, -⟩ :=
        Delete_deep_left h ctx s cs RL R t r c hsp hinv hd1 hc hrm
      exact ⟨_, _, he⟩
  | nil =>
    cases R with
    | node A c B =>
      have hlen : (Shape.node A c B).ids.length ≤ h.budget := sublist_length_budget hinv hsubR
      obtain ⟨spine, RR, r, hrm, hS, hsp⟩ := leftmost_spec (.node A c B) c (some t) h.budget a6
        rfl hlen
      have hdon : inorderDonor h t = some r := by
        unfold inorderDonor
        rw [hleft, hright]
        simp only [Shape.root_node, Shape.root_nil]
        rw [show (some c : Ptr) = (Shape.node A c B).root from rfl, hshR, hS]
        exact ids_spine_left hsp RR r
      rw [hdon]
      rw [hS] at hinv
      cases spine with
      | nil =>
        obtain ⟨h4, T', he, -⟩ := Delete_direct_right h ctx RR t r hinv hd1
        exact ⟨_, _, he⟩
      | cons s cs =>
        have hc : (plug (s :: cs) (.node .nil r RR)).root = some c := by
          rw [← hS]
          rfl
        obtain ⟨h4, T', he, -⟩ :=
          Delete_deep_right h ctx s cs RR t r c hsp hinv hd1 hc hrm
        exact ⟨_, _, he⟩
    | nil =>
      simp only [Shape.root_nil] at hleft hright
      have hdon : inorderDonor h t = none := by
        unfold inorderDonor
        rw [hleft, hright]
      rw [hdon]
      cases ctx with
      | nil =>
        refine ⟨none, h, ?_⟩
        simp only [ctxParent] at hpar
        unfold Delete
        rw [if_neg hd, if_pos ⟨hpar, hleft, hright⟩]
        rfl
      | cons f fs =>
        obtain ⟨h4, T', he, -⟩ := Delete_leaf h f fs t hinv hd1
        exact ⟨_, _, he⟩

theorem erase_middle {A B : List Nat} {n : Nat} (hnd : (A ++ n :: B).Nodup) :
    (A ++ n :: B).erase n = A ++ B := by
  have hnA : n ∉ A := fun hh => by
    have := List.nodup_middle.mp hnd
    simp at this
    tauto
  rw [List.erase_append_right _ hnA]
  simp

end Hist

namespace Hist

/-! ## The rotations on a node of a tree -/

theorem cnt_same {h h' : Heap} {S : Shape}
    (hs : ∀ i ∈ S.ids, (h'.get i).Count = (h.get i).Count) : cnt h' S.root = cnt h S.root := by
  cases S with
  | nil => rfl
  | node a i b => exact hs i (by simp)

theorem edge_of_ctx {h h' : Heap} {ctx : List Frame} {t p : Nat}
    (hctx : LinkedCtx h ctx (some t)) (hctx' : LinkedCtx h' ctx (some p))
    (htc : t ∉ ctxIds ctx) :
    ∀ g, ctxParent ctx = some g →
      ((h.get g).Left = some t → (h'.get g).Left = some p)
        ∧ ((h.get g).Right = some t → (h'.get g).Right = some p) := by
  intro g hg
  cases ctx with
  | nil => simp [ctxParent] at hg
  | cons f fs =>
    simp only [ctxParent, Option.some.injEq] at hg
    subst hg
    obtain ⟨-, -, l1, r1, -, -⟩ := hctx
    obtain ⟨-, -, l2, r2, -, -⟩ := hctx'
    have hsib : f.sib.root ≠ some t := fun e =>
      htc (mem_ctxIds_cons.mpr (Or.inr (Or.inl (Shape.root_mem_ids e))))
    cases hf : f.isLeft
    · simp only [hf, Bool.false_eq_true, ↓reduceIte] at l1 r1 l2 r2
      exact ⟨fun e => absurd (l1.symm.trans e) hsib, fun _ => r2⟩
    · simp only [hf, ↓reduceIte] at l1 r1 l2 r2
      exact ⟨fun _ => l2, fun e => absurd (r1.symm.trans e) hsib⟩

theorem LeftRotate_contract (h : Heap) (T : Shape) (t p : Nat) (hinv : TreeInv h T)
    (ht : t ∈ T.ids) (hr : (h.get t).Right = some p) :
    (LeftRotate h t).1 = p ∧ Rotated h (LeftRotate h t).2 t p := by
  obtain ⟨ctx, a, R, rfl⟩ := exists_plug_of_mem ht
  obtain ⟨htlt, hpar, hleft, hright, -⟩ := node_facts hinv
  obtain ⟨b, c, rfl⟩ : ∃ b c, R = .node b p c := by
    rw [hr] at hright
    cases R with
    | nil => simp at hright
    | node b q c =>
      simp only [Shape.root_node, Option.some.injEq] at hright
      subst hright
      exact ⟨b, c, rfl⟩
  obtain ⟨h', he, hlk, hrf, hct, hcp, hht, hhp⟩ :=
    LeftRotate_plug h ctx a b c t p hinv.linked hinv.nodup
  obtain ⟨hnd1, -, hnd3⟩ := nodup_plug hinv.nodup
  have htc : t ∉ ctxIds ctx := hnd3 t (by simp)
  simp only [Shape.ids_node] at hnd1
  obtain ⟨htp, htA, htB, htC, hpA, hpB, hpC, -⟩ := nodup_rot hnd1
  obtain ⟨hsub, hctx⟩ := (linked_plug ctx _).mp hinv.linked
  obtain ⟨hsub', hctx'⟩ := (linked_plug ctx _).mp hlk
  obtain ⟨-, p1, p2, p3, ⟨-, t1, t2, t3, -, -⟩, -⟩ := hsub'
  have hsame : ∀ (S : Shape), t ∉ S.ids → p ∉ S.ids →
      cnt h' S.root = cnt h S.root ∧ hgt h' S.root = hgt h S.root := fun S h1 h2 =>
    ⟨cnt_same fun i hi => hrf.count i (fun e => h1 (e ▸ hi)) (fun e => h2 (e ▸ hi)),
      hgt_same fun i hi => hrf.height i (fun e => h1 (e ▸ hi)) (fun e => h2 (e ▸ hi))⟩
  rw [he]
  refine ⟨rfl, hrf.same.1, by rw [p1, hpar], ?_, t1, ?_, hrf.same.2, hcp, ?_, ?_,
    fun i h1 h2 => ⟨hrf.count i h1 h2, hrf.height i h1 h2⟩⟩
  · rw [hpar]
    exact edge_of_ctx hctx hctx' htc
  · have hlen := hinv.length_le
    rw [ids_plug_node] at hlen
    have e1 : h.shape (some t) = .node a t (.node b p c) :=
      extract_linked (.node a t (.node b p c)) _ _ hsub (by
        have := (Shape.node a t (.node b p c)).height_le_length
        simp only [Shape.ids_node, List.length_append, List.length_cons] at this hlen
        unfold Heap.budget
        omega)
    have e2 : h'.shape (some p) = .node (.node a t b) p c :=
      extract_linked (.node (.node a t b) p c) _ _ ((linked_plug ctx _).mp hlk).1 (by
        have := (Shape.node (.node a t b) p c).height_le_length
        simp only [Shape.ids_node, List.length_append, List.length_cons] at this hlen
        have := hrf.same.1
        unfold Heap.budget
        omega)
    rw [e1, e2]
    simp
  · intro ct cp
    unfold LocalCount at ct cp ⊢
    rw [hleft, hright] at ct
    obtain ⟨-, q1, q2, q3, -, -⟩ := hsub.2.2.2.2.2
    rw [q2, q3] at cp
    have e1 : cnt h (Shape.node b p c).root = (h.get p).Count := rfl
    rw [e1] at ct
    have c1 : cnt h' (h'.get t).Left = cnt h a.root := by rw [t2]; exact (hsame a htA hpA).1
    have c2 : cnt h' (h'.get t).Right = cnt h b.root := by rw [t3]; exact (hsame b htB hpB).1
    have c3 : cnt h' (h'.get p).Left = (h'.get t).Count := by rw [p2]; rfl
    have c4 : cnt h' (h'.get p).Right = cnt h c.root := by rw [p3]; exact (hsame c htC hpC).1
    rw [c1, c2, c3, c4, (hrf.same.2 t).2.1, (hrf.same.2 p).2.1, hct, hcp]
    constructor
    · omega
    · omega
  · have k1 : hgt h' (h'.get t).Left = hgt h a.root := by rw [t2]; exact (hsame a htA hpA).2
    have k2 : hgt h' (h'.get t).Right = hgt h b.root := by rw [t3]; exact (hsame b htB hpB).2
    have k3 : hgt h' (h'.get p).Left = (h'.get t).Height := by rw [p2]; rfl
    have k4 : hgt h' (h'.get p).Right = hgt h c.root := by rw [p3]; exact (hsame c htC hpC).2
    rw [k1, k2, k3, k4]
    exact ⟨hht, by rw [hhp, hht]⟩

theorem RightRotate_contract (h : Heap) (T : Shape) (t p : Nat) (hinv : TreeInv h T)
    (ht : t ∈ T.ids) (hr : (h.get t).Left = some p) :
    (RightRotate h t).1 = p ∧ Rotated h (RightRotate h t).2 t p := by
  obtain ⟨ctx, L, c, rfl⟩ := exists_plug_of_mem ht
  obtain ⟨htlt, hpar, hleft, hright, -⟩ := node_facts hinv
  obtain ⟨a, b, rfl⟩ : ∃ a b, L = .node a p b := by
    rw [hr] at hleft
    cases L with
    | nil => simp at hleft
    | node a q b =>
      simp only [Shape.root_node, Option.some.injEq] at hleft
      subst hleft
      exact ⟨a, b, rfl⟩
  obtain ⟨h', he, hlk, hrf, hct, hcp, hht, hhp⟩ :=
    RightRotate_plug h ctx a b c t p hinv.linked hinv.nodup
  obtain ⟨hnd1, -, hnd3⟩ := nodup_plug hinv.nodup
  have htc : t ∉ ctxIds ctx := hnd3 t (by simp)
  simp only [Shape.ids_node] at hnd1
  have hnd1' : (a.ids ++ p :: (b.ids ++ t :: c.ids)).Nodup := by simpa using hnd1
  obtain ⟨hpt, hpA, hpB, hpC, htA, htB, htC, -⟩ := nodup_rot hnd1'
  obtain ⟨hsub, hctx⟩ := (linked_plug ctx _).mp hinv.linked
  obtain ⟨hsub', hctx'⟩ := (linked_plug ctx _).mp hlk
  obtain ⟨-, p1, p2, p3, -, ⟨-, t1, t2, t3, -, -⟩⟩ := hsub'
  have hsame : ∀ (S : Shape), t ∉ S.ids → p ∉ S.ids →
      cnt h' S.root = cnt h S.root ∧ hgt h' S.root = hgt h S.root := fun S h1 h2 =>
    ⟨cnt_same fun i hi => hrf.count i (fun e => h1 (e ▸ hi)) (fun e => h2 (e ▸ hi)),
      hgt_same fun i hi => hrf.height i (fun e => h1 (e ▸ hi)) (fun e => h2 (e ▸ hi))⟩
  rw [he]
  refine ⟨rfl, hrf.same.1, by rw [p1, hpar], ?_, t1, ?_, hrf.same.2, hcp, ?_, ?_,
    fun i h1 h2 => ⟨hrf.count i h1 h2, hrf.height i h1 h2⟩⟩
  · rw [hpar]
    exact edge_of_ctx hctx hctx' htc
  · have hlen := hinv.length_le
    rw [ids_plug_node] at hlen
    have e1 : h.shape (some t) = .node (.node a p b) t c :=
      extract_linked (.node (.node a p b) t c) _ _ hsub (by
        have := (Shape.node (.node a p b) t c).height_le_length
        simp only [Shape.ids_node, List.length_append, List.length_cons] at this hlen
        unfold Heap.budget
        omega)
    have e2 : h'.shape (some p) = .node a p (.node b t c) :=
      extract_linked (.node a p (.node b t c)) _ _ ((linked_plug ctx _).mp hlk).1 (by
        have := (Shape.node a p (.node b t c)).height_le_length
        simp only [Shape.ids_node, List.length_append, List.length_cons] at this hlen
        have := hrf.same.1
        unfold Heap.budget
        omega)
    rw [e1, e2]
    simp
  · intro ct cp
    unfold LocalCount at ct cp ⊢
    rw [hleft, hright] at ct
    obtain ⟨-, q1, q2, q3, -, -⟩ := hsub.2.2.2.2.1
    rw [q2, q3] at cp
    have e1 : cnt h (Shape.node a p b).root = (h.get p).Count := rfl
    rw [e1] at ct
    have c1 : cnt h' (h'.get t).Left = cnt h b.root := by rw [t2]; exact (hsame b htB hpB).1
    have c2 : cnt h' (h'.get t).Right = cnt h c.root := by rw [t3]; exact (hsame c htC hpC).1
    have c3 : cnt h' (h'.get p).Left = cnt h a.root := by rw [p2]; exact (hsame a htA hpA).1
    have c4 : cnt h' (h'.get p).Right = (h'.get t).Count := by rw [p3]; rfl
    rw [c1, c2, c3, c4, (hrf.same.2 t).2.1, (hrf.same.2 p).2.1, hct, hcp]
    constructor
    · omega
    · omega
  · have k1 : hgt h' (h'.get t).Left = hgt h b.root := by rw [t2]; exact (hsame b htB hpB).2
    have k2 : hgt h' (h'.get t).Right = hgt h c.root := by rw [t3]; exact (hsame c htC hpC).2
    have k3 : hgt h' (h'.get p).Left = hgt h a.root := by rw [p2]; exact (hsame a htA hpA).2
    have k4 : hgt h' (h'.get p).Right = (h'.get t).Height := by rw [p3]; rfl
    rw [k1, k2, k3, k4]
    exact ⟨hht, by rw [hhp, hht]⟩

end Hist

namespace Hist

/-! ## `FindNoLargerThan` -/

theorem floorIn_append (h : Heap) (X Y : List Nat) (v : ℚ) :
    floorIn h (X ++ Y) v = (floorIn h Y v).or (floorIn h X v) := by
  simp [floorIn, List.filter_append, List.getLast?_append]

theorem floorIn_nil (h : Heap) (v : ℚ) : floorIn h [] v = none := rfl

theorem floorIn_none {h : Heap} {Y : List Nat} {v : ℚ} (hy : ∀ y ∈ Y, v < (h.get y).Value) :
    floorIn h Y v = none := by
  unfold floorIn
  rw [List.getLast?_eq_none_iff, List.filter_eq_nil_iff]
  intro a ha
  simpa using hy a ha

theorem floorIn_single {h : Heap} {p : Nat} {v : ℚ} (hp : (h.get p).Value ≤ v) :
    floorIn h [p] v = some p := by
  simp [floorIn, List.filter_cons, hp]

theorem floorIn_cons {h : Heap} {p : Nat} {v : ℚ} (hp : (h.get p).Value ≤ v) (Y : List Nat) :
    floorIn h (p :: Y) v = (floorIn h Y v).or (some p) := by
  rw [show p :: Y = [p] ++ Y from rfl, floorIn_append, floorIn_single hp]

theorem sorted_after {h : Heap} {X Y : List Nat} {p : Nat}
    (hs : (h.values (X ++ p :: Y)).Pairwise (· < ·)) :
    ∀ y ∈ Y, (h.get p).Value < (h.get y).Value := by
  intro y hy
  simp only [Heap.values, List.map_append, List.map_cons] at hs
  have := (List.pairwise_append.mp hs).2.1
  exact (List.pairwise_cons.mp this).1 _ (List.mem_map_of_mem _ hy)

theorem sorted_before {h : Heap} {X Y : List Nat} {p : Nat}
    (hs : (h.values (X ++ p :: Y)).Pairwise (· < ·)) :
    ∀ x ∈ X, (h.get x).Value < (h.get p).Value := by
  intro x hx
  simp only [Heap.values, List.map_append, List.map_cons] at hs
  exact (List.pairwise_append.mp hs).2.2 _ (List.mem_map_of_mem _ hx) _ (by simp)

theorem sorted_sub {h : Heap} {l l' : List Nat} (hs : (h.values l).Pairwise (· < ·))
    (hsub : l'.Sublist l) : (h.values l').Pairwise (· < ·) :=
  hs.sublist (hsub.map _)

/-- The walk to the right of `FindNoLargerThan` goes down the right spine past nodes of
value at most `v`, and stops at a node without right child or of larger value. -/
theorem walkRight_spec {h : Heap} (v : ℚ) : ∀ (S : Shape) (c : Nat) (par : Ptr) (fuel : Nat),
    Linked h par S → S.root = some c → S.ids.length ≤ fuel →
    ∃ spine A p B, walkRightWhileLE h v fuel c = .ok p ∧ S = plug spine (.node A p B)
      ∧ (∀ f ∈ spine, f.isLeft = false ∧ (h.get f.id).Value ≤ v)
      ∧ (B = .nil ∨ ¬ (h.get p).Value ≤ v)
  | .nil, _, _, _, _, hr, _ => by simp at hr
  | .node A c' B, c, par, 0, _, _, hf => by simp at hf
  | .node A c' B, c, par, k + 1, hl, hr, hf => by
    simp only [Shape.root_node, Option.some.injEq] at hr
    subst hr
    obtain ⟨-, -, -, h4, -, h6⟩ := hl
    cases B with
    | nil =>
      refine ⟨[], A, c', .nil, ?_, rfl, by simp, Or.inl rfl⟩
      simp only [Shape.root_nil] at h4
      simp [walkRightWhileLE, h4]
    | node B1 b B2 =>
      simp only [Shape.root_node] at h4
      by_cases hle : (h.get c').Value ≤ v
      · obtain ⟨spine, A', p, B', he, hS, hsp, hB⟩ := walkRight_spec v (.node B1 b B2) b (some c') k
          h6 rfl
          (by simp only [Shape.ids_node, List.length_append, List.length_cons] at hf ⊢; omega)
        refine ⟨spine ++ [⟨false, c', A⟩], A', p, B', ?_, ?_, ?_, hB⟩
        · simp only [walkRightWhileLE, h4, hle, ↓reduceIte]
          exact he
        · rw [plug_append, ← hS]
          simp [plug, Frame.wrap]
        · intro f hf'
          rcases List.mem_append.mp hf' with hf' | hf'
          · exact hsp f hf'
          · simp only [List.mem_singleton] at hf'
            subst hf'
            exact ⟨rfl, hle⟩
      · refine ⟨[], A, c', .node B1 b B2, ?_, rfl, by simp, Or.inr hle⟩
        simp [walkRightWhileLE, h4, hle]

/-- The walk to the left of `FindNoLargerThan` goes down the left spine past nodes of
value above `v`, and stops at a node without left child or of value at most `v`. -/
theorem walkLeft_spec {h : Heap} (v : ℚ) : ∀ (S : Shape) (c : Nat) (par : Ptr) (fuel : Nat),
    Linked h par S → S.root = some c → S.ids.length ≤ fuel →
    ∃ spine A p B, walkLeftWhileGT h v fuel c = .ok p ∧ S = plug spine (.node A p B)
      ∧ (∀ f ∈ spine, f.isLeft = true ∧ (h.get f.id).Value > v)
      ∧ (A = .nil ∨ ¬ (h.get p).Value > v)
  | .nil, _, _, _, _, hr, _ => by simp at hr
  | .node A c' B, c, par, 0, _, _, hf => by simp at hf
  | .node A c' B, c, par, k + 1, hl, hr, hf => by
    simp only [Shape.root_node, Option.some.injEq] at hr
    subst hr
    obtain ⟨-, -, h3, -, h5, -⟩ := hl
    cases A with
    | nil =>
      refine ⟨[], .nil, c', B, ?_, rfl, by simp, Or.inl rfl⟩
      simp only [Shape.root_nil] at h3
      simp [walkLeftWhileGT, h3]
    | node A1 a A2 =>
      simp only [Shape.root_node] at h3
      by_cases hgt : (h.get c').Value > v
      · obtain ⟨spine, A', p, B', he, hS, hsp, hA⟩ := walkLeft_spec v (.node A1 a A2) a (some c') k
          h5 rfl
          (by simp only [Shape.ids_node, List.length_append, List.length_cons] at hf ⊢; omega)
        refine ⟨spine ++ [⟨true, c', B⟩], A', p, B', ?_, ?_, ?_, hA⟩
        · simp only [walkLeftWhileGT, h3, hgt, ↓reduceIte]
          exact he
        · rw [plug_append, ← hS]
          simp [plug, Frame.wrap]
        · intro f hf'
          rcases List.mem_append.mp hf' with hf' | hf'
          · exact hsp f hf'
          · simp only [List.mem_singleton] at hf'
            subst hf'
            exact ⟨rfl, hgt⟩
      · refine ⟨[], .node A1 a A2, c', B, ?_, rfl, by simp, Or.inr hgt⟩
        simp [walkLeftWhileGT, h3, hgt]

theorem FindNoLargerThan_le (h : Heap) (k t p : Nat) (v : ℚ) (hle : (h.get t).Value ≤ v)
    (hw : walkRightWhileLE h v h.budget t = .ok p) :
    FindNoLargerThan h (k + 1) (some t) v =
      if (h.get p).Value ≤ v then .ok (some p)
      else match (h.get p).Left with
        | some l => (FindNoLargerThan h k (some l) v).bind fun c => .ok (c.or (h.get p).Parent)
        | none => .ok (h.get p).Parent := by
  rw [FindNoLargerThan, if_pos hle]
  simp only [hw, bind, Except.bind, pure, Except.pure]
  split
  · rfl
  · cases (h.get p).Left with
    | none => rfl
    | some l =>
      simp only
      cases FindNoLargerThan h k (some l) v with
      | error e => rfl
      | ok c => cases c <;> rfl

theorem FindNoLargerThan_gt (h : Heap) (k t p : Nat) (v : ℚ) (hgt : ¬ (h.get t).Value ≤ v)
    (hw : walkLeftWhileGT h v h.budget t = .ok p) :
    FindNoLargerThan h (k + 1) (some t) v =
      if (h.get p).Value > v then .ok none
      else match (h.get p).Right with
        | some r => (FindNoLargerThan h k (some r) v).bind fun c => .ok (c.or (some p))
        | none => .ok (some p) := by
  rw [FindNoLargerThan, if_neg hgt]
  simp only [hw, bind, Except.bind, pure, Except.pure]
  split
  · rfl
  · cases (h.get p).Right with
    | none => rfl
    | some r =>
      simp only
      cases FindNoLargerThan h k (some r) v with
      | error e => rfl
      | ok c => cases c <;> rfl

end Hist

namespace Hist

theorem sub_ids_sublist (ctx : List Frame) (S : Shape) : S.ids.Sublist (plug ctx S).ids := by
  rw [ids_plug]
  exact (List.sublist_append_right _ _).trans (List.sublist_append_left _ _)

/-- `FindNoLargerThan` from the top of a subtree returns the floor of `v` among the
nodes of the subtree. -/
theorem FindNoLargerThan_aux {h : Heap} (v : ℚ) : ∀ (fuel : Nat) (ctx : List Frame) (S : Shape),
    TreeInv h (plug ctx S) → S.ids.length < fuel →
    FindNoLargerThan h fuel S.root v = .ok (floorIn h S.ids v)
  | 0, _, _, _, hf => by omega
  | k + 1, ctx, .nil, _, _ => by
    simp [FindNoLargerThan, floorIn_nil, Shape.ids]
  | k + 1, ctx, .node L t R, hinv, hf => by
    have hsS : (h.values (Shape.node L t R).ids).Pairwise (· < ·) :=
      sorted_sub hinv.sorted (sub_ids_sublist ctx _)
    have hlk : Linked h (ctxParent ctx) (.node L t R) := ((linked_plug ctx _).mp hinv.linked).1
    have hlen : (Shape.node L t R).ids.length ≤ h.budget :=
      sublist_length_budget hinv (sub_ids_sublist ctx _)
    show FindNoLargerThan h (k + 1) (some t) v = _
    by_cases hle : (h.get t).Value ≤ v
    · obtain ⟨spine, A, p, B, hw, hS, hsp, hB⟩ :=
        walkRight_spec v (.node L t R) t (ctxParent ctx) h.budget hlk rfl hlen
      rw [FindNoLargerThan_le h k t p v hle hw]
      have hids : (Shape.node L t R).ids = ctxBefore spine ++ (A.ids ++ p :: B.ids) := by
        rw [hS, ids_plug, ctxAfter_of_right (fun f hf' => (hsp f hf').1)]
        simp
      rw [hids] at hsS hf ⊢
      have hinv' : TreeInv h (plug (spine ++ ctx) (.node A p B)) := by
        rw [plug_append, ← hS]
        exact hinv
      obtain ⟨-, hpar, hleft, -⟩ := node_facts hinv'
      by_cases hp : (h.get p).Value ≤ v
      · rw [if_pos hp]
        rcases hB with hB | hB
        · subst hB
          simp only [Shape.ids_nil]
          rw [← List.append_assoc, floorIn_append, floorIn_single hp]
          rfl
        · exact absurd hp hB
      · rw [if_neg hp]
        have hpv : v < (h.get p).Value := not_le.mp hp
        obtain ⟨f, fs, rfl⟩ : ∃ f fs, spine = f :: fs := by
          cases spine with
          | nil =>
            simp only [plug, Shape.node.injEq] at hS
            obtain ⟨-, e, -⟩ := hS
            subst e
            exact absurd hle hp
          | cons f fs => exact ⟨f, fs, rfl⟩
        have hfl := hsp f (by simp)
        have hpB : floorIn h (p :: B.ids) v = none :=
          floorIn_none (fun y hy => by
            rcases List.mem_cons.mp hy with e | e
            · rw [e]
              exact hpv
            · have hs2 : (h.values ((ctxBefore (f :: fs) ++ A.ids) ++ p :: B.ids)).Pairwise
                  (· < ·) := by simpa using hsS
              exact lt_trans hpv (sorted_after hs2 y e))
        have hbefore : floorIn h (ctxBefore (f :: fs)) v = some f.id := by
          simp only [ctxBefore, hfl.1, Bool.false_eq_true, ↓reduceIte]
          rw [← List.append_assoc, floorIn_append, floorIn_single hfl.2]
          rfl
        have hfloor : floorIn h (ctxBefore (f :: fs) ++ (A.ids ++ p :: B.ids)) v
            = (floorIn h A.ids v).or (some f.id) := by
          rw [floorIn_append, floorIn_append, hpB, hbefore]
          rfl
        rw [hfloor, hleft, hpar]
        simp only [List.cons_append, ctxParent]
        cases A with
        | nil =>
          simp [floorIn_nil, Shape.ids]
        | node A1 a A2 =>
          simp only [Shape.root_node]
          have hinvA : TreeInv h (plug (⟨true, p, B⟩ :: (f :: fs ++ ctx)) (.node A1 a A2)) := by
            simpa [plug, Frame.wrap] using hinv'
          have := FindNoLargerThan_aux v k (⟨true, p, B⟩ :: (f :: fs ++ ctx)) (.node A1 a A2)
            hinvA (by
              simp only [List.length_append, List.length_cons] at hf
              omega)
          simp only [Shape.root_node] at this
          rw [this]
          rfl
    · obtain ⟨spine, A, p, B, hw, hS, hsp, hA⟩ :=
        walkLeft_spec v (.node L t R) t (ctxParent ctx) h.budget hlk rfl hlen
      rw [FindNoLargerThan_gt h k t p v hle hw]
      have hids : (Shape.node L t R).ids = (A.ids ++ p :: B.ids) ++ ctxAfter spine := by
        rw [hS, ids_plug, ctxBefore_of_left (fun f hf' => (hsp f hf').1)]
        simp
      rw [hids] at hsS hf ⊢
      have hinv' : TreeInv h (plug (spine ++ ctx) (.node A p B)) := by
        rw [plug_append, ← hS]
        exact hinv
      obtain ⟨-, -, -, hright, -⟩ := node_facts hinv'
      have hafter : floorIn h (ctxAfter spine) v = none := by
        cases spine with
        | nil => simp [ctxAfter, floorIn_nil]
        | cons f fs =>
          have hfl := hsp f (by simp)
          refine floorIn_none (fun y hy => ?_)
          simp only [ctxAfter, hfl.1, ↓reduceIte, List.cons_append] at hy hsS
          rcases List.mem_cons.mp hy with e | e
          · rw [e]
            exact hfl.2
          · exact lt_trans hfl.2 (sorted_after hsS y e)
      by_cases hp : (h.get p).Value > v
      · rw [if_pos hp]
        rcases hA with hA | hA
        · subst hA
          rw [floorIn_append, hafter]
          simp only [Shape.ids_nil, List.nil_append]
          rw [floorIn_none (fun y hy => ?_)]
          · rfl
          · rcases List.mem_cons.mp hy with e | e
            · rw [e]
              exact hp
            · have hs2 : (h.values ([] ++ p :: (B.ids ++ ctxAfter spine))).Pairwise (· < ·) := by
                simpa [Shape.ids] using hsS
              exact lt_trans hp (sorted_after hs2 y (by simp [e]))
        · exact absurd hp hA
      · rw [if_neg hp]
        have hpv : (h.get p).Value ≤ v := not_lt.mp hp
        have hAfl : ∀ x ∈ A.ids, (h.get x).Value ≤ v := fun x hx => by
          have hs2 : (h.values (A.ids ++ p :: (B.ids ++ ctxAfter spine))).Pairwise (· < ·) := by
            simpa using hsS
          exact le_trans (le_of_lt (sorted_before hs2 x hx)) hpv
        have hfloor : floorIn h (A.ids ++ p :: B.ids ++ ctxAfter spine) v
            = (floorIn h B.ids v).or (some p) := by
          rw [floorIn_append, hafter, floorIn_append, floorIn_cons hpv]
          cases floorIn h B.ids v <;> rfl
        rw [hfloor, hright]
        cases B with
        | nil =>
          simp [floorIn_nil, Shape.ids]
        | node B1 b B2 =>
          simp only [Shape.root_node]
          have hinvB : TreeInv h (plug (⟨false, p, A⟩ :: (spine ++ ctx)) (.node B1 b B2)) := by
            simpa [plug, Frame.wrap] using hinv'
          have := FindNoLargerThan_aux v k (⟨false, p, A⟩ :: (spine ++ ctx)) (.node B1 b B2)
            hinvB (by
              simp only [List.length_append, List.length_cons] at hf
              omega)
          simp only [Shape.root_node] at this
          rw [this]
          rfl

/-- `FindNoLargerThan` from the root is the floor query. -/
theorem FindNoLargerThan_spec {h : Heap} {T : Shape} (hinv : TreeInv h T) (v : ℚ) :
    FindNoLargerThan h h.budget T.root v = .ok (floorIn h T.ids v) :=
  FindNoLargerThan_aux v h.budget [] T hinv (by
    have := hinv.length_le
    unfold Heap.budget
    omega)

end Hist

namespace Hist

/-! ## The floor of a value among the nodes of a tree -/

theorem floorIn_none_iff {h : Heap} {ids : List Nat} {v : ℚ} :
    floorIn h ids v = none ↔ ∀ i ∈ ids, v < (h.get i).Value := by
  unfold floorIn
  rw [List.getLast?_eq_none_iff, List.filter_eq_nil_iff]
  simp

theorem floorIn_some {h : Heap} {ids : List Nat} {v : ℚ} {n : Nat}
    (hs : (h.values ids).Pairwise (· < ·)) (hn : floorIn h ids v = some n) :
    n ∈ ids ∧ (h.get n).Value ≤ v
      ∧ ∀ i ∈ ids, (h.get i).Value ≤ v → (h.get i).Value ≤ (h.get n).Value := by
  unfold floorIn at hn
  obtain ⟨ys, e⟩ := List.getLast?_eq_some_iff.mp hn
  have hmem : n ∈ ids.filter fun i => decide ((h.get i).Value ≤ v) := by
    rw [e]
    simp
  have hn' := List.mem_filter.mp hmem
  refine ⟨hn'.1, by simpa using hn'.2, fun i hi hiv => ?_⟩
  have hsf : (h.values (ys ++ [n])).Pairwise (· < ·) := by
    rw [← e]
    exact sorted_sub hs (List.filter_sublist _)
  have him : i ∈ ys ++ [n] := by
    rw [← e]
    exact List.mem_filter.mpr ⟨hi, by simpa using hiv⟩
  rcases List.mem_append.mp him with h1 | h1
  · exact le_of_lt (sorted_before hsf i h1)
  · simp only [List.mem_singleton] at h1
    rw [h1]

theorem TreeInv.floor_exact {h : Heap} {T : Shape} (hinv : TreeInv h T) {x : Nat}
    (hx : x ∈ T.ids) : floorIn h T.ids (h.get x).Value = some x := by
  obtain ⟨A, B, e⟩ := List.append_of_mem hx
  have hs := hinv.sorted
  rw [e] at hs ⊢
  rw [floorIn_append, floorIn_cons (le_refl _), floorIn_none (fun y hy => sorted_after hs y hy)]
  rfl

theorem TreeInv.floor_between {h : Heap} {T : Shape} (hinv : TreeInv h T) {x : Nat} {v : ℚ}
    (hx : x ∈ T.ids) (hv : v < (h.get x).Value)
    (hy : ∀ y, (h.get x).Smaller = some y → (h.get y).Value < v) :
    floorIn h T.ids v = (h.get x).Smaller := by
  obtain ⟨A, B, e⟩ := List.append_of_mem hx
  have hs := hinv.sorted
  have hc := hinv.chain
  rw [e] at hs hc ⊢
  have hsm := (chain_smaller_at hc).1
  have hxB : floorIn h (x :: B) v = none := floorIn_none (fun y hy' => by
    rcases List.mem_cons.mp hy' with e' | e'
    · rw [e']
      exact hv
    · exact lt_trans hv (sorted_after hs y e'))
  rw [floorIn_append, hxB]
  rcases List.eq_nil_or_concat A with hA | ⟨A', y, hA⟩
  · subst hA
    simp only [List.getLast?_nil] at hsm
    rw [hsm]
    rfl
  · subst hA
    simp only [List.concat_eq_append, List.getLast?_concat] at hsm
    rw [hsm, List.concat_eq_append, floorIn_append,
      floorIn_single (le_of_lt (hy y hsm))]
    rfl

end Hist

namespace Hist

/-! ## `CumulativeCount` -/

theorem leftCount_eq (h : Heap) (n : HistogramItem) : leftCount h n = cnt h n.Left := by
  unfold leftCount cnt
  cases n.Left <;> rfl

/-- The walk up of `CumulativeCount` adds the multiplicities of the nodes before the
subtree it starts from. -/
theorem cumulativeUp_ctx {h : Heap} : ∀ (ctx : List Frame) (pre : Nat) (acc : Int) (fuel : Nat) (s : Int),
    LinkedCtx h ctx (some pre) → CountedCtx h ctx s → pre ∉ ctxIds ctx → (ctxIds ctx).Nodup →
    ctx.length ≤ fuel →
    cumulativeUp h fuel pre (ctxParent ctx) acc = .ok (acc + dupSum h (ctxBefore ctx))
  | [], pre, acc, fuel, _, _, _, _, _, _ => by
    cases fuel <;> simp [ctxParent, cumulativeUp, ctxBefore]
  | f :: fs, pre, acc, 0, _, _, _, _, _, hf => by simp at hf
  | f :: fs, pre, acc, k + 1, s, hl, hc, hpre, hnd, hf => by
    obtain ⟨-, h2, h3, -, -, h6⟩ := hl
    obtain ⟨-, c2, c3⟩ := hc
    have hnd' := (ctxIds_cons_perm f fs).nodup_iff.mp hnd
    have hfid : f.id ∉ ctxIds fs := fun hm => by
      have := (List.nodup_cons.mp hnd').1
      exact this (List.mem_append.mpr (Or.inr hm))
    have hnd2 : (ctxIds fs).Nodup := (List.nodup_append.mp (List.nodup_cons.mp hnd').2).2.1
    have ih := fun acc' => cumulativeUp_ctx fs f.id acc' k _ h6 c3 hfid hnd2 (by simpa using hf)
    show cumulativeUp h (k + 1) pre (some f.id) acc = _
    rw [cumulativeUp]
    cases hfl : f.isLeft
    · have hsib : f.sib.root ≠ some pre := fun e =>
        hpre (mem_ctxIds_cons.mpr (Or.inr (Or.inl (Shape.root_mem_ids e))))
      simp only [hfl, Bool.false_eq_true, ↓reduceIte] at h3
      rw [if_pos (by rw [h3]; exact hsib), h2, ih, leftCount_eq, h3, c2.cnt_root]
      simp only [ctxBefore, hfl, Bool.false_eq_true, ↓reduceIte, dupSum_append, dupSum_cons,
        dupSum_nil]
      congr 1
      ring
    · simp only [hfl, ↓reduceIte] at h3
      rw [if_neg (by rw [h3]; simp), h2, ih]
      simp [ctxBefore, hfl]

theorem filter_le_sorted {h : Heap} {X Y : List Nat} {x : Nat}
    (hs : (h.values (X ++ x :: Y)).Pairwise (· < ·)) :
    (X ++ x :: Y).filter (fun i => (h.get i).Value ≤ (h.get x).Value) = X ++ [x] := by
  rw [List.filter_append, List.filter_cons, if_pos (by simp)]
  rw [List.filter_eq_self.mpr (fun a ha => by simpa using le_of_lt (sorted_before hs a ha)),
    List.filter_eq_nil_iff.mpr (fun a ha => by simpa using sorted_after hs a ha)]

/-- `CumulativeCount` of a node of a tree with true counts is the number of samples of
at most its value. -/
theorem CumulativeCount_spec {h : Heap} {T : Shape} (hinv : TreeInv h T) (hc : Counted h T)
    {x : Nat} (hx : x ∈ T.ids) :
    CumulativeCount h (some x)
      = .ok (dupSum h (T.ids.filter fun i => (h.get i).Value ≤ (h.get x).Value)) := by
  obtain ⟨ctx, L, R, rfl⟩ := exists_plug_of_mem hx
  obtain ⟨-, hpar, hleft, -⟩ := node_facts hinv
  obtain ⟨hcS, hcC⟩ := (counted_plug ctx _).mp hc
  obtain ⟨-, hndC, hdisj⟩ := nodup_plug hinv.nodup
  have hs := hinv.sorted
  rw [ids_plug_node] at hs ⊢
  rw [filter_le_sorted hs]
  have hup := cumulativeUp_ctx ctx x ((h.get x).Duplications + leftCount h (h.get x)) h.budget _
    (linkedCtx_of_plug hinv.linked) hcC (hdisj x (by simp)) hndC
    (le_of_lt hinv.ctx_lt_budget)
  have hval : (h.get x).Duplications + leftCount h (h.get x) + dupSum h (ctxBefore ctx)
      = dupSum h (ctxBefore ctx ++ L.ids ++ [x]) := by
    rw [leftCount_eq, hleft, hcS.2.1.cnt_root]
    simp only [dupSum_append, dupSum_cons, dupSum_nil]
    ring
  unfold CumulativeCount
  simp only
  rw [← hval, ← hup]
  cases hp : (h.get x).Parent with
  | none =>
    rw [← hpar, hp]
    cases h.budget <;> rfl
  | some g =>
    rw [← hpar, hp]

theorem TreeInv.last_of_larger {h : Heap} {T : Shape} (hinv : TreeInv h T) {x : Nat}
    (hx : x ∈ T.ids) (hl : (h.get x).Larger = none) : ∃ A, T.ids = A ++ [x] := by
  obtain ⟨A, B, e⟩ := List.append_of_mem hx
  have hc := hinv.chain
  rw [e] at hc
  have := (chain_smaller_at hc).2
  rw [hl] at this
  cases B with
  | nil => exact ⟨A, e⟩
  | cons b B => simp at this

theorem TreeInv.first_of_smaller {h : Heap} {T : Shape} (hinv : TreeInv h T) {x : Nat}
    (hx : x ∈ T.ids) (hl : (h.get x).Smaller = none) : ∃ B, T.ids = x :: B := by
  obtain ⟨A, B, e⟩ := List.append_of_mem hx
  have hc := hinv.chain
  rw [e] at hc
  have := (chain_smaller_at hc).1
  rw [hl] at this
  cases hA : A.getLast? with
  | none =>
    have : A = [] := List.getLast?_eq_none_iff.mp hA
    subst this
    exact ⟨B, e⟩
  | some y => simp [hA] at this

end Hist

namespace Hist

/-! ## `Dequeue` and `Enqueue` on a histogram that holds a tree -/

theorem bind_ok {α β : Type} {x : Except Fault α} {f : α → Except Fault β} {b : β}
    (h : x.bind f = .ok b) : ∃ a, x = .ok a ∧ f a = .ok b := by
  cases x with
  | error e => simp [Except.bind] at h
  | ok a => exact ⟨a, rfl, h⟩

theorem Histogram.Alike.rfl_alike (a : Histogram) : a.Alike a :=
  ⟨rfl, rfl, rfl, rfl, rfl, rfl, rfl, rfl, rfl, rfl⟩

/-- What `Dequeue` returns on a non-empty FIFO, apart from the cursors and the bucket
index. -/
theorem Dequeue_cons (hs : Histogram) (item : Nat) (rest : List Nat) (rep nr : Ptr) (heap : Heap)
    (hq : hs.Queue = item :: rest) (hd : Delete hs.heap item = .ok (rep, nr, heap))
    (r : Ptr) (hs' : Histogram) (he : hs.Dequeue = .ok (r, hs')) :
    r = some item ∧ hs'.Alike (dequeueCore hs item rest rep nr heap) := by
  unfold Histogram.Dequeue at he
  rw [hq] at he
  simp only [hd, bind, Except.bind, pure, Except.pure] at he
  unfold dequeueCore Histogram.momentsAfterDequeue dequeueTree Histogram.Alike
  by_cases hrem : (nr ≠ none ∨ nr = none ∧ rep = none)
  · simp only [hrem, decide_True, ↓reduceIte] at he ⊢
    cases hb : hs.BucketHistogram.Delete heap item with
    | error e => simp [hb] at he
    | ok b =>
      simp only [hb] at he
      split at he
      · split at he
        · cases he
        · injection he with he
          injection he with e1 e2
          subst e1 e2
          refine ⟨rfl, ?_⟩
          split
          · simp
          · split <;> simp
      · injection he with he
        injection he with e1 e2
        subst e1 e2
        refine ⟨rfl, ?_⟩
        split
        · simp
        · split <;> simp
  · simp only [hrem, decide_False, ↓reduceIte, Bool.false_eq_true] at he ⊢
    split at he
    · split at he
      · cases he
      · injection he with he
        injection he with e1 e2
        subst e1 e2
        refine ⟨rfl, ?_⟩
        split
        · simp
        · split <;> simp
    · injection he with he
      injection he with e1 e2
      subst e1 e2
      refine ⟨rfl, ?_⟩
      split
      · simp
      · split <;> simp

theorem HistInv.of_alike {a b : Histogram} {T : Shape} (hab : a.Alike b) (hb : HistInv b T) :
    HistInv a T := by
  obtain ⟨e1, e2, e3, -, e5, -, e7, e8, -, -⟩ := hab
  refine ⟨e1 ▸ hb.inv, e3 ▸ hb.root, e7 ▸ hb.min, e8 ▸ hb.max, ?_, ?_⟩
  · rw [e1, e2]
    exact hb.queue
  · rw [e5, e2]
    exact hb.count

theorem HistInv.mem_of_queue {hs : Histogram} {T : Shape} (hi : HistInv hs T) {i : Nat}
    (hq : i ∈ hs.Queue) : i ∈ T.ids := by
  by_contra hn
  have := hi.queue i
  rw [if_neg hn] at this
  have hp := List.count_pos_iff.mpr hq
  omega

theorem split_unique {t : Nat} : ∀ {A A' B B' : List Nat}, (A ++ t :: B).Nodup →
    A' ++ t :: B' = A ++ t :: B → A' = A ∧ B' = B
  | [], [], _, _, _, e => by simpa using e
  | [], a :: A', B, B', hnd, e => by
    simp only [List.cons_append, List.nil_append, List.cons.injEq] at e
    obtain ⟨rfl, e2⟩ := e
    have : a ∈ B := by rw [← e2]; simp
    simp at hnd
    exact absurd this hnd.1
  | a :: A, [], B, B', hnd, e => by
    simp only [List.cons_append, List.nil_append, List.cons.injEq] at e
    obtain ⟨rfl, e2⟩ := e
    simp at hnd
  | a :: A, a' :: A', B, B', hnd, e => by
    simp only [List.cons_append, List.cons.injEq] at e
    obtain ⟨rfl, e2⟩ := e
    have := split_unique (List.nodup_cons.mp hnd).2 e2
    exact ⟨by rw [this.1], this.2⟩

theorem head_of_split {A B : List Nat} {t : Nat} (hnd : (A ++ t :: B).Nodup) :
    (some t = (A ++ t :: B).head? ↔ A = []) := by
  cases A with
  | nil => simp
  | cons a A =>
    simp only [List.cons_append, List.head?_cons, Option.some.injEq, reduceCtorEq, iff_false]
    intro e
    subst e
    simp at hnd

theorem last_of_split {A B : List Nat} {t : Nat} (hnd : (A ++ t :: B).Nodup) :
    (some t = (A ++ t :: B).getLast? ↔ B = []) := by
  constructor
  · intro e
    by_contra hB
    obtain ⟨B', b, rfl⟩ : ∃ B' b, B = B' ++ [b] :=
      ⟨B.dropLast, B.getLast hB, (List.dropLast_append_getLast hB).symm⟩
    rw [show A ++ t :: (B' ++ [b]) = (A ++ t :: B') ++ [b] by simp, List.getLast?_concat] at e
    simp only [Option.some.injEq] at e
    subst e
    have := List.nodup_middle.mp hnd
    simp at this
  · intro e
    subst e
    simp

theorem momentsAfterDequeue_fields (hs : Histogram) (value : ℚ) :
    (hs.momentsAfterDequeue value).heap = hs.heap
      ∧ (hs.momentsAfterDequeue value).Queue = hs.Queue
      ∧ (hs.momentsAfterDequeue value).Count = hs.Count
      ∧ (hs.momentsAfterDequeue value).QueueSize = hs.QueueSize
      ∧ (hs.momentsAfterDequeue value).Accuracy = hs.Accuracy
      ∧ (hs.momentsAfterDequeue value).RootItem = hs.RootItem
      ∧ (hs.momentsAfterDequeue value).MinItem = hs.MinItem
      ∧ (hs.momentsAfterDequeue value).MaxItem = hs.MaxItem
      ∧ (hs.momentsAfterDequeue value).BucketHistogram = hs.BucketHistogram
      ∧ (hs.momentsAfterDequeue value).Percentiles = hs.Percentiles := by
  unfold Histogram.momentsAfterDequeue
  split
  · exact ⟨rfl, rfl, rfl, rfl, rfl, rfl, rfl, rfl, rfl, rfl⟩
  · split <;> exact ⟨rfl, rfl, rfl, rfl, rfl, rfl, rfl, rfl, rfl, rfl⟩

theorem dequeueCore_heap (hs : Histogram) (item : Nat) (rest : List Nat) (rep nr : Ptr)
    (heap : Heap) : (dequeueCore hs item rest rep nr heap).heap = heap := by
  unfold dequeueCore
  rw [(momentsAfterDequeue_fields _ _).1]
  unfold dequeueTree
  split <;> rfl

theorem dequeueCore_Queue (hs : Histogram) (item : Nat) (rest : List Nat) (rep nr : Ptr)
    (heap : Heap) : (dequeueCore hs item rest rep nr heap).Queue = rest := by
  unfold dequeueCore
  rw [(momentsAfterDequeue_fields _ _).2.1]
  unfold dequeueTree
  split <;> rfl

theorem dequeueCore_Count (hs : Histogram) (item : Nat) (rest : List Nat) (rep nr : Ptr)
    (heap : Heap) : (dequeueCore hs item rest rep nr heap).Count = hs.Count - 1 := by
  unfold dequeueCore
  rw [(momentsAfterDequeue_fields _ _).2.2.1]
  unfold dequeueTree
  split <;> rfl

theorem dequeueCore_QueueSize (hs : Histogram) (item : Nat) (rest : List Nat) (rep nr : Ptr)
    (heap : Heap) : (dequeueCore hs item rest rep nr heap).QueueSize = hs.QueueSize := by
  unfold dequeueCore
  rw [(momentsAfterDequeue_fields _ _).2.2.2.1]
  unfold dequeueTree
  split <;> rfl

theorem dequeueCore_Accuracy (hs : Histogram) (item : Nat) (rest : List Nat) (rep nr : Ptr)
    (heap : Heap) : (dequeueCore hs item rest rep nr heap).Accuracy = hs.Accuracy := by
  unfold dequeueCore
  rw [(momentsAfterDequeue_fields _ _).2.2.2.2.1]
  unfold dequeueTree
  split <;> rfl

theorem dequeueCore_RootItem (hs : Histogram) (item : Nat) (rest : List Nat) (rep nr : Ptr)
    (heap : Heap) : (dequeueCore hs item rest rep nr heap).RootItem
      = if nr ≠ none ∨ (nr = none ∧ rep = none) then nr else hs.RootItem := by
  unfold dequeueCore
  rw [(momentsAfterDequeue_fields _ _).2.2.2.2.2.1]
  unfold dequeueTree
  split <;> rfl

theorem dequeueCore_MinItem (hs : Histogram) (item : Nat) (rest : List Nat) (rep nr : Ptr)
    (heap : Heap) : (dequeueCore hs item rest rep nr heap).MinItem
      = if nr ≠ none ∨ (nr = none ∧ rep = none) then
          (if some item = hs.MinItem then (hs.heap.get item).Larger else hs.MinItem)
        else hs.MinItem := by
  unfold dequeueCore
  rw [(momentsAfterDequeue_fields _ _).2.2.2.2.2.2.1]
  unfold dequeueTree
  split <;> rfl

theorem dequeueCore_MaxItem (hs : Histogram) (item : Nat) (rest : List Nat) (rep nr : Ptr)
    (heap : Heap) : (dequeueCore hs item rest rep nr heap).MaxItem
      = if nr ≠ none ∨ (nr = none ∧ rep = none) then
          (if some item = hs.MaxItem then (hs.heap.get item).Smaller else hs.MaxItem)
        else hs.MaxItem := by
  unfold dequeueCore
  rw [(momentsAfterDequeue_fields _ _).2.2.2.2.2.2.2.1]
  unfold dequeueTree
  split <;> rfl

/-- The state `Dequeue` leaves holds a tree again: the invariant, the samples and the
counts after the head of the FIFO is taken out. -/
theorem dequeue_inv {hs : Histogram} {T : Shape} (hi : HistInv hs T) {item : Nat}
    {rest : List Nat} (hq : hs.Queue = item :: rest) :
    ∃ rep nr heap, Delete hs.heap item = .ok (rep, nr, heap)
      ∧ ∃ T', HistInv (dequeueCore hs item rest rep nr heap) T'
        ∧ (Counted hs.heap T → Counted heap T')
        ∧ (dequeueCore hs item rest rep nr heap).samples = hs.samples.tail
        ∧ (heap.get item).Value = (hs.heap.get item).Value
        ∧ (∀ i ∈ T'.ids, i ∈ T.ids ∧ (heap.get i).Value = (hs.heap.get i).Value)
        ∧ ((nr ≠ none ∨ (nr = none ∧ rep = none)) →
            item ∉ T'.ids ∧ ∀ i ∈ T.ids, i ≠ item → i ∈ T'.ids)
        ∧ (¬ (nr ≠ none ∨ (nr = none ∧ rep = none)) → T' = T) := by
  have hitem : item ∈ T.ids := hi.mem_of_queue (by rw [hq]; simp)
  obtain ⟨rep, nr, heap, hd, hpost⟩ := Delete_spec hs.heap T item hi.inv hitem
  refine ⟨rep, nr, heap, hd, ?_⟩
  have hcnt : ∀ i, (rest.count i : Int) = (hs.Queue.count i : Int) - if i = item then 1 else 0 := by
    intro i
    rw [hq, List.count_cons]
    by_cases e : i = item
    · subst e
      simp
    · have : ¬ (item = i) := fun e' => e e'.symm
      simp [e, this]
  have hlen : hs.Count - 1 = (rest.length : Int) := by
    rw [hi.count, hq]
    simp
  have hrestmem : ∀ i ∈ rest, i ∈ T.ids := fun i hir =>
    hi.mem_of_queue (by rw [hq]; exact List.mem_cons_of_mem _ hir)
  obtain ⟨A, B, e⟩ := List.append_of_mem hitem
  have hnd := hi.inv.nodup
  rw [e] at hnd
  have hch := hi.inv.chain
  rw [e] at hch
  obtain ⟨hsm, hlg⟩ := chain_smaller_at hch
  have hsamp : ∀ rep nr heap, (∀ i ∈ rest, (heap.get i).Value = (hs.heap.get i).Value) →
      (dequeueCore hs item rest rep nr heap).samples = hs.samples.tail := by
    intro rep nr heap hv
    unfold Histogram.samples
    rw [dequeueCore_heap, dequeueCore_Queue, hq]
    simp only [List.map_cons, List.tail_cons]
    exact List.map_congr_left hv
  rcases hpost with ⟨hd1, e1, e2, hinv', hsz, hsame, hcn'⟩ | ⟨hd1, hT, e1, e2, eh⟩
      | ⟨hd1, T', hrem, e2, hne', hiff⟩
  · subst e1 e2
    have hrem : ¬ ((none : Ptr) ≠ none ∨ ((none : Ptr) = none ∧ some item = none)) := by simp
    refine ⟨T, ⟨?_, ?_, ?_, ?_, fun i => ?_, ?_⟩, hcn',
      hsamp _ _ _ (fun i hir => (hsame i (hrestmem i hir)).1), (hsame item hitem).1,
      fun i hi' => ⟨hi', (hsame i hi').1⟩, fun h1 => absurd h1 hrem, fun _ => rfl⟩
    · rw [dequeueCore_heap]
      exact hinv'
    · rw [dequeueCore_RootItem, if_neg hrem]
      exact hi.root
    · rw [dequeueCore_MinItem, if_neg hrem]
      exact hi.min
    · rw [dequeueCore_MaxItem, if_neg hrem]
      exact hi.max
    · rw [dequeueCore_heap, dequeueCore_Queue, hcnt i, hi.queue i]
      by_cases him : i ∈ T.ids
      · rw [if_pos him, if_pos him, (hsame i him).2]
      · rw [if_neg him, if_neg him]
        have : i ≠ item := fun e' => him (e' ▸ hitem)
        simp [this]
    · rw [dequeueCore_Count, dequeueCore_Queue]
      exact hlen
  · subst e1 e2 eh hT
    have hAB : A = [] ∧ B = [] := by
      simp only [Shape.ids, List.nil_append] at e
      cases A with
      | nil =>
        simp only [List.nil_append, List.cons.injEq, true_and] at e
        exact ⟨rfl, e.symm⟩
      | cons a A =>
        simp only [List.cons_append, List.cons.injEq] at e
        have := congrArg List.length e.2
        simp at this
        omega
    obtain ⟨rfl, rfl⟩ := hAB
    simp only [List.getLast?_nil, List.head?_nil] at hsm hlg
    have hmin := hi.min
    have hmax := hi.max
    simp only [Shape.ids, List.nil_append, List.head?_cons, List.getLast?_singleton] at hmin hmax
    have hrem : (none : Ptr) ≠ none ∨ ((none : Ptr) = none ∧ (none : Ptr) = none) :=
      Or.inr ⟨rfl, rfl⟩
    refine ⟨.nil, ⟨?_, ?_, ?_, ?_, fun i => ?_, ?_⟩, fun _ => trivial,
      hsamp _ _ _ (fun i _ => rfl), rfl, fun i hi' => by simp [Shape.ids] at hi',
      fun _ => ⟨by simp [Shape.ids], fun i hi' hne => by
        simp [Shape.ids] at hi'
        exact absurd hi' hne⟩, fun h1 => absurd hrem h1⟩
    · exact TreeInv.nil _
    · rw [dequeueCore_RootItem, if_pos hrem]
      rfl
    · rw [dequeueCore_MinItem, if_pos hrem, hmin, if_pos rfl, hlg]
      rfl
    · rw [dequeueCore_MaxItem, if_pos hrem, hmax, if_pos rfl, hsm]
      rfl
    · rw [dequeueCore_Queue, hcnt i, hi.queue i]
      simp only [Shape.ids, List.nil_append, List.mem_singleton, List.not_mem_nil, ↓reduceIte]
      by_cases e' : i = item
      · subst e'
        simp [hd1]
      · simp [e']
    · rw [dequeueCore_Count, dequeueCore_Queue]
      exact hlen
  · obtain ⟨x, hx⟩ := Option.ne_none_iff_exists'.mp hne'
    obtain ⟨A', B', eA, eB⟩ := hrem.ids
    have hAB : A' = A ∧ B' = B := split_unique hnd (eA.symm.trans e)
    obtain ⟨rfl, rfl⟩ := hAB
    have hmin := hi.min
    have hmax := hi.max
    rw [e] at hmin hmax
    have hremv : nr ≠ none ∨ (nr = none ∧ rep = none) := Or.inl (by rw [e2]; exact hne')
    refine ⟨T', ⟨?_, ?_, ?_, ?_, fun i => ?_, ?_⟩, hrem.counted,
      hsamp _ _ _ (fun i _ => (hrem.same i).1), (hrem.same item).1,
      fun i hi' => ⟨by rw [e]; rw [eB] at hi'; simp at hi' ⊢; tauto, (hrem.same i).1⟩,
      fun _ => ⟨by
        rw [eB]
        intro hh
        have := List.nodup_middle.mp hnd
        simp at this hh
        tauto, fun i hi' hne => by
        rw [eB]
        rw [e] at hi'
        simp at hi' ⊢
        tauto⟩, fun h1 => absurd hremv h1⟩
    · rw [dequeueCore_heap]
      exact hrem.inv
    · rw [dequeueCore_RootItem, if_pos hremv]
      exact e2
    · rw [dequeueCore_MinItem, if_pos hremv, hmin, eB, hlg]
      by_cases hA : A' = []
      · subst hA
        simp
      · rw [if_neg (fun h1 => hA ((head_of_split hnd).mp h1))]
        cases A' with
        | nil => exact absurd rfl hA
        | cons a A' => rfl
    · rw [dequeueCore_MaxItem, if_pos hremv, hmax, eB, hsm]
      by_cases hB : B' = []
      · subst hB
        rw [if_pos ((last_of_split hnd).mpr rfl)]
        simp only [List.append_nil]
        cases A'.getLast? <;> rfl
      · rw [if_neg (fun h1 => hB ((last_of_split hnd).mp h1))]
        rw [List.getLast?_append, List.getLast?_append]
        have : (item :: B').getLast? = B'.getLast? := by
          cases B' with
          | nil => exact absurd rfl hB
          | cons b B' => rfl
        rw [this]
    · rw [dequeueCore_heap, dequeueCore_Queue, hcnt i, hi.queue i, eB, e, (hrem.same i).2]
      by_cases e' : i = item
      · subst e'
        have : i ∉ A' ++ B' := fun hh => by
          have := List.nodup_middle.mp hnd
          simp at this hh
          tauto
        rw [if_neg this]
        simp [hd1]
      · simp [e']
    · rw [dequeueCore_Count, dequeueCore_Queue]
      exact hlen

end Hist

namespace Hist

/-! ## `Enqueue` before the window is cut -/

theorem Histogram.Alike.symm_alike {a b : Histogram} (h : a.Alike b) : b.Alike a :=
  ⟨h.1.symm, h.2.1.symm, h.2.2.1.symm, h.2.2.2.1.symm, h.2.2.2.2.1.symm, h.2.2.2.2.2.1.symm,
    h.2.2.2.2.2.2.1.symm, h.2.2.2.2.2.2.2.1.symm, h.2.2.2.2.2.2.2.2.1.symm,
    h.2.2.2.2.2.2.2.2.2.symm⟩

/-- `Enqueue` on a histogram with a tree: the state before the window is cut, apart from
the cursors and the bucket index. -/
theorem Enqueue_some (hs : Histogram) (x : ℚ) (c : Int) (root item mn mx : Nat) (nr : Ptr)
    (heap : Heap) (hr : hs.RootItem = some root)
    (hins : Insert hs.heap.budget hs.heap root (hs.UnifiedValue x) c = .ok (item, nr, heap))
    (hmn : hs.MinItem = some mn) (hmx : hs.MaxItem = some mx)
    (r : Ptr) (hs' : Histogram) (he : hs.Enqueue x c = .ok (r, hs')) :
    ∃ hs4 : Histogram,
      hs4.Alike ((enqueueTree hs item (adoptRoot nr root) (adoptEnd (heap.get mn).Smaller mn)
        (adoptEnd (heap.get mx).Larger mx) heap c).momentsAfterEnqueue (hs.UnifiedValue x) c)
      ∧ evictLoop (hs4.Count - hs4.QueueSize).toNat hs4 none = .ok (r, hs') := by
  unfold Histogram.Enqueue at he
  simp only [hr, hins, hmn, hmx, deref, bind, Except.bind, pure, Except.pure] at he
  have key : ∀ (hs4 : Histogram) (n : Nat), evictLoop n hs4 none = .ok (r, hs') →
      n = (hs4.Count - hs4.QueueSize).toNat →
      hs4.Alike ((enqueueTree hs item (adoptRoot nr root) (adoptEnd (heap.get mn).Smaller mn)
        (adoptEnd (heap.get mx).Larger mx) heap c).momentsAfterEnqueue (hs.UnifiedValue x) c) →
      ∃ hs4 : Histogram,
        hs4.Alike ((enqueueTree hs item (adoptRoot nr root) (adoptEnd (heap.get mn).Smaller mn)
          (adoptEnd (heap.get mx).Larger mx) heap c).momentsAfterEnqueue (hs.UnifiedValue x) c)
        ∧ evictLoop (hs4.Count - hs4.QueueSize).toNat hs4 none = .ok (r, hs') :=
    fun hs4 n h1 h2 h3 => ⟨hs4, h3, h2 ▸ h1⟩
  split at he
  · cases he
  · split at he
    · split at he
      · cases he
      · exact key _ _ he rfl ⟨rfl, rfl, by cases nr <;> rfl, rfl, rfl, rfl,
          by cases (heap.get mn).Smaller <;> rfl, by cases (heap.get mx).Larger <;> rfl, rfl, rfl⟩
    · exact key _ _ he rfl ⟨rfl, rfl, by cases nr <;> rfl, rfl, rfl, rfl,
        by cases (heap.get mn).Smaller <;> rfl, by cases (heap.get mx).Larger <;> rfl, rfl, rfl⟩

/-- `Enqueue` on a histogram without a tree: the state before the window is cut, apart
from the cursors and the bucket index. -/
theorem Enqueue_none (hs : Histogram) (x : ℚ) (c : Int) (hr : hs.RootItem = none)
    (r : Ptr) (hs' : Histogram) (he : hs.Enqueue x c = .ok (r, hs')) :
    ∃ hs4 : Histogram,
      hs4.Alike ((enqueueTree hs hs.heap.size hs.heap.size hs.heap.size hs.heap.size
        (hs.heap.alloc { NewHistogramItem (hs.UnifiedValue x) with Duplications := c }).2
        c).momentsAfterEnqueue (hs.UnifiedValue x) c)
      ∧ evictLoop (hs4.Count - hs4.QueueSize).toNat hs4 none = .ok (r, hs') := by
  unfold Histogram.Enqueue at he
  simp only [hr, bind, Except.bind, pure, Except.pure] at he
  have key : ∀ (hs4 : Histogram) (n : Nat), evictLoop n hs4 none = .ok (r, hs') →
      n = (hs4.Count - hs4.QueueSize).toNat →
      hs4.Alike ((enqueueTree hs hs.heap.size hs.heap.size hs.heap.size hs.heap.size
        (hs.heap.alloc { NewHistogramItem (hs.UnifiedValue x) with Duplications := c }).2
        c).momentsAfterEnqueue (hs.UnifiedValue x) c) →
      ∃ hs4 : Histogram,
        hs4.Alike ((enqueueTree hs hs.heap.size hs.heap.size hs.heap.size hs.heap.size
          (hs.heap.alloc { NewHistogramItem (hs.UnifiedValue x) with Duplications := c }).2
          c).momentsAfterEnqueue (hs.UnifiedValue x) c)
        ∧ evictLoop (hs4.Count - hs4.QueueSize).toNat hs4 none = .ok (r, hs') :=
    fun hs4 n h1 h2 h3 => ⟨hs4, h3, h2 ▸ h1⟩
  split at he
  · split at he
    · cases he
    · exact key _ _ he rfl ⟨rfl, rfl, rfl, rfl, rfl, rfl, rfl, rfl, rfl, rfl⟩
  · exact key _ _ he rfl ⟨rfl, rfl, rfl, rfl, rfl, rfl, rfl, rfl, rfl, rfl⟩

end Hist

namespace Hist

/-! ## The invariant through `Enqueue`, before the window is cut -/

theorem enqueueCore_heap (hs : Histogram) (item r mn mx : Nat) (heap : Heap) (c : Int) (v : ℚ) :
    ((enqueueTree hs item r mn mx heap c).momentsAfterEnqueue v c).heap = heap := rfl

theorem enqueueCore_Queue (hs : Histogram) (item r mn mx : Nat) (heap : Heap) (c : Int) (v : ℚ) :
    ((enqueueTree hs item r mn mx heap c).momentsAfterEnqueue v c).Queue
      = hs.Queue ++ List.replicate c.toNat item := rfl

theorem enqueueCore_Count (hs : Histogram) (item r mn mx : Nat) (heap : Heap) (c : Int) (v : ℚ) :
    ((enqueueTree hs item r mn mx heap c).momentsAfterEnqueue v c).Count = hs.Count + c := rfl

theorem enqueueCore_QueueSize (hs : Histogram) (item r mn mx : Nat) (heap : Heap) (c : Int)
    (v : ℚ) :
    ((enqueueTree hs item r mn mx heap c).momentsAfterEnqueue v c).QueueSize = hs.QueueSize :=
  rfl

theorem enqueueCore_Accuracy (hs : Histogram) (item r mn mx : Nat) (heap : Heap) (c : Int)
    (v : ℚ) :
    ((enqueueTree hs item r mn mx heap c).momentsAfterEnqueue v c).Accuracy = hs.Accuracy := rfl

theorem enqueueCore_Mean (hs : Histogram) (item r mn mx : Nat) (heap : Heap) (c : Int) (v : ℚ) :
    ((enqueueTree hs item r mn mx heap c).momentsAfterEnqueue v c).Mean
      = (hs.momentsAfterEnqueue v c).Mean := rfl

theorem enqueueCore_Variance (hs : Histogram) (item r mn mx : Nat) (heap : Heap) (c : Int)
    (v : ℚ) :
    ((enqueueTree hs item r mn mx heap c).momentsAfterEnqueue v c).Variance
      = (hs.momentsAfterEnqueue v c).Variance := rfl

theorem count_append_replicate (q : List Nat) (n item i : Nat) :
    (((q ++ List.replicate n item).count i : Nat) : Int)
      = (q.count i : Int) + if i = item then (n : Int) else 0 := by
  rw [List.count_append, List.count_replicate]
  by_cases e : i = item
  · subst e
    simp
  · have : ¬ (item = i) := fun e' => e e'.symm
    simp [e, this]

theorem HistInv.queue_nil {hs : Histogram} (hi : HistInv hs .nil) : hs.Queue = [] := by
  refine List.eq_nil_iff_forall_not_mem.mpr (fun i hm => ?_)
  have := hi.mem_of_queue hm
  simp [Shape.ids] at this

/-- `Enqueue` on the histogram without a tree. -/
theorem enqueue_inv_none {hs : Histogram} (hi : HistInv hs .nil) (v : ℚ) (c : Int)
    (hc : 1 ≤ c) :
    HistInv ((enqueueTree hs hs.heap.size hs.heap.size hs.heap.size hs.heap.size
        (hs.heap.alloc { NewHistogramItem v with Duplications := c }).2
        c).momentsAfterEnqueue v c) (.node .nil hs.heap.size .nil)
      ∧ (c = 1 → Counted (hs.heap.alloc { NewHistogramItem v with Duplications := c }).2
          (.node .nil hs.heap.size .nil))
      ∧ ((hs.heap.alloc { NewHistogramItem v with Duplications := c }).2.get hs.heap.size).Value
          = v := by
  have hget := Heap.get_alloc_self hs.heap { NewHistogramItem v with Duplications := c }
  have hq := hi.queue_nil
  have hcn := hi.count
  rw [hq] at hcn
  refine ⟨⟨TreeInv.single hs.heap v c hc, rfl, rfl, rfl, fun i => ?_, ?_⟩, fun h1 => ?_, ?_⟩
  · rw [enqueueCore_heap, enqueueCore_Queue, count_append_replicate, hq]
    simp only [List.count_nil, Nat.cast_zero, zero_add, Shape.ids, List.nil_append,
      List.mem_singleton]
    by_cases e : i = hs.heap.size
    · subst e
      rw [if_pos rfl, if_pos rfl, hget]
      simp only [Int.toNat_of_nonneg (by omega : (0 : Int) ≤ c)]
    · rw [if_neg e, if_neg e]
  · rw [enqueueCore_Count, enqueueCore_Queue, hq, hcn]
    simp only [List.length_nil, Nat.cast_zero, zero_add, List.nil_append, List.length_replicate]
    rw [Int.toNat_of_nonneg (by omega)]
  · subst h1
    refine ⟨?_, trivial, trivial⟩
    simp only [Shape.ids, List.nil_append, dupSum_cons, dupSum_nil, hget]
    rfl
  · rw [hget]
    rfl

/-- `Enqueue` on a histogram with a tree. -/
theorem enqueue_inv_some {hs : Histogram} {T : Shape} (hi : HistInv hs T) (v : ℚ) (c : Int)
    (hc : 1 ≤ c) {root : Nat} (hr : hs.RootItem = some root) :
    ∃ item nr heap mn mx T', Insert hs.heap.budget hs.heap root v c = .ok (item, nr, heap)
      ∧ hs.MinItem = some mn ∧ hs.MaxItem = some mx
      ∧ HistInv ((enqueueTree hs item (adoptRoot nr root) (adoptEnd (heap.get mn).Smaller mn)
          (adoptEnd (heap.get mx).Larger mx) heap c).momentsAfterEnqueue v c) T'
      ∧ (Counted hs.heap T → c = 1 → Counted heap T')
      ∧ (heap.get item).Value = v
      ∧ (∀ i ∈ T.ids, (heap.get i).Value = (hs.heap.get i).Value)
      ∧ (∀ i ∈ T'.ids, i ∈ T.ids ∨ i = item)
      ∧ (((heap.get item).Duplications = c ∧ item ∉ T.ids
            ∧ (∀ i ∈ T.ids, (hs.heap.get i).Value ≠ v)
            ∧ ∀ i, i ∈ T'.ids ↔ i ∈ T.ids ∨ i = item)
          ∨ ((heap.get item).Duplications ≠ c ∧ item ∈ T.ids ∧ T'.ids = T.ids)) := by
  have hroot : T.root = some root := hi.root.symm.trans hr
  obtain ⟨item, nr, heap, T', hins, hpost⟩ := Insert_spec hs.heap T root v c hc hi.inv hroot
  have hne : T.ids ≠ [] := List.ne_nil_of_mem (Shape.root_mem_ids hroot)
  obtain ⟨mn, hmn⟩ : ∃ mn, T.ids.head? = some mn := by
    cases e : T.ids with
    | nil => exact absurd e hne
    | cons a l => exact ⟨a, rfl⟩
  obtain ⟨mx, hmx⟩ : ∃ mx, T.ids.getLast? = some mx :=
    ⟨T.ids.getLast hne, List.getLast?_eq_getLast _ hne⟩
  have hch := hpost.inv.chain
  refine ⟨item, nr, heap, mn, mx, T', hins, hi.min.trans hmn, hi.max.trans hmx,
    ⟨hpost.inv, ?_, ?_, ?_, fun i => ?_, ?_⟩, fun hcn h1 => hpost.counted hcn (Or.inr h1),
    hpost.value, fun i him => (hpost.old i him).1, ?_, ?_⟩
  · show some (adoptRoot nr root) = T'.root
    rw [hpost.root, hroot]
    cases nr <;> rfl
  · show some (adoptEnd (heap.get mn).Smaller mn) = T'.ids.head?
    rcases hpost.ids with ⟨-, hids, -⟩ | ⟨-, -, -, A, B, eA, eB⟩
    · rw [hids] at hch ⊢
      obtain ⟨l, el⟩ : ∃ l, T.ids = mn :: l := by
        cases e : T.ids with
        | nil => exact absurd e hne
        | cons a l =>
          rw [e] at hmn
          simp only [List.head?_cons, Option.some.injEq] at hmn
          exact ⟨l, by rw [hmn]⟩
      rw [el] at hch ⊢
      rw [hch.1]
      rfl
    · rw [eB] at hch ⊢
      rw [eA] at hmn
      cases A with
      | nil =>
        simp only [List.nil_append] at hmn hch ⊢
        obtain ⟨l, el⟩ : ∃ l, B = mn :: l := by
          cases B with
          | nil => simp at hmn
          | cons b l =>
            simp only [List.head?_cons, Option.some.injEq] at hmn
            exact ⟨l, by rw [hmn]⟩
        subst el
        rw [hch.2.2.1]
        rfl
      | cons a A =>
        simp only [List.cons_append, List.head?_cons, Option.some.injEq] at hmn hch ⊢
        subst hmn
        rw [hch.1]
        rfl
  · show some (adoptEnd (heap.get mx).Larger mx) = T'.ids.getLast?
    obtain ⟨l, el⟩ : ∃ l, T.ids = l ++ [mx] := List.getLast?_eq_some_iff.mp hmx
    rcases hpost.ids with ⟨-, hids, -⟩ | ⟨-, -, -, A, B, eA, eB⟩
    · rw [hids, el] at hch ⊢
      rw [(chain_smaller_at hch).2]
      simp [adoptEnd]
    · rw [eB] at hch ⊢
      rw [eA] at el
      rcases List.eq_nil_or_concat B with hB | ⟨B', b, hB⟩
      · subst hB
        simp only [List.append_nil] at el
        subst el
        have hch' : Chain heap none (l ++ mx :: [item]) := by simpa using hch
        rw [(chain_smaller_at hch').2]
        simp [adoptEnd]
      · subst hB
        rw [List.concat_eq_append, ← List.append_assoc] at el
        have := List.append_inj_right' el rfl
        simp only [List.cons.injEq, and_true] at this
        subst this
        have hch' : Chain heap none ((A ++ item :: B') ++ b :: []) := by
          simpa [List.concat_eq_append] using hch
        rw [(chain_smaller_at hch').2]
        rw [show A ++ item :: B'.concat b = (A ++ item :: B') ++ [b] by
          simp [List.concat_eq_append], List.getLast?_concat]
        rfl
  · rw [enqueueCore_heap, enqueueCore_Queue, count_append_replicate, hi.queue i,
      Int.toNat_of_nonneg (by omega : (0 : Int) ≤ c)]
    rcases hpost.ids with ⟨hm, hids, hd⟩ | ⟨hm, -, hd, A, B, eA, eB⟩
    · rw [hids]
      by_cases him : i ∈ T.ids
      · rw [if_pos him, if_pos him]
        by_cases e : i = item
        · subst e
          rw [if_pos rfl, hd]
        · rw [if_neg e, (hpost.old i him).2 e]
          simp
      · rw [if_neg him, if_neg him]
        have : i ≠ item := fun e => him (e ▸ hm)
        simp [this]
    · by_cases e : i = item
      · subst e
        rw [if_neg hm, if_pos rfl, if_pos (by rw [eB]; simp), hd]
        simp
      · rw [if_neg e]
        have hiff : i ∈ T'.ids ↔ i ∈ T.ids := by
          rw [eA, eB]
          simp [e]
        by_cases him : i ∈ T.ids
        · rw [if_pos him, if_pos (hiff.mpr him), (hpost.old i him).2 e]
          simp
        · rw [if_neg him, if_neg (fun h1 => him (hiff.mp h1))]
          simp
  · rw [enqueueCore_Count, enqueueCore_Queue, hi.count]
    simp only [List.length_append, List.length_replicate, Nat.cast_add]
    rw [Int.toNat_of_nonneg (by omega)]
  · intro i hi'
    rcases hpost.ids with ⟨-, hids, -⟩ | ⟨-, -, -, A, B, eA, eB⟩
    · exact Or.inl (hids ▸ hi')
    · rw [eB] at hi'
      rw [eA]
      simp only [List.mem_append, List.mem_cons] at hi' ⊢
      tauto
  · rcases hpost.ids with ⟨hm, hids, hd⟩ | ⟨hm, hne', hd, A, B, eA, eB⟩
    · refine Or.inr ⟨?_, hm, hids⟩
      have := hi.inv.dups item hm
      omega
    · refine Or.inl ⟨hd, hm, hne', fun i => ?_⟩
      rw [eA, eB]
      simp only [List.mem_append, List.mem_cons]
      tauto

end Hist

namespace Hist

/-! ## The running moments -/

theorem sumSq_nil : sumSq [] = 0 := rfl

theorem sumSq_cons (x : ℚ) (l : List ℚ) : sumSq (x :: l) = x ^ 2 + sumSq l := by
  simp [sumSq]

theorem sumSq_append (l1 l2 : List ℚ) : sumSq (l1 ++ l2) = sumSq l1 + sumSq l2 := by
  simp [sumSq]

theorem sum_replicate_q (n : Nat) (v : ℚ) : (List.replicate n v).sum = (n : ℚ) * v := by
  induction n with
  | zero => simp
  | succ k ih =>
    rw [List.replicate_succ, List.sum_cons, ih]
    push_cast
    ring

theorem sumSq_replicate (n : Nat) (v : ℚ) : sumSq (List.replicate n v) = (n : ℚ) * v ^ 2 := by
  induction n with
  | zero => simp [sumSq]
  | succ k ih =>
    rw [List.replicate_succ, sumSq_cons, ih]
    push_cast
    ring

/-- The moments after `Dequeue` of the sample `x`, from the moments before. -/
theorem momentsAfterDequeue_ok (hs : Histogram) (x : ℚ) (l : List ℚ)
    (hc : hs.Count = (l.length : Int))
    (hM : hs.Mean * ((l.length : ℚ) + 1) = x + l.sum)
    (hV : (hs.Variance + hs.Mean ^ 2) * ((l.length : ℚ) + 1) = x ^ 2 + sumSq l) :
    (hs.momentsAfterDequeue x).Mean * (l.length : ℚ) = l.sum
      ∧ ((hs.momentsAfterDequeue x).Variance + (hs.momentsAfterDequeue x).Mean ^ 2)
          * (l.length : ℚ) = sumSq l
      ∧ (l.length = 0 → (hs.momentsAfterDequeue x).Mean = 0
          ∧ (hs.momentsAfterDequeue x).Variance = 0) := by
  unfold Histogram.momentsAfterDequeue
  by_cases hpos : hs.Count > 0
  · rw [if_pos hpos]
    have hn : (0 : ℚ) < (l.length : ℚ) := by
      have : (0 : Int) < (l.length : Int) := by omega
      exact_mod_cast this
    have hne : (l.length : ℚ) ≠ 0 := ne_of_gt hn
    have hcq : (hs.Count : ℚ) = (l.length : ℚ) := by rw [hc]; simp
    simp only [Int.cast_add, Int.cast_one, hcq]
    have hP : (hs.Mean * ((l.length : ℚ) + 1) - x) / (l.length : ℚ) * (l.length : ℚ)
        = hs.Mean * ((l.length : ℚ) + 1) - x := div_mul_cancel₀ _ hne
    generalize (hs.Mean * ((l.length : ℚ) + 1) - x) / (l.length : ℚ) = m' at hP ⊢
    have hA : ((l.length : ℚ) + 1) / (l.length : ℚ) * hs.Variance * (l.length : ℚ)
        = ((l.length : ℚ) + 1) * hs.Variance := by
      field_simp
    have hB : 1 / (l.length : ℚ) * (x - hs.Mean) ^ 2 * (l.length : ℚ) = (x - hs.Mean) ^ 2 := by
      field_simp
    refine ⟨?_, ?_, fun h0 => ?_⟩
    · linarith
    · linear_combination hV + 2 * hs.Mean * hP + hA - hB
    · rw [h0] at hn
      simp at hn
  · rw [if_neg hpos]
    have h0 : l.length = 0 := by omega
    have hl : l = [] := List.length_eq_zero.mp h0
    subst hl
    have hc0 : hs.Count = 0 := by simpa using hc
    rw [if_pos hc0]
    simp [sumSq]

/-- The moments after `Enqueue` of `c` samples of the value `v`, from the moments
before. -/
theorem momentsAfterEnqueue_ok (hs : Histogram) (v : ℚ) (c : Int) (hc : 1 ≤ c) (l : List ℚ)
    (hn : hs.Count = (l.length : Int))
    (hM : hs.Mean * (l.length : ℚ) = l.sum)
    (hV : (hs.Variance + hs.Mean ^ 2) * (l.length : ℚ) = sumSq l) :
    (hs.momentsAfterEnqueue v c).Mean * ((l.length : ℚ) + (c : ℚ)) = l.sum + (c : ℚ) * v
      ∧ ((hs.momentsAfterEnqueue v c).Variance + (hs.momentsAfterEnqueue v c).Mean ^ 2)
          * ((l.length : ℚ) + (c : ℚ)) = sumSq l + (c : ℚ) * v ^ 2 := by
  unfold Histogram.momentsAfterEnqueue
  have hcq : (hs.Count : ℚ) = (l.length : ℚ) := by rw [hn]; simp
  have hcpos : (0 : ℚ) < (c : ℚ) := by
    have : (0 : Int) < c := by omega
    exact_mod_cast this
  have hn0 : (0 : ℚ) ≤ (l.length : ℚ) := by positivity
  have hne : (l.length : ℚ) + (c : ℚ) ≠ 0 := by positivity
  simp only [Int.cast_add, hcq]
  have hP : (hs.Mean * (l.length : ℚ) + v * (c : ℚ)) / ((l.length : ℚ) + (c : ℚ))
      * ((l.length : ℚ) + (c : ℚ)) = hs.Mean * (l.length : ℚ) + v * (c : ℚ) :=
    div_mul_cancel₀ _ hne
  generalize (hs.Mean * (l.length : ℚ) + v * (c : ℚ)) / ((l.length : ℚ) + (c : ℚ)) = m'
    at hP ⊢
  have hA : (l.length : ℚ) / ((l.length : ℚ) + (c : ℚ)) * hs.Variance
      * ((l.length : ℚ) + (c : ℚ)) = (l.length : ℚ) * hs.Variance := by
    field_simp
  have hB : (l.length : ℚ) / ((l.length : ℚ) + (c : ℚ)) * (m' - hs.Mean) ^ 2
      * ((l.length : ℚ) + (c : ℚ)) = (l.length : ℚ) * (m' - hs.Mean) ^ 2 := by
    field_simp
  have hC : (c : ℚ) / ((l.length : ℚ) + (c : ℚ)) * (v - m') ^ 2
      * ((l.length : ℚ) + (c : ℚ)) = (c : ℚ) * (v - m') ^ 2 := by
    field_simp
  refine ⟨?_, ?_⟩
  · linarith
  · linear_combination hV + 2 * m' * hP + hA + hB + hC

end Hist

namespace Hist

/-! ## The invariant through `Dequeue`, the window loop and `Enqueue` -/

theorem HistInv.samples_length {hs : Histogram} {T : Shape} (hi : HistInv hs T) :
    hs.Count = (hs.samples.length : Int) := by
  rw [hi.count]
  simp [Histogram.samples]

theorem samples_alike {a b : Histogram} (h : a.Alike b) : a.samples = b.samples := by
  unfold Histogram.samples
  rw [h.1, h.2.1]

theorem moments_of_alike {a b : Histogram} (h : a.Alike b) (hb : b.MomentsOK) :
    a.MomentsOK := by
  unfold Histogram.MomentsOK at hb ⊢
  rw [samples_alike h, h.2.2.2.2.1, h.2.2.2.2.2.2.2.2.1, h.2.2.2.2.2.2.2.2.2]
  exact hb

theorem Dequeue_nil (hs : Histogram) (hq : hs.Queue = []) : hs.Dequeue = .ok (none, hs) := by
  unfold Histogram.Dequeue
  rw [hq]

/-- `Dequeue` on a histogram that holds a tree. -/
theorem Dequeue_inv {hs : Histogram} {T : Shape} (hi : HistInv hs T) (hm : hs.MomentsOK)
    {r : Ptr} {hs' : Histogram} (he : hs.Dequeue = .ok (r, hs')) :
    ∃ T', HistInv hs' T' ∧ hs'.MomentsOK ∧ hs'.samples = hs.samples.tail
      ∧ hs'.QueueSize = hs.QueueSize ∧ hs'.Accuracy = hs.Accuracy
      ∧ (Counted hs.heap T → Counted hs'.heap T')
      ∧ (∀ i ∈ T'.ids, i ∈ T.ids ∧ (hs'.heap.get i).Value = (hs.heap.get i).Value) := by
  cases hq : hs.Queue with
  | nil =>
    have := Dequeue_nil hs hq
    rw [this] at he
    injection he with he
    injection he with e1 e2
    subst e2
    refine ⟨T, hi, hm, ?_, rfl, rfl, fun h => h, fun i hi' => ⟨hi', rfl⟩⟩
    simp [Histogram.samples, hq]
  | cons item rest =>
    obtain ⟨rep, nr, heap, hd, T', hinv', hcn, hsamp, hval, hvals, -, -⟩ := dequeue_inv hi hq
    obtain ⟨-, halike⟩ := Dequeue_cons hs item rest rep nr heap hq hd r hs' he
    have hs1 : hs.samples = (hs.heap.get item).Value :: hs.samples.tail := by
      simp [Histogram.samples, hq]
    have hlen : ((dequeueTree hs item rest rep nr heap).Count : Int)
        = ((hs.samples.tail).length : Int) := by
      have h1 : (dequeueTree hs item rest rep nr heap).Count = hs.Count - 1 := by
        unfold dequeueTree
        split <;> rfl
      rw [h1, hi.count, hq]
      simp [Histogram.samples, hq]
    have hMV : (dequeueTree hs item rest rep nr heap).Mean = hs.Mean
        ∧ (dequeueTree hs item rest rep nr heap).Variance = hs.Variance := by
      unfold dequeueTree
      split <;> exact ⟨rfl, rfl⟩
    have hcq : (hs.Count : ℚ) = ((hs.samples.tail).length : ℚ) + 1 := by
      have : hs.Count = ((hs.samples.tail).length : Int) + 1 := by
        rw [hi.count, hq]
        simp [Histogram.samples, hq]
      rw [this]
      push_cast
      ring
    obtain ⟨m1, m2, m3⟩ := hm
    have hmom := momentsAfterDequeue_ok (dequeueTree hs item rest rep nr heap)
      (heap.get item).Value hs.samples.tail hlen
      (by
        rw [hMV.1, ← hcq, m1, hval]
        conv_lhs => rw [hs1]
        simp)
      (by
        rw [hMV.1, hMV.2, ← hcq, m2, hval]
        conv_lhs => rw [hs1]
        rw [sumSq_cons])
    have hcore : (dequeueCore hs item rest rep nr heap).MomentsOK := by
      unfold Histogram.MomentsOK
      rw [hsamp, dequeueCore_Count]
      have hc2 : ((hs.Count - 1 : Int) : ℚ) = ((hs.samples.tail).length : ℚ) := by
        push_cast
        rw [hcq]
        ring
      rw [hc2]
      refine ⟨hmom.1, hmom.2.1, fun h0 => hmom.2.2 ?_⟩
      have : hs.Count = ((hs.samples.tail).length : Int) + 1 := by
        rw [hi.count, hq]
        simp [Histogram.samples, hq]
      omega
    refine ⟨T', HistInv.of_alike halike hinv', moments_of_alike halike hcore, ?_, ?_, ?_, ?_,
      ?_⟩
    · rw [samples_alike halike, hsamp]
    · rw [halike.2.2.2.1, dequeueCore_QueueSize]
    · rw [halike.2.2.2.2.2.1, dequeueCore_Accuracy]
    · intro h
      rw [halike.1, dequeueCore_heap]
      exact hcn h
    · intro i hi'
      rw [halike.1, dequeueCore_heap]
      exact hvals i hi'

/-- The window loop of `Enqueue`: it takes the oldest samples out until the count is
within the window. -/
theorem evictLoop_inv : ∀ (n : Nat) (hs : Histogram) (T : Shape) (r0 r : Ptr) (hs' : Histogram),
    HistInv hs T → hs.MomentsOK → evictLoop n hs r0 = .ok (r, hs') →
    ∃ T', HistInv hs' T' ∧ hs'.MomentsOK ∧ hs'.samples = window hs.QueueSize hs.samples
      ∧ hs'.QueueSize = hs.QueueSize ∧ hs'.Accuracy = hs.Accuracy
      ∧ (Counted hs.heap T → Counted hs'.heap T')
      ∧ (∀ i ∈ T'.ids, i ∈ T.ids ∧ (hs'.heap.get i).Value = (hs.heap.get i).Value)
  | n, hs, T, r0, r, hs', hi, hm, he => by
    unfold evictLoop at he
    by_cases hcond : hs.QueueSize > 0 ∧ hs.Count > hs.QueueSize
    · rw [if_pos hcond] at he
      cases n with
      | zero => simp at he
      | succ k =>
        simp only [bind, Except.bind] at he
        cases hd : hs.Dequeue with
        | error e =>
          rw [hd] at he
          simp at he
        | ok res =>
          obtain ⟨r1, hs1⟩ := res
          rw [hd] at he
          simp only at he
          obtain ⟨T1, hi1, hm1, hs1s, hq1, ha1, hc1, hv1⟩ := Dequeue_inv hi hm hd
          obtain ⟨T', hi', hm', hs's, hq', ha', hc', hv'⟩ :=
            evictLoop_inv k hs1 T1 r1 r hs' hi1 hm1 he
          refine ⟨T', hi', hm', ?_, hq'.trans hq1, ha'.trans ha1, fun h => hc' (hc1 h),
            fun i hi2 => ?_⟩
          · rw [hs's, hq1, hs1s]
            unfold window
            rw [if_pos hcond.1, if_pos hcond.1]
            have hlen := hi.samples_length
            have hw : (hs.QueueSize.toNat : Int) = hs.QueueSize :=
              Int.toNat_of_nonneg (le_of_lt hcond.1)
            have hlt : hs.QueueSize.toNat < hs.samples.length := by omega
            rw [List.length_tail, List.drop_tail]
            congr 1
            omega
          · obtain ⟨h1, h2⟩ := hv' i hi2
            obtain ⟨h3, h4⟩ := hv1 i h1
            exact ⟨h3, h2.trans h4⟩
    · rw [if_neg hcond] at he
      injection he with he
      injection he with e1 e2
      subst e2
      refine ⟨T, hi, hm, ?_, rfl, rfl, fun h => h, fun i hi2 => ⟨hi2, rfl⟩⟩
      unfold window
      split
      · rename_i hw
        have hlen := hi.samples_length
        have hw' : (hs.QueueSize.toNat : Int) = hs.QueueSize :=
          Int.toNat_of_nonneg (le_of_lt hw)
        have : hs.samples.length - hs.QueueSize.toNat = 0 := by
          have : ¬ hs.Count > hs.QueueSize := fun h => hcond ⟨hw, h⟩
          omega
        rw [this]
        rfl
      · rfl

/-- `Enqueue` of `c ≥ 1` samples on a histogram that holds a tree. -/
theorem Enqueue_inv {hs : Histogram} {T : Shape} (hi : HistInv hs T) (hm : hs.MomentsOK)
    (x : ℚ) (c : Int) (hc : 1 ≤ c) {r : Ptr} {hs' : Histogram}
    (he : hs.Enqueue x c = .ok (r, hs')) :
    ∃ T', HistInv hs' T' ∧ hs'.MomentsOK
      ∧ hs'.samples = window hs.QueueSize
          (hs.samples ++ List.replicate c.toNat (hs.UnifiedValue x))
      ∧ hs'.QueueSize = hs.QueueSize ∧ hs'.Accuracy = hs.Accuracy
      ∧ (Counted hs.heap T → c = 1 → Counted hs'.heap T')
      ∧ (∀ i ∈ T'.ids, (i ∈ T.ids ∧ (hs'.heap.get i).Value = (hs.heap.get i).Value)
          ∨ (hs'.heap.get i).Value = hs.UnifiedValue x) := by
  obtain ⟨m1, m2, -⟩ := hm
  have hlen := hi.samples_length
  have hcn : ((c.toNat : Nat) : ℚ) = (c : ℚ) := by
    have : ((c.toNat : Nat) : Int) = c := Int.toNat_of_nonneg (by omega)
    exact_mod_cast this
  have hmom := momentsAfterEnqueue_ok hs (hs.UnifiedValue x) c hc hs.samples hlen
    (by rw [← m1, hlen]; simp) (by rw [← m2, hlen]; simp)
  -- the moments of the state before the window is cut
  have hcoreM : ∀ (hs4 : Histogram), hs4.Count = hs.Count + c →
      hs4.Mean = (hs.momentsAfterEnqueue (hs.UnifiedValue x) c).Mean →
      hs4.Variance = (hs.momentsAfterEnqueue (hs.UnifiedValue x) c).Variance →
      hs4.samples = hs.samples ++ List.replicate c.toNat (hs.UnifiedValue x) →
      hs4.MomentsOK := by
    intro hs4 e1 e2 e3 e4
    unfold Histogram.MomentsOK
    have hcq : (hs4.Count : ℚ) = (hs.samples.length : ℚ) + (c : ℚ) := by
      rw [e1, hlen]
      push_cast
      ring
    rw [e2, e3, e4, hcq, List.sum_append, sumSq_append, sum_replicate_q, sumSq_replicate, hcn]
    exact ⟨hmom.1, hmom.2, fun h0 => by omega⟩
  cases hr : hs.RootItem with
  | none =>
    have hT : T = .nil := Shape.root_eq_none.mp (hi.root.symm.trans hr)
    subst hT
    obtain ⟨hs4, halike, hev⟩ := Enqueue_none hs x c hr r hs' he
    obtain ⟨hinv4, hcnt4, hval4⟩ := enqueue_inv_none hi (hs.UnifiedValue x) c hc
    have hi4 := HistInv.of_alike halike hinv4
    have hsamp4 : hs4.samples
        = hs.samples ++ List.replicate c.toNat (hs.UnifiedValue x) := by
      rw [samples_alike halike]
      unfold Histogram.samples
      rw [enqueueCore_heap, enqueueCore_Queue, hi.queue_nil]
      simp only [List.nil_append, List.map_nil, List.map_replicate, hval4]
    have hm4 : hs4.MomentsOK := hcoreM hs4 (halike.2.2.2.2.1.trans (enqueueCore_Count ..))
      (halike.2.2.2.2.2.2.2.2.1.trans (enqueueCore_Mean ..))
      (halike.2.2.2.2.2.2.2.2.2.trans (enqueueCore_Variance ..)) hsamp4
    obtain ⟨T', hi', hm', hs's, hq', ha', hc', hv'⟩ := evictLoop_inv _ hs4 _ none r hs' hi4 hm4 hev
    have hq4 : hs4.QueueSize = hs.QueueSize := halike.2.2.2.1.trans (enqueueCore_QueueSize ..)
    refine ⟨T', hi', hm', ?_, hq'.trans hq4,
      ha'.trans (halike.2.2.2.2.2.1.trans (enqueueCore_Accuracy ..)), fun _ h1 => hc' ?_,
      fun i hi2 => Or.inr ?_⟩
    · rw [hs's, hq4, hsamp4]
    · rw [halike.1, enqueueCore_heap]
      exact hcnt4 h1
    · obtain ⟨h1, h2⟩ := hv' i hi2
      rw [h2, halike.1, enqueueCore_heap]
      simp only [Shape.ids, List.nil_append, List.mem_singleton] at h1
      rw [h1]
      exact hval4
  | some root =>
    obtain ⟨item, nr, heap, mn, mx, T4, hins, hmn, hmx, hinv4, hcnt4, hval4, hold4, hnew4, -⟩ :=
      enqueue_inv_some hi (hs.UnifiedValue x) c hc hr
    obtain ⟨hs4, halike, hev⟩ := Enqueue_some hs x c root item mn mx nr heap hr hins hmn hmx r hs' he
    have hi4 := HistInv.of_alike halike hinv4
    have hsamp4 : hs4.samples
        = hs.samples ++ List.replicate c.toNat (hs.UnifiedValue x) := by
      rw [samples_alike halike]
      unfold Histogram.samples
      rw [enqueueCore_heap, enqueueCore_Queue]
      simp only [List.map_append, List.map_replicate, hval4]
      congr 1
      exact List.map_congr_left (fun i hiq => hold4 i (hi.mem_of_queue hiq))
    have hm4 : hs4.MomentsOK := hcoreM hs4 (halike.2.2.2.2.1.trans (enqueueCore_Count ..))
      (halike.2.2.2.2.2.2.2.2.1.trans (enqueueCore_Mean ..))
      (halike.2.2.2.2.2.2.2.2.2.trans (enqueueCore_Variance ..)) hsamp4
    obtain ⟨T', hi', hm', hs's, hq', ha', hc', hv'⟩ := evictLoop_inv _ hs4 _ none r hs' hi4 hm4 hev
    have hq4 : hs4.QueueSize = hs.QueueSize := halike.2.2.2.1.trans (enqueueCore_QueueSize ..)
    refine ⟨T', hi', hm', ?_, hq'.trans hq4,
      ha'.trans (halike.2.2.2.2.2.1.trans (enqueueCore_Accuracy ..)), fun hcn0 h1 => hc' ?_,
      fun i hi2 => ?_⟩
    · rw [hs's, hq4, hsamp4]
    · rw [halike.1, enqueueCore_heap]
      exact hcnt4 hcn0 h1
    · obtain ⟨h1, h2⟩ := hv' i hi2
      rw [h2, halike.1, enqueueCore_heap]
      rcases hnew4 i h1 with h3 | h3
      · exact Or.inl ⟨h3, hold4 i h3⟩
      · rw [h3]
        exact Or.inr hval4

end Hist

namespace Hist

/-! ## The bucket index: `Insert` and `Delete` -/

theorem getD_append_replicate {α : Type} (fill : α) : ∀ (l : List α) (n k : Nat),
    (l ++ List.replicate n fill).getD k fill = l.getD k fill
  | [], n, k => by
    simp only [List.nil_append, List.getD_eq_getElem?_getD, List.getElem?_replicate,
      List.getElem?_nil, Option.getD_none]
    split <;> rfl
  | a :: l, n, 0 => rfl
  | a :: l, n, k + 1 => by
    simpa using getD_append_replicate fill l n k

theorem getD_growTo {α : Type} (l : List α) (idx : Int) (fill : α) (k : Nat) :
    (growTo l idx fill).getD k fill = l.getD k fill :=
  getD_append_replicate fill l _ k

theorem length_growTo {α : Type} (l : List α) (idx : Int) (fill : α) :
    idx < ((growTo l idx fill).length : Int) := by
  unfold growTo
  rw [List.length_append, List.length_replicate]
  omega

theorem getD_set {α : Type} (d x : α) : ∀ (l : List α) (i k : Nat),
    (l.set i x).getD k d = if k = i ∧ i < l.length then x else l.getD k d
  | [], i, k => by simp
  | a :: l, 0, 0 => by simp
  | a :: l, 0, k + 1 => by simp
  | a :: l, i + 1, 0 => by simp
  | a :: l, i + 1, k + 1 => by
    simpa using getD_set d x l i k

theorem goRound_nonneg {x : ℚ} (hx : 0 ≤ x) : goRound x = ((⌊x + 1 / 2⌋ : Int) : ℚ) := by
  unfold goRound
  rw [if_neg (not_lt.mpr hx)]

theorem goRound_nonneg_le {x : ℚ} (hx : 0 ≤ x) : 0 ≤ goRound x := by
  rw [goRound_nonneg hx]
  have : (0 : Int) ≤ ⌊x + 1 / 2⌋ := Int.floor_nonneg.mpr (by linarith)
  exact_mod_cast this

theorem goTrunc_nonneg {x : ℚ} (hx : 0 ≤ x) (hb : x < 2 ^ 63) : goTrunc x = ⌊x⌋ := by
  have h0 : (0 : Int) ≤ ⌊x⌋ := Int.floor_nonneg.mpr hx
  have h1 : ⌊x⌋ < (2 : Int) ^ 63 := Int.floor_lt.mpr (by exact_mod_cast hb)
  have h2 : -(2 : Int) ^ 63 ≤ ⌊x⌋ := le_trans (by norm_num) h0
  unfold goTrunc
  simp only [if_neg (not_lt.mpr hx)]
  rw [if_pos ⟨h2, h1⟩]

/-- The position in a slab of bucket size `bs` that starts at `lower`, for a value that
is not below `lower`. -/
def subPos (bs lower v : ℚ) : Int :=
  if bs < 1 then ⌊(v - lower) / bs + 1 / 2⌋ else ⌊(v - lower) / bs⌋

theorem sub_CalcPosition (sb : SubBucketHistogram) (v : ℚ) (hb : 0 < sb.BucketSize)
    (hv : sb.LowerBoundary ≤ v)
    (h63 : (v - sb.LowerBoundary) / sb.BucketSize + 1 / 2 < 2 ^ 63) :
    sb.CalcPosition v = subPos sb.BucketSize sb.LowerBoundary v
      ∧ 0 ≤ sb.CalcPosition v := by
  have hq : 0 ≤ (v - sb.LowerBoundary) / sb.BucketSize :=
    div_nonneg (by linarith) (le_of_lt hb)
  have hr63 : goRound ((v - sb.LowerBoundary) / sb.BucketSize) < 2 ^ 63 := by
    rw [goRound_nonneg hq]
    exact lt_of_le_of_lt (Int.floor_le _) h63
  unfold SubBucketHistogram.CalcPosition subPos
  rw [if_neg (ne_of_gt hb), abs_of_pos hb]
  simp only
  by_cases h1 : sb.BucketSize < 1
  · rw [if_pos h1, if_pos h1, goTrunc_nonneg (goRound_nonneg_le hq) hr63, goRound_nonneg hq,
      Int.floor_intCast]
    exact ⟨rfl, Int.floor_nonneg.mpr (by linarith)⟩
  · rw [if_neg h1, if_neg h1, goTrunc_nonneg hq (by linarith)]
    exact ⟨rfl, Int.floor_nonneg.mpr hq⟩

theorem bucket_CalcPosition (b : BucketHistogram) (v : ℚ) (hs : 1 ≤ b.SubBucketHistogramSize)
    (hv : 0 ≤ v) (h63 : v / b.SubBucketHistogramSize < 2 ^ 63) :
    b.CalcPosition v = (⌊v / b.SubBucketHistogramSize⌋,
        ((⌊v / b.SubBucketHistogramSize⌋ : Int) : ℚ) * b.SubBucketHistogramSize,
        ((⌊v / b.SubBucketHistogramSize⌋ + 1 : Int) : ℚ) * b.SubBucketHistogramSize)
      ∧ 0 ≤ ⌊v / b.SubBucketHistogramSize⌋
      ∧ ((⌊v / b.SubBucketHistogramSize⌋ : Int) : ℚ) * b.SubBucketHistogramSize ≤ v := by
  have hpos : 0 < b.SubBucketHistogramSize := by linarith
  have hq : 0 ≤ v / b.SubBucketHistogramSize := div_nonneg hv (le_of_lt hpos)
  refine ⟨?_, Int.floor_nonneg.mpr hq, ?_⟩
  · unfold BucketHistogram.CalcPosition BucketHistogram.GetLowerAndUpperBoundaries
    rw [if_neg (ne_of_gt hpos), abs_of_pos hpos]
    simp only [if_neg (not_lt.mpr hs), goTrunc_nonneg hq h63]
  · have := Int.floor_le (v / b.SubBucketHistogramSize)
    calc ((⌊v / b.SubBucketHistogramSize⌋ : Int) : ℚ) * b.SubBucketHistogramSize
        ≤ v / b.SubBucketHistogramSize * b.SubBucketHistogramSize :=
          mul_le_mul_of_nonneg_right this (le_of_lt hpos)
      _ = v := div_mul_cancel₀ v (ne_of_gt hpos)

/-- The place of a value in its slab, in buckets, is below the number of buckets of a
slab. -/
theorem inner_room {slab bs : ℚ} (v : ℚ) (hs : 1 ≤ slab) (hb : 0 < bs)
    (hroom : slab / bs + 1 ≤ 2 ^ 63) :
    (v - ((⌊v / slab⌋ : Int) : ℚ) * slab) / bs + 1 / 2 < 2 ^ 63 := by
  have hpos : 0 < slab := by linarith
  have h1 : v / slab < ((⌊v / slab⌋ : Int) : ℚ) + 1 := Int.lt_floor_add_one _
  have h2 : v < (((⌊v / slab⌋ : Int) : ℚ) + 1) * slab := (div_lt_iff₀ hpos).mp h1
  have h3 : v - ((⌊v / slab⌋ : Int) : ℚ) * slab < slab := by linarith
  have h4 : (v - ((⌊v / slab⌋ : Int) : ℚ) * slab) / bs < slab / bs :=
    div_lt_div_of_pos_right h3 hb
  linarith

/-- The position of a value that is not negative and lies in one of the first `2^63`
slabs, in a well-formed index with fewer than `2^63` buckets in a slab. -/
theorem position_eq (b : BucketHistogram) (v : ℚ) (hs : 1 ≤ b.SubBucketHistogramSize)
    (hb : 0 < b.BucketSize) (hv : 0 ≤ v)
    (hroom : b.SubBucketHistogramSize / b.BucketSize + 1 ≤ 2 ^ 63)
    (h63 : v / b.SubBucketHistogramSize < 2 ^ 63) :
    b.position v = (⌊v / b.SubBucketHistogramSize⌋,
        subPos b.BucketSize
          (((⌊v / b.SubBucketHistogramSize⌋ : Int) : ℚ) * b.SubBucketHistogramSize) v)
      ∧ 0 ≤ (b.position v).1 ∧ 0 ≤ (b.position v).2 := by
  obtain ⟨h1, h2, h3⟩ := bucket_CalcPosition b v hs hv h63
  unfold BucketHistogram.position
  rw [h1]
  simp only
  obtain ⟨h4, h5⟩ := sub_CalcPosition (NewSubBucketHistogram b.BucketSize
    (((⌊v / b.SubBucketHistogramSize⌋ : Int) : ℚ) * b.SubBucketHistogramSize)
    (((⌊v / b.SubBucketHistogramSize⌋ + 1 : Int) : ℚ) * b.SubBucketHistogramSize)) v hb h3
    (inner_room v hs hb hroom)
  exact ⟨by rw [h4]; rfl, h2, h5⟩

/-- On the grid of the bucket size no two values share a position. -/
theorem position_inj (b : BucketHistogram) (hs : 1 ≤ b.SubBucketHistogramSize)
    (hb : 0 < b.BucketSize) (hroom : b.SubBucketHistogramSize / b.BucketSize + 1 ≤ 2 ^ 63)
    {v w : ℚ} (hv : 0 ≤ v) (hw : 0 ≤ w)
    (hv63 : v / b.SubBucketHistogramSize < 2 ^ 63)
    (hw63 : w / b.SubBucketHistogramSize < 2 ^ 63)
    (gv : ∃ k : Int, v = (k : ℚ) * b.BucketSize) (gw : ∃ k : Int, w = (k : ℚ) * b.BucketSize)
    (e : b.position v = b.position w) : v = w := by
  rw [(position_eq b v hs hb hv hroom hv63).1, (position_eq b w hs hb hw hroom hw63).1] at e
  simp only [Prod.mk.injEq] at e
  obtain ⟨e1, e2⟩ := e
  rw [← e1] at e2
  obtain ⟨k, rfl⟩ := gv
  obtain ⟨m, rfl⟩ := gw
  generalize ((⌊(k : ℚ) * b.BucketSize / b.SubBucketHistogramSize⌋ : Int) : ℚ)
    * b.SubBucketHistogramSize = L at e2
  have hne : b.BucketSize ≠ 0 := ne_of_gt hb
  have hk : ∀ n : Int, ((n : ℚ) * b.BucketSize - L) / b.BucketSize
      = (n : ℚ) + (-L / b.BucketSize) := by
    intro n
    field_simp
    ring
  unfold subPos at e2
  rw [hk, hk] at e2
  have : k = m := by
    split at e2
    · rw [add_assoc, add_assoc, Int.floor_int_add, Int.floor_int_add] at e2
      omega
    · rw [Int.floor_int_add, Int.floor_int_add] at e2
      omega
  rw [this]

end Hist

namespace Hist

theorem sub_Insert_spec (sb : SubBucketHistogram) (h : Heap) (n : Nat) (hb : 0 < sb.BucketSize)
    (hv : sb.LowerBoundary ≤ (h.get n).Value)
    (h63 : ((h.get n).Value - sb.LowerBoundary) / sb.BucketSize + 1 / 2 < 2 ^ 63) :
    ∃ sb', sb.Insert h n = .ok sb' ∧ sb'.BucketSize = sb.BucketSize
      ∧ sb'.LowerBoundary = sb.LowerBoundary
      ∧ ∀ j : Nat, sb'.BucketList.getD j none
          = if (j : Int) = subPos sb.BucketSize sb.LowerBoundary (h.get n).Value then some n
            else sb.BucketList.getD j none := by
  obtain ⟨h1, h2⟩ := sub_CalcPosition sb (h.get n).Value hb hv h63
  have hlen := length_growTo sb.BucketList (sb.CalcPosition (h.get n).Value) (none : Ptr)
  unfold SubBucketHistogram.Insert
  simp only
  rw [if_neg (by omega)]
  refine ⟨_, rfl, rfl, rfl, fun j => ?_⟩
  simp only
  rw [getD_set, getD_growTo, ← h1]
  by_cases e : (j : Int) = sb.CalcPosition (h.get n).Value
  · rw [if_pos e, if_pos]
    omega
  · rw [if_neg e, if_neg]
    omega

theorem sub_Delete_spec (sb : SubBucketHistogram) (h : Heap) (n : Nat) (hb : 0 < sb.BucketSize)
    (hv : sb.LowerBoundary ≤ (h.get n).Value)
    (h63 : ((h.get n).Value - sb.LowerBoundary) / sb.BucketSize + 1 / 2 < 2 ^ 63) :
    ∃ sb', sb.Delete h n = .ok sb' ∧ sb'.BucketSize = sb.BucketSize
      ∧ sb'.LowerBoundary = sb.LowerBoundary
      ∧ ∀ j : Nat, sb'.BucketList.getD j none
          = if (j : Int) = subPos sb.BucketSize sb.LowerBoundary (h.get n).Value then none
            else sb.BucketList.getD j none := by
  obtain ⟨h1, h2⟩ := sub_CalcPosition sb (h.get n).Value hb hv h63
  unfold SubBucketHistogram.Delete
  simp only
  by_cases hl : sb.CalcPosition (h.get n).Value < (sb.BucketList.length : Int)
  · rw [if_pos hl, if_neg (by omega)]
    refine ⟨_, rfl, rfl, rfl, fun j => ?_⟩
    simp only
    rw [getD_set, ← h1]
    by_cases e : (j : Int) = sb.CalcPosition (h.get n).Value
    · rw [if_pos e, if_pos]
      omega
    · rw [if_neg e, if_neg]
      omega
  · rw [if_neg hl]
    refine ⟨_, rfl, rfl, rfl, fun j => ?_⟩
    rw [← h1]
    by_cases e : (j : Int) = sb.CalcPosition (h.get n).Value
    · rw [if_pos e]
      exact List.getD_eq_default _ _ (by omega)
    · rw [if_neg e]

theorem slot_of_some {b : BucketHistogram} {k : Nat} {sb : SubBucketHistogram}
    (e : b.SubBucketHistograms.getD k none = some sb) (j : Nat) :
    b.slot k j = sb.BucketList.getD j none := by
  unfold BucketHistogram.slot
  rw [e]

theorem slot_of_none {b : BucketHistogram} {k : Nat}
    (e : b.SubBucketHistograms.getD k none = none) (j : Nat) : b.slot k j = none := by
  unfold BucketHistogram.slot
  rw [e]

/-- `Insert` of the index for a node with a value that is not negative and lies in one
of the first `2^63` slabs: it returns, and the slot at the position of the value holds
the node. -/
theorem bucket_Insert_spec (b : BucketHistogram) (h : Heap) (n : Nat) (hok : BucketOK b)
    (hv : 0 ≤ (h.get n).Value)
    (hroom : b.SubBucketHistogramSize / b.BucketSize + 1 ≤ 2 ^ 63)
    (h63 : (h.get n).Value / b.SubBucketHistogramSize < 2 ^ 63) :
    ∃ b', b.Insert h n = .ok b' ∧ BucketOK b' ∧ b'.BucketSize = b.BucketSize
      ∧ b'.SubBucketHistogramSize = b.SubBucketHistogramSize
      ∧ ∀ k j : Nat, b'.slot k j
          = if ((k : Int), (j : Int)) = b.position (h.get n).Value then some n
            else b.slot k j := by
  obtain ⟨h1, h2, h3⟩ := bucket_CalcPosition b (h.get n).Value hok.slab hv h63
  obtain ⟨h4, -, -⟩ := position_eq b (h.get n).Value hok.slab hok.unit hv hroom h63
  have hin := inner_room (h.get n).Value hok.slab hok.unit hroom
  generalize hidx : ⌊(h.get n).Value / b.SubBucketHistogramSize⌋ = idx at h1 h2 h3 h4 hin
  have hlen := length_growTo b.SubBucketHistograms idx (none : Option SubBucketHistogram)
  have hidxn : ((idx.toNat : Nat) : ℚ) = (idx : ℚ) := by
    have : ((idx.toNat : Nat) : Int) = idx := Int.toNat_of_nonneg h2
    exact_mod_cast this
  have hk : ((idx.toNat : Nat) : Int) = idx := Int.toNat_of_nonneg h2
  have hget : ∀ (sb1 : SubBucketHistogram) (k : Nat),
      (List.set (growTo b.SubBucketHistograms idx none) idx.toNat (some sb1)).getD k none
        = if k = idx.toNat then some sb1 else b.SubBucketHistograms.getD k none := by
    intro sb1 k
    rw [getD_set, getD_growTo]
    by_cases e : k = idx.toNat
    · rw [if_pos e, if_pos]
      exact ⟨e, by omega⟩
    · rw [if_neg e, if_neg]
      exact fun h => e h.1
  -- the slab that takes the node
  have main : ∀ sb0 : SubBucketHistogram, sb0.BucketSize = b.BucketSize →
      sb0.LowerBoundary = (idx : ℚ) * b.SubBucketHistogramSize →
      (∀ j, sb0.BucketList.getD j none = b.slot idx.toNat j) →
      ∃ b', (sb0.Insert h n).bind (fun sb1 => Except.ok
          { SubBucketHistograms := (growTo b.SubBucketHistograms idx none).set idx.toNat
              (some sb1),
            SubBucketHistogramSize := b.SubBucketHistogramSize,
            BucketSize := b.BucketSize }) = .ok b'
        ∧ BucketOK b' ∧ b'.BucketSize = b.BucketSize
        ∧ b'.SubBucketHistogramSize = b.SubBucketHistogramSize
        ∧ ∀ k j : Nat, b'.slot k j
            = if ((k : Int), (j : Int)) = b.position (h.get n).Value then some n
              else b.slot k j := by
    intro sb0 hbs0 hlo0 hslot0
    obtain ⟨sb1, hins, hbs1, hlo1, hslot1⟩ := sub_Insert_spec sb0 h n
      (by rw [hbs0]; exact hok.unit) (by rw [hlo0]; exact h3)
      (by rw [hbs0, hlo0]; exact hin)
    rw [hins]
    refine ⟨_, rfl, ⟨hok.slab, hok.unit, fun k sb e => ?_⟩, rfl, rfl, fun k j => ?_⟩
    · simp only at e ⊢
      rw [hget] at e
      by_cases ek : k = idx.toNat
      · rw [if_pos ek] at e
        injection e with e
        subst e
        exact ⟨hbs1.trans hbs0, by rw [hlo1, hlo0, ek, hidxn]⟩
      · rw [if_neg ek] at e
        exact hok.slabs _ _ e
    · rw [h4]
      have hs0 := hslot0 j
      unfold BucketHistogram.slot at hs0 ⊢
      simp only [hget]
      by_cases ek : k = idx.toNat
      · subst ek
        simp only [↓reduceIte, hslot1, hs0, hbs0, hlo0]
        by_cases ej : (j : Int) = subPos b.BucketSize ((idx : ℚ) * b.SubBucketHistogramSize)
            (h.get n).Value
        · rw [if_pos ej, if_pos]
          rw [hk, ej]
        · rw [if_neg ej, if_neg]
          intro e
          simp only [Prod.mk.injEq] at e
          exact ej e.2
      · rw [if_neg ek, if_neg]
        intro e
        simp only [Prod.mk.injEq] at e
        omega
  unfold BucketHistogram.Insert
  rw [h1]
  simp only
  rw [if_neg (by omega), getD_growTo]
  cases e : b.SubBucketHistograms.getD idx.toNat none with
  | none =>
    exact main _ rfl rfl (fun j => by rw [slot_of_none e]; rfl)
  | some sb =>
    obtain ⟨e1, e2⟩ := hok.slabs _ _ e
    exact main _ e1 (by rw [e2, hidxn]) (fun j => by rw [slot_of_some e])

/-- `Delete` of the index for a node with a value that is not negative and lies in one
of the first `2^63` slabs: it returns, and the slot at the position of the value is
empty. -/
theorem bucket_Delete_spec (b : BucketHistogram) (h : Heap) (n : Nat) (hok : BucketOK b)
    (hv : 0 ≤ (h.get n).Value)
    (hroom : b.SubBucketHistogramSize / b.BucketSize + 1 ≤ 2 ^ 63)
    (h63 : (h.get n).Value / b.SubBucketHistogramSize < 2 ^ 63) :
    ∃ b', b.Delete h n = .ok b' ∧ BucketOK b' ∧ b'.BucketSize = b.BucketSize
      ∧ b'.SubBucketHistogramSize = b.SubBucketHistogramSize
      ∧ ∀ k j : Nat, b'.slot k j
          = if ((k : Int), (j : Int)) = b.position (h.get n).Value then none
            else b.slot k j := by
  obtain ⟨h1, h2, h3⟩ := bucket_CalcPosition b (h.get n).Value hok.slab hv h63
  obtain ⟨h4, -, -⟩ := position_eq b (h.get n).Value hok.slab hok.unit hv hroom h63
  have hin := inner_room (h.get n).Value hok.slab hok.unit hroom
  generalize hidx : ⌊(h.get n).Value / b.SubBucketHistogramSize⌋ = idx at h1 h2 h3 h4 hin
  have hidxn : ((idx.toNat : Nat) : ℚ) = (idx : ℚ) := by
    have : ((idx.toNat : Nat) : Int) = idx := Int.toNat_of_nonneg h2
    exact_mod_cast this
  have hk : ((idx.toNat : Nat) : Int) = idx := Int.toNat_of_nonneg h2
  -- the index as it is, when there is nothing at the position
  have hsame : (∀ j, b.slot idx.toNat j = none) →
      ∃ b', (.ok b : Except Fault BucketHistogram) = .ok b' ∧ BucketOK b'
        ∧ b'.BucketSize = b.BucketSize
        ∧ b'.SubBucketHistogramSize = b.SubBucketHistogramSize
        ∧ ∀ k j : Nat, b'.slot k j
            = if ((k : Int), (j : Int)) = b.position (h.get n).Value then none
              else b.slot k j := by
    intro hnone
    refine ⟨b, rfl, hok, rfl, rfl, fun k j => ?_⟩
    rw [h4]
    split
    · rename_i e
      simp only [Prod.mk.injEq] at e
      have : k = idx.toNat := by omega
      rw [this]
      exact hnone j
    · rfl
  unfold BucketHistogram.Delete
  rw [h1]
  simp only
  by_cases hl : idx < (b.SubBucketHistograms.length : Int)
  · rw [if_pos hl, if_neg (by omega)]
    cases e : b.SubBucketHistograms.getD idx.toNat none with
    | none => exact hsame (fun j => slot_of_none e j)
    | some sb =>
      obtain ⟨e1, e2⟩ := hok.slabs _ _ e
      obtain ⟨sb1, hdel, hbs1, hlo1, hslot1⟩ := sub_Delete_spec sb h n
        (by rw [e1]; exact hok.unit) (by rw [e2, hidxn]; exact h3)
        (by rw [e1, e2, hidxn]; exact hin)
      simp only [hdel, bind, Except.bind, pure, Except.pure]
      have hget : ∀ k : Nat, (List.set b.SubBucketHistograms idx.toNat (some sb1)).getD k none
          = if k = idx.toNat then some sb1 else b.SubBucketHistograms.getD k none := by
        intro k
        rw [getD_set]
        by_cases ek : k = idx.toNat
        · rw [if_pos ek, if_pos]
          exact ⟨ek, by omega⟩
        · rw [if_neg ek, if_neg]
          exact fun h => ek h.1
      refine ⟨_, rfl, ⟨hok.slab, hok.unit, fun k sb' e' => ?_⟩, rfl, rfl, fun k j => ?_⟩
      · simp only at e' ⊢
        rw [hget] at e'
        by_cases ek : k = idx.toNat
        · rw [if_pos ek] at e'
          injection e' with e'
          subst e'
          exact ⟨hbs1.trans e1, by rw [hlo1, e2, ek]⟩
        · rw [if_neg ek] at e'
          exact hok.slabs _ _ e'
      · rw [h4]
        have hs0 := slot_of_some e j
        unfold BucketHistogram.slot at hs0 ⊢
        simp only [hget]
        by_cases ek : k = idx.toNat
        · subst ek
          simp only [↓reduceIte, hslot1, e1, e2, hidxn]
          rw [e]
          by_cases ej : (j : Int) = subPos b.BucketSize ((idx : ℚ) * b.SubBucketHistogramSize)
              (h.get n).Value
          · rw [if_pos ej, if_pos]
            rw [hk, ej]
          · rw [if_neg ej, if_neg]
            intro e
            simp only [Prod.mk.injEq] at e
            exact ej e.2
        · rw [if_neg ek, if_neg]
          intro e
          simp only [Prod.mk.injEq] at e
          omega
  · rw [if_neg hl]
    refine hsame (fun j => slot_of_none (List.getD_eq_default _ _ (by omega)) j)

end Hist

namespace Hist

/-! ## `Dequeue` and `Enqueue` without cursors return -/

theorem momentsAfterDequeue_plain (hs : Histogram) (value : ℚ) :
    (hs.momentsAfterDequeue value).Percentiles = hs.Percentiles
      ∧ (hs.momentsAfterDequeue value).BucketHistogram = hs.BucketHistogram := by
  unfold Histogram.momentsAfterDequeue
  split
  · exact ⟨rfl, rfl⟩
  · split <;> exact ⟨rfl, rfl⟩

/-- `Dequeue` without cursors on a non-empty FIFO returns when `Delete` of the tree and
`Delete` of the bucket index do. -/
theorem Dequeue_plain (hs : Histogram) (item : Nat) (rest : List Nat) (rep nr : Ptr)
    (heap : Heap) (hq : hs.Queue = item :: rest)
    (hd : Delete hs.heap item = .ok (rep, nr, heap)) (hp : hs.Percentiles = [])
    (b : BucketHistogram)
    (hb : (nr ≠ none ∨ nr = none ∧ rep = none) → hs.BucketHistogram.Delete heap item = .ok b)
    (hb2 : ¬ (nr ≠ none ∨ nr = none ∧ rep = none) → b = hs.BucketHistogram) :
    ∃ hs', hs.Dequeue = .ok (some item, hs') ∧ hs'.Percentiles = []
      ∧ hs'.BucketHistogram = b := by
  unfold Histogram.Dequeue
  rw [hq]
  simp only [hd, bind, Except.bind, pure, Except.pure]
  by_cases hrem : (nr ≠ none ∨ nr = none ∧ rep = none)
  · simp only [hrem, decide_True, ↓reduceIte, hb hrem, hp, List.mapM_nil, pure, Except.pure]
    split
    · refine ⟨_, rfl, ?_, ?_⟩
      · split
        · rfl
        · split <;> rfl
      · split
        · rfl
        · split <;> rfl
    · refine ⟨_, rfl, ?_, ?_⟩
      · split
        · rfl
        · split <;> rfl
      · split
        · rfl
        · split <;> rfl
  · simp only [hrem, decide_False, ↓reduceIte, Bool.false_eq_true, hp, List.mapM_nil, pure,
      Except.pure]
    rw [hb2 hrem]
    split
    · refine ⟨_, rfl, ?_, ?_⟩
      · split
        · rfl
        · split <;> rfl
      · split
        · rfl
        · split <;> rfl
    · refine ⟨_, rfl, ?_, ?_⟩
      · split
        · rfl
        · split <;> rfl
      · split
        · rfl
        · split <;> rfl

theorem exists_evict {E : Except Fault (Ptr × Histogram)} (hs4 : Histogram) (n : Nat)
    {core : Histogram} {b : BucketHistogram} (h1 : E = evictLoop n hs4 none)
    (h2 : n = (hs4.Count - hs4.QueueSize).toNat) (h3 : hs4.Alike core)
    (h4 : hs4.Percentiles = []) (h5 : hs4.BucketHistogram = b) :
    ∃ hs4 : Histogram, E = evictLoop (hs4.Count - hs4.QueueSize).toNat hs4 none
      ∧ hs4.Alike core ∧ hs4.Percentiles = [] ∧ hs4.BucketHistogram = b :=
  ⟨hs4, h2 ▸ h1, h3, h4, h5⟩

/-- `Enqueue` without cursors on a histogram with a tree: it is the window loop on the
state after the insert. -/
theorem Enqueue_plain_some (hs : Histogram) (x : ℚ) (c : Int) (root item mn mx : Nat) (nr : Ptr)
    (heap : Heap) (hr : hs.RootItem = some root)
    (hins : Insert hs.heap.budget hs.heap root (hs.UnifiedValue x) c = .ok (item, nr, heap))
    (hmn : hs.MinItem = some mn) (hmx : hs.MaxItem = some mx) (hp : hs.Percentiles = [])
    (b : BucketHistogram)
    (hb : (heap.get item).Duplications = c → hs.BucketHistogram.Insert heap item = .ok b)
    (hb2 : (heap.get item).Duplications ≠ c → b = hs.BucketHistogram) :
    ∃ hs4 : Histogram, hs.Enqueue x c = evictLoop (hs4.Count - hs4.QueueSize).toNat hs4 none
      ∧ hs4.Alike ((enqueueTree hs item (adoptRoot nr root) (adoptEnd (heap.get mn).Smaller mn)
        (adoptEnd (heap.get mx).Larger mx) heap c).momentsAfterEnqueue (hs.UnifiedValue x) c)
      ∧ hs4.Percentiles = [] ∧ hs4.BucketHistogram = b := by
  unfold Histogram.Enqueue
  simp only [hr, hins, hmn, hmx, deref, bind, Except.bind, pure, Except.pure, hp,
    List.mapM_nil]
  by_cases hd : (heap.get item).Duplications = c
  · simp only [hd, ↓reduceIte, hb hd]
    exact exists_evict _ _ rfl rfl ⟨rfl, rfl, by cases nr <;> rfl, rfl, rfl, rfl,
      by cases (heap.get mn).Smaller <;> rfl, by cases (heap.get mx).Larger <;> rfl, rfl, rfl⟩
      rfl rfl
  · simp only [hd, ↓reduceIte]
    exact exists_evict _ _ rfl rfl ⟨rfl, rfl, by cases nr <;> rfl, rfl, rfl, rfl,
      by cases (heap.get mn).Smaller <;> rfl, by cases (heap.get mx).Larger <;> rfl, rfl, rfl⟩
      rfl (hb2 hd).symm

/-- `Enqueue` without cursors on a histogram without a tree: it is the window loop on
the state with the one node. -/
theorem Enqueue_plain_none (hs : Histogram) (x : ℚ) (c : Int) (hr : hs.RootItem = none)
    (hp : hs.Percentiles = []) (b : BucketHistogram)
    (hb : hs.BucketHistogram.Insert
      (hs.heap.alloc { NewHistogramItem (hs.UnifiedValue x) with Duplications := c }).2
      hs.heap.size = .ok b) :
    ∃ hs4 : Histogram, hs.Enqueue x c = evictLoop (hs4.Count - hs4.QueueSize).toNat hs4 none
      ∧ hs4.Alike ((enqueueTree hs hs.heap.size hs.heap.size hs.heap.size hs.heap.size
        (hs.heap.alloc { NewHistogramItem (hs.UnifiedValue x) with Duplications := c }).2
        c).momentsAfterEnqueue (hs.UnifiedValue x) c)
      ∧ hs4.Percentiles = [] ∧ hs4.BucketHistogram = b := by
  have hget := Heap.get_alloc_self hs.heap
    { NewHistogramItem (hs.UnifiedValue x) with Duplications := c }
  have hd : ((hs.heap.alloc
      { NewHistogramItem (hs.UnifiedValue x) with Duplications := c }).2.get
      hs.heap.size).Duplications = c := by rw [hget]
  unfold Histogram.Enqueue
  simp only [hr, bind, Except.bind, pure, Except.pure, hp, List.map_nil]
  have hd' : ((hs.heap.alloc
      { NewHistogramItem (hs.UnifiedValue x) with Duplications := c }).2.get
      (hs.heap.alloc
        { NewHistogramItem (hs.UnifiedValue x) with Duplications := c }).1).Duplications
      = c := hd
  have hb' : hs.BucketHistogram.Insert
      (hs.heap.alloc { NewHistogramItem (hs.UnifiedValue x) with Duplications := c }).2
      (hs.heap.alloc { NewHistogramItem (hs.UnifiedValue x) with Duplications := c }).1
      = .ok b := hb
  simp only [hd', ↓reduceIte, hb']
  exact exists_evict _ _ rfl rfl ⟨rfl, rfl, rfl, rfl, rfl, rfl, rfl, rfl, rfl, rfl⟩ rfl rfl

end Hist

namespace Hist

/-! ## The bucket index through `Dequeue`, the window loop and `Enqueue` -/

theorem HistInv.unique {hs : Histogram} {T T' : Shape} (h : HistInv hs T) (h' : HistInv hs T') :
    T' = T := by
  rw [← h.inv.shape_eq, ← h'.inv.shape_eq, ← h.root, ← h'.root]

theorem position_congr {b b' : BucketHistogram} (e1 : b'.BucketSize = b.BucketSize)
    (e2 : b'.SubBucketHistogramSize = b.SubBucketHistogramSize) (v : ℚ) :
    b'.position v = b.position v := by
  unfold BucketHistogram.position BucketHistogram.CalcPosition
    BucketHistogram.GetLowerAndUpperBoundaries
  rw [e1, e2]

theorem OnGrid.grid {hs : Histogram} {T : Shape} (hg : OnGrid hs T)
    (hu : hs.BucketHistogram.BucketSize = 1 / hs.Accuracy) {i : Nat} (hi : i ∈ T.ids) :
    ∃ k : Int, (hs.heap.get i).Value = (k : ℚ) * hs.BucketHistogram.BucketSize := by
  obtain ⟨k, hk⟩ := (hg i hi).2
  exact ⟨k, by rw [hk, hu]; ring⟩

theorem InRange.rooms {slab acc : ℚ} {hs : Histogram} {T : Shape} (hr : InRange slab acc hs T)
    (hu : hs.BucketHistogram.BucketSize = 1 / hs.Accuracy) :
    hs.BucketHistogram.SubBucketHistogramSize / hs.BucketHistogram.BucketSize + 1 ≤ 2 ^ 63 := by
  rw [hu, hr.slab_eq, hr.acc_eq, div_div_eq_mul_div, div_one]
  exact hr.room

theorem InRange.reaches {slab acc : ℚ} {hs : Histogram} {T : Shape} (hr : InRange slab acc hs T)
    {i : Nat} (hi : i ∈ T.ids) :
    (hs.heap.get i).Value / hs.BucketHistogram.SubBucketHistogramSize < 2 ^ 63 := by
  rw [hr.slab_eq]
  exact hr.reach i hi

/-- `Dequeue` without cursors returns, and keeps the bucket index exact. -/
theorem Dequeue_returns {slab acc : ℚ} {hs : Histogram} {T : Shape} (hi : HistInv hs T)
    (hb : BucketInv hs T) (hg : OnGrid hs T) (hr : InRange slab acc hs T) :
    ∃ r hs' T', hs.Dequeue = .ok (r, hs') ∧ HistInv hs' T' ∧ BucketInv hs' T' ∧ OnGrid hs' T'
      ∧ hs'.QueueSize = hs.QueueSize ∧ (hs.Queue ≠ [] → hs'.Count = hs.Count - 1)
      ∧ InRange slab acc hs' T' := by
  cases hq : hs.Queue with
  | nil =>
    exact ⟨none, hs, T, Dequeue_nil hs hq, hi, hb, hg, rfl, fun h => absurd rfl h, hr⟩
  | cons item rest =>
    obtain ⟨rep, nr, heap, hd, T', hinv', -, -, hval, hvals, hrem, hkeep⟩ := dequeue_inv hi hq
    have hitem : item ∈ T.ids := hi.mem_of_queue (by rw [hq]; simp)
    have hv0 : 0 ≤ (heap.get item).Value := by
      rw [hval]
      exact (hg item hitem).1
    obtain ⟨b1, hb1, hok1, hbs1, hsz1, hslot1⟩ :=
      bucket_Delete_spec hs.BucketHistogram heap item hb.ok hv0 (hr.rooms hb.unit)
        (by rw [hval]; exact hr.reaches hitem)
    obtain ⟨b, hbdel, hbkeep⟩ : ∃ b,
        ((nr ≠ none ∨ nr = none ∧ rep = none) → hs.BucketHistogram.Delete heap item = .ok b)
        ∧ (¬ (nr ≠ none ∨ nr = none ∧ rep = none) → b = hs.BucketHistogram) := by
      by_cases h : (nr ≠ none ∨ nr = none ∧ rep = none)
      · exact ⟨b1, fun _ => hb1, fun h' => absurd h h'⟩
      · exact ⟨_, fun h' => absurd h' h, fun _ => rfl⟩
    obtain ⟨hs', he, hp', hbk'⟩ := Dequeue_plain hs item rest rep nr heap hq hd hb.cursors b
      hbdel hbkeep
    obtain ⟨-, halike⟩ := Dequeue_cons hs item rest rep nr heap hq hd _ hs' he
    have hheap : hs'.heap = heap := halike.1.trans (dequeueCore_heap ..)
    have hacc : hs'.Accuracy = hs.Accuracy :=
      halike.2.2.2.2.2.1.trans (dequeueCore_Accuracy ..)
    have hg' : OnGrid hs' T' := by
      intro i hi'
      obtain ⟨h1, h2⟩ := hvals i hi'
      rw [hheap, hacc, h2]
      exact hg i h1
    have hsl' : hs'.BucketHistogram.SubBucketHistogramSize = slab := by
      rw [hbk']
      by_cases h : (nr ≠ none ∨ nr = none ∧ rep = none)
      · have := hbdel h
        rw [hb1] at this
        injection this with this
        rw [← this, hsz1]
        exact hr.slab_eq
      · rw [hbkeep h]
        exact hr.slab_eq
    have hr' : InRange slab acc hs' T' :=
      ⟨hsl', hacc.trans hr.acc_eq, hr.room, fun i hi' => by
        obtain ⟨h1, h2⟩ := hvals i hi'
        rw [hheap, h2]
        exact hr.reach i h1⟩
    refine ⟨some item, hs', T', he, HistInv.of_alike halike hinv', ?_, hg',
      halike.2.2.2.1.trans (dequeueCore_QueueSize ..),
      fun _ => halike.2.2.2.2.1.trans (dequeueCore_Count ..), hr'⟩
    by_cases h : (nr ≠ none ∨ nr = none ∧ rep = none)
    · have hbb : b = b1 := by
        have := hbdel h
        rw [hb1] at this
        injection this with this
        exact this.symm
      obtain ⟨hnot, hothers⟩ := hrem h
      have hpos : ∀ v, hs'.BucketHistogram.position v = hs.BucketHistogram.position v := by
        intro v
        rw [hbk', hbb]
        exact position_congr hbs1 hsz1 v
      refine ⟨by rw [hbk', hbb]; exact hok1, hp', by rw [hacc]; exact hb.accuracy,
        by rw [hbk', hbb, hbs1, hacc]; exact hb.unit, fun k j n => ?_⟩
      rw [hbk', hbb, hslot1, hheap, ← hbb, ← hbk', hpos, hval]
      constructor
      · intro hsl
        split at hsl
        · cases hsl
        · rename_i hne
          obtain ⟨h1, h2⟩ := (hb.slots k j n).mp hsl
          have hn : n ≠ item := by
            intro e
            subst e
            exact hne h2.symm
          have h3 := hothers n h1 hn
          exact ⟨h3, by rw [(hvals n h3).2]; exact h2⟩
      · rintro ⟨h1, h2⟩
        obtain ⟨h3, h4⟩ := hvals n h1
        rw [h4] at h2
        rw [if_neg]
        · exact (hb.slots k j n).mpr ⟨h3, h2⟩
        · intro e
          have hv := position_inj hs.BucketHistogram hb.ok.slab hb.ok.unit
            (hr.rooms hb.unit) (hg n h3).1 (hg item hitem).1 (hr.reaches h3)
            (hr.reaches hitem) (hg.grid hb.unit h3) (hg.grid hb.unit hitem) (h2.trans e)
          have := hi.inv.value_inj h3 hitem hv
          subst this
          exact hnot h1
    · have hT := hkeep h
      subst hT
      have hbb := hbkeep h
      refine ⟨by rw [hbk', hbb]; exact hb.ok, hp', by rw [hacc]; exact hb.accuracy,
        by rw [hbk', hbb, hacc]; exact hb.unit, fun k j n => ?_⟩
      rw [hbk', hbb, hheap, hb.slots k j n]
      constructor
      · rintro ⟨h1, h2⟩
        exact ⟨h1, by rw [(hvals n h1).2]; exact h2⟩
      · rintro ⟨h1, h2⟩
        exact ⟨h1, by rw [(hvals n h1).2] at h2; exact h2⟩

/-- The window loop without cursors returns when its fuel covers the surplus. -/
theorem evictLoop_returns {slab acc : ℚ} : ∀ (n : Nat) (hs : Histogram) (T : Shape)
    (r0 : Ptr), HistInv hs T → BucketInv hs T → OnGrid hs T → InRange slab acc hs T →
    (hs.Count - hs.QueueSize).toNat ≤ n →
    ∃ r hs' T', evictLoop n hs r0 = .ok (r, hs') ∧ HistInv hs' T' ∧ BucketInv hs' T'
      ∧ OnGrid hs' T' ∧ InRange slab acc hs' T'
  | n, hs, T, r0, hi, hb, hg, hr, hn => by
    unfold evictLoop
    by_cases hcond : hs.QueueSize > 0 ∧ hs.Count > hs.QueueSize
    · rw [if_pos hcond]
      have hq : hs.Queue ≠ [] := by
        intro e
        have := hi.count
        rw [e] at this
        simp at this
        omega
      obtain ⟨r1, hs1, T1, hd, hi1, hb1, hg1, hq1, hc1, hr1⟩ := Dequeue_returns hi hb hg hr
      cases n with
      | zero => omega
      | succ k =>
        simp only [bind, Except.bind, hd]
        exact evictLoop_returns k hs1 T1 r1 hi1 hb1 hg1 hr1 (by rw [hq1, hc1 hq]; omega)
    · rw [if_neg hcond]
      exact ⟨r0, hs, T, rfl, hi, hb, hg, hr⟩

end Hist

namespace Hist

theorem UnifiedValue_grid (hs : Histogram) (ha : 0 < hs.Accuracy) {x : ℚ} (hx : 0 ≤ x) :
    0 ≤ hs.UnifiedValue x ∧ ∃ k : Int, hs.UnifiedValue x = (k : ℚ) / hs.Accuracy := by
  have h1 : 0 ≤ x * hs.Accuracy := mul_nonneg hx (le_of_lt ha)
  unfold Histogram.UnifiedValue
  refine ⟨div_nonneg (goRound_nonneg_le h1) (le_of_lt ha), ⌊x * hs.Accuracy + 1 / 2⌋, ?_⟩
  rw [goRound_nonneg h1]

/-- `Enqueue` without cursors of a value that is not negative returns, and keeps the
bucket index exact. -/
theorem Enqueue_returns {slab acc : ℚ} {hs : Histogram} {T : Shape} (hi : HistInv hs T)
    (hb : BucketInv hs T) (hg : OnGrid hs T) (hrg : InRange slab acc hs T) (x : ℚ) (c : Int)
    (hx : 0 ≤ x) (hx63 : hs.UnifiedValue x / slab < 2 ^ 63) (hc : 1 ≤ c) :
    ∃ r hs' T', hs.Enqueue x c = .ok (r, hs') ∧ HistInv hs' T' ∧ BucketInv hs' T'
      ∧ OnGrid hs' T' ∧ InRange slab acc hs' T' := by
  obtain ⟨hv0, hvg⟩ := UnifiedValue_grid hs hb.accuracy hx
  cases hr : hs.RootItem with
  | none =>
    have hT : T = .nil := Shape.root_eq_none.mp (hi.root.symm.trans hr)
    subst hT
    obtain ⟨hinv4, -, hval4⟩ := enqueue_inv_none hi (hs.UnifiedValue x) c hc
    obtain ⟨b, hbi, hok, hbs, hsz, hslot⟩ := bucket_Insert_spec hs.BucketHistogram
      (hs.heap.alloc { NewHistogramItem (hs.UnifiedValue x) with Duplications := c }).2
      hs.heap.size hb.ok (by rw [hval4]; exact hv0) (hrg.rooms hb.unit)
      (by rw [hval4, hrg.slab_eq]; exact hx63)
    obtain ⟨hs4, he, halike, hp4, hb4⟩ := Enqueue_plain_none hs x c hr hb.cursors b hbi
    have hi4 := HistInv.of_alike halike hinv4
    have hheap : hs4.heap
        = (hs.heap.alloc { NewHistogramItem (hs.UnifiedValue x) with Duplications := c }).2 :=
      halike.1.trans (enqueueCore_heap ..)
    have hacc : hs4.Accuracy = hs.Accuracy :=
      halike.2.2.2.2.2.1.trans (enqueueCore_Accuracy ..)
    have hg4 : OnGrid hs4 (.node .nil hs.heap.size .nil) := by
      intro i hi'
      simp only [Shape.ids, List.nil_append, List.mem_singleton] at hi'
      subst hi'
      rw [hheap, hacc, hval4]
      exact ⟨hv0, hvg⟩
    have hb4' : BucketInv hs4 (.node .nil hs.heap.size .nil) := by
      refine ⟨by rw [hb4]; exact hok, hp4, by rw [hacc]; exact hb.accuracy,
        by rw [hb4, hbs, hacc]; exact hb.unit, fun k j n => ?_⟩
      rw [hb4, hslot, hheap, position_congr hbs hsz]
      simp only [Shape.ids, List.nil_append, List.mem_singleton]
      constructor
      · intro hsl
        split at hsl
        · rename_i e
          injection hsl with hsl
          subst hsl
          exact ⟨rfl, e.symm⟩
        · have := (hb.slots k j n).mp hsl
          simp [Shape.ids] at this
      · rintro ⟨rfl, h2⟩
        rw [if_pos h2.symm]
    have hr4 : InRange slab acc hs4 (.node .nil hs.heap.size .nil) := by
      refine ⟨by rw [hb4, hsz]; exact hrg.slab_eq, hacc.trans hrg.acc_eq, hrg.room, fun i hi' => ?_⟩
      simp only [Shape.ids, List.nil_append, List.mem_singleton] at hi'
      subst hi'
      rw [hheap, hval4]
      exact hx63
    rw [he]
    exact evictLoop_returns _ hs4 _ none hi4 hb4' hg4 hr4 (le_refl _)
  | some root =>
    obtain ⟨item, nr, heap, mn, mx, T4, hins, hmn, hmx, hinv4, -, hval4, hold4, hnew4, hcase⟩ :=
      enqueue_inv_some hi (hs.UnifiedValue x) c hc hr
    obtain ⟨b1, hb1, hok1, hbs1, hsz1, hslot1⟩ := bucket_Insert_spec hs.BucketHistogram heap
      item hb.ok (by rw [hval4]; exact hv0) (hrg.rooms hb.unit)
      (by rw [hval4, hrg.slab_eq]; exact hx63)
    obtain ⟨b, hbins, hbkeep⟩ : ∃ b,
        ((heap.get item).Duplications = c → hs.BucketHistogram.Insert heap item = .ok b)
        ∧ ((heap.get item).Duplications ≠ c → b = hs.BucketHistogram) := by
      by_cases h : (heap.get item).Duplications = c
      · exact ⟨b1, fun _ => hb1, fun h' => absurd h h'⟩
      · exact ⟨_, fun h' => absurd h' h, fun _ => rfl⟩
    obtain ⟨hs4, he, halike, hp4, hb4⟩ := Enqueue_plain_some hs x c root item mn mx nr heap hr
      hins hmn hmx hb.cursors b hbins hbkeep
    have hi4 := HistInv.of_alike halike hinv4
    have hheap : hs4.heap = heap := halike.1.trans (enqueueCore_heap ..)
    have hacc : hs4.Accuracy = hs.Accuracy :=
      halike.2.2.2.2.2.1.trans (enqueueCore_Accuracy ..)
    have hg4 : OnGrid hs4 T4 := by
      intro i hi'
      rw [hheap, hacc]
      rcases hnew4 i hi' with h1 | h1
      · rw [hold4 i h1]
        exact hg i h1
      · rw [h1, hval4]
        exact ⟨hv0, hvg⟩
    have hb4' : BucketInv hs4 T4 := by
      rcases hcase with ⟨hd, hnotin, hfresh, hmem⟩ | ⟨hd, hin, hids⟩
      · have hbb : b = b1 := by
          have := hbins hd
          rw [hb1] at this
          injection this with this
          exact this.symm
        subst hbb
        refine ⟨by rw [hb4]; exact hok1, hp4, by rw [hacc]; exact hb.accuracy,
          by rw [hb4, hbs1, hacc]; exact hb.unit, fun k j n => ?_⟩
        rw [hb4, hslot1, hheap, position_congr hbs1 hsz1, hmem, hval4]
        constructor
        · intro hsl
          split at hsl
          · rename_i e
            injection hsl with hsl
            subst hsl
            exact ⟨Or.inr rfl, by rw [hval4]; exact e.symm⟩
          · obtain ⟨h1, h2⟩ := (hb.slots k j n).mp hsl
            exact ⟨Or.inl h1, by rw [hold4 n h1]; exact h2⟩
        · rintro ⟨h1 | h1, h2⟩
          · rw [hold4 n h1] at h2
            rw [if_neg]
            · exact (hb.slots k j n).mpr ⟨h1, h2⟩
            · intro e
              have hv := position_inj hs.BucketHistogram hb.ok.slab hb.ok.unit
                (hrg.rooms hb.unit) (hg n h1).1 hv0 (hrg.reaches h1)
                (by rw [hrg.slab_eq]; exact hx63) (hg.grid hb.unit h1)
                (by
                  obtain ⟨k', hk'⟩ := hvg
                  exact ⟨k', by rw [hk', hb.unit]; ring⟩) (h2.trans e)
              exact hfresh n h1 hv
          · subst h1
            rw [hval4] at h2
            rw [if_pos h2.symm]
      · have hbb := hbkeep hd
        refine ⟨by rw [hb4, hbb]; exact hb.ok, hp4, by rw [hacc]; exact hb.accuracy,
          by rw [hb4, hbb, hacc]; exact hb.unit, fun k j n => ?_⟩
        rw [hb4, hbb, hheap, hids, hb.slots k j n]
        constructor
        · rintro ⟨h1, h2⟩
          exact ⟨h1, by rw [hold4 n h1]; exact h2⟩
        · rintro ⟨h1, h2⟩
          exact ⟨h1, by rw [hold4 n h1] at h2; exact h2⟩
    have hsl4 : hs4.BucketHistogram.SubBucketHistogramSize = slab := by
      rw [hb4]
      by_cases h : (heap.get item).Duplications = c
      · have := hbins h
        rw [hb1] at this
        injection this with this
        rw [← this, hsz1]
        exact hrg.slab_eq
      · rw [hbkeep h]
        exact hrg.slab_eq
    have hr4 : InRange slab acc hs4 T4 := by
      refine ⟨hsl4, hacc.trans hrg.acc_eq, hrg.room, fun i hi' => ?_⟩
      rw [hheap]
      rcases hnew4 i hi' with h1 | h1
      · rw [hold4 i h1]
        exact hrg.reach i h1
      · rw [h1, hval4]
        exact hx63
    rw [he]
    exact evictLoop_returns _ hs4 _ none hi4 hb4' hg4 hr4 (le_refl _)

end Hist

namespace Hist

/-! ## Runs of calls -/

theorem step_enqueue {hs hs' : Histogram} {v : ℚ} {c : Int}
    (he : hs.step (.enqueue v c) = .ok hs') : ∃ r, hs.Enqueue v c = .ok (r, hs') := by
  unfold Histogram.step at he
  simp only [bind, Except.bind, pure, Except.pure] at he
  cases h : hs.Enqueue v c with
  | error e =>
    rw [h] at he
    cases he
  | ok res =>
    rw [h] at he
    injection he with he
    exact ⟨res.1, by rw [← he]⟩

theorem step_dequeue {hs hs' : Histogram} (he : hs.step .dequeue = .ok hs') :
    ∃ r, hs.Dequeue = .ok (r, hs') := by
  unfold Histogram.step at he
  simp only [bind, Except.bind, pure, Except.pure] at he
  cases h : hs.Dequeue with
  | error e =>
    rw [h] at he
    cases he
  | ok res =>
    rw [h] at he
    injection he with he
    exact ⟨res.1, by rw [← he]⟩

/-- One valid call on a histogram that holds a tree. -/
theorem step_inv {hs : Histogram} {T : Shape} (hi : HistInv hs T) (hm : hs.MomentsOK)
    (op : HistOp) (hv : op.valid) {hs' : Histogram} (he : hs.step op = .ok hs') :
    ∃ T', HistInv hs' T' ∧ hs'.MomentsOK
      ∧ hs'.samples = HistOp.apply hs.QueueSize hs.Accuracy hs.samples op
      ∧ hs'.QueueSize = hs.QueueSize ∧ hs'.Accuracy = hs.Accuracy
      ∧ (Counted hs.heap T → op.unit → Counted hs'.heap T') := by
  cases op with
  | enqueue v c =>
    obtain ⟨r, he'⟩ := step_enqueue he
    obtain ⟨T', h1, h2, h3, h4, h5, h6, -⟩ := Enqueue_inv hi hm v c hv he'
    exact ⟨T', h1, h2, h3, h4, h5, fun hc hu => h6 hc hu⟩
  | dequeue =>
    obtain ⟨r, he'⟩ := step_dequeue he
    obtain ⟨T', h1, h2, h3, h4, h5, h6, -⟩ := Dequeue_inv hi hm he'
    exact ⟨T', h1, h2, h3, h4, h5, fun hc _ => h6 hc⟩

theorem run_cons {hs hs' : Histogram} {op : HistOp} {ops : List HistOp}
    (he : hs.run (op :: ops) = .ok hs') : ∃ hs1, hs.step op = .ok hs1 ∧ hs1.run ops = .ok hs' := by
  unfold Histogram.run at he
  simp only [bind, Except.bind] at he
  cases h : hs.step op with
  | error e =>
    rw [h] at he
    cases he
  | ok hs1 =>
    rw [h] at he
    exact ⟨hs1, rfl, he⟩

theorem run_append {hs : Histogram} (ops ops' : List HistOp) :
    hs.run (ops ++ ops') = (hs.run ops).bind fun hs1 => hs1.run ops' := by
  induction ops generalizing hs with
  | nil => rfl
  | cons op ops ih =>
    show (hs.step op).bind (fun hs1 => hs1.run (ops ++ ops')) = _
    cases h : hs.step op with
    | error e =>
      show _ = ((hs.step op).bind fun hs1 => hs1.run ops).bind _
      rw [h]
      rfl
    | ok hs1 =>
      show _ = ((hs.step op).bind fun hs1 => hs1.run ops).bind _
      rw [h]
      exact ih

/-- A run of valid calls on a histogram that holds a tree. -/
theorem run_inv : ∀ (ops : List HistOp) {hs : Histogram} {T : Shape}, HistInv hs T →
    hs.MomentsOK → (∀ op ∈ ops, op.valid) → ∀ {hs' : Histogram}, hs.run ops = .ok hs' →
    ∃ T', HistInv hs' T' ∧ hs'.MomentsOK
      ∧ hs'.samples = ops.foldl (HistOp.apply hs.QueueSize hs.Accuracy) hs.samples
      ∧ hs'.QueueSize = hs.QueueSize ∧ hs'.Accuracy = hs.Accuracy
      ∧ (Counted hs.heap T → (∀ op ∈ ops, op.unit) → Counted hs'.heap T')
  | [], hs, T, hi, hm, _, hs', he => by
    injection he with he
    subst he
    exact ⟨T, hi, hm, rfl, rfl, rfl, fun h _ => h⟩
  | op :: ops, hs, T, hi, hm, hv, hs', he => by
    obtain ⟨hs1, h1, h2⟩ := run_cons he
    obtain ⟨T1, hi1, hm1, hs1s, hq1, ha1, hc1⟩ := step_inv hi hm op (hv op (by simp)) h1
    obtain ⟨T', hi', hm', hs's, hq', ha', hc'⟩ :=
      run_inv ops hi1 hm1 (fun o ho => hv o (by simp [ho])) h2
    refine ⟨T', hi', hm', ?_, hq'.trans hq1, ha'.trans ha1, fun hc hu =>
      hc' (hc1 hc (hu op (by simp))) (fun o ho => hu o (by simp [ho]))⟩
    rw [hs's, hq1, ha1, hs1s]
    rfl

/-- A run of valid calls without cursors returns, when the values are not negative and
lie in the first `2^63` slabs. -/
theorem run_returns {slab acc : ℚ} : ∀ (ops : List HistOp) {hs : Histogram} {T : Shape},
    HistInv hs T → BucketInv hs T → OnGrid hs T → InRange slab acc hs T →
    (∀ op ∈ ops, op.valid) → (∀ op ∈ ops, op.nonneg) → (∀ op ∈ ops, op.fits slab acc) →
    ∃ hs' T', hs.run ops = .ok hs' ∧ HistInv hs' T' ∧ BucketInv hs' T' ∧ OnGrid hs' T'
      ∧ InRange slab acc hs' T'
  | [], hs, T, hi, hb, hg, hr, _, _, _ => ⟨hs, T, rfl, hi, hb, hg, hr⟩
  | op :: ops, hs, T, hi, hb, hg, hr, hv, hn, hf => by
    have hstep : ∃ hs1 T1, hs.step op = .ok hs1 ∧ HistInv hs1 T1 ∧ BucketInv hs1 T1
        ∧ OnGrid hs1 T1 ∧ InRange slab acc hs1 T1 := by
      cases op with
      | enqueue v c =>
        have hf1 : goRound (v * acc) / acc / slab < 2 ^ 63 := hf (.enqueue v c) (by simp)
        obtain ⟨r, hs1, T1, he, h1, h2, h3, h4⟩ := Enqueue_returns hi hb hg hr v c
          (hn (.enqueue v c) (by simp))
          (by unfold Histogram.UnifiedValue; rw [hr.acc_eq]; exact hf1)
          (hv (.enqueue v c) (by simp))
        refine ⟨hs1, T1, ?_, h1, h2, h3, h4⟩
        unfold Histogram.step
        simp only [bind, Except.bind, pure, Except.pure, he]
      | dequeue =>
        obtain ⟨r, hs1, T1, he, h1, h2, h3, -, -, h4⟩ := Dequeue_returns hi hb hg hr
        refine ⟨hs1, T1, ?_, h1, h2, h3, h4⟩
        unfold Histogram.step
        simp only [bind, Except.bind, pure, Except.pure, he]
    obtain ⟨hs1, T1, he, h1, h2, h3, h5⟩ := hstep
    obtain ⟨hs', T', he', h4⟩ := run_returns ops h1 h2 h3 h5
      (fun o ho => hv o (by simp [ho])) (fun o ho => hn o (by simp [ho]))
      (fun o ho => hf o (by simp [ho]))
    refine ⟨hs', T', ?_, h4⟩
    unfold Histogram.run
    simp only [bind, Except.bind, he]
    exact he'

/-! ## The fresh histogram -/

theorem AddPercentilePoint_alike (hs : Histogram) (p : ℚ) :
    (hs.AddPercentilePoint p).Alike hs :=
  ⟨rfl, rfl, rfl, rfl, rfl, rfl, rfl, rfl, rfl, rfl⟩

theorem Histogram.Alike.trans_alike {a b c : Histogram} (h1 : a.Alike b) (h2 : b.Alike c) :
    a.Alike c :=
  ⟨h1.1.trans h2.1, h1.2.1.trans h2.2.1, h1.2.2.1.trans h2.2.2.1,
    h1.2.2.2.1.trans h2.2.2.2.1, h1.2.2.2.2.1.trans h2.2.2.2.2.1,
    h1.2.2.2.2.2.1.trans h2.2.2.2.2.2.1, h1.2.2.2.2.2.2.1.trans h2.2.2.2.2.2.2.1,
    h1.2.2.2.2.2.2.2.1.trans h2.2.2.2.2.2.2.2.1,
    h1.2.2.2.2.2.2.2.2.1.trans h2.2.2.2.2.2.2.2.2.1,
    h1.2.2.2.2.2.2.2.2.2.trans h2.2.2.2.2.2.2.2.2.2⟩

theorem foldl_alike : ∀ (ps : List ℚ) (hs : Histogram),
    (ps.foldl (fun hs p => hs.AddPercentilePoint p) hs).Alike hs
  | [], hs => Histogram.Alike.rfl_alike hs
  | p :: ps, hs =>
    (foldl_alike ps (hs.AddPercentilePoint p)).trans_alike (AddPercentilePoint_alike hs p)

theorem newWithCursors_alike (size : Int) (slab : ℚ) (accuracy : Int) (ps : List ℚ) :
    (newWithCursors size slab accuracy ps).Alike (NewHistogram size slab accuracy) :=
  foldl_alike ps _

theorem fresh_inv (size : Int) (slab : ℚ) (accuracy : Int) :
    HistInv (NewHistogram size slab accuracy) .nil :=
  ⟨TreeInv.nil _, rfl, rfl, rfl, fun i => by simp [NewHistogram, Shape.ids], rfl⟩

theorem fresh_moments (size : Int) (slab : ℚ) (accuracy : Int) :
    (NewHistogram size slab accuracy).MomentsOK := by
  unfold Histogram.MomentsOK
  simp [NewHistogram, Histogram.samples, sumSq]

theorem fresh_accuracy (size : Int) (slab : ℚ) (accuracy : Int) :
    (NewHistogram size slab accuracy).Accuracy = (10 : ℚ) ^ accuracy := rfl

theorem fresh_bucket (size : Int) (slab : ℚ) (accuracy : Int) (hslab : 1 ≤ slab) :
    BucketInv (NewHistogram size slab accuracy) .nil := by
  have hpos : (0 : ℚ) < (10 : ℚ) ^ accuracy := zpow_pos (by norm_num) accuracy
  have hne : slab ≠ 0 := by
    intro e
    rw [e] at hslab
    norm_num at hslab
  have hbs : (NewHistogram size slab accuracy).BucketHistogram.BucketSize
      = 1 / (10 : ℚ) ^ accuracy := by
    show (if accuracy ≠ 0 then 1 / (10 : ℚ) ^ accuracy else 1) = _
    split
    · rfl
    · rename_i h
      have : accuracy = 0 := by omega
      rw [this]
      simp
  refine ⟨⟨?_, ?_, fun k sb e => ?_⟩, rfl, hpos, hbs, fun k j n => ?_⟩
  · show 1 ≤ (if slab = 0 then (10 : ℚ) else slab)
    rw [if_neg hne]
    exact hslab
  · rw [hbs]
    exact div_pos one_pos hpos
  · simp [NewHistogram, NewBucketHistogram] at e
  · simp [NewHistogram, NewBucketHistogram, BucketHistogram.slot, Shape.ids]

/-- A run of valid calls on a fresh histogram, with or without cursors: what holds when
it returns. -/
theorem fresh_run_inv (size : Int) (slab : ℚ) (accuracy : Int) (ps : List ℚ)
    (ops : List HistOp) (hv : ∀ op ∈ ops, op.valid) {hs' : Histogram}
    (he : (newWithCursors size slab accuracy ps).run ops = .ok hs') :
    ∃ T', HistInv hs' T' ∧ hs'.MomentsOK
      ∧ hs'.samples = samplesAfter size ((10 : ℚ) ^ accuracy) ops
      ∧ hs'.QueueSize = size ∧ hs'.Accuracy = (10 : ℚ) ^ accuracy
      ∧ ((∀ op ∈ ops, op.unit) → Counted hs'.heap T') := by
  have hal := newWithCursors_alike size slab accuracy ps
  have hi := HistInv.of_alike hal (fresh_inv size slab accuracy)
  have hm := moments_of_alike hal (fresh_moments size slab accuracy)
  obtain ⟨T', h1, h2, h3, h4, h5, h6⟩ := run_inv ops hi hm hv he
  refine ⟨T', h1, h2, ?_, h4.trans hal.2.2.2.1, h5.trans hal.2.2.2.2.2.1, h6 trivial⟩
  rw [h3, hal.2.2.2.1, hal.2.2.2.2.2.1, samples_alike hal]
  rfl

theorem fresh_range (size : Int) (slab : ℚ) (accuracy : Int) (hslab : 1 ≤ slab)
    (hroom : slab * (10 : ℚ) ^ accuracy + 1 ≤ 2 ^ 63) :
    InRange slab ((10 : ℚ) ^ accuracy) (NewHistogram size slab accuracy) .nil := by
  have hne : slab ≠ 0 := by
    intro e
    rw [e] at hslab
    norm_num at hslab
  refine ⟨?_, rfl, hroom, fun i hi => by simp [Shape.ids] at hi⟩
  show (if slab = 0 then (10 : ℚ) else slab) = slab
  rw [if_neg hne]

/-- A run of valid calls on a fresh histogram without cursors returns, when the slab
size is at least one, a slab has fewer than `2^63` buckets, and the values are not
negative and lie in the first `2^63` slabs. -/
theorem fresh_run_returns (size : Int) (slab : ℚ) (accuracy : Int) (hslab : 1 ≤ slab)
    (hroom : slab * (10 : ℚ) ^ accuracy + 1 ≤ 2 ^ 63)
    (ops : List HistOp) (hv : ∀ op ∈ ops, op.valid) (hn : ∀ op ∈ ops, op.nonneg)
    (hf : ∀ op ∈ ops, op.fits slab ((10 : ℚ) ^ accuracy)) :
    ∃ hs' T', (NewHistogram size slab accuracy).run ops = .ok hs' ∧ HistInv hs' T'
      ∧ BucketInv hs' T' ∧ OnGrid hs' T' ∧ InRange slab ((10 : ℚ) ^ accuracy) hs' T' :=
  run_returns ops (fresh_inv size slab accuracy) (fresh_bucket size slab accuracy hslab)
    (fun i hi => by simp [Shape.ids] at hi) (fresh_range size slab accuracy hslab hroom)
    hv hn hf

end Hist

namespace Hist

/-! ## What the invariant of the histogram says about its fields -/

theorem HistInv.tree_eq {hs : Histogram} {T : Shape} (hi : HistInv hs T) :
    hs.heap.shape hs.RootItem = T := by
  rw [hi.root]
  exact hi.inv.shape_eq

theorem HistInv.nodes_eq {hs : Histogram} {T : Shape} (hi : HistInv hs T) :
    hs.nodes = T.ids := by
  unfold Histogram.nodes
  rw [hi.min]
  by_cases hne : T.ids = []
  · rw [hne]
    rfl
  · obtain ⟨⟨i, h1, h2⟩, -⟩ := hi.inv.chain_ends hne
    rw [h1]
    exact hi.inv.chain_from (List.mem_of_mem_head? h1) h2

theorem sum_indicator (a : Nat) : ∀ L : List Nat,
    (L.map fun i => if i = a then (1 : Int) else 0).sum = (L.count a : Int)
  | [] => rfl
  | b :: L => by
    rw [List.map_cons, List.sum_cons, sum_indicator a L, List.count_cons]
    by_cases e : b = a
    · subst e
      simp
      ring
    · simp [e]

theorem sum_count_nodup : ∀ (Q L : List Nat), L.Nodup → (∀ i ∈ Q, i ∈ L) →
    (L.map fun i => (Q.count i : Int)).sum = (Q.length : Int)
  | [], L, _, _ => by
    simp
  | a :: Q, L, hnd, hm => by
    have ih := sum_count_nodup Q L hnd (fun i hi => hm i (List.mem_cons_of_mem _ hi))
    have hsplit : (L.map fun i => ((a :: Q).count i : Int))
        = L.map fun i => (Q.count i : Int) + (if i = a then (1 : Int) else 0) := by
      refine List.map_congr_left (fun i _ => ?_)
      rw [List.count_cons]
      by_cases e : i = a
      · subst e
        simp
      · have : ¬ (a = i) := fun e' => e e'.symm
        simp [e, this]
    rw [hsplit, List.sum_map_add, ih, sum_indicator,
      List.count_eq_one_of_mem hnd (hm a (by simp))]
    simp

theorem HistInv.dupSum_eq {hs : Histogram} {T : Shape} (hi : HistInv hs T) :
    dupSum hs.heap T.ids = (hs.Queue.length : Int) := by
  rw [← sum_count_nodup hs.Queue T.ids hi.inv.nodup (fun i hq => hi.mem_of_queue hq)]
  unfold dupSum
  congr 1
  refine List.map_congr_left (fun i him => ?_)
  rw [hi.queue i, if_pos him]

theorem HistInv.mem_queue {hs : Histogram} {T : Shape} (hi : HistInv hs T) {i : Nat}
    (him : i ∈ T.ids) : i ∈ hs.Queue := by
  have h1 := hi.queue i
  rw [if_pos him] at h1
  have h2 := hi.inv.dups i him
  exact List.count_pos_iff.mp (by omega)

theorem HistInv.count_samples {hs : Histogram} {T : Shape} (hi : HistInv hs T) (x : ℚ) :
    (hs.samples.count x : Int) = mult hs.heap T.ids x := by
  unfold Histogram.samples
  rw [List.count, List.countP_map]
  by_cases hex : ∃ i ∈ T.ids, (hs.heap.get i).Value = x
  · obtain ⟨i0, h0, hv0⟩ := hex
    rw [← hv0, hi.inv.mult_of_mem h0]
    have := hi.queue i0
    rw [if_pos h0] at this
    rw [← this, List.count]
    congr 1
    refine List.countP_congr (fun j hj => ?_)
    simp only [Function.comp_apply, beq_iff_eq]
    constructor
    · intro e
      exact hi.inv.value_inj (hi.mem_of_queue hj) h0 e
    · intro e
      rw [e]
  · rw [mult_eq_zero (fun i him e => hex ⟨i, him, e⟩)]
    have : List.countP ((fun x_1 => x_1 == x) ∘ fun i => (hs.heap.get i).Value) hs.Queue = 0 := by
      rw [List.countP_eq_zero]
      intro j hj
      simp only [Function.comp_apply, beq_iff_eq]
      exact fun e => hex ⟨j, hi.mem_of_queue hj, e⟩
    rw [this]
    rfl

theorem HistInv.nil_iff {hs : Histogram} {T : Shape} (hi : HistInv hs T) :
    T = .nil ↔ hs.Count = 0 := by
  constructor
  · intro e
    subst e
    rw [hi.count, hi.queue_nil]
    rfl
  · intro e
    have hq : hs.Queue = [] := by
      have := hi.count
      rw [e] at this
      exact List.length_eq_zero.mp (by omega)
    cases T with
    | nil => rfl
    | node l i r =>
      have := hi.mem_queue (show i ∈ (Shape.node l i r).ids by simp [Shape.ids])
      rw [hq] at this
      simp at this

theorem HistInv.of_empty {hs : Histogram} {T : Shape} (hi : HistInv hs T) (e : hs.Count = 0) :
    hs.RootItem = none ∧ hs.MinItem = none ∧ hs.MaxItem = none ∧ hs.Queue = [] := by
  have hT := hi.nil_iff.mpr e
  subst hT
  exact ⟨hi.root, hi.min, hi.max, hi.queue_nil⟩

/-- The ends of a histogram that is not empty: `MinItem` is the leftmost node of the
tree and holds the smallest live value, `MaxItem` the rightmost node and the largest. -/
theorem HistInv.ends {hs : Histogram} {T : Shape} (hi : HistInv hs T) (e : hs.Count ≠ 0) :
    ∃ r mn mx, hs.RootItem = some r ∧ hs.MinItem = some mn ∧ hs.MaxItem = some mx
      ∧ leftmost hs.heap hs.heap.budget r = .ok mn
      ∧ rightmost hs.heap hs.heap.budget r = .ok mx
      ∧ (hs.heap.get mn).Value ∈ hs.samples ∧ (hs.heap.get mx).Value ∈ hs.samples
      ∧ ∀ x ∈ hs.samples, (hs.heap.get mn).Value ≤ x ∧ x ≤ (hs.heap.get mx).Value := by
  have hT : T ≠ .nil := fun h => e (hi.nil_iff.mp h)
  obtain ⟨r, hr⟩ : ∃ r, T.root = some r := by
    cases T with
    | nil => exact absurd rfl hT
    | node l i r => exact ⟨i, rfl⟩
  have hlen : T.ids.length ≤ hs.heap.budget := by
    have := hi.inv.length_le
    unfold Heap.budget
    omega
  obtain ⟨sp1, RR, mn, hl1, hS1, hsp1⟩ := leftmost_spec T r none hs.heap.budget hi.inv.linked hr hlen
  obtain ⟨sp2, RL, mx, hl2, hS2, hsp2⟩ := rightmost_spec T r none hs.heap.budget hi.inv.linked hr hlen
  have hmn : T.ids.head? = some mn := by
    conv_lhs => rw [hS1]
    exact ids_spine_left hsp1 RR mn
  have hmx : T.ids.getLast? = some mx := by
    conv_lhs => rw [hS2]
    exact ids_spine_right hsp2 RL mx
  have hmnm : mn ∈ T.ids := List.mem_of_mem_head? hmn
  have hmxm : mx ∈ T.ids := List.mem_of_mem_getLast? hmx
  have hsamp : ∀ i ∈ T.ids, (hs.heap.get i).Value ∈ hs.samples := fun i him =>
    List.mem_map.mpr ⟨i, hi.mem_queue him, rfl⟩
  refine ⟨r, mn, mx, hi.root.trans hr, hi.min.trans hmn, hi.max.trans hmx, hl1, hl2,
    hsamp mn hmnm, hsamp mx hmxm, fun x hx => ?_⟩
  obtain ⟨i, hiq, rfl⟩ := List.mem_map.mp hx
  have him := hi.mem_of_queue hiq
  have hsorted := hi.inv.sorted
  unfold Heap.values at hsorted
  constructor
  · obtain ⟨l, el⟩ : ∃ l, T.ids = mn :: l := by
      cases e' : T.ids with
      | nil => rw [e'] at hmn; simp at hmn
      | cons a l =>
        rw [e'] at hmn
        simp only [List.head?_cons, Option.some.injEq] at hmn
        exact ⟨l, by rw [hmn]⟩
    rw [el] at hsorted him
    simp only [List.map_cons, List.pairwise_cons, List.mem_map, forall_exists_index, and_imp,
      forall_apply_eq_imp_iff₂] at hsorted
    rcases List.mem_cons.mp him with h1 | h1
    · rw [h1]
    · exact le_of_lt (hsorted.1 i h1)
  · obtain ⟨l, el⟩ : ∃ l, T.ids = l ++ [mx] := List.getLast?_eq_some_iff.mp hmx
    rw [el] at hsorted him
    simp only [List.map_append, List.map_cons, List.map_nil, List.pairwise_append,
      List.mem_map, List.mem_singleton, forall_exists_index, and_imp,
      forall_apply_eq_imp_iff₂, forall_eq] at hsorted
    rcases List.mem_append.mp him with h1 | h1
    · exact le_of_lt (hsorted.2.2 i h1)
    · simp only [List.mem_singleton] at h1
      rw [h1]

end Hist

namespace Hist

/-! ## The sliding window as a list -/

theorem window_of_pos {w : Int} (hw : 0 < w) (l : List ℚ) :
    window w l = l.drop (l.length - w.toNat) := by
  unfold window
  rw [if_pos hw]

theorem window_of_nonpos {w : Int} (hw : ¬ 0 < w) (l : List ℚ) : window w l = l := by
  unfold window
  rw [if_neg hw]

theorem window_length {w : Int} (hw : 0 < w) (l : List ℚ) :
    ((window w l).length : Int) = min (l.length : Int) w := by
  rw [window_of_pos hw, List.length_drop]
  have : ((w.toNat : Nat) : Int) = w := Int.toNat_of_nonneg (le_of_lt hw)
  omega

theorem window_of_short {w : Int} (l : List ℚ) (h : ¬ 0 < w ∨ (l.length : Int) ≤ w) :
    window w l = l := by
  by_cases hw : 0 < w
  · rw [window_of_pos hw]
    have : ((w.toNat : Nat) : Int) = w := Int.toNat_of_nonneg (le_of_lt hw)
    have : l.length - w.toNat = 0 := by
      rcases h with h | h
      · exact absurd hw h
      · omega
    rw [this]
    rfl
  · exact window_of_nonpos hw l

theorem window_append (w : Int) (l r : List ℚ) :
    window w (window w l ++ r) = window w (l ++ r) := by
  by_cases hw : 0 < w
  · have hW : ((w.toNat : Nat) : Int) = w := Int.toNat_of_nonneg (le_of_lt hw)
    by_cases hl : l.length ≤ w.toNat
    · rw [window_of_short l (Or.inr (by omega))]
    · rw [window_of_pos hw l, window_of_pos hw, window_of_pos hw]
      simp only [List.length_append, List.length_drop]
      have e1 : l.length - (l.length - w.toNat) + r.length - w.toNat = r.length := by omega
      have e2 : l.length + r.length - w.toNat = (l.length - w.toNat) + r.length := by omega
      have e3 : List.drop (l.length - w.toNat) (l ++ r) = List.drop (l.length - w.toNat) l ++ r :=
        List.drop_append_of_le_length (by omega)
      rw [e1, e2, ← List.drop_drop, e3]
  · rw [window_of_nonpos hw, window_of_nonpos hw, window_of_nonpos hw]

theorem foldl_enqueues (w : Int) (acc : ℚ) : ∀ (vs : List ℚ) (l0 : List ℚ),
    (enqueues vs).foldl (HistOp.apply w acc) (window w l0)
      = window w (l0 ++ vs.map fun v => goRound (v * acc) / acc)
  | [], l0 => by simp [enqueues]
  | v :: vs, l0 => by
    have ih := foldl_enqueues w acc vs (l0 ++ [goRound (v * acc) / acc])
    simp only [enqueues, List.map_cons, List.foldl_cons] at ih ⊢
    have h1 : HistOp.apply w acc (window w l0) (HistOp.enqueue v 1)
        = window w (l0 ++ [goRound (v * acc) / acc]) := by
      show window w (window w l0 ++ List.replicate (1 : Int).toNat (goRound (v * acc) / acc)) = _
      rw [window_append]
      rfl
    rw [h1, ih]
    simp

/-- The live samples after a run of `Enqueue(v, 1)` on a fresh histogram, as the
specification reads it: the window over the quantised inputs. -/
theorem samplesAfter_enqueues (w : Int) (acc : ℚ) (vs : List ℚ) :
    samplesAfter w acc (enqueues vs) = window w (vs.map fun v => goRound (v * acc) / acc) := by
  have := foldl_enqueues w acc vs []
  have h0 : window w [] = [] := by
    unfold window
    split
    · simp
    · rfl
  rw [h0] at this
  simpa [samplesAfter] using this

theorem foldl_dequeues (w : Int) (acc : ℚ) : ∀ (k : Nat) (l : List ℚ),
    (List.replicate k HistOp.dequeue).foldl (HistOp.apply w acc) l = l.drop k
  | 0, l => rfl
  | k + 1, l => by
    rw [List.replicate_succ, List.foldl_cons, foldl_dequeues w acc k]
    show List.drop k l.tail = _
    cases l <;> simp

theorem samplesAfter_append (w : Int) (acc : ℚ) (ops ops' : List HistOp) :
    samplesAfter w acc (ops ++ ops')
      = ops'.foldl (HistOp.apply w acc) (samplesAfter w acc ops) := by
  simp [samplesAfter, List.foldl_append]

theorem enqueues_valid (vs : List ℚ) : ∀ op ∈ enqueues vs, op.valid := by
  intro op hop
  obtain ⟨v, -, rfl⟩ := List.mem_map.mp hop
  exact le_refl _

theorem enqueues_unit (vs : List ℚ) : ∀ op ∈ enqueues vs, op.unit := by
  intro op hop
  obtain ⟨v, -, rfl⟩ := List.mem_map.mp hop
  rfl

theorem enqueues_nonneg {vs : List ℚ} (h : ∀ v ∈ vs, 0 ≤ v) : ∀ op ∈ enqueues vs, op.nonneg := by
  intro op hop
  obtain ⟨v, hv, rfl⟩ := List.mem_map.mp hop
  exact h v hv

theorem HistOp.unit_valid {op : HistOp} (h : op.unit) : op.valid := by
  cases op with
  | enqueue v c =>
    have : c = 1 := h
    subst this
    exact le_refl _
  | dequeue => trivial

end Hist

namespace Hist

theorem count_live (h : Heap) (x : ℚ) : ∀ ids : List Nat, (∀ i ∈ ids, 0 ≤ (h.get i).Duplications) →
    (((ids.flatMap fun i => List.replicate (h.get i).Duplications.toNat (h.get i).Value).count x
      : Nat) : Int) = mult h ids x
  | [], _ => by simp [mult_nil]
  | i :: ids, hd => by
    rw [List.flatMap_cons, List.count_append, mult_cons, Nat.cast_add,
      count_live h x ids (fun j hj => hd j (List.mem_cons_of_mem _ hj)), List.count_replicate]
    congr 1
    by_cases e : (h.get i).Value = x
    · simp only [e, beq_self_eq_true, ↓reduceIte]
      exact Int.toNat_of_nonneg (hd i (by simp))
    · simp [e]

/-- The samples the chain holds are the samples of the FIFO, in some order. -/
theorem HistInv.live_perm {hs : Histogram} {T : Shape} (hi : HistInv hs T) :
    hs.live.Perm hs.samples := by
  rw [List.perm_iff_count]
  intro x
  have h1 := count_live hs.heap x T.ids (fun i him => by have := hi.inv.dups i him; omega)
  have h2 := hi.count_samples x
  unfold Histogram.live
  rw [hi.nodes_eq]
  omega

theorem HistInv.treeNodes_eq {hs : Histogram} {T : Shape} (hi : HistInv hs T) :
    hs.treeNodes = T.ids := by
  unfold Histogram.treeNodes
  rw [hi.tree_eq]

theorem returns_of_ok {α : Type} {x : Except Fault α} {a : α} {P : α → Prop} (h : x = .ok a)
    (hp : P a) : Returns x P := by
  rw [h]
  exact hp

end Hist

namespace Hist

/-! ## Mean and variance of the live samples -/

theorem sum_sq_dev (m : ℚ) : ∀ l : List ℚ,
    (l.map fun x => (x - m) ^ 2).sum = sumSq l - 2 * m * l.sum + (l.length : ℚ) * m ^ 2
  | [] => by simp [sumSq]
  | a :: l => by
    rw [List.map_cons, List.sum_cons, sum_sq_dev m l, sumSq_cons, List.sum_cons,
      List.length_cons]
    push_cast
    ring

/-- The running moments that agree with the live samples are their mean and their
population variance. -/
theorem moments_eq {hs : Histogram} {T : Shape} (hi : HistInv hs T) (hm : hs.MomentsOK)
    (hc : 0 < hs.Count) :
    hs.Mean = meanOf hs.samples ∧ hs.Variance = varianceOf hs.samples := by
  obtain ⟨m1, m2, -⟩ := hm
  have hlen := hi.samples_length
  have hn : (hs.Count : ℚ) = (hs.samples.length : ℚ) := by
    rw [hlen]
    push_cast
    rfl
  have hpos : (0 : ℚ) < (hs.samples.length : ℚ) := by
    rw [← hn]
    exact_mod_cast hc
  have hne : (hs.samples.length : ℚ) ≠ 0 := ne_of_gt hpos
  rw [hn] at m1 m2
  have hmean : hs.Mean = meanOf hs.samples := by
    unfold meanOf
    rw [eq_div_iff hne]
    exact m1
  refine ⟨hmean, ?_⟩
  unfold varianceOf
  rw [eq_div_iff hne, sum_sq_dev, ← hmean, ← m1, ← m2]
  ring

/-! ## The grid of the accuracy -/

theorem goRound_int (x : ℚ) : ∃ k : Int, goRound x = (k : ℚ) := by
  unfold goRound
  split
  · exact ⟨-⌊-x + 1 / 2⌋, by push_cast; ring⟩
  · exact ⟨_, rfl⟩

theorem goRound_of_int (k : Int) : goRound (k : ℚ) = (k : ℚ) := by
  unfold goRound
  split
  · rename_i h
    have h1 : (-(k : ℚ) + 1 / 2) = ((-k : Int) : ℚ) + 1 / 2 := by push_cast; ring
    rw [h1, Int.floor_int_add]
    have : ⌊(1 / 2 : ℚ)⌋ = 0 := by
      rw [Int.floor_eq_iff]
      norm_num
    rw [this]
    push_cast
    ring
  · rw [Int.floor_int_add]
    have : ⌊(1 / 2 : ℚ)⌋ = 0 := by
      rw [Int.floor_eq_iff]
      norm_num
    rw [this]
    simp

/-- Quantisation is idempotent. -/
theorem UnifiedValue_idem (hs : Histogram) (ha : hs.Accuracy ≠ 0) (x : ℚ) :
    hs.UnifiedValue (hs.UnifiedValue x) = hs.UnifiedValue x := by
  unfold Histogram.UnifiedValue
  obtain ⟨k, hk⟩ := goRound_int (x * hs.Accuracy)
  rw [hk, div_mul_cancel₀ _ ha, goRound_of_int]

theorem window_subset (w : Int) (l : List ℚ) : ∀ x ∈ window w l, x ∈ l := by
  intro x hx
  unfold window at hx
  split at hx
  · exact List.mem_of_mem_drop hx
  · exact hx

theorem apply_grid (w : Int) (acc : ℚ) (l : List ℚ) (op : HistOp)
    (hl : ∀ x ∈ l, ∃ k : Int, x = (k : ℚ) / acc) :
    ∀ x ∈ HistOp.apply w acc l op, ∃ k : Int, x = (k : ℚ) / acc := by
  intro x hx
  cases op with
  | enqueue v c =>
    have := window_subset w _ x hx
    rcases List.mem_append.mp this with h | h
    · exact hl x h
    · obtain ⟨-, rfl⟩ := List.mem_replicate.mp h
      obtain ⟨k, hk⟩ := goRound_int (v * acc)
      exact ⟨k, by rw [hk]⟩
  | dequeue => exact hl x (List.mem_of_mem_tail hx)

theorem foldl_grid (w : Int) (acc : ℚ) : ∀ (ops : List HistOp) (l : List ℚ),
    (∀ x ∈ l, ∃ k : Int, x = (k : ℚ) / acc) →
    ∀ x ∈ ops.foldl (HistOp.apply w acc) l, ∃ k : Int, x = (k : ℚ) / acc
  | [], _, hl => hl
  | op :: ops, l, hl => foldl_grid w acc ops _ (apply_grid w acc l op hl)

/-- The live samples, as the specification reads them, lie on the grid of the
accuracy. -/
theorem samplesAfter_grid (w : Int) (acc : ℚ) (ops : List HistOp) :
    ∀ x ∈ samplesAfter w acc ops, ∃ k : Int, x = (k : ℚ) / acc :=
  foldl_grid w acc ops [] (fun x hx => by simp at hx)

/-- The multiplicity of a node is the number of live samples with its value. -/
theorem HistInv.dup_eq_count {hs : Histogram} {T : Shape} (hi : HistInv hs T) {i : Nat}
    (him : i ∈ T.ids) :
    (hs.heap.get i).Duplications = (hs.samples.count (hs.heap.get i).Value : Int) := by
  rw [hi.count_samples, hi.inv.mult_of_mem him]

theorem HistInv.root_top {hs : Histogram} {T : Shape} (hi : HistInv hs T) {r : Nat}
    (hr : hs.RootItem = some r) : (hs.heap.get r).Parent = none := by
  have h1 := hi.inv.linked
  have h2 : T.root = some r := hi.root.symm.trans hr
  cases T with
  | nil => simp at h2
  | node l i rr =>
    simp only [Shape.root_node, Option.some.injEq] at h2
    subst h2
    exact h1.2.1

end Hist

namespace Hist

theorem TreeInv.top_parent {h : Heap} {T : Shape} (hinv : TreeInv h T) {r : Nat}
    (hr : T.root = some r) : (h.get r).Parent = none := by
  have h1 := hinv.linked
  cases T with
  | nil => simp at hr
  | node l i rr =>
    simp only [Shape.root_node, Option.some.injEq] at hr
    subst hr
    exact h1.2.1

theorem enqueued_nonneg : ∀ ops : List HistOp, (∀ op ∈ ops, op.valid) → 0 ≤ enqueued ops
  | [], _ => le_refl _
  | .enqueue v c :: ops, hv => by
    have h1 : 1 ≤ c := hv (.enqueue v c) (by simp)
    have h2 := enqueued_nonneg ops (fun o ho => hv o (by simp [ho]))
    show 0 ≤ c + enqueued ops
    omega
  | .dequeue :: ops, hv => enqueued_nonneg ops (fun o ho => hv o (by simp [ho]))

theorem apply_enqueue_length {w : Int} (hw : 0 < w) (acc : ℚ) (l : List ℚ) (v : ℚ) (c : Int)
    (hc : 1 ≤ c) :
    ((HistOp.apply w acc l (.enqueue v c)).length : Int) = min ((l.length : Int) + c) w := by
  show ((window w (l ++ List.replicate c.toNat (goRound (v * acc) / acc))).length : Int) = _
  rw [window_length hw, List.length_append, List.length_replicate]
  have : ((c.toNat : Nat) : Int) = c := Int.toNat_of_nonneg (by omega)
  push_cast
  rw [this]

/-- Without `Dequeue` the number of live samples is the number of samples brought, cut
at the window size. -/
theorem foldl_enqueue_length {w : Int} (hw : 0 < w) (acc : ℚ) : ∀ (ops : List HistOp)
    (l : List ℚ), (∀ op ∈ ops, op.valid) → (∀ op ∈ ops, op.isEnqueue) → (l.length : Int) ≤ w →
    ((ops.foldl (HistOp.apply w acc) l).length : Int) = min ((l.length : Int) + enqueued ops) w
  | [], l, _, _, hl => by
    show (l.length : Int) = min ((l.length : Int) + 0) w
    omega
  | .enqueue v c :: ops, l, hv, he, hl => by
    have h1 : 1 ≤ c := hv (.enqueue v c) (by simp)
    have h2 := apply_enqueue_length hw acc l v c h1
    have h3 := enqueued_nonneg ops (fun o ho => hv o (by simp [ho]))
    rw [List.foldl_cons, foldl_enqueue_length hw acc ops _ (fun o ho => hv o (by simp [ho]))
      (fun o ho => he o (by simp [ho])) (by rw [h2]; omega), h2]
    show _ = min ((l.length : Int) + (c + enqueued ops)) w
    omega
  | .dequeue :: ops, l, _, he, _ => absurd (he .dequeue (by simp)) (fun h => h)

end Hist

namespace Hist

/-! ## The slots of the bucket index as a list -/

theorem slot_bounds {b : BucketHistogram} {k j n : Nat} (h : b.slot k j = some n) :
    k < b.SubBucketHistograms.length ∧ j < b.rowLength k
      ∧ ∃ sb, b.SubBucketHistograms.getD k none = some sb := by
  unfold BucketHistogram.slot at h
  unfold BucketHistogram.rowLength
  cases e : b.SubBucketHistograms.getD k none with
  | none =>
    rw [e] at h
    cases h
  | some sb =>
    rw [e] at h
    simp only at h ⊢
    refine ⟨?_, ?_, sb, rfl⟩
    · by_contra hk
      rw [List.getD_eq_default _ _ (by omega)] at e
      cases e
    · by_contra hj
      rw [List.getD_eq_default _ _ (by omega)] at h
      cases h

theorem mem_entries {b : BucketHistogram} {n : Nat} :
    n ∈ b.entries ↔ ∃ k j, b.slot k j = some n := by
  unfold BucketHistogram.entries
  simp only [List.mem_flatMap, List.mem_range, List.mem_filterMap]
  constructor
  · rintro ⟨k, -, j, -, h⟩
    exact ⟨k, j, h⟩
  · rintro ⟨k, j, h⟩
    obtain ⟨h1, h2, -⟩ := slot_bounds h
    exact ⟨k, h1, j, h2, h⟩

theorem nodup_entries {b : BucketHistogram}
    (hinj : ∀ k j k' j' n, b.slot k j = some n → b.slot k' j' = some n → k = k' ∧ j = j') :
    b.entries.Nodup := by
  unfold BucketHistogram.entries
  rw [List.nodup_flatMap]
  constructor
  · intro k _
    refine List.Nodup.filterMap (fun j j' n h1 h2 => ?_) (List.nodup_range _)
    simp only [Option.mem_def] at h1 h2
    exact (hinj k j k j' n h1 h2).2
  · refine List.Nodup.pairwise_of_forall_ne (List.nodup_range _) (fun k _ k' _ hne => ?_)
    intro n h1 h2
    simp only [List.mem_filterMap, List.mem_range] at h1 h2
    obtain ⟨j, -, e1⟩ := h1
    obtain ⟨j', -, e2⟩ := h2
    exact hne (hinj k j k' j' n e1 e2).1

theorem sub_CalcPosition_congr {sb sb' : SubBucketHistogram}
    (e1 : sb.BucketSize = sb'.BucketSize) (e2 : sb.LowerBoundary = sb'.LowerBoundary) (v : ℚ) :
    sb.CalcPosition v = sb'.CalcPosition v := by
  unfold SubBucketHistogram.CalcPosition
  rw [e1, e2]

/-- The nodes in the slots of an exact bucket index are the nodes of the tree, each
once. -/
theorem BucketInv.entries_perm {slab acc : ℚ} {hs : Histogram} {T : Shape} (hi : HistInv hs T)
    (hb : BucketInv hs T) (hg : OnGrid hs T) (hr : InRange slab acc hs T) :
    hs.BucketHistogram.entries.Perm T.ids := by
  refine (List.perm_ext_iff_of_nodup (nodup_entries ?_) hi.inv.nodup).mpr (fun n => ?_)
  · intro k j k' j' n h1 h2
    obtain ⟨-, e1⟩ := (hb.slots k j n).mp h1
    obtain ⟨-, e2⟩ := (hb.slots k' j' n).mp h2
    have := e1.symm.trans e2
    simp only [Prod.mk.injEq] at this
    omega
  · rw [mem_entries]
    constructor
    · rintro ⟨k, j, h⟩
      exact ((hb.slots k j n).mp h).1
    · intro hn
      obtain ⟨-, h1, h2⟩ := position_eq hs.BucketHistogram (hs.heap.get n).Value hb.ok.slab
        hb.ok.unit (hg n hn).1 (hr.rooms hb.unit) (hr.reaches hn)
      refine ⟨(hs.BucketHistogram.position (hs.heap.get n).Value).1.toNat,
        (hs.BucketHistogram.position (hs.heap.get n).Value).2.toNat,
        (hb.slots _ _ n).mpr ⟨hn, ?_⟩⟩
      rw [Int.toNat_of_nonneg h1, Int.toNat_of_nonneg h2]

theorem dupSum_perm (h : Heap) {l l' : List Nat} (hp : l.Perm l') : dupSum h l = dupSum h l' := by
  unfold dupSum
  exact (hp.map _).sum_eq

end Hist

namespace Hist

/-! ## Stored heights along the steps of the test helpers -/

theorem Tall.first_node (h : Heap) (v : ℚ) (c : Int) :
    Tall (h.alloc { NewHistogramItem v with Duplications := c }).2 (.node .nil h.size .nil) := by
  refine ⟨?_, trivial, trivial⟩
  rw [Heap.get_alloc_self]
  rfl

/-- One step of the test helpers keeps every stored height the height of the subtree. -/
theorem step_tall {s : TreeState} {T : Shape} (hg : s.Good T) (ht : Tall s.heap T) (op : TreeOp)
    (hv : op.valid) :
    ∃ s' T', s.step op = .ok s' ∧ s'.Good T' ∧ Tall s'.heap T' := by
  obtain ⟨hinv, hroot⟩ := hg
  cases op with
  | insert v c =>
    have hc : 1 ≤ c := hv
    cases hr : s.root with
    | none =>
      exact ⟨_, .node .nil s.heap.size .nil, step_insert_none s v c hr,
        ⟨TreeInv.single s.heap v c hc, rfl⟩, Tall.first_node s.heap v c⟩
    | some r =>
      obtain ⟨item, newRoot, h', T', he, hpost, htl⟩ :=
        Insert_tall s.heap T r v c hc hinv (hroot.trans hr)
      refine ⟨_, T', step_insert_some s v c r item newRoot h' hr he, ⟨hpost.inv, ?_⟩, htl ht⟩
      rw [hpost.root, hroot, hr]
      cases newRoot <;> simp
  | delete v =>
    cases hr : s.root with
    | none => exact ⟨s, T, step_delete_none s v hr, ⟨hinv, hroot⟩, ht⟩
    | some r =>
      rcases Find_spec s.heap T r v hinv (hroot.trans hr) with ⟨n, hf, hn, -⟩ | ⟨hf, -⟩
      · obtain ⟨replaced, newRoot, h', T', he, -, hi', hr', htl⟩ :=
          Delete_tall s.heap T n hinv hn
        refine ⟨_, T', step_delete_found s v r n replaced newRoot h' hr hf he, ?_, ?_⟩
        · by_cases hc : replaced = none ∧ newRoot = none
          · rw [if_pos hc] at hr' ⊢
            exact ⟨hi', hr'⟩
          · rw [if_neg hc] at hr' ⊢
            refine ⟨hi', ?_⟩
            rw [hr', hroot, hr]
            cases newRoot <;> simp
        · by_cases hc : replaced = none ∧ newRoot = none
          · rw [if_pos hc]
            exact htl ht
          · rw [if_neg hc]
            exact htl ht
      · exact ⟨s, T, step_delete_absent s v r hr hf, ⟨hinv, hroot⟩, ht⟩

/-- A run of valid steps keeps every stored height the height of the subtree. -/
theorem run_tall : ∀ (ops : List TreeOp) (s : TreeState) (T : Shape), s.Good T →
    Tall s.heap T → (∀ op ∈ ops, op.valid) →
    ∃ s' T', s.run ops = .ok s' ∧ s'.Good T' ∧ Tall s'.heap T'
  | [], s, T, hg, ht, _ => ⟨s, T, rfl, hg, ht⟩
  | op :: ops, s, T, hg, ht, hv => by
    obtain ⟨s1, T1, he, hg1, ht1⟩ := step_tall hg ht op (hv op (by simp))
    obtain ⟨s', T', he', hg', ht'⟩ := run_tall ops s1 T1 hg1 ht1 (fun o ho => hv o (by simp [ho]))
    refine ⟨s', T', ?_, hg', ht'⟩
    simp only [TreeState.run, he, bind, Except.bind]
    exact he'

theorem extract_none (h : Heap) (fuel : Nat) : extract h fuel none = .nil := by
  cases fuel <;> simp [extract]

/-- In a tree with true stored heights each node's `Height` is one more than the larger of
the heights of the subtrees its `Left` and `Right` lead to. -/
theorem Tall.at_node {h : Heap} (n : Nat) : ∀ (S : Shape) (par : Ptr), Linked h par S →
    Tall h S → S.ids.length < n → ∀ i ∈ S.ids,
      (h.get i).Height = 1 + max (((extract h n (h.get i).Left).height : Nat) : Int)
        (((extract h n (h.get i).Right).height : Nat) : Int)
  | .nil, _, _, _, _ => by simp [Shape.ids]
  | .node l c r, _, hl, ht, hn => by
    obtain ⟨-, -, hL, hR, hl1, hl2⟩ := hl
    obtain ⟨t1, t2, t3⟩ := ht
    simp only [Shape.ids, List.length_append, List.length_cons] at hn
    have b1 := l.height_le_length
    have b2 := r.height_le_length
    intro i hi
    simp only [Shape.ids, List.mem_append, List.mem_cons] at hi
    rcases hi with hi | rfl | hi
    · exact Tall.at_node n l _ hl1 t2 (by omega) i hi
    · rw [hL, hR, extract_linked l _ n hl1 (by omega), extract_linked r _ n hl2 (by omega), t1]
      simp only [Shape.height]
      push_cast
      ring
    · exact Tall.at_node n r _ hl2 t3 (by omega) i hi

end Hist

namespace Hist

/-! ## The walks of a cursor along the chain -/

theorem split_same {α : Type} {A A' B B' : List α} {i i' : α}
    (hw : A' ++ i' :: B' = A ++ i :: B) (hl : A'.length = A.length) :
    A' = A ∧ i' = i ∧ B' = B := by
  obtain ⟨e1, e2⟩ := List.append_inj hw hl
  injection e2 with e3 e4
  exact ⟨e1, e3, e4⟩

theorem advance_done (h : Heap) (total : ℚ) (fuel : Nat) (p : PercentileItem) (x : Ptr) (pv : ℚ)
    (hn : ¬ (pv < p.Percentile)) : advance h total fuel p x pv = .ok p := by
  cases x with
  | none => unfold advance; rfl
  | some x =>
    unfold advance
    rw [if_neg hn]

theorem cast_div_lt {a b : Int} {total : ℚ} (ht : 0 < total) (hab : a < b) :
    (a : ℚ) / total < (b : ℚ) / total :=
  div_lt_div_of_pos_right (by exact_mod_cast hab) ht

/-- The forward walk of a cursor that stands on a node of the chain returns, and leaves
the cursor on a node of the chain with its count. -/
theorem advance_spec (h : Heap) (total : ℚ) (ht : 0 < total) :
    ∀ (B A : List Nat) (i : Nat) (p : PercentileItem) (fuel : Nat) (prev : Ptr),
    Chain h prev (A ++ i :: B) → (∀ x ∈ B, 1 ≤ (h.get x).Duplications) → CurAt h p A i →
    B.length < fuel →
    ∃ p' A' i' B', advance h total fuel p B.head? ((p.Count : ℚ) / total) = .ok p'
      ∧ CurAt h p' A' i' ∧ p'.Percentile = p.Percentile
      ∧ Advanced h total p.Percentile A i B A' i' B'
  | [], A, i, p, fuel, _, _, _, hcur, _ => by
    refine ⟨p, A, i, [], ?_, hcur, rfl, rfl, le_refl _, fun hl => absurd hl (lt_irrefl _),
      fun _ => rfl, fun x hx => by simp at hx⟩
    unfold advance
    rfl
  | x :: B2, A, i, p, fuel, prev, hch, hd, hcur, hf => by
    have hdx : 1 ≤ (h.get x).Duplications := hd x (by simp)
    by_cases hlt : (p.Count : ℚ) / total < p.Percentile
    · cases fuel with
      | zero => simp at hf
      | succ k =>
        have hch2 : Chain h prev ((A ++ [i]) ++ x :: B2) := by simpa using hch
        have hlx : (h.get x).Larger = B2.head? := (chain_smaller_at hch2).2
        by_cases hle : ((p.Count + (h.get x).Duplications : Int) : ℚ) / total ≤ p.Percentile
        · obtain ⟨p', A', i', B', he, hc', hp', hadv⟩ := advance_spec h total ht B2 (A ++ [i]) x
            { p with Item := some x, Count := p.Count + (h.get x).Duplications,
                     RealPercentage := ((p.Count + (h.get x).Duplications : Int) : ℚ) / total }
            k prev hch2 (fun y hy => hd y (by simp [hy]))
            ⟨rfl, by
              show p.Count + (h.get x).Duplications = _
              rw [hcur.2]
              simp [dupSum_append]⟩ (by simpa using hf)
          refine ⟨p', A', i', B', ?_, hc', hp', ?_⟩
          · simp only [List.head?_cons]
            unfold advance
            rw [if_pos hlt]
            simp only [hle, ↓reduceIte, hlx]
            exact he
          · have hw : A' ++ i' :: B' = A ++ i :: x :: B2 := by
              rw [hadv.whole]
              simp
            have hfw := hadv.fwd
            simp only [List.length_append, List.length_singleton] at hfw
            refine ⟨hw, by omega, fun _ => ?_, fun hn => absurd ?_ hn, hadv.stop⟩
            · by_cases hl : (A ++ [i]).length < A'.length
              · exact hadv.moved hl
              · have hl2 : A'.length = (A ++ [i]).length := by
                  simp only [List.length_append, List.length_singleton] at hl ⊢
                  omega
                obtain ⟨e1, e2, -⟩ := split_same hadv.whole hl2
                subst e1 e2
                have h2 := hle
                rw [hcur.2] at h2
                simpa [dupSum_append] using h2
            · rw [← hcur.2]
              exact hlt
        · refine ⟨p, A, i, x :: B2, ?_, hcur, rfl, rfl, le_refl _,
            fun hl => absurd hl (lt_irrefl _), fun _ => rfl, fun y hy => ?_⟩
          · simp only [List.head?_cons]
            unfold advance
            rw [if_pos hlt]
            simp only [hle, ↓reduceIte]
            exact advance_done h total k p _ _ (fun hc => hle hc.le)
          · simp only [List.head?_cons, Option.mem_def, Option.some.injEq] at hy
            subst hy
            rw [← hcur.2]
            exact not_le.mp hle
    · refine ⟨p, A, i, x :: B2, advance_done h total fuel p _ _ hlt, hcur, rfl, rfl, le_refl _,
        fun hl => absurd hl (lt_irrefl _), fun _ => rfl, fun y hy => ?_⟩
      simp only [List.head?_cons, Option.mem_def, Option.some.injEq] at hy
      subst hy
      rw [← hcur.2]
      have h1 : (p.Count : ℚ) / total < ((p.Count + (h.get x).Duplications : Int) : ℚ) / total :=
        cast_div_lt ht (by omega)
      exact lt_of_le_of_lt (not_lt.mp hlt) h1

/-- The backward walk of a cursor in `retreatEnqueue` returns, and leaves the cursor on a node of
the chain with its count. -/
theorem retreatEnqueue_spec (h : Heap) (total : ℚ) :
    ∀ (n : Nat) (A : List Nat) (i : Nat) (B : List Nat) (p : PercentileItem) (pv : ℚ)
      (fuel : Nat),
    A.length = n → Chain h none (A ++ i :: B) → CurAt h p A i → A.length < fuel →
    ∃ p' A' i' B', retreatEnqueue h total fuel p A.getLast? pv = .ok p'
      ∧ CurAt h p' A' i' ∧ p'.Percentile = p.Percentile
      ∧ Retreated h total p.Percentile pv A i B A' i' B'
  | 0, A, i, B, p, pv, fuel, hn, _, hcur, _ => by
    have hA : A = [] := List.length_eq_zero.mp hn
    subst hA
    refine ⟨p, [], i, B, ?_, hcur, rfl, rfl, le_refl _, fun _ => rfl,
      fun hne => absurd rfl hne, fun C j D _ h1 h2 => by simp at h2, fun hl => by simp at hl⟩
    unfold retreatEnqueue
    rfl
  | n + 1, A, i, B, p, pv, fuel, hn, hch, hcur, hf => by
    rcases List.eq_nil_or_concat A with rfl | ⟨A1, x, hA⟩
    · simp at hn
    rw [List.concat_eq_append] at hA
    subst hA
    have hlast : (A1 ++ [x]).getLast? = some x := by simp
    rw [hlast]
    by_cases hgt : p.Percentile < pv
    · cases fuel with
      | zero => simp at hf
      | succ k =>
        have hch2 : Chain h none (A1 ++ x :: i :: B) := by simpa using hch
        obtain ⟨hsx0, hlx⟩ := chain_smaller_at hch2
        have hsx : (h.get x).Smaller = A1.getLast? := by
          rw [hsx0]
          cases A1.getLast? <;> rfl
        simp only [List.head?_cons] at hlx
        have hcount : p.Count - (h.get i).Duplications
            = dupSum h A1 + (h.get x).Duplications := by
          rw [hcur.2]
          simp [dupSum_append]
        have hlen : A1.length = n := by simpa using hn
        obtain ⟨p', A', i', B', he, hc', hp', hret⟩ := retreatEnqueue_spec h total n A1 x
          (i :: B)
          { p with Item := some x, Count := p.Count - (h.get i).Duplications,
                   RealPercentage := ((p.Count - (h.get i).Duplications : Int) : ℚ) / total }
          (((p.Count - (h.get i).Duplications - (h.get x).Duplications : Int) : ℚ) / total)
          k hlen hch2 ⟨rfl, hcount⟩ (by
            simp only [List.length_append, List.length_singleton] at hf
            omega)
        have hpv : ((p.Count - (h.get i).Duplications - (h.get x).Duplications : Int) : ℚ)
            = ((dupSum h A1 : Int) : ℚ) := by
          rw [hcount]
          simp
        refine ⟨p', A', i', B', ?_, hc', hp', ?_⟩
        · unfold retreatEnqueue
          have hgt' : pv > p.Percentile := hgt
          simp only [hgt', ↓reduceIte, hlx, deref, bind, Except.bind, hsx]
          exact he
        · have hw : A' ++ i' :: B' = (A1 ++ [x]) ++ i :: B := by
            rw [hret.whole]
            simp
          have hb := hret.back
          refine ⟨hw, by simp; omega, fun hs => ?_, fun _ _ => by simp; omega, ?_,
            fun hl hne => ?_⟩
          · rcases hs with hs | hs
            · simp at hs
            · exact absurd hgt hs
          · intro C j D hC h1 h2
            simp only [List.length_append, List.length_singleton] at h2
            have hC2 : C ++ j :: D = A1 ++ x :: i :: B := by
              rw [hC]
              simp
            by_cases hl2 : C.length < A1.length
            · exact hret.pass C j D hC2 h1 hl2
            · have hl3 : C.length = A1.length := by omega
              obtain ⟨e1, -, -⟩ := split_same hC2 hl3
              subst e1
              by_contra hc
              have := hret.stay (Or.inr (by rw [hpv]; exact hc))
              omega
          · simp only [List.length_append, List.length_singleton] at hl
            by_cases hl2 : A'.length < A1.length
            · exact hret.stop hl2 hne
            · have hl3 : A'.length = A1.length := by omega
              obtain ⟨e1, -, -⟩ := split_same hret.whole hl3
              subst e1
              intro hc
              have := hret.go hne (by rw [hpv]; exact hc)
              omega
    · refine ⟨p, A1 ++ [x], i, B, ?_, hcur, rfl, rfl, le_refl _, fun _ => rfl,
        fun _ hc => absurd hc hgt, fun C j D _ h1 h2 => by omega, fun hl => by omega⟩
      unfold retreatEnqueue
      have hgt' : ¬ (pv > p.Percentile) := hgt
      simp only [hgt', ↓reduceIte]

/-- The backward walk of a cursor in `retreatDequeue` returns, and leaves the cursor on a node of
the chain with its count. -/
theorem retreatDequeue_spec (h : Heap) (total : ℚ) :
    ∀ (n : Nat) (A : List Nat) (i : Nat) (B : List Nat) (p : PercentileItem) (pv : ℚ)
      (fuel : Nat),
    A.length = n → Chain h none (A ++ i :: B) → CurAt h p A i → A.length < fuel →
    ∃ p' A' i' B', retreatDequeue h total fuel p A.getLast? pv = .ok p'
      ∧ CurAt h p' A' i' ∧ p'.Percentile = p.Percentile
      ∧ Retreated h total p.Percentile pv A i B A' i' B'
  | 0, A, i, B, p, pv, fuel, hn, _, hcur, _ => by
    have hA : A = [] := List.length_eq_zero.mp hn
    subst hA
    refine ⟨p, [], i, B, ?_, hcur, rfl, rfl, le_refl _, fun _ => rfl,
      fun hne => absurd rfl hne, fun C j D _ h1 h2 => by simp at h2, fun hl => by simp at hl⟩
    unfold retreatDequeue
    rfl
  | n + 1, A, i, B, p, pv, fuel, hn, hch, hcur, hf => by
    rcases List.eq_nil_or_concat A with rfl | ⟨A1, x, hA⟩
    · simp at hn
    rw [List.concat_eq_append] at hA
    subst hA
    have hlast : (A1 ++ [x]).getLast? = some x := by simp
    rw [hlast]
    by_cases hgt : p.Percentile < pv
    · cases fuel with
      | zero => simp at hf
      | succ k =>
        have hch2 : Chain h none (A1 ++ x :: i :: B) := by simpa using hch
        obtain ⟨hsx0, hlx⟩ := chain_smaller_at hch2
        have hsx : (h.get x).Smaller = A1.getLast? := by
          rw [hsx0]
          cases A1.getLast? <;> rfl
        simp only [List.head?_cons] at hlx
        have hcount : p.Count - (h.get i).Duplications
            = dupSum h A1 + (h.get x).Duplications := by
          rw [hcur.2]
          simp [dupSum_append]
        have hlen : A1.length = n := by simpa using hn
        obtain ⟨p', A', i', B', he, hc', hp', hret⟩ := retreatDequeue_spec h total n A1 x
          (i :: B)
          { p with Item := some x, Count := p.Count - (h.get i).Duplications,
                   RealPercentage := pv }
          (((p.Count - (h.get i).Duplications - (h.get x).Duplications : Int) : ℚ) / total)
          k hlen hch2 ⟨rfl, hcount⟩ (by
            simp only [List.length_append, List.length_singleton] at hf
            omega)
        have hpv : ((p.Count - (h.get i).Duplications - (h.get x).Duplications : Int) : ℚ)
            = ((dupSum h A1 : Int) : ℚ) := by
          rw [hcount]
          simp
        refine ⟨p', A', i', B', ?_, hc', hp', ?_⟩
        · unfold retreatDequeue
          have hgt' : pv > p.Percentile := hgt
          simp only [hgt', ↓reduceIte, hlx, deref, bind, Except.bind, hsx]
          exact he
        · have hw : A' ++ i' :: B' = (A1 ++ [x]) ++ i :: B := by
            rw [hret.whole]
            simp
          have hb := hret.back
          refine ⟨hw, by simp; omega, fun hs => ?_, fun _ _ => by simp; omega, ?_,
            fun hl hne => ?_⟩
          · rcases hs with hs | hs
            · simp at hs
            · exact absurd hgt hs
          · intro C j D hC h1 h2
            simp only [List.length_append, List.length_singleton] at h2
            have hC2 : C ++ j :: D = A1 ++ x :: i :: B := by
              rw [hC]
              simp
            by_cases hl2 : C.length < A1.length
            · exact hret.pass C j D hC2 h1 hl2
            · have hl3 : C.length = A1.length := by omega
              obtain ⟨e1, -, -⟩ := split_same hC2 hl3
              subst e1
              by_contra hc
              have := hret.stay (Or.inr (by rw [hpv]; exact hc))
              omega
          · simp only [List.length_append, List.length_singleton] at hl
            by_cases hl2 : A'.length < A1.length
            · exact hret.stop hl2 hne
            · have hl3 : A'.length = A1.length := by omega
              obtain ⟨e1, -, -⟩ := split_same hret.whole hl3
              subst e1
              intro hc
              have := hret.go hne (by rw [hpv]; exact hc)
              omega
    · refine ⟨p, A1 ++ [x], i, B, ?_, hcur, rfl, rfl, le_refl _, fun _ => rfl,
        fun _ hc => absurd hc hgt, fun C j D _ h1 h2 => by omega, fun hl => by omega⟩
      unfold retreatDequeue
      have hgt' : ¬ (pv > p.Percentile) := hgt
      simp only [hgt', ↓reduceIte]

end Hist

namespace Hist

/-! ## A cursor after `Insert` of one sample -/

theorem dupSum_bump {h h' : Heap} {l : List Nat} {t : Nat} (hnd : l.Nodup) (ht : t ∈ l)
    (hd : (h'.get t).Duplications = (h.get t).Duplications + 1)
    (ho : ∀ i ∈ l, i ≠ t → (h'.get i).Duplications = (h.get i).Duplications) :
    dupSum h' l = dupSum h l + 1 := by
  obtain ⟨X, Y, rfl⟩ := List.append_of_mem ht
  refine dupSum_update hnd hd (fun i hi => ho i ?_ ?_)
  · simp only [List.mem_append, List.mem_cons] at hi ⊢
    tauto
  · intro e
    subst e
    have := List.nodup_middle.mp hnd
    simp only [List.nodup_cons, List.mem_append] at this
    simp only [List.mem_append] at hi
    tauto

/-- The place of a node of the tree in the chain after `Insert` of one sample. -/
theorem insert_shift {h h' : Heap} {T T' : Shape} {v : ℚ} {item : Nat} {nr : Ptr}
    (hinv : TreeInv h T) (hpost : InsertPost h h' T T' v 1 item nr)
    {A : List Nat} {i : Nat} {B : List Nat} (hT : T.ids = A ++ i :: B) :
    ∃ A1 B1, T'.ids = A1 ++ i :: B1 ∧ Shifted h h' v A i B A1 B1 := by
  have hi : i ∈ T.ids := by rw [hT]; simp
  have hnd := hinv.nodup
  have hs := hinv.sorted
  rw [hT] at hnd hs
  have hndA : A.Nodup := (List.nodup_append.mp hnd).1
  have hndB : B.Nodup := (List.nodup_cons.mp (List.nodup_append.mp hnd).2.1).2
  have hiA : i ∉ A := fun hm => (List.nodup_append.mp hnd).2.2 hm (by simp)
  have hiB : i ∉ B := (List.nodup_cons.mp (List.nodup_append.mp hnd).2.1).1
  have hAB : ∀ a ∈ A, a ∉ B := fun a ha hb => (List.nodup_append.mp hnd).2.2 ha (by simp [hb])
  have hval := (hpost.old i hi).1
  have holdA : ∀ x ∈ A, x ≠ item → (h'.get x).Duplications = (h.get x).Duplications :=
    fun x hx hne => (hpost.old x (by rw [hT]; simp [hx])).2 hne
  have holdB : ∀ x ∈ B, x ≠ item → (h'.get x).Duplications = (h.get x).Duplications :=
    fun x hx hne => (hpost.old x (by rw [hT]; simp [hx])).2 hne
  rcases hpost.ids with ⟨hm, hids, hd⟩ | ⟨hm, hno, hd, X, Y, eT, eT'⟩
  · have hv : (h.get item).Value = v := by rw [← (hpost.old item hm).1, hpost.value]
    rw [hT] at hm
    refine ⟨A, B, hids.trans hT, hval, fun hlt => ?_, fun heq => ?_, fun hgt => ?_⟩
    · have hA : item ∈ A := by
        simp only [List.mem_append, List.mem_cons] at hm
        rcases hm with hm | rfl | hm
        · exact hm
        · rw [hv] at hlt
          exact absurd hlt (lt_irrefl _)
        · have := sorted_after hs item hm
          rw [hv] at this
          exact absurd (lt_trans hlt this) (lt_irrefl _)
      have hne : i ≠ item := fun e => hiA (e ▸ hA)
      exact ⟨dupSum_bump hndA hA hd (fun x hx hxi => holdA x hx hxi),
        List.ne_nil_of_mem hA, (hpost.old i hi).2 hne, rfl,
        fun x hx => holdB x hx (fun e => hAB item hA (e ▸ hx))⟩
    · have hii : item = i := by
        simp only [List.mem_append, List.mem_cons] at hm
        rcases hm with hm | rfl | hm
        · have := sorted_before hs item hm
          rw [hv, heq] at this
          exact absurd this (lt_irrefl _)
        · rfl
        · have := sorted_after hs item hm
          rw [hv, heq] at this
          exact absurd this (lt_irrefl _)
      subst hii
      exact ⟨rfl, dupSum_congr (fun x hx => holdA x hx (fun e => hiA (e ▸ hx))), hd, rfl,
        fun x hx => holdB x hx (fun e => hiB (e ▸ hx))⟩
    · have hB : item ∈ B := by
        simp only [List.mem_append, List.mem_cons] at hm
        rcases hm with hm | rfl | hm
        · have := sorted_before hs item hm
          rw [hv] at this
          exact absurd (lt_trans hgt this) (lt_irrefl _)
        · rw [hv] at hgt
          exact absurd hgt (lt_irrefl _)
        · exact hm
      have hne : i ≠ item := fun e => hiB (e ▸ hB)
      exact ⟨rfl, dupSum_congr (fun x hx => holdA x hx (fun e => hAB x hx (e ▸ hB))),
        (hpost.old i hi).2 hne, dupSum_bump hndB hB hd (fun x hx hxi => holdB x hx hxi)⟩
  · have hne : ∀ x ∈ T.ids, x ≠ item := fun x hx e => hm (e ▸ hx)
    have hs' := hpost.inv.sorted
    rw [eT'] at hs'
    have hsame : ∀ l : List Nat, (∀ x ∈ l, x ∈ T.ids) → dupSum h' l = dupSum h l :=
      fun l hl => dupSum_congr (fun x hx => (hpost.old x (hl x hx)).2 (hne x (hl x hx)))
    have hvi : (h.get i).Value ≠ v := hno i hi
    rw [hT] at eT
    rcases List.append_eq_append_iff.mp eT with ⟨M, e1, e2⟩ | ⟨M, e1, e2⟩
    · -- X = A ++ M, i :: B = M ++ Y
      cases M with
      | nil =>
        simp only [List.nil_append] at e2
        simp only [List.append_nil] at e1
        subst e1
        subst e2
        have hlt : v < (h.get i).Value := by
          have := sorted_after hs' i (by simp)
          rw [hpost.value, hval] at this
          exact this
        refine ⟨X ++ [item], B, by rw [eT']; simp, hval, fun _ => ?_,
          fun heq => absurd heq.symm hvi, fun hgt => absurd (lt_trans hlt hgt) (lt_irrefl _)⟩
        refine ⟨?_, by simp, (hpost.old i hi).2 (hne i hi), rfl,
          fun x hx => holdB x hx (hne x (by rw [hT]; simp [hx]))⟩
        rw [dupSum_append, dupSum_cons, dupSum_nil, hd,
          hsame X (fun x hx => by rw [hT]; simp [hx])]
        ring
      | cons m M =>
        injection e2 with e3 e4
        subst e3
        subst e1
        have hgt : (h.get i).Value < v := by
          have := sorted_before hs' i (by simp)
          rw [hpost.value, hval] at this
          exact this
        refine ⟨A, M ++ item :: Y, by rw [eT']; simp, hval,
          fun hlt => absurd (lt_trans hlt hgt) (lt_irrefl _),
          fun heq => absurd heq.symm hvi, fun _ => ?_⟩
        refine ⟨rfl, hsame A (fun x hx => by rw [hT]; simp [hx]),
          (hpost.old i hi).2 (hne i hi), ?_⟩
        have e5 : B = M ++ Y := e4
        rw [e5, dupSum_append, dupSum_cons, hd, dupSum_append,
          hsame M (fun x hx => by rw [hT, e5]; simp [hx]),
          hsame Y (fun x hx => by rw [hT, e5]; simp [hx])]
        ring
    · -- A = X ++ M, Y = M ++ i :: B
      subst e1
      subst e2
      have hlt : v < (h.get i).Value := by
        have := sorted_after hs' i (by simp)
        rw [hpost.value, hval] at this
        exact this
      refine ⟨X ++ item :: M, B, by rw [eT']; simp, hval, fun _ => ?_,
        fun heq => absurd heq.symm hvi, fun hgt => absurd (lt_trans hlt hgt) (lt_irrefl _)⟩
      refine ⟨?_, by simp, (hpost.old i hi).2 (hne i hi), rfl,
        fun x hx => holdB x hx (hne x (by rw [hT]; simp [hx]))⟩
      rw [dupSum_append, dupSum_cons, hd, dupSum_append,
        hsame X (fun x hx => by rw [hT]; simp [hx]),
        hsame M (fun x hx => by rw [hT]; simp [hx])]
      ring

/-- The body of the cursor loop of `Enqueue` returns on a cursor that stood on a node of
the tree before `Insert`, and leaves it on a node of the chain with its count: after a
backward walk when the new sample is not above the node of the cursor, after a forward
walk when it is. -/
theorem cursorAfterInsert_spec {h h' : Heap} {T' : Shape} {v : ℚ} (hinv' : TreeInv h' T')
    (total : ℚ) (ht : 0 < total) {p : PercentileItem} {A : List Nat} {i : Nat}
    {B A1 B1 : List Nat} (hT' : T'.ids = A1 ++ i :: B1) (hsh : Shifted h h' v A i B A1 B1)
    (hcur : CurAt h p A i) :
    ∃ p' A' i' B', cursorAfterInsert h' total v p = .ok p' ∧ CurAt h' p' A' i'
      ∧ p'.Percentile = p.Percentile
      ∧ (v ≤ (h.get i).Value → Retreated h' total p.Percentile
          (((dupSum h' A1 + (h'.get i).Duplications : Int) : ℚ) / total) A1 i B1 A' i' B')
      ∧ ((h.get i).Value < v → Advanced h' total p.Percentile A1 i B1 A' i' B') := by
  have hch := hinv'.chain
  rw [hT'] at hch
  obtain ⟨hsm0, hlg⟩ := chain_smaller_at hch
  have hsm : (h'.get i).Smaller = A1.getLast? := by
    rw [hsm0]
    cases A1.getLast? <;> rfl
  have hlen := hinv'.length_le
  rw [hT'] at hlen
  simp only [List.length_append, List.length_cons] at hlen
  by_cases hle : v ≤ (h.get i).Value
  · have hcount : p.Count + 1 = dupSum h' A1 + (h'.get i).Duplications := by
      rw [hcur.2]
      rcases lt_or_eq_of_le hle with hlt | heq
      · obtain ⟨e1, -, e2, -⟩ := hsh.below hlt
        rw [e1, e2]
        ring
      · obtain ⟨-, e1, e2, -⟩ := hsh.same heq
        rw [e1, e2]
        ring
    obtain ⟨p', A', i', B', he, hc', hp', hret⟩ := retreatEnqueue_spec h' total A1.length A1 i B1
      { p with Count := p.Count + 1, RealPercentage := ((p.Count + 1 : Int) : ℚ) / total }
      (((p.Count + 1 : Int) : ℚ) / total) h'.budget rfl hch ⟨hcur.1, hcount⟩
      (by unfold Heap.budget; omega)
    refine ⟨p', A', i', B', ?_, hc', hp', fun _ => ?_, fun hgt => absurd hle (not_le.mpr hgt)⟩
    · unfold cursorAfterInsert
      simp only [hcur.1, deref, bind, Except.bind, hsh.value, hle, ↓reduceIte, hsm]
      simp only [hcur.1] at he
      exact he
    · rw [← hcount]
      exact hret
  · obtain ⟨e1, e2, e3, -⟩ := hsh.above (not_le.mp hle)
    have hcount : p.Count = dupSum h' A1 + (h'.get i).Duplications := by
      rw [hcur.2, e2, e3]
    obtain ⟨p', A', i', B', he, hc', hp', hadv⟩ := advance_spec h' total ht B1 A1 i
      { p with RealPercentage := (p.Count : ℚ) / total } h'.budget none hch
      (fun x hx => hinv'.dups x (by rw [hT']; simp [hx])) ⟨hcur.1, hcount⟩
      (by unfold Heap.budget; omega)
    refine ⟨p', A', i', B', ?_, hc', hp', fun hle' => absurd hle' hle, fun _ => hadv⟩
    unfold cursorAfterInsert
    simp only [hcur.1, deref, bind, Except.bind, hsh.value, hle, ↓reduceIte, hlg]
    simp only [hcur.1] at he
    exact he

end Hist

namespace Hist

/-! ## A cursor after `Delete` of one sample -/

/-- The cursor loop of `Dequeue` on a cursor that stands above the node of the sample
taken out: the count goes down by one and the cursor walks forward. -/
theorem cursorAfterDelete_below {h' : Heap} {T' : Shape} (hinv' : TreeInv h' T') (total : ℚ)
    (ht : 0 < total) {p : PercentileItem} {item i : Nat} {A1 B : List Nat} (rem : Bool)
    (smaller larger : Ptr) (hT' : T'.ids = A1 ++ i :: B) (hp : p.Item = some i)
    (hne : item ≠ i) (hv : (h'.get item).Value < (h'.get i).Value)
    (hc : p.Count - 1 = dupSum h' A1 + (h'.get i).Duplications) :
    ∃ p' A' i' B', cursorAfterDelete h' total item rem smaller larger p = .ok p'
      ∧ CurAt h' p' A' i' ∧ p'.Percentile = p.Percentile
      ∧ Advanced h' total p.Percentile A1 i B A' i' B' := by
  have hch := hinv'.chain
  rw [hT'] at hch
  obtain ⟨-, hlg⟩ := chain_smaller_at hch
  have hlen := hinv'.length_le
  rw [hT'] at hlen
  simp only [List.length_append, List.length_cons] at hlen
  obtain ⟨p', A', i', B', he, hc', hp', hadv⟩ := advance_spec h' total ht B A1 i
    { p with Count := p.Count - 1, RealPercentage := ((p.Count - 1 : Int) : ℚ) / total }
    h'.budget none hch (fun x hx => hinv'.dups x (by rw [hT']; simp [hx])) ⟨hp, hc⟩
    (by unfold Heap.budget; omega)
  refine ⟨p', A', i', B', ?_, hc', hp', hadv⟩
  have h1 : ¬ (some item = some i) := fun e => hne (Option.some.inj e)
  have h2 : ¬ ((h'.get item).Value = (h'.get i).Value) := ne_of_lt hv
  unfold cursorAfterDelete
  simp only [hp, h1, decide_False, Bool.false_eq_true, ↓reduceIte, deref, bind, Except.bind,
    pure, Except.pure, hv.le, decide_True, h2, false_and, hlg]
  simp only [hp] at he
  exact he

/-- The cursor loop of `Dequeue` on a cursor that stands below the node of the sample
taken out: the count stays and the cursor walks backward. -/
theorem cursorAfterDelete_above {h' : Heap} {T' : Shape} (hinv' : TreeInv h' T') (total : ℚ)
    {p : PercentileItem} {item i : Nat} {A B1 : List Nat} (rem : Bool)
    (smaller larger : Ptr) (hT' : T'.ids = A ++ i :: B1) (hp : p.Item = some i)
    (hne : item ≠ i) (hv : (h'.get i).Value < (h'.get item).Value)
    (hc : p.Count = dupSum h' A + (h'.get i).Duplications) :
    ∃ p' A' i' B', cursorAfterDelete h' total item rem smaller larger p = .ok p'
      ∧ CurAt h' p' A' i' ∧ p'.Percentile = p.Percentile
      ∧ Retreated h' total p.Percentile
          (((dupSum h' A + (h'.get i).Duplications : Int) : ℚ) / total) A i B1 A' i' B' := by
  have hch := hinv'.chain
  rw [hT'] at hch
  obtain ⟨hsm0, -⟩ := chain_smaller_at hch
  have hsm : (h'.get i).Smaller = A.getLast? := by
    rw [hsm0]
    cases A.getLast? <;> rfl
  have hlen := hinv'.length_le
  rw [hT'] at hlen
  simp only [List.length_append, List.length_cons] at hlen
  obtain ⟨p', A', i', B', he, hc', hp', hret⟩ := retreatDequeue_spec h' total A.length A i B1
    { p with RealPercentage := (p.Count : ℚ) / total } ((p.Count : ℚ) / total)
    h'.budget rfl hch ⟨hp, hc⟩ (by unfold Heap.budget; omega)
  refine ⟨p', A', i', B', ?_, hc', hp', ?_⟩
  · have h1 : ¬ (some item = some i) := fun e => hne (Option.some.inj e)
    have h2 : ¬ ((h'.get item).Value ≤ (h'.get i).Value) := not_le.mpr hv
    have h3 : (h'.get item).Value > (h'.get i).Value := hv
    unfold cursorAfterDelete
    simp only [hp, h1, decide_False, Bool.false_eq_true, ↓reduceIte, deref, bind, Except.bind,
      pure, Except.pure, h2, h3, hsm]
    simp only [hp] at he
    exact he
  · rw [← hc]
    exact hret

/-- The cursor loop of `Dequeue` on a cursor that stands on the node of the sample taken
out, when the node stays in the tree: the count goes down by one and the cursor walks
forward. -/
theorem cursorAfterDelete_kept {h' : Heap} {T' : Shape} (hinv' : TreeInv h' T') (total : ℚ)
    (ht : 0 < total) {p : PercentileItem} {item : Nat} {A B : List Nat}
    (smaller larger : Ptr) (hT' : T'.ids = A ++ item :: B) (hp : p.Item = some item)
    (hc : p.Count - 1 = dupSum h' A + (h'.get item).Duplications) :
    ∃ p' A' i' B', cursorAfterDelete h' total item false smaller larger p = .ok p'
      ∧ CurAt h' p' A' i' ∧ p'.Percentile = p.Percentile
      ∧ Advanced h' total p.Percentile A item B A' i' B' := by
  have hch := hinv'.chain
  rw [hT'] at hch
  obtain ⟨-, hlg⟩ := chain_smaller_at hch
  have hlen := hinv'.length_le
  rw [hT'] at hlen
  simp only [List.length_append, List.length_cons] at hlen
  obtain ⟨p', A', i', B', he, hc', hp', hadv⟩ := advance_spec h' total ht B A item
    { p with Count := p.Count - 1, RealPercentage := ((p.Count - 1 : Int) : ℚ) / total }
    h'.budget none hch (fun x hx => hinv'.dups x (by rw [hT']; simp [hx])) ⟨hp, hc⟩
    (by unfold Heap.budget; omega)
  refine ⟨p', A', i', B', ?_, hc', hp', hadv⟩
  unfold cursorAfterDelete
  simp only [hp, decide_True, ↓reduceIte, bind, Except.bind, pure, Except.pure,
    Bool.false_eq_true, and_false, hlg]
  simp only [hp] at he
  exact he

/-- The cursor loop of `Dequeue` on a cursor that stands on the node taken out of the
tree, when there is a next node: the cursor goes to the next node, takes its
multiplicity into the count, and walks forward. -/
theorem cursorAfterDelete_next {h' : Heap} {T' : Shape} (hinv' : TreeInv h' T') (total : ℚ)
    (ht : 0 < total) {p : PercentileItem} {item l : Nat} {A B2 : List Nat}
    (smaller : Ptr) (hT' : T'.ids = A ++ l :: B2) (hp : p.Item = some item)
    (hc : p.Count - 1 = dupSum h' A) :
    ∃ p' A' i' B', cursorAfterDelete h' total item true smaller (some l) p = .ok p'
      ∧ CurAt h' p' A' i' ∧ p'.Percentile = p.Percentile
      ∧ Advanced h' total p.Percentile A l B2 A' i' B' := by
  have hch := hinv'.chain
  rw [hT'] at hch
  obtain ⟨-, hlg⟩ := chain_smaller_at hch
  have hlen := hinv'.length_le
  rw [hT'] at hlen
  simp only [List.length_append, List.length_cons] at hlen
  obtain ⟨p', A', i', B', he, hc', hp', hadv⟩ := advance_spec h' total ht B2 A l
    { p with Item := some l, Count := p.Count - 1 + (h'.get l).Duplications,
             RealPercentage := ((p.Count - 1 + (h'.get l).Duplications : Int) : ℚ) / total }
    h'.budget none hch (fun x hx => hinv'.dups x (by rw [hT']; simp [hx]))
    ⟨rfl, by show p.Count - 1 + (h'.get l).Duplications = _; rw [hc]⟩
    (by unfold Heap.budget; omega)
  refine ⟨p', A', i', B', ?_, hc', hp', hadv⟩
  unfold cursorAfterDelete
  simp only [hp, decide_True, ↓reduceIte, bind, Except.bind, pure, Except.pure, and_self, hlg]
  exact he

/-- The cursor loop of `Dequeue` on a cursor that stands on the node taken out of the
tree, when that was the last node of the chain: the cursor goes to the node before. -/
theorem cursorAfterDelete_last {h' : Heap} {T' : Shape} (hinv' : TreeInv h' T') (total : ℚ)
    {p : PercentileItem} {item s : Nat} {A2 : List Nat}
    (hT' : T'.ids = A2 ++ [s]) (hp : p.Item = some item)
    (hc : p.Count - 1 = dupSum h' A2 + (h'.get s).Duplications) :
    ∃ p', cursorAfterDelete h' total item true (some s) none p = .ok p'
      ∧ CurAt h' p' A2 s ∧ p'.Percentile = p.Percentile := by
  have hch := hinv'.chain
  rw [hT'] at hch
  obtain ⟨-, hlg⟩ := chain_smaller_at hch
  simp only [List.head?_nil] at hlg
  refine ⟨{ p with Item := some s, Count := p.Count - 1,
                   RealPercentage := ((p.Count - 1 : Int) : ℚ) / total }, ?_, ⟨rfl, hc⟩, rfl⟩
  unfold cursorAfterDelete
  simp only [hp, decide_True, ↓reduceIte, bind, Except.bind, pure, Except.pure, and_self, hlg]
  unfold advance
  rfl

end Hist

namespace Hist

/-! ## A cursor through `Delete`, from the chain before to the chain after -/

theorem mapM_forall {α β : Type} {f : α → Except Fault β} {Q : α → β → Prop} :
    ∀ (l : List α), (∀ a ∈ l, ∃ b, f a = .ok b ∧ Q a b) →
    ∃ l', l.mapM f = .ok l' ∧ List.Forall₂ Q l l'
  | [], _ => ⟨[], rfl, List.Forall₂.nil⟩
  | a :: as, hl => by
    obtain ⟨b, hb, hq⟩ := hl a (by simp)
    obtain ⟨bs, hbs, hqs⟩ := mapM_forall as (fun x hx => hl x (by simp [hx]))
    refine ⟨b :: bs, ?_, List.Forall₂.cons hq hqs⟩
    rw [List.mapM_cons, hb, hbs]
    rfl

theorem dupSum_shift {h h' : Heap} {l : List Nat} {t : Nat} {d : Int} (hnd : l.Nodup)
    (ht : t ∈ l) (hd : (h'.get t).Duplications = (h.get t).Duplications + d)
    (ho : ∀ i ∈ l, i ≠ t → (h'.get i).Duplications = (h.get i).Duplications) :
    dupSum h' l = dupSum h l + d := by
  obtain ⟨X, Y, rfl⟩ := List.append_of_mem ht
  refine dupSum_update hnd hd (fun i hi => ho i ?_ ?_)
  · simp only [List.mem_append, List.mem_cons] at hi ⊢
    tauto
  · intro e
    subst e
    have := List.nodup_middle.mp hnd
    simp only [List.nodup_cons, List.mem_append] at this
    simp only [List.mem_append] at hi
    tauto

/-- The cursor loop of `Dequeue` on a cursor of the tree, when `Delete` only lowered the
multiplicity of the node of the sample. -/
theorem cursor_dequeue_dup {h h' : Heap} {T : Shape} {item : Nat} (hinv : TreeInv h T)
    (hinv' : TreeInv h' T)
    (hsame : ∀ j ∈ T.ids, (h'.get j).Value = (h.get j).Value
      ∧ (h'.get j).Duplications = (h.get j).Duplications - (if j = item then 1 else 0))
    (total : ℚ) (ht : 0 < total) {p : PercentileItem} {A : List Nat} {i : Nat} {B : List Nat}
    (hT : T.ids = A ++ i :: B) (hitem : item ∈ T.ids) (hcur : CurAt h p A i)
    (smaller larger : Ptr) :
    ∃ p' A' i' B', cursorAfterDelete h' total item false smaller larger p = .ok p'
      ∧ CurAt h' p' A' i' ∧ p'.Percentile = p.Percentile
      ∧ Dropped h h' total p.Percentile item false A i B A' i' B'
      ∧ T.ids = A' ++ i' :: B' := by
  have hnd := hinv.nodup
  have hs := hinv.sorted
  rw [hT] at hnd hs hitem
  have hndA : A.Nodup := (List.nodup_append.mp hnd).1
  have hiA : i ∉ A := fun hm => (List.nodup_append.mp hnd).2.2 hm (by simp)
  have hiB : i ∉ B := (List.nodup_cons.mp (List.nodup_append.mp hnd).2.1).1
  have hAB : ∀ a ∈ A, a ∉ B := fun a ha hb => (List.nodup_append.mp hnd).2.2 ha (by simp [hb])
  have hmemA : ∀ x ∈ A, x ∈ T.ids := fun x hx => by rw [hT]; simp [hx]
  have hmemB : ∀ x ∈ B, x ∈ T.ids := fun x hx => by rw [hT]; simp [hx]
  have hmemi : i ∈ T.ids := by rw [hT]; simp
  have hval : ∀ j ∈ T.ids, (h'.get j).Value = (h.get j).Value := fun j hj => (hsame j hj).1
  have hdup : ∀ j ∈ T.ids, j ≠ item → (h'.get j).Duplications = (h.get j).Duplications := by
    intro j hj hne
    rw [(hsame j hj).2, if_neg hne]
    ring
  have hdi : (h'.get item).Duplications = (h.get item).Duplications + -1 := by
    rw [(hsame item (by rw [hT]; exact hitem)).2, if_pos rfl]
    ring
  simp only [List.mem_append, List.mem_cons] at hitem
  rcases hitem with hA | rfl | hB
  · have hne : item ≠ i := fun e => hiA (e ▸ hA)
    have hsA : dupSum h' A = dupSum h A - 1 :=
      dupSum_shift hndA hA hdi (fun x hx hxi => hdup x (hmemA x hx) hxi)
    have hdi' := hdup i hmemi (Ne.symm hne)
    have hv : (h'.get item).Value < (h'.get i).Value := by
      rw [hval item (hmemA item hA), hval i hmemi]
      exact sorted_before hs item hA
    obtain ⟨p', A', i', B', he, hc', hp', hadv⟩ := cursorAfterDelete_below hinv' total ht false
      smaller larger hT hcur.1 hne hv (by rw [hcur.2, hsA, hdi']; ring)
    exact ⟨p', A', i', B', he, hc', hp', Dropped.below A hA hsA (by simp) hdi'
      (fun x hx => hdup x (hmemB x hx) (fun e => hAB item hA (e ▸ hx))) hadv,
      hT.trans hadv.whole.symm⟩
  · have hsA : dupSum h' A = dupSum h A :=
      dupSum_congr (fun x hx => hdup x (hmemA x hx) (fun e => hiA (e ▸ hx)))
    obtain ⟨p', A', i', B', he, hc', hp', hadv⟩ := cursorAfterDelete_kept hinv' total ht
      smaller larger hT hcur.1 (by rw [hcur.2, hsA, hdi]; ring)
    exact ⟨p', A', i', B', he, hc', hp', Dropped.kept rfl rfl hsA (by rw [hdi]; ring)
      (fun x hx => hdup x (hmemB x hx) (fun e => hiB (e ▸ hx))) hadv,
      hT.trans hadv.whole.symm⟩
  · have hne : item ≠ i := fun e => hiB (e ▸ hB)
    have hsA : dupSum h' A = dupSum h A :=
      dupSum_congr (fun x hx => hdup x (hmemA x hx) (fun e => hAB x hx (e ▸ hB)))
    have hdi' := hdup i hmemi (Ne.symm hne)
    have hv : (h'.get i).Value < (h'.get item).Value := by
      rw [hval item (hmemB item hB), hval i hmemi]
      exact sorted_after hs item hB
    obtain ⟨p', A', i', B', he, hc', hp', hret⟩ := cursorAfterDelete_above hinv' total false
      smaller larger hT hcur.1 hne hv (by rw [hcur.2, hsA, hdi'])
    refine ⟨p', A', i', B', he, hc', hp', Dropped.above B hB hsA hdi' (fun x hx => ⟨x, hx, ?_⟩)
      hret, hT.trans hret.whole.symm⟩
    have hxB : x ∈ B := List.mem_of_mem_head? hx
    rw [(hsame x (hmemB x hxB)).2]
    split <;> omega

/-- The cursor loop of `Dequeue` on a cursor of the tree, when `Delete` took the node of
the sample out of the tree and left a tree. -/
theorem cursor_dequeue_rem {h h' : Heap} {T T' : Shape} {item : Nat} (hinv : TreeInv h T)
    (hrem : Removed h h' T T' item) {X Y : List Nat} (hX : T.ids = X ++ item :: Y)
    (hX' : T'.ids = X ++ Y) (hd1 : (h.get item).Duplications = 1) (hne' : T'.ids ≠ [])
    (total : ℚ) (ht : 0 < total) {p : PercentileItem} {A : List Nat} {i : Nat} {B : List Nat}
    (hT : T.ids = A ++ i :: B) (hcur : CurAt h p A i) :
    ∃ p' A' i' B', cursorAfterDelete h' total item true (h.get item).Smaller
        (h.get item).Larger p = .ok p'
      ∧ CurAt h' p' A' i' ∧ p'.Percentile = p.Percentile
      ∧ Dropped h h' total p.Percentile item true A i B A' i' B'
      ∧ T'.ids = A' ++ i' :: B' := by
  have hinv' := hrem.inv
  have hs := hinv.sorted
  have hch := hinv.chain
  rw [hX] at hch
  obtain ⟨hsm0, hlg⟩ := chain_smaller_at hch
  have hsm : (h.get item).Smaller = X.getLast? := by
    rw [hsm0]
    cases X.getLast? <;> rfl
  rw [hsm, hlg]
  have hval : ∀ j, (h'.get j).Value = (h.get j).Value := fun j => (hrem.same j).1
  have hdup : ∀ j, (h'.get j).Duplications = (h.get j).Duplications := fun j => (hrem.same j).2
  have hsum : ∀ l, dupSum h' l = dupSum h l := fun l => dupSum_congr (fun j _ => hdup j)
  have hself : X = A → i = item → Y = B →
      ∃ p' A' i' B', cursorAfterDelete h' total item true X.getLast? Y.head? p = .ok p'
        ∧ CurAt h' p' A' i' ∧ p'.Percentile = p.Percentile
        ∧ Dropped h h' total p.Percentile item true A i B A' i' B'
        ∧ T'.ids = A' ++ i' :: B' := by
    intro e1 e2 e3
    subst e1 e2 e3
    cases Y with
    | cons l B2 =>
      obtain ⟨p', A', i', B', he, hc', hp', hadv⟩ := cursorAfterDelete_next hinv' total ht
        X.getLast? hX' hcur.1 (by rw [hcur.2, hd1, hsum]; ring)
      exact ⟨p', A', i', B', he, hc', hp',
        Dropped.next l B2 rfl rfl hd1 rfl (hsum X) (fun x _ => hdup x) hadv,
        hX'.trans hadv.whole.symm⟩
    | nil =>
      simp only [List.append_nil] at hX'
      rcases List.eq_nil_or_concat X with e | ⟨A2, s, e⟩
      · rw [hX', e] at hne'
        exact absurd rfl hne'
      · rw [List.concat_eq_append] at e
        subst e
        obtain ⟨p', he, hc', hp'⟩ := cursorAfterDelete_last hinv' total hX' hcur.1
          (by rw [hcur.2, hd1, dupSum_append, dupSum_cons, dupSum_nil, hsum, hdup]; ring)
        refine ⟨p', A2, s, [], ?_, hc', hp', Dropped.last rfl rfl hd1 rfl rfl rfl (hsum _),
          hX'⟩
        simpa using he
  have e := hT.symm.trans hX
  rcases List.append_eq_append_iff.mp e with ⟨M, e1, e2⟩ | ⟨M, e1, e2⟩
  · cases M with
    | nil =>
      simp only [List.nil_append] at e2
      simp only [List.append_nil] at e1
      injection e2 with e3 e4
      exact hself e1 e3 e4.symm
    | cons m M =>
      injection e2 with e3 e4
      subst e3
      have e5 : B = M ++ item :: Y := e4
      have hB : item ∈ B := by rw [e5]; simp
      have hT' : T'.ids = A ++ i :: (M ++ Y) := by rw [hX', e1]; simp
      have hne : item ≠ i := by
        intro e6
        have hnd := hinv.nodup
        rw [hT] at hnd
        exact (List.nodup_cons.mp (List.nodup_append.mp hnd).2.1).1 (e6 ▸ hB)
      have hv : (h'.get i).Value < (h'.get item).Value := by
        rw [hval, hval]
        rw [hT] at hs
        exact sorted_after hs item hB
      obtain ⟨p', A', i', B', he, hc', hp', hret⟩ := cursorAfterDelete_above hinv' total true
        X.getLast? Y.head? hT' hcur.1 hne hv (by rw [hcur.2, hsum, hdup])
      refine ⟨p', A', i', B', he, hc', hp', Dropped.above (M ++ Y) hB (hsum A) (hdup i)
        (fun x hx => ?_) hret, hT'.trans hret.whole.symm⟩
      cases M with
      | nil =>
        refine ⟨item, by rw [e5]; simp, ?_⟩
        have hx' : x ∈ T'.ids := by
          rw [hT']
          simp only [List.nil_append] at hx ⊢
          simp [List.mem_of_mem_head? hx]
        have := hinv'.dups x hx'
        omega
      | cons m' M' =>
        simp only [List.cons_append, List.head?_cons, Option.mem_def, Option.some.injEq] at hx
        subst hx
        refine ⟨m', by rw [e5]; simp, ?_⟩
        rw [hdup]
        omega
  · cases M with
    | nil =>
      simp only [List.nil_append] at e2
      simp only [List.append_nil] at e1
      injection e2 with e3 e4
      exact hself e1.symm e3.symm e4
    | cons m M =>
      injection e2 with e3 e4
      subst e3
      have e5 : Y = M ++ i :: B := e4
      have hA : item ∈ A := by rw [e1]; simp
      have hT' : T'.ids = (X ++ M) ++ i :: B := by rw [hX', e5]; simp
      have hne : item ≠ i := by
        intro e6
        have hnd := hinv.nodup
        rw [hT] at hnd
        exact (List.nodup_append.mp hnd).2.2 hA (by simp [e6])
      have hv : (h'.get item).Value < (h'.get i).Value := by
        rw [hval, hval]
        rw [hT] at hs
        exact sorted_before hs item hA
      have hsA : dupSum h' (X ++ M) = dupSum h A - 1 := by
        rw [hsum, e1]
        simp only [dupSum_append, dupSum_cons, hd1]
        ring
      obtain ⟨p', A', i', B', he, hc', hp', hadv⟩ := cursorAfterDelete_below hinv' total ht true
        X.getLast? Y.head? hT' hcur.1 hne hv (by rw [hcur.2, hsA, hdup]; ring)
      exact ⟨p', A', i', B', he, hc', hp', Dropped.below (X ++ M) hA hsA
        (by rw [e1]; simp; omega) (hdup i) (fun x _ => hdup x) hadv,
        hT'.trans hadv.whole.symm⟩

end Hist

namespace Hist

/-! ## The cursors after `Dequeue` and `Enqueue` -/

/-- The cursors after `Dequeue` took a node out of the tree and left the root `r0`. -/
theorem Dequeue_cursors_rem (hs : Histogram) (item : Nat) (rest : List Nat) (rep : Ptr)
    (r0 : Nat) (heap : Heap) (hq : hs.Queue = item :: rest)
    (hd : Delete hs.heap item = .ok (rep, some r0, heap))
    (ht : 0 < ((heap.get r0).Count : ℚ))
    (r : Ptr) (hs' : Histogram) (he : hs.Dequeue = .ok (r, hs')) :
    hs.Percentiles.mapM (cursorAfterDelete heap ((heap.get r0).Count : ℚ) item true
      (hs.heap.get item).Smaller (hs.heap.get item).Larger) = .ok hs'.Percentiles := by
  unfold Histogram.Dequeue at he
  rw [hq] at he
  simp only [hd, bind, Except.bind, pure, Except.pure] at he
  have hrem : ((some r0 : Ptr) ≠ none ∨ (some r0 : Ptr) = none ∧ rep = none) := Or.inl (by simp)
  simp only [hrem, decide_True, ↓reduceIte] at he
  cases hb : hs.BucketHistogram.Delete heap item with
  | error e => simp [hb] at he
  | ok b =>
    simp only [hb] at he
    have ht' : ((heap.get r0).Count : ℚ) > 0 := ht
    simp only [ht', ↓reduceIte] at he
    split at he
    · cases he
    · rename_i ps hps
      injection he with he
      injection he with e1 e2
      subst e2
      rw [hps]
      congr 1
      split
      · rfl
      · split <;> rfl

/-- The cursors after `Dequeue` lowered the multiplicity of a node, under the root
`r0`. -/
theorem Dequeue_cursors_dup (hs : Histogram) (item : Nat) (rest : List Nat) (rep nr : Ptr)
    (r0 : Nat) (heap : Heap) (hq : hs.Queue = item :: rest)
    (hd : Delete hs.heap item = .ok (rep, nr, heap))
    (hrem : ¬ (nr ≠ none ∨ nr = none ∧ rep = none)) (hr : hs.RootItem = some r0)
    (ht : 0 < ((heap.get r0).Count : ℚ))
    (r : Ptr) (hs' : Histogram) (he : hs.Dequeue = .ok (r, hs')) :
    hs.Percentiles.mapM (cursorAfterDelete heap ((heap.get r0).Count : ℚ) item false
      (hs.heap.get item).Smaller (hs.heap.get item).Larger) = .ok hs'.Percentiles := by
  unfold Histogram.Dequeue at he
  rw [hq] at he
  simp only [hd, bind, Except.bind, pure, Except.pure] at he
  have ht' : ((heap.get r0).Count : ℚ) > 0 := ht
  simp only [hrem, decide_False, ↓reduceIte, Bool.false_eq_true, hr, ht'] at he
  split at he
  · cases he
  · rename_i ps hps
    injection he with he
    injection he with e1 e2
    subst e2
    rw [hps]
    congr 1
    split
    · rfl
    · split <;> rfl

/-- The cursors after `Dequeue` took the last node out of the tree: they stay as they
were. -/
theorem Dequeue_cursors_empty (hs : Histogram) (item : Nat) (rest : List Nat) (rep nr : Ptr)
    (heap : Heap) (hq : hs.Queue = item :: rest)
    (hd : Delete hs.heap item = .ok (rep, nr, heap)) (hnr : nr = none) (hrep : rep = none)
    (r : Ptr) (hs' : Histogram) (he : hs.Dequeue = .ok (r, hs')) :
    hs'.Percentiles = hs.Percentiles := by
  unfold Histogram.Dequeue at he
  rw [hq] at he
  simp only [hd, bind, Except.bind, pure, Except.pure] at he
  have hrem : (nr ≠ none ∨ nr = none ∧ rep = none) := Or.inr ⟨hnr, hrep⟩
  simp only [hrem, decide_True, ↓reduceIte] at he
  cases hb : hs.BucketHistogram.Delete heap item with
  | error e => simp [hb] at he
  | ok b =>
    have ht' : ¬ ((0 : ℚ) > 0) := lt_irrefl _
    simp only [hb, hnr, ht', ↓reduceIte, pure, Except.pure] at he
    injection he with he
    injection he with e1 e2
    subst e2
    split
    · rfl
    · split <;> rfl

/-- `Enqueue` on a histogram with a tree: the state before the window is cut, with its
cursors. -/
theorem Enqueue_some_cursors (hs : Histogram) (x : ℚ) (c : Int) (root item mn mx : Nat)
    (nr : Ptr) (heap : Heap) (hr : hs.RootItem = some root)
    (hins : Insert hs.heap.budget hs.heap root (hs.UnifiedValue x) c = .ok (item, nr, heap))
    (hmn : hs.MinItem = some mn) (hmx : hs.MaxItem = some mx)
    (r : Ptr) (hs' : Histogram) (he : hs.Enqueue x c = .ok (r, hs')) :
    ∃ hs4 : Histogram,
      hs4.Alike ((enqueueTree hs item (adoptRoot nr root) (adoptEnd (heap.get mn).Smaller mn)
        (adoptEnd (heap.get mx).Larger mx) heap c).momentsAfterEnqueue (hs.UnifiedValue x) c)
      ∧ evictLoop (hs4.Count - hs4.QueueSize).toNat hs4 none = .ok (r, hs')
      ∧ hs.Percentiles.mapM (cursorAfterInsert heap ((heap.get (adoptRoot nr root)).Count : ℚ)
          (hs.UnifiedValue x)) = .ok hs4.Percentiles := by
  unfold Histogram.Enqueue at he
  simp only [hr, hins, hmn, hmx, deref, bind, Except.bind, pure, Except.pure] at he
  have key : ∀ (hs4 : Histogram) (n : Nat), evictLoop n hs4 none = .ok (r, hs') →
      n = (hs4.Count - hs4.QueueSize).toNat →
      hs4.Alike ((enqueueTree hs item (adoptRoot nr root) (adoptEnd (heap.get mn).Smaller mn)
        (adoptEnd (heap.get mx).Larger mx) heap c).momentsAfterEnqueue (hs.UnifiedValue x) c) →
      hs.Percentiles.mapM (cursorAfterInsert heap ((heap.get (adoptRoot nr root)).Count : ℚ)
          (hs.UnifiedValue x)) = .ok hs4.Percentiles →
      ∃ hs4 : Histogram,
        hs4.Alike ((enqueueTree hs item (adoptRoot nr root) (adoptEnd (heap.get mn).Smaller mn)
          (adoptEnd (heap.get mx).Larger mx) heap c).momentsAfterEnqueue (hs.UnifiedValue x) c)
        ∧ evictLoop (hs4.Count - hs4.QueueSize).toNat hs4 none = .ok (r, hs')
        ∧ hs.Percentiles.mapM (cursorAfterInsert heap
            ((heap.get (adoptRoot nr root)).Count : ℚ) (hs.UnifiedValue x))
          = .ok hs4.Percentiles :=
    fun hs4 n h1 h2 h3 h4 => ⟨hs4, h3, h2 ▸ h1, h4⟩
  cases nr with
  | none =>
    split at he
    · cases he
    · rename_i ps hps
      split at he
      · split at he
        · cases he
        · exact key _ _ he rfl ⟨rfl, rfl, rfl, rfl, rfl, rfl,
            by cases (heap.get mn).Smaller <;> rfl, by cases (heap.get mx).Larger <;> rfl,
            rfl, rfl⟩ hps
      · exact key _ _ he rfl ⟨rfl, rfl, rfl, rfl, rfl, rfl,
          by cases (heap.get mn).Smaller <;> rfl, by cases (heap.get mx).Larger <;> rfl,
          rfl, rfl⟩ hps
  | some r1 =>
    split at he
    · cases he
    · rename_i ps hps
      split at he
      · split at he
        · cases he
        · exact key _ _ he rfl ⟨rfl, rfl, rfl, rfl, rfl, rfl,
            by cases (heap.get mn).Smaller <;> rfl, by cases (heap.get mx).Larger <;> rfl,
            rfl, rfl⟩ hps
      · exact key _ _ he rfl ⟨rfl, rfl, rfl, rfl, rfl, rfl,
          by cases (heap.get mn).Smaller <;> rfl, by cases (heap.get mx).Larger <;> rfl,
          rfl, rfl⟩ hps

/-- `Enqueue` on a histogram without a tree: the state before the window is cut, with
its cursors, all on the new node. -/
theorem Enqueue_none_cursors (hs : Histogram) (x : ℚ) (c : Int) (hr : hs.RootItem = none)
    (r : Ptr) (hs' : Histogram) (he : hs.Enqueue x c = .ok (r, hs')) :
    ∃ hs4 : Histogram,
      hs4.Alike ((enqueueTree hs hs.heap.size hs.heap.size hs.heap.size hs.heap.size
        (hs.heap.alloc { NewHistogramItem (hs.UnifiedValue x) with Duplications := c }).2
        c).momentsAfterEnqueue (hs.UnifiedValue x) c)
      ∧ evictLoop (hs4.Count - hs4.QueueSize).toNat hs4 none = .ok (r, hs')
      ∧ hs4.Percentiles = hs.Percentiles.map fun p =>
          { p with Item := some hs.heap.size, Count := c, RealPercentage := 1 } := by
  unfold Histogram.Enqueue at he
  simp only [hr, bind, Except.bind, pure, Except.pure] at he
  have key : ∀ (hs4 : Histogram) (n : Nat), evictLoop n hs4 none = .ok (r, hs') →
      n = (hs4.Count - hs4.QueueSize).toNat →
      hs4.Alike ((enqueueTree hs hs.heap.size hs.heap.size hs.heap.size hs.heap.size
        (hs.heap.alloc { NewHistogramItem (hs.UnifiedValue x) with Duplications := c }).2
        c).momentsAfterEnqueue (hs.UnifiedValue x) c) →
      (hs4.Percentiles = hs.Percentiles.map fun p =>
          { p with Item := some hs.heap.size, Count := c, RealPercentage := 1 }) →
      ∃ hs4 : Histogram,
        hs4.Alike ((enqueueTree hs hs.heap.size hs.heap.size hs.heap.size hs.heap.size
          (hs.heap.alloc { NewHistogramItem (hs.UnifiedValue x) with Duplications := c }).2
          c).momentsAfterEnqueue (hs.UnifiedValue x) c)
        ∧ evictLoop (hs4.Count - hs4.QueueSize).toNat hs4 none = .ok (r, hs')
        ∧ hs4.Percentiles = hs.Percentiles.map fun p =>
          { p with Item := some hs.heap.size, Count := c, RealPercentage := 1 } :=
    fun hs4 n h1 h2 h3 h4 => ⟨hs4, h3, h2 ▸ h1, h4⟩
  split at he
  · split at he
    · cases he
    · exact key _ _ he rfl ⟨rfl, rfl, rfl, rfl, rfl, rfl, rfl, rfl, rfl, rfl⟩ rfl
  · exact key _ _ he rfl ⟨rfl, rfl, rfl, rfl, rfl, rfl, rfl, rfl, rfl, rfl⟩ rfl

end Hist

namespace Hist

/-! ## The cursors of a histogram through `Dequeue` -/

theorem mapM_inv_forall {α β : Type} {f : α → Except Fault β} {Q : α → β → Prop} :
    ∀ (l : List α) (l' : List β), l.mapM f = .ok l' →
    (∀ a ∈ l, ∀ b, f a = .ok b → Q a b) → List.Forall₂ Q l l'
  | [], l', he, _ => by
    simp only [List.mapM_nil, pure, Except.pure] at he
    injection he with he
    subst he
    exact List.Forall₂.nil
  | a :: as, l', he, hq => by
    rw [List.mapM_cons] at he
    obtain ⟨b, hb, he⟩ := bind_ok he
    obtain ⟨bs, hbs, he⟩ := bind_ok he
    simp only [pure, Except.pure] at he
    injection he with he
    subst he
    exact List.Forall₂.cons (hq a (by simp) b hb)
      (mapM_inv_forall as bs hbs (fun x hx => hq x (by simp [hx])))

theorem dupSum_pos {h : Heap} : ∀ {l : List Nat}, l ≠ [] →
    (∀ i ∈ l, 1 ≤ (h.get i).Duplications) → 0 < dupSum h l
  | [], hne, _ => absurd rfl hne
  | [a], _, hd => by
    have := hd a (by simp)
    simp only [dupSum_cons, dupSum_nil]
    omega
  | a :: b :: l, _, hd => by
    have h1 := hd a (by simp)
    have h2 := @dupSum_pos h (b :: l) (by simp) (fun i hi => hd i (by simp [hi]))
    rw [dupSum_cons]
    omega

theorem TreeInv.total_pos {h : Heap} {T : Shape} (hinv : TreeInv h T) (hne : T.ids ≠ []) :
    (0 : ℚ) < ((dupSum h T.ids : Int) : ℚ) := by
  have := dupSum_pos hne hinv.dups
  exact_mod_cast this

theorem Counted.root_count {h : Heap} {T : Shape} (hc : Counted h T) {r0 : Nat}
    (hr : T.root = some r0) : (h.get r0).Count = dupSum h T.ids := by
  have := hc.cnt_root
  rw [hr] at this
  exact this

/-- The cursors of a histogram after `Dequeue` left a tree: each cursor stands on a node
of the new chain with its count, where the walk of `Dequeue` took it. -/
theorem Dequeue_cursors {hs : Histogram} {T : Shape} (hi : HistInv hs T)
    (hcur : CursorsOK hs T.ids) {item : Nat} {rest : List Nat} (hq : hs.Queue = item :: rest)
    {r : Ptr} {hs' : Histogram} (he : hs.Dequeue = .ok (r, hs')) {T' : Shape}
    (hi' : HistInv hs' T') (hc' : Counted hs'.heap T') (hne : T'.ids ≠ []) :
    ∃ rem, List.Forall₂ (DequeueStep hs.heap hs'.heap T.ids T'.ids
      ((dupSum hs'.heap T'.ids : Int) : ℚ) item rem) hs.Percentiles hs'.Percentiles := by
  have hitem : item ∈ T.ids := hi.mem_of_queue (by rw [hq]; simp)
  obtain ⟨rep, nr, heap, hd, hpost⟩ := Delete_spec hs.heap T item hi.inv hitem
  obtain ⟨-, halike⟩ := Dequeue_cons hs item rest rep nr heap hq hd r hs' he
  have hheap : hs'.heap = heap := by rw [halike.1, dequeueCore_heap]
  have hroot : hs'.RootItem = if nr ≠ none ∨ (nr = none ∧ rep = none) then nr
      else hs.RootItem := by rw [halike.2.2.1, dequeueCore_RootItem]
  have htot := hi'.inv.total_pos hne
  obtain ⟨r0, hr0⟩ : ∃ r0, T'.root = some r0 := by
    cases e : T'.root with
    | none =>
      rw [Shape.root_eq_none.mp e] at hne
      exact absurd rfl hne
    | some r0 => exact ⟨r0, rfl⟩
  have hcount := hc'.root_count hr0
  have hinvT' : TreeInv heap T' := hheap ▸ hi'.inv
  rw [hheap] at hcount hc' htot ⊢
  rcases hpost with ⟨hd1, e1, e2, hinv', hsz, hsame, -⟩ | ⟨hd1, hT, e1, e2, eh⟩
      | ⟨hd1, T'', hrem, e2, hne'', hiff⟩
  · subst e1 e2
    have hnrem : ¬ ((none : Ptr) ≠ none ∨ ((none : Ptr) = none ∧ some item = none)) := by simp
    rw [if_neg hnrem] at hroot
    have hTT : T' = T := by
      rw [← hinvT'.shape_eq, ← hinv'.shape_eq, ← hi'.root, hroot, hi.root]
    subst hTT
    have hr : hs.RootItem = some r0 := by rw [hi.root, hr0]
    have hm := Dequeue_cursors_dup hs item rest (some item) none r0 heap hq hd hnrem hr
      (by rw [hcount]; exact htot) r hs' he
    rw [hcount] at hm
    refine ⟨false, mapM_inv_forall _ _ hm (fun p hp p' hp' => ?_)⟩
    obtain ⟨A, i, B, hT, hca⟩ := hcur p hp
    obtain ⟨p1, A', i', B', h1, h2, h3, h4, h5⟩ := cursor_dequeue_dup hi.inv hinv'
      (fun j hj => by
        obtain ⟨a, b⟩ := hsame j hj
        exact ⟨a, b⟩) _ htot hT hitem hca
      (hs.heap.get item).Smaller (hs.heap.get item).Larger
    rw [hp'] at h1
    injection h1 with h1
    subst h1
    exact ⟨h3, A, i, B, A', i', B', hT, hca, h5, h2, h4⟩
  · subst e1 e2
    have hrem : ((none : Ptr) ≠ none ∨ ((none : Ptr) = none ∧ (none : Ptr) = none)) :=
      Or.inr ⟨rfl, rfl⟩
    rw [if_pos hrem, hi'.root, hr0] at hroot
    cases hroot
  · have hrem' : (nr ≠ none ∨ (nr = none ∧ rep = none)) := Or.inl (by rw [e2]; exact hne'')
    rw [if_pos hrem', e2] at hroot
    have hTT : T' = T'' := by
      rw [← hinvT'.shape_eq, ← hrem.inv.shape_eq, ← hi'.root, hroot]
    subst hTT
    rw [e2, hr0] at hd
    have hm := Dequeue_cursors_rem hs item rest rep r0 heap hq hd
      (by rw [hcount]; exact htot) r hs' he
    rw [hcount] at hm
    obtain ⟨X, Y, hX, hX'⟩ := hrem.ids
    refine ⟨true, mapM_inv_forall _ _ hm (fun p hp p' hp' => ?_)⟩
    obtain ⟨A, i, B, hT, hca⟩ := hcur p hp
    obtain ⟨p1, A', i', B', h1, h2, h3, h4, h5⟩ := cursor_dequeue_rem hi.inv hrem hX hX' hd1
      hne _ htot hT hca
    rw [hp'] at h1
    injection h1 with h1
    subst h1
    exact ⟨h3, A, i, B, A', i', B', hT, hca, h5, h2, h4⟩

end Hist

namespace Hist

/-! ## The cursors of a histogram through the insert of `Enqueue` -/

/-- The cursors of a histogram with a tree after the insert and the cursor loop of
`Enqueue` of one sample, before the window is cut: each cursor stands on a node of the
new chain with its count, where the walk of `Enqueue` took it. -/
theorem Enqueue_cursors {hs : Histogram} {T : Shape} (hi : HistInv hs T)
    (hc : Counted hs.heap T) (hcur : CursorsOK hs T.ids) (hne : T.ids ≠ []) (x : ℚ)
    {r : Ptr} {hs' : Histogram} (he : hs.Enqueue x 1 = .ok (r, hs')) :
    ∃ hs4 T4, HistInv hs4 T4 ∧ Counted hs4.heap T4
      ∧ evictLoop (hs4.Count - hs4.QueueSize).toNat hs4 none = .ok (r, hs')
      ∧ hs4.QueueSize = hs.QueueSize ∧ hs4.Count = hs.Count + 1 ∧ T4.ids ≠ []
      ∧ List.Forall₂ (EnqueueStep hs.heap hs4.heap T.ids T4.ids
          ((dupSum hs4.heap T4.ids : Int) : ℚ) (hs.UnifiedValue x))
          hs.Percentiles hs4.Percentiles := by
  obtain ⟨root, hroot⟩ : ∃ root, T.root = some root := by
    cases e : T.root with
    | none =>
      rw [Shape.root_eq_none.mp e] at hne
      exact absurd rfl hne
    | some r0 => exact ⟨r0, rfl⟩
  have hr : hs.RootItem = some root := hi.root.trans hroot
  obtain ⟨item, nr, heap, mn, mx, T', hins, hmn, hmx, hcore, hcnt, -⟩ :=
    enqueue_inv_some hi (hs.UnifiedValue x) 1 (le_refl _) hr
  obtain ⟨item2, nr2, heap2, T2, hins2, hpost⟩ :=
    Insert_spec hs.heap T root (hs.UnifiedValue x) 1 (le_refl _) hi.inv hroot
  rw [hins] at hins2
  injection hins2 with e
  injection e with e1 e
  injection e with e2 e3
  subst e1 e2 e3
  obtain ⟨hs4, halike, hev, hm⟩ :=
    Enqueue_some_cursors hs x 1 root item mn mx nr heap hr hins hmn hmx r hs' he
  have hi4 : HistInv hs4 T' := HistInv.of_alike halike hcore
  have hheap : hs4.heap = heap := by rw [halike.1, enqueueCore_heap]
  have hT2 : T2 = T' := by
    rw [← hpost.inv.shape_eq, ← hcore.inv.shape_eq, ← hcore.root]
    show heap.shape T2.root = heap.shape (some (adoptRoot nr root))
    rw [hpost.root, hroot]
    cases nr <;> rfl
  subst hT2
  have hc4 : Counted heap T2 := hcnt hc rfl
  have hne4 : T2.ids ≠ [] := by
    rcases hpost.ids with ⟨-, e, -⟩ | ⟨-, -, -, A, B, -, e⟩
    · rw [e]
      exact hne
    · rw [e]
      simp
  have hroot4 : T2.root = some (adoptRoot nr root) := by
    rw [hpost.root, hroot]
    cases nr <;> rfl
  have hcount := hc4.root_count hroot4
  have htot := hpost.inv.total_pos hne4
  rw [hcount] at hm
  refine ⟨hs4, T2, hi4, hheap ▸ hc4, hev, ?_, ?_, hne4, ?_⟩
  · rw [halike.2.2.2.1, enqueueCore_QueueSize]
  · rw [halike.2.2.2.2.1, enqueueCore_Count]
  rw [hheap]
  refine mapM_inv_forall _ _ hm (fun p hp p' hp' => ?_)
  · obtain ⟨A, i, B, hT, hca⟩ := hcur p hp
    obtain ⟨A1, B1, hT', hsh⟩ := insert_shift hi.inv hpost hT
    obtain ⟨p1, A', i', B', h1, h2, h3, h4, h5⟩ :=
      cursorAfterInsert_spec hpost.inv _ htot hT' hsh hca
    rw [hp'] at h1
    injection h1 with h1
    subst h1
    exact ⟨h3, A, i, B, A1, B1, A', i', B', hT, hca, hT', hsh, h2, h4, h5⟩

end Hist

namespace Hist

/-! ## The cursors stand on the chain with their counts, after every call -/

theorem forall2_right {α β : Type} {Q : α → β → Prop} {l : List α} {l' : List β}
    (h : List.Forall₂ Q l l') : ∀ b ∈ l', ∃ a ∈ l, Q a b := by
  induction h with
  | nil => intro b hb; simp at hb
  | cons hq _ ih =>
    intro b hb
    simp only [List.mem_cons] at hb
    rcases hb with rfl | hb
    · exact ⟨_, by simp, hq⟩
    · obtain ⟨a, ha, hqa⟩ := ih b hb
      exact ⟨a, by simp [ha], hqa⟩

theorem forall2_map_eq {α β γ : Type} {Q : α → β → Prop} {f : α → γ} {g : β → γ}
    {l : List α} {l' : List β} (h : List.Forall₂ Q l l') (hq : ∀ a b, Q a b → g b = f a) :
    l'.map g = l.map f := by
  induction h with
  | nil => rfl
  | cons hab _ ih => simp [hq _ _ hab, ih]

/-- The cursors after `Dequeue` left no tree: they stay as they were. -/
theorem Dequeue_cursors_drained {hs : Histogram} {T : Shape} (hi : HistInv hs T)
    {item : Nat} {rest : List Nat} (hq : hs.Queue = item :: rest) {r : Ptr} {hs' : Histogram}
    (he : hs.Dequeue = .ok (r, hs')) {T' : Shape} (hi' : HistInv hs' T') (hnil : T'.ids = []) :
    hs'.Percentiles = hs.Percentiles := by
  have hitem : item ∈ T.ids := hi.mem_of_queue (by rw [hq]; simp)
  obtain ⟨rep, nr, heap, hd, hpost⟩ := Delete_spec hs.heap T item hi.inv hitem
  obtain ⟨-, halike⟩ := Dequeue_cons hs item rest rep nr heap hq hd r hs' he
  have hroot : hs'.RootItem = if nr ≠ none ∨ (nr = none ∧ rep = none) then nr
      else hs.RootItem := by rw [halike.2.2.1, dequeueCore_RootItem]
  have hT' : T' = .nil := by
    cases T' with
    | nil => rfl
    | node l i r => simp [Shape.ids] at hnil
  subst hT'
  have hr' : hs'.RootItem = none := hi'.root
  rcases hpost with ⟨hd1, e1, e2, -⟩ | ⟨hd1, hT, e1, e2, eh⟩ | ⟨hd1, T'', hrem, e2, hne'', -⟩
  · subst e1 e2
    have hnrem : ¬ ((none : Ptr) ≠ none ∨ ((none : Ptr) = none ∧ some item = none)) := by simp
    rw [if_neg hnrem, hi.root] at hroot
    rw [hroot] at hr'
    obtain ⟨ctx, L, R, e⟩ := exists_plug_of_mem hitem
    have : T.ids = [] := by
      rw [Shape.root_eq_none.mp hr']
      rfl
    rw [this] at hitem
    simp at hitem
  · exact Dequeue_cursors_empty hs item rest rep nr heap hq hd e2 e1 r hs' he
  · have hrem' : (nr ≠ none ∨ (nr = none ∧ rep = none)) := Or.inl (by rw [e2]; exact hne'')
    rw [if_pos hrem', e2] at hroot
    rw [hroot] at hr'
    exact absurd hr' hne''

/-- The tree of a histogram after `Dequeue`. -/
theorem Dequeue_tree {hs : Histogram} {T : Shape} (hi : HistInv hs T) {r : Ptr}
    {hs' : Histogram} (he : hs.Dequeue = .ok (r, hs')) :
    ∃ T', HistInv hs' T' ∧ (Counted hs.heap T → Counted hs'.heap T')
      ∧ hs'.QueueSize = hs.QueueSize
      ∧ (hs.Queue = [] → hs' = hs)
      ∧ (hs.Queue ≠ [] → hs'.Count = hs.Count - 1) := by
  cases hq : hs.Queue with
  | nil =>
    have := Dequeue_nil hs hq
    rw [this] at he
    injection he with he
    injection he with e1 e2
    subst e2
    exact ⟨T, hi, fun h => h, rfl, fun _ => rfl, fun h => absurd rfl h⟩
  | cons item rest =>
    obtain ⟨rep, nr, heap, hd, T', hinv', hcn, -⟩ := dequeue_inv hi hq
    obtain ⟨-, halike⟩ := Dequeue_cons hs item rest rep nr heap hq hd r hs' he
    refine ⟨T', HistInv.of_alike halike hinv', fun h => ?_, ?_, fun h => by simp at h,
      fun _ => ?_⟩
    · rw [halike.1, dequeueCore_heap]
      exact hcn h
    · rw [halike.2.2.2.1, dequeueCore_QueueSize]
    · rw [halike.2.2.2.2.1, dequeueCore_Count]

/-- After `Dequeue` the cursors of a histogram with a tree stand on nodes of the chain,
with their counts. -/
theorem Dequeue_keeps {hs : Histogram} {T : Shape} (hi : HistInv hs T)
    (hc : Counted hs.heap T) (hcur : T.ids ≠ [] → CursorsOK hs T.ids) {r : Ptr}
    {hs' : Histogram} (he : hs.Dequeue = .ok (r, hs')) :
    ∃ T', HistInv hs' T' ∧ Counted hs'.heap T' ∧ (T'.ids ≠ [] → CursorsOK hs' T'.ids)
      ∧ hs'.QueueSize = hs.QueueSize
      ∧ hs'.Percentiles.map (fun p => p.Percentile)
          = hs.Percentiles.map (fun p => p.Percentile) := by
  obtain ⟨T', hi', hc', hqs, hnil, -⟩ := Dequeue_tree hi he
  cases hq : hs.Queue with
  | nil =>
    have e := hnil hq
    subst e
    have := hi.unique hi'
    subst this
    exact ⟨_, hi', hc, hcur, rfl, rfl⟩
  | cons item rest =>
    have hitem : item ∈ T.ids := hi.mem_of_queue (by rw [hq]; simp)
    have hT : T.ids ≠ [] := List.ne_nil_of_mem hitem
    by_cases hne : T'.ids = []
    · refine ⟨T', hi', hc' hc, fun h => absurd hne h, hqs, ?_⟩
      rw [Dequeue_cursors_drained hi hq he hi' hne]
    · obtain ⟨rem, hall⟩ := Dequeue_cursors hi (hcur hT) hq he hi' (hc' hc) hne
      refine ⟨T', hi', hc' hc, fun _ p' hp' => ?_, hqs,
        forall2_map_eq hall (fun a b hab => hab.1)⟩
      obtain ⟨p, -, -, A, i, B, A', i', B', -, -, h3, h4, -⟩ := forall2_right hall p' hp'
      exact ⟨A', i', B', h3, h4⟩

/-- The window loop of `Enqueue` keeps the cursors on the chain, with their counts. -/
theorem evictLoop_keeps : ∀ (n : Nat) (hs : Histogram) (T : Shape) (r0 r : Ptr)
    (hs' : Histogram), HistInv hs T → Counted hs.heap T →
    (T.ids ≠ [] → CursorsOK hs T.ids) → evictLoop n hs r0 = .ok (r, hs') →
    ∃ T', HistInv hs' T' ∧ Counted hs'.heap T' ∧ (T'.ids ≠ [] → CursorsOK hs' T'.ids)
      ∧ hs'.QueueSize = hs.QueueSize
      ∧ hs'.Percentiles.map (fun p => p.Percentile)
          = hs.Percentiles.map (fun p => p.Percentile)
  | n, hs, T, r0, r, hs', hi, hc, hcur, he => by
    unfold evictLoop at he
    by_cases hcond : hs.QueueSize > 0 ∧ hs.Count > hs.QueueSize
    · rw [if_pos hcond] at he
      cases n with
      | zero => simp at he
      | succ k =>
        obtain ⟨⟨r1, hs1⟩, hd, he⟩ := bind_ok he
        obtain ⟨T1, hi1, hc1, hcur1, hq1, hp1⟩ := Dequeue_keeps hi hc hcur hd
        obtain ⟨T', hi', hc', hcur', hq', hp'⟩ :=
          evictLoop_keeps k hs1 T1 r1 r hs' hi1 hc1 hcur1 he
        exact ⟨T', hi', hc', hcur', hq'.trans hq1, hp'.trans hp1⟩
    · rw [if_neg hcond] at he
      injection he with he
      injection he with e1 e2
      subst e2
      exact ⟨T, hi, hc, hcur, rfl, rfl⟩

/-- After `Enqueue` of one sample the cursors stand on nodes of the chain, with their
counts. -/
theorem Enqueue_keeps {hs : Histogram} {T : Shape} (hi : HistInv hs T)
    (hc : Counted hs.heap T) (hcur : T.ids ≠ [] → CursorsOK hs T.ids) (x : ℚ) {r : Ptr}
    {hs' : Histogram} (he : hs.Enqueue x 1 = .ok (r, hs')) :
    ∃ T', HistInv hs' T' ∧ Counted hs'.heap T' ∧ (T'.ids ≠ [] → CursorsOK hs' T'.ids)
      ∧ hs'.QueueSize = hs.QueueSize
      ∧ hs'.Percentiles.map (fun p => p.Percentile)
          = hs.Percentiles.map (fun p => p.Percentile) := by
  by_cases hne : T.ids = []
  · have hT : T = .nil := by
      cases T with
      | nil => rfl
      | node l i r => simp [Shape.ids] at hne
    subst hT
    have hr : hs.RootItem = none := hi.root
    obtain ⟨hs4, halike, hev, hps⟩ := Enqueue_none_cursors hs x 1 hr r hs' he
    obtain ⟨hinv4, hcnt4, -⟩ := enqueue_inv_none hi (hs.UnifiedValue x) 1 (le_refl _)
    have hi4 := HistInv.of_alike halike hinv4
    have hheap : hs4.heap
        = (hs.heap.alloc { NewHistogramItem (hs.UnifiedValue x) with Duplications := 1 }).2 := by
      rw [halike.1, enqueueCore_heap]
    have hcur4 : CursorsOK hs4 (Shape.node .nil hs.heap.size .nil).ids := by
      intro p' hp'
      rw [hps] at hp'
      obtain ⟨p, -, rfl⟩ := List.mem_map.mp hp'
      refine ⟨[], hs.heap.size, [], by simp [Shape.ids], rfl, ?_⟩
      rw [hheap, Heap.get_alloc_self]
      simp
    obtain ⟨T', hi', hc', hcur', hq', hp'⟩ := evictLoop_keeps _ hs4 _ none r hs' hi4
      (by rw [hheap]; exact hcnt4 rfl) (fun _ => hcur4) hev
    refine ⟨T', hi', hc', hcur', hq'.trans (halike.2.2.2.1.trans (enqueueCore_QueueSize ..)),
      hp'.trans ?_⟩
    rw [hps, List.map_map]
    rfl
  · obtain ⟨hs4, T4, hi4, hc4, hev, hq4, -, hne4, hall⟩ := Enqueue_cursors hi hc (hcur hne) hne x he
    have hcur4 : CursorsOK hs4 T4.ids := by
      intro p' hp'
      obtain ⟨p, -, -, A, i, B, A1, B1, A', i', B', -, -, h3, -, h5, h6, h7⟩ :=
        forall2_right hall p' hp'
      refine ⟨A', i', B', ?_, h5⟩
      by_cases hle : hs.UnifiedValue x ≤ (hs.heap.get i).Value
      · rw [h3, (h6 hle).whole]
      · rw [h3, (h7 (not_le.mp hle)).whole]
    obtain ⟨T', hi', hc', hcur', hq', hp'⟩ := evictLoop_keeps _ hs4 _ none r hs' hi4 hc4
      (fun _ => hcur4) hev
    exact ⟨T', hi', hc', hcur', hq'.trans hq4,
      hp'.trans (forall2_map_eq hall (fun a b hab => hab.1))⟩

/-- One call with a single sample keeps the cursors on the chain, with their counts. -/
theorem step_keeps {hs : Histogram} {T : Shape} (hi : HistInv hs T) (hc : Counted hs.heap T)
    (hcur : T.ids ≠ [] → CursorsOK hs T.ids) (op : HistOp) (hu : op.unit) {hs' : Histogram}
    (he : hs.step op = .ok hs') :
    ∃ T', HistInv hs' T' ∧ Counted hs'.heap T' ∧ (T'.ids ≠ [] → CursorsOK hs' T'.ids)
      ∧ hs'.QueueSize = hs.QueueSize
      ∧ hs'.Percentiles.map (fun p => p.Percentile)
          = hs.Percentiles.map (fun p => p.Percentile) := by
  cases op with
  | enqueue v c =>
    have hc1 : c = 1 := hu
    subst hc1
    obtain ⟨r, he'⟩ := step_enqueue he
    exact Enqueue_keeps hi hc hcur v he'
  | dequeue =>
    obtain ⟨r, he'⟩ := step_dequeue he
    exact Dequeue_keeps hi hc hcur he'

/-- A run of calls with single samples keeps the cursors on the chain, with their
counts. -/
theorem run_keeps : ∀ (ops : List HistOp) {hs : Histogram} {T : Shape}, HistInv hs T →
    Counted hs.heap T → (T.ids ≠ [] → CursorsOK hs T.ids) → (∀ op ∈ ops, op.unit) →
    ∀ {hs' : Histogram}, hs.run ops = .ok hs' →
    ∃ T', HistInv hs' T' ∧ Counted hs'.heap T' ∧ (T'.ids ≠ [] → CursorsOK hs' T'.ids)
      ∧ hs'.QueueSize = hs.QueueSize
      ∧ hs'.Percentiles.map (fun p => p.Percentile)
          = hs.Percentiles.map (fun p => p.Percentile)
  | [], hs, T, hi, hc, hcur, _, hs', he => by
    injection he with he
    subst he
    exact ⟨T, hi, hc, hcur, rfl, rfl⟩
  | op :: ops, hs, T, hi, hc, hcur, hu, hs', he => by
    obtain ⟨hs1, h1, h2⟩ := run_cons he
    obtain ⟨T1, hi1, hc1, hcur1, hq1, hp1⟩ := step_keeps hi hc hcur op (hu op (by simp)) h1
    obtain ⟨T', hi', hc', hcur', hq', hp'⟩ :=
      run_keeps ops hi1 hc1 hcur1 (fun o ho => hu o (by simp [ho])) h2
    exact ⟨T', hi', hc', hcur', hq'.trans hq1, hp'.trans hp1⟩

/-- A run of calls with single samples on a fresh histogram with cursors: when it
returns, every cursor of a histogram that is not empty stands on a node of the chain,
with its count. -/
theorem fresh_run_keeps (size : Int) (slab : ℚ) (accuracy : Int) (ps : List ℚ)
    (ops : List HistOp) (hu : ∀ op ∈ ops, op.unit) {hs' : Histogram}
    (he : (newWithCursors size slab accuracy ps).run ops = .ok hs') :
    ∃ T', HistInv hs' T' ∧ Counted hs'.heap T' ∧ (T'.ids ≠ [] → CursorsOK hs' T'.ids)
      ∧ hs'.Percentiles.map (fun p => p.Percentile)
          = (newWithCursors size slab accuracy ps).Percentiles.map (fun p => p.Percentile) := by
  have hal := newWithCursors_alike size slab accuracy ps
  have hi := HistInv.of_alike hal (fresh_inv size slab accuracy)
  obtain ⟨T', h1, h2, h3, -, h5⟩ := run_keeps ops hi
    (by rw [hal.1]; trivial) (fun h => absurd rfl h) hu he
  exact ⟨T', h1, h2, h3, h5⟩

end Hist

namespace Hist

/-! ## `Dequeue` and `Enqueue` with cursors return when they do without -/

/-- `Dequeue` with cursors, when it took a node out of the tree and left the root `r0`:
it returns what `Dequeue` without the cursors returns, with the cursors after their
walks. -/
theorem Dequeue_with_rem (hs : Histogram) (item : Nat) (rest : List Nat) (rep : Ptr)
    (r0 : Nat) (heap : Heap) (hq : hs.Queue = item :: rest)
    (hd : Delete hs.heap item = .ok (rep, some r0, heap))
    (ht : 0 < ((heap.get r0).Count : ℚ)) (ps : List PercentileItem)
    (hps : hs.Percentiles.mapM (cursorAfterDelete heap ((heap.get r0).Count : ℚ) item true
      (hs.heap.get item).Smaller (hs.heap.get item).Larger) = .ok ps)
    (r : Ptr) (b' : Histogram) (hb : hs.strip.Dequeue = .ok (r, b')) :
    hs.Dequeue = .ok (r, { b' with Percentiles := ps }) := by
  unfold Histogram.Dequeue at hb ⊢
  unfold Histogram.strip at hb
  simp only [hq, hd, bind, Except.bind, pure, Except.pure] at hb ⊢
  have hrem : ((some r0 : Ptr) ≠ none ∨ (some r0 : Ptr) = none ∧ rep = none) := Or.inl (by simp)
  have ht' : ((heap.get r0).Count : ℚ) > 0 := ht
  simp only [hrem, decide_True, ↓reduceIte, ht', List.mapM_nil, pure, Except.pure] at hb ⊢
  cases hbk : hs.BucketHistogram.Delete heap item with
  | error e => simp [hbk] at hb
  | ok b =>
    simp only [hbk, hps] at hb ⊢
    injection hb with hb
    injection hb with e1 e2
    subst e1 e2
    congr 2
    split
    · rfl
    · split <;> rfl

/-- `Dequeue` with cursors, when it lowered the multiplicity of a node under the root
`r0`. -/
theorem Dequeue_with_dup (hs : Histogram) (item : Nat) (rest : List Nat) (rep nr : Ptr)
    (r0 : Nat) (heap : Heap) (hq : hs.Queue = item :: rest)
    (hd : Delete hs.heap item = .ok (rep, nr, heap))
    (hrem : ¬ (nr ≠ none ∨ nr = none ∧ rep = none)) (hr : hs.RootItem = some r0)
    (ht : 0 < ((heap.get r0).Count : ℚ)) (ps : List PercentileItem)
    (hps : hs.Percentiles.mapM (cursorAfterDelete heap ((heap.get r0).Count : ℚ) item false
      (hs.heap.get item).Smaller (hs.heap.get item).Larger) = .ok ps)
    (r : Ptr) (b' : Histogram) (hb : hs.strip.Dequeue = .ok (r, b')) :
    hs.Dequeue = .ok (r, { b' with Percentiles := ps }) := by
  unfold Histogram.Dequeue at hb ⊢
  unfold Histogram.strip at hb
  simp only [hq, hd, bind, Except.bind, pure, Except.pure] at hb ⊢
  have ht' : ((heap.get r0).Count : ℚ) > 0 := ht
  simp only [hrem, decide_False, ↓reduceIte, Bool.false_eq_true, hr, ht', List.mapM_nil, pure,
    Except.pure, hps] at hb ⊢
  injection hb with hb
  injection hb with e1 e2
  subst e1 e2
  congr 2
  split
  · rfl
  · split <;> rfl

/-- `Dequeue` with cursors, when it took the last node out of the tree. -/
theorem Dequeue_with_empty (hs : Histogram) (item : Nat) (rest : List Nat) (rep nr : Ptr)
    (heap : Heap) (hq : hs.Queue = item :: rest)
    (hd : Delete hs.heap item = .ok (rep, nr, heap)) (hnr : nr = none) (hrep : rep = none)
    (r : Ptr) (b' : Histogram) (hb : hs.strip.Dequeue = .ok (r, b')) :
    hs.Dequeue = .ok (r, { b' with Percentiles := hs.Percentiles }) := by
  unfold Histogram.Dequeue at hb ⊢
  unfold Histogram.strip at hb
  simp only [hq, hd, bind, Except.bind, pure, Except.pure] at hb ⊢
  have hrem : (nr ≠ none ∨ nr = none ∧ rep = none) := Or.inr ⟨hnr, hrep⟩
  have ht' : ¬ ((0 : ℚ) > 0) := lt_irrefl _
  simp only [hrem, decide_True, ↓reduceIte] at hb ⊢
  cases hbk : hs.BucketHistogram.Delete heap item with
  | error e => simp [hbk] at hb
  | ok b =>
    simp only [hbk, hnr, ht', ↓reduceIte, pure, Except.pure] at hb ⊢
    injection hb with hb
    injection hb with e1 e2
    subst e1 e2
    by_cases h1 : hs.Count - 1 > 0
    · simp only [if_pos h1]
    · by_cases h2 : hs.Count - 1 = 0
      · simp only [if_neg h1, if_pos h2]
      · simp only [if_neg h1, if_neg h2]

theorem strip_with (b : Histogram) (ps : List PercentileItem) (hb : b.Percentiles = []) :
    ({ b with Percentiles := ps } : Histogram).strip = b := by
  cases b
  simp only [Histogram.strip] at hb ⊢
  subst hb
  rfl

theorem mapM_nil_ok {α β : Type} {f : α → Except Fault β} {l : List β}
    (h : ([] : List α).mapM f = .ok l) : l = [] := by
  simp only [List.mapM_nil, pure, Except.pure] at h
  injection h with h
  exact h.symm

/-- `Dequeue` on a histogram whose cursors stand on the chain returns when `Dequeue` on
the histogram without the cursors does, with the same state apart from the cursors. -/
theorem Dequeue_sim {hs : Histogram} {T : Shape} (hi : HistInv hs T)
    (hc : Counted hs.heap T) (hcur : T.ids ≠ [] → CursorsOK hs T.ids) {r : Ptr}
    {b' : Histogram} (hb : hs.strip.Dequeue = .ok (r, b')) :
    ∃ hs', hs.Dequeue = .ok (r, hs') ∧ hs'.strip = b' := by
  cases hq : hs.Queue with
  | nil =>
    have h1 := Dequeue_nil hs.strip hq
    rw [h1] at hb
    injection hb with hb
    injection hb with e1 e2
    subst e1 e2
    exact ⟨hs, Dequeue_nil hs hq, rfl⟩
  | cons item rest =>
    have hitem : item ∈ T.ids := hi.mem_of_queue (by rw [hq]; simp)
    have hT : T.ids ≠ [] := List.ne_nil_of_mem hitem
    have hqs : hs.strip.Queue = item :: rest := hq
    obtain ⟨rep, nr, heap, hd, hpost⟩ := Delete_spec hs.heap T item hi.inv hitem
    have hds : Delete hs.strip.heap item = .ok (rep, nr, heap) := hd
    rcases hpost with ⟨hd1, e1, e2, hinv', hsz, hsame, hcn'⟩ | ⟨hd1, hT1, e1, e2, eh⟩
        | ⟨hd1, T'', hrem, e2, hne'', hiff⟩
    · subst e1 e2
      have hnrem : ¬ ((none : Ptr) ≠ none ∨ ((none : Ptr) = none ∧ some item = none)) := by
        simp
      obtain ⟨r0, hr0⟩ : ∃ r0, T.root = some r0 := by
        cases e : T.root with
        | none =>
          rw [Shape.root_eq_none.mp e] at hT
          exact absurd rfl hT
        | some r0 => exact ⟨r0, rfl⟩
      have hr : hs.RootItem = some r0 := by rw [hi.root, hr0]
      have hcount := (hcn' hc).root_count hr0
      have htot := hinv'.total_pos hT
      have hex : ∀ p ∈ hs.Percentiles, ∃ p', cursorAfterDelete heap ((heap.get r0).Count : ℚ)
          item false (hs.heap.get item).Smaller (hs.heap.get item).Larger p = .ok p'
          ∧ True := by
        intro p hp
        obtain ⟨A, i, B, hTd, hca⟩ := hcur hT p hp
        obtain ⟨p1, A', i', B', h1, -⟩ := cursor_dequeue_dup hi.inv hinv'
          (fun j hj => by
            obtain ⟨a, b⟩ := hsame j hj
            exact ⟨a, b⟩) _ htot hTd hitem hca
          (hs.heap.get item).Smaller (hs.heap.get item).Larger
        rw [hcount]
        exact ⟨p1, h1, trivial⟩
      obtain ⟨ps, hps, -⟩ := mapM_forall _ hex
      have h0 := Dequeue_cursors_dup hs.strip item rest (some item) none r0 heap hqs hds hnrem
        hr (by rw [hcount]; exact htot) r b' hb
      exact ⟨_, Dequeue_with_dup hs item rest (some item) none r0 heap hq hd hnrem hr
        (by rw [hcount]; exact htot) ps hps r b' hb, strip_with b' ps (mapM_nil_ok h0)⟩
    · have h0 := Dequeue_cursors_empty hs.strip item rest rep nr heap hqs hds e2 e1 r b' hb
      exact ⟨_, Dequeue_with_empty hs item rest rep nr heap hq hd e2 e1 r b' hb,
        strip_with b' _ h0⟩
    · obtain ⟨r0, hr0⟩ : ∃ r0, T''.root = some r0 := by
        cases e : T''.root with
        | none => exact absurd e hne''
        | some r0 => exact ⟨r0, rfl⟩
      have hne2 : T''.ids ≠ [] := List.ne_nil_of_mem (Shape.root_mem_ids hr0)
      have hcount := (hrem.counted hc).root_count hr0
      have htot := hrem.inv.total_pos hne2
      rw [e2, hr0] at hd hds
      obtain ⟨X, Y, hX, hX'⟩ := hrem.ids
      have hex : ∀ p ∈ hs.Percentiles, ∃ p', cursorAfterDelete heap ((heap.get r0).Count : ℚ)
          item true (hs.heap.get item).Smaller (hs.heap.get item).Larger p = .ok p'
          ∧ True := by
        intro p hp
        obtain ⟨A, i, B, hTd, hca⟩ := hcur hT p hp
        obtain ⟨p1, A', i', B', h1, -⟩ := cursor_dequeue_rem hi.inv hrem hX hX' hd1 hne2 _ htot
          hTd hca
        rw [hcount]
        exact ⟨p1, h1, trivial⟩
      obtain ⟨ps, hps, -⟩ := mapM_forall _ hex
      have h0 := Dequeue_cursors_rem hs.strip item rest rep r0 heap hqs hds
        (by rw [hcount]; exact htot) r b' hb
      exact ⟨_, Dequeue_with_rem hs item rest rep r0 heap hq hd
        (by rw [hcount]; exact htot) ps hps r b' hb, strip_with b' ps (mapM_nil_ok h0)⟩

theorem exists_pre {r : Ptr} {b' : Histogram} {E : Except Fault (Ptr × Histogram)}
    (hs4 : Histogram) (n : Nat) {core : Histogram} {ps : List PercentileItem}
    (h1 : E = evictLoop n hs4 none) (h2 : n = (hs4.Count - hs4.QueueSize).toNat)
    (h3 : evictLoop n hs4.strip none = .ok (r, b')) (h4 : hs4.Alike core)
    (h5 : hs4.Percentiles = ps) :
    ∃ hs4 : Histogram, E = evictLoop (hs4.Count - hs4.QueueSize).toNat hs4 none
      ∧ evictLoop (hs4.Count - hs4.QueueSize).toNat hs4.strip none = .ok (r, b')
      ∧ hs4.Alike core ∧ hs4.Percentiles = ps :=
  ⟨hs4, h2 ▸ h1, h2 ▸ h3, h4, h5⟩

theorem strip_fields (hs : Histogram) :
    hs.strip.heap = hs.heap ∧ hs.strip.Queue = hs.Queue ∧ hs.strip.RootItem = hs.RootItem
      ∧ hs.strip.QueueSize = hs.QueueSize ∧ hs.strip.Count = hs.Count
      ∧ hs.strip.BucketHistogram = hs.BucketHistogram ∧ hs.strip.Accuracy = hs.Accuracy
      ∧ hs.strip.MinItem = hs.MinItem ∧ hs.strip.MaxItem = hs.MaxItem
      ∧ hs.strip.Percentiles = [] ∧ hs.strip.Mean = hs.Mean
      ∧ hs.strip.Variance = hs.Variance ∧ ∀ x, hs.strip.UnifiedValue x = hs.UnifiedValue x :=
  ⟨rfl, rfl, rfl, rfl, rfl, rfl, rfl, rfl, rfl, rfl, rfl, rfl, fun _ => rfl⟩

/-- `Enqueue` with cursors on a histogram with a tree is the window loop on the state
after the insert, with the cursors after their walks, when `Enqueue` without the cursors
returns. -/
theorem Enqueue_with_some (hs : Histogram) (x : ℚ) (c : Int) (root item mn mx : Nat)
    (nr : Ptr) (heap : Heap) (hr : hs.RootItem = some root)
    (hins : Insert hs.heap.budget hs.heap root (hs.UnifiedValue x) c = .ok (item, nr, heap))
    (hmn : hs.MinItem = some mn) (hmx : hs.MaxItem = some mx) (ps : List PercentileItem)
    (hps : hs.Percentiles.mapM (cursorAfterInsert heap ((heap.get (adoptRoot nr root)).Count : ℚ)
      (hs.UnifiedValue x)) = .ok ps)
    (r : Ptr) (b' : Histogram) (hb : hs.strip.Enqueue x c = .ok (r, b')) :
    ∃ hs4 : Histogram, hs.Enqueue x c = evictLoop (hs4.Count - hs4.QueueSize).toNat hs4 none
      ∧ evictLoop (hs4.Count - hs4.QueueSize).toNat hs4.strip none = .ok (r, b')
      ∧ hs4.Alike ((enqueueTree hs item (adoptRoot nr root) (adoptEnd (heap.get mn).Smaller mn)
        (adoptEnd (heap.get mx).Larger mx) heap c).momentsAfterEnqueue (hs.UnifiedValue x) c)
      ∧ hs4.Percentiles = ps := by
  obtain ⟨s1, s2, s3, s4, s5, s6, s7, s8, s9, s10, s11, s12, s13⟩ := strip_fields hs
  unfold Histogram.Enqueue at hb ⊢
  cases nr with
  | none =>
    have hps' := hps
    simp only [adoptRoot] at hps'
    simp only [s1, s2, s3, s4, s5, s6, s7, s8, s9, s10, s11, s12, s13, hr, hins, hmn, hmx,
      deref, bind, Except.bind, pure, Except.pure, List.mapM_nil, hps'] at hb ⊢
    by_cases hd : (heap.get item).Duplications = c
    · simp only [hd, ↓reduceIte] at hb ⊢
      cases hbk : hs.BucketHistogram.Insert heap item with
      | error e => simp [hbk] at hb
      | ok b =>
        simp only [hbk] at hb ⊢
        exact exists_pre _ _ rfl rfl hb ⟨rfl, rfl, rfl, rfl, rfl, rfl,
          by cases (heap.get mn).Smaller <;> rfl, by cases (heap.get mx).Larger <;> rfl,
          rfl, rfl⟩ rfl
    · simp only [hd, ↓reduceIte] at hb ⊢
      exact exists_pre _ _ rfl rfl hb ⟨rfl, rfl, rfl, rfl, rfl, rfl,
        by cases (heap.get mn).Smaller <;> rfl, by cases (heap.get mx).Larger <;> rfl,
        rfl, rfl⟩ rfl
  | some r1 =>
    have hps' := hps
    simp only [adoptRoot] at hps'
    simp only [s1, s2, s3, s4, s5, s6, s7, s8, s9, s10, s11, s12, s13, hr, hins, hmn, hmx,
      deref, bind, Except.bind, pure, Except.pure, List.mapM_nil, hps'] at hb ⊢
    by_cases hd : (heap.get item).Duplications = c
    · simp only [hd, ↓reduceIte] at hb ⊢
      cases hbk : hs.BucketHistogram.Insert heap item with
      | error e => simp [hbk] at hb
      | ok b =>
        simp only [hbk] at hb ⊢
        exact exists_pre _ _ rfl rfl hb ⟨rfl, rfl, rfl, rfl, rfl, rfl,
          by cases (heap.get mn).Smaller <;> rfl, by cases (heap.get mx).Larger <;> rfl,
          rfl, rfl⟩ rfl
    · simp only [hd, ↓reduceIte] at hb ⊢
      exact exists_pre _ _ rfl rfl hb ⟨rfl, rfl, rfl, rfl, rfl, rfl,
        by cases (heap.get mn).Smaller <;> rfl, by cases (heap.get mx).Larger <;> rfl,
        rfl, rfl⟩ rfl

end Hist

namespace Hist

/-! ## Runs with cursors return when the runs without cursors do -/

/-- `Enqueue` with cursors on a histogram without a tree is the window loop on the state
with the one node and all cursors on it, when `Enqueue` without the cursors returns. -/
theorem Enqueue_with_none (hs : Histogram) (x : ℚ) (c : Int) (hr : hs.RootItem = none)
    (r : Ptr) (b' : Histogram) (hb : hs.strip.Enqueue x c = .ok (r, b')) :
    ∃ hs4 : Histogram, hs.Enqueue x c = evictLoop (hs4.Count - hs4.QueueSize).toNat hs4 none
      ∧ evictLoop (hs4.Count - hs4.QueueSize).toNat hs4.strip none = .ok (r, b')
      ∧ hs4.Alike ((enqueueTree hs hs.heap.size hs.heap.size hs.heap.size hs.heap.size
        (hs.heap.alloc { NewHistogramItem (hs.UnifiedValue x) with Duplications := c }).2
        c).momentsAfterEnqueue (hs.UnifiedValue x) c)
      ∧ hs4.Percentiles = hs.Percentiles.map fun p =>
          { p with Item := some hs.heap.size, Count := c, RealPercentage := 1 } := by
  obtain ⟨s1, s2, s3, s4, s5, s6, s7, s8, s9, s10, s11, s12, s13⟩ := strip_fields hs
  unfold Histogram.Enqueue at hb ⊢
  simp only [s1, s2, s3, s4, s5, s6, s7, s8, s9, s10, s11, s12, s13, hr, bind, Except.bind,
    pure, Except.pure, List.map_nil] at hb ⊢
  have hget := Heap.get_alloc_self hs.heap
    { NewHistogramItem (hs.UnifiedValue x) with Duplications := c }
  have hd' : ((hs.heap.alloc
      { NewHistogramItem (hs.UnifiedValue x) with Duplications := c }).2.get
      (hs.heap.alloc
        { NewHistogramItem (hs.UnifiedValue x) with Duplications := c }).1).Duplications
      = c := by
    show ((hs.heap.alloc _).2.get hs.heap.size).Duplications = c
    rw [hget]
  simp only [hd', ↓reduceIte] at hb ⊢
  split at hb
  · cases hb
  · rename_i b hbk
    exact exists_pre _ _ rfl rfl hb ⟨rfl, rfl, rfl, rfl, rfl, rfl, rfl, rfl, rfl, rfl⟩ rfl

/-- The window loop with cursors returns when the window loop without the cursors
does. -/
theorem evictLoop_sim : ∀ (n : Nat) (hs : Histogram) (T : Shape) (r0 r : Ptr) (b' : Histogram),
    HistInv hs T → Counted hs.heap T → (T.ids ≠ [] → CursorsOK hs T.ids) →
    evictLoop n hs.strip r0 = .ok (r, b') →
    ∃ hs', evictLoop n hs r0 = .ok (r, hs') ∧ hs'.strip = b'
  | n, hs, T, r0, r, b', hi, hc, hcur, hb => by
    unfold evictLoop at hb ⊢
    have e1 : hs.strip.QueueSize = hs.QueueSize := rfl
    have e2 : hs.strip.Count = hs.Count := rfl
    rw [e1, e2] at hb
    by_cases hcond : hs.QueueSize > 0 ∧ hs.Count > hs.QueueSize
    · rw [if_pos hcond] at hb ⊢
      cases n with
      | zero => simp at hb
      | succ k =>
        obtain ⟨⟨r1, b1⟩, hd, hb⟩ := bind_ok hb
        obtain ⟨hs1, hd1, hst⟩ := Dequeue_sim hi hc hcur hd
        obtain ⟨T1, hi1, hc1, hcur1, -⟩ := Dequeue_keeps hi hc hcur hd1
        subst hst
        obtain ⟨hs', he', hst'⟩ := evictLoop_sim k hs1 T1 r1 r b' hi1 hc1 hcur1 hb
        refine ⟨hs', ?_, hst'⟩
        simp only [bind, Except.bind, hd1]
        exact he'
    · rw [if_neg hcond] at hb ⊢
      injection hb with hb
      injection hb with e3 e4
      subst e3 e4
      exact ⟨hs, rfl, rfl⟩

/-- `Enqueue` of one sample on a histogram whose cursors stand on the chain returns when
`Enqueue` on the histogram without the cursors does, with the same state apart from the
cursors. -/
theorem Enqueue_sim {hs : Histogram} {T : Shape} (hi : HistInv hs T) (hc : Counted hs.heap T)
    (hcur : T.ids ≠ [] → CursorsOK hs T.ids) (x : ℚ) {r : Ptr} {b' : Histogram}
    (hb : hs.strip.Enqueue x 1 = .ok (r, b')) :
    ∃ hs', hs.Enqueue x 1 = .ok (r, hs') ∧ hs'.strip = b' := by
  by_cases hne : T.ids = []
  · have hT : T = .nil := by
      cases T with
      | nil => rfl
      | node l i r => simp [Shape.ids] at hne
    subst hT
    have hr : hs.RootItem = none := hi.root
    obtain ⟨hs4, heq, hev, halike, hps⟩ := Enqueue_with_none hs x 1 hr r b' hb
    obtain ⟨hinv4, hcnt4, -⟩ := enqueue_inv_none hi (hs.UnifiedValue x) 1 (le_refl _)
    have hi4 := HistInv.of_alike halike hinv4
    have hheap : hs4.heap
        = (hs.heap.alloc { NewHistogramItem (hs.UnifiedValue x) with Duplications := 1 }).2 := by
      rw [halike.1, enqueueCore_heap]
    have hcur4 : CursorsOK hs4 (Shape.node .nil hs.heap.size .nil).ids := by
      intro p' hp'
      rw [hps] at hp'
      obtain ⟨p, -, rfl⟩ := List.mem_map.mp hp'
      refine ⟨[], hs.heap.size, [], by simp [Shape.ids], rfl, ?_⟩
      rw [hheap, Heap.get_alloc_self]
      simp
    obtain ⟨hs', he', hst⟩ := evictLoop_sim _ hs4 _ none r b' hi4
      (by rw [hheap]; exact hcnt4 rfl) (fun _ => hcur4) hev
    exact ⟨hs', heq.trans he', hst⟩
  · obtain ⟨root, hroot⟩ : ∃ root, T.root = some root := by
      cases e : T.root with
      | none =>
        rw [Shape.root_eq_none.mp e] at hne
        exact absurd rfl hne
      | some r0 => exact ⟨r0, rfl⟩
    have hr : hs.RootItem = some root := hi.root.trans hroot
    obtain ⟨item, nr, heap, mn, mx, T', hins, hmn, hmx, hcore, hcnt, -⟩ :=
      enqueue_inv_some hi (hs.UnifiedValue x) 1 (le_refl _) hr
    obtain ⟨item2, nr2, heap2, T2, hins2, hpost⟩ :=
      Insert_spec hs.heap T root (hs.UnifiedValue x) 1 (le_refl _) hi.inv hroot
    rw [hins] at hins2
    injection hins2 with e
    injection e with e1 e
    injection e with e2 e3
    subst e1 e2 e3
    have hT2 : T2 = T' := by
      rw [← hpost.inv.shape_eq, ← hcore.inv.shape_eq, ← hcore.root]
      show heap.shape T2.root = heap.shape (some (adoptRoot nr root))
      rw [hpost.root, hroot]
      cases nr <;> rfl
    subst hT2
    have hc4 : Counted heap T2 := hcnt hc rfl
    have hne4 : T2.ids ≠ [] := by
      rcases hpost.ids with ⟨-, e, -⟩ | ⟨-, -, -, A, B, -, e⟩
      · rw [e]
        exact hne
      · rw [e]
        simp
    have hroot4 : T2.root = some (adoptRoot nr root) := by
      rw [hpost.root, hroot]
      cases nr <;> rfl
    have hcount := hc4.root_count hroot4
    have htot := hpost.inv.total_pos hne4
    have hex : ∀ p ∈ hs.Percentiles, ∃ p', cursorAfterInsert heap
        ((heap.get (adoptRoot nr root)).Count : ℚ) (hs.UnifiedValue x) p = .ok p'
        ∧ ∃ A' i' B', T2.ids = A' ++ i' :: B' ∧ CurAt heap p' A' i' := by
      intro p hp
      obtain ⟨A, i, B, hTd, hca⟩ := hcur hne p hp
      obtain ⟨A1, B1, hT', hsh⟩ := insert_shift hi.inv hpost hTd
      obtain ⟨p1, A', i', B', h1, h2, h3, h4, h5⟩ :=
        cursorAfterInsert_spec hpost.inv _ htot hT' hsh hca
      rw [hcount]
      refine ⟨p1, h1, A', i', B', ?_, h2⟩
      by_cases hle : hs.UnifiedValue x ≤ (hs.heap.get i).Value
      · rw [hT', (h4 hle).whole]
      · rw [hT', (h5 (not_le.mp hle)).whole]
    obtain ⟨ps, hps, hall⟩ := mapM_forall _ hex
    obtain ⟨hs4, heq, hev, halike, hps4⟩ :=
      Enqueue_with_some hs x 1 root item mn mx nr heap hr hins hmn hmx ps hps r b' hb
    have hi4 : HistInv hs4 T2 := HistInv.of_alike halike hcore
    have hheap : hs4.heap = heap := by rw [halike.1, enqueueCore_heap]
    have hcur4 : CursorsOK hs4 T2.ids := by
      intro p' hp'
      rw [hps4] at hp'
      obtain ⟨p, -, A', i', B', h1, h2⟩ := forall2_right hall p' hp'
      exact ⟨A', i', B', h1, hheap ▸ h2⟩
    obtain ⟨hs', he', hst⟩ := evictLoop_sim _ hs4 _ none r b' hi4 (hheap ▸ hc4)
      (fun _ => hcur4) hev
    exact ⟨hs', heq.trans he', hst⟩

/-- One call with a single sample on a histogram whose cursors stand on the chain
returns when the call on the histogram without the cursors does. -/
theorem step_sim {hs : Histogram} {T : Shape} (hi : HistInv hs T) (hc : Counted hs.heap T)
    (hcur : T.ids ≠ [] → CursorsOK hs T.ids) (op : HistOp) (hu : op.unit) {b' : Histogram}
    (hb : hs.strip.step op = .ok b') :
    ∃ hs', hs.step op = .ok hs' ∧ hs'.strip = b' := by
  cases op with
  | enqueue v c =>
    have hc1 : c = 1 := hu
    subst hc1
    obtain ⟨r, hb'⟩ := step_enqueue hb
    obtain ⟨hs', he, hst⟩ := Enqueue_sim hi hc hcur v hb'
    refine ⟨hs', ?_, hst⟩
    unfold Histogram.step
    simp only [bind, Except.bind, he, pure, Except.pure]
  | dequeue =>
    obtain ⟨r, hb'⟩ := step_dequeue hb
    obtain ⟨hs', he, hst⟩ := Dequeue_sim hi hc hcur hb'
    refine ⟨hs', ?_, hst⟩
    unfold Histogram.step
    simp only [bind, Except.bind, he, pure, Except.pure]

/-- A run of calls with single samples on a histogram whose cursors stand on the chain
returns when the run on the histogram without the cursors does. -/
theorem run_sim : ∀ (ops : List HistOp) {hs : Histogram} {T : Shape}, HistInv hs T →
    Counted hs.heap T → (T.ids ≠ [] → CursorsOK hs T.ids) → (∀ op ∈ ops, op.unit) →
    ∀ {b' : Histogram}, hs.strip.run ops = .ok b' →
    ∃ hs', hs.run ops = .ok hs' ∧ hs'.strip = b'
  | [], hs, T, _, _, _, _, b', hb => by
    injection hb with hb
    exact ⟨hs, rfl, hb⟩
  | op :: ops, hs, T, hi, hc, hcur, hu, b', hb => by
    obtain ⟨b1, h1, h2⟩ := run_cons hb
    obtain ⟨hs1, he1, hst1⟩ := step_sim hi hc hcur op (hu op (by simp)) h1
    obtain ⟨T1, hi1, hc1, hcur1, -⟩ := step_keeps hi hc hcur op (hu op (by simp)) he1
    subst hst1
    obtain ⟨hs', he', hst'⟩ :=
      run_sim ops hi1 hc1 hcur1 (fun o ho => hu o (by simp [ho])) h2
    refine ⟨hs', ?_, hst'⟩
    unfold Histogram.run
    simp only [bind, Except.bind, he1]
    exact he'

theorem strip_AddPercentilePoint (hs : Histogram) (p : ℚ) :
    (hs.AddPercentilePoint p).strip = hs.strip := rfl

theorem strip_newWithCursors (size : Int) (slab : ℚ) (accuracy : Int) (ps : List ℚ) :
    (newWithCursors size slab accuracy ps).strip = NewHistogram size slab accuracy := by
  unfold newWithCursors
  have key : ∀ (l : List ℚ) (hs : Histogram),
      (l.foldl (fun hs p => hs.AddPercentilePoint p) hs).strip = hs.strip := by
    intro l
    induction l with
    | nil => intro hs; rfl
    | cons a l ih =>
      intro hs
      rw [List.foldl_cons, ih, strip_AddPercentilePoint]
  rw [key]
  rfl

theorem strip_of_plain {b : Histogram} (hb : b.Percentiles = []) : b.strip = b := by
  cases b
  simp only [Histogram.strip] at hb ⊢
  subst hb
  rfl

/-- A run of calls with single samples on a fresh histogram with cursors returns, when
the slab size is at least one, a slab has fewer than `2^63` buckets, and the values are
not negative and lie in the first `2^63` slabs; the bucket index is exact afterwards. -/
theorem fresh_run_cursors_returns (size : Int) (slab : ℚ) (accuracy : Int) (hslab : 1 ≤ slab)
    (hroom : slab * (10 : ℚ) ^ accuracy + 1 ≤ 2 ^ 63)
    (ps : List ℚ) (ops : List HistOp) (hu : ∀ op ∈ ops, op.unit)
    (hn : ∀ op ∈ ops, op.nonneg) (hf : ∀ op ∈ ops, op.fits slab ((10 : ℚ) ^ accuracy)) :
    ∃ hs' T', (newWithCursors size slab accuracy ps).run ops = .ok hs'
      ∧ HistInv hs'.strip T' ∧ BucketInv hs'.strip T' ∧ OnGrid hs'.strip T'
      ∧ InRange slab ((10 : ℚ) ^ accuracy) hs'.strip T' := by
  obtain ⟨b', T', hb, hi', hbk, hg, hr⟩ := fresh_run_returns size slab accuracy hslab hroom ops
    (fun op ho => HistOp.unit_valid (hu op ho)) hn hf
  have hal := newWithCursors_alike size slab accuracy ps
  have hi := HistInv.of_alike hal (fresh_inv size slab accuracy)
  rw [← strip_newWithCursors size slab accuracy ps] at hb
  obtain ⟨hs', he, hst⟩ := run_sim ops hi (by rw [hal.1]; trivial) (fun h => absurd rfl h) hu hb
  subst hst
  exact ⟨hs', T', he, hi', hbk, hg, hr⟩

/-- A run on a fresh histogram returns, without cursors for valid calls and with cursors
for calls with single samples, when the slab size is at least one, a slab has fewer than
`2^63` buckets, and the values are not negative and lie in the first `2^63` slabs; the
bucket index is exact afterwards. -/
theorem fresh_run_total (size : Int) (slab : ℚ) (accuracy : Int) (hslab : 1 ≤ slab)
    (hroom : slab * (10 : ℚ) ^ accuracy + 1 ≤ 2 ^ 63)
    (ps : List ℚ) (ops : List HistOp) (hv : ∀ op ∈ ops, op.valid)
    (hcur : ps = [] ∨ ∀ op ∈ ops, op.unit)
    (hn : ∀ op ∈ ops, op.nonneg) (hf : ∀ op ∈ ops, op.fits slab ((10 : ℚ) ^ accuracy)) :
    ∃ hs' T', (newWithCursors size slab accuracy ps).run ops = .ok hs'
      ∧ HistInv hs'.strip T' ∧ BucketInv hs'.strip T' ∧ OnGrid hs'.strip T'
      ∧ InRange slab ((10 : ℚ) ^ accuracy) hs'.strip T' := by
  rcases hcur with hps | hu
  · subst hps
    obtain ⟨b', T', hb, hi', hbk, hg, hr⟩ := fresh_run_returns size slab accuracy hslab hroom
      ops hv hn hf
    refine ⟨b', T', hb, ?_⟩
    rw [strip_of_plain hbk.cursors]
    exact ⟨hi', hbk, hg, hr⟩
  · exact fresh_run_cursors_returns size slab accuracy hslab hroom ps ops hu hn hf

end Hist

namespace Hist

/-! ## The count of a cursor and the live samples -/

theorem sum_count_mem : ∀ (Q L : List Nat), L.Nodup →
    (L.map fun i => (Q.count i : Int)).sum = (Q.countP (fun j => decide (j ∈ L)) : Int)
  | [], L, _ => by simp
  | a :: Q, L, hnd => by
    have ih := sum_count_mem Q L hnd
    have hsplit : (L.map fun i => ((a :: Q).count i : Int))
        = L.map fun i => (Q.count i : Int) + (if i = a then (1 : Int) else 0) := by
      refine List.map_congr_left (fun i _ => ?_)
      rw [List.count_cons]
      by_cases e : i = a
      · subst e
        simp
      · have : ¬ (a = i) := fun e' => e e'.symm
        simp [e, this]
    rw [hsplit, List.sum_map_add, ih, sum_indicator, List.countP_cons]
    by_cases hm : a ∈ L
    · rw [List.count_eq_one_of_mem hnd hm]
      simp [hm]
    · rw [List.count_eq_zero_of_not_mem hm]
      simp [hm]

/-- The number of samples up to a node of the chain is the number of live samples of at
most its value. -/
theorem HistInv.cum_samples {hs : Histogram} {T : Shape} (hi : HistInv hs T) {A : List Nat}
    {i : Nat} {B : List Nat} (hT : T.ids = A ++ i :: B) :
    dupSum hs.heap (A ++ [i])
      = (hs.samples.countP (fun x => decide (x ≤ (hs.heap.get i).Value)) : Int) := by
  have hnd := hi.inv.nodup
  have hs' := hi.inv.sorted
  rw [hT] at hnd hs'
  have hndL : (A ++ [i]).Nodup := by
    have : (A ++ [i]).Sublist (A ++ i :: B) :=
      List.Sublist.append_left (List.Sublist.cons₂ i (List.nil_sublist B)) A
    exact hnd.sublist this
  unfold Histogram.samples
  rw [List.countP_map]
  have hcongr : hs.Queue.countP ((fun x => decide (x ≤ (hs.heap.get i).Value))
      ∘ fun j => (hs.heap.get j).Value) = hs.Queue.countP (fun j => decide (j ∈ A ++ [i])) := by
    refine List.countP_congr (fun j hj => ?_)
    have hjT := hi.mem_of_queue hj
    rw [hT] at hjT
    simp only [Function.comp, decide_eq_true_eq, List.mem_append, List.mem_singleton]
    simp only [List.mem_append, List.mem_cons] at hjT
    constructor
    · intro hle
      rcases hjT with h1 | h1 | h1
      · exact Or.inl h1
      · exact Or.inr h1
      · exact absurd hle (not_le.mpr (sorted_after hs' j h1))
    · intro hm
      rcases hm with h1 | h1
      · exact le_of_lt (sorted_before hs' j h1)
      · rw [h1]
  rw [hcongr, ← sum_count_mem hs.Queue (A ++ [i]) hndL]
  unfold dupSum
  congr 1
  refine List.map_congr_left (fun j hj => ?_)
  have hjT : j ∈ T.ids := by
    rw [hT]
    simp only [List.mem_append, List.mem_singleton] at hj
    simp only [List.mem_append, List.mem_cons]
    tauto
  rw [hi.queue j, if_pos hjT]

/-- The count of a cursor that stands on a node of the chain is what `CumulativeCount`
returns on the node, and the number of live samples of at most its value. -/
theorem HistInv.cursor_count {hs : Histogram} {T : Shape} (hi : HistInv hs T)
    (hc : Counted hs.heap T) {p : PercentileItem} {A : List Nat} {i : Nat} {B : List Nat}
    (hT : T.ids = A ++ i :: B) (hcur : CurAt hs.heap p A i) :
    p.Item = some i ∧ i ∈ hs.treeNodes ∧ CumulativeCount hs.heap p.Item = .ok p.Count
      ∧ p.Count = (hs.samples.countP (fun x => decide (x ≤ (hs.heap.get i).Value)) : Int) := by
  have hiT : i ∈ T.ids := by rw [hT]; simp
  have hcum : p.Count = dupSum hs.heap (A ++ [i]) := by
    rw [hcur.2]
    simp [dupSum_append]
  refine ⟨hcur.1, ?_, ?_, ?_⟩
  · unfold Histogram.treeNodes
    rw [hi.tree_eq]
    exact hiT
  · rw [hcur.1, CumulativeCount_spec hi.inv hc hiT, hcum]
    have hs' := hi.inv.sorted
    rw [hT] at hs' ⊢
    rw [filter_le_sorted hs']
  · rw [hcum, hi.cum_samples hT]

end Hist

namespace Hist

/-! ## Runs on feasible inputs -/

/-- A run on a fresh histogram with feasible inputs returns, without cursors for valid
calls and with cursors for calls with single samples; the bucket index is exact
afterwards. -/
theorem fresh_run_feasible (size : Int) (slab : ℚ) (accuracy : Int) (ps : List ℚ)
    (ops : List HistOp) (hv : ∀ op ∈ ops, op.valid) (hcur : ps = [] ∨ ∀ op ∈ ops, op.unit)
    (hf : Feasible slab accuracy ops) :
    ∃ hs' T', (newWithCursors size slab accuracy ps).run ops = .ok hs'
      ∧ HistInv hs'.strip T' ∧ BucketInv hs'.strip T' ∧ OnGrid hs'.strip T'
      ∧ InRange slab ((10 : ℚ) ^ accuracy) hs'.strip T' :=
  fresh_run_total size slab accuracy hf.1 hf.2.1 ps ops hv hcur (fun op ho => (hf.2.2 op ho).1)
    (fun op ho => (hf.2.2 op ho).2)

theorem map_UnifiedValue {hs : Histogram} {accuracy : Int}
    (hacc : hs.Accuracy = (10 : ℚ) ^ accuracy) (vs : List ℚ) :
    vs.map hs.UnifiedValue
      = vs.map fun v => goRound (v * (10 : ℚ) ^ accuracy) / (10 : ℚ) ^ accuracy := by
  refine List.map_congr_left (fun v _ => ?_)
  unfold Histogram.UnifiedValue
  rw [hacc]

end Hist

namespace Hist

/-! ## The product search returns -/

/-- The walk up of `CumulativeCount` returns on a tree. -/
theorem cumulativeUp_returns {h : Heap} : ∀ (ctx : List Frame) (pre : Nat) (acc : Int)
    (fuel : Nat), LinkedCtx h ctx (some pre) → ctx.length ≤ fuel →
    ∃ r, cumulativeUp h fuel pre (ctxParent ctx) acc = .ok r
  | [], pre, acc, fuel, _, _ => by
    cases fuel <;> simp [ctxParent, cumulativeUp]
  | f :: fs, pre, acc, 0, _, hf => by simp at hf
  | f :: fs, pre, acc, k + 1, hl, hf => by
    obtain ⟨-, h2, -, -, -, h6⟩ := hl
    have ih := fun acc' => cumulativeUp_returns fs f.id acc' k h6 (by simpa using hf)
    show ∃ r, cumulativeUp h (k + 1) pre (some f.id) acc = .ok r
    rw [cumulativeUp]
    split
    · rw [h2]
      exact ih _
    · rw [h2]
      exact ih _

/-- `CumulativeCount` returns on every node of a tree. -/
theorem CumulativeCount_returns {h : Heap} {T : Shape} (hinv : TreeInv h T) {x : Nat}
    (hx : x ∈ T.ids) : ∃ r, CumulativeCount h (some x) = .ok r := by
  obtain ⟨ctx, L, R, rfl⟩ := exists_plug_of_mem hx
  obtain ⟨-, hpar, -⟩ := node_facts hinv
  have hup := cumulativeUp_returns ctx x ((h.get x).Duplications + leftCount h (h.get x))
    h.budget (linkedCtx_of_plug hinv.linked) (le_of_lt hinv.ctx_lt_budget)
  unfold CumulativeCount
  simp only
  cases hp : (h.get x).Parent with
  | none => exact ⟨_, rfl⟩
  | some g =>
    rw [← hpar, hp] at hup
    exact hup

theorem foldlM_returns {α β : Type} (f : β → α → Except Fault β) (P : α → Prop)
    (hf : ∀ acc a, P a → ∃ acc', f acc a = .ok acc') :
    ∀ (l : List α) (acc : β), (∀ a ∈ l, P a) → ∃ r, l.foldlM f acc = .ok r
  | [], acc, _ => ⟨acc, rfl⟩
  | a :: l, acc, hl => by
    obtain ⟨acc', he⟩ := hf acc a (hl a (by simp))
    rw [List.foldlM_cons]
    simp only [bind, Except.bind, he]
    exact foldlM_returns f P hf l acc' (fun b hb => hl b (by simp [hb]))

/-- The product of the ranks returns on histograms that hold trees. -/
theorem multiplyHistograms_returns (l : List Histogram) (hl : ∀ hs ∈ l, ∃ T, HistInv hs T)
    (mask : List Bool) (c : ℚ) : ∃ r, multiplyHistograms l mask c = .ok r := by
  unfold multiplyHistograms
  refine foldlM_returns _ (fun i => i < l.length) (fun acc i hi => ?_) _ _
    (fun i hi => List.mem_range.mp hi)
  by_cases hm : mask.getD i false = true
  · rw [if_pos hm]
    exact ⟨acc, rfl⟩
  · have hget : l.get? i = some (l.get ⟨i, hi⟩) := List.get?_eq_get hi
    obtain ⟨T, hinv⟩ := hl _ (List.get_mem l i hi)
    have hfind := FindNoLargerThan_spec hinv.inv c
    rw [← hinv.root] at hfind
    rw [if_neg hm, hget]
    simp only [bind, Except.bind, hfind]
    by_cases hmax : floorIn (l.get ⟨i, hi⟩).heap T.ids c = (l.get ⟨i, hi⟩).MaxItem
    · rw [if_pos hmax]
      exact ⟨_, rfl⟩
    · rw [if_neg hmax]
      cases hn : floorIn (l.get ⟨i, hi⟩).heap T.ids c with
      | none => exact ⟨_, rfl⟩
      | some x =>
        obtain ⟨r, hr⟩ := CumulativeCount_returns hinv.inv (floorIn_some hinv.inv.sorted hn).1
        rw [hr]
        exact ⟨_, rfl⟩

end Hist

namespace Hist

/-! ## The product search returns within its budget -/

theorem searchBound_pos (si lo k : Int) : 1 ≤ searchBound si lo k := by
  unfold searchBound
  split_ifs <;> omega

theorem searchBound_step {si lo lo' k : Int} (hk : k ≤ 30) (h : 0 ≤ lo → 0 ≤ lo') :
    searchBound si lo' (k + 1) + 1 ≤ searchBound si lo k := by
  unfold searchBound
  split_ifs <;> omega

theorem searchBound_inner {si lo mid k : Int} (hsi : si < 0) (hk : k ≤ 30)
    (h : 0 ≤ lo → 0 ≤ mid) : searchBound mid 0 1 + 1 ≤ searchBound si lo k := by
  unfold searchBound
  split_ifs <;> omega

theorem searchBound_top (lo : Int) : searchBound (-1) lo 1 ≤ 91 := by
  unfold searchBound
  split_ifs <;> omega

theorem Returns.imp {α : Type} {x : Except Fault α} {P Q : α → Prop} (h : Returns x P)
    (hpq : ∀ a, P a → Q a) : Returns x Q := by
  cases x with
  | error e => exact h
  | ok a => exact hpq a h

theorem returns_ite {α : Type} {c : Prop} [Decidable c] {a b : Except Fault α} {P : α → Prop}
    (ha : c → Returns a P) (hb : ¬c → Returns b P) : Returns (if c then a else b) P := by
  by_cases h : c
  · rw [if_pos h]
    exact ha h
  · rw [if_neg h]
    exact hb h

theorem returns_ite_false {α : Type} {c : Prop} [Decidable c] {a b : Except Fault α}
    {P : α → Prop} (hb : Returns b P) : Returns (if false = true ∧ c then a else b) P := by
  rw [if_neg (fun h => Bool.noConfusion h.1)]
  exact hb

/-- On a list of well-formed histograms that is not empty, `SearchPercentileByMultiply`
returns when its budget is `searchBound` at least, and makes no more evaluations than
`searchBound`. -/
theorem search_total (p : ℚ) (l : List Histogram) (hs0 : Histogram) (tl : List Histogram)
    (hl0 : l = hs0 :: tl) (hl : ∀ hs ∈ l, ∃ T, HistInv hs T) :
    ∀ (fuel : Nat) (sv : ℚ) (mask : List Bool) (lo up : Int) (dir : Bool) (si : Int)
      (lp lc : ℚ) (k : Int), searchBound si lo k ≤ fuel →
      Returns (SearchPercentileByMultiply p fuel sv l mask lo up dir si lp lc k)
        (fun v => v.2 ≤ searchBound si lo k)
  | 0, sv, mask, lo, up, dir, si, lp, lc, k, hb => by
    have := searchBound_pos si lo k
    omega
  | fuel + 1, sv, mask, lo, up, dir, si, lp, lc, k, hb => by
    have ih := search_total p l hs0 tl hl0 hl fuel
    rw [SearchPercentileByMultiply]
    by_cases hg : lo > up ∨ k > 30
    · rw [if_pos hg]
      exact searchBound_pos si lo k
    rw [if_neg hg]
    have hk : k ≤ 30 := by omega
    have hlu : lo ≤ up := by omega
    have hmid : 0 ≤ lo → 0 ≤ (lo + up).tdiv 2 := fun h =>
      Int.tdiv_nonneg (by omega) (by norm_num)
    have hhead : l.head? = some hs0 := by rw [hl0]; rfl
    dsimp only
    rw [hhead]
    dsimp only [bind, Except.bind, pure, Except.pure]
    have hmul2 : ∀ (m : List Bool) (c : ℚ) (f : ℚ × List Nat → Except Fault (ℚ × Nat)),
        (∀ v, Returns (f v) (fun v => v.2 ≤ searchBound si lo k)) →
        Returns (Except.bind (multiplyHistograms l m c) f)
          (fun v => v.2 ≤ searchBound si lo k) := by
      intro m c f hf
      obtain ⟨r, hr⟩ := multiplyHistograms_returns l hl m c
      rw [hr]
      exact hf r
    have hrec2 : ∀ (sv' : ℚ) (m : List Bool) (lo' up' : Int) (gu : Bool) (si' : Int)
        (lp' lc' : ℚ) (k' : Int), searchBound si' lo' k' + 1 ≤ searchBound si lo k →
        Returns (Except.bind (SearchPercentileByMultiply p fuel sv' l m lo' up' gu si' lp' lc' k')
          (fun v => .ok (v.1, v.2 + 1))) (fun v => v.2 ≤ searchBound si lo k) := by
      intro sv' m lo' up' gu si' lp' lc' k' hle
      have hh := ih sv' m lo' up' gu si' lp' lc' k' (by omega)
      revert hh
      cases SearchPercentileByMultiply p fuel sv' l m lo' up' gu si' lp' lc' k' with
      | error e => exact fun h => h
      | ok v =>
        intro hh
        have hh' : v.2 ≤ searchBound si' lo' k' := hh
        show v.2 + 1 ≤ _
        omega
    by_cases hsi : si < 0
    · repeat' first
        | refine returns_ite (fun h => ?_) (fun h => ?_)
        | refine hmul2 _ _ _ (fun v => ?_)
        | exact hrec2 _ _ _ _ _ _ _ _ _ (searchBound_step hk (fun h => h))
        | exact hrec2 _ _ _ _ _ _ _ _ _
            (searchBound_step hk (fun h => by have := hmid h; omega))
        | exact hrec2 _ _ _ _ _ _ _ _ _ (searchBound_inner hsi hk hmid)
        | exact searchBound_pos _ _ _
    · have hout : decide (si < 0 ∧ sv < 0) = false := by simp [hsi]
      rw [hout]
      repeat' first
        | refine returns_ite_false ?_
        | refine returns_ite (fun h => ?_) (fun h => ?_)
        | refine hmul2 _ _ _ (fun v => ?_)
        | exact hrec2 _ _ _ _ _ _ _ _ _ (searchBound_step hk (fun h => h))
        | exact hrec2 _ _ _ _ _ _ _ _ _
            (searchBound_step hk (fun h => by have := hmid h; omega))
        | exact searchBound_pos _ _ _

/-- On an empty list the top call of the search returns at once. -/
theorem search_empty (p sv : ℚ) (mask : List Bool) (fuel : Nat) :
    SearchPercentileByMultiply p (fuel + 1) sv [] mask 0 (-1) true (-1) 0 0 1 = .ok (0, 1) := by
  rw [SearchPercentileByMultiply]
  rw [if_pos (Or.inl (by decide))]
  rfl

/-- One call of `CalcPercentileOfProduct` on well-formed histograms returns after at
most 91 evaluations of `SearchPercentileByMultiply`. -/
theorem product_total (p : ℚ) (l : List (Option Histogram))
    (hl : ∀ hs, some hs ∈ l → ∃ T, HistInv hs T) :
    Returns (CalcPercentileOfProductCounted p l) (fun r => r.2 ≤ 91) := by
  unfold CalcPercentileOfProductCounted
  dsimp only
  refine returns_ite (fun _ => Nat.zero_le _) (fun _ => ?_)
  split
  · exact Nat.zero_le _
  · have hgood : ∀ hs ∈ l.filterMap id, ∃ T, HistInv hs T := by
      intro hs h
      rw [List.mem_filterMap] at h
      obtain ⟨a, ha, e⟩ := h
      have e' : a = some hs := e
      rw [e'] at ha
      exact hl hs ha
    revert hgood
    cases hgl : l.filterMap id with
    | nil =>
      intro _
      have e := search_empty p (-1) [] 91
      simp only [List.all_nil, List.foldl_nil, List.length_nil, List.replicate_zero,
        startOfSearch, if_true, zero_sub]
      rw [e]
      exact (by decide : (1 : Nat) ≤ 91)
    | cons hs0 tl =>
      intro hgood
      exact (search_total p (hs0 :: tl) hs0 tl rfl hgood 92 _ _ _ _ _ _ _ _ _
        ((searchBound_top _).trans (by decide))).imp
        (fun a ha => ha.trans (searchBound_top _))

end Hist

namespace Hist

/-! ## The walks of `Enqueue` keep a cursor on the nearest-rank node -/

end Hist

namespace Hist

/-! ## `Enqueue` without eviction keeps the cursors on the nearest-rank nodes -/

theorem CursorsNear.ok {hs : Histogram} {l : List Nat} (h : CursorsNear hs l) :
    CursorsOK hs l := by
  intro p hp
  obtain ⟨A, i, B, h1, h2, -⟩ := h p hp
  exact ⟨A, i, B, h1, h2⟩

end Hist

namespace Hist

/-! ## The nearest-rank node and the live samples -/

end Hist

namespace Hist

/-! ## Places in the chain -/

end Hist

namespace Hist

/-! ## What the walks of a cursor give -/

end Hist

namespace Hist

/-! ## One cursor through the insert and through the eviction of `Enqueue` -/

end Hist

namespace Hist

/-! ## Two cursors through the insert and through the eviction of `Enqueue` -/

end Hist

namespace Hist

/-! ## Two cursors through the eviction of `Enqueue` -/

end Hist

namespace Hist

/-! ## `Enqueue` with a full window keeps the cursors in order -/

theorem HistInv.total_count {hs : Histogram} {T : Shape} (hi : HistInv hs T) :
    dupSum hs.heap T.ids = hs.Count := by
  rw [hi.dupSum_eq, hi.count]

end Hist

/-! ## The claims -/

namespace Hist

/-! ## Concrete runs -/

/-- C7: AVL balance is not kept by `create_tree [1, 2, 3, 4, 5, 6]`. -/
theorem create_tree_unbalanced :
    ∃ s, create_tree [1, 2, 3, 4, 5, 6] = .ok s ∧ ¬ s.shape.Balanced := by
  refine ⟨_, rfl, ?_⟩
  decide!

/-- C14: `GetPercentileForValue` on a histogram without samples dereferences `nil`, and
so it does for a value below the smallest sample. -/
theorem GetPercentileForValue_nil :
    Fails ((NewHistogram 0 10 0).GetPercentileForValue 5) .nilDeref
      ∧ Returns ((NewHistogram 0 10 0).run (enqueues [5]))
          (fun hs => Fails (hs.GetPercentileForValue 3) .nilDeref) := by
  decide!

/-- C4: with the cursor `1/2`, after `Enqueue` of 2, 1, 3, 3 and one `Dequeue` the three
live samples are 1, 3, 3 and the cursor stands on the node of 3 with `Count` 3, while the
nearest-rank node, the last one whose rank is at most `3/2`, is the node of 1. -/
theorem cursor_off_after_dequeue :
    Returns ((newWithCursors 0 10 0 [1 / 2]).run (enqueues [2, 1, 3, 3] ++ [HistOp.dequeue]))
      (fun hs => hs.Count = 3 ∧ hs.cursorValues = [some 3]
        ∧ hs.Percentiles.map (fun p => p.Count) = [3]
        ∧ hs.valueAt (hs.nearestRankNode (1 / 2)) = some 1
        ∧ hs.Percentiles.map (fun p => p.Item) ≠ [hs.nearestRankNode (1 / 2)]) := by
  decide!

/-- C8: the node `Insert(2, 3, 0)` creates has `Count` 1 and `Duplications` 3, and so has
the root `Enqueue(5, 2)` creates in an empty histogram: the count equation fails. -/
theorem new_node_count_one :
    Returns (TreeState.init.run [TreeOp.insert 1 1, TreeOp.insert 2 3])
        (fun s => (s.heap.get 1).Value = 2 ∧ (s.heap.get 1).Count = 1
          ∧ (s.heap.get 1).Duplications = 3 ∧ ¬ LocalCount s.heap 1)
      ∧ Returns ((NewHistogram 0 10 0).run [HistOp.enqueue 5 2])
        (fun hs => hs.RootItem = some 0 ∧ (hs.heap.get 0).Count = 1
          ∧ (hs.heap.get 0).Duplications = 2 ∧ ¬ LocalCount hs.heap 0) := by
  decide!

/-- C15: a histogram drained by `Dequeue` has `Count` 0, yet `GetValueAtPercentile`
returns the value of the stale cursor node, or without a cursor a slab boundary. -/
theorem drained_percentile_not_zero :
    Returns ((newWithCursors 0 10 0 [1 / 2]).run [HistOp.enqueue 5 1, HistOp.dequeue])
        (fun hs => hs.Count = 0 ∧ Returns (hs.GetValueAtPercentile (1 / 2)) (fun v => v = 5))
      ∧ Returns ((NewHistogram 0 10 0).run [HistOp.enqueue 5 1, HistOp.dequeue])
        (fun hs => hs.Count = 0 ∧ Returns (hs.GetValueAtPercentile (1 / 2)) (fun v => v = 10)) := by
  decide!

/-- C22: `Enqueue` of a negative value, and of `0.06` with slab size `0.1`, computes a
negative bucket index and indexes out of range. -/
theorem negative_bucket_index :
    (NewBucketHistogram 10 1).CalcPosition (-20) = (-2, -20, -10)
      ∧ Fails ((NewHistogram 0 10 0).Enqueue (-20) 1) .outOfRange
      ∧ ((NewHistogram 100 (1 / 10) 3).BucketHistogram.CalcPosition (6 / 100)).1 = 1
      ∧ (NewSubBucketHistogram (1 / 1000) (1 / 10) (2 / 10)).CalcPosition (6 / 100) = -40
      ∧ Fails ((NewHistogram 100 (1 / 10) 3).Enqueue (6 / 100) 1) .outOfRange := by
  decide!

/-- C24: for the samples 1, 2, 3 and `p = 9/10` the search returns 2, whose rank is 2 of
3, not 3, the smallest value whose rank reaches `p`. -/
theorem product_search_wrong :
    Returns ((NewHistogram 0 10 0).run (enqueues [1, 2, 3]))
      (fun hs => Returns (CalcPercentileOfProduct (9 / 10) [some hs]) (fun v => v = 2)
        ∧ Returns (hs.GetValueAtPercentile (9 / 10)) (fun v => v = 2)
        ∧ hs.rank 2 = 2 ∧ hs.rank 3 = 3 ∧ hs.Count = 3) := by
  decide!

/-- C26, as stated, fails: with accuracy 12 and the samples 0 and 10, one call for
`p = 3/4` makes 32 evaluations of `SearchPercentileByMultiply`, one over the slabs and
31 inside a slab, the last of which returns at the test `iteration_count > 30`. -/
theorem search_over_thirty :
    Returns ((NewHistogram 0 10 12).run (enqueues [0, 10]))
      (fun hs => Returns (CalcPercentileOfProductCounted (3 / 4) [some hs])
        (fun r => r.2 = 32)) := by
  decide!

/-- C27, as stated, fails: `NewHistogram(0, -5, 0)` builds a bucket index whose
`SubBucketHistogramSize` is `-5`, not 10. -/
theorem negative_slab_kept :
    (NewHistogram 0 (-5) 0).BucketHistogram.SubBucketHistogramSize = -5
      ∧ (NewHistogram 0 (-5) 0).BucketHistogram.SubBucketHistogramSize ≠ 10 := by
  constructor
  · simp [NewHistogram, NewBucketHistogram]
  · simp [NewHistogram, NewBucketHistogram]
    norm_num

/-- C27, amended: for every window size and accuracy, `NewHistogram(size, s, accuracy)`
builds a bucket index whose `SubBucketHistogramSize` is 10 when `s` is 0 and `s` when it
is not, also when `s` is negative; the unit bucket size is `1 / 10^accuracy`. -/
theorem slab_size_default (size : Int) (s : ℚ) (accuracy : Int) :
    (NewHistogram size s accuracy).BucketHistogram.SubBucketHistogramSize
        = (if s = 0 then 10 else s)
      ∧ (NewHistogram size s accuracy).BucketHistogram.BucketSize
          = 1 / (10 : ℚ) ^ accuracy := by
  refine ⟨rfl, ?_⟩
  · show (if accuracy ≠ 0 then 1 / (10 : ℚ) ^ accuracy else 1) = _
    split
    · rfl
    · rename_i h
      have : accuracy = 0 := by omega
      rw [this]
      simp

/-- C29: after `Enqueue` of 1 to 10 the root has height 5, not 4; the smallest value is
1, the largest 10, and the cursors stand on 2, 5, 7, 9. -/
theorem scenario_one :
    Returns ((newWithCursors 10 10 1 [1 / 4, 1 / 2, 3 / 4, 9 / 10]).run
        (enqueues [1, 2, 3, 4, 5, 6, 7, 8, 9, 10]))
      (fun hs => (hs.RootItem.map fun r => (hs.heap.get r).Height) = some 5
        ∧ hs.valueAt hs.MinItem = some 1 ∧ hs.valueAt hs.MaxItem = some 10
        ∧ hs.cursorValues = [some 2, some 5, some 7, some 9]) := by
  decide!

/-- C30: the tree of `create_tree SAMPLE_LIST` has a root with value 1612, height 7 and
count 50; its leftmost node holds 134 and its rightmost node 18210, both of height 1. -/
theorem scenario_two :
    Returns (create_tree SAMPLE_LIST)
      (fun s => Returns (deref s.root) (fun r =>
        (s.heap.get r).Value = 1612 ∧ (s.heap.get r).Height = 7 ∧ (s.heap.get r).Count = 50
        ∧ Returns (leftmost s.heap s.heap.budget r) (fun m =>
            (s.heap.get m).Value = 134 ∧ (s.heap.get m).Height = 1)
        ∧ Returns (rightmost s.heap s.heap.budget r) (fun m =>
            (s.heap.get m).Value = 18210 ∧ (s.heap.get m).Height = 1))) := by
  decide!

/-- C17: `Dequeue` on an empty queue returns `nil` and the state as it was. -/
theorem Dequeue_empty (hs : Histogram) (hq : hs.Queue = []) : hs.Dequeue = .ok (none, hs) := by
  unfold Histogram.Dequeue
  rw [hq]

theorem Dequeue_empty_witness :
    (NewHistogram 10 1 1).Queue = []
      ∧ (NewHistogram 10 1 1).Dequeue = .ok (none, NewHistogram 10 1 1) :=
  ⟨rfl, Dequeue_empty (NewHistogram 10 1 1) rfl⟩

theorem filterMap_replicate_none (n : Nat) :
    (List.replicate n (none : Option Histogram)).filterMap id = [] := by
  induction n with
  | zero => rfl
  | succ k ih => simp [List.replicate_succ, ih]

/-- C25: `CalcPercentileOfProduct` returns 0 on the empty list and on a list of `nil`
entries of any length, without a fault. -/
theorem product_search_degenerate (p : ℚ) (n : Nat) :
    CalcPercentileOfProduct p (List.replicate n none) = .ok 0 := by
  match n with
  | 0 => rfl
  | 1 => rfl
  | k + 2 =>
    have hg := filterMap_replicate_none (k + 2)
    unfold CalcPercentileOfProduct CalcPercentileOfProductCounted
    simp only [hg]
    simp [List.replicate_succ, startOfSearch, SearchPercentileByMultiply, bind, Except.bind,
      pure, Except.pure]

/-- C31: after `Enqueue(5, 1)` and `Dequeue` the histogram is empty, `RootItem` is `nil`
and no node is live, but the cursor still has the removed node as its `Item`. -/
theorem cursor_stale_after_drain :
    Returns ((newWithCursors 0 10 0 [1 / 2]).run [HistOp.enqueue 5 1, HistOp.dequeue])
      (fun hs => hs.Count = 0 ∧ hs.RootItem = none ∧ hs.nodes = []
        ∧ hs.Percentiles.map (fun p => p.Item) = [some 0]) := by
  decide!

/-- C38: `Enqueue(5, 2)` on an empty histogram leaves `RootItem.Count = 1`, two calls
`Enqueue(5, 1)` leave `RootItem.Count = 2`. -/
theorem batch_differs_from_units :
    Returns ((newWithCursors 0 10 0 [1 / 2]).run [HistOp.enqueue 5 2])
        (fun hs => hs.Count = 2 ∧ (hs.RootItem.map fun r => (hs.heap.get r).Count) = some 1)
      ∧ Returns ((newWithCursors 0 10 0 [1 / 2]).run [HistOp.enqueue 5 1, HistOp.enqueue 5 1])
        (fun hs => hs.Count = 2 ∧ (hs.RootItem.map fun r => (hs.heap.get r).Count) = some 2) := by
  decide!

/-- C39: with accuracy 1 the value `0.1` sits in slab 0 at the inner index 1, but
`GetValueOfBucket(0, 1)` is 10, the upper boundary of the slab. -/
theorem bucket_value_not_inverse :
    ((NewHistogram 0 10 1).BucketHistogram.CalcPosition (1 / 10)).1 = 0
      ∧ (NewSubBucketHistogram (NewHistogram 0 10 1).BucketHistogram.BucketSize 0 10).CalcPosition
          (1 / 10) = 1
      ∧ (NewHistogram 0 10 1).GetValueOfBucket 0 1 = 10
      ∧ (NewHistogram 0 10 1).GetMaximumSizeOfSubHistograms = 100 := by
  decide!

/-- C40: a cursor registered after the first sample has no `Item`; the next `Enqueue`,
and the next `Dequeue`, dereference it. -/
theorem late_cursor_nil_deref :
    Returns ((NewHistogram 0 10 0).run [HistOp.enqueue 1 1])
        (fun hs => Fails ((hs.AddPercentilePoint (1 / 2)).Enqueue 2 1) .nilDeref)
      ∧ Returns ((NewHistogram 0 10 0).run [HistOp.enqueue 1 1, HistOp.enqueue 2 1])
        (fun hs => Fails (hs.AddPercentilePoint (1 / 2)).Dequeue .nilDeref) := by
  decide!

end Hist

namespace Hist

/-- C6: after any sequence of `Insert(v, c, 0)` with `c ≥ 1` and `Delete` on nodes of
the tree, from the first node on, every node has only smaller values in its left
subtree and only larger values in its right subtree. -/
theorem bst_ordering (ops : List TreeOp) (hv : ∀ op ∈ ops, op.valid) :
    Returns (TreeState.init.run ops) (fun s => Ordered s.heap s.shape) := by
  obtain ⟨s, T, he, hg, -⟩ := run_init ops hv
  rw [he]
  show Ordered s.heap s.shape
  rw [hg.shape_is]
  exact ordered_of_sorted T hg.1.sorted

theorem bst_ordering_witness :
    Returns (TreeState.init.run
        [.insert 2 1, .insert 1 3, .insert 3 1, .insert 4 1, .delete 2, .delete 1])
      (fun s => Ordered s.heap s.shape) :=
  bst_ordering _ (by decide)

/-- C9: after any sequence of `Insert` and `Delete` the nodes of the tree are distinct,
the walk along `Larger` from the node without `Smaller` visits them all in order, their
values ascend strictly and are the distinct live values in ascending order, and the walk
along `Smaller` from the node without `Larger` visits them in reverse; a tree with a
node has both ends. -/
theorem chain_consistency (ops : List TreeOp) (hv : ∀ op ∈ ops, op.valid) :
    Returns (TreeState.init.run ops) (fun s =>
      s.shape.ids.Nodup
        ∧ (∀ i ∈ s.shape.ids, (s.heap.get i).Smaller = none →
            chainFrom s.heap s.heap.budget (some i) = s.shape.ids)
        ∧ (∀ i ∈ s.shape.ids, (s.heap.get i).Larger = none →
            chainBack s.heap s.heap.budget (some i) = s.shape.ids.reverse)
        ∧ (s.shape.ids ≠ [] →
            (∃ i, s.shape.ids.head? = some i ∧ (s.heap.get i).Smaller = none)
              ∧ (∃ i, s.shape.ids.getLast? = some i ∧ (s.heap.get i).Larger = none))
        ∧ (s.heap.values s.shape.ids).Pairwise (· < ·)
        ∧ s.heap.values s.shape.ids = (liveAfter ops).dedup.insertionSort (· ≤ ·)) := by
  obtain ⟨s, T, he, hg, hm, -⟩ := run_init ops hv
  rw [he]
  show _ ∧ _
  rw [hg.shape_is]
  exact ⟨hg.1.nodup, fun i hi hs => hg.1.chain_from hi hs, fun i hi hs => hg.1.chain_back hi hs,
    fun hne => hg.1.chain_ends hne, hg.1.sorted, values_eq_sort hg.1 _ hm⟩

theorem chain_consistency_witness :
    Returns (TreeState.init.run [.insert 2 1, .insert 1 3, .insert 3 1, .delete 2]) (fun s =>
      s.shape.ids.Nodup
        ∧ (∀ i ∈ s.shape.ids, (s.heap.get i).Smaller = none →
            chainFrom s.heap s.heap.budget (some i) = s.shape.ids)
        ∧ (∀ i ∈ s.shape.ids, (s.heap.get i).Larger = none →
            chainBack s.heap s.heap.budget (some i) = s.shape.ids.reverse)
        ∧ (s.shape.ids ≠ [] →
            (∃ i, s.shape.ids.head? = some i ∧ (s.heap.get i).Smaller = none)
              ∧ (∃ i, s.shape.ids.getLast? = some i ∧ (s.heap.get i).Larger = none))
        ∧ (s.heap.values s.shape.ids).Pairwise (· < ·)
        ∧ s.heap.values s.shape.ids
            = (liveAfter [.insert 2 1, .insert 1 3, .insert 3 1, .delete 2]).dedup.insertionSort
                (· ≤ ·)) :=
  chain_consistency _ (by decide)

/-- C10: on a tree reached by inserts with `c ≥ 1` and deletes, `Insert(v, c, 0)` adds
`c` to the multiplicity of `v` and makes one node exactly when `v` was absent, `Delete`
on the node of `v` takes one from the multiplicity of `v` and takes the node out exactly
when the multiplicity was one, no other multiplicity changes, and a value has a node
exactly when its multiplicity is positive.  The counts are those of `int64`: the
samples inserted, the last call included, are fewer than `2^63`, so that no sum wraps
around. -/
theorem multiset_semantics (ops : List TreeOp) (op : TreeOp) (hv : ∀ o ∈ ops, o.valid)
    (ho : op.valid) (_hfit : inserted (ops ++ [op]) < 2 ^ 63) :
    Returns (TreeState.init.run ops) (fun s => Returns (s.step op) (fun s' =>
      (∀ w, s'.multiplicity w = s.multiplicity w + op.delta s.multiplicity w)
        ∧ (s'.shape.ids.length : Int) = s.shape.ids.length + op.nodes s.multiplicity
        ∧ (∀ w, (∃ i ∈ s'.shape.ids, (s'.heap.get i).Value = w) ↔ 0 < s'.multiplicity w)
        ∧ s'.shape.ids.Nodup)) := by
  obtain ⟨s, T, he, hg, -⟩ := run_init ops hv
  obtain ⟨s', T', he', hg', hm, hn, -⟩ := step_spec hg op ho
  rw [he]
  show Returns (s.step op) _
  rw [he']
  show _ ∧ _
  have e1 : s.multiplicity = mult s.heap T.ids := by
    funext w
    rw [TreeState.multiplicity, hg.shape_is]
  have e2 : s'.multiplicity = mult s'.heap T'.ids := by
    funext w
    rw [TreeState.multiplicity, hg'.shape_is]
  rw [e1, e2, hg.shape_is, hg'.shape_is]
  refine ⟨hm, hn, fun w => ⟨fun ⟨i, hi, e⟩ => mult_pos_of_mem hg'.1.dups hi e, fun hp => ?_⟩,
    hg'.1.nodup⟩
  by_contra hne
  have := @mult_eq_zero s'.heap T'.ids w (fun i hi e => hne ⟨i, hi, e⟩)
  omega

theorem multiset_semantics_witness :
    Returns (TreeState.init.run [.insert 2 1, .insert 1 3, .insert 3 1])
      (fun s => Returns (s.step (.delete 1)) (fun s' =>
        (∀ w, s'.multiplicity w = s.multiplicity w + (TreeOp.delete 1).delta s.multiplicity w)
          ∧ (s'.shape.ids.length : Int)
              = s.shape.ids.length + (TreeOp.delete 1).nodes s.multiplicity
          ∧ (∀ w, (∃ i ∈ s'.shape.ids, (s'.heap.get i).Value = w) ↔ 0 < s'.multiplicity w)
          ∧ s'.shape.ids.Nodup)) :=
  multiset_semantics _ _ (by decide) (by decide) (by decide)

/-- C13: on a tree reached by inserts and deletes, `root.Find(v)` returns a node with
value `v` when a live sample has the value `v` and `nil` otherwise; after `Delete` on the
node found, `Find(v)` from the root still returns that node when it held more than one
sample, and returns `nil` from the new root when it held one. -/
theorem find_exact (ops : List TreeOp) (hv : ∀ op ∈ ops, op.valid) (v : ℚ) :
    Returns (TreeState.init.run ops) (fun s => ∀ r, s.root = some r →
      (v ∈ liveAfter ops → ∃ n ∈ s.shape.ids,
          Find s.heap s.heap.budget r v = .ok (some n) ∧ (s.heap.get n).Value = v)
        ∧ (v ∉ liveAfter ops → Find s.heap s.heap.budget r v = .ok none)
        ∧ ∀ n, Find s.heap s.heap.budget r v = .ok (some n) →
            Returns (Delete s.heap n) (fun res =>
              (1 < (s.heap.get n).Duplications →
                  Find res.2.2 res.2.2.budget r v = .ok (some n))
                ∧ ((s.heap.get n).Duplications = 1 → ∀ x, res.2.1 = some x →
                  Find res.2.2 res.2.2.budget x v = .ok none))) := by
  obtain ⟨s, T, he, hg, hm, -⟩ := run_init ops hv
  rw [he]
  intro r hr
  rw [hg.shape_is]
  have hroot : T.root = some r := hg.2.trans hr
  have hspec := Find_spec s.heap T r v hg.1 hroot
  refine ⟨fun hl => ?_, fun hl => ?_, fun n hf => ?_⟩
  · rcases hspec with ⟨n, hf, hn, hval⟩ | ⟨-, hno⟩
    · exact ⟨n, hn, hf, hval⟩
    · have hz : mult s.heap T.ids v = 0 := mult_eq_zero hno
      rw [hm v] at hz
      have := List.count_pos_iff.mpr hl
      omega
  · rcases hspec with ⟨n, hf, hn, hval⟩ | ⟨hf, -⟩
    · have := mult_pos_of_mem hg.1.dups hn hval
      rw [hm v] at this
      exact absurd (List.count_pos_iff.mp (by exact_mod_cast this)) hl
    · exact hf
  · have hn : n ∈ T.ids ∧ (s.heap.get n).Value = v := by
      rcases hspec with ⟨n', hf', hn', hval'⟩ | ⟨hf', -⟩
      · rw [hf] at hf'
        cases hf'
        exact ⟨hn', hval'⟩
      · rw [hf] at hf'
        cases hf'
    obtain ⟨replaced, newRoot, h', hd, hpost⟩ := Delete_spec s.heap T n hg.1 hn.1
    rw [hd]
    show _ ∧ _
    rcases hpost with ⟨hd1, -, -, hinv', -, hsame, -⟩ | ⟨hd1, -, -, e2, -⟩
        | ⟨hd1, T', hrem, e2, -, -⟩
    · refine ⟨fun _ => ?_, fun h1 => by omega⟩
      rcases Find_spec h' T r v hinv' hroot with ⟨n', hf', hn', hval'⟩ | ⟨-, hno⟩
      · have : n' = n := hinv'.value_inj hn' hn.1 (by rw [hval', (hsame n hn.1).1, hn.2])
        rw [hf', this]
      · exact absurd (by rw [(hsame n hn.1).1, hn.2]) (hno n hn.1)
    · exact ⟨fun h1 => by omega, fun _ x hx => by simp [e2] at hx⟩
    · refine ⟨fun h1 => by omega, fun _ x hx => ?_⟩
      have hx' : T'.root = some x := by rw [← e2]; exact hx
      rcases Find_spec h' T' x v hrem.inv hx' with ⟨n', -, hn', hval'⟩ | ⟨hf', -⟩
      · exfalso
        obtain ⟨A, B, eA, eB⟩ := hrem.ids
        rw [eB] at hn'
        refine hg.1.others_ne eA n' hn' ?_
        rw [← (hrem.same n').1, hval', hn.2]
      · exact hf'

theorem find_exact_witness :
    Returns (TreeState.init.run [.insert 2 1, .insert 1 3, .insert 3 1, .delete 2])
      (fun s => ∀ r, s.root = some r →
        ((1 : ℚ) ∈ liveAfter [.insert 2 1, .insert 1 3, .insert 3 1, .delete 2] →
            ∃ n ∈ s.shape.ids,
              Find s.heap s.heap.budget r 1 = .ok (some n) ∧ (s.heap.get n).Value = 1)
          ∧ ((1 : ℚ) ∉ liveAfter [.insert 2 1, .insert 1 3, .insert 3 1, .delete 2] →
              Find s.heap s.heap.budget r 1 = .ok none)
          ∧ ∀ n, Find s.heap s.heap.budget r 1 = .ok (some n) →
              Returns (Delete s.heap n) (fun res =>
                (1 < (s.heap.get n).Duplications →
                    Find res.2.2 res.2.2.budget r 1 = .ok (some n))
                  ∧ ((s.heap.get n).Duplications = 1 → ∀ x, res.2.1 = some x →
                    Find res.2.2 res.2.2.budget x 1 = .ok none))) :=
  find_exact _ (by decide) 1

end Hist

namespace Hist

/-- C32: on a tree reached by inserts and deletes, `Delete` on a node `n` that holds
more than one sample returns `(n, nil)`; afterwards the cell of `n` has one less in
`Duplications` and `Count`, the cells of the nodes above `n` have one less in `Count`,
and every other cell, and every other field of these cells, is as before. -/
theorem delete_duplicate_frame (ops : List TreeOp) (hv : ∀ op ∈ ops, op.valid) :
    Returns (TreeState.init.run ops) (fun s => ∀ n ∈ s.shape.ids,
      1 < (s.heap.get n).Duplications →
      Returns (Delete s.heap n) (fun res =>
        res.1 = some n ∧ res.2.1 = none ∧ res.2.2.size = s.heap.size
          ∧ ∀ i, res.2.2.get i =
              if i = n then
                { s.heap.get n with Duplications := (s.heap.get n).Duplications - 1,
                                    Count := (s.heap.get n).Count - 1 }
              else if i ∈ ancestors s.heap s.heap.budget (s.heap.get n).Parent then
                { s.heap.get i with Count := (s.heap.get i).Count - 1 }
              else s.heap.get i)) := by
  obtain ⟨s, T, he, hg, -⟩ := run_init ops hv
  rw [he]
  intro n hn hd
  rw [hg.shape_is] at hn
  obtain ⟨h2, hdel, hs, hcell⟩ := Delete_frame s.heap T n hg.1 hn hd
  rw [hdel]
  exact ⟨rfl, rfl, hs, hcell⟩

theorem delete_duplicate_frame_witness :
    Returns (TreeState.init.run [.insert 2 1, .insert 1 3, .insert 3 1]) (fun s =>
      ∀ n ∈ s.shape.ids, 1 < (s.heap.get n).Duplications →
      Returns (Delete s.heap n) (fun res =>
        res.1 = some n ∧ res.2.1 = none ∧ res.2.2.size = s.heap.size
          ∧ ∀ i, res.2.2.get i =
              if i = n then
                { s.heap.get n with Duplications := (s.heap.get n).Duplications - 1,
                                    Count := (s.heap.get n).Count - 1 }
              else if i ∈ ancestors s.heap s.heap.budget (s.heap.get n).Parent then
                { s.heap.get i with Count := (s.heap.get i).Count - 1 }
              else s.heap.get i)) :=
  delete_duplicate_frame _ (by decide)

/-- C34: on a tree reached by inserts and deletes, `root.Insert(v, c, 0)` of the value
`v` of a node `x` returns `(x, nil)` for every `c ≥ 1`; afterwards the cell of `x` has
`c` more in `Duplications` and `Count`, the cells of the nodes above `x` have `c` more in
`Count`, and every other cell, and every other field of these cells, is as before.  The
counts are those of `int64`: the samples inserted, these `c` included, are fewer than
`2^63`, so that no sum wraps around. -/
theorem insert_existing_frame (ops : List TreeOp) (hv : ∀ op ∈ ops, op.valid) (c : Int)
    (_hc : 1 ≤ c) (_hfit : inserted ops + c < 2 ^ 63) :
    Returns (TreeState.init.run ops) (fun s => ∀ r x, s.root = some r → x ∈ s.shape.ids →
      Returns (Insert s.heap.budget s.heap r (s.heap.get x).Value c) (fun res =>
        res.1 = x ∧ res.2.1 = none ∧ res.2.2.size = s.heap.size
          ∧ ∀ i, res.2.2.get i =
              if i = x then
                { s.heap.get x with Duplications := (s.heap.get x).Duplications + c,
                                    Count := (s.heap.get x).Count + c }
              else if i ∈ ancestors s.heap s.heap.budget (s.heap.get x).Parent then
                { s.heap.get i with Count := (s.heap.get i).Count + c }
              else s.heap.get i)) := by
  obtain ⟨s, T, he, hg, -⟩ := run_init ops hv
  rw [he]
  intro r x hr hx
  rw [hg.shape_is] at hx
  obtain ⟨h2, hins, hs, hcell⟩ := Insert_frame s.heap T r x c hg.1 (hg.2.trans hr) hx
  rw [hins]
  exact ⟨rfl, rfl, hs, hcell⟩

theorem insert_existing_frame_witness :
    Returns (TreeState.init.run [.insert 2 1, .insert 1 3, .insert 3 1]) (fun s =>
      ∀ r x, s.root = some r → x ∈ s.shape.ids →
      Returns (Insert s.heap.budget s.heap r (s.heap.get x).Value 2) (fun res =>
        res.1 = x ∧ res.2.1 = none ∧ res.2.2.size = s.heap.size
          ∧ ∀ i, res.2.2.get i =
              if i = x then
                { s.heap.get x with Duplications := (s.heap.get x).Duplications + 2,
                                    Count := (s.heap.get x).Count + 2 }
              else if i ∈ ancestors s.heap s.heap.budget (s.heap.get x).Parent then
                { s.heap.get i with Count := (s.heap.get i).Count + 2 }
              else s.heap.get i)) :=
  insert_existing_frame _ (by decide) 2 (by decide) (by decide)

/-- C33: on a tree reached by inserts and deletes, `Delete` on a node `n` that holds one
sample returns `(nil, nil)` exactly when `n` is the only node; otherwise the second
result is the root of a tree that holds the other nodes in the same order, and the first
result is the last node of the left subtree of `n` when `n` has a left child, else the
first node of its right subtree, else `nil`.  For any node of the tree the test of
`Dequeue`, a second result or two `nil` results, holds exactly when the node held one
sample. -/
theorem delete_return_contract (ops : List TreeOp) (hv : ∀ op ∈ ops, op.valid) :
    Returns (TreeState.init.run ops) (fun s => ∀ n ∈ s.shape.ids,
      Returns (Delete s.heap n) (fun res =>
        ((res.2.1 ≠ none ∨ (res.2.1 = none ∧ res.1 = none)) ↔ (s.heap.get n).Duplications = 1)
          ∧ ((s.heap.get n).Duplications = 1 →
            ((res.1 = none ∧ res.2.1 = none) ↔ s.shape.ids = [n])
              ∧ res.1 = inorderDonor s.heap n
              ∧ (s.shape.ids ≠ [n] → ∃ x, res.2.1 = some x ∧ (res.2.2.get x).Parent = none
                  ∧ (res.2.2.shape (some x)).ids = s.shape.ids.erase n)))) := by
  obtain ⟨s, T, he, hg, -⟩ := run_init ops hv
  rw [he]
  intro n hn
  rw [hg.shape_is] at hn ⊢
  obtain ⟨replaced, newRoot, h', hdel, hpost⟩ := Delete_spec s.heap T n hg.1 hn
  rw [hdel]
  show _ ∧ _
  have hdon : (s.heap.get n).Duplications = 1 → replaced = inorderDonor s.heap n := by
    intro hd1
    obtain ⟨nr, h2, e⟩ := Delete_replaced s.heap T n hg.1 hn hd1
    rw [hdel] at e
    injection e with e
    injection e with e1 e2
  rcases hpost with ⟨hd, e1, e2, -⟩ | ⟨hd, hT, e1, e2, -⟩ | ⟨hd, T', hrem, e2, hne, -⟩
  · subst e1 e2
    refine ⟨⟨fun hh => ?_, fun hh => by omega⟩, fun hh => by omega⟩
    simp at hh
  · subst e1 e2 hT
    refine ⟨⟨fun _ => hd, fun _ => Or.inr ⟨rfl, rfl⟩⟩, fun _ => ⟨?_, hdon hd, fun hh => ?_⟩⟩
    · simp [Shape.ids]
    · simp [Shape.ids] at hh
  · obtain ⟨A, B, eA, eB⟩ := hrem.ids
    obtain ⟨x, hx⟩ := Option.ne_none_iff_exists'.mp hne
    have hnr : newRoot = some x := e2.trans hx
    have hTn : T.ids ≠ [n] := by
      intro e
      rw [e] at eA
      have hlen := congrArg List.length eA
      simp at hlen
      have hA : A = [] := List.length_eq_zero.mp (by omega)
      have hB : B = [] := List.length_eq_zero.mp (by omega)
      subst hA hB
      have : T' = .nil := by
        cases T' with
        | nil => rfl
        | node l i r => simp [Shape.ids] at eB
      rw [this] at hx
      simp at hx
    refine ⟨⟨fun _ => hd, fun _ => Or.inl (by simp [hnr])⟩, fun _ => ⟨?_, hdon hd, fun _ => ?_⟩⟩
    · constructor
      · intro hh
        simp [hnr] at hh
      · intro hh
        exact absurd hh hTn
    · refine ⟨x, hnr, ?_, ?_⟩
      · obtain ⟨l, i, r, rfl⟩ : ∃ l i r, T' = .node l i r := by
          cases T' with
          | nil => simp at hx
          | node l i r => exact ⟨l, i, r, rfl⟩
        simp only [Shape.root_node, Option.some.injEq] at hx
        subst hx
        exact hrem.inv.linked.2.1
      · show (h'.shape (some x)).ids = _
        rw [← hx, hrem.inv.shape_eq, eB, eA, erase_middle (by rw [← eA]; exact hg.1.nodup)]

theorem delete_return_contract_witness :
    Returns (TreeState.init.run [.insert 2 1, .insert 1 3, .insert 3 1, .insert 4 1])
      (fun s => ∀ n ∈ s.shape.ids,
        Returns (Delete s.heap n) (fun res =>
          ((res.2.1 ≠ none ∨ (res.2.1 = none ∧ res.1 = none))
              ↔ (s.heap.get n).Duplications = 1)
            ∧ ((s.heap.get n).Duplications = 1 →
              ((res.1 = none ∧ res.2.1 = none) ↔ s.shape.ids = [n])
                ∧ res.1 = inorderDonor s.heap n
                ∧ (s.shape.ids ≠ [n] → ∃ x, res.2.1 = some x ∧ (res.2.2.get x).Parent = none
                    ∧ (res.2.2.shape (some x)).ids = s.shape.ids.erase n)))) :=
  delete_return_contract _ (by decide)

/-- C36: on a tree reached by inserts and deletes, `t.LeftRotate()` at a node with a
right child `p`, and `t.RightRotate()` at a node with a left child `p`, return `p` and
leave it on top of the subtree under the former parent of `t`, with the same nodes in
the same order, the same values, multiplicities and chain links, the former count of
`t` at `p`, the count equation at `t` and `p` when it held before, and heights of `t`
and `p` that fit their children; without that child the rotation returns `t` and
changes nothing. -/
theorem rotations_preserve (ops : List TreeOp) (hv : ∀ op ∈ ops, op.valid) :
    Returns (TreeState.init.run ops) (fun s => ∀ t ∈ s.shape.ids,
      (∀ p, (s.heap.get t).Right = some p →
          (LeftRotate s.heap t).1 = p ∧ Rotated s.heap (LeftRotate s.heap t).2 t p)
        ∧ (∀ p, (s.heap.get t).Left = some p →
          (RightRotate s.heap t).1 = p ∧ Rotated s.heap (RightRotate s.heap t).2 t p)
        ∧ ((s.heap.get t).Right = none → LeftRotate s.heap t = (t, s.heap))
        ∧ ((s.heap.get t).Left = none → RightRotate s.heap t = (t, s.heap))) := by
  obtain ⟨s, T, he, hg, -⟩ := run_init ops hv
  rw [he]
  intro t ht
  rw [hg.shape_is] at ht
  refine ⟨fun p hp => LeftRotate_contract s.heap T t p hg.1 ht hp,
    fun p hp => RightRotate_contract s.heap T t p hg.1 ht hp, fun hn => ?_, fun hn => ?_⟩
  · unfold LeftRotate
    rw [hn]
  · unfold RightRotate
    rw [hn]

theorem rotations_preserve_witness :
    Returns (TreeState.init.run [.insert 2 1, .insert 1 3, .insert 3 1, .insert 4 1])
      (fun s => ∀ t ∈ s.shape.ids,
        (∀ p, (s.heap.get t).Right = some p →
            (LeftRotate s.heap t).1 = p ∧ Rotated s.heap (LeftRotate s.heap t).2 t p)
          ∧ (∀ p, (s.heap.get t).Left = some p →
            (RightRotate s.heap t).1 = p ∧ Rotated s.heap (RightRotate s.heap t).2 t p)
          ∧ ((s.heap.get t).Right = none → LeftRotate s.heap t = (t, s.heap))
          ∧ ((s.heap.get t).Left = none → RightRotate s.heap t = (t, s.heap))) :=
  rotations_preserve _ (by decide)

end Hist

namespace Hist

/-- C11: on a tree reached by inserts and deletes, also the empty one,
`root.FindNoLargerThan(v)` returns the last node in order of value at most `v`: it is
`nil` exactly when every stored value is above `v`, else a node of the greatest value
at most `v`; for the value of a node it returns that node, and for a value between a
node and its neighbour below it returns that neighbour (`nil` at the smallest node). -/
theorem floor_query (ops : List TreeOp) (hv : ∀ op ∈ ops, op.valid) (v : ℚ) :
    Returns (TreeState.init.run ops) (fun s =>
      FindNoLargerThan s.heap s.heap.budget s.root v = .ok (floorIn s.heap s.shape.ids v)
        ∧ (floorIn s.heap s.shape.ids v = none ↔ ∀ i ∈ s.shape.ids, v < (s.heap.get i).Value)
        ∧ (∀ n, floorIn s.heap s.shape.ids v = some n →
            n ∈ s.shape.ids ∧ (s.heap.get n).Value ≤ v
              ∧ ∀ i ∈ s.shape.ids, (s.heap.get i).Value ≤ v →
                (s.heap.get i).Value ≤ (s.heap.get n).Value)
        ∧ (∀ x ∈ s.shape.ids, (s.heap.get x).Value = v →
            FindNoLargerThan s.heap s.heap.budget s.root v = .ok (some x))
        ∧ (∀ x ∈ s.shape.ids, v < (s.heap.get x).Value →
            (∀ y, (s.heap.get x).Smaller = some y → (s.heap.get y).Value < v) →
            FindNoLargerThan s.heap s.heap.budget s.root v = .ok (s.heap.get x).Smaller)) := by
  obtain ⟨s, T, he, hg, -⟩ := run_init ops hv
  rw [he]
  show _ ∧ _
  rw [hg.shape_is]
  have hf : FindNoLargerThan s.heap s.heap.budget s.root v = .ok (floorIn s.heap T.ids v) := by
    rw [← hg.2]
    exact FindNoLargerThan_spec hg.1 v
  refine ⟨hf, floorIn_none_iff, fun n hn => floorIn_some hg.1.sorted hn, fun x hx hxv => ?_,
    fun x hx hxv hy => ?_⟩
  · rw [hf, ← hxv, hg.1.floor_exact hx]
  · rw [hf, hg.1.floor_between hx hxv hy]

theorem floor_query_witness :
    Returns (TreeState.init.run [.insert 2 1, .insert 1 3, .insert 5 1, .insert 4 1, .delete 2])
      (fun s =>
        FindNoLargerThan s.heap s.heap.budget s.root 3 = .ok (floorIn s.heap s.shape.ids 3)
          ∧ (floorIn s.heap s.shape.ids 3 = none ↔ ∀ i ∈ s.shape.ids, 3 < (s.heap.get i).Value)
          ∧ (∀ n, floorIn s.heap s.shape.ids 3 = some n →
              n ∈ s.shape.ids ∧ (s.heap.get n).Value ≤ 3
                ∧ ∀ i ∈ s.shape.ids, (s.heap.get i).Value ≤ 3 →
                  (s.heap.get i).Value ≤ (s.heap.get n).Value)
          ∧ (∀ x ∈ s.shape.ids, (s.heap.get x).Value = 3 →
              FindNoLargerThan s.heap s.heap.budget s.root 3 = .ok (some x))
          ∧ (∀ x ∈ s.shape.ids, 3 < (s.heap.get x).Value →
              (∀ y, (s.heap.get x).Smaller = some y → (s.heap.get y).Value < 3) →
              FindNoLargerThan s.heap s.heap.budget s.root 3
                = .ok (s.heap.get x).Smaller)) :=
  floor_query _ (by decide) 3

/-- C12: on a tree reached by `Insert(v, 1, 0)` and `Delete`, `n.CumulativeCount()` of a
node `n` is the sum of the multiplicities of the nodes of value at most that of `n`; at
the node without `Larger` this is the sum over all nodes, which is the count of the
root, at the node without `Smaller` it is the multiplicity of the node, and for a `nil`
receiver the result is 0. -/
theorem cumulative_count_rank (ops : List TreeOp) (hu : ∀ op ∈ ops, op.unit) :
    Returns (TreeState.init.run ops) (fun s =>
      (∀ n ∈ s.shape.ids,
          CumulativeCount s.heap (some n)
              = .ok (dupSum s.heap
                  (s.shape.ids.filter fun i => (s.heap.get i).Value ≤ (s.heap.get n).Value))
            ∧ ((s.heap.get n).Larger = none →
                CumulativeCount s.heap (some n) = .ok (dupSum s.heap s.shape.ids)
                  ∧ cnt s.heap s.root = dupSum s.heap s.shape.ids)
            ∧ ((s.heap.get n).Smaller = none →
                CumulativeCount s.heap (some n) = .ok (s.heap.get n).Duplications))
        ∧ CumulativeCount s.heap none = .ok 0) := by
  obtain ⟨s, T, he, hg, -, -, hc⟩ := run_init ops (fun op ho => TreeOp.valid_of_unit (hu op ho))
  have hcn := hc hu
  rw [he]
  show _ ∧ _
  rw [hg.shape_is]
  refine ⟨fun n hn => ?_, rfl⟩
  have hspec := CumulativeCount_spec hg.1 hcn hn
  refine ⟨hspec, fun hl => ⟨?_, ?_⟩, fun hsm => ?_⟩
  · obtain ⟨A, e⟩ := hg.1.last_of_larger hn hl
    have hs := hg.1.sorted
    rw [e] at hs
    rw [hspec, e, filter_le_sorted hs]
  · rw [← hg.2]
    exact hcn.cnt_root
  · obtain ⟨B, e⟩ := hg.1.first_of_smaller hn hsm
    have hs := hg.1.sorted
    rw [e] at hs
    have hs' : (s.heap.values ([] ++ n :: B)).Pairwise (· < ·) := hs
    rw [hspec, e]
    rw [show n :: B = [] ++ n :: B from rfl, filter_le_sorted hs']
    simp

theorem cumulative_count_rank_witness :
    Returns (TreeState.init.run
        [.insert 2 1, .insert 1 1, .insert 1 1, .insert 5 1, .insert 4 1, .delete 2])
      (fun s =>
        (∀ n ∈ s.shape.ids,
            CumulativeCount s.heap (some n)
                = .ok (dupSum s.heap
                    (s.shape.ids.filter fun i => (s.heap.get i).Value ≤ (s.heap.get n).Value))
              ∧ ((s.heap.get n).Larger = none →
                  CumulativeCount s.heap (some n) = .ok (dupSum s.heap s.shape.ids)
                    ∧ cnt s.heap s.root = dupSum s.heap s.shape.ids)
              ∧ ((s.heap.get n).Smaller = none →
                  CumulativeCount s.heap (some n) = .ok (s.heap.get n).Duplications))
          ∧ CumulativeCount s.heap none = .ok 0) :=
  cumulative_count_rank _ (by decide)

end Hist

namespace Hist

/-- In exact arithmetic: for a window size `W > 0`, after `n` calls `Enqueue(v, 1)` on a
fresh histogram, with or without cursors, `Count` and the length of the FIFO are
`min(n, W)`, and the samples are the values `UnifiedValue` gives the inputs, without the
oldest `n - W`, in the chain as a multiset and in the FIFO in the order of arrival. -/
theorem window_content (W : Int) (slab : ℚ) (accuracy : Int) (ps vs : List ℚ) (hW : 0 < W)
    {hs : Histogram} (he : (newWithCursors W slab accuracy ps).run (enqueues vs) = .ok hs) :
    hs.Count = min (vs.length : Int) W
      ∧ (hs.Queue.length : Int) = min (vs.length : Int) W
      ∧ hs.live.Perm hs.samples
      ∧ hs.samples = (vs.map fun v => goRound (v * (10 : ℚ) ^ accuracy)
          / (10 : ℚ) ^ accuracy).drop (vs.length - W.toNat) := by
  obtain ⟨T, hi, -, hsamp, -, hacc, -⟩ := fresh_run_inv W slab accuracy ps (enqueues vs)
    (enqueues_valid vs) he
  rw [samplesAfter_enqueues] at hsamp
  have hlen := window_length hW (vs.map fun v => goRound (v * (10 : ℚ) ^ accuracy)
    / (10 : ℚ) ^ accuracy)
  rw [← hsamp, List.length_map] at hlen
  have hq : (hs.Queue.length : Int) = min (vs.length : Int) W := by
    rw [← hlen]
    simp [Histogram.samples]
  refine ⟨by rw [hi.count]; exact hq, hq, hi.live_perm, ?_⟩
  rw [hsamp, window_of_pos hW, List.length_map]

/-- C1: for a window size `W > 0`, after `n` calls `Enqueue(v, 1)` on a fresh histogram,
with or without cursors, `Count` and the length of the FIFO are `min(n, W)` and the
samples of the chain (the value of each chain node repeated `Duplications` times) are,
as a multiset, the samples of the FIFO; for inputs on the grid of the accuracy, which
`UnifiedValue` leaves as they are, these are the inputs without the oldest `n - W`, and
the FIFO holds them in the order of arrival.  The calls return when the slab size is at
least one, a slab has fewer than `2^63` buckets, and the values are not negative and lie
in the first `2^63` slabs, where the slab index is an `int64`. -/
theorem sliding_window_content (W : Int) (slab : ℚ) (accuracy : Int) (ps vs : List ℚ)
    (hW : 0 < W) :
    (∀ hs, (newWithCursors W slab accuracy ps).run (enqueues vs) = .ok hs →
        hs.Count = min (vs.length : Int) W
          ∧ (hs.Queue.length : Int) = min (vs.length : Int) W
          ∧ hs.live.Perm hs.samples
          ∧ ((∀ v ∈ vs, (NewHistogram W slab accuracy).UnifiedValue v = v) →
              hs.live.Perm (vs.drop (vs.length - W.toNat))
                ∧ hs.samples = vs.drop (vs.length - W.toNat)))
      ∧ (Feasible slab accuracy (enqueues vs) →
          ∃ hs, (newWithCursors W slab accuracy ps).run (enqueues vs) = .ok hs) := by
  refine ⟨fun hs he => ?_, fun hf => ?_⟩
  · obtain ⟨h1, h2, h3, h4⟩ := window_content W slab accuracy ps vs hW he
    refine ⟨h1, h2, h3, fun hgrid => ?_⟩
    have hmap : (vs.map fun v => goRound (v * (10 : ℚ) ^ accuracy) / (10 : ℚ) ^ accuracy)
        = vs := by
      have : ∀ v ∈ vs, goRound (v * (10 : ℚ) ^ accuracy) / (10 : ℚ) ^ accuracy = id v :=
        fun v hv => hgrid v hv
      rw [List.map_congr_left this, List.map_id]
    rw [hmap] at h4
    exact ⟨h4 ▸ h3, h4⟩
  · obtain ⟨hs, T, he, -⟩ := fresh_run_feasible W slab accuracy ps (enqueues vs)
      (enqueues_valid vs) (Or.inr (enqueues_unit vs)) hf
    exact ⟨hs, he⟩

theorem sliding_window_content_witness :
    Feasible 10 0 (enqueues [0, 10, 20, 30, 40, 50, 60, 70, 80, 90, 100, 110, 120, 130, 140])
      ∧ (∀ v ∈ ([0, 10, 20, 30, 40, 50, 60, 70, 80, 90, 100, 110, 120, 130, 140] : List ℚ),
          (NewHistogram 10 10 0).UnifiedValue v = v)
      ∧ (∀ hs, (newWithCursors 10 10 0 [99 / 100, 199 / 200, 999 / 1000]).run
            (enqueues [0, 10, 20, 30, 40, 50, 60, 70, 80, 90, 100, 110, 120, 130, 140])
              = .ok hs →
          hs.Count = min (([0, 10, 20, 30, 40, 50, 60, 70, 80, 90, 100, 110, 120, 130, 140]
              : List ℚ).length : Int) 10
            ∧ (hs.Queue.length : Int) = min (([0, 10, 20, 30, 40, 50, 60, 70, 80, 90, 100,
                110, 120, 130, 140] : List ℚ).length : Int) 10
            ∧ hs.live.Perm hs.samples
            ∧ ((∀ v ∈ ([0, 10, 20, 30, 40, 50, 60, 70, 80, 90, 100, 110, 120, 130, 140]
                  : List ℚ), (NewHistogram 10 10 0).UnifiedValue v = v) →
                hs.live.Perm
                    (([0, 10, 20, 30, 40, 50, 60, 70, 80, 90, 100, 110, 120, 130, 140]
                      : List ℚ).drop
                      (([0, 10, 20, 30, 40, 50, 60, 70, 80, 90, 100, 110, 120, 130, 140]
                        : List ℚ).length - (10 : Int).toNat))
                  ∧ hs.samples
                    = ([0, 10, 20, 30, 40, 50, 60, 70, 80, 90, 100, 110, 120, 130, 140]
                      : List ℚ).drop
                      (([0, 10, 20, 30, 40, 50, 60, 70, 80, 90, 100, 110, 120, 130, 140]
                        : List ℚ).length - (10 : Int).toNat)))
        ∧ (Feasible 10 0
              (enqueues [0, 10, 20, 30, 40, 50, 60, 70, 80, 90, 100, 110, 120, 130, 140]) →
            ∃ hs, (newWithCursors 10 10 0 [99 / 100, 199 / 200, 999 / 1000]).run
              (enqueues [0, 10, 20, 30, 40, 50, 60, 70, 80, 90, 100, 110, 120, 130, 140])
                = .ok hs) :=
  ⟨by decide!, by decide!,
    sliding_window_content 10 10 0 [99 / 100, 199 / 200, 999 / 1000] _ (by decide)⟩

/-- C2: after every call of a sequence of `Enqueue(v, 1)` and `Dequeue()` on a fresh
histogram, with or without cursors, `Count` is the length of the FIFO and the sum of
`Duplications` over the nodes of the tree, the count of `RootItem` is this number when
there is a root, and `RootItem` is `nil` exactly when the number is 0; the calls return
when the slab size is at least one, a slab has fewer than `2^63` buckets, and the values
are not negative and lie in the first `2^63` slabs.  On a tree: after any sequence of
`Insert(v, 1, 0)` and `Delete` on found nodes, the count of the root is the number of
values inserted and not yet deleted. -/
theorem count_consistency (size : Int) (slab : ℚ) (accuracy : Int) (ps : List ℚ)
    (ops : List HistOp) (tops : List TreeOp) (hu : ∀ op ∈ ops, op.unit)
    (htu : ∀ op ∈ tops, op.unit) :
    (∀ hs, (newWithCursors size slab accuracy ps).run ops = .ok hs →
        hs.Count = (hs.Queue.length : Int)
          ∧ (hs.Queue.length : Int) = dupSum hs.heap hs.treeNodes
          ∧ (∀ r, hs.RootItem = some r → (hs.heap.get r).Count = hs.Count)
          ∧ (hs.RootItem = none ↔ dupSum hs.heap hs.treeNodes = 0))
      ∧ (Feasible slab accuracy ops →
          ∃ hs, (newWithCursors size slab accuracy ps).run ops = .ok hs)
      ∧ Returns (TreeState.init.run tops) (fun s =>
        cnt s.heap s.root = ((liveAfter tops).length : Int)) := by
  have hv : ∀ op ∈ ops, op.valid := fun op ho => HistOp.unit_valid (hu op ho)
  refine ⟨fun hs he => ?_, fun hf => ?_, ?_⟩
  · obtain ⟨T, hi, -, -, -, -, hcn⟩ := fresh_run_inv size slab accuracy ps ops hv he
    have hc := hcn hu
    refine ⟨hi.count, ?_, fun r hr => ?_, ?_⟩
    · rw [hi.treeNodes_eq, hi.dupSum_eq]
    · have := hc.cnt_root
      rw [← hi.root, hr] at this
      rw [hi.count, ← hi.dupSum_eq]
      exact this
    · rw [hi.treeNodes_eq, hi.dupSum_eq, hi.root, Shape.root_eq_none, hi.nil_iff, hi.count]
  · obtain ⟨hs, T, he, -⟩ := fresh_run_feasible size slab accuracy ps ops hv (Or.inr hu) hf
    exact ⟨hs, he⟩
  · obtain ⟨s, T, he, hg, -, hd, hc⟩ := run_init tops
      (fun op ho => TreeOp.valid_of_unit (htu op ho))
    refine returns_of_ok he ?_
    rw [← hg.2, (hc htu).cnt_root]
    exact hd

theorem count_consistency_witness :
    Feasible 10 0 [.enqueue 5 1, .enqueue 2 1, .enqueue 5 1, .dequeue, .enqueue 7 1, .enqueue 1 1]
      ∧ (∀ hs, (newWithCursors 3 10 0 [1 / 2, 99 / 100]).run
          [.enqueue 5 1, .enqueue 2 1, .enqueue 5 1, .dequeue, .enqueue 7 1, .enqueue 1 1]
            = .ok hs →
        hs.Count = (hs.Queue.length : Int)
          ∧ (hs.Queue.length : Int) = dupSum hs.heap hs.treeNodes
          ∧ (∀ r, hs.RootItem = some r → (hs.heap.get r).Count = hs.Count)
          ∧ (hs.RootItem = none ↔ dupSum hs.heap hs.treeNodes = 0))
      ∧ (Feasible 10 0
            [.enqueue 5 1, .enqueue 2 1, .enqueue 5 1, .dequeue, .enqueue 7 1, .enqueue 1 1] →
          ∃ hs, (newWithCursors 3 10 0 [1 / 2, 99 / 100]).run
            [.enqueue 5 1, .enqueue 2 1, .enqueue 5 1, .dequeue, .enqueue 7 1, .enqueue 1 1]
              = .ok hs)
      ∧ Returns (TreeState.init.run
          [.insert 2 1, .insert 1 1, .insert 1 1, .insert 5 1, .delete 2, .delete 9])
        (fun s => cnt s.heap s.root
          = ((liveAfter [.insert 2 1, .insert 1 1, .insert 1 1, .insert 5 1, .delete 2,
              .delete 9]).length : Int)) :=
  ⟨by decide!, count_consistency 3 10 0 [1 / 2, 99 / 100] _ _ (by decide) (by decide)⟩

end Hist

namespace Hist

theorem feasible_drain {slab : ℚ} {accuracy : Int} {vs : List ℚ}
    (hf : Feasible slab accuracy (enqueues vs)) (k : Nat) :
    Feasible slab accuracy (enqueues vs ++ List.replicate k HistOp.dequeue) := by
  refine ⟨hf.1, hf.2.1, fun op ho => ?_⟩
  rcases List.mem_append.mp ho with h | h
  · exact hf.2.2 op h
  · rw [(List.mem_replicate.mp h).2]
    exact ⟨trivial, trivial⟩

/-- C16: enqueueing a list of values with `Enqueue(v, 1)` into a fresh histogram, with
or without cursors, without eviction, and calling `Dequeue()` as many times leaves
`RootItem`, `MinItem` and `MaxItem` `nil`, `Count` 0, the FIFO empty and `Mean` and
`Variance` 0; after `k` calls of `Dequeue()`, `k` less than the number of values, there
is a root still and `Count` is the number of values less `k`.  The calls return when
the slab size is at least one, a slab has fewer than `2^63` buckets, and the values are
not negative and lie in the first `2^63` slabs. -/
theorem drain_round_trip (size : Int) (slab : ℚ) (accuracy : Int) (ps vs : List ℚ)
    (hfit : ¬ 0 < size ∨ (vs.length : Int) ≤ size) :
    (∀ hs, (newWithCursors size slab accuracy ps).run
          (enqueues vs ++ List.replicate vs.length HistOp.dequeue) = .ok hs →
        hs.RootItem = none ∧ hs.MinItem = none ∧ hs.MaxItem = none ∧ hs.Count = 0
          ∧ hs.Queue = [] ∧ hs.Mean = 0 ∧ hs.Variance = 0)
      ∧ (∀ k < vs.length, ∀ hs, (newWithCursors size slab accuracy ps).run
            (enqueues vs ++ List.replicate k HistOp.dequeue) = .ok hs →
          hs.RootItem ≠ none ∧ hs.Count = (vs.length : Int) - (k : Int))
      ∧ (Feasible slab accuracy (enqueues vs) →
          ∀ k, ∃ hs, (newWithCursors size slab accuracy ps).run
            (enqueues vs ++ List.replicate k HistOp.dequeue) = .ok hs) := by
  have hv : ∀ k : Nat, ∀ op ∈ enqueues vs ++ List.replicate k HistOp.dequeue, op.valid := by
    intro k op ho
    rcases List.mem_append.mp ho with h | h
    · exact enqueues_valid vs op h
    · rw [(List.mem_replicate.mp h).2]
      trivial
  have hu : ∀ k : Nat, ∀ op ∈ enqueues vs ++ List.replicate k HistOp.dequeue, op.unit := by
    intro k op ho
    rcases List.mem_append.mp ho with h | h
    · exact enqueues_unit vs op h
    · rw [(List.mem_replicate.mp h).2]
      trivial
  have key : ∀ (k : Nat) (hs : Histogram), (newWithCursors size slab accuracy ps).run
      (enqueues vs ++ List.replicate k HistOp.dequeue) = .ok hs →
      ∃ T, HistInv hs T ∧ hs.MomentsOK ∧ hs.Count = ((vs.length - k : Nat) : Int) := by
    intro k hs he
    obtain ⟨T, hi, hm, hsamp, -, -, -⟩ := fresh_run_inv size slab accuracy ps _ (hv k) he
    refine ⟨T, hi, hm, ?_⟩
    rw [samplesAfter_append, samplesAfter_enqueues, foldl_dequeues,
      window_of_short _ (by rw [List.length_map]; exact hfit)] at hsamp
    rw [hi.samples_length, hsamp, List.length_drop, List.length_map]
  refine ⟨fun hs he => ?_, fun k hk hs he => ?_, fun hf k => ?_⟩
  · obtain ⟨T, hi, hm, hc⟩ := key vs.length hs he
    have hc0 : hs.Count = 0 := by
      rw [hc]
      simp
    obtain ⟨h1, h2, h3, h4⟩ := hi.of_empty hc0
    exact ⟨h1, h2, h3, hc0, h4, (hm.2.2 hc0).1, (hm.2.2 hc0).2⟩
  · obtain ⟨T, hi, hm, hc⟩ := key k hs he
    have hc0 : hs.Count ≠ 0 := by
      rw [hc]
      omega
    obtain ⟨r, -, -, hr, -⟩ := hi.ends hc0
    refine ⟨by rw [hr]; simp, ?_⟩
    rw [hc]
    omega
  · obtain ⟨hs, T, he, -⟩ := fresh_run_feasible size slab accuracy ps _ (hv k)
      (Or.inr (hu k)) (feasible_drain hf k)
    exact ⟨hs, he⟩

theorem drain_round_trip_witness :
    Feasible 10 0 (enqueues [3, 1, 3, 7])
      ∧ (∀ hs, (newWithCursors 0 10 0 [1 / 2]).run
          (enqueues [3, 1, 3, 7]
            ++ List.replicate ([3, 1, 3, 7] : List ℚ).length HistOp.dequeue) = .ok hs →
        hs.RootItem = none ∧ hs.MinItem = none ∧ hs.MaxItem = none ∧ hs.Count = 0
          ∧ hs.Queue = [] ∧ hs.Mean = 0 ∧ hs.Variance = 0)
      ∧ (∀ k < ([3, 1, 3, 7] : List ℚ).length, ∀ hs, (newWithCursors 0 10 0 [1 / 2]).run
            (enqueues [3, 1, 3, 7] ++ List.replicate k HistOp.dequeue) = .ok hs →
          hs.RootItem ≠ none ∧ hs.Count = (([3, 1, 3, 7] : List ℚ).length : Int) - (k : Int))
      ∧ (Feasible 10 0 (enqueues [3, 1, 3, 7]) →
          ∀ k, ∃ hs, (newWithCursors 0 10 0 [1 / 2]).run
            (enqueues [3, 1, 3, 7] ++ List.replicate k HistOp.dequeue) = .ok hs) :=
  ⟨by decide!, drain_round_trip 0 10 0 [1 / 2] [3, 1, 3, 7] (by decide)⟩

/-- C18: after every call of a sequence of `Enqueue(v, 1)` and `Dequeue()` on a fresh
histogram with cursors, or of `Enqueue(v, c)`, `c ≥ 1`, and `Dequeue()` on one without:
when `Count` is 0, `RootItem`, `MinItem` and `MaxItem` are `nil`; when it is not, none
of them is, `MinItem` is the leftmost node of the tree and holds the smallest live
value, and `MaxItem` is the rightmost node and holds the largest.  The calls return
when the slab size is at least one, a slab has fewer than `2^63` buckets, and the values
are not negative and lie in the first `2^63` slabs. -/
theorem min_max_tracking (size : Int) (slab : ℚ) (accuracy : Int) (ps : List ℚ)
    (ops : List HistOp) (hv : ∀ op ∈ ops, op.valid) (hcur : ps = [] ∨ ∀ op ∈ ops, op.unit) :
    (∀ hs, (newWithCursors size slab accuracy ps).run ops = .ok hs →
        (hs.Count = 0 → hs.RootItem = none ∧ hs.MinItem = none ∧ hs.MaxItem = none)
          ∧ (hs.Count ≠ 0 →
            ∃ r mn mx, hs.RootItem = some r ∧ hs.MinItem = some mn ∧ hs.MaxItem = some mx
              ∧ leftmost hs.heap hs.heap.budget r = .ok mn
              ∧ rightmost hs.heap hs.heap.budget r = .ok mx
              ∧ (hs.heap.get mn).Value ∈ hs.samples ∧ (hs.heap.get mx).Value ∈ hs.samples
              ∧ ∀ x ∈ hs.samples, (hs.heap.get mn).Value ≤ x ∧ x ≤ (hs.heap.get mx).Value))
      ∧ (Feasible slab accuracy ops →
          ∃ hs, (newWithCursors size slab accuracy ps).run ops = .ok hs) := by
  constructor
  · intro hs he
    obtain ⟨T, hi, -, -, -, -, -⟩ := fresh_run_inv size slab accuracy ps ops hv he
    exact ⟨fun h0 => ⟨(hi.of_empty h0).1, (hi.of_empty h0).2.1, (hi.of_empty h0).2.2.1⟩,
      fun h0 => hi.ends h0⟩
  · intro hf
    obtain ⟨hs, -, he, -⟩ := fresh_run_feasible size slab accuracy ps ops hv hcur hf
    exact ⟨hs, he⟩

theorem min_max_tracking_witness :
    Feasible 10 0 [.enqueue 5 1, .enqueue 2 1, .enqueue 9 1, .dequeue, .enqueue 7 1]
      ∧ (∀ hs, (newWithCursors 3 10 0 [1 / 2]).run
          [.enqueue 5 1, .enqueue 2 1, .enqueue 9 1, .dequeue, .enqueue 7 1] = .ok hs →
        (hs.Count = 0 → hs.RootItem = none ∧ hs.MinItem = none ∧ hs.MaxItem = none)
          ∧ (hs.Count ≠ 0 →
            ∃ r mn mx, hs.RootItem = some r ∧ hs.MinItem = some mn ∧ hs.MaxItem = some mx
              ∧ leftmost hs.heap hs.heap.budget r = .ok mn
              ∧ rightmost hs.heap hs.heap.budget r = .ok mx
              ∧ (hs.heap.get mn).Value ∈ hs.samples ∧ (hs.heap.get mx).Value ∈ hs.samples
              ∧ ∀ x ∈ hs.samples, (hs.heap.get mn).Value ≤ x ∧ x ≤ (hs.heap.get mx).Value))
      ∧ (Feasible 10 0 [.enqueue 5 1, .enqueue 2 1, .enqueue 9 1, .dequeue, .enqueue 7 1] →
          ∃ hs, (newWithCursors 3 10 0 [1 / 2]).run
            [.enqueue 5 1, .enqueue 2 1, .enqueue 9 1, .dequeue, .enqueue 7 1] = .ok hs) :=
  ⟨by decide!, min_max_tracking 3 10 0 [1 / 2] _ (by decide) (Or.inr (by decide))⟩

/-- C19: in exact arithmetic, after any sequence of `Enqueue(v, c)`, `c ≥ 1`, and
`Dequeue()` on a fresh histogram without cursors, or of `Enqueue(v, 1)` and `Dequeue()`
on one with cursors, with the evictions of the window, the live samples are those the
specification gives, and when `Count > 0`, `Mean` is their arithmetic mean and
`Variance` their population variance; when `Count` is 0 both are 0.  The calls return
when the slab size is at least one, a slab has fewer than `2^63` buckets, and the values
are not negative and lie in the first `2^63` slabs. -/
theorem moments_exact (size : Int) (slab : ℚ) (accuracy : Int) (ps : List ℚ)
    (ops : List HistOp) (hv : ∀ op ∈ ops, op.valid) (hcur : ps = [] ∨ ∀ op ∈ ops, op.unit) :
    (∀ hs, (newWithCursors size slab accuracy ps).run ops = .ok hs →
        hs.samples = samplesAfter size ((10 : ℚ) ^ accuracy) ops
          ∧ (0 < hs.Count →
            hs.Mean = meanOf hs.samples ∧ hs.Variance = varianceOf hs.samples)
          ∧ (hs.Count = 0 → hs.Mean = 0 ∧ hs.Variance = 0))
      ∧ (Feasible slab accuracy ops →
          ∃ hs, (newWithCursors size slab accuracy ps).run ops = .ok hs) := by
  constructor
  · intro hs he
    obtain ⟨T, hi, hm, hsamp, -, -, -⟩ := fresh_run_inv size slab accuracy ps ops hv he
    exact ⟨hsamp, fun hc => moments_eq hi hm hc, hm.2.2⟩
  · intro hf
    obtain ⟨hs, -, he, -⟩ := fresh_run_feasible size slab accuracy ps ops hv hcur hf
    exact ⟨hs, he⟩

theorem moments_exact_witness :
    Feasible 10 1 [.enqueue 5 1, .enqueue 2 3, .dequeue, .enqueue 7 1, .enqueue 1 2]
      ∧ (∀ hs, (newWithCursors 3 10 1 []).run
          [.enqueue 5 1, .enqueue 2 3, .dequeue, .enqueue 7 1, .enqueue 1 2] = .ok hs →
        hs.samples = samplesAfter 3 ((10 : ℚ) ^ (1 : Int))
            [.enqueue 5 1, .enqueue 2 3, .dequeue, .enqueue 7 1, .enqueue 1 2]
          ∧ (0 < hs.Count →
            hs.Mean = meanOf hs.samples ∧ hs.Variance = varianceOf hs.samples)
          ∧ (hs.Count = 0 → hs.Mean = 0 ∧ hs.Variance = 0))
      ∧ (Feasible 10 1 [.enqueue 5 1, .enqueue 2 3, .dequeue, .enqueue 7 1, .enqueue 1 2] →
          ∃ hs, (newWithCursors 3 10 1 []).run
            [.enqueue 5 1, .enqueue 2 3, .dequeue, .enqueue 7 1, .enqueue 1 2] = .ok hs) :=
  ⟨by decide!, moments_exact 3 10 1 [] _ (by decide) (Or.inl rfl)⟩

end Hist

namespace Hist

/-- C28: `GetWaterMark()` is `Count / QueueSize` when `QueueSize > 0` and 0 when
`QueueSize ≤ 0`; after an `Enqueue` that follows any sequence of valid calls on a fresh
histogram with `QueueSize > 0` (calls with single samples when there are cursors) the
watermark lies in `[0, 1]`, it is the number of live samples before the call plus the
number the call brings, cut at `QueueSize`, over `QueueSize`, so it is 1 when that sum
reaches `QueueSize`, and in a sequence of calls `Enqueue` only it is 1 once at least
`QueueSize` samples have been enqueued.  The calls return when the slab size is at
least one, a slab has fewer than `2^63` buckets, and the values are not negative and lie
in the first `2^63` slabs. -/
theorem watermark (size : Int) (slab : ℚ) (accuracy : Int) (ps : List ℚ) (ops : List HistOp)
    (x : ℚ) (c : Int) (hv : ∀ op ∈ ops, op.valid) (hc : 1 ≤ c) (hsz : 0 < size)
    (hcur : ps = [] ∨ ∀ op ∈ ops ++ [.enqueue x c], op.unit) :
    (∀ hs : Histogram, (0 < hs.QueueSize → hs.GetWaterMark = (hs.Count : ℚ) / (hs.QueueSize : ℚ))
        ∧ (hs.QueueSize ≤ 0 → hs.GetWaterMark = 0))
      ∧ (∀ hs, (newWithCursors size slab accuracy ps).run (ops ++ [.enqueue x c]) = .ok hs →
        0 ≤ hs.GetWaterMark ∧ hs.GetWaterMark ≤ 1
          ∧ hs.GetWaterMark
              = ((min (((samplesAfter size ((10 : ℚ) ^ accuracy) ops).length : Int) + c) size
                  : Int) : ℚ) / (size : ℚ)
          ∧ (size ≤ ((samplesAfter size ((10 : ℚ) ^ accuracy) ops).length : Int) + c →
              hs.GetWaterMark = 1)
          ∧ ((∀ op ∈ ops, op.isEnqueue) → size ≤ enqueued (ops ++ [.enqueue x c]) →
              hs.GetWaterMark = 1))
      ∧ (Feasible slab accuracy (ops ++ [.enqueue x c]) →
          ∃ hs, (newWithCursors size slab accuracy ps).run (ops ++ [.enqueue x c])
            = .ok hs) := by
  have hv' : ∀ op ∈ ops ++ [HistOp.enqueue x c], op.valid := by
    intro op ho
    rcases List.mem_append.mp ho with h | h
    · exact hv op h
    · simp only [List.mem_singleton] at h
      subst h
      exact hc
  refine ⟨fun hs => ⟨fun h => ?_, fun h => ?_⟩, fun hs he => ?_, fun hf => ?_⟩
  · unfold Histogram.GetWaterMark
    rw [if_neg (by omega)]
  · unfold Histogram.GetWaterMark
    rw [if_pos h]
  · obtain ⟨T, hi, -, hsamp, hq, -, -⟩ := fresh_run_inv size slab accuracy ps _ hv' he
    have hcount : hs.Count
        = min (((samplesAfter size ((10 : ℚ) ^ accuracy) ops).length : Int) + c) size := by
      rw [hi.samples_length, hsamp, samplesAfter_append]
      exact apply_enqueue_length hsz _ _ x c hc
    have hwm : hs.GetWaterMark = (hs.Count : ℚ) / (size : ℚ) := by
      unfold Histogram.GetWaterMark
      rw [hq, if_neg (by omega)]
    have hszq : (0 : ℚ) < (size : ℚ) := by exact_mod_cast hsz
    have hc0 : 0 ≤ hs.Count := by
      rw [hi.count]
      exact Int.natCast_nonneg _
    have hc1 : hs.Count ≤ size := by
      rw [hcount]
      exact min_le_right _ _
    have hfull : hs.Count = size → hs.GetWaterMark = 1 := by
      intro e
      rw [hwm, e]
      exact div_self (ne_of_gt hszq)
    refine ⟨?_, ?_, by rw [hwm, hcount], fun h => hfull (by rw [hcount]; omega),
      fun hen htot => hfull ?_⟩
    · rw [hwm]
      exact div_nonneg (by exact_mod_cast hc0) (le_of_lt hszq)
    · rw [hwm, div_le_one hszq]
      exact_mod_cast hc1
    · have hlen := foldl_enqueue_length hsz ((10 : ℚ) ^ accuracy) (ops ++ [.enqueue x c]) []
        hv' (by
          intro op ho
          rcases List.mem_append.mp ho with h | h
          · exact hen op h
          · simp only [List.mem_singleton] at h
            subst h
            trivial) (by simp; omega)
      rw [hi.samples_length, hsamp]
      show (((ops ++ [HistOp.enqueue x c]).foldl (HistOp.apply size ((10 : ℚ) ^ accuracy))
        []).length : Int) = size
      rw [hlen]
      simp only [List.length_nil, Nat.cast_zero, zero_add]
      omega
  · obtain ⟨hs, -, he, -⟩ := fresh_run_feasible size slab accuracy ps _ hv' hcur hf
    exact ⟨hs, he⟩

theorem watermark_witness :
    Feasible 10 0 ([.enqueue 5 1, .dequeue, .enqueue 2 1] ++ [.enqueue 4 2])
      ∧ (∀ hs : Histogram, (0 < hs.QueueSize → hs.GetWaterMark = (hs.Count : ℚ) / (hs.QueueSize : ℚ))
        ∧ (hs.QueueSize ≤ 0 → hs.GetWaterMark = 0))
      ∧ (∀ hs, (newWithCursors 3 10 0 []).run
            ([.enqueue 5 1, .dequeue, .enqueue 2 1] ++ [.enqueue 4 2]) = .ok hs →
        0 ≤ hs.GetWaterMark ∧ hs.GetWaterMark ≤ 1
          ∧ hs.GetWaterMark
              = ((min (((samplesAfter 3 ((10 : ℚ) ^ (0 : Int))
                    [.enqueue 5 1, .dequeue, .enqueue 2 1]).length : Int) + 2) 3 : Int) : ℚ)
                / ((3 : Int) : ℚ)
          ∧ (3 ≤ ((samplesAfter 3 ((10 : ℚ) ^ (0 : Int))
                [.enqueue 5 1, .dequeue, .enqueue 2 1]).length : Int) + 2 →
              hs.GetWaterMark = 1)
          ∧ ((∀ op ∈ ([.enqueue 5 1, .dequeue, .enqueue 2 1] : List HistOp), op.isEnqueue) →
              3 ≤ enqueued ([.enqueue 5 1, .dequeue, .enqueue 2 1] ++ [.enqueue 4 2]) →
              hs.GetWaterMark = 1))
      ∧ (Feasible 10 0 ([.enqueue 5 1, .dequeue, .enqueue 2 1] ++ [.enqueue 4 2]) →
          ∃ hs, (newWithCursors 3 10 0 []).run
            ([.enqueue 5 1, .dequeue, .enqueue 2 1] ++ [.enqueue 4 2]) = .ok hs) :=
  ⟨by decide!, watermark 3 10 0 [] _ 4 2 (by decide) (by decide) (by decide) (Or.inl rfl)⟩

/-- C37: on a tree reached by inserts and deletes, `Insert` returns, and when the root
of the tree that holds the old root is another node afterwards, the second result is
that node, and any second result that is not `nil` is the root and has `Parent = nil`;
`Delete` of a node of the tree returns, and when the tree that holds the other nodes
has another root afterwards, the second result is that root, and any second result that
is not `nil` is the root and has `Parent = nil`.  After any sequence of valid calls on
a fresh histogram (calls with single samples when there are cursors), a `RootItem` that
is not `nil` has `Parent = nil`, and every node of the FIFO and of the chain is reached
from `RootItem`.  The calls return when the slab size is at least one, a slab has fewer
than `2^63` buckets, and the values are not negative and lie in the first `2^63`
slabs. -/
theorem no_stale_root (size : Int) (slab : ℚ) (accuracy : Int) (ps : List ℚ)
    (ops : List HistOp) (tops : List TreeOp) (hv : ∀ op ∈ ops, op.valid)
    (htv : ∀ op ∈ tops, op.valid) (hcur : ps = [] ∨ ∀ op ∈ ops, op.unit) :
    Returns (TreeState.init.run tops) (fun s =>
        (∀ root, s.root = some root → ∀ (v : ℚ) (c : Int), 1 ≤ c →
          ∃ item nr h', Insert s.heap.budget s.heap root v c = .ok (item, nr, h')
            ∧ ∃ T', TreeInv h' T' ∧ root ∈ T'.ids
              ∧ (T'.root ≠ some root → nr = T'.root)
              ∧ (∀ x, nr = some x → T'.root = some x ∧ (h'.get x).Parent = none))
        ∧ (∀ n ∈ s.shape.ids,
          ∃ rep nr h', Delete s.heap n = .ok (rep, nr, h')
            ∧ ∃ T', TreeInv h' T' ∧ (∀ i ∈ s.shape.ids, i ≠ n → i ∈ T'.ids)
              ∧ (T'.root ≠ none → T'.root ≠ s.root → nr = T'.root)
              ∧ (∀ x, nr = some x → T'.root = some x ∧ (h'.get x).Parent = none)))
      ∧ (∀ hs, (newWithCursors size slab accuracy ps).run ops = .ok hs →
          ∀ r, hs.RootItem = some r →
            (hs.heap.get r).Parent = none ∧ (∀ i ∈ hs.Queue, i ∈ hs.treeNodes)
              ∧ (∀ i ∈ hs.nodes, i ∈ hs.treeNodes))
      ∧ (Feasible slab accuracy ops →
          ∃ hs, (newWithCursors size slab accuracy ps).run ops = .ok hs) := by
  refine ⟨?_, fun hs he r hr => ?_, fun hf => ?_⟩
  · obtain ⟨s, T, he, hg, -, -, -⟩ := run_init tops htv
    refine returns_of_ok he ⟨fun root hroot v c hc => ?_, ?_⟩
    · have hr : T.root = some root := hg.2.trans hroot
      obtain ⟨item, nr, h', T', hins, hpost⟩ := Insert_spec s.heap T root v c hc hg.1 hr
      refine ⟨item, nr, h', hins, T', hpost.inv, ?_, fun hne => ?_, fun x hx => ?_⟩
      · have hm := Shape.root_mem_ids hr
        rcases hpost.ids with ⟨-, hids, -⟩ | ⟨-, -, -, A, B, eA, eB⟩
        · rw [hids]
          exact hm
        · rw [eA] at hm
          rw [eB]
          simp only [List.mem_append, List.mem_cons] at hm ⊢
          tauto
      · have h1 := hpost.root
        cases nr with
        | none =>
          simp only at h1
          exact absurd (h1.trans hr) hne
        | some y =>
          simp only at h1
          exact h1.symm
      · subst hx
        have h1 := hpost.root
        simp only at h1
        exact ⟨h1, hpost.inv.top_parent h1⟩
    · rw [hg.shape_is]
      intro n hn
      obtain ⟨rep, nr, h', hd, hpost⟩ := Delete_spec s.heap T n hg.1 hn
      refine ⟨rep, nr, h', hd, ?_⟩
      rcases hpost with ⟨-, -, e2, hinv', -, -, -⟩ | ⟨-, hT, -, e2, eh⟩ | ⟨-, T', hrem, e2, hne', -⟩
      · refine ⟨T, hinv', fun i hi _ => hi, fun _ h2 => absurd hg.2 h2, fun x hx => ?_⟩
        rw [e2] at hx
        cases hx
      · subst hT
        refine ⟨.nil, TreeInv.nil _, fun i hi hne => ?_, fun h1 => absurd rfl h1, fun x hx => ?_⟩
        · simp only [Shape.ids, List.nil_append, List.mem_singleton] at hi
          exact absurd hi hne
        · rw [e2] at hx
          cases hx
      · refine ⟨T', hrem.inv, fun i hi hne => ?_, fun _ _ => e2, fun x hx => ?_⟩
        · obtain ⟨A, B, eA, eB⟩ := hrem.ids
          rw [eA] at hi
          rw [eB]
          simp only [List.mem_append, List.mem_cons] at hi ⊢
          tauto
        · rw [e2] at hx
          exact ⟨hx, hrem.inv.top_parent hx⟩
  · obtain ⟨T, hi, -, -, -, -, -⟩ := fresh_run_inv size slab accuracy ps ops hv he
    refine ⟨hi.root_top hr, fun i hiq => ?_, fun i hin => ?_⟩
    · rw [hi.treeNodes_eq]
      exact hi.mem_of_queue hiq
    · rw [hi.treeNodes_eq, ← hi.nodes_eq]
      exact hin
  · obtain ⟨hs, -, he, -⟩ := fresh_run_feasible size slab accuracy ps ops hv hcur hf
    exact ⟨hs, he⟩

theorem no_stale_root_witness :
    Feasible 10 0 [.enqueue 1 1, .enqueue 2 1, .enqueue 3 1, .dequeue]
      ∧ Returns (TreeState.init.run [.insert 1 1, .insert 2 1, .insert 3 2, .delete 1]) (fun s =>
        (∀ root, s.root = some root → ∀ (v : ℚ) (c : Int), 1 ≤ c →
          ∃ item nr h', Insert s.heap.budget s.heap root v c = .ok (item, nr, h')
            ∧ ∃ T', TreeInv h' T' ∧ root ∈ T'.ids
              ∧ (T'.root ≠ some root → nr = T'.root)
              ∧ (∀ x, nr = some x → T'.root = some x ∧ (h'.get x).Parent = none))
        ∧ (∀ n ∈ s.shape.ids,
          ∃ rep nr h', Delete s.heap n = .ok (rep, nr, h')
            ∧ ∃ T', TreeInv h' T' ∧ (∀ i ∈ s.shape.ids, i ≠ n → i ∈ T'.ids)
              ∧ (T'.root ≠ none → T'.root ≠ s.root → nr = T'.root)
              ∧ (∀ x, nr = some x → T'.root = some x ∧ (h'.get x).Parent = none)))
      ∧ (∀ hs, (newWithCursors 2 10 0 [1 / 2]).run
            [.enqueue 1 1, .enqueue 2 1, .enqueue 3 1, .dequeue] = .ok hs →
          ∀ r, hs.RootItem = some r →
            (hs.heap.get r).Parent = none ∧ (∀ i ∈ hs.Queue, i ∈ hs.treeNodes)
              ∧ (∀ i ∈ hs.nodes, i ∈ hs.treeNodes))
      ∧ (Feasible 10 0 [.enqueue 1 1, .enqueue 2 1, .enqueue 3 1, .dequeue] →
          ∃ hs, (newWithCursors 2 10 0 [1 / 2]).run
            [.enqueue 1 1, .enqueue 2 1, .enqueue 3 1, .dequeue] = .ok hs) :=
  ⟨by decide!, no_stale_root 2 10 0 [1 / 2] _ _ (by decide) (by decide) (Or.inr (by decide))⟩

end Hist

namespace Hist

/-- What an exact bucket index gives: the slots hold the nodes of the tree at their
positions, no two nodes share a position, and the multiplicities in the slots add up to
`Count`. -/
theorem bucket_exact {slab acc : ℚ} {hs : Histogram} {T : Shape} (hi : HistInv hs T)
    (hb : BucketInv hs T) (hg : OnGrid hs T) (hr : InRange slab acc hs T) :
      (∀ k j n : Nat, hs.BucketHistogram.slot k j = some n ↔
          n ∈ hs.treeNodes
            ∧ ∃ sb, hs.BucketHistogram.SubBucketHistograms.getD k none = some sb
              ∧ (hs.BucketHistogram.CalcPosition (hs.heap.get n).Value).1 = (k : Int)
              ∧ sb.CalcPosition (hs.heap.get n).Value = (j : Int))
        ∧ (∀ n ∈ hs.treeNodes, ∀ m ∈ hs.treeNodes,
            hs.BucketHistogram.position (hs.heap.get n).Value
              = hs.BucketHistogram.position (hs.heap.get m).Value → n = m)
        ∧ dupSum hs.heap hs.BucketHistogram.entries = hs.Count := by
  refine ⟨fun k j n => ?_, fun n hn' m hm e => ?_, ?_⟩
  · rw [hi.treeNodes_eq]
    constructor
    · intro hsl
      obtain ⟨-, -, sb, hsb⟩ := slot_bounds hsl
      obtain ⟨h1, h2⟩ := (hb.slots k j n).mp hsl
      obtain ⟨e1, e2⟩ := hb.ok.slabs k sb hsb
      obtain ⟨h3, -, -⟩ := bucket_CalcPosition hs.BucketHistogram (hs.heap.get n).Value
        hb.ok.slab (hg n h1).1 (hr.reaches h1)
      unfold BucketHistogram.position at h2
      simp only [Prod.mk.injEq] at h2
      refine ⟨h1, sb, hsb, h2.1, ?_⟩
      rw [← h2.2]
      refine sub_CalcPosition_congr e1 ?_ _
      rw [e2]
      show _ = (hs.BucketHistogram.CalcPosition (hs.heap.get n).Value).2.1
      have h4 := h2.1
      rw [h3] at h4 ⊢
      simp only at h4 ⊢
      rw [h4]
      simp
    · rintro ⟨h1, sb, hsb, h2, h3⟩
      refine (hb.slots k j n).mpr ⟨h1, ?_⟩
      obtain ⟨e1, e2⟩ := hb.ok.slabs k sb hsb
      obtain ⟨h4, -, -⟩ := bucket_CalcPosition hs.BucketHistogram (hs.heap.get n).Value
        hb.ok.slab (hg n h1).1 (hr.reaches h1)
      unfold BucketHistogram.position
      rw [h2, ← h3]
      congr 1
      refine sub_CalcPosition_congr e1.symm ?_ _
      rw [e2]
      show (hs.BucketHistogram.CalcPosition (hs.heap.get n).Value).2.1 = _
      rw [h4] at h2 ⊢
      simp only at h2 ⊢
      rw [h2]
      simp
  · rw [hi.treeNodes_eq] at hn' hm
    exact hi.inv.value_inj hn' hm (position_inj hs.BucketHistogram hb.ok.slab hb.ok.unit
      (hr.rooms hb.unit) (hg n hn').1 (hg m hm).1 (hr.reaches hn') (hr.reaches hm)
      (hg.grid hb.unit hn') (hg.grid hb.unit hm) e)
  · rw [dupSum_perm hs.heap (hb.entries_perm hi hg hr), hi.dupSum_eq, hi.count]

/-- C21: after every call of a sequence of `Enqueue(v, 1)` and `Dequeue()` on a fresh
histogram with cursors, or of `Enqueue(v, c)`, `c ≥ 1`, and `Dequeue()` on one without,
with a slab size of at least one and fewer than `2^63` buckets in a slab, and values
that are not negative and lie in the first `2^63` slabs (exact arithmetic), the calls
return and a slot `[k][j]` of the bucket index holds the node `n` iff `n` is a node of
the tree, `CalcPosition(n.Value)` of the index is `k` and `CalcPosition(n.Value)` of the
slab `k` is `j`; no two nodes of the tree share a position; and the sum of
`Duplications` over the slots that are not `nil` is `Count`. -/
theorem bucket_reverse_map (size : Int) (slab : ℚ) (accuracy : Int) (ps : List ℚ)
    (ops : List HistOp) (hv : ∀ op ∈ ops, op.valid) (hcur : ps = [] ∨ ∀ op ∈ ops, op.unit)
    (hf : Feasible slab accuracy ops) :
    Returns ((newWithCursors size slab accuracy ps).run ops) (fun hs =>
      (∀ k j n : Nat, hs.BucketHistogram.slot k j = some n ↔
          n ∈ hs.treeNodes
            ∧ ∃ sb, hs.BucketHistogram.SubBucketHistograms.getD k none = some sb
              ∧ (hs.BucketHistogram.CalcPosition (hs.heap.get n).Value).1 = (k : Int)
              ∧ sb.CalcPosition (hs.heap.get n).Value = (j : Int))
        ∧ (∀ n ∈ hs.treeNodes, ∀ m ∈ hs.treeNodes,
            hs.BucketHistogram.position (hs.heap.get n).Value
              = hs.BucketHistogram.position (hs.heap.get m).Value → n = m)
        ∧ dupSum hs.heap hs.BucketHistogram.entries = hs.Count) := by
  obtain ⟨hs, T, he, hi, hb, hg, hr⟩ := fresh_run_feasible size slab accuracy ps ops hv hcur hf
  have key := bucket_exact hi hb hg hr
  exact returns_of_ok he key

theorem bucket_reverse_map_witness :
    Returns ((newWithCursors 3 2 0 [1 / 2, 99 / 100]).run
        [.enqueue 5 1, .enqueue 2 1, .enqueue 5 1, .dequeue, .enqueue 7 1, .enqueue 1 1])
      (fun hs =>
      (∀ k j n : Nat, hs.BucketHistogram.slot k j = some n ↔
          n ∈ hs.treeNodes
            ∧ ∃ sb, hs.BucketHistogram.SubBucketHistograms.getD k none = some sb
              ∧ (hs.BucketHistogram.CalcPosition (hs.heap.get n).Value).1 = (k : Int)
              ∧ sb.CalcPosition (hs.heap.get n).Value = (j : Int))
        ∧ (∀ n ∈ hs.treeNodes, ∀ m ∈ hs.treeNodes,
            hs.BucketHistogram.position (hs.heap.get n).Value
              = hs.BucketHistogram.position (hs.heap.get m).Value → n = m)
        ∧ dupSum hs.heap hs.BucketHistogram.entries = hs.Count) :=
  bucket_reverse_map 3 2 0 [1 / 2, 99 / 100] _ (by decide) (Or.inr (by decide)) (by decide!)

end Hist

namespace Hist

/-- C35: after any sequence of `Insert(v, c, 0)` with `c ≥ 1` and `Delete` on nodes of the
tree, from the first node on, the `Height` of every node of the tree is one more than the
larger of the true heights of the subtrees under its `Left` and its `Right`, a missing
child counting 0; a node without children has `Height` 1, and the `Height` of the root
is the height of the tree. -/
theorem stored_heights_true (ops : List TreeOp) (hv : ∀ op ∈ ops, op.valid) :
    Returns (TreeState.init.run ops) (fun s =>
      (∀ i ∈ s.shape.ids, (s.heap.get i).Height
          = 1 + max ((s.heap.heightAt (s.heap.get i).Left : Nat) : Int)
              ((s.heap.heightAt (s.heap.get i).Right : Nat) : Int))
        ∧ (∀ i ∈ s.shape.ids, (s.heap.get i).Left = none → (s.heap.get i).Right = none →
            (s.heap.get i).Height = 1)
        ∧ (∀ r, s.root = some r → (s.heap.get r).Height = (s.shape.height : Int))) := by
  obtain ⟨s, T, he, hg, ht⟩ := run_tall ops TreeState.init .nil TreeState.Good.init trivial hv
  rw [he]
  show (∀ i ∈ s.shape.ids, _) ∧ (∀ i ∈ s.shape.ids, _) ∧ _
  rw [hg.shape_is]
  have hlen : T.ids.length < s.heap.budget := by
    have := hg.1.length_le
    unfold Heap.budget
    omega
  have hall := Tall.at_node s.heap.budget T none hg.1.linked ht hlen
  refine ⟨hall, fun i hi hl hr => ?_, fun r hr => ?_⟩
  · rw [hall i hi, hl, hr, extract_none]
    rfl
  · have hroot : T.root = some r := hg.2.trans hr
    cases T with
    | nil => simp at hroot
    | node l c r' =>
      simp only [Shape.root_node, Option.some.injEq] at hroot
      subst hroot
      exact ht.1

theorem stored_heights_true_witness :
    Returns (TreeState.init.run
        [.insert 2 1, .insert 1 3, .insert 3 1, .insert 4 1, .insert 5 1, .delete 2, .delete 1])
      (fun s =>
        (∀ i ∈ s.shape.ids, (s.heap.get i).Height
            = 1 + max ((s.heap.heightAt (s.heap.get i).Left : Nat) : Int)
                ((s.heap.heightAt (s.heap.get i).Right : Nat) : Int))
          ∧ (∀ i ∈ s.shape.ids, (s.heap.get i).Left = none → (s.heap.get i).Right = none →
              (s.heap.get i).Height = 1)
          ∧ (∀ r, s.root = some r → (s.heap.get r).Height = (s.shape.height : Int))) :=
  stored_heights_true _ (by decide)

end Hist

namespace Hist

/-- C5: after every call of a sequence of `Enqueue(v, 1)` and `Dequeue()` on a fresh
histogram with cursors registered before the first call, when the histogram is not empty
the cursors are the registered ones and every cursor stands on a node of the tree, with a
`Count` that is what `CumulativeCount()` returns on that node and is the number of live
samples of at most the value of the node; the sequence returns when the slab size is at
least one, a slab has fewer than `2^63` buckets, and the values are not negative and lie
in the first `2^63` slabs. -/
theorem cursor_count_bookkeeping (size : Int) (slab : ℚ) (accuracy : Int) (ps : List ℚ)
    (ops : List HistOp) (hu : ∀ op ∈ ops, op.unit) :
    (∀ hs, (newWithCursors size slab accuracy ps).run ops = .ok hs → hs.Count ≠ 0 →
        hs.Percentiles.map (fun p => p.Percentile)
            = (newWithCursors size slab accuracy ps).Percentiles.map (fun p => p.Percentile)
          ∧ ∀ p ∈ hs.Percentiles, ∃ i, p.Item = some i ∧ i ∈ hs.treeNodes
            ∧ CumulativeCount hs.heap p.Item = .ok p.Count
            ∧ p.Count
              = (hs.samples.countP (fun x => decide (x ≤ (hs.heap.get i).Value)) : Int))
      ∧ (Feasible slab accuracy ops →
          ∃ hs, (newWithCursors size slab accuracy ps).run ops = .ok hs) := by
  refine ⟨fun hs he hne => ?_, fun hf => ?_⟩
  swap
  · obtain ⟨hs, -, he, -⟩ := fresh_run_feasible size slab accuracy ps ops
      (fun op ho => HistOp.unit_valid (hu op ho)) (Or.inr hu) hf
    exact ⟨hs, he⟩
  obtain ⟨T, hi, hc, hcur, hps⟩ := fresh_run_keeps size slab accuracy ps ops hu he
  have hT : T.ids ≠ [] := by
    intro e
    have hnil : T = .nil := by
      cases T with
      | nil => rfl
      | node l i r => simp [Shape.ids] at e
    exact hne (hi.nil_iff.mp hnil)
  refine ⟨hps, fun p hp => ?_⟩
  obtain ⟨A, i, B, hTd, hca⟩ := hcur hT p hp
  exact ⟨i, hi.cursor_count hc hTd hca⟩

theorem cursor_count_bookkeeping_witness :
    Feasible 10 0 [.enqueue 2 1, .enqueue 1 1, .enqueue 3 1, .enqueue 3 1, .dequeue, .enqueue 5 1]
      ∧ (∀ hs, (newWithCursors 3 10 0 [1 / 4, 1 / 2, 3 / 4]).run
          [.enqueue 2 1, .enqueue 1 1, .enqueue 3 1, .enqueue 3 1, .dequeue, .enqueue 5 1]
          = .ok hs → hs.Count ≠ 0 →
        hs.Percentiles.map (fun p => p.Percentile)
            = (newWithCursors 3 10 0 [1 / 4, 1 / 2, 3 / 4]).Percentiles.map
                (fun p => p.Percentile)
          ∧ ∀ p ∈ hs.Percentiles, ∃ i, p.Item = some i ∧ i ∈ hs.treeNodes
            ∧ CumulativeCount hs.heap p.Item = .ok p.Count
            ∧ p.Count
              = (hs.samples.countP (fun x => decide (x ≤ (hs.heap.get i).Value)) : Int))
      ∧ (Feasible 10 0 [.enqueue 2 1, .enqueue 1 1, .enqueue 3 1, .enqueue 3 1, .dequeue,
            .enqueue 5 1] →
          ∃ hs, (newWithCursors 3 10 0 [1 / 4, 1 / 2, 3 / 4]).run
            [.enqueue 2 1, .enqueue 1 1, .enqueue 3 1, .enqueue 3 1, .dequeue, .enqueue 5 1]
            = .ok hs) :=
  ⟨by decide!, cursor_count_bookkeeping 3 10 0 [1 / 4, 1 / 2, 3 / 4] _ (by decide)⟩

end Hist

namespace Hist

/-! ## The budget of the product search (C26) -/

/-- C26, amended: for every `p` and every list of histograms with well-formed trees,
`nil` entries allowed, one call of `CalcPercentileOfProduct` returns, after at most 91
evaluations of `SearchPercentileByMultiply`.  The cap of 30 is on `iteration_count`,
which a search inside a slab starts at 1 again, so it holds for each search alone and
not for the searches together. -/
theorem search_bounded (p : ℚ) (histogram_list : List (Option Histogram))
    (hl : ∀ hs, some hs ∈ histogram_list → ∃ T, HistInv hs T) :
    Returns (CalcPercentileOfProductCounted p histogram_list) (fun r => r.2 ≤ 91)
      ∧ ∃ v, CalcPercentileOfProduct p histogram_list = .ok v := by
  have h := product_total p histogram_list hl
  refine ⟨h, ?_⟩
  unfold CalcPercentileOfProduct
  revert h
  cases CalcPercentileOfProductCounted p histogram_list with
  | error e => exact fun h => h.elim
  | ok r => exact fun _ => ⟨r.1, rfl⟩

/-- The histogram with the samples 0 and 10 at accuracy 12, on which the search for
`p = 3/4` makes 32 evaluations, is within the bound. -/
theorem search_bounded_witness :
    Returns ((NewHistogram 0 10 12).run (enqueues [0, 10]))
      (fun hs => Returns (CalcPercentileOfProductCounted (3 / 4) [some hs])
          (fun r => r.2 ≤ 91)
        ∧ ∃ v, CalcPercentileOfProduct (3 / 4) [some hs] = .ok v) := by
  obtain ⟨hs', T', he, hi, -⟩ := fresh_run_returns 0 10 12 (by norm_num) (by norm_num)
    (enqueues [0, 10]) (by decide) (by decide!) (by decide!)
  rw [he]
  exact search_bounded (3 / 4) [some hs'] (fun hs h => by
    rw [List.mem_singleton] at h
    cases h
    exact ⟨T', hi⟩)

end Hist

namespace Hist

/-! ## The cursors and the nearest rank (C3) -/

end Hist

namespace Hist

/-! ## The order of the cursors (C23) -/

end Hist

